import Mathlib

/-!
# Pinocchio: mesh conditioning and skeleton compression

A shallow embedding of the half-edge mesh code (`Pinocchio/mesh.cpp`) and of the
skeleton compression (`Pinocchio/skeleton.cpp`), with the properties the
specification states about them.

Conventions of the embedding:

* `int` fields are `Int`; `std::vector` is `List`; a read or write outside a vector
  (undefined behaviour in the source) makes the embedded function return `none`;
* `double` coordinates are exact rationals;
* `std::map` is an association list in which the newest binding of a key counts.
-/

namespace Pinocchio

/-! ## Data model (mesh.h) -/

/-- Modelled from the spec: `Vector3` of the header vector.h, which is not among the
sources: three coordinates, exact rationals in place of `double`. -/
abbrev Vector3 := ℚ × ℚ × ℚ

/-- Modelled from the spec: `operator+` of vector.h, the component-wise sum. -/
def Vector3.add (a b : Vector3) : Vector3 := (a.1 + b.1, a.2.1 + b.2.1, a.2.2 + b.2.2)

/-- Modelled from the spec: `operator-` of vector.h, the component-wise difference. -/
def Vector3.sub (a b : Vector3) : Vector3 := (a.1 - b.1, a.2.1 - b.2.1, a.2.2 - b.2.2)

/-- Modelled from the spec: `operator*` of vector.h with a scalar. -/
def Vector3.smul (c : ℚ) (a : Vector3) : Vector3 := (c * a.1, c * a.2.1, c * a.2.2)

/-- Mesh vertex of mesh.h: position, normal, and one outgoing half-edge (default -1). -/
structure MeshVertex where
  pos : Vector3 := (0, 0, 0)
  normal : Vector3 := (0, 0, 0)
  edge : Int := -1
deriving DecidableEq, Repr

/-- Half-edge of mesh.h: target vertex, previous half-edge of the triangle, twin; all
default to -1. -/
structure MeshEdge where
  vertex : Int := -1
  prev : Int := -1
  twin : Int := -1
deriving DecidableEq, Repr

instance : Inhabited MeshVertex := ⟨{}⟩

instance : Inhabited MeshEdge := ⟨{}⟩

/-- Mesh of mesh.h. -/
structure Mesh where
  vertices : List MeshVertex := []
  edges : List MeshEdge := []
  toAdd : Vector3 := (0, 0, 0)
  scale : ℚ := 1
deriving DecidableEq, Repr

/-- Checked read `v[i]` with an `int` index: `none` outside the vector. -/
def idx? {α : Type} (l : List α) (i : Int) : Option α :=
  if 0 ≤ i then l[i.toNat]? else none

/-- Checked write `v[i] = x` with an `int` index: `none` outside the vector. -/
def upd? {α : Type} (l : List α) (i : Int) (x : α) : Option (List α) :=
  if 0 ≤ i ∧ i.toNat < l.length then some (l.set i.toNat x) else none

/-- Association-list lookup standing for `map.count(k)` / `map[k]`. -/
def mfind {κ β : Type} [DecidableEq κ] (m : List (κ × β)) (k : κ) : Option β :=
  match m with
  | [] => none
  | (k', v) :: rest => if k = k' then some v else mfind rest k

/-- Assignment `map[k] = v`: the newest binding shadows older ones. -/
def minsert {κ β : Type} (m : List (κ × β)) (k : κ) (v : β) : List (κ × β) := (k, v) :: m

/-! ## fixDupFaces (mesh.cpp 154-226) -/

/-- Sorted vertex triple: the constructor of `MFace` stores the three indices and sorts them. -/
def MFace (v1 v2 v3 : Int) : Int × Int × Int :=
  (min v1 (min v2 v3), max (min v1 v2) (min (max v1 v2) v3), max v1 (max v2 v3))

/-- The `MFace` of the triangle whose first half-edge is at position `i`. -/
def faceAt (edges : List MeshEdge) (i : Int) : Option (Int × Int × Int) := do
  let a ← idx? edges i
  let b ← idx? edges (i + 1)
  let c ← idx? edges (i + 2)
  pure (MFace a.vertex b.vertex c.vertex)

/-- The three assignments `edges[dst + k] = edges[src + k]`, `k = 0, 1, 2`, in order. -/
def copyTri (edges : List MeshEdge) (dst src : Int) : Option (List MeshEdge) := do
  let e0 ← idx? edges src
  let edges ← upd? edges dst e0
  let e1 ← idx? edges (src + 1)
  let edges ← upd? edges (dst + 1) e1
  let e2 ← idx? edges (src + 2)
  upd? edges (dst + 2) e2

/-- First loop of `fixDupFaces`. `i` is the loop variable, `faces` the map from sorted
triples to a triangle position (or -1). The duplicate branch ends with `i -= 3` and the
loop header adds 3 again, so `i` is unchanged there. Each pass either advances `i` or
shortens `edges`; `fuel` bounds the number of passes and `none` is returned when it runs
out or when an access leaves the vector. -/
def fixDupLoop : Nat → Nat → List ((Int × Int × Int) × Int) → List MeshEdge →
    Option (List MeshEdge)
  | 0, _, _, _ => none
  | fuel + 1, i, faces, edges =>
    if i < edges.length then
      match faceAt edges i with
      | none => none
      | some current =>
        match mfind faces current with
        | some oth =>
          if oth = -1 then
            fixDupLoop fuel (i + 3) (minsert faces current i) edges
          else
            let faces := minsert faces current (-1)
            let newOth : Int := (edges.length : Int) - 6
            let newCur : Int := (edges.length : Int) - 3
            match copyTri edges oth newOth with
            | none => none
            | some edges =>
              match copyTri edges i newCur with
              | none => none
              | some edges =>
                match faceAt edges newOth with
                | none => none
                | some newOthF =>
                  let faces := minsert faces newOthF newOth
                  fixDupLoop fuel i faces (edges.take (edges.length - 6))
        | none => fixDupLoop fuel (i + 3) (minsert faces current i) edges
    else some edges

/-- The set `referencedVerts`: in-range vertex indices that some half-edge points to. -/
def referencedVerts (nv : Nat) (edges : List MeshEdge) : List Nat :=
  (List.range nv).filter (fun v => edges.any (fun e => e.vertex = (v : Int)))

/-- The array `newIdxs`: position among the referenced vertices, or -1. -/
def newIdxsLoop (ref : List Nat) : List Nat → Int → List Int
  | [], _ => []
  | i :: rest, curIdx =>
    if i ∈ ref then curIdx :: newIdxsLoop ref rest (curIdx + 1)
    else (-1) :: newIdxsLoop ref rest curIdx

/-- Rewriting of one half-edge: out-of-range indices are skipped. -/
def remapEdge (nv : Nat) (newIdxs : List Int) (e : MeshEdge) : MeshEdge :=
  if e.vertex < 0 ∨ e.vertex ≥ (nv : Int) then e
  else { e with vertex := newIdxs.getD e.vertex.toNat (-1) }

/-- The loop `if(newIdxs[i] > 0) vertices[newIdxs[i]] = vertices[i]`, in place. -/
def moveVerts (newIdxs : List Int) : List Nat → List MeshVertex → List MeshVertex
  | [], vs => vs
  | i :: rest, vs =>
    let n := newIdxs.getD i (-1)
    if n > 0 then moveVerts newIdxs rest (vs.set n.toNat (vs.getD i default))
    else moveVerts newIdxs rest vs

/-- Second half of `fixDupFaces`: drop unreferenced vertices and renumber. -/
def compactVerts (vertices : List MeshVertex) (edges : List MeshEdge) :
    List MeshVertex × List MeshEdge :=
  let nv := vertices.length
  let ref := referencedVerts nv edges
  let newIdxs := newIdxsLoop ref (List.range nv) 0
  let edges := edges.map (remapEdge nv newIdxs)
  let vertices := moveVerts newIdxs (List.range nv) vertices
  (vertices.take ref.length, edges)

/-- Mesh::fixDupFaces. -/
def Mesh.fixDupFaces (m : Mesh) : Option Mesh :=
  match fixDupLoop (m.edges.length + 1) 0 [] m.edges with
  | none => none
  | some edges =>
    let r := compactVerts m.vertices edges
    some { m with vertices := r.1, edges := r.2 }

/-- Half-edges of a triangle list as the readers build them: only `vertex` is set. -/
def edgesOfTriangles : List (Int × Int × Int) → List MeshEdge
  | [] => []
  | (a, b, c) :: rest => { vertex := a } :: { vertex := b } :: { vertex := c } :: edgesOfTriangles rest

/-- The triangles (as sorted triples) of a half-edge list, three half-edges at a time. -/
def trianglesOf : List MeshEdge → List (Int × Int × Int)
  | a :: b :: c :: rest => MFace a.vertex b.vertex c.vertex :: trianglesOf rest
  | _ => []

/-! ## computeTopology (mesh.cpp 88-112) -/

/-- The index `(i - i % 3) + (i + 2) % 3` of the previous half-edge in the triangle. -/
def prevIndex (i : Nat) : Nat := (i - i % 3) + (i + 2) % 3

/-- First loop of `computeTopology`: `edges[i].prev = (i - i % 3) + (i + 2) % 3`,
for the half-edges from position `i` on. -/
def setPrevs : Nat → List MeshEdge → List MeshEdge
  | _, [] => []
  | i, e :: rest => { e with prev := (prevIndex i : Nat) } :: setPrevs (i + 1) rest

/-- Second loop of `computeTopology`, from position `i` with `k` half-edges left.
`halfEdgeMap` is the vector of maps, read as one map keyed by `(v1, v2)` with the bound
of the vector checked at each use (`vertices[v1]` has the same bound as `halfEdgeMap[v1]`).
A duplicate directed edge clears the mesh (`OUT`). -/
def topoLoop (nv : Nat) : Nat → Nat → List ((Int × Int) × Int) → List MeshVertex →
    List MeshEdge → Option (List MeshVertex × List MeshEdge)
  | 0, _, _, vs, es => some (vs, es)
  | k + 1, i, halfEdgeMap, vs, es =>
    match es[i]? with
    | none => none
    | some ei =>
      match idx? es ei.prev with
      | none => none
      | some ep =>
        let v1 := ei.vertex
        let v2 := ep.vertex
        match idx? vs v1 with
        | none => none
        | some vtx =>
          match upd? vs v1 { vtx with edge := ep.prev } with
          | none => none
          | some vs =>
            if (mfind halfEdgeMap (v1, v2)).isSome then some ([], [])
            else
              let halfEdgeMap := minsert halfEdgeMap (v1, v2) (i : Int)
              if v2 < 0 ∨ v2 ≥ (nv : Int) then none
              else
                match mfind halfEdgeMap (v2, v1) with
                | none => topoLoop nv k (i + 1) halfEdgeMap vs es
                | some twin =>
                  match idx? es twin with
                  | none => none
                  | some et =>
                    match upd? es twin { et with twin := (i : Int) } with
                    | none => none
                    | some es =>
                      match es[i]? with
                      | none => none
                      | some ei' =>
                        topoLoop nv k (i + 1) halfEdgeMap vs (es.set i { ei' with twin := twin })

/-- Mesh::computeTopology. -/
def Mesh.computeTopology (m : Mesh) : Option Mesh :=
  match topoLoop m.vertices.length m.edges.length 0 [] m.vertices (setPrevs 0 m.edges) with
  | none => none
  | some r => some { m with vertices := r.1, edges := r.2 }

/-- Target vertex of half-edge `i` (the field `vertex`). -/
def tgtOf (es : List MeshEdge) (i : Nat) : Int := (es.getD i default).vertex

/-- Source vertex of half-edge `i`: the target of the previous half-edge of its triangle. -/
def srcOf (es : List MeshEdge) (i : Nat) : Int := (es.getD (prevIndex i) default).vertex

/-- Directed pair (source, target) of half-edge `i` of a triangle list. -/
def directedPair (es : List MeshEdge) (i : Nat) : Int × Int := (srcOf es i, tgtOf es i)

/-- All directed pairs of a triangle list, in half-edge order. -/
def directedPairs (es : List MeshEdge) : List (Int × Int) :=
  (List.range es.length).map (directedPair es)

/-- Every half-edge points to an existing vertex. -/
def verticesInRange (m : Mesh) : Prop :=
  ∀ e ∈ m.edges, 0 ≤ e.vertex ∧ e.vertex < (m.vertices.length : Int)

instance (m : Mesh) : Decidable (verticesInRange m) := by
  unfold verticesInRange; infer_instance

/-- Twin field of half-edge `i`. -/
def twinOf (es : List MeshEdge) (i : Nat) : Int := (es.getD i default).twin

/-! ## integrityCheck (mesh.cpp 630-688) -/

/-- Read `edges[i]` where the index was range-checked before. -/
def edgeAt (es : List MeshEdge) (i : Int) : MeshEdge := es.getD i.toNat default

/-- Read `vertices[i]` where the index was range-checked before. -/
def vertexAt (vs : List MeshVertex) (i : Int) : MeshVertex := vs.getD i.toNat default

/-- One step of the walk around a vertex: `edges[edges[curEdge].prev].twin`. -/
def walkStep (es : List MeshEdge) (cur : Int) : Int := (edgeAt es (edgeAt es cur).prev).twin

/-- The counter `edgeCount[v]`: how many half-edges have `vertex == v`. -/
def edgeCount (es : List MeshEdge) (v : Int) : Nat := es.countP (fun e => e.vertex = v)

/-- The loop `do { curEdge = walk; ++count; } while(curEdge != startEdge && count <= edgeCount[i])`;
the value is the final `count`. The body runs at most `edgeCount[i] + 1` times, which is
the fuel the caller passes. -/
def walkCount (es : List MeshEdge) (start : Int) (ec : Nat) : Nat → Int → Nat → Nat
  | 0, _, count => count
  | fuel + 1, cur, count =>
    let cur := walkStep es cur
    let count := count + 1
    if cur ≠ start ∧ count ≤ ec then walkCount es start ec fuel cur count else count

/-- The checks of the two range loops (lines 646-655). -/
def rangeChecks (m : Mesh) : Bool :=
  let vs : Int := m.vertices.length
  let es : Int := m.edges.length
  m.vertices.all (fun v => decide (v.edge ≥ 0) && decide (v.edge < es)) &&
  m.edges.all (fun e =>
    (decide (e.vertex ≥ 0) && decide (e.vertex < vs)) &&
    (decide (e.prev ≥ 0) && decide (e.prev < es)) &&
    (decide (e.twin ≥ 0) && decide (e.twin < es)))

/-- The checks of the loop over half-edges (lines 658-665) at half-edge `i`. -/
def edgeChecks (es : List MeshEdge) (i : Int) : Bool :=
  decide ((edgeAt es i).prev ≠ i) &&
  decide ((edgeAt es (edgeAt es (edgeAt es i).prev).prev).prev = i) &&
  decide ((edgeAt es i).twin ≠ i) &&
  decide ((edgeAt es (edgeAt es i).twin).twin = i) &&
  decide ((edgeAt es (edgeAt es i).twin).vertex = (edgeAt es (edgeAt es i).prev).vertex)

/-- The check of line 668 at vertex `i`. -/
def vertexEdgeCheck (m : Mesh) (i : Int) : Bool :=
  decide ((edgeAt m.edges (edgeAt m.edges (vertexAt m.vertices i).edge).prev).vertex = i)

/-- The manifold check of lines 676-685 at vertex `i`. -/
def manifoldCheck (m : Mesh) (i : Int) : Bool :=
  let startEdge := (vertexAt m.vertices i).edge
  let ec := edgeCount m.edges i
  decide (walkCount m.edges startEdge ec (ec + 1) startEdge 0 = ec)

/-- Mesh::integrityCheck. -/
def Mesh.integrityCheck (m : Mesh) : Bool :=
  if m.vertices.length = 0 then decide (m.edges.length = 0)
  else
    decide (m.edges.length > 0) &&
    rangeChecks m &&
    (List.range m.edges.length).all (fun i => edgeChecks m.edges i) &&
    (List.range m.vertices.length).all (fun i => vertexEdgeCheck m i) &&
    (List.range m.vertices.length).all (fun i => manifoldCheck m i)

/-! ## isConnected (mesh.cpp 602-628) -/

/-- Local state of `isConnected`: the flags `reached`, the queue `todo`, `reachedCount`. -/
structure ConnState where
  reached : List Bool
  todo : List Int
  reachedCount : Nat
deriving DecidableEq, Repr

/-- The body `if(!reached[vtx]) { reached[vtx] = true; ++reachedCount; todo.push_back(vtx); }`. -/
def visit (st : ConnState) (vtx : Int) : Option ConnState :=
  match idx? st.reached vtx with
  | none => none
  | some r =>
    if r then some st
    else some { reached := st.reached.set vtx.toNat true,
                todo := st.todo ++ [vtx],
                reachedCount := st.reachedCount + 1 }

/-- The inner loop `do { ... } while(curEdge != startEdge)`; `none` when the fuel runs
out or an index leaves its vector. -/
def connWalk (es : List MeshEdge) (start : Int) : Nat → Int → ConnState → Option ConnState
  | 0, _, _ => none
  | fuel + 1, cur, st =>
    match idx? es cur with
    | none => none
    | some ec =>
      match idx? es ec.prev with
      | none => none
      | some ep =>
        match idx? es ep.twin with
        | none => none
        | some e =>
          match visit st e.vertex with
          | none => none
          | some st =>
            if ep.twin ≠ start then connWalk es start fuel ep.twin st else some st

/-- The outer loop `while(inTodo < (int)todo.size())`. -/
def connLoop (m : Mesh) (inner : Nat) : Nat → Nat → ConnState → Option ConnState
  | 0, _, _ => none
  | fuel + 1, inTodo, st =>
    if inTodo < st.todo.length then
      match st.todo[inTodo]? with
      | none => none
      | some v =>
        match idx? m.vertices v with
        | none => none
        | some vtx =>
          match connWalk m.edges vtx.edge inner vtx.edge st with
          | none => none
          | some st => connLoop m inner fuel (inTodo + 1) st
    else some st

/-- Mesh::isConnected, with `fuel` bounding the passes of each of its two loops;
`none` when the fuel does not suffice or an index leaves its vector. -/
def Mesh.isConnected (fuel : Nat) (m : Mesh) : Option Bool :=
  if m.vertices.length = 0 then some false
  else
    match connLoop m fuel fuel 0
        { reached := (List.replicate m.vertices.length false).set 0 true,
          todo := [0], reachedCount := 1 } with
    | none => none
    | some st => some (decide (st.reachedCount = m.vertices.length))

/-- Vertex `b` is the target of a half-edge that starts at vertex `a`. -/
def Mesh.adjacent (m : Mesh) (a b : Int) : Prop :=
  ∃ i : Nat, i < m.edges.length ∧
    (edgeAt m.edges (edgeAt m.edges i).prev).vertex = a ∧ (edgeAt m.edges i).vertex = b

/-- Vertex `v` can be reached from vertex `u` along half-edges. -/
def Mesh.reachable (m : Mesh) (u v : Int) : Prop := Relation.ReflTransGen m.adjacent u v

/-! ## normalizeBoundingBox (mesh.cpp 132-147) -/

/-- Modelled from the spec: component-wise minimum of two vectors (vector.h, rect.h). -/
def Vector3.cmin (a b : Vector3) : Vector3 := (min a.1 b.1, min a.2.1 b.2.1, min a.2.2 b.2.2)

/-- Modelled from the spec: component-wise maximum of two vectors (vector.h, rect.h). -/
def Vector3.cmax (a b : Vector3) : Vector3 := (max a.1 b.1, max a.2.1 b.2.1, max a.2.2 b.2.2)

/-- Modelled from the spec: the fold `accumulate(ident<double>(), maximum<double>())` of
vector.h, the largest coordinate (`max(extent)` in the spec). -/
def Vector3.maxCoord (a : Vector3) : ℚ := max a.1 (max a.2.1 a.2.2)

/-- Modelled from the spec: the axis-aligned box `Rect3` of the header rect.h, which is
not among the sources. Only its corner points are kept. -/
structure Rect3 where
  lo : Vector3
  hi : Vector3
deriving DecidableEq, Repr

/-- Modelled from the spec: the bounding box `Rect3(begin, end)` of a range of points of
rect.h, as the component-wise minimum and maximum; no box for an empty range. -/
def Rect3.ofPoints : List Vector3 → Option Rect3
  | [] => none
  | p :: ps => some (ps.foldl (fun r q => ⟨r.lo.cmin q, r.hi.cmax q⟩) ⟨p, p⟩)

/-- Modelled from the spec: `Rect3::getSize` of rect.h, the extent along each axis. -/
def Rect3.getSize (r : Rect3) : Vector3 := r.hi.sub r.lo

/-- Modelled from the spec: `Rect3::getCenter` of rect.h, the midpoint of the box. -/
def Rect3.getCenter (r : Rect3) : Vector3 := Vector3.smul (1 / 2) (r.lo.add r.hi)

/-- Positions of the vertices of a mesh. -/
def Mesh.positions (m : Mesh) : List Vector3 := m.vertices.map (fun v => v.pos)

/-- The local `cscale` of `normalizeBoundingBox`: 0.9 over the largest extent. -/
def cscaleOf (boundingBox : Rect3) : ℚ := (9 / 10) / boundingBox.getSize.maxCoord

/-- The local `ctoAdd` of `normalizeBoundingBox`: `(0.5, 0.5, 0.5) - center * cscale`. -/
def ctoAddOf (boundingBox : Rect3) : Vector3 :=
  Vector3.sub (1 / 2, 1 / 2, 1 / 2) (Vector3.smul (cscaleOf boundingBox) boundingBox.getCenter)

/-- The affine map `p ↦ t + c * p` on vectors (`ctoAdd + pos * cscale`). -/
def affine (t : Vector3) (c : ℚ) (p : Vector3) : Vector3 := t.add (Vector3.smul c p)

/-- Mesh::normalizeBoundingBox in exact arithmetic. The source divides 0.9 by the largest
extent of the bounding box without a guard; for a zero extent (or no bounding box at all)
the floating-point result is infinite or not a number, which has no exact value: `none`. -/
def Mesh.normalizeBoundingBox (m : Mesh) : Option Mesh :=
  match Rect3.ofPoints m.positions with
  | none => none
  | some boundingBox =>
    if boundingBox.getSize.maxCoord = 0 then none
    else
      let cscale := cscaleOf boundingBox
      let ctoAdd := ctoAddOf boundingBox
      some { vertices := m.vertices.map (fun v => { v with pos := affine ctoAdd cscale v.pos }),
             edges := m.edges,
             toAdd := affine ctoAdd cscale m.toAdd,
             scale := m.scale * cscale }

/-- Repeated calls of `normalizeBoundingBox`. -/
def Mesh.normalizeTimes : Nat → Mesh → Option Mesh
  | 0, m => some m
  | n + 1, m =>
    match m.normalizeBoundingBox with
    | none => none
    | some m' => Mesh.normalizeTimes n m'

/-- The map-back relation between the vertices of a mesh and their original positions:
`pos = toAdd + scale * original` at every vertex. -/
def Mesh.mapsBack (m : Mesh) (original : List Vector3) : Prop :=
  List.Forall₂ (fun v o => v.pos = m.toAdd.add (Vector3.smul m.scale o)) m.vertices original

/-! ## Skeleton (skeleton.h, skeleton.cpp 24-112) -/

/-- Graph on points of graphutils.h. -/
structure PtGraph where
  verts : List Vector3 := []
  edges : List (List Int) := []
deriving DecidableEq, Repr

/-- Skeleton of skeleton.h. An entry of `fcFractionV` is `none` where the source divides
by a zero bone length. -/
structure Skeleton where
  jointNames : List (String × Int) := []
  fGraphV : PtGraph := {}
  fPrevV : List Int := []
  fSymV : List Int := []
  cGraphV : PtGraph := {}
  cPrevV : List Int := []
  cSymV : List Int := []
  cFeetV : List Bool := []
  cFatV : List Bool := []
  cfMapV : List Int := []
  fcMapV : List Int := []
  fcFractionV : List (Option ℚ) := []
  cLengthV : List ℚ := []
deriving DecidableEq, Repr

/-- The call `v.resize(n, d)` of `std::vector`. -/
def resize {α : Type} (l : List α) (n : Nat) (d : α) : List α :=
  l.take n ++ List.replicate (n - l.length) d

/-- The read `jointNames[name]`, which inserts the value 0 for an unknown name. -/
def nameIndex (names : List (String × Int)) (name : String) : Int × List (String × Int) :=
  match mfind names name with
  | some p => (p, names)
  | none => (0, minsert names name 0)

/-- The call `v[i].push_back(x)` on a vector of vectors. -/
def pushAt (edges : List (List Int)) (i : Int) (x : Int) : Option (List (List Int)) :=
  match idx? edges i with
  | none => none
  | some l => upd? edges i (l ++ [x])

/-- Skeleton::makeJoint. -/
def Skeleton.makeJoint (s : Skeleton) (name : String) (pos : Vector3) (previous : String) :
    Option Skeleton :=
  let cur : Int := s.fSymV.length
  let fSymV := s.fSymV ++ [-1]
  let verts := s.fGraphV.verts ++ [Vector3.smul (1 / 2) pos]
  let edges := resize s.fGraphV.edges (s.fSymV.length + 1) []
  let names := minsert s.jointNames name cur
  if previous = "" then
    some { s with jointNames := names, fSymV := fSymV, fGraphV := ⟨verts, edges⟩,
                  fPrevV := s.fPrevV ++ [-1] }
  else
    let r := nameIndex names previous
    match pushAt edges cur r.1 with
    | none => none
    | some edges =>
      match pushAt edges r.1 cur with
      | none => none
      | some edges =>
        some { s with jointNames := r.2, fSymV := fSymV, fGraphV := ⟨verts, edges⟩,
                      fPrevV := s.fPrevV ++ [r.1] }

/-- One `makeJoint` call: name, position, name of the previous joint (empty for a root). -/
abbrev JointCall := String × Vector3 × String

/-- A skeleton built by a sequence of `makeJoint` calls on a new `Skeleton`. -/
def buildJoints : List JointCall → Skeleton → Option Skeleton
  | [], s => some s
  | (name, pos, previous) :: rest, s =>
    match s.makeJoint name pos previous with
    | none => none
    | some s' => buildJoints rest s'

/-- The loop of lines 31-37: joint `i` is kept unless it has exactly two neighbours and
is not joint 0; `k` joints are left. -/
def keepLoop (edges : List (List Int)) : Nat → Nat → List Int → List Int →
    Option (List Int × List Int)
  | 0, _, fcMap, cfMap => some (fcMap, cfMap)
  | k + 1, i, fcMap, cfMap =>
    match edges[i]? with
    | none => none
    | some ei =>
      if ei.length = 2 ∧ i ≠ 0 then keepLoop edges k (i + 1) fcMap cfMap
      else
        match upd? fcMap i (cfMap.length : Int) with
        | none => none
        | some fcMap => keepLoop edges k (i + 1) fcMap (cfMap ++ [(i : Int)])

/-- The loop `while(fcMapV[curPrev] < 0) curPrev = fPrevV[curPrev];`; the value is the
final `curPrev`. -/
def climb (fcMap fPrev : List Int) : Nat → Int → Option Int
  | 0, _ => none
  | fuel + 1, curPrev =>
    match idx? fcMap curPrev with
    | none => none
    | some c =>
      if c < 0 then
        match idx? fPrev curPrev with
        | none => none
        | some p => climb fcMap fPrev fuel p
      else some curPrev

/-- The loop of lines 45-60 from reduced joint `i` with `k` joints left; the state is
`cGraphV.verts`, `cSymV` and `cPrevV`. -/
def reducedLoop (s : Skeleton) (fuel : Nat) : Nat → Nat → List Vector3 → List Int → List Int →
    Option (List Vector3 × List Int × List Int)
  | 0, _, cverts, cSym, cPrev => some (cverts, cSym, cPrev)
  | k + 1, i, cverts, cSym, cPrev =>
    match s.cfMapV[i]? with
    | none => none
    | some f =>
      match idx? s.fGraphV.verts f, idx? s.fSymV f with
      | some p, some sym =>
        let cSym' : Option (List Int) :=
          if sym ≥ 0 then
            match idx? s.fcMapV sym with
            | none => none
            | some c => upd? cSym i c
          else some cSym
        let cPrev' : Option (List Int) :=
          if i > 0 then
            match idx? s.fPrevV f with
            | none => none
            | some curPrev =>
              match climb s.fcMapV s.fPrevV fuel curPrev with
              | none => none
              | some a =>
                match idx? s.fcMapV a with
                | none => none
                | some c => upd? cPrev i c
          else some cPrev
        match cSym', cPrev' with
        | some cSym, some cPrev => reducedLoop s fuel k (i + 1) (cverts ++ [p]) cSym cPrev
        | _, _ => none
      | _, _ => none

/-- The loop of lines 63-66 from reduced joint `i` with `k` joints left. -/
def graphLoop (cPrev : List Int) : Nat → Nat → List (List Int) → Option (List (List Int))
  | 0, _, edges => some edges
  | k + 1, i, edges =>
    match cPrev[i]? with
    | none => none
    | some p =>
      match pushAt edges i p with
      | none => none
      | some edges =>
        match pushAt edges p i with
        | none => none
        | some edges => graphLoop cPrev k (i + 1) edges

/-- The loop `do { ... } while(fcMapV[cur] == -1)` of lines 74-78: the value is the map
`lengths` and the accumulated bone length. `vlen` stands for `Vector3::length` of the
header vector.h, which is not among the sources. -/
def chainLoop (vlen : Vector3 → ℚ) (s : Skeleton) : Nat → Int → List (Int × ℚ) → ℚ →
    Option (List (Int × ℚ) × ℚ)
  | 0, _, _, _ => none
  | fuel + 1, cur, lengths, acc =>
    match idx? s.fPrevV cur with
    | none => none
    | some p =>
      match idx? s.fGraphV.verts cur, idx? s.fGraphV.verts p with
      | some a, some b =>
        let l := vlen (a.sub b)
        let lengths := minsert lengths cur l
        match idx? s.fcMapV p with
        | none => none
        | some c =>
          if c = -1 then chainLoop vlen s fuel p lengths (acc + l)
          else some (lengths, acc + l)
      | _, _ => none

/-- The loop of lines 80-81: `fcFractionV[it->first] = it->second / cLengthV[i]`. -/
def fractionLoop (total : ℚ) : List (Int × ℚ) → List (Option ℚ) → Option (List (Option ℚ))
  | [], fr => some fr
  | (j, l) :: rest, fr =>
    match upd? fr j (if total = 0 then none else some (l / total)) with
    | none => none
    | some fr => fractionLoop total rest fr

/-- The loop of lines 71-82 from reduced joint `i` with `k` joints left. -/
def lengthLoop (vlen : Vector3 → ℚ) (s : Skeleton) (fuel : Nat) : Nat → Nat → List ℚ →
    List (Option ℚ) → Option (List ℚ × List (Option ℚ))
  | 0, _, cLength, fr => some (cLength, fr)
  | k + 1, i, cLength, fr =>
    match s.cfMapV[i]?, cLength[i]? with
    | some cur, some l0 =>
      match chainLoop vlen s fuel cur [] l0 with
      | none => none
      | some (lengths, total) =>
        match fractionLoop total lengths fr with
        | none => none
        | some fr => lengthLoop vlen s fuel k (i + 1) (cLength.set i total) fr
    | _, _ => none

/-- The skeleton as `initCompressed` holds it after the loop of lines 31-37 returned the
maps `fc` and `cf` (lines 28-43: the resized `fcFractionV` and the cleared flags). -/
def Skeleton.withMaps (s : Skeleton) (fc cf : List Int) : Skeleton :=
  { s with fcMapV := fc, cfMapV := cf,
           fcFractionV := resize s.fcFractionV s.fPrevV.length (some (-1)),
           cFeetV := List.replicate cf.length false, cFatV := List.replicate cf.length false }

/-- The skeleton as `initCompressed` holds it after the loops of lines 45-66. -/
def Skeleton.withReduced (s : Skeleton) (cverts : List Vector3) (cedges : List (List Int))
    (cSym cPrev : List Int) : Skeleton :=
  { s with cGraphV := ⟨cverts, cedges⟩, cSymV := cSym, cPrevV := cPrev }

/-- Skeleton::initCompressed. `fuel` bounds the passes of each of the two loops that
climb towards the root; `none` when it does not suffice or an index leaves its vector. -/
def Skeleton.initCompressed (vlen : Vector3 → ℚ) (fuel : Nat) (s : Skeleton) : Option Skeleton :=
  match keepLoop s.fGraphV.edges s.fPrevV.length 0 (resize s.fcMapV s.fPrevV.length (-1))
      s.cfMapV with
  | none => none
  | some (fcMap, cfMap) =>
    let c := cfMap.length
    match reducedLoop (s.withMaps fcMap cfMap) fuel c 0 s.cGraphV.verts
        (resize s.cSymV c (-1)) (resize s.cPrevV c (-1)) with
    | none => none
    | some (cverts, cSym, cPrev) =>
      match graphLoop cPrev (cPrev.length - 1) 1 (resize s.cGraphV.edges c []) with
      | none => none
      | some cedges =>
        let s2 := (s.withMaps fcMap cfMap).withReduced cverts cedges cSym cPrev
        match lengthLoop vlen s2 fuel (cPrev.length - 1) 1 (resize s.cLengthV cPrev.length 0)
            s2.fcFractionV with
        | none => none
        | some (cLength, fr) => some { s2 with cLengthV := cLength, fcFractionV := fr }

/-! ## Concrete meshes used as inputs -/

/-- Four vertices and the triangle list `(0,1,2), (0,1,2), (0,1,3)`: the second copy of a
face is met at the position six half-edges before the end. -/
def dupFaceMesh : Mesh :=
  { vertices := [{ pos := (0, 0, 0) }, { pos := (1, 0, 0) }, { pos := (0, 1, 0) }, { pos := (0, 0, 1) }],
    edges := edgesOfTriangles [(0, 1, 2), (0, 1, 2), (0, 1, 3)] }

/-- Four vertices of which vertex 0 is not used by the only triangle `(1,2,3)`. -/
def unusedFirstVertexMesh : Mesh :=
  { vertices := [{ pos := (0, 0, 0) }, { pos := (1, 0, 0) }, { pos := (0, 1, 0) }, { pos := (0, 0, 1) }],
    edges := edgesOfTriangles [(1, 2, 3)] }

/-- A closed surface of four triangles `(0,1,2), (0,2,1), (0,1,3), (0,3,1)` on four
vertices, with prev, twin and vertex edges filled in: the half-edge from 0 to 1 occurs
twice (positions 1 and 7), and so does the half-edge from 1 to 0 (positions 3 and 9). -/
def doubledEdgeMesh : Mesh :=
  { vertices := [{ edge := 1 }, { edge := 2 }, { edge := 0 }, { edge := 6 }],
    edges := [⟨0, 2, 4⟩, ⟨1, 0, 9⟩, ⟨2, 1, 5⟩, ⟨0, 5, 7⟩, ⟨2, 3, 0⟩, ⟨1, 4, 2⟩,
              ⟨0, 8, 10⟩, ⟨1, 6, 3⟩, ⟨3, 7, 11⟩, ⟨0, 11, 1⟩, ⟨3, 9, 6⟩, ⟨1, 10, 8⟩] }

/-- The tetrahedron `(0,1,2), (0,2,3), (0,3,1), (1,3,2)` as a triangle list. -/
def tetraInput : Mesh :=
  { vertices := [{ pos := (0, 0, 0) }, { pos := (1, 0, 0) }, { pos := (0, 1, 0) }, { pos := (0, 0, 1) }],
    edges := edgesOfTriangles [(0, 1, 2), (0, 2, 3), (0, 3, 1), (1, 3, 2)] }

/-- The tetrahedron with the topology `computeTopology` gives it. -/
def tetraMesh : Mesh :=
  { vertices := [{ pos := (0, 0, 0), edge := 7 }, { pos := (1, 0, 0), edge := 10 },
                 { pos := (0, 1, 0), edge := 9 }, { pos := (0, 0, 1), edge := 11 }],
    edges := [⟨0, 2, 4⟩, ⟨1, 0, 6⟩, ⟨2, 1, 9⟩, ⟨0, 5, 7⟩, ⟨2, 3, 0⟩, ⟨3, 4, 11⟩,
              ⟨0, 8, 1⟩, ⟨3, 6, 3⟩, ⟨1, 7, 10⟩, ⟨1, 11, 2⟩, ⟨3, 9, 8⟩, ⟨2, 10, 5⟩] }


/-- The original positions can be computed back from a mesh: the scale is not zero and
`original = (pos - toAdd) / scale` at every vertex. -/
def Mesh.recovers (m : Mesh) (original : List Vector3) : Prop :=
  m.scale ≠ 0 ∧
  List.Forall₂ (fun v o => o = Vector3.smul (1 / m.scale) (v.pos.sub m.toAdd)) m.vertices original

/-- Three vertices with extents 1, 2 and 4 along the axes, as loaded (scale 1, toAdd 0). -/
def stretchedMesh : Mesh :=
  { vertices := [{ pos := (0, 0, 0) }, { pos := (1, 2, 4) }, { pos := (1, 0, 0) }] }

/-- The tetrahedron topology with all four vertices at the point `(1,1,1)`. -/
def collapsedTetra : Mesh :=
  { tetraMesh with vertices := tetraMesh.vertices.map (fun v => { v with pos := (1, 1, 1) }) }

/-- State of a skeleton on which only `makeJoint` was called: the vectors of the full
skeleton have one entry per joint, no symmetry is set, and the reduced part is empty. -/
def Skeleton.fresh (s : Skeleton) : Prop :=
  s.fSymV.length = s.fPrevV.length ∧ s.fGraphV.verts.length = s.fPrevV.length ∧
  s.fGraphV.edges.length = s.fPrevV.length ∧ (∀ x ∈ s.fSymV, x = -1) ∧
  s.cfMapV = [] ∧ s.fcMapV = [] ∧ s.cPrevV = [] ∧ s.cSymV = [] ∧ s.cGraphV = {} ∧
  s.cLengthV = [] ∧ s.fcFractionV = []

/-- The `k`-th ancestor of joint `j` in the full skeleton (`k` applications of `fPrev`). -/
def ancestor (fPrev : List Int) : Nat → Int → Option Int
  | 0, j => some j
  | k + 1, j =>
    match idx? fPrev j with
    | none => none
    | some p => ancestor fPrev k p

/-- Joint `a` is the nearest proper ancestor of joint `f` that is kept in the reduced
skeleton: it is the `k`-th ancestor for some `k ≥ 1`, `fcMap[a] ≥ 0`, and every ancestor
strictly between has a negative `fcMap` entry. -/
def nearestKept (fcMap fPrev : List Int) (f a : Int) : Prop :=
  ∃ k : Nat, 1 ≤ k ∧ ancestor fPrev k f = some a ∧
    (∃ c, idx? fcMap a = some c ∧ 0 ≤ c) ∧
    ∀ k' : Nat, 1 ≤ k' → k' < k →
      ∃ b c, ancestor fPrev k' f = some b ∧ idx? fcMap b = some c ∧ c < 0

/-- Relation between the two maps while the loop of lines 31-37 has handled the joints
below `i`: the maps are inverse to each other, entries of `fcMap` not yet set are -1,
and joint 0 is the first one kept. -/
def keepInv (i : Nat) (fc cf : List Int) : Prop :=
  (∀ (a : Nat) (f : Int), cf[a]? = some f →
      ∃ j : Nat, f = (j : Int) ∧ j < i ∧ fc[j]? = some (a : Int)) ∧
  (∀ (j : Nat) (c : Int), fc[j]? = some c →
      c = -1 ∨ (j < i ∧ ∃ a : Nat, c = (a : Int) ∧ cf[a]? = some (j : Int))) ∧
  (1 ≤ i → fc[0]? = some 0) ∧ (i = 0 → cf = [])

/-- Six joints: a spine 0-1-2 and an arm 0-3-4-5; joints 1, 3 and 4 have two neighbours. -/
def sampleCalls : List JointCall :=
  [("root", (0, 0, 0), ""), ("back", (0, 1, 0), "root"), ("hips", (0, 2, 0), "back"),
   ("shoulder", (1, 0, 0), "root"), ("elbow", (2, 0, 0), "shoulder"), ("hand", (3, 0, 0), "elbow")]

/-- The skeleton built from `sampleCalls`. -/
def sampleSkeleton : Skeleton :=
  { jointNames := [("hand", 5), ("elbow", 4), ("shoulder", 3), ("hips", 2), ("back", 1), ("root", 0)],
    fGraphV := ⟨[(0, 0, 0), (0, 1 / 2, 0), (0, 1, 0), (1 / 2, 0, 0), (1, 0, 0), (3 / 2, 0, 0)],
                [[1, 3], [0, 2], [1], [0, 4], [3, 5], [4]]⟩,
    fPrevV := [-1, 0, 1, 0, 3, 4],
    fSymV := [-1, -1, -1, -1, -1, -1] }

/-- A stand-in for `Vector3::length` with rational values: the sum of the absolute
coordinates. -/
def absLength (v : Vector3) : ℚ := |v.1| + |v.2.1| + |v.2.2|

/-- What the loops of `initCompressed` that climb towards the root rely on: the maps
are those of the loop of lines 31-37, the vectors of the full skeleton have one entry
per joint, no symmetry is set, and every joint but joint 0 has a parent with a smaller
index. -/
def Skeleton.climbable (s : Skeleton) : Prop :=
  keepInv s.fPrevV.length s.fcMapV s.cfMapV ∧ s.fcMapV.length = s.fPrevV.length ∧
  s.fGraphV.verts.length = s.fPrevV.length ∧ s.fSymV.length = s.fPrevV.length ∧
  (∀ x ∈ s.fSymV, x = -1) ∧
  (∀ (j : Nat) (p : Int), 1 ≤ j → s.fPrevV[j]? = some p → 0 ≤ p ∧ p < (j : Int))

/-- Half-edge `k` runs opposite to half-edge `j`: from the target of `j` to its source. -/
def reverseOf (es : List MeshEdge) (j k : Nat) : Prop :=
  srcOf es k = tgtOf es j ∧ tgtOf es k = srcOf es j

/-- State of the second loop of `computeTopology` before it handles half-edge `i`, for
the input half-edges `es0`: the half-edge vector `es` has kept its length, targets and
the `prev` of the first loop; `halfEdgeMap` holds exactly the half-edges below `i`, keyed
by (target, source); these have pairwise different directed pairs; and `twin` links
exactly the opposite pairs among them, all other twins being -1. -/
def topoInv (es0 : List MeshEdge) (i : Nat) (halfEdgeMap : List ((Int × Int) × Int))
    (es : List MeshEdge) : Prop :=
  es.length = es0.length ∧
  (∀ j : Nat, j < es0.length →
    ∃ e, es[j]? = some e ∧ e.vertex = tgtOf es0 j ∧ e.prev = (prevIndex j : Int)) ∧
  (∀ (a b v : Int), mfind halfEdgeMap (a, b) = some v ↔
    ∃ j : Nat, j < i ∧ v = (j : Int) ∧ tgtOf es0 j = a ∧ srcOf es0 j = b) ∧
  (∀ j j' : Nat, j < i → j' < i → directedPair es0 j = directedPair es0 j' → j = j') ∧
  (∀ j k : Nat, j < i → k < i → reverseOf es0 j k → twinOf es j = (k : Int)) ∧
  (∀ j : Nat, j < es0.length → (¬ ∃ k : Nat, k < i ∧ j < i ∧ reverseOf es0 j k) →
    twinOf es j = -1)

/-- Source vertex of half-edge `i` through the stored `prev`: `edges[edges[i].prev].vertex`. -/
def sourceAt (es : List MeshEdge) (i : Int) : Int := (edgeAt es (edgeAt es i).prev).vertex

/-- Target vertex of half-edge `i`: `edges[i].vertex`. -/
def targetAt (es : List MeshEdge) (i : Int) : Int := (edgeAt es i).vertex


/-- The field `prev` of half-edge `i` as a position. -/
def prevNat (es : List MeshEdge) (i : Nat) : Nat := (edgeAt es (i : Int)).prev.toNat

/-- The field `twin` of half-edge `i` as a position. -/
def twinNat (es : List MeshEdge) (i : Nat) : Nat := (edgeAt es (i : Int)).twin.toNat

/-- One step of the walk around a vertex, on positions: `twin(prev(i))`. -/
def walkNat (es : List MeshEdge) (i : Nat) : Nat := twinNat es (prevNat es i)

/-- What the loops of lines 645-665 of `integrityCheck` establish about the half-edges:
`prev` and `twin` stay inside the vector, `prev` has period three, `twin` is an
involution, and the twin of a half-edge points to the source of that half-edge. -/
def linked (es : List MeshEdge) : Prop :=
  (∀ i : Nat, i < es.length →
    (edgeAt es (i : Int)).prev = (prevNat es i : Int) ∧ prevNat es i < es.length ∧
    (edgeAt es (i : Int)).twin = (twinNat es i : Int) ∧ twinNat es i < es.length) ∧
  (∀ i : Nat, i < es.length → prevNat es (prevNat es (prevNat es i)) = i) ∧
  (∀ i : Nat, i < es.length → twinNat es (twinNat es i) = i) ∧
  (∀ i : Nat, i < es.length →
    targetAt es (twinNat es i : Int) = targetAt es (prevNat es i : Int))

/-- The half-edges that leave vertex `v`, as a finite set of positions. -/
def leaving (es : List MeshEdge) (v : Int) : Finset Nat :=
  (Finset.range es.length).filter (fun i => sourceAt es (i : Int) = v)

/-- The half-edges that point to vertex `v`, as a finite set of positions. -/
def pointingTo (es : List MeshEdge) (v : Int) : Finset Nat :=
  (Finset.range es.length).filter (fun i => targetAt es (i : Int) = v)

/-- State of `isConnected` between two visits: `reached` has a flag per vertex, `todo`
lists each reached vertex once, `reachedCount` is their number, and every vertex in
`todo` can be reached from vertex 0. -/
def connInv (m : Mesh) (st : ConnState) : Prop :=
  st.reached.length = m.vertices.length ∧ st.todo.Nodup ∧
  (∀ x ∈ st.todo, 0 ≤ x ∧ x < (m.vertices.length : Int)) ∧
  (∀ v : Nat, v < m.vertices.length → (st.reached[v]? = some true ↔ (v : Int) ∈ st.todo)) ∧
  st.reachedCount = st.todo.length ∧ (∀ x ∈ st.todo, m.reachable 0 x)

/-- Two tetrahedron-shaped surfaces side by side, on the vertices 0-3 and 4-7. -/
def twoTetraMesh : Mesh :=
  { vertices := [{ edge := 7 }, { edge := 10 }, { edge := 9 }, { edge := 11 },
                 { edge := 19 }, { edge := 22 }, { edge := 21 }, { edge := 23 }],
    edges := [⟨0, 2, 4⟩, ⟨1, 0, 6⟩, ⟨2, 1, 9⟩, ⟨0, 5, 7⟩, ⟨2, 3, 0⟩, ⟨3, 4, 11⟩,
              ⟨0, 8, 1⟩, ⟨3, 6, 3⟩, ⟨1, 7, 10⟩, ⟨1, 11, 2⟩, ⟨3, 9, 8⟩, ⟨2, 10, 5⟩,
              ⟨4, 14, 16⟩, ⟨5, 12, 18⟩, ⟨6, 13, 21⟩, ⟨4, 17, 19⟩, ⟨6, 15, 12⟩, ⟨7, 16, 23⟩,
              ⟨4, 20, 13⟩, ⟨7, 18, 15⟩, ⟨5, 19, 22⟩, ⟨5, 23, 14⟩, ⟨7, 21, 20⟩, ⟨6, 22, 17⟩] }

/-! ## Quaternion and Transform (transform.h) -/

/-- Modelled from the spec: `operator*` of vector.h between two vectors, the dot product. -/
def Vector3.dot (a b : Vector3) : ℚ := a.1 * b.1 + a.2.1 * b.2.1 + a.2.2 * b.2.2

/-- Modelled from the spec: `operator%` of vector.h, the cross product. -/
def Vector3.cross (a b : Vector3) : Vector3 :=
  (a.2.1 * b.2.2 - a.2.2 * b.2.1, a.2.2 * b.1 - a.1 * b.2.2, a.1 * b.2.1 - a.2.1 * b.1)

/-- Modelled from the spec: unary minus of vector.h. -/
def Vector3.neg (a : Vector3) : Vector3 := (-a.1, -a.2.1, -a.2.2)

/-- Quaternion of transform.h: real part `r` and vector part `v`; the default is the
identity rotation. -/
structure Quaternion where
  r : ℚ := 1
  v : Vector3 := (0, 0, 0)
deriving DecidableEq, Repr

/-- Quaternion multiplication (transform.h 57):
`(r * q.r - v * q.v, r * q.v + q.r * v + v % q.v)`. -/
def Quaternion.mul (p q : Quaternion) : Quaternion :=
  ⟨p.r * q.r - p.v.dot q.v, ((Vector3.smul p.r q.v).add (Vector3.smul q.r p.v)).add (p.v.cross q.v)⟩

/-- Transforming a vector by a quaternion (transform.h 60-69), with the locals `v2`,
`vsq2`, `rv2` and `vv2` of the source. -/
def Quaternion.apply (q : Quaternion) (p : Vector3) : Vector3 :=
  let v2 : Vector3 := q.v.add q.v
  let vsq2 : Vector3 := (q.v.1 * v2.1, q.v.2.1 * v2.2.1, q.v.2.2 * v2.2.2)
  let rv2 : Vector3 := Vector3.smul q.r v2
  let vv2 : Vector3 := (q.v.2.1 * v2.2.2, q.v.1 * v2.2.2, q.v.1 * v2.2.1)
  (p.1 * (1 - vsq2.2.1 - vsq2.2.2) + p.2.1 * (vv2.2.2 - rv2.2.2) + p.2.2 * (vv2.2.1 + rv2.2.1),
   p.2.1 * (1 - vsq2.2.2 - vsq2.1) + p.2.2 * (vv2.1 - rv2.1) + p.1 * (vv2.2.2 + rv2.2.2),
   p.2.2 * (1 - vsq2.1 - vsq2.2.1) + p.1 * (vv2.2.1 - rv2.2.1) + p.2.1 * (vv2.1 + rv2.1))

/-- `Quaternion::inverse` (transform.h 77): `Quaternion(-r, v)`. -/
def Quaternion.inverse (q : Quaternion) : Quaternion := ⟨-q.r, q.v⟩

/-- A quaternion of norm one. -/
def Quaternion.isUnit (q : Quaternion) : Prop := q.r * q.r + q.v.dot q.v = 1

/-- Transform of transform.h: rotation, scale, translation; the default is the identity. -/
structure Transform where
  rot : Quaternion := {}
  scale : ℚ := 1
  trans : Vector3 := (0, 0, 0)
deriving DecidableEq, Repr

/-- Composition `Transform::operator*(const Transform &)` (transform.h 105). -/
def Transform.mul (a b : Transform) : Transform :=
  ⟨a.rot.mul b.rot, a.scale * b.scale, a.trans.add (a.rot.apply (Vector3.smul a.scale b.trans))⟩

/-- Application `Transform::operator*(const Vec &)` (transform.h 106):
`rot * (v * scale) + trans`. -/
def Transform.apply (t : Transform) (v : Vector3) : Vector3 :=
  (t.rot.apply (Vector3.smul t.scale v)).add t.trans

/-- A rotation about the first axis with rational entries, scale 2, and a translation. -/
def sampleTransformA : Transform := ⟨⟨3 / 5, (4 / 5, 0, 0)⟩, 2, (1, 0, -1)⟩

/-- A half turn about the second axis, scale 1/3, and a translation. -/
def sampleTransformB : Transform := ⟨⟨0, (0, 1, 0)⟩, 1 / 3, (0, 5, 2)⟩

/-! ## computeVertexNormals (mesh.cpp 114-130) -/

/-- The loop of lines 119-127 from half-edge `i` with `k` triangles left: the unit normal
of each triangle is added to its three vertices. `vnormalize` stands for
`Vector3::normalize` of the header vector.h, which is not among the sources. -/
def faceNormalLoop (vnormalize : Vector3 → Vector3) (edges : List MeshEdge) :
    Nat → Nat → List MeshVertex → Option (List MeshVertex)
  | 0, _, vs => some vs
  | k + 1, i, vs =>
    match edges[i]?, edges[i + 1]?, edges[i + 2]? with
    | some e1, some e2, some e3 =>
      match idx? vs e1.vertex, idx? vs e2.vertex, idx? vs e3.vertex with
      | some p1, some p2, some p3 =>
        let normal := vnormalize ((p2.pos.sub p1.pos).cross (p3.pos.sub p1.pos))
        match upd? vs e1.vertex { p1 with normal := p1.normal.add normal } with
        | none => none
        | some vs =>
          match idx? vs e2.vertex with
          | none => none
          | some q2 =>
            match upd? vs e2.vertex { q2 with normal := q2.normal.add normal } with
            | none => none
            | some vs =>
              match idx? vs e3.vertex with
              | none => none
              | some q3 =>
                match upd? vs e3.vertex { q3 with normal := q3.normal.add normal } with
                | none => none
                | some vs => faceNormalLoop vnormalize edges k (i + 3) vs
      | _, _, _ => none
    | _, _, _ => none

/-- Mesh::computeVertexNormals. The loop over the triangles runs while `i < edges.size()`
in steps of three, that is `(size + 2) / 3` times. -/
def Mesh.computeVertexNormals (vnormalize : Vector3 → Vector3) (m : Mesh) : Option Mesh :=
  let cleared := m.vertices.map (fun v => { v with normal := (0, 0, 0) })
  match faceNormalLoop vnormalize m.edges ((m.edges.length + 2) / 3) 0 cleared with
  | none => none
  | some vs =>
    some { m with vertices := vs.map (fun v => { v with normal := vnormalize v.normal }) }

/-! ## Attachment: weights and deformation (attachment.cpp 163-220) -/

/-- The private data of `AttachmentPrivate1`: the dense weights per vertex and the
stored (bone, weight) pairs per vertex. -/
structure Attachment where
  weights : List (List ℚ) := []
  nzweights : List (List (Int × ℚ)) := []
deriving DecidableEq, Repr

/-- The body of the loop of lines 177-182 at one vertex: `x` is `rhs[i]` after the solve for
bone `j`; it is clipped to 1 and stored when it exceeds `1e-8`. -/
def clipStore (j : Int) (x : ℚ) (nz : List (Int × ℚ)) : List (Int × ℚ) :=
  let x := if x > 1 then 1 else x
  if x > 1 / 100000000 then nz ++ [(j, x)] else nz

/-- The loop of lines 177-182 for bone `j` over the vertices from `i` on; `rhs i` is the
solver output at vertex `i`. -/
def storeBone (j : Int) (rhs : Nat → ℚ) : Nat → List (List (Int × ℚ)) → List (List (Int × ℚ))
  | _, [] => []
  | i, nz :: rest => clipStore j (rhs i) nz :: storeBone j rhs (i + 1) rest

/-- The loop of lines 169-183 over the bones from `j` on, `k` bones left. `solved j i` is
`rhs[i]` after `Ainv->solve(rhs)` for bone `j`: the outputs of the solver, which is not
among the sources, are taken as they come. -/
def storeBones (solved : Nat → Nat → ℚ) :
    Nat → Nat → List (List (Int × ℚ)) → List (List (Int × ℚ))
  | 0, _, nz => nz
  | k + 1, j, nz => storeBones solved k (j + 1) (storeBone (j : Int) (solved j) 0 nz)

/-- The loop of lines 190-193 at one vertex: each stored weight is divided by `sum` and
copied into the dense weights `w`. A division by zero has no exact value: `none`. -/
def normalizeRow (sum : ℚ) : List (Int × ℚ) → List ℚ → Option (List (Int × ℚ) × List ℚ)
  | [], w => some ([], w)
  | (b, x) :: rest, w =>
    if sum = 0 then none
    else
      match upd? w b (x / sum) with
      | none => none
      | some w =>
        match normalizeRow sum rest w with
        | none => none
        | some (nz, w) => some ((b, x / sum) :: nz, w)

/-- The sum of the stored weights of one vertex (lines 186-188). -/
def weightSum (nz : List (Int × ℚ)) : ℚ := (nz.map (fun p => p.2)).sum

/-- The loop of lines 185-194 over the vertices. -/
def normalizeRows : List (List (Int × ℚ)) → List (List ℚ) →
    Option (List (List (Int × ℚ)) × List (List ℚ))
  | [], [] => some ([], [])
  | nz :: nzs, w :: ws =>
    match normalizeRow (weightSum nz) nz w with
    | none => none
    | some (nz', w') =>
      match normalizeRows nzs ws with
      | none => none
      | some (nzs', ws') => some (nz' :: nzs', w' :: ws')
  | _, _ => none

/-- The part of the constructor of `AttachmentPrivate1` that fills `weights` and
`nzweights` (lines 66-70 and 163-194) for `nv` vertices and `bones` bones. `factored` tells
whether `Am.factor()` returned a factor; `solved` holds the outputs of the per-bone
solves. The write `weights[i][bones - 1] = 0.` needs at least one bone. -/
def Attachment.build (nv bones : Nat) (factored : Bool) (solved : Nat → Nat → ℚ) :
    Option Attachment :=
  if bones = 0 ∧ nv ≠ 0 then none
  else
    let weights := List.replicate nv (List.replicate bones (0 : ℚ))
    let nzweights := List.replicate nv ([] : List (Int × ℚ))
    if factored then
      match normalizeRows (storeBones solved bones 0 nzweights) weights with
      | none => none
      | some (nz, w) => some { weights := w, nzweights := nz }
    else some { weights := weights, nzweights := nzweights }

/-- The loop of lines 211-213 at one vertex with position `pos`: `newPos` accumulates
`(transforms[bone] * pos) * weight`. -/
def blend (transforms : List Transform) (pos : Vector3) :
    List (Int × ℚ) → Vector3 → Option Vector3
  | [], newPos => some newPos
  | (b, w) :: rest, newPos =>
    match idx? transforms b with
    | none => none
    | some t => blend transforms pos rest (newPos.add (Vector3.smul w (t.apply pos)))

/-- The loop of lines 208-215 over the vertices from `i` on. -/
def deformLoop (transforms : List Transform) (nzweights : List (List (Int × ℚ))) :
    Nat → List MeshVertex → Option (List MeshVertex)
  | _, [] => some []
  | i, v :: rest =>
    match nzweights[i]? with
    | none => none
    | some nz =>
      match blend transforms v.pos nz (0, 0, 0) with
      | none => none
      | some newPos =>
        match deformLoop transforms nzweights (i + 1) rest with
        | none => none
        | some rest' => some ({ v with pos := newPos } :: rest')

/-- AttachmentPrivate1::deform. -/
def Attachment.deform (vnormalize : Vector3 → Vector3) (a : Attachment) (mesh : Mesh)
    (transforms : List Transform) : Option Mesh :=
  if mesh.vertices.length ≠ a.weights.length then some mesh
  else
    match deformLoop transforms a.nzweights 0 mesh.vertices with
    | none => none
    | some vs => Mesh.computeVertexNormals vnormalize { mesh with vertices := vs }

/-- The stored pairs of vertex `i` alone: the bones from `j` on, `k` bones left, are
clipped and stored one after the other. -/
def storedRow (solved : Nat → Nat → ℚ) (i : Nat) : Nat → Nat → List (Int × ℚ) → List (Int × ℚ)
  | 0, _, nz => nz
  | k + 1, j, nz => storedRow solved i k (j + 1) (clipStore (j : Int) (solved j i) nz)

/-- A row of stored pairs as the loop over the bones leaves it before bone `j`: the bones
are in range and strictly increasing, and every stored value is above `1e-8`. -/
def rowOk (j : Nat) (nz : List (Int × ℚ)) : Prop :=
  (nz.map (fun p => p.1)).Pairwise (fun a b => a < b) ∧
  ∀ p ∈ nz, 0 ≤ p.1 ∧ p.1 < (j : Int) ∧ (1 : ℚ) / 100000000 < p.2
/-- The sum over the stored `(bone b, weight w)` pairs of `w * (T_b * pos)`; a bone
without a transform contributes nothing. -/
def weightedSum (transforms : List Transform) (pos : Vector3) : List (Int × ℚ) → Vector3
  | [] => (0, 0, 0)
  | (b, w) :: rest =>
    match idx? transforms b with
    | none => weightedSum transforms pos rest
    | some t => (Vector3.smul w (t.apply pos)).add (weightedSum transforms pos rest)

/-- Every stored bone of every vertex has a transform. -/
def bonesInRange (a : Attachment) (transforms : List Transform) : Prop :=
  ∀ nz ∈ a.nzweights, ∀ p ∈ nz, 0 ≤ p.1 ∧ p.1 < (transforms.length : Int)

instance (a : Attachment) (transforms : List Transform) : Decidable (bonesInRange a transforms) := by
  unfold bonesInRange; infer_instance
/-- Solver outputs that are zero for every bone and vertex. -/
def zeroOutputs : Nat → Nat → ℚ := fun _ _ => 0

/-- Solver outputs 1 and 2 for the two bones at vertex 0 and nothing elsewhere. -/
def sampleOutputs : Nat → Nat → ℚ := fun j i => if i = 0 then (j : ℚ) + 1 / 2 else 0

/-- A mesh of one vertex at `(1, 0, 0)` without faces. -/
def oneVertexMesh : Mesh := { vertices := [{ pos := (1, 0, 0) }] }

/-- An attachment of the tetrahedron to two bones: vertex `i` has weight `i / 3` on bone 0
and `1 - i / 3` on bone 1. -/
def sampleAttachment : Attachment :=
  { weights := [[0, 1], [1 / 3, 2 / 3], [2 / 3, 1 / 3], [1, 0]],
    nzweights := [[(1, 1)], [(0, 1 / 3), (1, 2 / 3)], [(0, 2 / 3), (1, 1 / 3)], [(0, 1)]] }

/-- State of the loop of lines 31-37 before joint `i`, for the adjacency lists `edges`:
a joint below `i` has a non-negative `fcMap` entry exactly when it is joint 0 or its
adjacency list does not have two entries; `cfMap` is strictly increasing with entries
below `i`; and the entries of `fcMap` from `i` on are -1. -/
def keptInv (edges : List (List Int)) (i : Nat) (fc cf : List Int) : Prop :=
  (∀ (j : Nat) (e : List Int) (c : Int), j < i → edges[j]? = some e → fc[j]? = some c →
    (0 ≤ c ↔ (j = 0 ∨ e.length ≠ 2))) ∧
  cf.Pairwise (fun a b => a < b) ∧ (∀ f ∈ cf, f < (i : Int)) ∧
  (∀ (j : Nat) (c : Int), i ≤ j → fc[j]? = some c → c = -1)

/-- The adjacency lists of the full graph count the tree: the list of joint `b` has one
entry for its parent, if it has one, and one entry for every joint whose parent is `b`. -/
def edgesCounted (s : Skeleton) : Prop :=
  ∀ (b : Nat) (e : List Int) (p : Int), s.fGraphV.edges[b]? = some e → s.fPrevV[b]? = some p →
    e.length = (if 0 ≤ p then 1 else 0) + s.fPrevV.count (b : Int)

/-- Every parent index is smaller than the index of the joint itself. -/
def parentsFirst (fPrev : List Int) : Prop :=
  ∀ (j : Nat) (p : Int), fPrev[j]? = some p → p < (j : Int)
/-- The length of the full edge from joint `j` to its parent, as line 75 computes it. -/
def edgeLength (vlen : Vector3 → ℚ) (s : Skeleton) (j : Int) : ℚ :=
  match idx? s.fPrevV j with
  | none => 0
  | some p =>
    match idx? s.fGraphV.verts j, idx? s.fGraphV.verts p with
    | some a, some b => vlen (a.sub b)
    | _, _ => 0

/-- The first `k` joints of the chain from joint `j` towards the root: `j`, its parent,
and so on. -/
def chainOf (fPrev : List Int) : Nat → Int → List Int
  | 0, _ => []
  | k + 1, j =>
    j :: (match idx? fPrev j with
          | none => []
          | some p => chainOf fPrev k p)

/-- The sum of the full-edge lengths on the chain of `k` joints from joint `f`. -/
def chainLength (vlen : Vector3 → ℚ) (s : Skeleton) (k : Nat) (f : Int) : ℚ :=
  ((chainOf s.fPrevV k f).map (edgeLength vlen s)).sum

/-- The number of passes of the loop of lines 74-78 from joint `cur`. -/
def chainSteps (fc fPrev : List Int) : Nat → Int → Nat
  | 0, _ => 0
  | fuel + 1, cur =>
    match idx? fPrev cur with
    | none => 1
    | some p =>
      match idx? fc p with
      | none => 1
      | some c => if c = -1 then chainSteps fc fPrev fuel p + 1 else 1

/-- The value of `fcFractionV[j]`, 0 where there is none. -/
def fractionAt (s : Skeleton) (j : Int) : ℚ :=
  match idx? s.fcFractionV j with
  | some (some x) => x
  | _ => 0

/-! ## ObjectProjector (pointprojector.h) -/

/-- What the template `ObjectProjector<Dim, Obj>` uses of its parameters and of the headers
vector.h and rect.h, which are not among the sources: `Obj::boundingRect`, `Obj::project`,
the union `|` of two rectangles, `Rect::distSqTo`, the squared length
`(from - curPt).lengthsq()`, and the default-constructed `Vec` and `Rec`. -/
structure Geometry (Obj Vec Rec : Type) where
  boundingRect : Obj → Rec
  projectObj : Obj → Vec → Vec
  union : Rec → Rec → Rec
  distSqTo : Rec → Vec → ℚ
  distSq : Vec → Vec → ℚ
  vzero : Vec
  rzero : Rec

/-- The node `RNode` of the hierarchy: if `child1` is -1, `child2` is the object index. -/
structure RNode (Rec : Type) where
  rect : Rec
  child1 : Int
  child2 : Int
deriving DecidableEq, Repr

/-- ObjectProjector::initHelper. `orders` holds the `Dim` index vectors; the value is the
index `out` of the new node and the vector `rnodes`. `fuel` bounds the depth of the
recursion; `none` when it does not suffice or an index leaves its vector. -/
def initHelper {Obj Vec Rec : Type} (g : Geometry Obj Vec Rec) (objs : List Obj) (Dim : Nat) :
    Nat → List (List Int) → Nat → List (RNode Rec) → Option (Int × List (RNode Rec))
  | 0, _, _, _ => none
  | fuel + 1, orders, curDim, rnodes =>
    let out := rnodes.length
    let rnodes := rnodes ++ [⟨g.rzero, 0, 0⟩]
    match orders[0]? with
    | none => none
    | some o0 =>
      let num := o0.length
      if num = 1 then
        match o0[0]? with
        | none => none
        | some k =>
          match idx? objs k with
          | none => none
          | some ob => some ((out : Int), rnodes.set out ⟨g.boundingRect ob, -1, k⟩)
      else
        match orders[curDim]? with
        | none => none
        | some oc =>
          if oc.length < num / 2 ∨ orders.any (fun o => o.length < num) then none
          else
            let left := oc.take (num / 2)
            let orders1 := orders.map (fun o => (o.take num).filter (fun x => x ∈ left))
            let orders2 := orders.map (fun o => (o.take num).filter (fun x => ¬ x ∈ left))
            match initHelper g objs Dim fuel orders1 ((curDim + 1) % Dim) rnodes with
            | none => none
            | some (c1, rnodes) =>
              match initHelper g objs Dim fuel orders2 ((curDim + 1) % Dim) rnodes with
              | none => none
              | some (c2, rnodes) =>
                match idx? rnodes c1, idx? rnodes c2 with
                | some n1, some n2 =>
                  if out < rnodes.length then
                    some ((out : Int), rnodes.set out ⟨g.union n1.rect n2.rect, c1, c2⟩)
                  else none
                | _, _ => none

/-- The constructor `ObjectProjector(const vector<Obj> &)`. `orders[d]` is the index vector
`0 .. size-1` as `sort` with `DLess(d, objs)` leaves it: some permutation of the indices,
the order among equal keys being unspecified. -/
def ObjectProjector.construct {Obj Vec Rec : Type} (g : Geometry Obj Vec Rec) (objs : List Obj)
    (orders : List (List Int)) (fuel : Nat) : Option (List (RNode Rec)) :=
  match initHelper g objs orders.length fuel orders 0 [] with
  | none => none
  | some (_, rnodes) => some rnodes

/-- The statement `if(sz >= 2 && todo[sz - 1].first > todo[sz - 2].first) swap(...)`; the
top of the stack `todo` is the head of the list. -/
def swapTop : List (ℚ × Int) → List (ℚ × Int)
  | a :: b :: rest => if a.1 > b.1 then b :: a :: rest else a :: b :: rest
  | todo => todo

/-- The loop `while(sz > 0)` of `ObjectProjector::project`. The static array `todo[10000]`
is a list without bound, its top at the head. -/
def projectLoop {Obj Vec Rec : Type} (g : Geometry Obj Vec Rec) (objs : List Obj)
    (rnodes : List (RNode Rec)) (p : Vec) : Nat → List (ℚ × Int) → ℚ → Vec → Option Vec
  | _, [], _, closestSoFar => some closestSoFar
  | 0, _ :: _, _, _ => none
  | fuel + 1, (l, cur) :: todo, minDistSq, closestSoFar =>
    if l > minDistSq then projectLoop g objs rnodes p fuel todo minDistSq closestSoFar
    else
      match idx? rnodes cur with
      | none => none
      | some nd =>
        if nd.child1 ≥ 0 then
          match idx? rnodes nd.child1, idx? rnodes nd.child2 with
          | some n1, some n2 =>
            let l1 := g.distSqTo n1.rect p
            let todo := if l1 < minDistSq then (l1, nd.child1) :: todo else todo
            let l2 := g.distSqTo n2.rect p
            let todo := if l2 < minDistSq then (l2, nd.child2) :: todo else todo
            projectLoop g objs rnodes p fuel (swapTop todo) minDistSq closestSoFar
          | _, _ => none
        else
          match idx? objs nd.child2 with
          | none => none
          | some ob =>
            let curPt := g.projectObj ob p
            let distSq := g.distSq p curPt
            if distSq ≤ minDistSq then projectLoop g objs rnodes p fuel todo distSq curPt
            else projectLoop g objs rnodes p fuel todo minDistSq closestSoFar

/-- ObjectProjector::project: the start value of `minDistSq` is `1e37`. -/
def ObjectProjector.project {Obj Vec Rec : Type} (g : Geometry Obj Vec Rec) (objs : List Obj)
    (rnodes : List (RNode Rec)) (fuel : Nat) (p : Vec) : Option Vec :=
  match rnodes[0]? with
  | none => none
  | some root => projectLoop g objs rnodes p fuel [(g.distSqTo root.rect p, 0)] (10 ^ 37) g.vzero

/-- The objects below node `c` of the hierarchy. -/
def leavesOf {Rec : Type} (rnodes : List (RNode Rec)) : Nat → Int → List Int
  | 0, _ => []
  | fuel + 1, c =>
    match idx? rnodes c with
    | none => []
    | some nd =>
      if nd.child1 ≥ 0 then leavesOf rnodes fuel nd.child1 ++ leavesOf rnodes fuel nd.child2
      else [nd.child2]

/-- The test at node `c` and object `k`: the `distSqTo` of the node rectangle is at most
the squared distance from `p` to the projection of the object. -/
def boundHolds {Obj Vec Rec : Type} (g : Geometry Obj Vec Rec) (objs : List Obj)
    (rnodes : List (RNode Rec)) (p : Vec) (c : Nat) (k : Int) : Bool :=
  match rnodes[c]?, idx? objs k with
  | some nd, some ob => decide (g.distSqTo nd.rect p ≤ g.distSq p (g.projectObj ob p))
  | _, _ => true

/-- Every node rectangle's `distSqTo` is a lower bound on the squared distance from `p` to
the projection of any object below the node. -/
def lowerBounds {Obj Vec Rec : Type} (g : Geometry Obj Vec Rec) (objs : List Obj)
    (rnodes : List (RNode Rec)) (p : Vec) : Prop :=
  ∀ c : Nat, c < rnodes.length → ∀ k ∈ leavesOf rnodes rnodes.length (c : Int),
    boundHolds g objs rnodes p c k = true

instance {Obj Vec Rec : Type} (g : Geometry Obj Vec Rec) (objs : List Obj)
    (rnodes : List (RNode Rec)) (p : Vec) : Decidable (lowerBounds g objs rnodes p) := by
  unfold lowerBounds; infer_instance

/-- A hierarchy as a tree: a leaf holds an object index. -/
inductive BTree where
  | leaf (k : Int) : BTree
  | node (l r : BTree) : BTree

/-- The object indices at the leaves of a tree. -/
def BTree.leaves : BTree → List Int
  | .leaf k => [k]
  | .node l r => l.leaves ++ r.leaves

/-- The number of nodes of a tree. -/
def BTree.size : BTree → Nat
  | .leaf _ => 1
  | .node l r => 1 + l.size + r.size

/-- The number of levels of a tree. -/
def BTree.depth : BTree → Nat
  | .leaf _ => 1
  | .node l r => 1 + max l.depth r.depth

/-- The nodes from index `c` on hold the tree `t`: children have larger indices than their
parent. -/
def treeAt {Rec : Type} (rnodes : List (RNode Rec)) : BTree → Int → Prop
  | .leaf k, c => ∃ nd, idx? rnodes c = some nd ∧ nd.child1 = -1 ∧ nd.child2 = k
  | .node l r, c => ∃ nd, idx? rnodes c = some nd ∧ 0 ≤ nd.child1 ∧ c < nd.child1 ∧
      c < nd.child2 ∧ treeAt rnodes l nd.child1 ∧ treeAt rnodes r nd.child2

/-- Modelled from the spec: the point primitive `Vec3Object` of the nearest-point query
with the operations of vector.h and rect.h, which are not among the sources: the rectangle
of a point is the point itself, the union of two rectangles is the smallest rectangle
around both, `distSqTo` is the squared distance from a point to the rectangle (zero
inside), and `lengthsq` is the squared Euclidean length. -/
def pointGeometry : Geometry Vector3 Vector3 Rect3 where
  boundingRect := fun v => ⟨v, v⟩
  projectObj := fun v _ => v
  union := fun a b => ⟨a.lo.cmin b.lo, a.hi.cmax b.hi⟩
  distSqTo := fun r p =>
    let d := ((r.lo.sub p).cmax (p.sub r.hi)).cmax (0, 0, 0)
    d.dot d
  distSq := fun a b => (a.sub b).dot (a.sub b)
  vzero := (0, 0, 0)
  rzero := ⟨(0, 0, 0), (0, 0, 0)⟩
/-- One point object at distance `4e18` from the origin along the first axis. -/
def farObjects : List Vector3 := [(4000000000000000000, 0, 0)]

/-- Three point objects. -/
def samplePoints : List Vector3 := [(1, 0, 0), (0, 2, 0), (5, 5, 5)]

/-- The indices of `samplePoints` sorted along each of the three axes. -/
def sampleOrders : List (List Int) := [[1, 0, 2], [0, 1, 2], [0, 1, 2]]

/-! ## LSQSystem (lsqSolver.h) -/

/-- The assignment `m[k] = v` of `std::map` when `k` is a key of `m`: the first entry with
key `k` gets the value `v`. -/
def mreplace {κ β : Type} [DecidableEq κ] : List (κ × β) → κ → β → List (κ × β)
  | [], _, _ => []
  | (k', v') :: rest, k, v =>
    if k = k' then (k, v) :: rest else (k', v') :: mreplace rest k v

/-- The insertion of a new key into a `std::map`, before the first larger key. -/
def minsertSorted {κ β : Type} (lt : κ → κ → Bool) : List (κ × β) → κ → β → List (κ × β)
  | [], k, v => [(k, v)]
  | (k', v') :: rest, k, v =>
    if lt k k' then (k, v) :: (k', v') :: rest else (k', v') :: minsertSorted lt rest k v

/-- The assignment `m[k] = v` of a `std::map` kept as a list of pairs in key order. -/
def mset {κ β : Type} [DecidableEq κ] (lt : κ → κ → Bool) (m : List (κ × β)) (k : κ) (v : β) :
    List (κ × β) :=
  if (mfind m k).isSome then mreplace m k v else minsertSorted lt m k v

/-- The call `m.erase(k)` of `std::map`. -/
def merase {κ β : Type} [DecidableEq κ] : List (κ × β) → κ → List (κ × β)
  | [], _ => []
  | (k', v') :: rest, k => if k = k' then rest else (k', v') :: merase rest k

/-- The statement `m[k] += c` of a `std::map` with `double` values: a missing entry starts
at zero. -/
def maddTo {κ : Type} [DecidableEq κ] (lt : κ → κ → Bool) (m : List (κ × ℚ)) (k : κ) (c : ℚ) :
    List (κ × ℚ) :=
  mset lt m k ((mfind m k).getD 0 + c)

/-- The order of the keys `pair<C, int>` of the map `constraints`. -/
def keyLt {C : Type} [LinearOrder C] (a b : C × Int) : Bool :=
  decide (a.1 < b.1 ∨ (a.1 = b.1 ∧ a.2 < b.2))

/-- The order `<` of a key type as a Boolean function. -/
def varLt {V : Type} [LinearOrder V] (a b : V) : Bool := decide (a < b)

/-- The order of `pair<int, double>` that `sort` uses on the rows of `softMatrix`. -/
def pairLe (a b : Int × ℚ) : Prop := a.1 < b.1 ∨ (a.1 = b.1 ∧ a.2 ≤ b.2)

instance : DecidableRel pairLe := fun a b => by unfold pairLe; infer_instance

/-- The struct `LSQSystem::Constraint`. -/
structure Constraint (V : Type) where
  hard : Bool
  lhs : List (V × ℚ)
  rhs : ℚ := 0
deriving DecidableEq, Repr

/-- The classes `SPDMatrix` and `LLTMatrix`, whose implementation is not among the sources,
as far as `LSQSystem` uses them: `SPDMatrix(m).factor()` (no value for a null pointer), the
size of the factor, and `LLTMatrix::solve`, which gives the solution or no value when it
returns false. -/
structure SPDSolver (LLT : Type) where
  factor : List (List (Int × ℚ)) → Option LLT
  size : LLT → Int
  solve : LLT → List ℚ → Option (List ℚ)

/-- The class `LSQSystem<V, C>`. -/
structure LSQSystem (V C LLT : Type) where
  constraints : List ((C × Int) × Constraint V) := []
  result : List (V × ℚ) := []
  softNum : Int := 0
  varIds : List V := []
  constraintMap : List ((C × Int) × Int) := []
  substitutedHard : List (List (Int × ℚ)) := []
  rhsTransform : List (List (Int × ℚ)) := []
  softMatrix : List (List (Int × ℚ)) := []
  factoredMatrix : Option LLT := none

/-- The first `addConstraint`: a constraint with the identifier `id`, its right-hand side
to be set later. -/
def LSQSystem.addConstraintId {V C LLT : Type} [LinearOrder C] (s : LSQSystem V C LLT)
    (hard : Bool) (lhs : List (V × ℚ)) (id : C) : LSQSystem V C LLT :=
  { s with constraints := mset keyLt s.constraints (id, -1) ⟨hard, lhs, 0⟩ }

/-- The second `addConstraint`: a constraint with the right-hand side `rhs` and the key
`(C(), constraints.size())`. -/
def LSQSystem.addConstraint {V C LLT : Type} [LinearOrder C] [Inhabited C]
    (s : LSQSystem V C LLT) (hard : Bool) (rhs : ℚ) (lhs : List (V × ℚ)) : LSQSystem V C LLT :=
  let key : C × Int := (default, (s.constraints.length : Int))
  { s with constraints := mset keyLt s.constraints key ⟨hard, lhs, rhs⟩ }

/-- LSQSystem::setRhs; no value when the assertion fails. -/
def LSQSystem.setRhs {V C LLT : Type} [LinearOrder C] (s : LSQSystem V C LLT) (id : C)
    (rhs : ℚ) : Option (LSQSystem V C LLT) :=
  match mfind s.constraints (id, -1) with
  | none => none
  | some c => some { s with constraints := mset keyLt s.constraints (id, -1) { c with rhs := rhs } }

/-- The state of the pivot search of `factor`: `bestVar`, `bestEq`, `bestVal`. -/
structure Pivot (V : Type) where
  bestVar : V
  bestEq : Int
  bestVal : ℚ

/-- The inner loop of the pivot search over the entries of hard constraint `i` with `size`
entries; the flag tells that the search is over (`break` from both loops). -/
def pivotRow {V : Type} (i : Nat) (size : Nat) : List (V × ℚ) → Pivot V → Pivot V × Bool
  | [], best => (best, false)
  | (v, c) :: rest, best =>
    let val := |c| / ((size : ℚ) - 9 / 10)
    if val > best.bestVal then
      if val > 1 / 2 ∧ size ≤ 2 then (⟨v, i, val⟩, true)
      else pivotRow i size rest ⟨v, i, val⟩
    else pivotRow i size rest best

/-- The outer loop of the pivot search from hard constraint `i` on. -/
def pivotSearch {V : Type} : Nat → List (List (V × ℚ)) → Pivot V → Pivot V
  | _, [], best => best
  | i, h :: hs, best =>
    match pivotRow i h.length h best with
    | (best, true) => best
    | (best, false) => pivotSearch (i + 1) hs best

/-- The statements `swap(v[i], v.back()); ... v.pop_back();`: the entry `i` is taken out and
the last entry takes its place. -/
def swapPop {α : Type} (l : List α) (i : Nat) : List α :=
  match l.getLast? with
  | none => []
  | some x => (l.set i x).dropLast

/-- The call `v[i].push_back(x)` on a vector of vectors of pairs. -/
def pushAtPair (m : List (List (Int × ℚ))) (i : Int) (x : Int × ℚ) :
    Option (List (List (Int × ℚ))) :=
  match idx? m i with
  | none => none
  | some l => upd? m i (l ++ [x])

/-- The local variables of the loop `while(hardConstraints.size())` of `factor`, and
`constraintMap`. -/
structure Reduction (V C : Type) where
  hardConstraints : List (List (V × ℚ))
  hardConstraintIds : List (C × Int)
  hardRhs : List (List ((C × Int) × ℚ))
  substitutions : List (V × List (V × ℚ)) := []
  substitutionsRhs : List (V × List ((C × Int) × ℚ)) := []
  substitutionConstraintIdx : List (V × Int) := []
  constraintMap : List ((C × Int) × Int)

/-- The loop `for(it = curSub.begin(); ...) m[it->first] += it->second * varWeight`. -/
def addScaled {κ : Type} [DecidableEq κ] (lt : κ → κ → Bool) (m sub : List (κ × ℚ))
    (varWeight : ℚ) : List (κ × ℚ) :=
  sub.foldl (fun m e => maddTo lt m e.1 (e.2 * varWeight)) m

/-- The loop `for(rit = curSubRhs.begin(); ...) m[rit->first] -= rit->second * varWeight`. -/
def subScaled {κ : Type} [DecidableEq κ] (lt : κ → κ → Bool) (m sub : List (κ × ℚ))
    (varWeight : ℚ) : List (κ × ℚ) :=
  sub.foldl (fun m e => maddTo lt m e.1 (-(e.2 * varWeight))) m

/-- The substitution of `bestVar` into the hard constraints that are left, with their
right-hand sides. -/
def substituteHard {V C : Type} [LinearOrder V] [LinearOrder C] (bestVar : V)
    (curSub : List (V × ℚ)) (curSubRhs : List ((C × Int) × ℚ)) :
    List (List (V × ℚ)) → List (List ((C × Int) × ℚ)) →
      Option (List (List (V × ℚ)) × List (List ((C × Int) × ℚ)))
  | [], rhs => some ([], rhs)
  | _ :: _, [] => none
  | h :: hs, r :: rs =>
    match substituteHard bestVar curSub curSubRhs hs rs with
    | none => none
    | some (hs, rs) =>
      match mfind h bestVar with
      | none => some (h :: hs, r :: rs)
      | some varWeight =>
        some (addScaled varLt (merase h bestVar) curSub varWeight :: hs,
          subScaled keyLt r curSubRhs varWeight :: rs)

/-- The substitution of `bestVar` into the other substitutions, over the entries of
`substitutions` in key order. The entry of `bestVar` itself has no entry for `bestVar`; a
map that changes while it is iterated has no value here. -/
def substituteSubs {V C : Type} [LinearOrder V] [LinearOrder C] (bestVar : V)
    (curSub : List (V × ℚ)) (curSubRhs : List ((C × Int) × ℚ)) :
    List (V × List (V × ℚ)) → List (V × List ((C × Int) × ℚ)) →
      Option (List (V × List (V × ℚ)) × List (V × List ((C × Int) × ℚ)))
  | [], subsRhs => some ([], subsRhs)
  | (x, sub) :: rest, subsRhs =>
    match mfind sub bestVar with
    | none =>
      match substituteSubs bestVar curSub curSubRhs rest subsRhs with
      | none => none
      | some (rest, subsRhs) => some ((x, sub) :: rest, subsRhs)
    | some varWeight =>
      if x = bestVar then none
      else
        let srhs := addScaled keyLt ((mfind subsRhs x).getD []) curSubRhs varWeight
        match substituteSubs bestVar curSub curSubRhs rest (mset varLt subsRhs x srhs) with
        | none => none
        | some (rest, subsRhs) =>
          some ((x, addScaled varLt (merase sub bestVar) curSub varWeight) :: rest, subsRhs)

/-- One pass of the loop `while(hardConstraints.size())`; the flag `false` stands for
`return false`. -/
def reduceStep {V C : Type} [LinearOrder V] [LinearOrder C] [Inhabited V] (softNum : Int)
    (st : Reduction V C) : Option (Bool × Reduction V C) :=
  let best := pivotSearch 0 st.hardConstraints ⟨default, -1, 0⟩
  if best.bestVal < 1 / 10000000000 then some (false, st)
  else
    let bestVar := best.bestVar
    match idx? st.hardConstraints best.bestEq, idx? st.hardConstraintIds best.bestEq,
        idx? st.hardRhs best.bestEq with
    | some back, some backId, some backRhs =>
      let subIdx : Int := st.substitutions.length
      let substitutionConstraintIdx := mset varLt st.substitutionConstraintIdx bestVar subIdx
      let constraintMap := mset keyLt st.constraintMap backId (softNum + subIdx)
      let factor := -1 / (mfind back bestVar).getD 0
      let curSub := back.foldl
        (fun cs e => if e.1 ≠ bestVar then mset varLt cs e.1 (e.2 * factor) else cs)
        ((mfind st.substitutions bestVar).getD [])
      let curSubRhs := backRhs.map (fun e => (e.1, e.2 * -factor))
      let substitutions := mset varLt st.substitutions bestVar curSub
      let substitutionsRhs := mset varLt st.substitutionsRhs bestVar curSubRhs
      match substituteHard bestVar curSub curSubRhs
          (swapPop st.hardConstraints best.bestEq.toNat)
          (swapPop st.hardRhs best.bestEq.toNat) with
      | none => none
      | some (hardConstraints, hardRhs) =>
        match substituteSubs bestVar curSub curSubRhs substitutions substitutionsRhs with
        | none => none
        | some (substitutions, substitutionsRhs) =>
          some (true,
            { hardConstraints := hardConstraints,
              hardConstraintIds := swapPop st.hardConstraintIds best.bestEq.toNat,
              hardRhs := hardRhs,
              substitutions := substitutions,
              substitutionsRhs := substitutionsRhs,
              substitutionConstraintIdx := substitutionConstraintIdx,
              constraintMap := constraintMap })
    | _, _, _ => none

/-- The loop `while(hardConstraints.size())`; `fuel` bounds its passes. -/
def reduceLoop {V C : Type} [LinearOrder V] [LinearOrder C] [Inhabited V] (softNum : Int) :
    Nat → Reduction V C → Option (Bool × Reduction V C)
  | 0, st =>
    match st.hardConstraints with
    | [] => some (true, st)
    | _ :: _ => none
  | fuel + 1, st =>
    match st.hardConstraints with
    | [] => some (true, st)
    | _ :: _ =>
      match reduceStep softNum st with
      | none => none
      | some (false, st) => some (false, st)
      | some (true, st) => reduceLoop softNum fuel st

/-- The loop that assigns indices to the soft constraints: the value is `constraintMap`
and `softNum`. -/
def softIndices {V C : Type} [LinearOrder C] :
    List ((C × Int) × Constraint V) → List ((C × Int) × Int) → Int →
      List ((C × Int) × Int) × Int
  | [], constraintMap, softNum => (constraintMap, softNum)
  | (key, c) :: rest, constraintMap, softNum =>
    if c.hard then softIndices rest constraintMap softNum
    else softIndices rest (mset keyLt constraintMap key softNum) (softNum + 1)

/-- The loop that gives indices to the variables of one soft constraint that are neither
indexed nor substituted. -/
def freeVarsRow {V : Type} [LinearOrder V] (substitutions : List (V × List (V × ℚ))) :
    List (V × ℚ) → List (V × Int) → List V → List (V × Int) × List V
  | [], varMap, varIds => (varMap, varIds)
  | (v, _) :: rest, varMap, varIds =>
    if (mfind varMap v).isSome ∨ (mfind substitutions v).isSome then
      freeVarsRow substitutions rest varMap varIds
    else
      freeVarsRow substitutions rest (mset varLt varMap v (varIds.length : Int)) (varIds ++ [v])

/-- The loop over the soft constraints that fills `varMap` and `varIds`. -/
def freeVars {V C : Type} [LinearOrder V] (substitutions : List (V × List (V × ℚ))) :
    List ((C × Int) × Constraint V) → List (V × Int) → List V → List (V × Int) × List V
  | [], varMap, varIds => (varMap, varIds)
  | (_, c) :: rest, varMap, varIds =>
    if c.hard then freeVars substitutions rest varMap varIds
    else
      match freeVarsRow substitutions c.lhs varMap varIds with
      | (varMap, varIds) => freeVars substitutions rest varMap varIds

/-- The loop that gives the substituted variables their indices after the free ones. -/
def hardVars {V : Type} [LinearOrder V] (substitutionConstraintIdx : List (V × Int))
    (softVars : Int) :
    List (V × List (V × ℚ)) → List (V × Int) → List V → Option (List (V × Int) × List V)
  | [], varMap, varIds => some (varMap, varIds)
  | (x, _) :: rest, varMap, varIds =>
    let idx := (mfind substitutionConstraintIdx x).getD 0 + softVars
    match upd? varIds idx x with
    | none => none
    | some varIds => hardVars substitutionConstraintIdx softVars rest (mset varLt varMap x idx) varIds

/-- The inner loop that writes one substitution with respect to the indices; the flag
`false` stands for `return false`. -/
def substitutedRow {V : Type} [DecidableEq V] (varMap : List (V × Int)) (idx : Int) :
    List (V × ℚ) → List (List (Int × ℚ)) → Option (Bool × List (List (Int × ℚ)))
  | [], substitutedHard => some (true, substitutedHard)
  | (v, c) :: rest, substitutedHard =>
    match mfind varMap v with
    | none => some (false, substitutedHard)
    | some j =>
      match pushAtPair substitutedHard idx (j, c) with
      | none => none
      | some substitutedHard => substitutedRow varMap idx rest substitutedHard

/-- The loop that computes `substitutedHard`. -/
def substitutedRows {V : Type} [DecidableEq V] (varMap substitutionConstraintIdx : List (V × Int)) :
    List (V × List (V × ℚ)) → List (List (Int × ℚ)) → Option (Bool × List (List (Int × ℚ)))
  | [], substitutedHard => some (true, substitutedHard)
  | (x, sub) :: rest, substitutedHard =>
    match substitutedRow varMap ((mfind substitutionConstraintIdx x).getD 0) sub substitutedHard with
    | none => none
    | some (false, substitutedHard) => some (false, substitutedHard)
    | some (true, substitutedHard) =>
      substitutedRows varMap substitutionConstraintIdx rest substitutedHard

/-- The statement `m[i][j] += c` on a vector of maps. -/
def addAt (m : List (List (Int × ℚ))) (i j : Int) (c : ℚ) : Option (List (List (Int × ℚ))) :=
  match idx? m i with
  | none => none
  | some row => upd? m i (maddTo (fun a b => decide (a < b)) row j c)

/-- The loop over the right-hand side of one substitution in a soft constraint:
`rhsTransformMap[constraintMap[it4->first] - softNum][idx] -= fac * it4->second`. -/
def softRhsRow {C : Type} [LinearOrder C] (constraintMap : List ((C × Int) × Int))
    (softNum idx : Int) (fac : ℚ) :
    List ((C × Int) × ℚ) → List (List (Int × ℚ)) → Option (List (List (Int × ℚ)))
  | [], rhsTransformMap => some rhsTransformMap
  | (r, c) :: rest, rhsTransformMap =>
    match addAt rhsTransformMap ((mfind constraintMap r).getD 0 - softNum) idx (-(fac * c)) with
    | none => none
    | some rhsTransformMap => softRhsRow constraintMap softNum idx fac rest rhsTransformMap

/-- The loop over the left-hand side of one soft constraint that applies the
substitutions: the value is `modLhs` and `rhsTransformMap`. -/
def softSubstitute {V C : Type} [LinearOrder V] [LinearOrder C]
    (substitutions : List (V × List (V × ℚ)))
    (substitutionsRhs : List (V × List ((C × Int) × ℚ)))
    (constraintMap : List ((C × Int) × Int)) (softNum idx : Int) :
    List (V × ℚ) → List (V × ℚ) → List (List (Int × ℚ)) →
      Option (List (V × ℚ) × List (List (Int × ℚ)))
  | [], modLhs, rhsTransformMap => some (modLhs, rhsTransformMap)
  | (v, fac) :: rest, modLhs, rhsTransformMap =>
    match mfind substitutions v with
    | none =>
      softSubstitute substitutions substitutionsRhs constraintMap softNum idx rest modLhs
        rhsTransformMap
    | some curSub =>
      match softRhsRow constraintMap softNum idx fac ((mfind substitutionsRhs v).getD [])
          rhsTransformMap with
      | none => none
      | some rhsTransformMap =>
        softSubstitute substitutions substitutionsRhs constraintMap softNum idx rest
          (addScaled varLt modLhs curSub fac) rhsTransformMap

/-- The loop that writes `modLhs` into a row of `softMatrix`. -/
def softRow {V : Type} [DecidableEq V] (substitutions : List (V × List (V × ℚ)))
    (varMap : List (V × Int)) : List (V × ℚ) → List (Int × ℚ)
  | [] => []
  | (v, c) :: rest =>
    if (mfind substitutions v).isSome then softRow substitutions varMap rest
    else ((mfind varMap v).getD 0, c) :: softRow substitutions varMap rest

/-- The loop over the soft constraints that computes `softMatrix` and the soft part of
`rhsTransformMap`. -/
def softRows {V C : Type} [LinearOrder V] [LinearOrder C]
    (substitutions : List (V × List (V × ℚ)))
    (substitutionsRhs : List (V × List ((C × Int) × ℚ)))
    (constraintMap : List ((C × Int) × Int)) (varMap : List (V × Int)) (softNum : Int) :
    List ((C × Int) × Constraint V) → List (List (Int × ℚ)) → List (List (Int × ℚ)) →
      Option (List (List (Int × ℚ)) × List (List (Int × ℚ)))
  | [], softMatrix, rhsTransformMap => some (softMatrix, rhsTransformMap)
  | (key, c) :: rest, softMatrix, rhsTransformMap =>
    if c.hard then
      softRows substitutions substitutionsRhs constraintMap varMap softNum rest softMatrix
        rhsTransformMap
    else
      let idx := (mfind constraintMap key).getD 0
      match softSubstitute substitutions substitutionsRhs constraintMap softNum idx c.lhs c.lhs
          rhsTransformMap with
      | none => none
      | some (modLhs, rhsTransformMap) =>
        match idx? softMatrix idx with
        | none => none
        | some row =>
          match upd? softMatrix idx
              ((row ++ softRow substitutions varMap modLhs).insertionSort pairLe) with
          | none => none
          | some softMatrix =>
            softRows substitutions substitutionsRhs constraintMap varMap softNum rest softMatrix
              rhsTransformMap

/-- The inner loop of the hard part of `rhsTransformMap`:
`rhsTransformMap[constraintMap[it->first] - softNum][idx] += it->second`. -/
def hardRhsRow {C : Type} [LinearOrder C] (constraintMap : List ((C × Int) × Int))
    (softNum idx : Int) :
    List ((C × Int) × ℚ) → List (List (Int × ℚ)) → Option (List (List (Int × ℚ)))
  | [], rhsTransformMap => some rhsTransformMap
  | (r, c) :: rest, rhsTransformMap =>
    match addAt rhsTransformMap ((mfind constraintMap r).getD 0 - softNum) idx c with
    | none => none
    | some rhsTransformMap => hardRhsRow constraintMap softNum idx rest rhsTransformMap

/-- The loop that adds the right-hand side transforms of the hard constraints. -/
def hardRhsRows {V C : Type} [LinearOrder V] [LinearOrder C]
    (constraintMap : List ((C × Int) × Int)) (substitutionConstraintIdx : List (V × Int))
    (softNum : Int) :
    List (V × List ((C × Int) × ℚ)) → List (List (Int × ℚ)) → Option (List (List (Int × ℚ)))
  | [], rhsTransformMap => some rhsTransformMap
  | (x, srhs) :: rest, rhsTransformMap =>
    match hardRhsRow constraintMap softNum ((mfind substitutionConstraintIdx x).getD 0 + softNum)
        srhs rhsTransformMap with
    | none => none
    | some rhsTransformMap =>
      hardRhsRows constraintMap substitutionConstraintIdx softNum rest rhsTransformMap

/-- The loop over `k <= j` for the entry `j` of a row of `softMatrix`: `done` holds the
entries up to `j`. -/
def spdEntry (ej : Int × ℚ) :
    List (Int × ℚ) → List (List (Int × ℚ)) → Option (List (List (Int × ℚ)))
  | [], spdMap => some spdMap
  | ek :: rest, spdMap =>
    match addAt spdMap ej.1 ek.1 (ej.2 * ek.2) with
    | none => none
    | some spdMap => spdEntry ej rest spdMap

/-- The loop over the entries `j` of one row of `softMatrix`, with `j` entries `done`. -/
def spdRow : List (Int × ℚ) → List (Int × ℚ) → List (List (Int × ℚ)) →
    Option (List (List (Int × ℚ)))
  | _, [], spdMap => some spdMap
  | done, ej :: rest, spdMap =>
    match spdEntry ej (done ++ [ej]) spdMap with
    | none => none
    | some spdMap => spdRow (done ++ [ej]) rest spdMap

/-- The loop over the rows of `softMatrix` that computes the lower triangle of `A^T A`. -/
def spdRows : List (List (Int × ℚ)) → List (List (Int × ℚ)) → Option (List (List (Int × ℚ)))
  | [], spdMap => some spdMap
  | row :: rest, spdMap =>
    match spdRow [] row spdMap with
    | none => none
    | some spdMap => spdRows rest spdMap

/-- LSQSystem::factor. The value is the returned flag and the system; there is no value
when an index leaves its vector or `SPDMatrix::factor` returns a null pointer, which the
source dereferences. -/
def LSQSystem.factor {V C LLT : Type} [LinearOrder V] [LinearOrder C] [Inhabited V]
    (solver : SPDSolver LLT) (s : LSQSystem V C LLT) : Option (Bool × LSQSystem V C LLT) :=
  match softIndices s.constraints [] 0 with
  | (constraintMap, softNum) =>
    let hard := s.constraints.filter (fun e => e.2.hard)
    let hardNum := hard.length
    let s0 : LSQSystem V C LLT :=
      { s with varIds := [], constraintMap := constraintMap, substitutedHard := [],
               rhsTransform := [], softMatrix := [], softNum := softNum }
    match reduceLoop softNum hardNum
        { hardConstraints := hard.map (fun e => e.2.lhs),
          hardConstraintIds := hard.map (fun e => e.1),
          hardRhs := hard.map (fun e => [(e.1, (1 : ℚ))]),
          constraintMap := constraintMap } with
    | none => none
    | some (false, st) => some (false, { s0 with constraintMap := st.constraintMap })
    | some (true, st) =>
      match freeVars st.substitutions s.constraints [] [] with
      | (varMap, varIds) =>
        let softVars := varIds.length
        match hardVars st.substitutionConstraintIdx softVars st.substitutions varMap
            (resize varIds (softVars + hardNum) default) with
        | none => none
        | some (varMap, varIds) =>
          let s1 := { s0 with constraintMap := st.constraintMap, varIds := varIds }
          match substitutedRows varMap st.substitutionConstraintIdx st.substitutions
              (List.replicate st.substitutions.length []) with
          | none => none
          | some (false, substitutedHard) =>
            some (false, { s1 with substitutedHard := substitutedHard })
          | some (true, substitutedHard) =>
            match softRows st.substitutions st.substitutionsRhs st.constraintMap varMap softNum
                s.constraints (List.replicate softNum.toNat []) (List.replicate hardNum []) with
            | none => none
            | some (softMatrix, rhsTransformMap) =>
              match hardRhsRows st.constraintMap st.substitutionConstraintIdx softNum
                  st.substitutionsRhs rhsTransformMap with
              | none => none
              | some rhsTransform =>
                match spdRows softMatrix (List.replicate softVars []) with
                | none => none
                | some spdm =>
                  match solver.factor spdm with
                  | none => none
                  | some factoredMatrix =>
                    let s2 := { s1 with substitutedHard := substitutedHard,
                                        rhsTransform := rhsTransform, softMatrix := softMatrix,
                                        factoredMatrix := some factoredMatrix }
                    if solver.size factoredMatrix ≠ softVars then some (false, s2)
                    else some (true, s2)

/-- The loop of `solve` that grabs the right-hand sides of the constraints into `rhs0`. -/
def grabRhs {V C : Type} [LinearOrder C] (constraintMap : List ((C × Int) × Int)) :
    List ((C × Int) × Constraint V) → List ℚ → Option (List ℚ)
  | [], rhs0 => some rhs0
  | (key, c) :: rest, rhs0 =>
    let idx := (mfind constraintMap key).getD 0
    let rhs0 := if (rhs0.length : Int) ≤ idx then resize rhs0 (idx + 1).toNat 0 else rhs0
    match upd? rhs0 idx c.rhs with
    | none => none
    | some rhs0 => grabRhs constraintMap rest rhs0

/-- The loop `for(i = softNum; i < rhs1.size(); ++i) rhs1[i] = 0`. -/
def clearHard (softNum : Int) (rhs1 : List ℚ) : Option (List ℚ) :=
  if softNum < 0 ∧ 0 < rhs1.length then none
  else some (rhs1.take softNum.toNat ++ List.replicate (rhs1.length - softNum.toNat) 0)

/-- The inner loop of the transform of the right-hand sides:
`rhs1[rhsTransform[i][j].first] += rhsTransform[i][j].second * rhs0[softNum + i]`. -/
def transformRow (r0 : ℚ) : List (Int × ℚ) → List ℚ → Option (List ℚ)
  | [], rhs1 => some rhs1
  | (j, c) :: rest, rhs1 =>
    match idx? rhs1 j with
    | none => none
    | some x =>
      match upd? rhs1 j (x + c * r0) with
      | none => none
      | some rhs1 => transformRow r0 rest rhs1

/-- The loop over the rows of `rhsTransform`, from row `i` on. -/
def transformRows (rhs0 : List ℚ) (softNum : Int) :
    Nat → List (List (Int × ℚ)) → List ℚ → Option (List ℚ)
  | _, [], rhs1 => some rhs1
  | i, row :: rest, rhs1 =>
    match row with
    | [] => transformRows rhs0 softNum (i + 1) rest rhs1
    | _ :: _ =>
      match idx? rhs0 (softNum + i) with
      | none => none
      | some r0 =>
        match transformRow r0 row rhs1 with
        | none => none
        | some rhs1 => transformRows rhs0 softNum (i + 1) rest rhs1

/-- The inner loop of the multiplication by `A^T`:
`rhs2[col] += softMatrix[i][j].second * rhs1[i]`. -/
def transposeRow (r1 : ℚ) : List (Int × ℚ) → List ℚ → Option (List ℚ)
  | [], rhs2 => some rhs2
  | (col, c) :: rest, rhs2 =>
    match idx? rhs2 col with
    | none => none
    | some x =>
      match upd? rhs2 col (x + c * r1) with
      | none => none
      | some rhs2 => transposeRow r1 rest rhs2

/-- The loop over the rows of `softMatrix`, from row `i` on. -/
def transposeRows (rhs1 : List ℚ) : Nat → List (List (Int × ℚ)) → List ℚ → Option (List ℚ)
  | _, [], rhs2 => some rhs2
  | i, row :: rest, rhs2 =>
    match row with
    | [] => transposeRows rhs1 (i + 1) rest rhs2
    | _ :: _ =>
      match rhs1[i]? with
      | none => none
      | some r1 =>
        match transposeRow r1 row rhs2 with
        | none => none
        | some rhs2 => transposeRows rhs1 (i + 1) rest rhs2

/-- The loop `result[varIds[i]] = rhs2[i]` from `i` on. -/
def storeFree {V : Type} [LinearOrder V] (varIds : List V) :
    Nat → List ℚ → List (V × ℚ) → Option (List (V × ℚ))
  | _, [], result => some result
  | i, y :: rest, result =>
    match varIds[i]? with
    | none => none
    | some v => storeFree varIds (i + 1) rest (mset varLt result v y)

/-- The inner loop of the reconstruction of a substituted variable:
`cur += substitutedHard[i][j].second * rhs2[substitutedHard[i][j].first]`. -/
def hardValue (rhs2 : List ℚ) : List (Int × ℚ) → ℚ → Option ℚ
  | [], cur => some cur
  | (j, c) :: rest, cur =>
    match idx? rhs2 j with
    | none => none
    | some y => hardValue rhs2 rest (cur + c * y)

/-- The loop that solves for the substituted variables, from `i` on with `k` left. -/
def storeHard {V : Type} [LinearOrder V] (varIds : List V) (substitutedHard : List (List (Int × ℚ)))
    (rhs1 rhs2 : List ℚ) (softNum : Int) :
    Nat → Nat → List (V × ℚ) → Option (List (V × ℚ))
  | 0, _, result => some result
  | k + 1, i, result =>
    match idx? rhs1 (softNum + i), substitutedHard[i]?, varIds[i + rhs2.length]? with
    | some cur, some row, some v =>
      match hardValue rhs2 row cur with
      | none => none
      | some cur => storeHard varIds substitutedHard rhs1 rhs2 softNum k (i + 1)
          (mset varLt result v cur)
    | _, _, _ => none

/-- LSQSystem::solve. The value is the returned flag and the system; there is no value
when an index leaves its vector or `factoredMatrix` is a null pointer. -/
def LSQSystem.solve {V C LLT : Type} [LinearOrder V] [LinearOrder C] (solver : SPDSolver LLT)
    (s : LSQSystem V C LLT) : Option (Bool × LSQSystem V C LLT) :=
  match grabRhs s.constraintMap s.constraints [] with
  | none => none
  | some rhs0 =>
    match clearHard s.softNum rhs0 with
    | none => none
    | some rhs1 =>
      match transformRows rhs0 s.softNum 0 s.rhsTransform rhs1 with
      | none => none
      | some rhs1 =>
        match s.factoredMatrix with
        | none => none
        | some factoredMatrix =>
          match transposeRows rhs1 0 s.softMatrix
              (List.replicate (solver.size factoredMatrix).toNat 0) with
          | none => none
          | some rhs2 =>
            match solver.solve factoredMatrix rhs2 with
            | none => some (false, { s with result := [] })
            | some rhs2 =>
              match storeFree s.varIds 0 rhs2 [] with
              | none => none
              | some result =>
                match storeHard s.varIds s.substitutedHard rhs1 rhs2 s.softNum
                    (s.varIds.length - rhs2.length) 0 result with
                | none => none
                | some result => some (true, { s with result := result })

/-- LSQSystem::getResult; no value when the assertion fails. -/
def LSQSystem.getResult {V C LLT : Type} [DecidableEq V] (s : LSQSystem V C LLT) (var : V) :
    Option ℚ :=
  mfind s.result var

/-- Modelled from the spec: the entry `(i, j)` of the symmetric matrix whose lower triangle
is given row-wise as lists of (column index, value) pairs (section 4.5 of the spec; the
class `SPDMatrix` has no implementation among the sources). -/
def symEntry (m : List (List (Int × ℚ))) (i j : Nat) : ℚ :=
  if j ≤ i then (mfind (m.getD i []) (j : Int)).getD 0
  else (mfind (m.getD j []) (i : Int)).getD 0

/-- Modelled from the spec: elimination on the rows `[a_0, ..., a_k | b]` of a system with
a symmetric positive definite matrix, without row exchanges; a pivot that is not positive
gives no solution (`factor` returns null). -/
def eliminate : Nat → List (List ℚ) → Option (List ℚ)
  | _, [] => some []
  | 0, _ :: _ => none
  | fuel + 1, row :: rest =>
    match row with
    | [] => none
    | pivot :: tail =>
      if pivot ≤ 0 then none
      else
        match eliminate fuel (rest.map (fun r =>
            List.zipWith (fun x y => x - r.headD 0 / pivot * y) r.tail tail)) with
        | none => none
        | some xs =>
          some ((tail.getLastD 0 - (List.zipWith (fun a x => a * x) tail xs).sum) / pivot :: xs)

/-- Modelled from the spec: the rows `[A | b]` of the system with the symmetric matrix
of `m` and the right-hand side `b`. -/
def augmented (m : List (List (Int × ℚ))) (b : List ℚ) : List (List ℚ) :=
  (List.range m.length).map (fun i =>
    (List.range m.length).map (fun j => symEntry m i j) ++ [b.getD i 0])

/-- Modelled from the spec: an exact solver for symmetric positive definite systems, in
the place of `SPDMatrix::factor` and `LLTMatrix::solve`, which are not among the sources:
`factor` gives the matrix back when every pivot is positive, `solve(b)` gives `x` with
`A x = b`. -/
def exactSolver : SPDSolver (List (List (Int × ℚ))) where
  factor := fun m =>
    match eliminate m.length (augmented m (List.replicate m.length 0)) with
    | none => none
    | some _ => some m
  size := fun m => (m.length : Int)
  solve := fun m b => if b.length = m.length then eliminate m.length (augmented m b) else none

/-- The system with the hard constraint `x + y = 2` and the soft constraint `y = 0`; the
variables `x` and `y` are the integers 0 and 1. -/
def twoVarSystem : LSQSystem Int Int (List (List (Int × ℚ))) :=
  (LSQSystem.addConstraint {} true 2 [(0, 1), (1, 1)]).addConstraint false 0 [(1, 1)]


/-! ### LSQSystem: the linear forms and the invariant of the row reduction -/

/-- The value of the linear form `m` at the assignment `x`: the sum of
`coefficient * x key` over the entries. -/
def evalMap {κ : Type} (x : κ → ℚ) (m : List (κ × ℚ)) : ℚ :=
  (m.map (fun e => e.2 * x e.1)).sum

/-- The keys of a map. -/
def mkeys {κ β : Type} (m : List (κ × β)) : List κ := m.map (fun e => e.1)

/-- Every substitution `v = sub + c` holds at the assignment `x` of the variables and the
right-hand sides `ρ` of the constraints. -/
def subsHold {V K : Type} [DecidableEq V] (S : List (V × List (V × ℚ)))
    (SR : List (V × List (K × ℚ))) (x : V → ℚ) (ρ : K → ℚ) : Prop :=
  ∀ e ∈ S, x e.1 = evalMap x e.2 + evalMap ρ ((mfind SR e.1).getD [])

/-- Every hard constraint that is left holds at `x` and `ρ`. -/
def hardHold {V K : Type} (H : List (List (V × ℚ))) (HR : List (List (K × ℚ))) (x : V → ℚ)
    (ρ : K → ℚ) : Prop :=
  ∀ (j : Nat) (h : List (V × ℚ)) (r : List (K × ℚ)), H[j]? = some h → HR[j]? = some r →
    evalMap x h = evalMap ρ r

/-- The left-hand side `h` after the substitution `bestVar = curSub + ...`. -/
def substLhs {V : Type} [LinearOrder V] (bestVar : V) (curSub h : List (V × ℚ)) :
    List (V × ℚ) :=
  match mfind h bestVar with
  | none => h
  | some varWeight => addScaled varLt (merase h bestVar) curSub varWeight

/-- The right-hand side `r` of the hard constraint `h` after the substitution. -/
def substRhs {V C : Type} [LinearOrder V] [LinearOrder C] (bestVar : V)
    (curSubRhs : List ((C × Int) × ℚ)) (h : List (V × ℚ)) (r : List ((C × Int) × ℚ)) :
    List ((C × Int) × ℚ) :=
  match mfind h bestVar with
  | none => r
  | some varWeight => subScaled keyLt r curSubRhs varWeight

/-- The invariant of the loop `while(hardConstraints.size())` of `factor`: `hard0` are the
hard constraints with their keys, `constraintMap0` is `constraintMap` before the loop,
`order` lists the substituted variables and `pivIds` the keys of their constraints in the
order of their substitution. -/
structure RedInv {V C : Type} [LinearOrder V] [LinearOrder C]
    (hard0 : List ((C × Int) × Constraint V)) (constraintMap0 : List ((C × Int) × Int))
    (softNum : Int) (st : Reduction V C) (order : List V) (pivIds : List (C × Int)) :
    Prop where
  lenIds : st.hardConstraintIds.length = st.hardConstraints.length
  lenRhs : st.hardRhs.length = st.hardConstraints.length
  nodupS : (mkeys st.substitutions).Nodup
  nodupSR : (mkeys st.substitutionsRhs).Nodup
  keysSR : ∀ v ∈ mkeys st.substitutionsRhs, v ∈ mkeys st.substitutions
  permS : (mkeys st.substitutions).Perm order
  idxS : ∀ (i : Nat) (x : V), order[i]? = some x →
    mfind st.substitutionConstraintIdx x = some (i : Int)
  lenP : pivIds.length = order.length
  idxP : ∀ (i : Nat) (id : C × Int), pivIds[i]? = some id →
    mfind st.constraintMap id = some (softNum + (i : Int))
  keepCM : ∀ key, key ∉ pivIds → mfind st.constraintMap key = mfind constraintMap0 key
  permIds : (st.hardConstraintIds ++ pivIds).Perm (mkeys hard0)
  nodupH : ∀ h ∈ st.hardConstraints, (mkeys h).Nodup
  nodupB : ∀ e ∈ st.substitutions, (mkeys e.2).Nodup
  freshH : ∀ h ∈ st.hardConstraints, ∀ v ∈ mkeys h, v ∉ mkeys st.substitutions
  freshB : ∀ e ∈ st.substitutions, ∀ v ∈ mkeys e.2, v ∉ mkeys st.substitutions
  rhsH : ∀ r ∈ st.hardRhs, ∀ id ∈ mkeys r, id ∈ mkeys hard0
  rhsS : ∀ e ∈ st.substitutionsRhs, ∀ id ∈ mkeys e.2, id ∈ mkeys hard0
  sound : ∀ (x : V → ℚ) (ρ : C × Int → ℚ),
    subsHold st.substitutions st.substitutionsRhs x ρ →
    hardHold st.hardConstraints st.hardRhs x ρ → ∀ e ∈ hard0, evalMap x e.2.lhs = ρ e.1
  complete : ∀ (x : V → ℚ) (ρ : C × Int → ℚ), (∀ e ∈ hard0, evalMap x e.2.lhs = ρ e.1) →
    subsHold st.substitutions st.substitutionsRhs x ρ ∧
      hardHold st.hardConstraints st.hardRhs x ρ
  cover : ∀ e ∈ hard0, ∀ v ∈ mkeys e.2.lhs, v ∈ mkeys st.substitutions ∨
    (∃ h ∈ st.hardConstraints, v ∈ mkeys h) ∨ ∃ e' ∈ st.substitutions, v ∈ mkeys e'.2

/-- What one pass of the loop `while(hardConstraints.size())` that does not return does:
it takes the hard constraint `back` with the key `backId` and the right-hand side `backRhs`
out of the vectors at `j`, turns it into the substitution `bestVar = curSub + curSubRhs`,
where `c` is the coefficient of `bestVar` in `back`, and applies this substitution to the
hard constraints that are left and to the other substitutions. -/
structure PivotStep {V C : Type} [LinearOrder V] [LinearOrder C] (softNum : Int)
    (st st' : Reduction V C) (j : Nat) (back : List (V × ℚ)) (backId : C × Int)
    (backRhs : List ((C × Int) × ℚ)) (bestVar : V) (c : ℚ) (curSub : List (V × ℚ))
    (curSubRhs : List ((C × Int) × ℚ)) : Prop where
  hback : st.hardConstraints[j]? = some back
  hbackId : st.hardConstraintIds[j]? = some backId
  hbackRhs : st.hardRhs[j]? = some backRhs
  hfind : mfind back bestVar = some c
  hc : c ≠ 0
  evalCs : ∀ x : V → ℚ, evalMap x curSub = (-1 / c) * (evalMap x back - c * x bestVar)
  keysCs : ∀ k, k ∈ mkeys curSub ↔ k ∈ mkeys back ∧ k ≠ bestVar
  nodupCs : (mkeys curSub).Nodup
  hcr : curSubRhs = backRhs.map (fun e => (e.1, e.2 * -(-1 / c)))
  ids : st'.hardConstraintIds = swapPop st.hardConstraintIds j
  sci : st'.substitutionConstraintIdx =
    mset varLt st.substitutionConstraintIdx bestVar (st.substitutions.length : Int)
  cm : st'.constraintMap =
    mset keyLt st.constraintMap backId (softNum + (st.substitutions.length : Int))
  lenH : st'.hardConstraints.length = (swapPop st.hardConstraints j).length
  lenR : st'.hardRhs.length = (swapPop st.hardRhs j).length
  getH : ∀ j' : Nat, st'.hardConstraints[j']? =
    ((swapPop st.hardConstraints j)[j']?).map (substLhs bestVar curSub)
  getR : ∀ (j' : Nat) (h : List (V × ℚ)) (r : List ((C × Int) × ℚ)),
    (swapPop st.hardConstraints j)[j']? = some h → (swapPop st.hardRhs j)[j']? = some r →
      st'.hardRhs[j']? = some (substRhs bestVar curSubRhs h r)
  subs : st'.substitutions =
    (mset varLt st.substitutions bestVar curSub).map
      (fun e => (e.1, substLhs bestVar curSub e.2))
  nodupSR' : (mkeys st'.substitutionsRhs).Nodup
  srOut : ∀ v, v ∉ mkeys (mset varLt st.substitutions bestVar curSub) →
    mfind st'.substitutionsRhs v = mfind (mset varLt st.substitutionsRhs bestVar curSubRhs) v
  srNone : ∀ e ∈ mset varLt st.substitutions bestVar curSub, mfind e.2 bestVar = none →
    mfind st'.substitutionsRhs e.1 =
      mfind (mset varLt st.substitutionsRhs bestVar curSubRhs) e.1
  srSome : ∀ e ∈ mset varLt st.substitutions bestVar curSub, ∀ w,
    mfind e.2 bestVar = some w → mfind st'.substitutionsRhs e.1 =
      some (addScaled keyLt
        ((mfind (mset varLt st.substitutionsRhs bestVar curSubRhs) e.1).getD []) curSubRhs w)

/-- The entry `i` of a vector of numbers, zero outside the vector. -/
def vget (l : List ℚ) (i : Int) : ℚ := (idx? l i).getD 0

/-- The coefficient of the column `j` in a row of (column, value) pairs. -/
def rowCoef (row : List (Int × ℚ)) (j : Int) : ℚ :=
  evalMap (fun j' => if j' = j then 1 else 0) row

/-- The sum over the rows `i` of `m`, counted from `i0`, of `r i` times the coefficient
of the column `j` in the row. -/
def colSum (r : Nat → ℚ) : Nat → List (List (Int × ℚ)) → Int → ℚ
  | _, [], _ => 0
  | i0, row :: rest, j => r i0 * rowCoef row j + colSum r (i0 + 1) rest j

/-- The right-hand side of the constraint `key` as `r` gives it by the index that
`constraintMap` has for the constraint, counted from `softNum`. -/
def rhsAt {C : Type} [LinearOrder C] (constraintMap : List ((C × Int) × Int)) (softNum : Int)
    (r : Nat → ℚ) (key : C × Int) : ℚ :=
  r ((mfind constraintMap key).getD 0 - softNum).toNat

/-- The sum over the substituted variables `v` of a left-hand side of the coefficient of
`v` times the value of the right-hand side of the substitution of `v`. -/
def subRhsSum {V K : Type} [DecidableEq V] (substitutions : List (V × List (V × ℚ)))
    (substitutionsRhs : List (V × List (K × ℚ))) (ρ : K → ℚ) (lhs : List (V × ℚ)) : ℚ :=
  (lhs.map (fun e => match mfind substitutions e.1 with
    | none => 0
    | some _ => e.2 * evalMap ρ ((mfind substitutionsRhs e.1).getD []))).sum

/-- The sum over the substituted variables `v` of a left-hand side of the coefficient of
`v` times the value of the expression substituted for `v`. -/
def subLhsSum {V : Type} [DecidableEq V] (substitutions : List (V × List (V × ℚ)))
    (x : V → ℚ) (lhs : List (V × ℚ)) : ℚ :=
  (lhs.map (fun e => match mfind substitutions e.1 with
    | none => 0
    | some sub => e.2 * evalMap x sub)).sum

/-- The invariant of the loops of `factor` that give indices to the free variables:
`varMap` is the inverse of `varIds`, and no variable of `varIds` is substituted. -/
def FVInv {V : Type} [DecidableEq V] (substitutions : List (V × List (V × ℚ)))
    (varMap : List (V × Int)) (varIds : List V) : Prop :=
  (∀ (v : V) (k : Int), mfind varMap v = some k ↔ ∃ i : Nat, k = (i : Int) ∧ varIds[i]? = some v) ∧
    ∀ v ∈ varIds, mfind substitutions v = none

/-- The row of `substitutedHard` for the substitution `sub`. -/
def mapRow {V : Type} [DecidableEq V] (varMap : List (V × Int)) (sub : List (V × ℚ)) :
    List (Int × ℚ) :=
  sub.map (fun e => ((mfind varMap e.1).getD 0, e.2))

/-- The row `i` of a vector of rows, empty outside the vector. -/
def rget (m : List (List (Int × ℚ))) (i : Int) : List (Int × ℚ) := (idx? m i).getD []

/-- The values that a call of `factor` that returns true computes on its way: the state
`st` after the row reduction, the indices `varMap0` and `varIds0` of the free variables,
the indices `varMap` of all variables, `rhsTransformMap` after the loop over the soft
constraints, and the factor `fm` of the matrix `spdm`. -/
structure FactorRun {V C LLT : Type} [LinearOrder V] [LinearOrder C] [Inhabited V]
    (solver : SPDSolver LLT) (s s1 : LSQSystem V C LLT) (st : Reduction V C)
    (varMap0 : List (V × Int)) (varIds0 : List V) (varMap : List (V × Int))
    (rhsTransformMap spdm : List (List (Int × ℚ))) (fm : LLT) : Prop where
  loop : reduceLoop (softIndices s.constraints [] 0).2
    (s.constraints.filter (fun e => e.2.hard)).length
    { hardConstraints := (s.constraints.filter (fun e => e.2.hard)).map (fun e => e.2.lhs),
      hardConstraintIds := (s.constraints.filter (fun e => e.2.hard)).map (fun e => e.1),
      hardRhs := (s.constraints.filter (fun e => e.2.hard)).map (fun e => [(e.1, (1 : ℚ))]),
      constraintMap := (softIndices s.constraints [] 0).1 } = some (true, st)
  free : freeVars st.substitutions s.constraints [] [] = (varMap0, varIds0)
  hardV : hardVars st.substitutionConstraintIdx (varIds0.length : Int) st.substitutions varMap0
    (resize varIds0 (varIds0.length + (s.constraints.filter (fun e => e.2.hard)).length)
      default) = some (varMap, s1.varIds)
  rows : substitutedRows varMap st.substitutionConstraintIdx st.substitutions
    (List.replicate st.substitutions.length []) = some (true, s1.substitutedHard)
  soft : softRows st.substitutions st.substitutionsRhs st.constraintMap varMap
    (softIndices s.constraints [] 0).2 s.constraints
    (List.replicate (softIndices s.constraints [] 0).2.toNat [])
    (List.replicate (s.constraints.filter (fun e => e.2.hard)).length []) =
      some (s1.softMatrix, rhsTransformMap)
  hardR : hardRhsRows st.constraintMap st.substitutionConstraintIdx
    (softIndices s.constraints [] 0).2 st.substitutionsRhs rhsTransformMap =
      some s1.rhsTransform
  spd : spdRows s1.softMatrix (List.replicate varIds0.length []) = some spdm
  fac : solver.factor spdm = some fm
  size : solver.size fm = (varIds0.length : Int)
  fmEq : s1.factoredMatrix = some fm
  cmEq : s1.constraintMap = st.constraintMap
  snEq : s1.softNum = (softIndices s.constraints [] 0).2
  consEq : s1.constraints = s.constraints

/-- The values that a call of `solve` that returns true computes on its way: `rhs0`, `rhs1`
after the transform, `rhs2` before and after `factoredMatrix->solve`. -/
structure SolveRun {V C LLT : Type} [LinearOrder V] [LinearOrder C]
    (solver : SPDSolver LLT) (s s2 : LSQSystem V C LLT) (fm : LLT)
    (rhs0 rhs1 rhs2a rhs2 : List ℚ) : Prop where
  grab : grabRhs s.constraintMap s.constraints [] = some rhs0
  transform : ∃ rhs1a, clearHard s.softNum rhs0 = some rhs1a ∧
    transformRows rhs0 s.softNum 0 s.rhsTransform rhs1a = some rhs1
  fmEq : s.factoredMatrix = some fm
  transpose : transposeRows rhs1 0 s.softMatrix
    (List.replicate (solver.size fm).toNat 0) = some rhs2a
  solved : solver.solve fm rhs2a = some rhs2
  store : ∃ result0, storeFree s.varIds 0 rhs2 [] = some result0 ∧
    storeHard s.varIds s.substitutedHard rhs1 rhs2 s.softNum (s.varIds.length - rhs2.length) 0
      result0 = some s2.result

/-- The system with the hard constraint `x + y = c` with the identifier 7 and the soft
constraint `y = d` with the identifier 8, the right-hand sides `c` and `d` to be set. -/
def idSystem : LSQSystem Int Int (List (List (Int × ℚ))) :=
  (LSQSystem.addConstraintId {} true [(0, 1), (1, 1)] 7).addConstraintId false [(1, 1)] 8

/-- The system `idSystem` after `factor`. -/
def idFactored : LSQSystem Int Int (List (List (Int × ℚ))) :=
  ((idSystem.factor exactSolver).getD (false, idSystem)).2

/-- The system `idFactored` after `setRhs(7, 5)` and `setRhs(8, 3)`. -/
def idRhs : LSQSystem Int Int (List (List (Int × ℚ))) :=
  (((idFactored.setRhs 7 5).getD idFactored).setRhs 8 3).getD idFactored

/-- The system `idFactored` with the constraints of `idRhs`, after `solve`. -/
def idSolved : LSQSystem Int Int (List (List (Int × ℚ))) :=
  ((LSQSystem.solve exactSolver { idFactored with constraints := idRhs.constraints }).getD
    (false, idRhs)).2


/-! ### LSQSystem: the soft constraints -/

/-- The sum that the loop over the entries `j` of one row of `softMatrix` adds to the
entry `(i, j)` of `spdm`, when the entries `done` of the row are done and the entries
`rest` are left. -/
def lowerSum (i j : Int) : List (Int × ℚ) → List (Int × ℚ) → ℚ
  | _, [] => 0
  | done, ej :: rest =>
    (if i = ej.1 then ej.2 * rowCoef (done ++ [ej]) j else 0) + lowerSum i j (done ++ [ej]) rest

/-- The values of the free variables by their indices: the entry `j` is the value that
the assignment `y` gives to `varIds[j]`. -/
def freeValues {V : Type} (varIds : List V) (y : V → ℚ) (j : Int) : ℚ :=
  match idx? varIds j with
  | some v => y v
  | none => 0

/-- The system with the hard constraint `x + y = 2` and the soft constraints `x = 0` and
`y = 0`; the variables `x` and `y` are the integers 0 and 1. -/
def overSystem : LSQSystem Int Int (List (List (Int × ℚ))) :=
  ((LSQSystem.addConstraint {} true 2 [(0, 1), (1, 1)]).addConstraint false 0
    [(0, 1)]).addConstraint false 0 [(1, 1)]

/-- The system `overSystem` after `factor`. -/
def overFactored : LSQSystem Int Int (List (List (Int × ℚ))) :=
  ((overSystem.factor exactSolver).getD (false, overSystem)).2

/-- The system `overFactored` after `solve`. -/
def overSolved : LSQSystem Int Int (List (List (Int × ℚ))) :=
  ((LSQSystem.solve exactSolver
    { overFactored with constraints := overSystem.constraints }).getD (false, overSystem)).2

/-! ## The built-in skeletons (skeleton.h 44, skeleton.cpp 114-345) -/

/-- Skeleton::getJointForName. -/
def Skeleton.getJointForName (s : Skeleton) (name : String) : Int :=
  match mfind s.jointNames name with
  | some i => i
  | none => -1

/-- Skeleton::makeSymmetric. Both reads `jointNames[name]` insert an unknown name. -/
def Skeleton.makeSymmetric (s : Skeleton) (name1 name2 : String) : Option Skeleton :=
  let r1 := nameIndex s.jointNames name1
  let r2 := nameIndex r1.2 name2
  let i1 := if r1.1 > r2.1 then r2.1 else r1.1
  let i2 := if r1.1 > r2.1 then r1.1 else r2.1
  match upd? s.fSymV i2 i1 with
  | none => none
  | some fSymV => some { s with jointNames := r2.2, fSymV := fSymV }

/-- Skeleton::setFoot. -/
def Skeleton.setFoot (s : Skeleton) (name : String) : Option Skeleton :=
  let r := nameIndex s.jointNames name
  match idx? s.fcMapV r.1 with
  | none => none
  | some c =>
    match upd? s.cFeetV c true with
    | none => none
    | some cFeetV => some { s with jointNames := r.2, cFeetV := cFeetV }

/-- Skeleton::setFat. -/
def Skeleton.setFat (s : Skeleton) (name : String) : Option Skeleton :=
  let r := nameIndex s.jointNames name
  match idx? s.fcMapV r.1 with
  | none => none
  | some c =>
    match upd? s.cFatV c true with
    | none => none
    | some cFatV => some { s with jointNames := r.2, cFatV := cFatV }

/-- A sequence of `makeSymmetric` calls. -/
def makeSymmetrics : List (String × String) → Skeleton → Option Skeleton
  | [], s => some s
  | (name1, name2) :: rest, s =>
    match s.makeSymmetric name1 name2 with
    | none => none
    | some s' => makeSymmetrics rest s'

/-- A sequence of `setFoot` calls. -/
def setFeet : List String → Skeleton → Option Skeleton
  | [], s => some s
  | name :: rest, s =>
    match s.setFoot name with
    | none => none
    | some s' => setFeet rest s'

/-- A sequence of `setFat` calls. -/
def setFats : List String → Skeleton → Option Skeleton
  | [], s => some s
  | name :: rest, s =>
    match s.setFat name with
    | none => none
    | some s' => setFats rest s'

/-- The shape shared by the constructors of the built-in skeletons: the `makeJoint`
calls, the `makeSymmetric` calls, `initCompressed`, the `setFoot` calls and the `setFat`
calls. The loops of `initCompressed` that climb towards the root get one pass per joint
as fuel. `vlen` stands for `Vector3::length`. -/
def builtinSkeleton (vlen : Vector3 → ℚ) (joints : List JointCall)
    (symmetric : List (String × String)) (feet fat : List String) : Option Skeleton :=
  match buildJoints joints {} with
  | none => none
  | some s =>
    match makeSymmetrics symmetric s with
    | none => none
    | some s =>
      match s.initCompressed vlen joints.length with
      | none => none
      | some s =>
        match setFeet feet s with
        | none => none
        | some s => setFats fat s

/-- The `makeJoint` calls of `HumanSkeleton::HumanSkeleton`, in order. -/
def humanJoints : List JointCall :=
  [("shoulders", (0, 1 / 2, 0), ""),
   ("back", (0, 3 / 20, 0), "shoulders"),
   ("hips", (0, 0, 0), "back"),
   ("head", (0, 7 / 10, 0), "shoulders"),
   ("lthigh", (-1 / 10, 0, 0), "hips"),
   ("lknee", (-3 / 20, -7 / 20, 0), "lthigh"),
   ("lankle", (-3 / 20, -4 / 5, 0), "lknee"),
   ("lfoot", (-3 / 20, -4 / 5, 1 / 10), "lankle"),
   ("rthigh", (1 / 10, 0, 0), "hips"),
   ("rknee", (3 / 20, -7 / 20, 0), "rthigh"),
   ("rankle", (3 / 20, -4 / 5, 0), "rknee"),
   ("rfoot", (3 / 20, -4 / 5, 1 / 10), "rankle"),
   ("lshoulder", (-1 / 5, 1 / 2, 0), "shoulders"),
   ("lelbow", (-2 / 5, 1 / 4, 3 / 40), "lshoulder"),
   ("lhand", (-3 / 5, 0, 3 / 20), "lelbow"),
   ("rshoulder", (1 / 5, 1 / 2, 0), "shoulders"),
   ("relbow", (2 / 5, 1 / 4, 3 / 40), "rshoulder"),
   ("rhand", (3 / 5, 0, 3 / 20), "relbow")]

/-- HumanSkeleton::HumanSkeleton. -/
def HumanSkeleton (vlen : Vector3 → ℚ) : Option Skeleton :=
  builtinSkeleton vlen humanJoints
    [("lthigh", "rthigh"), ("lknee", "rknee"), ("lankle", "rankle"), ("lfoot", "rfoot"),
     ("lshoulder", "rshoulder"), ("lelbow", "relbow"), ("lhand", "rhand")]
    ["lfoot", "rfoot"] ["hips", "shoulders", "head"]

/-- The `makeJoint` calls of `QuadSkeleton::QuadSkeleton`, in order. -/
def quadJoints : List JointCall :=
  [("shoulders", (0, 0, 1 / 2), ""),
   ("back", (0, 0, 0), "shoulders"),
   ("hips", (0, 0, -1 / 2), "back"),
   ("neck", (0, 1 / 5, 63 / 100), "shoulders"),
   ("head", (0, 1 / 5, 9 / 10), "neck"),
   ("lthigh", (-3 / 20, 0, -1 / 2), "hips"),
   ("lhknee", (-1 / 5, -2 / 5, -1 / 2), "lthigh"),
   ("lhfoot", (-1 / 5, -4 / 5, -1 / 2), "lhknee"),
   ("rthigh", (3 / 20, 0, -1 / 2), "hips"),
   ("rhknee", (1 / 5, -2 / 5, -1 / 2), "rthigh"),
   ("rhfoot", (1 / 5, -4 / 5, -1 / 2), "rhknee"),
   ("lshoulder", (-1 / 5, 0, 1 / 2), "shoulders"),
   ("lfknee", (-1 / 5, -2 / 5, 1 / 2), "lshoulder"),
   ("lffoot", (-1 / 5, -4 / 5, 1 / 2), "lfknee"),
   ("rshoulder", (1 / 5, 0, 1 / 2), "shoulders"),
   ("rfknee", (1 / 5, -2 / 5, 1 / 2), "rshoulder"),
   ("rffoot", (1 / 5, -4 / 5, 1 / 2), "rfknee"),
   ("tail", (0, 0, -7 / 10), "hips")]

/-- QuadSkeleton::QuadSkeleton. -/
def QuadSkeleton (vlen : Vector3 → ℚ) : Option Skeleton :=
  builtinSkeleton vlen quadJoints
    [("lthigh", "rthigh"), ("lhknee", "rhknee"), ("lhfoot", "rhfoot"),
     ("lshoulder", "rshoulder"), ("lfknee", "rfknee"), ("lffoot", "rffoot")]
    ["lhfoot", "rhfoot", "lffoot", "rffoot"] ["hips", "shoulders", "head"]

/-- The `makeJoint` calls of `HorseSkeleton::HorseSkeleton`, in order. -/
def horseJoints : List JointCall :=
  [("shoulders", (0, 0, 1 / 2), ""),
   ("back", (0, 0, 0), "shoulders"),
   ("hips", (0, 0, -1 / 2), "back"),
   ("neck", (0, 1 / 5, 63 / 100), "shoulders"),
   ("head", (0, 1 / 5, 9 / 10), "neck"),
   ("lthigh", (-3 / 20, 0, -1 / 2), "hips"),
   ("lhknee", (-1 / 5, -1 / 5, -9 / 20), "lthigh"),
   ("lhheel", (-1 / 5, -2 / 5, -1 / 2), "lhknee"),
   ("lhfoot", (-1 / 5, -4 / 5, -1 / 2), "lhheel"),
   ("rthigh", (3 / 20, 0, -1 / 2), "hips"),
   ("rhknee", (1 / 5, -1 / 5, -9 / 20), "rthigh"),
   ("rhheel", (1 / 5, -2 / 5, -1 / 2), "rhknee"),
   ("rhfoot", (1 / 5, -4 / 5, -1 / 2), "rhheel"),
   ("lshoulder", (-1 / 5, 0, 1 / 2), "shoulders"),
   ("lfknee", (-1 / 5, -2 / 5, 1 / 2), "lshoulder"),
   ("lffoot", (-1 / 5, -4 / 5, 1 / 2), "lfknee"),
   ("rshoulder", (1 / 5, 0, 1 / 2), "shoulders"),
   ("rfknee", (1 / 5, -2 / 5, 1 / 2), "rshoulder"),
   ("rffoot", (1 / 5, -4 / 5, 1 / 2), "rfknee"),
   ("tail", (0, 0, -7 / 10), "hips")]

/-- HorseSkeleton::HorseSkeleton. -/
def HorseSkeleton (vlen : Vector3 → ℚ) : Option Skeleton :=
  builtinSkeleton vlen horseJoints
    [("lthigh", "rthigh"), ("lhknee", "rhknee"), ("lhheel", "rhheel"), ("lhfoot", "rhfoot"),
     ("lshoulder", "rshoulder"), ("lfknee", "rfknee"), ("lffoot", "rffoot")]
    ["lhfoot", "rhfoot", "lffoot", "rffoot"] ["hips", "shoulders", "head"]

/-- The `makeJoint` calls of `CentaurSkeleton::CentaurSkeleton`, in order. -/
def centaurJoints : List JointCall :=
  [("shoulders", (0, 0, 1 / 2), ""),
   ("back", (0, 0, 0), "shoulders"),
   ("hips", (0, 0, -1 / 2), "back"),
   ("hback", (0, 1 / 4, 1 / 2), "shoulders"),
   ("hshoulders", (0, 1 / 2, 1 / 2), "hback"),
   ("head", (0, 7 / 10, 1 / 2), "hshoulders"),
   ("lthigh", (-3 / 20, 0, -1 / 2), "hips"),
   ("lhknee", (-1 / 5, -2 / 5, -9 / 20), "lthigh"),
   ("lhfoot", (-1 / 5, -4 / 5, -1 / 2), "lhknee"),
   ("rthigh", (3 / 20, 0, -1 / 2), "hips"),
   ("rhknee", (1 / 5, -2 / 5, -9 / 20), "rthigh"),
   ("rhfoot", (1 / 5, -4 / 5, -1 / 2), "rhknee"),
   ("lshoulder", (-1 / 5, 0, 1 / 2), "shoulders"),
   ("lfknee", (-1 / 5, -2 / 5, 1 / 2), "lshoulder"),
   ("lffoot", (-1 / 5, -4 / 5, 1 / 2), "lfknee"),
   ("rshoulder", (1 / 5, 0, 1 / 2), "shoulders"),
   ("rfknee", (1 / 5, -2 / 5, 1 / 2), "rshoulder"),
   ("rffoot", (1 / 5, -4 / 5, 1 / 2), "rfknee"),
   ("hlshoulder", (-1 / 5, 1 / 2, 1 / 2), "hshoulders"),
   ("lelbow", (-2 / 5, 1 / 4, 23 / 40), "hlshoulder"),
   ("lhand", (-3 / 5, 0, 13 / 20), "lelbow"),
   ("hrshoulder", (1 / 5, 1 / 2, 1 / 2), "hshoulders"),
   ("relbow", (2 / 5, 1 / 4, 23 / 40), "hrshoulder"),
   ("rhand", (3 / 5, 0, 13 / 20), "relbow"),
   ("tail", (0, 0, -7 / 10), "hips")]

/-- CentaurSkeleton::CentaurSkeleton. -/
def CentaurSkeleton (vlen : Vector3 → ℚ) : Option Skeleton :=
  builtinSkeleton vlen centaurJoints
    [("lthigh", "rthigh"), ("lhknee", "rhknee"), ("lhheel", "rhheel"), ("lhfoot", "rhfoot"),
     ("lshoulder", "rshoulder"), ("lfknee", "rfknee"), ("lffoot", "rffoot"),
     ("hlshoulder", "hrshoulder"), ("lelbow", "relbow"), ("lhand", "rhand")]
    ["lhfoot", "rhfoot", "lffoot", "rffoot"] ["hips", "shoulders", "hshoulders", "head"]

/-- The names passed to `makeJoint` by a list of calls. -/
def jointCallNames (joints : List JointCall) : List String := joints.map (fun c => c.1)

/-- The skeleton `s` with the bone lengths `cl` and the fractions `fr`. -/
def Skeleton.withLengths (s : Skeleton) (cl : List ℚ) (fr : List (Option ℚ)) : Skeleton :=
  { s with cLengthV := cl, fcFractionV := fr }

/-! ## The run without fitting and the file skeleton.out (processor.cpp 175-213) -/

/-- Modelled from the spec: `operator/` of vector.h by a scalar. A division by zero has no
exact value. -/
def Vector3.div? (a : Vector3) (c : ℚ) : Option Vector3 :=
  if c = 0 then none else some (a.1 / c, a.2.1 / c, a.2.2 / c)

/-- The embedding of lines 179-181 of `process` (option `-nofit`):
`o.embedding[i] = m.toAdd + o.embedding[i] * m.scale` on the joints of `a.skeleton`. -/
def nofitEmbedding (m : Mesh) (skeleton : Skeleton) : List Vector3 :=
  skeleton.fGraphV.verts.map (fun v => m.toAdd.add (Vector3.smul m.scale v))

/-- The rows of skeleton.out (lines 207-213 of `process`) from joint `i` on: the index, the
coordinates `(o.embedding[i] - m.toAdd) / m.scale` and `a.skeleton.fPrev()[i]`. There is no
value when `fPrev()` has no entry `i`. -/
def skeletonOutRows (m : Mesh) (fPrev : List Int) :
    Nat → List Vector3 → Option (List (Nat × Option Vector3 × Int))
  | _, [] => some []
  | i, e :: rest =>
    match fPrev[i]? with
    | none => none
    | some p =>
      match skeletonOutRows m fPrev (i + 1) rest with
      | none => none
      | some rows => some ((i, (e.sub m.toAdd).div? m.scale, p) :: rows)

/-- The tetrahedron after a normalisation with scale 2 and offset `(1, 2, 3)`. -/
def scaledTetra : Mesh := { tetraMesh with toAdd := (1, 2, 3), scale := 2 }

/-! ## Transform::inverse (transform.h 108) -/

/-- `Transform::inverse`:
`Transform(rot.inverse(), 1. / scale, rot.inverse() * -trans * (1. / scale))`. The
reciprocal of a zero scale has no exact value. -/
def Transform.inverse (t : Transform) : Option Transform :=
  if t.scale = 0 then none
  else some ⟨t.rot.inverse, 1 / t.scale, Vector3.smul (1 / t.scale) (t.rot.inverse.apply t.trans.neg)⟩

/-- The attachment the constructor leaves for four vertices and one bone when the
factorisation fails: zero weights and no stored pair. -/
def unfactoredAttachment : Attachment :=
  { weights := [[0], [0], [0], [0]], nzweights := [[], [], [], []] }

/-! ## LSQSystem: inputs for the pivot search and the factorisation -/

/-- The value `fabs(coef) / (double(size) - 0.9)` that the pivot search gives to an entry
with coefficient `c` in a hard constraint with `size` entries. -/
def pivotVal (c : ℚ) (size : Nat) : ℚ := |c| / ((size : ℚ) - 9 / 10)

/-- The state of the loop `while(hardConstraints.size())` after `k` passes, none of which
has returned; there is none when the loop has ended earlier, or a pass returns false or
has no value. -/
def roundState {V C : Type} [LinearOrder V] [LinearOrder C] [Inhabited V] (softNum : Int) :
    Nat → Reduction V C → Option (Reduction V C)
  | 0, st => some st
  | k + 1, st =>
    match st.hardConstraints with
    | [] => none
    | _ :: _ =>
      match reduceStep softNum st with
      | some (true, st') => roundState softNum k st'
      | _ => none

/-- The local variables of `factor` when the loop `while(hardConstraints.size())` starts. -/
def LSQSystem.reductionStart {V C LLT : Type} [LinearOrder C] (s : LSQSystem V C LLT) :
    Reduction V C :=
  { hardConstraints := (s.constraints.filter (fun e => e.2.hard)).map (fun e => e.2.lhs),
    hardConstraintIds := (s.constraints.filter (fun e => e.2.hard)).map (fun e => e.1),
    hardRhs := (s.constraints.filter (fun e => e.2.hard)).map (fun e => [(e.1, (1 : ℚ))]),
    constraintMap := (softIndices s.constraints [] 0).1 }

/-- The hard constraints `x + y = 0` and `100 z = 1`, with the variables 0, 1 and 2. -/
def earlyExitSystem : LSQSystem Int Int (List (List (Int × ℚ))) :=
  (LSQSystem.addConstraint {} true 0 [(0, 1), (1, 1)]).addConstraint true 1 [(2, 100)]

/-- The hard constraint `c x = 1` with `c = 5e-11` and the soft constraint `y = 0`. -/
def tinyPivotSystem : LSQSystem Int Int (List (List (Int × ℚ))) :=
  (LSQSystem.addConstraint {} true 1 [(0, 1 / 20000000000)]).addConstraint false 0 [(1, 1)]

/-- The hard constraints `x = 1` and `c y = 1` with `c = 1e-12`. -/
def smallPivotSystem : LSQSystem Int Int (List (List (Int × ℚ))) :=
  (LSQSystem.addConstraint {} true 1 [(0, 1)]).addConstraint true 1 [(1, 1 / 1000000000000)]

/-- The hard constraint `x - y = 0` and the soft constraint `x = 1`, where `x` is the
variable 0 and `y` the variable 1. -/
def equalityFirstSystem : LSQSystem Int Int (List (List (Int × ℚ))) :=
  (LSQSystem.addConstraint {} true 0 [(0, 1), (1, -1)]).addConstraint false 1 [(0, 1)]

/-- The hard constraint `x - y = 0` and the soft constraint `x = 1`, where `x` is the
variable 1 and `y` the variable 0. -/
def equalitySecondSystem : LSQSystem Int Int (List (List (Int × ℚ))) :=
  (LSQSystem.addConstraint {} true 0 [(0, -1), (1, 1)]).addConstraint false 1 [(1, 1)]

/-- The soft constraint `x + y = 1` alone: the matrix `A^T A` is singular. -/
def rankDeficientSystem : LSQSystem Int Int (List (List (Int × ℚ))) :=
  LSQSystem.addConstraint {} false 1 [(0, 1), (1, 1)]

/-- The solver `exactSolver` with a factorisation that fails on every matrix
(`SPDMatrix::factor` returns a null pointer). -/
def nullSolver : SPDSolver (List (List (Int × ℚ))) :=
  { exactSolver with factor := fun _ => none }

/-! ## The constructor `Mesh::Mesh(file)` (mesh.cpp 29-86) and the OBJ files (228-284, 590-600) -/

/-- The part of the constructor `Mesh::Mesh(file)` after the reader has filled `vertices`
and `edges` (lines 63-85): nothing more happens without vertices; an invalid vertex index
clears the mesh (`OUT`); else `fixDupFaces`, `computeTopology` and `computeVertexNormals`
run. The result of `integrityCheck` in between only selects the message that is printed.
`vnormalize` stands for `Vector3::normalize`. -/
def Mesh.reconstruct (vnormalize : Vector3 → Vector3) (m : Mesh) : Option Mesh :=
  if m.vertices.length = 0 then some m
  else if m.edges.any (fun e => decide (e.vertex < 0 ∨ e.vertex ≥ (m.vertices.length : Int))) then
    some { m with vertices := [], edges := [] }
  else
    match m.fixDupFaces with
    | none => none
    | some m1 =>
      match m1.computeTopology with
      | none => none
      | some m2 => m2.computeVertexNormals vnormalize

/-- What the readers use of the C library: `sscanf(word, "%lf", &x)` and
`sscanf(word, "%d", &a)`. There is no value when nothing is converted: the variable stays
uninitialised and is read afterwards. -/
structure Scanner where
  scanDouble : String → Option ℚ
  scanInt : String → Option Int

/-- What `writeObj` uses of the stream library: the output `os << x` of a `double` and of
an `int`, as the word it writes. -/
structure Printer where
  printDouble : ℚ → String
  printInt : Int → String

/-- The `int` value `a - 1`; a signed overflow (or an `a` that is no `int`) has no value. -/
def pred32 (a : Int) : Option Int :=
  if -2147483648 < a ∧ a ≤ 2147483647 then some (a - 1) else none

/-- The `int` value `a + 1`; a signed overflow (or an `a` that is no `int`) has no value. -/
def succ32 (a : Int) : Option Int :=
  if -2147483648 ≤ a ∧ a < 2147483647 then some (a + 1) else none

/-- The loop of lines 268-269: `sscanf(words[i + 1].c_str(), "%d", a + i)` for every word
after the first. -/
def scanIndices (sc : Scanner) : List String → Option (List Int)
  | [] => some []
  | w :: rest =>
    match sc.scanInt w, scanIndices sc rest with
    | some a, some as => some (a :: as)
    | _, _ => none

/-- The loop of lines 273-279 from `j` on, with `k` passes left: three half-edges with the
vertices `a[0] - 1`, `a[j - 1] - 1` and `a[j] - 1` are appended. -/
def fanLoop (a : List Int) : Nat → Nat → List MeshEdge → Option (List MeshEdge)
  | 0, _, edges => some edges
  | k + 1, j, edges =>
    match a[0]?, a[j - 1]?, a[j]? with
    | some a0, some a1, some a2 =>
      match pred32 a0, pred32 a1, pred32 a2 with
      | some v0, some v1, some v2 =>
        fanLoop a k (j + 1) (edges ++ [{ vertex := v0 }, { vertex := v1 }, { vertex := v2 }])
      | _, _, _ => none
    | _, _, _ => none

/-- One pass of the loop of `readObj` on the words of a line. The flag tells that the mesh
was cleared and `readObj` has returned (`OUT`). -/
def readObjLine (sc : Scanner) (m : Mesh) (words : List String) : Option (Mesh × Bool) :=
  match words with
  | [] => some (m, false)
  | w :: args =>
    if w.data.head? = some (Char.ofNat 35) then some (m, false)
    else if w.length ≠ 1 then some (m, false)
    else if w = "v" then
      if words.length ≠ 4 then some ({ m with vertices := [], edges := [] }, true)
      else
        match args with
        | [wx, wy, wz] =>
          match sc.scanDouble wx, sc.scanDouble wy, sc.scanDouble wz with
          | some x, some y, some z =>
            some ({ m with vertices := m.vertices ++ [{ pos := (x, y, z) }] }, false)
          | _, _, _ => none
        | _ => none
    else if w = "f" then
      if words.length < 4 ∨ words.length > 15 then
        some ({ m with vertices := [], edges := [] }, true)
      else
        match scanIndices sc args with
        | none => none
        | some a =>
          match fanLoop a (words.length - 3) 2 m.edges with
          | none => none
          | some edges => some ({ m with edges := edges }, false)
    else some (m, false)

/-- Mesh::readObj on a file given as the list of its lines, each line as the list of its
words (the result of `readWords`). -/
def readObj (sc : Scanner) : List (List String) → Mesh → Option Mesh
  | [], m => some m
  | words :: rest, m =>
    match readObjLine sc m words with
    | none => none
    | some (m', true) => some m'
    | some (m', false) => readObj sc rest m'

/-- The constructor `Mesh::Mesh(file)` for a file with the extension `.obj` that could be
opened. -/
def Mesh.loadObj (sc : Scanner) (vnormalize : Vector3 → Vector3) (file : List (List String)) :
    Option Mesh :=
  match readObj sc file {} with
  | none => none
  | some raw => raw.reconstruct vnormalize

/-- The loop of lines 598-599 of `writeObj` over the half-edges, three at a time. -/
def writeFaces (pr : Printer) : List MeshEdge → Option (List (List String))
  | [] => some []
  | [_] => none
  | [_, _] => none
  | e0 :: e1 :: e2 :: rest =>
    match succ32 e0.vertex, succ32 e1.vertex, succ32 e2.vertex, writeFaces pr rest with
    | some a0, some a1, some a2, some lines =>
      some (["f", pr.printInt a0, pr.printInt a1, pr.printInt a2] :: lines)
    | _, _, _, _ => none

/-- Mesh::writeObj: the lines of the file, each as the list of its words. -/
def Mesh.writeObj (pr : Printer) (m : Mesh) : Option (List (List String)) :=
  match writeFaces pr m.edges with
  | none => none
  | some faces =>
    some (m.vertices.map (fun v =>
      ["v", pr.printDouble v.pos.1, pr.printDouble v.pos.2.1, pr.printDouble v.pos.2.2]) ++ faces)

/-- A mesh as a reader leaves it: only the positions and the target vertices are set. -/
def Mesh.rawOf (m : Mesh) : Mesh :=
  { vertices := m.vertices.map (fun v => { pos := v.pos }),
    edges := m.edges.map (fun e => { vertex := e.vertex }) }

/-- The sorted vertex triples of the triangles of a mesh. -/
def Mesh.faces (m : Mesh) : List (Int × Int × Int) := trianglesOf m.edges

/-- A stand-in for `Vector3::normalize` with rational values: the vector divided by the
sum of its absolute coordinates, and the zero vector for the zero vector. -/
def absNormalize (v : Vector3) : Vector3 :=
  if absLength v = 0 then (0, 0, 0) else Vector3.smul (1 / absLength v) v

/-- Three vertices and the triangle list `(0,1,2)`. -/
def oneTriangleInput : Mesh :=
  { vertices := [{ pos := (0, 0, 0) }, { pos := (1, 0, 0) }, { pos := (0, 1, 0) }],
    edges := edgesOfTriangles [(0, 1, 2)] }

/-- No vertex and the triangle list `(0,1,2)`: a file with a face line and no vertex line. -/
def facesOnlyInput : Mesh := { edges := edgesOfTriangles [(0, 1, 2)] }

/-- Four vertices and the triangle list `(0,1,2), (0,1,3)`: both triangles have the
half-edge from 0 to 1. -/
def sharedEdgeInput : Mesh :=
  { vertices := [{ pos := (0, 0, 0) }, { pos := (1, 0, 0) }, { pos := (0, 1, 0) }, { pos := (0, 0, 1) }],
    edges := edgesOfTriangles [(0, 1, 2), (0, 1, 3)] }

/-- Two tetrahedra side by side as a triangle list, on the vertices 0-3 and 4-7. -/
def twoTetraInput : Mesh :=
  { vertices := [{ pos := (0, 0, 0) }, { pos := (1, 0, 0) }, { pos := (0, 1, 0) }, { pos := (0, 0, 1) },
                 { pos := (2, 0, 0) }, { pos := (3, 0, 0) }, { pos := (2, 1, 0) }, { pos := (2, 0, 1) }],
    edges := edgesOfTriangles [(0, 1, 2), (0, 2, 3), (0, 3, 1), (1, 3, 2),
                               (4, 5, 6), (4, 6, 7), (4, 7, 5), (5, 7, 6)] }

/-- The tetrahedron with its first face twice. -/
def tetraDupInput : Mesh :=
  { vertices := [{ pos := (0, 0, 0) }, { pos := (1, 0, 0) }, { pos := (0, 1, 0) }, { pos := (0, 0, 1) }],
    edges := edgesOfTriangles [(0, 1, 2), (0, 2, 3), (0, 3, 1), (1, 3, 2), (0, 1, 2)] }

/-- A triangle and its reverse on three vertices: a closed surface with two faces. -/
def pillowInput : Mesh :=
  { vertices := [{ pos := (0, 0, 0) }, { pos := (1, 0, 0) }, { pos := (0, 1, 0) }],
    edges := edgesOfTriangles [(0, 1, 2), (0, 2, 1)] }

/-- The triangle and its reverse with the topology `computeTopology` gives them. -/
def pillowMesh : Mesh :=
  { vertices := [{ pos := (0, 0, 0), edge := 4 }, { pos := (1, 0, 0), edge := 3 },
                 { pos := (0, 1, 0), edge := 5 }],
    edges := [⟨0, 2, 4⟩, ⟨1, 0, 3⟩, ⟨2, 1, 5⟩, ⟨0, 5, 1⟩, ⟨2, 3, 0⟩, ⟨1, 4, 2⟩] }

/-- The triangles of a face line with the indices `a`: the fan `(a[0] - 1, a[t + 1] - 1,
a[t + 2] - 1)` for `t = 0, ..., a.length - 3`. -/
def fanTriangles (a : List Int) : List (Int × Int × Int) :=
  (List.range (a.length - 2)).map
    (fun t => (a.getD 0 0 - 1, a.getD (t + 1) 0 - 1, a.getD (t + 2) 0 - 1))

/-- A scanner that reads decimal integers, also as coordinates. -/
def decimalScanner : Scanner :=
  { scanDouble := fun w => (w.toInt?).map (fun n => (n : ℚ)),
    scanInt := fun w => w.toInt? }

/-- A printer that writes integers in decimal, and a coordinate by its integer part. -/
def decimalPrinter : Printer :=
  { printDouble := fun x => toString x.floor,
    printInt := fun n => toString n }

/-- Three vertices and the triangle list `(0,1,5)`: the index 5 is out of range. -/
def badIndexInput : Mesh :=
  { vertices := [{ pos := (0, 0, 0) }, { pos := (1, 0, 0) }, { pos := (0, 1, 0) }],
    edges := edgesOfTriangles [(0, 1, 5)] }

/-! ## VisTester::canSee (attachment.h 38-57) -/

/-- The local constant `maxVal` of `canSee`. -/
def maxVal : ℚ := 2 / 1000

/-- The three ways out of `canSee`: `return false` in the loop, `return true` in the loop
(the early-out test), and `return true` after the loop. -/
inductive CanSeeExit where
  | exceeded
  | earlyOut
  | finished
deriving DecidableEq, Repr

/-- The value `canSee` returns at each of its exits. -/
def CanSeeExit.value : CanSeeExit → Bool
  | .exceeded => false
  | .earlyOut => true
  | .finished => true

/-- The loop `while(left >= 0.)` of `canSee` (lines 46-55). `field` stands for
`tree->locate(p)->evaluate(p)`. The list `seen` is a record of the points at which the loop
has evaluated the field, in order; the source keeps no such list. The result is `none` when
the fuel runs out while `left >= 0` still holds. -/
def canSeeLoop (field : Vector3 → ℚ) (atV2 leftInc : ℚ) (diff : Vector3) :
    Nat → Vector3 → ℚ → List Vector3 → Option (CanSeeExit × List Vector3)
  | 0, _, left, seen => if left ≥ 0 then none else some (.finished, seen)
  | fuel + 1, cur, left, seen =>
    if left ≥ 0 then
      let curDist := field cur
      if curDist > maxVal then some (.exceeded, seen ++ [cur])
      else if curDist + atV2 + left ≤ maxVal then some (.earlyOut, seen ++ [cur])
      else canSeeLoop field atV2 leftInc diff fuel (cur.add diff) (left - leftInc)
        (seen ++ [cur])
    else some (.finished, seen)

/-- The body of `VisTester::canSee` (lines 40-56) with the exit taken and the record of the
sample points. `vlen` stands for `Vector3::length` of vector.h. -/
def canSeeTrace (field : Vector3 → ℚ) (vlen : Vector3 → ℚ) (fuel : Nat) (v1 v2 : Vector3) :
    Option (CanSeeExit × List Vector3) :=
  let atV2 := field v2
  let left := vlen (v2.sub v1)
  let leftInc := left / 100
  match (v2.sub v1).div? 100 with
  | none => none
  | some diff => canSeeLoop field atV2 leftInc diff fuel (v1.add diff) left []

/-- The function `VisTester::canSee` (attachment.h 38-57). -/
def canSee (field : Vector3 → ℚ) (vlen : Vector3 → ℚ) (fuel : Nat) (v1 v2 : Vector3) :
    Option Bool :=
  (canSeeTrace field vlen fuel v1 v2).map (fun r => r.1.value)

/-- The point `v1 + (k + 1) * (v2 - v1) / 100`, the value of `cur` in pass `k` of the loop
of `canSee` (passes are counted from 0). -/
def samplePoint (v1 v2 : Vector3) (k : Nat) : Vector3 :=
  v1.add (Vector3.smul (((k : ℚ) + 1) / 100) (v2.sub v1))

/-- The value of `left` in pass `k` of the loop of `canSee`. -/
def leftAt (vlen : Vector3 → ℚ) (v1 v2 : Vector3) (k : Nat) : ℚ :=
  vlen (v2.sub v1) - (k : ℚ) * (vlen (v2.sub v1) / 100)

/-- The point `q` lies on the segment from `a` to `b`. -/
def onSegment (a b q : Vector3) : Prop :=
  ∃ t : ℚ, 0 ≤ t ∧ t ≤ 1 ∧ q = a.add (Vector3.smul t (b.sub a))

/-- A field with the constant value 0.0015, between `maxVal / 2` and `maxVal`. -/
def flatField (_ : Vector3) : ℚ := 3 / 2000

/-- A field that is zero except for a bump of height 0.5 around the plane `x = 100.5`:
`max(0, 0.5 - |x - 100.5|)`. -/
def bumpField (p : Vector3) : ℚ := max 0 (1 / 2 - |p.1 - 201 / 2|)

/-- The field `x - 1`. -/
def slopeField (p : Vector3) : ℚ := p.1 - 1

/-! ## Intersector (intersector.cpp 24-67, 86-93) -/

/-- Modelled from the spec: `Vector2` of the header vector.h. -/
abbrev Vector2 := ℚ × ℚ

/-- Modelled from the spec: the rectangle `Rect2` of the header rect.h, which is not among
the sources: an empty flag and the two corners. -/
structure Rect2 where
  empty : Bool := true
  lo : Vector2 := (0, 0)
  hi : Vector2 := (0, 0)
deriving DecidableEq, Repr

/-- Modelled from the spec: the rectangle `Rect2(p)` of a single point. -/
def Rect2.ofPoint (p : Vector2) : Rect2 := ⟨false, p, p⟩

/-- Modelled from the spec: the union `a |= b` of rect.h: an empty rectangle gives the
other one, otherwise the component-wise minimum and maximum of the corners. -/
def Rect2.union (a b : Rect2) : Rect2 :=
  if b.empty then a
  else if a.empty then b
  else ⟨false, (min a.lo.1 b.lo.1, min a.lo.2 b.lo.2), (max a.hi.1 b.hi.1, max a.hi.2 b.hi.2)⟩

/-- Modelled from the spec: the bounding rectangle `Rect2(begin, end)` of a range of
points; no rectangle for an empty range. -/
def Rect2.ofPoints : List Vector2 → Option Rect2
  | [] => none
  | p :: ps => some (ps.foldl (fun r q => r.union (Rect2.ofPoint q)) (Rect2.ofPoint p))

/-- Modelled from the spec: `Rect2::getSize`, the extent along each axis. -/
def Rect2.getSize (r : Rect2) : Vector2 := (r.hi.1 - r.lo.1, r.hi.2 - r.lo.2)

/-- Modelled from the spec: `Rect2::contains` for a point. -/
def Rect2.contains (r : Rect2) (p : Vector2) : Bool :=
  !r.empty && decide (r.lo.1 ≤ p.1 ∧ p.1 ≤ r.hi.1 ∧ r.lo.2 ≤ p.2 ∧ p.2 ≤ r.hi.2)

/-- The conversion `int(d)` of a `double`: the value is cut towards zero; the conversion is
undefined when the result is not an `int`. -/
def truncToInt (d : ℚ) : Option Int :=
  let t : Int := if 0 ≤ d then ⌊d⌋ else ⌈d⌉
  if -2147483648 ≤ t ∧ t ≤ 2147483647 then some t else none

/-- The constant `cells` of intersector.cpp. -/
def cells : Int := 200

/-- The function `Intersector::getIndex` (lines 28-35). Both `x` and `y` are computed from
`c[0]`, as in the source. The quotient `c[0]` has no exact value when the bounds have no
extent along the first axis. -/
def getIndex (bounds : Rect2) (pt : Vector2) : Option (Int × Int) :=
  if bounds.getSize.1 = 0 then none
  else
    let c0 := (pt.1 - bounds.lo.1) / bounds.getSize.1
    match truncToInt (c0 * 200), truncToInt (c0 * 200) with
    | some x, some y => some (max 0 (min (cells - 1) x), max 0 (min (cells - 1) y))
    | _, _ => none

/-- The index `getIndex` gives for both `x` and `y` at a point within the bounds. -/
def cellOf (bounds : Rect2) (pt : Vector2) : Int :=
  max 0 (min (cells - 1) ⌊(pt.1 - bounds.lo.1) / bounds.getSize.1 * 200⌋)

/-- The rectangle `triRect` of lines 55-57: the union of the projected corners of the
triangle that starts at half-edge `i`. -/
def triRect (points : List Vector2) (edg : List MeshEdge) (i : Nat) : Option Rect2 :=
  match edg[i]?, edg[i + 1]?, edg[i + 2]? with
  | some e0, some e1, some e2 =>
    match idx? points e0.vertex, idx? points e1.vertex, idx? points e2.vertex with
    | some p0, some p1, some p2 =>
      some ((((({} : Rect2).union (Rect2.ofPoint p0)).union (Rect2.ofPoint p1)).union
        (Rect2.ofPoint p2)))
    | _, _, _ => none
  | _, _, _ => none

/-- The call `triangles[n].push_back(i)`. -/
def pushCell (triangles : List (List Int)) (n : Int) (i : Int) : Option (List (List Int)) :=
  match idx? triangles n with
  | none => none
  | some l => upd? triangles n (l ++ [i])

/-- The indices `j * cells + k` the double loop of lines 63-65 visits, in order:
`for(j = fromy; j <= toy; ++j) for(k = fromx; k <= tox; ++k)`. -/
def cellIndices (fromx tox fromy toy : Int) : List Int :=
  (List.range (toy + 1 - fromy).toNat).flatMap (fun (a : Nat) =>
    (List.range (tox + 1 - fromx).toNat).map (fun (b : Nat) =>
      (fromy + (a : Int)) * cells + (fromx + (b : Int))))

/-- The pushes of the double loop of lines 63-65. -/
def pushAll (i : Int) : List Int → List (List Int) → Option (List (List Int))
  | [], triangles => some triangles
  | n :: rest, triangles =>
    match pushCell triangles n i with
    | none => none
    | some triangles' => pushAll i rest triangles'

/-- One pass of the loop over the triangles of `Intersector::init` (lines 54-65) for the
triangle number `t`, which starts at half-edge `i = 3 * t`; the normals `sNormals` of lines
67-72 are left out. -/
def fillStep (points : List Vector2) (edg : List MeshEdge) (bounds : Rect2)
    (triangles : Option (List (List Int))) (t : Nat) : Option (List (List Int)) :=
  match triangles with
  | none => none
  | some tr =>
    match triRect points edg (3 * t) with
    | none => none
    | some r =>
      match getIndex bounds r.lo, getIndex bounds r.hi with
      | some (fromx, fromy), some (tox, toy) =>
        pushAll ((3 * t : Nat) : Int) (cellIndices fromx tox fromy toy) tr
      | _, _ => none

/-- The state of an `Intersector` after `init`, as far as the grid goes: the projected
points, their bounds and the cell lists. -/
structure Intersector where
  points : List Vector2
  bounds : Rect2
  triangles : List (List Int)
deriving DecidableEq, Repr

/-- The function `Intersector::init` (lines 37-66) without the normals: the points are
`(pos * v1, pos * v2)` for the basis `v1`, `v2` that `getBasis` of vecutils.h gives, the
bounds are their bounding rectangle, and every triangle is pushed onto the cells between
the indices of the corners of its rectangle. -/
def Intersector.init (m : Mesh) (v1 v2 : Vector3) : Option Intersector :=
  let points := m.vertices.map (fun v => (v.pos.dot v1, v.pos.dot v2))
  match Rect2.ofPoints points with
  | none => none
  | some bounds =>
    match (List.range ((m.edges.length + 2) / 3)).foldl (fillStep points m.edges bounds)
        (some (List.replicate (cells * cells).toNat [])) with
    | none => none
    | some triangles => some ⟨points, bounds, triangles⟩

/-- The cell list `triangles[y * cells + x]` that `Intersector::intersect` walks through
for the projected point `pt2` (lines 86-93): `some []` for a point outside the bounds,
where `intersect` returns at once. -/
def Intersector.lookup (s : Intersector) (pt2 : Vector2) : Option (List Int) :=
  if s.bounds.contains pt2 then
    match getIndex s.bounds pt2 with
    | none => none
    | some (x, y) => idx? s.triangles (y * cells + x)
  else some []

/-- A flat square of two triangles in the plane `z = 0`. -/
def squareMesh : Mesh :=
  { vertices := [⟨(0, 0, 0), (0, 0, 0), -1⟩, ⟨(1, 0, 0), (0, 0, 0), -1⟩,
      ⟨(1, 1, 0), (0, 0, 0), -1⟩, ⟨(0, 1, 0), (0, 0, 0), -1⟩],
    edges := edgesOfTriangles [(0, 1, 2), (0, 2, 3)] }

/-! ## The vertex normals as sums (mesh.cpp 114-130) -/

/-- The unit normal `computeVertexNormals` computes in lines 120-123 for the triangle that
starts at half-edge `i`. -/
def triangleNormal (vnormalize : Vector3 → Vector3) (m : Mesh) (i : Nat) : Vector3 :=
  let p1 := (vertexAt m.vertices (edgeAt m.edges (i : Int)).vertex).pos
  let p2 := (vertexAt m.vertices (edgeAt m.edges ((i + 1 : Nat) : Int)).vertex).pos
  let p3 := (vertexAt m.vertices (edgeAt m.edges ((i + 2 : Nat) : Int)).vertex).pos
  vnormalize ((p2.sub p1).cross (p3.sub p1))

/-- The sum of the unit normals of the first `k` triangles at vertex `j`: the normal of a
triangle is added once for each of its corners that is `j`. -/
def normalSum (vnormalize : Vector3 → Vector3) (m : Mesh) (j : Int) : Nat → Vector3
  | 0 => (0, 0, 0)
  | k + 1 =>
    let n := triangleNormal vnormalize m (3 * k)
    let s0 := normalSum vnormalize m j k
    let s1 := if (edgeAt m.edges ((3 * k : Nat) : Int)).vertex = j then s0.add n else s0
    let s2 := if (edgeAt m.edges ((3 * k + 1 : Nat) : Int)).vertex = j then s1.add n else s1
    if (edgeAt m.edges ((3 * k + 2 : Nat) : Int)).vertex = j then s2.add n else s2

/-- Nine vertices and six triangles, two of them twice: `(6,7,8)` twice, `(3,5,4)` and
`(3,4,5)`, and the triangle `(0,1,2)` with its reverse `(0,2,1)`. -/
def sixTriangleInput : Mesh :=
  { vertices := [{ pos := (0, 0, 0) }, { pos := (1, 0, 0) }, { pos := (0, 1, 0) },
      { pos := (2, 0, 0) }, { pos := (3, 0, 0) }, { pos := (2, 1, 0) },
      { pos := (4, 0, 0) }, { pos := (5, 0, 0) }, { pos := (4, 1, 0) }],
    edges := edgesOfTriangles [(0, 1, 2), (6, 7, 8), (6, 7, 8), (3, 5, 4), (0, 2, 1), (3, 4, 5)] }

/-- The system with the hard constraint `x + y = 2` and the soft constraint `y = 0`, where
`y` is the variable 0 and `x` the variable 1. -/
def twoVarSystemSwapped : LSQSystem Int Int (List (List (Int × ℚ))) :=
  (LSQSystem.addConstraint {} true 2 [(0, 1), (1, 1)]).addConstraint false 0 [(0, 1)]

/-! ## Theorems -/

/-! ### fixDupFaces -/

/-- C1, evaluation at a failing input: on the triangle list `(0,1,2), (0,1,2), (0,1,3)`
`fixDupFaces` returns the single triangle `(0,1,2)`: one copy of the doubled face is
kept and the face `(0,1,3)`, which occurred once, is lost. -/
theorem fixDupFaces_loses_unpaired_face :
    trianglesOf dupFaceMesh.edges = [(0, 1, 2), (0, 1, 2), (0, 1, 3)] ∧
    (Mesh.fixDupFaces dupFaceMesh).map (fun m => trianglesOf m.edges) = some [(0, 1, 2)] := by
  decide

/-- C8, evaluation at a failing input: with vertex 0 unused, the half-edge that pointed
to vertex 1 (at `(1,0,0)`) is renumbered to 0, but entry 0 of the vertex array still
holds the position `(0,0,0)` of the dropped vertex. -/
theorem fixDupFaces_keeps_stale_first_vertex :
    unusedFirstVertexMesh.edges.map (fun e => e.vertex) = [1, 2, 3] ∧
    (Mesh.fixDupFaces unusedFirstVertexMesh).map
        (fun m => (m.edges.map (fun e => e.vertex), m.positions)) =
      some ([0, 1, 2], [(0, 0, 0), (0, 1, 0), (0, 0, 1)]) := by
  decide

/-! ### normalizeBoundingBox -/

/-- The fold of `Rect3.ofPoints` keeps its starting corners as bounds. -/
theorem boxFold_start (ps : List Vector3) (r : Rect3) :
    let r' := ps.foldl (fun r q => (⟨r.lo.cmin q, r.hi.cmax q⟩ : Rect3)) r
    (r'.lo.1 ≤ r.lo.1 ∧ r'.lo.2.1 ≤ r.lo.2.1 ∧ r'.lo.2.2 ≤ r.lo.2.2) ∧
    (r.hi.1 ≤ r'.hi.1 ∧ r.hi.2.1 ≤ r'.hi.2.1 ∧ r.hi.2.2 ≤ r'.hi.2.2) := by
  induction ps generalizing r with
  | nil => simp
  | cons q qs ih =>
    have h := ih ⟨r.lo.cmin q, r.hi.cmax q⟩
    simp only [List.foldl_cons, Vector3.cmin, Vector3.cmax] at h ⊢
    obtain ⟨⟨a1, a2, a3⟩, b1, b2, b3⟩ := h
    exact ⟨⟨le_trans a1 (min_le_left _ _), le_trans a2 (min_le_left _ _),
      le_trans a3 (min_le_left _ _)⟩, le_trans (le_max_left _ _) b1,
      le_trans (le_max_left _ _) b2, le_trans (le_max_left _ _) b3⟩

/-- Every folded point lies between the corners of the resulting box. -/
theorem boxFold_mem (ps : List Vector3) (r : Rect3) (p : Vector3) (hp : p ∈ ps) :
    let r' := ps.foldl (fun r q => (⟨r.lo.cmin q, r.hi.cmax q⟩ : Rect3)) r
    (r'.lo.1 ≤ p.1 ∧ r'.lo.2.1 ≤ p.2.1 ∧ r'.lo.2.2 ≤ p.2.2) ∧
    (p.1 ≤ r'.hi.1 ∧ p.2.1 ≤ r'.hi.2.1 ∧ p.2.2 ≤ r'.hi.2.2) := by
  induction ps generalizing r with
  | nil => simp at hp
  | cons q qs ih =>
    rcases List.mem_cons.1 hp with rfl | hq
    · have h := boxFold_start qs ⟨r.lo.cmin p, r.hi.cmax p⟩
      simp only [List.foldl_cons, Vector3.cmin, Vector3.cmax] at h ⊢
      obtain ⟨⟨a1, a2, a3⟩, b1, b2, b3⟩ := h
      exact ⟨⟨le_trans a1 (min_le_right _ _), le_trans a2 (min_le_right _ _),
        le_trans a3 (min_le_right _ _)⟩, le_trans (le_max_right _ _) b1,
        le_trans (le_max_right _ _) b2, le_trans (le_max_right _ _) b3⟩
    · exact ih _ hq

/-- Every point of a range lies between the corners of its bounding box. -/
theorem ofPoints_mem (ps : List Vector3) (bb : Rect3) (h : Rect3.ofPoints ps = some bb)
    (p : Vector3) (hp : p ∈ ps) :
    (bb.lo.1 ≤ p.1 ∧ bb.lo.2.1 ≤ p.2.1 ∧ bb.lo.2.2 ≤ p.2.2) ∧
    (p.1 ≤ bb.hi.1 ∧ p.2.1 ≤ bb.hi.2.1 ∧ p.2.2 ≤ bb.hi.2.2) := by
  cases ps with
  | nil => simp at hp
  | cons q qs =>
    simp only [Rect3.ofPoints, Option.some.injEq] at h
    subst h
    rcases List.mem_cons.1 hp with rfl | hq
    · exact boxFold_start qs ⟨p, p⟩
    · exact boxFold_mem qs ⟨q, q⟩ p hq

/-- An affine map with a non-negative factor commutes with the fold of `Rect3.ofPoints`. -/
theorem boxFold_affine (t : Vector3) (c : ℚ) (hc : 0 ≤ c) (ps : List Vector3) (r : Rect3) :
    (ps.map (affine t c)).foldl (fun r q => (⟨r.lo.cmin q, r.hi.cmax q⟩ : Rect3))
        ⟨affine t c r.lo, affine t c r.hi⟩ =
      ⟨affine t c (ps.foldl (fun r q => (⟨r.lo.cmin q, r.hi.cmax q⟩ : Rect3)) r).lo,
       affine t c (ps.foldl (fun r q => (⟨r.lo.cmin q, r.hi.cmax q⟩ : Rect3)) r).hi⟩ := by
  induction ps generalizing r with
  | nil => simp
  | cons q qs ih =>
    have h := ih ⟨r.lo.cmin q, r.hi.cmax q⟩
    simp only [List.map_cons, List.foldl_cons]
    rw [← h]
    congr 1
    simp only [affine, Vector3.add, Vector3.smul, Vector3.cmin, Vector3.cmax, Rect3.mk.injEq,
      Prod.mk.injEq]
    refine ⟨⟨?_, ?_, ?_⟩, ?_, ?_, ?_⟩ <;>
      first
      | rw [min_add_add_left, mul_min_of_nonneg _ _ hc]
      | rw [max_add_add_left, mul_max_of_nonneg _ _ hc]

/-- Bounding box of the image of a range under an affine map with non-negative factor. -/
theorem ofPoints_affine (t : Vector3) (c : ℚ) (hc : 0 ≤ c) (ps : List Vector3) (bb : Rect3)
    (h : Rect3.ofPoints ps = some bb) :
    Rect3.ofPoints (ps.map (affine t c)) = some ⟨affine t c bb.lo, affine t c bb.hi⟩ := by
  cases ps with
  | nil => simp [Rect3.ofPoints] at h
  | cons q qs =>
    simp only [Rect3.ofPoints, Option.some.injEq] at h
    subst h
    simp only [List.map_cons, Rect3.ofPoints, Option.some.injEq]
    exact boxFold_affine t c hc qs ⟨q, q⟩

/-- The largest coordinate scales with a non-negative factor. -/
theorem maxCoord_smul (c : ℚ) (hc : 0 ≤ c) (v : Vector3) :
    (Vector3.smul c v).maxCoord = c * v.maxCoord := by
  simp only [Vector3.maxCoord, Vector3.smul]
  rw [mul_max_of_nonneg _ _ hc, mul_max_of_nonneg _ _ hc]

/-- One coordinate after normalisation: a value between `lo` and `hi`, whose distance is
at most the largest extent `M`, lands in `[1/20, 19/20]`. -/
theorem coord_in_unit (lo hi p M : ℚ) (h1 : lo ≤ p) (h2 : p ≤ hi) (hM : hi - lo ≤ M)
    (hpos : 0 < M) :
    1 / 20 ≤ (1 / 2 - (9 / 10) / M * (1 / 2 * (lo + hi))) + (9 / 10) / M * p ∧
    (1 / 2 - (9 / 10) / M * (1 / 2 * (lo + hi))) + (9 / 10) / M * p ≤ 19 / 20 := by
  have hc : 0 < (9 / 10) / M := by positivity
  have hcM : (9 / 10) / M * M = 9 / 10 := by field_simp; ring
  constructor
  · nlinarith [mul_le_mul_of_nonneg_left (show M - (hi - lo) ≥ 0 by linarith) hc.le,
      mul_le_mul_of_nonneg_left (show 0 ≤ p - lo by linarith) hc.le]
  · nlinarith [mul_le_mul_of_nonneg_left (show M - (hi - lo) ≥ 0 by linarith) hc.le,
      mul_le_mul_of_nonneg_left (show 0 ≤ hi - p by linarith) hc.le]

/-- Result of `normalizeBoundingBox` when the bounding box has a non-zero largest extent. -/
theorem normalizeBoundingBox_eq (m : Mesh) (bb : Rect3)
    (hbb : Rect3.ofPoints m.positions = some bb) (hpos : 0 < bb.getSize.maxCoord) :
    m.normalizeBoundingBox =
      some { vertices := m.vertices.map
               (fun v => { v with pos := affine (ctoAddOf bb) (cscaleOf bb) v.pos }),
             edges := m.edges,
             toAdd := affine (ctoAddOf bb) (cscaleOf bb) m.toAdd,
             scale := m.scale * cscaleOf bb } := by
  unfold Mesh.normalizeBoundingBox
  rw [hbb]
  simp only [ne_of_gt hpos, if_false]

/-- Size of the image of a box under an affine map. -/
theorem getSize_affine (t : Vector3) (c : ℚ) (bb : Rect3) :
    (⟨affine t c bb.lo, affine t c bb.hi⟩ : Rect3).getSize = Vector3.smul c bb.getSize := by
  simp only [Rect3.getSize, affine, Vector3.add, Vector3.sub, Vector3.smul, Prod.mk.injEq]
  refine ⟨?_, ?_, ?_⟩ <;> ring

/-- After `normalizeBoundingBox` the positions are the affine images of the old ones. -/
theorem positions_normalized (m : Mesh) (t : Vector3) (c : ℚ) :
    Mesh.positions { vertices := m.vertices.map (fun v => { v with pos := affine t c v.pos }),
                     edges := m.edges, toAdd := affine t c m.toAdd, scale := m.scale * c } =
      m.positions.map (affine t c) := by
  simp only [Mesh.positions, List.map_map]
  rfl

/-- The mesh after `normalizeBoundingBox`, for a bounding box `bb` of positive largest
extent: coordinates, centre and extents of the new bounding box. -/
theorem normalizeBoundingBox_box (m : Mesh) (bb : Rect3)
    (hbb : Rect3.ofPoints m.positions = some bb) (hpos : 0 < bb.getSize.maxCoord) :
    ∃ m' bb', m.normalizeBoundingBox = some m' ∧ Rect3.ofPoints m'.positions = some bb' ∧
      (∀ p ∈ m'.positions, (1 / 20 ≤ p.1 ∧ p.1 ≤ 19 / 20) ∧ (1 / 20 ≤ p.2.1 ∧ p.2.1 ≤ 19 / 20) ∧
        (1 / 20 ≤ p.2.2 ∧ p.2.2 ≤ 19 / 20)) ∧
      bb'.getCenter = (1 / 2, 1 / 2, 1 / 2) ∧
      bb'.getSize = Vector3.smul ((9 / 10) / bb.getSize.maxCoord) bb.getSize ∧
      bb'.getSize.maxCoord = 9 / 10 := by
  have hc : 0 ≤ cscaleOf bb := by unfold cscaleOf; positivity
  have hcM : cscaleOf bb * bb.getSize.maxCoord = 9 / 10 := by
    unfold cscaleOf; field_simp; ring
  refine ⟨_, _, normalizeBoundingBox_eq m bb hbb hpos, ?_, ?_, ?_,
    getSize_affine (ctoAddOf bb) (cscaleOf bb) bb, ?_⟩
  · rw [positions_normalized]
    exact ofPoints_affine (ctoAddOf bb) (cscaleOf bb) hc m.positions bb hbb
  · intro p hp
    rw [positions_normalized] at hp
    obtain ⟨q, hq, rfl⟩ := List.mem_map.1 hp
    obtain ⟨⟨a1, a2, a3⟩, b1, b2, b3⟩ := ofPoints_mem m.positions bb hbb q hq
    have e1 : bb.hi.1 - bb.lo.1 ≤ bb.getSize.maxCoord := le_max_left _ _
    have e2 : bb.hi.2.1 - bb.lo.2.1 ≤ bb.getSize.maxCoord :=
      le_trans (le_max_left _ _) (le_max_right _ _)
    have e3 : bb.hi.2.2 - bb.lo.2.2 ≤ bb.getSize.maxCoord :=
      le_trans (le_max_right _ _) (le_max_right _ _)
    exact ⟨coord_in_unit _ _ _ _ a1 b1 e1 hpos, coord_in_unit _ _ _ _ a2 b2 e2 hpos,
      coord_in_unit _ _ _ _ a3 b3 e3 hpos⟩
  · simp only [Rect3.getCenter, affine, ctoAddOf, Vector3.add, Vector3.sub, Vector3.smul,
      Prod.mk.injEq]
    refine ⟨?_, ?_, ?_⟩ <;> ring
  · rw [getSize_affine, maxCoord_smul _ hc, hcM]

/-- C6: for a mesh with at least one vertex (it has a bounding box `bb`) whose largest
extent is positive, `normalizeBoundingBox` returns a mesh in which every coordinate of
every vertex lies in [0.05, 0.95], whose bounding box is centred at (0.5, 0.5, 0.5), and
whose extents are the old ones times `0.9 / max extent`, so that the largest extent (the
one along the dominant axis) is exactly 0.9. -/
theorem normalizeBoundingBox_unit_box (m : Mesh) (bb : Rect3)
    (hbb : Rect3.ofPoints m.positions = some bb) (hpos : 0 < bb.getSize.maxCoord) :
    ∃ m' bb', m.normalizeBoundingBox = some m' ∧ Rect3.ofPoints m'.positions = some bb' ∧
      (∀ p ∈ m'.positions, (1 / 20 ≤ p.1 ∧ p.1 ≤ 19 / 20) ∧ (1 / 20 ≤ p.2.1 ∧ p.2.1 ≤ 19 / 20) ∧
        (1 / 20 ≤ p.2.2 ∧ p.2.2 ≤ 19 / 20)) ∧
      bb'.getCenter = (1 / 2, 1 / 2, 1 / 2) ∧
      bb'.getSize = Vector3.smul ((9 / 10) / bb.getSize.maxCoord) bb.getSize ∧
      bb'.getSize.maxCoord = 9 / 10 :=
  normalizeBoundingBox_box m bb hbb hpos

/-- C6, instance: the mesh with extents 1, 2, 4 has the bounding box from `(0,0,0)` to
`(1,2,4)` and is normalised into the unit box. -/
theorem normalizeBoundingBox_unit_box_witness :
    Rect3.ofPoints stretchedMesh.positions = some ⟨(0, 0, 0), (1, 2, 4)⟩ ∧
    (0 : ℚ) < (⟨(0, 0, 0), (1, 2, 4)⟩ : Rect3).getSize.maxCoord ∧
    ∃ m' bb', stretchedMesh.normalizeBoundingBox = some m' ∧
      Rect3.ofPoints m'.positions = some bb' ∧
      (∀ p ∈ m'.positions, (1 / 20 ≤ p.1 ∧ p.1 ≤ 19 / 20) ∧ (1 / 20 ≤ p.2.1 ∧ p.2.1 ≤ 19 / 20) ∧
        (1 / 20 ≤ p.2.2 ∧ p.2.2 ≤ 19 / 20)) ∧
      bb'.getCenter = (1 / 2, 1 / 2, 1 / 2) ∧
      bb'.getSize = Vector3.smul ((9 / 10) / (⟨(0, 0, 0), (1, 2, 4)⟩ : Rect3).getSize.maxCoord)
        (⟨(0, 0, 0), (1, 2, 4)⟩ : Rect3).getSize ∧
      bb'.getSize.maxCoord = 9 / 10 :=
  ⟨by decide, by norm_num [Rect3.getSize, Vector3.sub, Vector3.maxCoord],
    normalizeBoundingBox_unit_box stretchedMesh ⟨(0, 0, 0), (1, 2, 4)⟩ (by decide)
      (by norm_num [Rect3.getSize, Vector3.sub, Vector3.maxCoord])⟩

/-- One call of `normalizeBoundingBox` keeps the map-back relation. -/
theorem mapsBack_step (m : Mesh) (original : List Vector3) (t : Vector3) (c : ℚ)
    (h : m.mapsBack original) :
    Mesh.mapsBack { vertices := m.vertices.map (fun v => { v with pos := affine t c v.pos }),
                    edges := m.edges, toAdd := affine t c m.toAdd, scale := m.scale * c }
      original := by
  unfold Mesh.mapsBack at h ⊢
  rw [List.forall₂_map_left_iff]
  refine List.Forall₂.imp ?_ h
  intro v o hv
  simp only [hv, affine, Vector3.add, Vector3.smul, Prod.mk.injEq]
  refine ⟨?_, ?_, ?_⟩ <;> ring

/-- With a non-zero scale the map-back relation can be solved for the original positions. -/
theorem recovers_of_mapsBack (m : Mesh) (original : List Vector3) (h : m.mapsBack original)
    (hs : m.scale ≠ 0) : m.recovers original := by
  refine ⟨hs, List.Forall₂.imp ?_ h⟩
  intro v o hv
  simp only [hv, Vector3.add, Vector3.sub, Vector3.smul]
  ext <;> simp <;> field_simp

/-- C7 (amended): for a mesh with a bounding box `bb` of positive largest extent whose
vertices satisfy `pos = toAdd + scale * original` with a non-zero scale, any number `n` of
calls of `normalizeBoundingBox` succeeds, and afterwards every vertex satisfies the same
equation with the updated `toAdd` and `scale`, the scale is non-zero and
`original = (pos - toAdd) / scale`. -/
theorem normalizeTimes_maps_back (n : Nat) (m : Mesh) (original : List Vector3) (bb : Rect3)
    (hinv : m.mapsBack original) (hscale : m.scale ≠ 0)
    (hbb : Rect3.ofPoints m.positions = some bb) (hpos : 0 < bb.getSize.maxCoord) :
    ∃ m', m.normalizeTimes n = some m' ∧ m'.mapsBack original ∧ m'.recovers original := by
  induction n generalizing m bb with
  | zero => exact ⟨m, rfl, hinv, recovers_of_mapsBack m original hinv hscale⟩
  | succ k ih =>
    obtain ⟨m1, bb1, h1, hbb1, -, -, -, hmax⟩ := normalizeBoundingBox_box m bb hbb hpos
    have hc : 0 < cscaleOf bb := by unfold cscaleOf; positivity
    have hinv1 : m1.mapsBack original := by
      rw [normalizeBoundingBox_eq m bb hbb hpos, Option.some.injEq] at h1
      rw [← h1]
      exact mapsBack_step m original _ _ hinv
    have hscale1 : m1.scale ≠ 0 := by
      rw [normalizeBoundingBox_eq m bb hbb hpos, Option.some.injEq] at h1
      rw [← h1]
      exact mul_ne_zero hscale (ne_of_gt hc)
    obtain ⟨m', hm', r⟩ := ih m1 bb1 hinv1 hscale1 hbb1 (by rw [hmax]; norm_num)
    exact ⟨m', by simp only [Mesh.normalizeTimes, h1, hm'], r⟩

/-- C7, instance: three calls on the mesh with extents 1, 2, 4, starting from scale 1 and
toAdd 0, where the original positions are the positions themselves. -/
theorem normalizeTimes_maps_back_witness :
    stretchedMesh.mapsBack stretchedMesh.positions ∧ stretchedMesh.scale ≠ 0 ∧
    Rect3.ofPoints stretchedMesh.positions = some ⟨(0, 0, 0), (1, 2, 4)⟩ ∧
    (0 : ℚ) < (⟨(0, 0, 0), (1, 2, 4)⟩ : Rect3).getSize.maxCoord ∧
    ∃ m', stretchedMesh.normalizeTimes 3 = some m' ∧ m'.mapsBack stretchedMesh.positions ∧
      m'.recovers stretchedMesh.positions :=
  have h : stretchedMesh.mapsBack stretchedMesh.positions := by
    simp [Mesh.mapsBack, stretchedMesh, Mesh.positions, Vector3.add, Vector3.smul]
  ⟨h, by decide, by decide, by norm_num [Rect3.getSize, Vector3.sub, Vector3.maxCoord],
    normalizeTimes_maps_back 3 stretchedMesh stretchedMesh.positions ⟨(0, 0, 0), (1, 2, 4)⟩ h
      (by decide) (by decide) (by norm_num [Rect3.getSize, Vector3.sub, Vector3.maxCoord])⟩

/-- C7, counterexample: the tetrahedron with all vertices at `(1,1,1)` satisfies the
map-back relation with scale 1 and toAdd 0, but its bounding box has extent zero, the
call divides by it, and there is no mesh after the call from which the original positions
are recovered. -/
theorem normalizeBoundingBox_collapsed :
    collapsedTetra.mapsBack collapsedTetra.positions ∧ collapsedTetra.scale = 1 ∧
    collapsedTetra.toAdd = (0, 0, 0) ∧
    ¬ ∃ m', collapsedTetra.normalizeBoundingBox = some m' ∧
      m'.mapsBack collapsedTetra.positions ∧ m'.recovers collapsedTetra.positions := by
  refine ⟨?_, by decide, by decide, ?_⟩
  · simp [Mesh.mapsBack, collapsedTetra, tetraMesh, Mesh.positions, Vector3.add, Vector3.smul]
  · have hb : Rect3.ofPoints collapsedTetra.positions = some ⟨(1, 1, 1), (1, 1, 1)⟩ := by decide
    have h : collapsedTetra.normalizeBoundingBox = none := by
      unfold Mesh.normalizeBoundingBox
      rw [hb]
      norm_num [Rect3.getSize, Vector3.sub, Vector3.maxCoord]
    rw [h]
    simp

/-! ### Vectors with `int` indices -/

theorem idx?_natCast {α : Type} (l : List α) (i : Nat) : idx? l (i : Int) = l[i]? := by
  simp [idx?]

theorem idx?_eq_some {α : Type} (l : List α) (i : Int) (x : α) :
    idx? l i = some x ↔ 0 ≤ i ∧ l[i.toNat]? = some x := by
  unfold idx?
  split <;> simp [*]

theorem idx?_some_lt {α : Type} (l : List α) (i : Int) (x : α) (h : idx? l i = some x) :
    0 ≤ i ∧ i < (l.length : Int) := by
  obtain ⟨h0, h1⟩ := (idx?_eq_some l i x).1 h
  have := (List.getElem?_eq_some.1 h1).1
  omega

theorem idx?_isSome {α : Type} (l : List α) (i : Int) (h0 : 0 ≤ i) (h1 : i < (l.length : Int)) :
    ∃ x, idx? l i = some x := by
  have : i.toNat < l.length := by omega
  exact ⟨l[i.toNat], by simp [idx?, h0, List.getElem?_eq_getElem this]⟩

theorem upd?_eq_some {α : Type} (l l' : List α) (i : Int) (x : α) :
    upd? l i x = some l' ↔ (0 ≤ i ∧ i.toNat < l.length) ∧ l' = l.set i.toNat x := by
  unfold upd?
  split <;> simp [*, eq_comm]

theorem upd?_natCast {α : Type} (l : List α) (i : Nat) (x : α) (h : i < l.length) :
    upd? l (i : Int) x = some (l.set i x) := by
  simp [upd?, h]

theorem upd?_length {α : Type} (l l' : List α) (i : Int) (x : α) (h : upd? l i x = some l') :
    l'.length = l.length := by
  obtain ⟨-, rfl⟩ := (upd?_eq_some l l' i x).1 h
  simp

theorem resize_length {α : Type} (l : List α) (n : Nat) (d : α) : (resize l n d).length = n := by
  simp [resize]
  omega

theorem resize_nil {α : Type} (n : Nat) (d : α) : resize ([] : List α) n d = List.replicate n d := by
  simp [resize]

theorem pushAt_length (edges edges' : List (List Int)) (i x : Int)
    (h : pushAt edges i x = some edges') : edges'.length = edges.length := by
  unfold pushAt at h
  split at h
  · simp at h
  · exact upd?_length _ _ _ _ h

theorem pushAt_isSome (edges : List (List Int)) (i x : Int) (h0 : 0 ≤ i)
    (h1 : i < (edges.length : Int)) : ∃ edges', pushAt edges i x = some edges' := by
  obtain ⟨l, hl⟩ := idx?_isSome edges i h0 h1
  have : i.toNat < edges.length := by omega
  exact ⟨edges.set i.toNat (l ++ [x]), by simp [pushAt, hl, upd?, h0, this]⟩

/-! ### Skeleton construction -/

theorem fresh_empty : Skeleton.fresh {} := by
  simp [Skeleton.fresh]

theorem makeJoint_fresh (s s' : Skeleton) (name : String) (pos : Vector3) (previous : String)
    (hs : s.fresh) (h : s.makeJoint name pos previous = some s') : s'.fresh := by
  obtain ⟨h1, h2, h3, h4, h5, h6, h7, h8, h9, h10, h11⟩ := hs
  have hsym : ∀ x ∈ s.fSymV ++ [-1], x = -1 := by
    intro x hx
    rcases List.mem_append.1 hx with hx | hx
    · exact h4 x hx
    · simpa using hx
  unfold Skeleton.makeJoint at h
  dsimp only at h
  split at h
  · simp only [Option.some.injEq] at h
    subst h
    simp only [Skeleton.fresh, List.length_append, List.length_singleton, resize_length]
    exact ⟨by omega, by omega, by omega, hsym, h5, h6, h7, h8, h9, h10, h11⟩
  · split at h
    · simp at h
    · rename_i e1 he1
      split at h
      · simp at h
      · rename_i e2 he2
        simp only [Option.some.injEq] at h
        subst h
        have l1 := pushAt_length _ _ _ _ he1
        have l2 := pushAt_length _ _ _ _ he2
        simp only [resize_length] at l1
        simp only [Skeleton.fresh, List.length_append, List.length_singleton]
        exact ⟨by omega, by omega, by omega, hsym, h5, h6, h7, h8, h9, h10, h11⟩

theorem buildJoints_fresh (calls : List JointCall) (s s' : Skeleton) (hs : s.fresh)
    (h : buildJoints calls s = some s') : s'.fresh := by
  induction calls generalizing s with
  | nil =>
    simp only [buildJoints, Option.some.injEq] at h
    exact h ▸ hs
  | cons c rest ih =>
    obtain ⟨name, pos, previous⟩ := c
    simp only [buildJoints] at h
    split at h
    · simp at h
    · rename_i s1 hs1
      exact ih s1 (makeJoint_fresh s s1 name pos previous hs hs1) h

theorem keepInv_skip (i : Nat) (fc cf : List Int) (h : keepInv i fc cf) (hi : i ≠ 0) :
    keepInv (i + 1) fc cf := by
  obtain ⟨h1, h2, h3, -⟩ := h
  refine ⟨?_, ?_, fun _ => h3 (by omega), by omega⟩
  · intro a f haf
    obtain ⟨j, e, hj, hf⟩ := h1 a f haf
    exact ⟨j, e, by omega, hf⟩
  · intro j c hjc
    rcases h2 j c hjc with e | ⟨hj, a, e, ha⟩
    · exact Or.inl e
    · exact Or.inr ⟨by omega, a, e, ha⟩

theorem keepInv_keep (i : Nat) (fc cf : List Int) (h : keepInv i fc cf) (hi : i < fc.length) :
    keepInv (i + 1) (fc.set i (cf.length : Int)) (cf ++ [(i : Int)]) := by
  obtain ⟨h1, h2, h3, h4⟩ := h
  refine ⟨?_, ?_, ?_, by omega⟩
  · intro a f haf
    rw [List.getElem?_append] at haf
    split at haf
    · obtain ⟨j, e, hj, hf⟩ := h1 a f haf
      refine ⟨j, e, by omega, ?_⟩
      rw [List.getElem?_set_ne (by omega)]
      exact hf
    · rename_i hlen
      have hsome := List.getElem?_eq_some.1 haf
      obtain ⟨hlt, hval⟩ := hsome
      simp only [List.length_singleton] at hlt
      have ha : a = cf.length := by omega
      have hfi : f = (i : Int) := by
        have : a - cf.length = 0 := by omega
        simp only [this, List.getElem_cons_zero] at hval
        exact hval.symm
      refine ⟨i, hfi, by omega, ?_⟩
      rw [List.getElem?_set_self hi, ha]
  · intro j c hjc
    by_cases hji : i = j
    · subst hji
      rw [List.getElem?_set_self hi, Option.some.injEq] at hjc
      refine Or.inr ⟨by omega, cf.length, hjc.symm, ?_⟩
      rw [List.getElem?_append_right (le_refl _)]
      simp
    · rw [List.getElem?_set_ne hji] at hjc
      rcases h2 j c hjc with e | ⟨hj, a, e, ha⟩
      · exact Or.inl e
      · refine Or.inr ⟨by omega, a, e, ?_⟩
        rw [List.getElem?_append_left (List.getElem?_eq_some.1 ha).1]
        exact ha
  · intro _
    by_cases hi0 : i = 0
    · subst hi0
      rw [List.getElem?_set_self hi, h4 rfl]
      rfl
    · rw [List.getElem?_set_ne hi0]
      exact h3 (by omega)

/-- The loop of lines 31-37 keeps the relation between the maps and the length of `fcMap`. -/
theorem keepLoop_inv (edges : List (List Int)) (k i : Nat) (fc cf fc' cf' : List Int)
    (h : keepInv i fc cf) (hr : keepLoop edges k i fc cf = some (fc', cf')) :
    keepInv (i + k) fc' cf' ∧ fc'.length = fc.length := by
  induction k generalizing i fc cf with
  | zero =>
    simp only [keepLoop, Option.some.injEq, Prod.mk.injEq] at hr
    obtain ⟨rfl, rfl⟩ := hr
    exact ⟨h, rfl⟩
  | succ k ih =>
    simp only [keepLoop] at hr
    split at hr
    · simp at hr
    · split at hr
      · rename_i hskip
        have := ih (i + 1) fc cf (keepInv_skip i fc cf h hskip.2) hr
        rw [show i + (k + 1) = i + 1 + k by omega]
        exact this
      · split at hr
        · simp at hr
        · rename_i fc1 hfc1
          obtain ⟨⟨-, hlt⟩, rfl⟩ := (upd?_eq_some _ _ _ _).1 hfc1
          simp only [Int.toNat_ofNat] at hlt hr
          have := ih (i + 1) _ _ (keepInv_keep i fc cf h hlt) hr
          rw [show i + (k + 1) = i + 1 + k by omega]
          simpa using this

/-- The loop of lines 31-37 succeeds when `fGraphV.edges` and `fcMapV` have an entry for
every joint it visits. -/
theorem keepLoop_isSome (edges : List (List Int)) (k i : Nat) (fc cf : List Int)
    (he : i + k ≤ edges.length) (hf : i + k ≤ fc.length) :
    ∃ r, keepLoop edges k i fc cf = some r := by
  induction k generalizing i fc cf with
  | zero => exact ⟨_, rfl⟩
  | succ k ih =>
    simp only [keepLoop]
    rw [List.getElem?_eq_getElem (show i < edges.length by omega)]
    dsimp only
    split
    · exact ih (i + 1) fc cf (by omega) (by omega)
    · rw [upd?_natCast _ _ _ (show i < fc.length by omega)]
      exact ih (i + 1) _ _ (by omega) (by simp; omega)

theorem keepInv_init (n : Nat) : keepInv 0 (List.replicate n (-1)) [] := by
  refine ⟨?_, ?_, by omega, fun _ => rfl⟩
  · intro a f haf
    simp at haf
  · intro j c hjc
    rw [List.getElem?_replicate] at hjc
    split at hjc
    · exact Or.inl (by simpa using hjc.symm)
    · simp at hjc

/-- The phases of `initCompressed`: a successful call went through the four loops, and
the result holds their outputs. -/
theorem initCompressed_some (vlen : Vector3 → ℚ) (fuel : Nat) (s s' : Skeleton)
    (h : s.initCompressed vlen fuel = some s') :
    ∃ fc cf cverts cSym cPrev,
      keepLoop s.fGraphV.edges s.fPrevV.length 0 (resize s.fcMapV s.fPrevV.length (-1)) s.cfMapV =
        some (fc, cf) ∧
      reducedLoop (s.withMaps fc cf) fuel cf.length 0 s.cGraphV.verts
        (resize s.cSymV cf.length (-1)) (resize s.cPrevV cf.length (-1)) =
        some (cverts, cSym, cPrev) ∧
      s'.fcMapV = fc ∧ s'.cfMapV = cf ∧ s'.cPrevV = cPrev ∧ s'.cSymV = cSym ∧
      s'.fPrevV = s.fPrevV ∧ s'.fGraphV = s.fGraphV := by
  unfold Skeleton.initCompressed at h
  dsimp only at h
  split at h
  · simp at h
  · rename_i fc cf hk
    split at h
    · simp at h
    · rename_i cverts cSym cPrev hr
      split at h
      · simp at h
      · split at h
        · simp at h
        · simp only [Option.some.injEq] at h
          subst h
          exact ⟨fc, cf, cverts, cSym, cPrev, hk, hr, rfl, rfl, rfl, rfl, rfl, rfl⟩

/-- C9: for every skeleton built by `makeJoint` calls and then compressed by
`initCompressed`, `fcMap[cfMap[i]] = i` for every reduced joint `i`, and
`cfMap[fcMap[j]] = j` for every full joint `j` with `fcMap[j] ≥ 0`. -/
theorem initCompressed_maps_inverse (vlen : Vector3 → ℚ) (fuel : Nat) (calls : List JointCall)
    (s s' : Skeleton) (hb : buildJoints calls {} = some s)
    (hc : s.initCompressed vlen fuel = some s') :
    (∀ i : Nat, i < s'.cfMapV.length →
      ∃ f, s'.cfMapV[i]? = some f ∧ idx? s'.fcMapV f = some (i : Int)) ∧
    (∀ (j : Nat) (c : Int), s'.fcMapV[j]? = some c → 0 ≤ c →
      idx? s'.cfMapV c = some (j : Int)) := by
  obtain ⟨-, -, -, -, hcf, hfc, -⟩ := buildJoints_fresh calls {} s fresh_empty hb
  obtain ⟨fc, cf, cverts, cSym, cPrev, hk, -, e1, e2, -⟩ := initCompressed_some vlen fuel s s' hc
  rw [hcf, hfc, resize_nil] at hk
  obtain ⟨⟨h1, h2, -, -⟩, -⟩ := keepLoop_inv _ _ _ _ _ _ _ (keepInv_init _) hk
  rw [e1, e2]
  constructor
  · intro i hi
    obtain ⟨j, e, -, hj⟩ := h1 i cf[i] (List.getElem?_eq_getElem hi)
    exact ⟨cf[i], List.getElem?_eq_getElem hi, by rw [e, idx?_natCast]; exact hj⟩
  · intro j c hjc hc0
    rcases h2 j c hjc with e | ⟨-, a, e, ha⟩
    · omega
    · rw [e, idx?_natCast]
      exact ha

/-- C9, instance: the six-joint skeleton built by `makeJoint` calls, compressed. -/
theorem initCompressed_maps_inverse_witness :
    buildJoints sampleCalls {} = some sampleSkeleton ∧
    sampleSkeleton.initCompressed absLength 6 =
      some { sampleSkeleton with
        cGraphV := ⟨[(0, 0, 0), (0, 1, 0), (3 / 2, 0, 0)], [[1, 2], [0], [0]]⟩,
        cPrevV := [-1, 0, 0], cSymV := [-1, -1, -1], cFeetV := [false, false, false],
        cFatV := [false, false, false], cfMapV := [0, 2, 5], fcMapV := [0, -1, 1, -1, -1, 2],
        fcFractionV := [some (-1), some (1 / 2), some (1 / 2), some (1 / 3), some (1 / 3),
          some (1 / 3)],
        cLengthV := [0, 1, 3 / 2] } ∧
    (∀ i : Nat, i < ([0, 2, 5] : List Int).length →
      ∃ f, ([0, 2, 5] : List Int)[i]? = some f ∧
        idx? ([0, -1, 1, -1, -1, 2] : List Int) f = some (i : Int)) ∧
    (∀ (j : Nat) (c : Int), ([0, -1, 1, -1, -1, 2] : List Int)[j]? = some c → 0 ≤ c →
      idx? ([0, 2, 5] : List Int) c = some (j : Int)) :=
  have hb : buildJoints sampleCalls {} = some sampleSkeleton := by decide!
  have hc : sampleSkeleton.initCompressed absLength 6 = some _ := by decide!
  ⟨hb, hc, initCompressed_maps_inverse absLength 6 sampleCalls sampleSkeleton _ hb hc⟩

/-! ### Climbing to the nearest kept ancestor -/

/-- In a climbable skeleton joint 0 is kept, with reduced index 0. -/
theorem climbable_zero (s : Skeleton) (h : s.climbable) (hn : 1 ≤ s.fPrevV.length) :
    s.fcMapV[0]? = some 0 := h.1.2.2.1 hn

/-- The parent of a joint other than joint 0, in a climbable skeleton. -/
theorem climbable_parent (s : Skeleton) (h : s.climbable) (j : Nat) (h1 : 1 ≤ j)
    (hj : j < s.fPrevV.length) :
    ∃ q : Nat, s.fPrevV[j]? = some (q : Int) ∧ q < j := by
  obtain ⟨hp0, hp1⟩ := h.2.2.2.2.2 j s.fPrevV[j] h1 (List.getElem?_eq_getElem hj)
  refine ⟨(s.fPrevV[j]).toNat, ?_, by omega⟩
  rw [List.getElem?_eq_getElem hj, Int.toNat_of_nonneg hp0]

/-- The loop `while(fcMapV[curPrev] < 0) curPrev = fPrevV[curPrev]` ends at the first
joint of the chain of ancestors, from `p` on, that is kept. -/
theorem climb_spec (s : Skeleton) (h : s.climbable) (fuel p : Nat) (hp : p < s.fPrevV.length)
    (hf : p < fuel) :
    ∃ (a : Int) (k : Nat), climb s.fcMapV s.fPrevV fuel (p : Int) = some a ∧
      ancestor s.fPrevV k (p : Int) = some a ∧
      (∃ c, idx? s.fcMapV a = some c ∧ 0 ≤ c) ∧
      ∀ k' : Nat, k' < k →
        ∃ b c, ancestor s.fPrevV k' (p : Int) = some b ∧ idx? s.fcMapV b = some c ∧ c < 0 := by
  induction p using Nat.strong_induction_on generalizing fuel with
  | _ p ih =>
    obtain ⟨f, rfl⟩ : ∃ f, fuel = f + 1 := ⟨fuel - 1, by omega⟩
    have hpc : p < s.fcMapV.length := by rw [h.2.1]; exact hp
    have hc : idx? s.fcMapV (p : Int) = some s.fcMapV[p] := by
      rw [idx?_natCast, List.getElem?_eq_getElem hpc]
    simp only [climb, hc]
    by_cases hneg : s.fcMapV[p] < 0
    · have hp1 : 1 ≤ p := by
        rcases Nat.eq_zero_or_pos p with e | e
        · subst e
          have := climbable_zero s h (by omega)
          rw [List.getElem?_eq_getElem hpc, Option.some.injEq] at this
          omega
        · exact e
      obtain ⟨q, hq, hqp⟩ := climbable_parent s h p hp1 hp
      have hq' : idx? s.fPrevV (p : Int) = some (q : Int) := by rw [idx?_natCast]; exact hq
      obtain ⟨a, k, h1, h2, h3, h4⟩ := ih q hqp f (by omega) (by omega)
      refine ⟨a, k + 1, ?_, ?_, h3, ?_⟩
      · simp only [hneg, if_true, hq', h1]
      · simp only [ancestor, hq', h2]
      · intro k' hk'
        rcases Nat.eq_zero_or_pos k' with e | e
        · subst e
          exact ⟨(p : Int), s.fcMapV[p], rfl, hc, hneg⟩
        · obtain ⟨k'', rfl⟩ : ∃ k'', k' = k'' + 1 := ⟨k' - 1, by omega⟩
          obtain ⟨b, c, e1, e2, e3⟩ := h4 k'' (by omega)
          exact ⟨b, c, by simp only [ancestor, hq', e1], e2, e3⟩
    · refine ⟨(p : Int), 0, ?_, rfl, ⟨s.fcMapV[p], hc, by omega⟩, ?_⟩
      · simp only [hneg, if_false]
      · intro k' hk'
        omega

/-- A reduced joint other than 0 maps to a full joint other than 0, in a climbable skeleton. -/
theorem climbable_cfMap (s : Skeleton) (h : s.climbable) (i : Nat) (f : Int)
    (hi : s.cfMapV[i]? = some f) :
    ∃ j : Nat, f = (j : Int) ∧ j < s.fPrevV.length ∧ s.fcMapV[j]? = some (i : Int) ∧
      (1 ≤ i → 1 ≤ j) := by
  obtain ⟨j, e, hj, hfc⟩ := h.1.1 i f hi
  refine ⟨j, e, hj, hfc, ?_⟩
  intro hi1
  rcases Nat.eq_zero_or_pos j with e0 | e0
  · subst e0
    have := climbable_zero s h (by omega)
    rw [hfc, Option.some.injEq] at this
    omega
  · exact e0

/-- A kept joint has its reduced index below the number of reduced joints. -/
theorem climbable_fcMap_lt (s : Skeleton) (h : s.climbable) (a c : Int)
    (hc : idx? s.fcMapV a = some c) (h0 : 0 ≤ c) : c < (s.cfMapV.length : Int) := by
  obtain ⟨ha0, ha⟩ := (idx?_eq_some _ _ _).1 hc
  rcases h.1.2.1 a.toNat c ha with e | ⟨-, b, e, hb⟩
  · omega
  · have := (List.getElem?_eq_some.1 hb).1
    omega

/-- The value the loop of lines 45-60 stores in `cPrevV[i]` for a reduced joint `i ≥ 1`. -/
theorem climb_from_reduced (s : Skeleton) (h : s.climbable) (fuel i : Nat)
    (hf : s.fPrevV.length ≤ fuel) (hi1 : 1 ≤ i) (hi : i < s.cfMapV.length) :
    ∃ (f curPrev a c : Int), s.cfMapV[i]? = some f ∧ idx? s.fGraphV.verts f ≠ none ∧
      idx? s.fSymV f = some (-1) ∧ idx? s.fPrevV f = some curPrev ∧
      climb s.fcMapV s.fPrevV fuel curPrev = some a ∧ idx? s.fcMapV a = some c ∧
      0 ≤ c ∧ c < (s.cfMapV.length : Int) ∧ nearestKept s.fcMapV s.fPrevV f a := by
  obtain ⟨j, e, hj, hfc, hj1⟩ := climbable_cfMap s h i _ (List.getElem?_eq_getElem hi)
  obtain ⟨q, hq, hqj⟩ := climbable_parent s h j (hj1 hi1) hj
  obtain ⟨a, k, h1, h2, ⟨c, h3, h3'⟩, h4⟩ := climb_spec s h fuel q (by omega) (by omega)
  have hq' : idx? s.fPrevV (j : Int) = some (q : Int) := by rw [idx?_natCast]; exact hq
  refine ⟨(j : Int), (q : Int), a, c, by rw [List.getElem?_eq_getElem hi, e], ?_, ?_, hq', h1, h3,
    h3', climbable_fcMap_lt s h a c h3 h3', k + 1, by omega, ?_, ⟨c, h3, h3'⟩, ?_⟩
  · rw [idx?_natCast, List.getElem?_eq_getElem (by rw [h.2.2.1]; exact hj)]
    simp
  · have hjs : j < s.fSymV.length := by rw [h.2.2.2.1]; exact hj
    rw [idx?_natCast, List.getElem?_eq_getElem hjs, Option.some.injEq]
    exact h.2.2.2.2.1 _ (List.getElem_mem _)
  · simp only [ancestor, hq', h2]
  · intro k' hk1 hk'
    obtain ⟨k'', rfl⟩ : ∃ k'', k' = k'' + 1 := ⟨k' - 1, by omega⟩
    obtain ⟨b, c', e1, e2, e3⟩ := h4 k'' (by omega)
    exact ⟨b, c', by simp only [ancestor, hq', e1], e2, e3⟩

/-- The reads of the loop of lines 45-60 at a reduced joint stay inside the vectors, and
no symmetry partner is set. -/
theorem reduced_reads (s : Skeleton) (h : s.climbable) (i : Nat) (hi : i < s.cfMapV.length) :
    ∃ (f : Int) (p : Vector3), s.cfMapV[i]? = some f ∧ idx? s.fGraphV.verts f = some p ∧
      idx? s.fSymV f = some (-1) := by
  obtain ⟨j, e, hj, -, -⟩ := climbable_cfMap s h i _ (List.getElem?_eq_getElem hi)
  have hjv : j < s.fGraphV.verts.length := by rw [h.2.2.1]; exact hj
  have hjs : j < s.fSymV.length := by rw [h.2.2.2.1]; exact hj
  refine ⟨(j : Int), s.fGraphV.verts[j], by rw [List.getElem?_eq_getElem hi, e], ?_, ?_⟩
  · rw [idx?_natCast, List.getElem?_eq_getElem hjv]
  · rw [idx?_natCast, List.getElem?_eq_getElem hjs, Option.some.injEq]
    exact h.2.2.2.2.1 _ (List.getElem_mem _)

/-- The loop of lines 45-60 succeeds on a climbable skeleton; it leaves `cPrevV[0]` and
the entries below `i` as they were and stores, for every reduced joint from `i` on other
than 0, the reduced index of the nearest kept proper ancestor. -/
theorem reducedLoop_spec (s : Skeleton) (h : s.climbable) (fuel : Nat)
    (hf : s.fPrevV.length ≤ fuel) (k i : Nat) (cverts : List Vector3) (cSym cPrev : List Int)
    (hk : i + k = s.cfMapV.length) (hP : cPrev.length = s.cfMapV.length) :
    ∃ cverts' cSym' cPrev', reducedLoop s fuel k i cverts cSym cPrev = some (cverts', cSym', cPrev') ∧
      cPrev'.length = s.cfMapV.length ∧
      (∀ j : Nat, j < i ∨ j = 0 → cPrev'[j]? = cPrev[j]?) ∧
      (∀ j : Nat, i ≤ j → 1 ≤ j → j < s.cfMapV.length →
        ∃ f a c, s.cfMapV[j]? = some f ∧ nearestKept s.fcMapV s.fPrevV f a ∧
          idx? s.fcMapV a = some c ∧ 0 ≤ c ∧ c < (s.cfMapV.length : Int) ∧
          cPrev'[j]? = some c) := by
  induction k generalizing i cverts cSym cPrev with
  | zero =>
    refine ⟨cverts, cSym, cPrev, rfl, hP, fun _ _ => rfl, ?_⟩
    intro j h1 _ h2
    omega
  | succ k ih =>
    have hi : i < s.cfMapV.length := by omega
    obtain ⟨f, p, hf1, hf2, hf3⟩ := reduced_reads s h i hi
    rcases Nat.eq_zero_or_pos i with hi0 | hi0
    · subst hi0
      obtain ⟨cv, cs, cp, e1, e2, e3, e4⟩ := ih 1 (cverts ++ [p]) cSym cPrev (by omega) hP
      refine ⟨cv, cs, cp, ?_, e2, ?_, ?_⟩
      · simp only [reducedLoop, hf1, hf2, hf3]
        simpa using e1
      · intro j hj
        exact e3 j (by omega)
      · intro j _ hj1 hjc
        exact e4 j hj1 hj1 hjc
    · obtain ⟨f', curPrev, a, c, g1, -, -, g4, g5, g6, g7, g8, g9⟩ :=
        climb_from_reduced s h fuel i hf hi0 hi
      rw [hf1, Option.some.injEq] at g1
      subst g1
      have hiP : i < cPrev.length := by omega
      obtain ⟨cv, cs, cp, e1, e2, e3, e4⟩ :=
        ih (i + 1) (cverts ++ [p]) cSym (cPrev.set i c) (by omega) (by simpa using hP)
      refine ⟨cv, cs, cp, ?_, e2, ?_, ?_⟩
      · simp only [reducedLoop, hf1, hf2, hf3, g4, g5, g6, upd?_natCast _ _ _ hiP, hi0]
        simpa using e1
      · intro j hj
        rw [e3 j (by omega), List.getElem?_set_ne (by omega)]
      · intro j hij hj1 hjc
        rcases Nat.eq_or_lt_of_le hij with e | e
        · subst e
          refine ⟨f, a, c, hf1, g9, g6, g7, g8, ?_⟩
          rw [e3 i (by omega), List.getElem?_set_self hiP]
        · exact e4 j (by omega) hj1 hjc

/-- The loop of lines 63-66 succeeds when every `cPrevV[i]`, `i ≥ 1`, is a reduced joint. -/
theorem graphLoop_isSome (cPrev : List Int) (c k i : Nat) (edges : List (List Int))
    (hi : 1 ≤ i) (hk : i + k ≤ c ∨ k = 0) (he : edges.length = c)
    (hp : ∀ j : Nat, 1 ≤ j → j < c → ∃ p, cPrev[j]? = some p ∧ 0 ≤ p ∧ p < (c : Int)) :
    ∃ edges', graphLoop cPrev k i edges = some edges' := by
  induction k generalizing i edges with
  | zero => exact ⟨edges, rfl⟩
  | succ k ih =>
    have hic : i < c := by omega
    obtain ⟨p, hp1, hp2, hp3⟩ := hp i hi hic
    obtain ⟨e1, he1⟩ := pushAt_isSome edges (i : Int) p (by omega) (by omega)
    have l1 := pushAt_length _ _ _ _ he1
    obtain ⟨e2, he2⟩ := pushAt_isSome e1 p (i : Int) hp2 (by omega)
    have l2 := pushAt_length _ _ _ _ he2
    obtain ⟨e3, he3⟩ := ih (i + 1) e2 (by omega) (by omega) (by omega)
    exact ⟨e3, by simp only [graphLoop, hp1, he1, he2, he3]⟩

/-- The loop of lines 74-78 succeeds from a joint other than joint 0 in a climbable
skeleton, and the joints it records are joints of the skeleton. -/
theorem chainLoop_isSome (vlen : Vector3 → ℚ) (s : Skeleton) (h : s.climbable) (fuel cur : Nat)
    (lengths : List (Int × ℚ)) (acc : ℚ) (h1 : 1 ≤ cur) (hc : cur < s.fPrevV.length)
    (hf : cur ≤ fuel)
    (hl : ∀ x ∈ lengths, 0 ≤ x.1 ∧ x.1 < (s.fPrevV.length : Int)) :
    ∃ lengths' total, chainLoop vlen s fuel (cur : Int) lengths acc = some (lengths', total) ∧
      ∀ x ∈ lengths', 0 ≤ x.1 ∧ x.1 < (s.fPrevV.length : Int) := by
  induction cur using Nat.strong_induction_on generalizing fuel lengths acc with
  | _ cur ih =>
    obtain ⟨f, rfl⟩ : ∃ f, fuel = f + 1 := ⟨fuel - 1, by omega⟩
    obtain ⟨q, hq, hqc⟩ := climbable_parent s h cur h1 hc
    have hq' : idx? s.fPrevV (cur : Int) = some (q : Int) := by rw [idx?_natCast]; exact hq
    have hcv : cur < s.fGraphV.verts.length := by rw [h.2.2.1]; exact hc
    have hqv : q < s.fGraphV.verts.length := by rw [h.2.2.1]; omega
    have hv1 : idx? s.fGraphV.verts (cur : Int) = some s.fGraphV.verts[cur] := by
      rw [idx?_natCast, List.getElem?_eq_getElem]
    have hv2 : idx? s.fGraphV.verts (q : Int) = some s.fGraphV.verts[q] := by
      rw [idx?_natCast, List.getElem?_eq_getElem]
    have hqf : q < s.fcMapV.length := by rw [h.2.1]; omega
    have hfc : idx? s.fcMapV (q : Int) = some s.fcMapV[q] := by
      rw [idx?_natCast, List.getElem?_eq_getElem hqf]
    have hl' : ∀ x ∈ minsert lengths (cur : Int)
        (vlen ((s.fGraphV.verts[cur]).sub (s.fGraphV.verts[q]))),
        0 ≤ x.1 ∧ x.1 < (s.fPrevV.length : Int) := by
      intro x hx
      rcases List.mem_cons.1 hx with e | e
      · subst e
        exact ⟨by simp, by simp; exact hc⟩
      · exact hl x e
    simp only [chainLoop, hq', hv1, hv2, hfc]
    by_cases hm : s.fcMapV[q] = -1
    · have hq1 : 1 ≤ q := by
        rcases Nat.eq_zero_or_pos q with e | e
        · subst e
          have := climbable_zero s h (by omega)
          rw [List.getElem?_eq_getElem hqf, Option.some.injEq] at this
          omega
        · exact e
      obtain ⟨l2, t2, e1, e2⟩ := ih q hqc f _
        (acc + vlen ((s.fGraphV.verts[cur]).sub (s.fGraphV.verts[q]))) hq1 (by omega) (by omega) hl'
      exact ⟨l2, t2, by simp only [hm, if_true, e1], e2⟩
    · exact ⟨_, acc + vlen ((s.fGraphV.verts[cur]).sub (s.fGraphV.verts[q])),
        by simp only [hm, if_false], hl'⟩

/-- The loop of lines 80-81 succeeds when every recorded joint has a fraction entry. -/
theorem fractionLoop_isSome (total : ℚ) (lengths : List (Int × ℚ)) (fr : List (Option ℚ))
    (hl : ∀ x ∈ lengths, 0 ≤ x.1 ∧ x.1 < (fr.length : Int)) :
    ∃ fr', fractionLoop total lengths fr = some fr' ∧ fr'.length = fr.length := by
  induction lengths generalizing fr with
  | nil => exact ⟨fr, rfl, rfl⟩
  | cons x rest ih =>
    obtain ⟨j, l⟩ := x
    obtain ⟨h0, h1⟩ := hl (j, l) (List.mem_cons_self _ _)
    have hj : j.toNat < fr.length := by
      have : j < (fr.length : Int) := h1
      omega
    have hu : upd? fr j (if total = 0 then none else some (l / total)) =
        some (fr.set j.toNat (if total = 0 then none else some (l / total))) := by
      have h0' : 0 ≤ j := h0
      simp [upd?, h0', hj]
    obtain ⟨fr', e1, e2⟩ := ih (fr.set j.toNat (if total = 0 then none else some (l / total)))
      (fun x hx => by simpa using hl x (List.mem_cons_of_mem _ hx))
    exact ⟨fr', by simp only [fractionLoop, hu, e1], by simpa using e2⟩

/-- The loop of lines 71-82 succeeds on a climbable skeleton. -/
theorem lengthLoop_isSome (vlen : Vector3 → ℚ) (s : Skeleton) (h : s.climbable) (fuel : Nat)
    (hf : s.fPrevV.length ≤ fuel) (k i : Nat) (cLength : List ℚ) (fr : List (Option ℚ))
    (hi : 1 ≤ i) (hk : i + k ≤ s.cfMapV.length ∨ k = 0) (hc : cLength.length = s.cfMapV.length)
    (hfr : fr.length = s.fPrevV.length) :
    ∃ r, lengthLoop vlen s fuel k i cLength fr = some r := by
  induction k generalizing i cLength fr with
  | zero => exact ⟨_, rfl⟩
  | succ k ih =>
    have hic : i < s.cfMapV.length := by omega
    obtain ⟨j, e, hj, -, hj1⟩ := climbable_cfMap s h i _ (List.getElem?_eq_getElem hic)
    have hcf : s.cfMapV[i]? = some (j : Int) := by rw [List.getElem?_eq_getElem hic, e]
    have hcl : cLength[i]? = some cLength[i] := List.getElem?_eq_getElem (by omega)
    obtain ⟨lengths, total, e1, e2⟩ := chainLoop_isSome vlen s h fuel j [] cLength[i] (hj1 hi) hj
      (by omega) (by simp)
    obtain ⟨fr', e3, e4⟩ := fractionLoop_isSome total lengths fr (by rw [hfr]; exact e2)
    obtain ⟨r, hr⟩ := ih (i + 1) (cLength.set i total) fr' (by omega) (by omega) (by simpa using hc)
      (by omega)
    exact ⟨r, by simp only [lengthLoop, hcf, hcl, e1, e3, hr]⟩

/-- The skeleton that `initCompressed` holds after its first loop is climbable, when the
skeleton was built by `makeJoint` calls with every parent before its children. -/
theorem withMaps_climbable (s : Skeleton) (hs : s.fresh) (fc cf : List Int)
    (hk : keepLoop s.fGraphV.edges s.fPrevV.length 0 (resize s.fcMapV s.fPrevV.length (-1))
      s.cfMapV = some (fc, cf))
    (hpar : ∀ (j : Nat) (p : Int), 1 ≤ j → s.fPrevV[j]? = some p → 0 ≤ p ∧ p < (j : Int)) :
    (s.withMaps fc cf).climbable := by
  obtain ⟨h1, h2, h3, h4, h5, h6, -⟩ := hs
  rw [h5, h6, resize_nil] at hk
  obtain ⟨hinv, hlen⟩ := keepLoop_inv _ _ _ _ _ _ _ (keepInv_init _) hk
  simp only [Nat.zero_add] at hinv
  simp only [List.length_replicate] at hlen
  exact ⟨hinv, hlen, h2, h1, h4, hpar⟩

theorem prevIndex_lt (n i : Nat) (h3 : n % 3 = 0) (hi : i < n) : prevIndex i < n := by
  unfold prevIndex
  omega

theorem prevIndex_ne (i : Nat) : prevIndex i ≠ i := by
  unfold prevIndex
  omega

theorem setPrevs_getElem? (es : List MeshEdge) (i j : Nat) :
    (setPrevs i es)[j]? = es[j]?.map (fun e => { e with prev := (prevIndex (i + j) : Int) }) := by
  induction es generalizing i j with
  | nil => simp [setPrevs]
  | cons e rest ih =>
    cases j with
    | zero => simp [setPrevs]
    | succ j =>
      simp only [setPrevs, List.getElem?_cons_succ, ih]
      rw [show i + 1 + j = i + (j + 1) by omega]

theorem setPrevs_length (es : List MeshEdge) (i : Nat) : (setPrevs i es).length = es.length := by
  induction es generalizing i with
  | nil => rfl
  | cons e rest ih => simp [setPrevs, ih]

theorem tgtOf_eq (es : List MeshEdge) (j : Nat) (e : MeshEdge) (h : es[j]? = some e) :
    tgtOf es j = e.vertex := by
  simp [tgtOf, List.getD_eq_getElem?_getD, h]

theorem twinOf_eq (es : List MeshEdge) (j : Nat) (e : MeshEdge) (h : es[j]? = some e) :
    twinOf es j = e.twin := by
  simp [twinOf, List.getD_eq_getElem?_getD, h]

theorem tgtOf_range (es : List MeshEdge) (nv : Nat)
    (hr : ∀ e ∈ es, 0 ≤ e.vertex ∧ e.vertex < (nv : Int)) (j : Nat) (hj : j < es.length) :
    0 ≤ tgtOf es j ∧ tgtOf es j < (nv : Int) := by
  rw [tgtOf_eq es j es[j] (List.getElem?_eq_getElem hj)]
  exact hr _ (List.getElem_mem _)

theorem srcOf_range (es : List MeshEdge) (nv : Nat) (h3 : es.length % 3 = 0)
    (hr : ∀ e ∈ es, 0 ≤ e.vertex ∧ e.vertex < (nv : Int)) (j : Nat) (hj : j < es.length) :
    0 ≤ srcOf es j ∧ srcOf es j < (nv : Int) :=
  tgtOf_range es nv hr (prevIndex j) (prevIndex_lt _ _ h3 hj)

theorem reverseOf_symm (es : List MeshEdge) (j k : Nat) (h : reverseOf es j k) :
    reverseOf es k j := ⟨h.2.symm, h.1.symm⟩

/-- Two half-edges opposite to the same half-edge have the same directed pair. -/
theorem reverseOf_pair (es : List MeshEdge) (j k k' : Nat) (h : reverseOf es j k)
    (h' : reverseOf es j k') : directedPair es k = directedPair es k' := by
  simp only [directedPair, Prod.mk.injEq]
  exact ⟨h.1.trans h'.1.symm, h.2.trans h'.2.symm⟩

/-- The state before the second loop of `computeTopology` starts. -/
theorem topoInv_init (es0 : List MeshEdge) (ht : ∀ e ∈ es0, e.twin = -1) :
    topoInv es0 0 [] (setPrevs 0 es0) := by
  refine ⟨setPrevs_length _ _, ?_, ?_, ?_, ?_, ?_⟩
  · intro j hj
    refine ⟨{ es0[j] with prev := (prevIndex j : Int) }, ?_, ?_, rfl⟩
    · rw [setPrevs_getElem?, List.getElem?_eq_getElem hj]
      simp
    · exact (tgtOf_eq es0 j es0[j] (List.getElem?_eq_getElem hj)).symm
  · intro a b v
    simp [mfind]
  · intro j j' hj
    omega
  · intro j k hj
    omega
  · intro j hj _
    have : (setPrevs 0 es0)[j]? = some { es0[j] with prev := (prevIndex j : Int) } := by
      rw [setPrevs_getElem?, List.getElem?_eq_getElem hj]
      simp
    rw [twinOf_eq _ j _ this]
    exact ht es0[j] (List.getElem_mem _)

theorem mfind_minsert {κ β : Type} [DecidableEq κ] (m : List (κ × β)) (k k' : κ) (v : β) :
    mfind (minsert m k v) k' = if k' = k then some v else mfind m k' := by
  simp [minsert, mfind]

/-- The map and the distinctness part of `topoInv` after half-edge `i` was entered into
`halfEdgeMap`, which the loop does when its directed pair was not there before. -/
theorem topoInv_map_step (es0 : List MeshEdge) (i : Nat) (hem : List ((Int × Int) × Int))
    (hM : ∀ (a b v : Int), mfind hem (a, b) = some v ↔
      ∃ j : Nat, j < i ∧ v = (j : Int) ∧ tgtOf es0 j = a ∧ srcOf es0 j = b)
    (hD : ∀ j j' : Nat, j < i → j' < i → directedPair es0 j = directedPair es0 j' → j = j')
    (hnew : mfind hem (tgtOf es0 i, srcOf es0 i) = none) :
    (∀ (a b v : Int), mfind (minsert hem (tgtOf es0 i, srcOf es0 i) (i : Int)) (a, b) = some v ↔
      ∃ j : Nat, j < i + 1 ∧ v = (j : Int) ∧ tgtOf es0 j = a ∧ srcOf es0 j = b) ∧
    (∀ j j' : Nat, j < i + 1 → j' < i + 1 → directedPair es0 j = directedPair es0 j' → j = j') := by
  have hfresh : ∀ j : Nat, j < i → ¬ (tgtOf es0 j = tgtOf es0 i ∧ srcOf es0 j = srcOf es0 i) := by
    intro j hj hc
    have := (hM (tgtOf es0 i) (srcOf es0 i) (j : Int)).2 ⟨j, hj, rfl, hc.1, hc.2⟩
    rw [hnew] at this
    exact Option.noConfusion this
  constructor
  · intro a b v
    rw [mfind_minsert]
    by_cases hk : (a, b) = (tgtOf es0 i, srcOf es0 i)
    · simp only [hk, if_true, Option.some.injEq]
      simp only [Prod.mk.injEq] at hk
      constructor
      · intro hv
        exact ⟨i, by omega, hv.symm, hk.1.symm, hk.2.symm⟩
      · rintro ⟨j, hj, hv, h1, h2⟩
        rcases Nat.lt_succ_iff_lt_or_eq.1 hj with hlt | heq
        · exact absurd ⟨h1.trans hk.1, h2.trans hk.2⟩ (hfresh j hlt)
        · rw [hv, heq]
    · simp only [hk, if_false]
      rw [hM]
      constructor
      · rintro ⟨j, hj, hv, h1, h2⟩
        exact ⟨j, by omega, hv, h1, h2⟩
      · rintro ⟨j, hj, hv, h1, h2⟩
        rcases Nat.lt_succ_iff_lt_or_eq.1 hj with hlt | heq
        · exact ⟨j, hlt, hv, h1, h2⟩
        · subst heq
          exact absurd (Prod.ext h1.symm h2.symm) hk
  · intro j j' hj hj' hp
    simp only [directedPair, Prod.mk.injEq] at hp
    rcases Nat.lt_succ_iff_lt_or_eq.1 hj with hlt | heq
    · rcases Nat.lt_succ_iff_lt_or_eq.1 hj' with hlt' | heq'
      · exact hD j j' hlt hlt' (by simp only [directedPair, Prod.mk.injEq]; exact hp)
      · subst heq'
        exact absurd ⟨hp.2, hp.1⟩ (hfresh j hlt)
    · rcases Nat.lt_succ_iff_lt_or_eq.1 hj' with hlt' | heq'
      · subst heq
        exact absurd ⟨hp.2.symm, hp.1.symm⟩ (hfresh j' hlt')
      · omega

/-- Step of the second loop of `computeTopology` when no opposite half-edge is found. -/
theorem topoInv_step_none (es0 : List MeshEdge) (i : Nat) (hem : List ((Int × Int) × Int))
    (es : List MeshEdge) (h : topoInv es0 i hem es)
    (hnew : mfind hem (tgtOf es0 i, srcOf es0 i) = none)
    (hno : mfind (minsert hem (tgtOf es0 i, srcOf es0 i) (i : Int)) (srcOf es0 i, tgtOf es0 i) =
      none) :
    topoInv es0 (i + 1) (minsert hem (tgtOf es0 i, srcOf es0 i) (i : Int)) es := by
  obtain ⟨h1, h2, hM, hD, hT1, hT2⟩ := h
  obtain ⟨hM', hD'⟩ := topoInv_map_step es0 i hem hM hD hnew
  have hnorev : ∀ k : Nat, k < i + 1 → ¬ reverseOf es0 i k := by
    intro k hk hrev
    have := (hM' (srcOf es0 i) (tgtOf es0 i) (k : Int)).2 ⟨k, hk, rfl, hrev.2, hrev.1⟩
    rw [hno] at this
    exact Option.noConfusion this
  refine ⟨h1, h2, hM', hD', ?_, ?_⟩
  · intro j k hj hk hrev
    have hji : j ≠ i := fun e => hnorev k hk (e ▸ hrev)
    have hki : k ≠ i := fun e => hnorev j hj (reverseOf_symm es0 j i (e ▸ hrev))
    exact hT1 j k (by omega) (by omega) hrev
  · intro j hj hnone
    apply hT2 j hj
    rintro ⟨k, hk, hji, hrev⟩
    exact hnone ⟨k, by omega, by omega, hrev⟩

/-- The two assignments `edges[twin].twin = i; edges[i].twin = twin` change nothing but
the two twin fields. -/
theorem twin_assign (es : List MeshEdge) (i k : Nat) (hi : i < es.length)
    (ek ei' : MeshEdge) (hek : es[k]? = some ek)
    (hei : (es.set k { ek with twin := (i : Int) })[i]? = some ei') :
    ((es.set k { ek with twin := (i : Int) }).set i { ei' with twin := (k : Int) }).length =
      es.length ∧
    ∀ (j : Nat) (e : MeshEdge), es[j]? = some e →
      ∃ e2, ((es.set k { ek with twin := (i : Int) }).set i { ei' with twin := (k : Int) })[j]? =
          some e2 ∧
        e2.vertex = e.vertex ∧ e2.prev = e.prev ∧
        e2.twin = (if j = i then (k : Int) else if j = k then (i : Int) else e.twin) := by
  have hk : k < es.length := (List.getElem?_eq_some.1 hek).1
  refine ⟨by simp, ?_⟩
  intro j e hje
  by_cases hji : j = i
  · subst hji
    refine ⟨{ ei' with twin := (k : Int) }, ?_, ?_, ?_, by simp⟩
    · rw [List.getElem?_set_self (by simpa using hi)]
    · by_cases hkj : k = j
      · subst hkj
        rw [List.getElem?_set_self hk, Option.some.injEq] at hei
        rw [hek, Option.some.injEq] at hje
        rw [← hei, ← hje]
      · rw [List.getElem?_set_ne hkj, hje, Option.some.injEq] at hei
        rw [hei]
    · by_cases hkj : k = j
      · subst hkj
        rw [List.getElem?_set_self hk, Option.some.injEq] at hei
        rw [hek, Option.some.injEq] at hje
        rw [← hei, ← hje]
      · rw [List.getElem?_set_ne hkj, hje, Option.some.injEq] at hei
        rw [hei]
  · rw [List.getElem?_set_ne (fun e' => hji e'.symm)]
    by_cases hjk : j = k
    · subst hjk
      rw [hek, Option.some.injEq] at hje
      refine ⟨{ ek with twin := (i : Int) }, List.getElem?_set_self hk, ?_, ?_, by simp [hji]⟩
      · rw [← hje]
      · rw [← hje]
    · rw [List.getElem?_set_ne (fun e' => hjk e'.symm)]
      exact ⟨e, hje, rfl, rfl, by simp [hji, hjk]⟩

/-- Step of the second loop of `computeTopology` when the lookup of the opposite pair
gives `twin`: it is a half-edge `k ≤ i` opposite to `i`, and the two are linked. -/
theorem topoInv_step_some (es0 : List MeshEdge) (i : Nat) (hem : List ((Int × Int) × Int))
    (es : List MeshEdge) (h : topoInv es0 i hem es) (hi : i < es0.length)
    (hnew : mfind hem (tgtOf es0 i, srcOf es0 i) = none) (twin : Int)
    (hfound : mfind (minsert hem (tgtOf es0 i, srcOf es0 i) (i : Int))
      (srcOf es0 i, tgtOf es0 i) = some twin) :
    ∃ (k : Nat) (ek ei' : MeshEdge), twin = (k : Int) ∧ es[k]? = some ek ∧
      (es.set k { ek with twin := (i : Int) })[i]? = some ei' ∧
      topoInv es0 (i + 1) (minsert hem (tgtOf es0 i, srcOf es0 i) (i : Int))
        ((es.set k { ek with twin := (i : Int) }).set i { ei' with twin := (k : Int) }) := by
  obtain ⟨h1, h2, hM, hD, hT1, hT2⟩ := h
  obtain ⟨hM', hD'⟩ := topoInv_map_step es0 i hem hM hD hnew
  obtain ⟨k, hk, hv, hk1, hk2⟩ := (hM' _ _ _).1 hfound
  have hrev : reverseOf es0 i k := ⟨hk2, hk1⟩
  have hkn : k < es0.length := by omega
  obtain ⟨ek, hek, -, -⟩ := h2 k hkn
  have hies : i < es.length := by omega
  have hlen1 : i < (es.set k { ek with twin := (i : Int) }).length := by simpa using hies
  obtain ⟨hlen, hset⟩ := twin_assign es i k hies ek _ hek (List.getElem?_eq_getElem hlen1)
  refine ⟨k, ek, _, hv, hek, List.getElem?_eq_getElem hlen1, hlen.trans h1, ?_, hM', hD', ?_, ?_⟩
  · intro j hj
    obtain ⟨e, he, hv1, hp1⟩ := h2 j hj
    obtain ⟨e2, he2, hv2, hp2, -⟩ := hset j e he
    exact ⟨e2, he2, hv2.trans hv1, hp2.trans hp1⟩
  · intro j k' hj hk' hrev'
    have hjn : j < es0.length := by omega
    obtain ⟨e, he, -, -⟩ := h2 j hjn
    obtain ⟨e2, he2, -, -, ht2⟩ := hset j e he
    rw [twinOf_eq _ j e2 he2, ht2]
    by_cases hji : j = i
    · subst hji
      simp only [if_true]
      have := hD' k k' hk hk' (reverseOf_pair es0 j k k' hrev hrev')
      rw [this]
    · simp only [hji, if_false]
      by_cases hjk : j = k
      · subst hjk
        simp only [if_true]
        have := hD' i k' (by omega) hk'
          (reverseOf_pair es0 j i k' (reverseOf_symm es0 i j hrev) hrev')
        rw [this]
      · simp only [hjk, if_false]
        have hk'i : k' ≠ i := by
          intro e'
          subst e'
          exact hjk (hD' j k hj hk
            (reverseOf_pair es0 k' j k (reverseOf_symm es0 j k' hrev') hrev))
        rw [← twinOf_eq es j e he]
        exact hT1 j k' (by omega) (by omega) hrev'
  · intro j hj hnone
    obtain ⟨e, he, -, -⟩ := h2 j hj
    obtain ⟨e2, he2, -, -, ht2⟩ := hset j e he
    have hji : j ≠ i := by
      intro e'
      subst e'
      exact hnone ⟨k, hk, by omega, hrev⟩
    have hjk : j ≠ k := by
      intro e'
      subst e'
      exact hnone ⟨i, by omega, hk, reverseOf_symm es0 i j hrev⟩
    rw [twinOf_eq _ j e2 he2, ht2]
    simp only [hji, hjk, if_false]
    rw [← twinOf_eq es j e he]
    apply hT2 j hj
    rintro ⟨k', hk', hj', hrev'⟩
    exact hnone ⟨k', by omega, by omega, hrev'⟩

/-- The second loop of `computeTopology` on a triangle list with all vertex indices in
range: it either clears the mesh, and then two half-edges have the same directed pair,
or it links the twins of all half-edges. -/
theorem topoLoop_spec (es0 : List MeshEdge) (nv : Nat) (h3 : es0.length % 3 = 0)
    (hr : ∀ e ∈ es0, 0 ≤ e.vertex ∧ e.vertex < (nv : Int)) (k i : Nat)
    (hem : List ((Int × Int) × Int)) (vs : List MeshVertex) (es : List MeshEdge)
    (hk : i + k = es0.length) (hvs : vs.length = nv) (h : topoInv es0 i hem es) :
    ∃ r, topoLoop nv k i hem vs es = some r ∧
      ((r = ([], []) ∧ ∃ j j' : Nat, j < es0.length ∧ j' < es0.length ∧ j ≠ j' ∧
          directedPair es0 j = directedPair es0 j') ∨
       (r.1.length = nv ∧ ∃ hem', topoInv es0 es0.length hem' r.2)) := by
  induction k generalizing i hem vs es with
  | zero =>
    refine ⟨(vs, es), rfl, Or.inr ⟨hvs, hem, ?_⟩⟩
    have : i = es0.length := by omega
    exact this ▸ h
  | succ k ih =>
    have hi : i < es0.length := by omega
    have hp : prevIndex i < es0.length := prevIndex_lt _ _ h3 hi
    obtain ⟨ei, hei, hei1, hei2⟩ := h.2.1 i hi
    obtain ⟨ep, hep, hep1, hep2⟩ := h.2.1 (prevIndex i) hp
    have hsrc : ep.vertex = srcOf es0 i := hep1
    obtain ⟨ht0, ht1⟩ := tgtOf_range es0 nv hr i hi
    obtain ⟨hs0, hs1⟩ := srcOf_range es0 nv h3 hr i hi
    have hidxp : idx? es ei.prev = some ep := by rw [hei2, idx?_natCast]; exact hep
    obtain ⟨vtx, hvtx⟩ := idx?_isSome vs (tgtOf es0 i) (by omega) (by omega)
    have hupd : upd? vs (tgtOf es0 i) { vtx with edge := ep.prev } =
        some (vs.set (tgtOf es0 i).toNat { vtx with edge := ep.prev }) := by
      have h1 : (tgtOf es0 i).toNat < vs.length := by omega
      simp [upd?, ht0, h1]
    simp only [topoLoop, hei, hidxp, hvtx, hupd, hei1, hsrc]
    cases hnew : mfind hem (tgtOf es0 i, srcOf es0 i) with
    | some j =>
      obtain ⟨j', hj', -, e1, e2⟩ := (h.2.2.1 _ _ _).1 hnew
      refine ⟨([], []), by simp, Or.inl ⟨rfl, j', i, by omega, hi, by omega, ?_⟩⟩
      simp only [directedPair, Prod.mk.injEq]
      exact ⟨e2, e1⟩
    | none =>
      have hrange : ¬ (srcOf es0 i < 0 ∨ srcOf es0 i ≥ (nv : Int)) := by omega
      simp only [Option.isSome_none, Bool.false_eq_true, if_false, hrange]
      cases hfound : mfind (minsert hem (tgtOf es0 i, srcOf es0 i) (i : Int))
          (srcOf es0 i, tgtOf es0 i) with
      | none =>
        exact ih (i + 1) _ _ es (by omega) (by simpa using hvs)
          (topoInv_step_none es0 i hem es h hnew hfound)
      | some twin =>
        obtain ⟨k', ek, ei', e1, e2, e3, hinv⟩ := topoInv_step_some es0 i hem es h hi hnew twin hfound
        have hk'es : k' < es.length := (List.getElem?_eq_some.1 e2).1
        subst e1
        have hidxk : idx? es (k' : Int) = some ek := by rw [idx?_natCast]; exact e2
        simp only [hidxk, upd?_natCast _ _ _ hk'es, e3]
        exact ih (i + 1) _ _ _ (by omega) (by simpa using hvs) hinv

/-- A triangle list without a repeated directed pair, by positions. -/
theorem directedPairs_nodup (es : List MeshEdge) (h : (directedPairs es).Nodup) (j j' : Nat)
    (hj : j < es.length) (hj' : j' < es.length) (hp : directedPair es j = directedPair es j') :
    j = j' :=
  (List.nodup_map_iff_inj_on (List.nodup_range es.length)).1 h j (List.mem_range.2 hj) j'
    (List.mem_range.2 hj') hp

/-- Result of `computeTopology` on a triangle list with all vertex indices in range:
either the cleared mesh, and then a directed pair occurs twice, or a mesh whose
half-edges satisfy `topoInv` at the end of the loop. -/
theorem computeTopology_spec (m : Mesh) (h3 : m.edges.length % 3 = 0) (hr : verticesInRange m)
    (ht : ∀ e ∈ m.edges, e.twin = -1) :
    ∃ m', m.computeTopology = some m' ∧
      ((m'.vertices = [] ∧ m'.edges = [] ∧
          ∃ j j' : Nat, j < m.edges.length ∧ j' < m.edges.length ∧ j ≠ j' ∧
            directedPair m.edges j = directedPair m.edges j') ∨
       (m'.vertices.length = m.vertices.length ∧
          ∃ hem', topoInv m.edges m.edges.length hem' m'.edges)) := by
  obtain ⟨r, hr1, hr2⟩ := topoLoop_spec m.edges m.vertices.length h3 hr m.edges.length 0 []
    m.vertices (setPrevs 0 m.edges) (by omega) rfl (topoInv_init m.edges ht)
  refine ⟨{ m with vertices := r.1, edges := r.2 }, by simp only [Mesh.computeTopology, hr1], ?_⟩
  rcases hr2 with ⟨e, hdup⟩ | hinv
  · exact Or.inl ⟨by rw [e], by rw [e], hdup⟩
  · exact Or.inr hinv

/-- The directed pairs of the half-edges are those of the input, in a state of `topoInv`. -/
theorem topoInv_pairs (es0 es : List MeshEdge) (i : Nat) (hem : List ((Int × Int) × Int))
    (h3 : es0.length % 3 = 0) (h : topoInv es0 i hem es) (j : Nat) (hj : j < es0.length) :
    tgtOf es j = tgtOf es0 j ∧ srcOf es j = srcOf es0 j := by
  obtain ⟨e, he, hv, -⟩ := h.2.1 j hj
  obtain ⟨e', he', hv', -⟩ := h.2.1 (prevIndex j) (prevIndex_lt _ _ h3 hj)
  exact ⟨(tgtOf_eq es j e he).trans hv, (tgtOf_eq es (prevIndex j) e' he').trans hv'⟩

/-- C2: for every triangle list (three half-edges per triangle, vertex indices in range,
twins still -1) in which no directed pair occurs twice, `computeTopology` returns a mesh
with the same half-edges in which `twin(i) = j` exactly when half-edge `j` runs from the
target of `i` to the source of `i`, `twin(twin(i)) = i` whenever `twin(i) ≥ 0`, and a
half-edge whose reverse pair does not occur keeps `twin = -1`. -/
theorem computeTopology_twins (m : Mesh) (h3 : m.edges.length % 3 = 0) (hr : verticesInRange m)
    (ht : ∀ e ∈ m.edges, e.twin = -1) (hnd : (directedPairs m.edges).Nodup) :
    ∃ m', m.computeTopology = some m' ∧ m'.edges.length = m.edges.length ∧
      (∀ i : Nat, i < m.edges.length → directedPair m'.edges i = directedPair m.edges i) ∧
      (∀ i j : Nat, i < m.edges.length → j < m.edges.length →
        (twinOf m'.edges i = (j : Int) ↔
          directedPair m.edges j = (tgtOf m.edges i, srcOf m.edges i))) ∧
      (∀ i : Nat, i < m.edges.length → 0 ≤ twinOf m'.edges i →
        twinOf m'.edges (twinOf m'.edges i).toNat = (i : Int)) ∧
      (∀ i : Nat, i < m.edges.length →
        (¬ ∃ j : Nat, j < m.edges.length ∧
          directedPair m.edges j = (tgtOf m.edges i, srcOf m.edges i)) →
        twinOf m'.edges i = -1) := by
  obtain ⟨m', hm', hcase⟩ := computeTopology_spec m h3 hr ht
  rcases hcase with ⟨-, -, j, j', hj, hj', hne, hp⟩ | ⟨-, hem', hinv⟩
  · exact absurd (directedPairs_nodup m.edges hnd j j' hj hj' hp) hne
  · have hinv' := hinv
    obtain ⟨hlen, -, -, -, hT1, hT2⟩ := hinv
    have hrev : ∀ i j : Nat, directedPair m.edges j = (tgtOf m.edges i, srcOf m.edges i) ↔
        reverseOf m.edges i j := by
      intro i j
      simp only [directedPair, Prod.mk.injEq, reverseOf]
    have hpartner : ∀ i : Nat, i < m.edges.length → twinOf m'.edges i ≠ -1 →
        ∃ k : Nat, k < m.edges.length ∧ reverseOf m.edges i k ∧ twinOf m'.edges i = (k : Int) := by
      intro i hi hne
      by_contra hcon
      apply hne
      apply hT2 i hi
      rintro ⟨k, hk, -, hrk⟩
      exact hcon ⟨k, hk, hrk, hT1 i k hi hk hrk⟩
    refine ⟨m', hm', hlen, ?_, ?_, ?_, ?_⟩
    · intro i hi
      obtain ⟨e1, e2⟩ := topoInv_pairs m.edges m'.edges _ hem' h3 hinv' i hi
      simp only [directedPair, e1, e2]
    · intro i j hi hj
      rw [hrev]
      constructor
      · intro htw
        obtain ⟨k, hk, hrk, hkt⟩ := hpartner i hi (by rw [htw]; omega)
        have : k = j := by
          have := hkt.symm.trans htw
          omega
        exact this ▸ hrk
      · exact hT1 i j hi hj
    · intro i hi hnn
      obtain ⟨k, hk, hrk, hkt⟩ := hpartner i hi (by omega)
      rw [hkt, Int.toNat_ofNat]
      exact hT1 k i hk hi (reverseOf_symm _ _ _ hrk)
    · intro i hi hnone
      apply hT2 i hi
      rintro ⟨k, hk, -, hrk⟩
      exact hnone ⟨k, hk, (hrev i k).2 hrk⟩

/-- C2, instance: the tetrahedron given as four triangles. -/
theorem computeTopology_twins_witness :
    tetraInput.edges.length % 3 = 0 ∧ verticesInRange tetraInput ∧
    (∀ e ∈ tetraInput.edges, e.twin = -1) ∧ (directedPairs tetraInput.edges).Nodup ∧
    ∃ m', tetraInput.computeTopology = some m' ∧ m'.edges.length = tetraInput.edges.length ∧
      (∀ i : Nat, i < tetraInput.edges.length →
        directedPair m'.edges i = directedPair tetraInput.edges i) ∧
      (∀ i j : Nat, i < tetraInput.edges.length → j < tetraInput.edges.length →
        (twinOf m'.edges i = (j : Int) ↔
          directedPair tetraInput.edges j = (tgtOf tetraInput.edges i, srcOf tetraInput.edges i))) ∧
      (∀ i : Nat, i < tetraInput.edges.length → 0 ≤ twinOf m'.edges i →
        twinOf m'.edges (twinOf m'.edges i).toNat = (i : Int)) ∧
      (∀ i : Nat, i < tetraInput.edges.length →
        (¬ ∃ j : Nat, j < tetraInput.edges.length ∧
          directedPair tetraInput.edges j = (tgtOf tetraInput.edges i, srcOf tetraInput.edges i)) →
        twinOf m'.edges i = -1) :=
  ⟨by decide, by decide, by decide, by decide,
    computeTopology_twins tetraInput (by decide) (by decide) (by decide) (by decide)⟩

/-- C3, counterexample: the closed surface `doubledEdgeMesh` passes `integrityCheck`,
yet its half-edges 1 and 7 both run from vertex 0 to vertex 1. -/
theorem integrityCheck_accepts_doubled_edge :
    doubledEdgeMesh.integrityCheck = true ∧
    sourceAt doubledEdgeMesh.edges 1 = 0 ∧ targetAt doubledEdgeMesh.edges 1 = 1 ∧
    sourceAt doubledEdgeMesh.edges 7 = 0 ∧ targetAt doubledEdgeMesh.edges 7 = 1 ∧
    ¬ (doubledEdgeMesh.integrityCheck = true →
        ∀ i j : Nat, i < doubledEdgeMesh.edges.length → j < doubledEdgeMesh.edges.length →
          sourceAt doubledEdgeMesh.edges i = sourceAt doubledEdgeMesh.edges j →
          targetAt doubledEdgeMesh.edges i = targetAt doubledEdgeMesh.edges j → i = j) := by
  refine ⟨by decide, by decide, by decide, by decide, by decide, ?_⟩
  intro h
  have := h (by decide) 1 7 (by decide) (by decide) (by decide) (by decide)
  omega

/-- C3 (amended): the invariant is enforced by `computeTopology`, not by
`integrityCheck`: for every triangle list with vertex indices in range, if
`computeTopology` returns a mesh that it did not clear, no two distinct half-edges of
that mesh have the same (source, target) pair. -/
theorem computeTopology_no_duplicate_edge (m m' : Mesh) (h3 : m.edges.length % 3 = 0)
    (hr : verticesInRange m) (ht : ∀ e ∈ m.edges, e.twin = -1)
    (hc : m.computeTopology = some m') (hne : m'.edges ≠ []) :
    ∀ i j : Nat, i < m'.edges.length → j < m'.edges.length →
      directedPair m'.edges i = directedPair m'.edges j → i = j := by
  obtain ⟨m1, hm1, hcase⟩ := computeTopology_spec m h3 hr ht
  rw [hc, Option.some.injEq] at hm1
  subst hm1
  rcases hcase with ⟨-, he, -⟩ | ⟨-, hem', hinv⟩
  · exact absurd he hne
  · intro i j hi hj hp
    have hlen := hinv.1
    rw [hlen] at hi hj
    obtain ⟨a1, a2⟩ := topoInv_pairs m.edges m'.edges _ hem' h3 hinv i hi
    obtain ⟨b1, b2⟩ := topoInv_pairs m.edges m'.edges _ hem' h3 hinv j hj
    apply hinv.2.2.2.1 i j hi hj
    simp only [directedPair, Prod.mk.injEq] at hp ⊢
    exact ⟨a2.symm.trans (hp.1.trans b2), a1.symm.trans (hp.2.trans b1)⟩

/-- C3 (amended), instance: the tetrahedron, on which `computeTopology` returns
`tetraMesh`. -/
theorem computeTopology_no_duplicate_edge_witness :
    tetraInput.edges.length % 3 = 0 ∧ verticesInRange tetraInput ∧
    (∀ e ∈ tetraInput.edges, e.twin = -1) ∧ tetraInput.computeTopology = some tetraMesh ∧
    tetraMesh.edges ≠ [] ∧
    ∀ i j : Nat, i < tetraMesh.edges.length → j < tetraMesh.edges.length →
      directedPair tetraMesh.edges i = directedPair tetraMesh.edges j → i = j :=
  ⟨by decide, by decide, by decide, by decide, by decide,
    computeTopology_no_duplicate_edge tetraInput tetraMesh (by decide) (by decide) (by decide)
      (by decide) (by decide)⟩

/-! ### integrityCheck -/

/-- The checks of `integrityCheck` on a mesh with at least one vertex, one by one. -/
theorem integrityCheck_facts (m : Mesh) (h : m.integrityCheck = true)
    (hne : m.vertices.length ≠ 0) :
    0 < m.edges.length ∧
    (∀ x ∈ m.vertices, 0 ≤ x.edge ∧ x.edge < (m.edges.length : Int)) ∧
    (∀ x ∈ m.edges, (0 ≤ x.vertex ∧ x.vertex < (m.vertices.length : Int)) ∧
      (0 ≤ x.prev ∧ x.prev < (m.edges.length : Int)) ∧
      (0 ≤ x.twin ∧ x.twin < (m.edges.length : Int))) ∧
    (∀ i : Nat, i < m.edges.length → edgeChecks m.edges (i : Int) = true) ∧
    (∀ i : Nat, i < m.vertices.length → vertexEdgeCheck m (i : Int) = true) ∧
    (∀ i : Nat, i < m.vertices.length → manifoldCheck m (i : Int) = true) := by
  simp only [Mesh.integrityCheck, hne, if_false, Bool.and_eq_true, List.all_eq_true,
    decide_eq_true_eq, rangeChecks, List.mem_range] at h
  obtain ⟨⟨⟨⟨h1, h2, h3⟩, h4⟩, h5⟩, h6⟩ := h
  refine ⟨h1, h2, ?_, h4, h5, h6⟩
  intro x hx
  obtain ⟨⟨a, b⟩, c⟩ := h3 x hx
  exact ⟨a, b, c⟩

theorem edgeAt_natCast (es : List MeshEdge) (i : Nat) (hi : i < es.length) :
    edgeAt es (i : Int) = es[i] := by
  simp [edgeAt, List.getD_eq_getElem?_getD, List.getElem?_eq_getElem hi]

theorem edgeAt_mem (es : List MeshEdge) (i : Nat) (hi : i < es.length) :
    edgeAt es (i : Int) ∈ es := by
  rw [edgeAt_natCast es i hi]
  exact List.getElem_mem _

/-- A mesh that passes `integrityCheck` has linked half-edges. -/
theorem integrityCheck_linked (m : Mesh) (h : m.integrityCheck = true) : linked m.edges := by
  by_cases hne : m.vertices.length = 0
  · have he : m.edges.length = 0 := by
      simpa [Mesh.integrityCheck, hne] using h
    refine ⟨?_, ?_, ?_, ?_⟩ <;> intro i hi <;> omega
  · obtain ⟨-, -, hr, hc, -, -⟩ := integrityCheck_facts m h hne
    have hbase : ∀ i : Nat, i < m.edges.length →
        (edgeAt m.edges (i : Int)).prev = (prevNat m.edges i : Int) ∧ prevNat m.edges i < m.edges.length ∧
        (edgeAt m.edges (i : Int)).twin = (twinNat m.edges i : Int) ∧
        twinNat m.edges i < m.edges.length := by
      intro i hi
      obtain ⟨-, ⟨p0, p1⟩, t0, t1⟩ := hr _ (edgeAt_mem m.edges i hi)
      simp only [prevNat, twinNat]
      omega
    have hchk : ∀ i : Nat, i < m.edges.length →
        (edgeAt m.edges (edgeAt m.edges (edgeAt m.edges (i : Int)).prev).prev).prev = (i : Int) ∧
        (edgeAt m.edges (edgeAt m.edges (i : Int)).twin).twin = (i : Int) ∧
        (edgeAt m.edges (edgeAt m.edges (i : Int)).twin).vertex =
          (edgeAt m.edges (edgeAt m.edges (i : Int)).prev).vertex := by
      intro i hi
      have := hc i hi
      simp only [edgeChecks, Bool.and_eq_true, decide_eq_true_eq] at this
      exact ⟨this.1.1.1.2, this.1.2, this.2⟩
    refine ⟨hbase, ?_, ?_, ?_⟩
    · intro i hi
      obtain ⟨e1, l1, -, -⟩ := hbase i hi
      obtain ⟨e2, l2, -, -⟩ := hbase _ l1
      obtain ⟨e3, l3, -, -⟩ := hbase _ l2
      have := (hchk i hi).1
      rw [e1, e2, e3] at this
      exact_mod_cast this
    · intro i hi
      obtain ⟨-, -, e1, l1⟩ := hbase i hi
      obtain ⟨-, -, e2, l2⟩ := hbase _ l1
      have := (hchk i hi).2.1
      rw [e1, e2] at this
      exact_mod_cast this
    · intro i hi
      obtain ⟨e1, -, e2, -⟩ := hbase i hi
      have := (hchk i hi).2.2
      rw [e1, e2] at this
      exact this

theorem sourceAt_natCast (es : List MeshEdge) (hl : linked es) (i : Nat) (hi : i < es.length) :
    sourceAt es (i : Int) = targetAt es (prevNat es i : Int) := by
  simp only [sourceAt, targetAt, (hl.1 i hi).1]

theorem walkStep_natCast (es : List MeshEdge) (hl : linked es) (i : Nat) (hi : i < es.length) :
    walkStep es (i : Int) = (walkNat es i : Int) := by
  obtain ⟨e1, l1, -, -⟩ := hl.1 i hi
  obtain ⟨-, -, e2, -⟩ := hl.1 _ l1
  simp only [walkStep, walkNat, e1, e2]

theorem walkNat_lt (es : List MeshEdge) (hl : linked es) (i : Nat) (hi : i < es.length) :
    walkNat es i < es.length := (hl.1 _ (hl.1 i hi).2.1).2.2.2

/-- The walk step leads from a half-edge that leaves `v` to another one that leaves `v`. -/
theorem walkNat_source (es : List MeshEdge) (hl : linked es) (i : Nat) (hi : i < es.length) :
    sourceAt es (walkNat es i : Int) = sourceAt es (i : Int) := by
  have hp := (hl.1 i hi).2.1
  have hw := walkNat_lt es hl i hi
  rw [sourceAt_natCast es hl _ hw, sourceAt_natCast es hl _ hi, ← hl.2.2.2 _ hw]
  simp only [walkNat, hl.2.2.1 _ hp]

/-- The walk step is injective on the half-edges. -/
theorem walkNat_inj (es : List MeshEdge) (hl : linked es) (a b : Nat) (ha : a < es.length)
    (hb : b < es.length) (h : walkNat es a = walkNat es b) : a = b := by
  have hpa := (hl.1 a ha).2.1
  have hpb := (hl.1 b hb).2.1
  have h1 : prevNat es a = prevNat es b := by
    have := congrArg (twinNat es) h
    simp only [walkNat] at this
    rwa [hl.2.2.1 _ hpa, hl.2.2.1 _ hpb] at this
  have h2 := congrArg (fun x => prevNat es (prevNat es x)) h1
  simp only at h2
  rwa [hl.2.1 a ha, hl.2.1 b hb] at h2

/-- Iterates of the walk stay among the half-edges that leave the same vertex, and agree
with the iterates of the `int` walk step of the source. -/
theorem walkNat_iterate (es : List MeshEdge) (hl : linked es) (s : Nat) (hs : s < es.length)
    (k : Nat) :
    (walkNat es)^[k] s < es.length ∧
    sourceAt es (((walkNat es)^[k] s : Nat) : Int) = sourceAt es (s : Int) ∧
    (walkStep es)^[k] (s : Int) = (((walkNat es)^[k] s : Nat) : Int) := by
  induction k with
  | zero => exact ⟨hs, rfl, rfl⟩
  | succ k ih =>
    obtain ⟨h1, h2, h3⟩ := ih
    rw [Function.iterate_succ_apply', Function.iterate_succ_apply', h3]
    exact ⟨walkNat_lt es hl _ h1, (walkNat_source es hl _ h1).trans h2,
      walkStep_natCast es hl _ h1⟩

/-- Two iterates of the walk that agree give an earlier return to the start. -/
theorem walkNat_iterate_inj (es : List MeshEdge) (hl : linked es) (s : Nat) (hs : s < es.length)
    (a b : Nat) (h : (walkNat es)^[a] s = (walkNat es)^[a + b] s) : (walkNat es)^[b] s = s := by
  induction a with
  | zero => simpa using h.symm
  | succ a ih =>
    apply ih
    rw [show a + 1 + b = (a + b) + 1 by omega, Function.iterate_succ_apply',
      Function.iterate_succ_apply'] at h
    exact walkNat_inj es hl _ _ (walkNat_iterate es hl s hs a).1
      (walkNat_iterate es hl s hs (a + b)).1 h

/-- The counting loop of the manifold check: when it ends with `count = edgeCount`, the
walk is back at its start after exactly that many steps and not before. -/
theorem walkCount_spec (es : List MeshEdge) (start : Int) (ec fuel : Nat) (cur : Int)
    (count : Nat) (hcur : cur = (walkStep es)^[count] start) (hfuel : fuel + count = ec + 1)
    (hbefore : ∀ k : Nat, 0 < k → k ≤ count → (walkStep es)^[k] start ≠ start)
    (h : walkCount es start ec fuel cur count = ec) :
    (walkStep es)^[ec] start = start ∧
    ∀ k : Nat, 0 < k → k < ec → (walkStep es)^[k] start ≠ start := by
  induction fuel generalizing cur count with
  | zero =>
    simp only [walkCount] at h
    omega
  | succ f ih =>
    simp only [walkCount] at h
    have hnext : walkStep es cur = (walkStep es)^[count + 1] start := by
      rw [Function.iterate_succ_apply', hcur]
    split at h
    · rename_i hc
      apply ih (walkStep es cur) (count + 1) hnext (by omega) _ h
      intro k hk0 hk
      rcases Nat.lt_succ_iff_lt_or_eq.1 (Nat.lt_succ_of_le hk) with hlt | heq
      · exact hbefore k hk0 (by omega)
      · rw [heq, ← hnext]
        exact hc.1
    · rename_i hc
      have hback : walkStep es cur = start := by
        by_contra hne
        exact hc ⟨hne, by omega⟩
      refine ⟨by rw [← h, ← hnext, hback], ?_⟩
      intro k hk0 hk
      exact hbefore k hk0 (by omega)

/-- Counting the entries of a vector that satisfy a predicate, by positions. -/
theorem card_filter_range_eq_countP (l : List MeshEdge) (p : MeshEdge → Bool) :
    ((Finset.range l.length).filter (fun i => p (l.getD i default) = true)).card = l.countP p := by
  induction l using List.reverseRecOn with
  | nil => simp
  | append_singleton l a ih =>
    rw [List.countP_append, ← ih, List.length_append, List.length_singleton, Finset.range_succ,
      Finset.filter_insert]
    have hlast : (l ++ [a]).getD l.length default = a := by
      simp [List.getD_eq_getElem?_getD]
    have hcongr : (Finset.range l.length).filter (fun i => p ((l ++ [a]).getD i default) = true) =
        (Finset.range l.length).filter (fun i => p (l.getD i default) = true) := by
      apply Finset.filter_congr
      intro i hi
      have hi' : i < l.length := Finset.mem_range.1 hi
      simp [List.getD_eq_getElem?_getD, List.getElem?_append_left hi']
    rw [hlast, hcongr]
    by_cases hp : p a = true
    · rw [if_pos hp, Finset.card_insert_of_not_mem (by simp)]
      simp [List.countP_cons, hp]
    · rw [if_neg hp]
      simp [List.countP_cons, hp]

/-- The counter `edgeCount[v]` is the number of half-edges that point to `v`. -/
theorem card_pointingTo (es : List MeshEdge) (v : Int) :
    (pointingTo es v).card = edgeCount es v := by
  rw [edgeCount, ← card_filter_range_eq_countP]
  congr 1
  apply Finset.filter_congr
  intro i _
  simp [targetAt, edgeAt]

/-- As many half-edges leave a vertex as point to it: `prev` is a bijection between them. -/
theorem card_leaving (es : List MeshEdge) (hl : linked es) (v : Int) :
    (leaving es v).card = (pointingTo es v).card := by
  apply Finset.card_bij (fun i _ => prevNat es i)
  · intro i hi
    obtain ⟨h1, h2⟩ := Finset.mem_filter.1 hi
    have hi' : i < es.length := Finset.mem_range.1 h1
    refine Finset.mem_filter.2 ⟨Finset.mem_range.2 (hl.1 i hi').2.1, ?_⟩
    rw [← sourceAt_natCast es hl i hi']
    exact h2
  · intro a ha b hb hab
    have ha' : a < es.length := Finset.mem_range.1 (Finset.mem_filter.1 ha).1
    have hb' : b < es.length := Finset.mem_range.1 (Finset.mem_filter.1 hb).1
    have h2 := congrArg (fun x => prevNat es (prevNat es x)) hab
    simp only at h2
    rwa [hl.2.1 a ha', hl.2.1 b hb'] at h2
  · intro j hj
    obtain ⟨h1, h2⟩ := Finset.mem_filter.1 hj
    have hj' : j < es.length := Finset.mem_range.1 h1
    have hp1 := (hl.1 j hj').2.1
    have hp2 := (hl.1 _ hp1).2.1
    refine ⟨prevNat es (prevNat es j), Finset.mem_filter.2 ⟨Finset.mem_range.2 hp2, ?_⟩,
      hl.2.1 j hj'⟩
    rw [sourceAt_natCast es hl _ hp2, hl.2.1 j hj']
    exact h2

/-- A walk that first returns to its start after as many steps as half-edges leave the
vertex passes through each of them exactly once. -/
theorem walk_covers (es : List MeshEdge) (hl : linked es) (s c : Nat) (hs : s < es.length)
    (hc : (leaving es (sourceAt es (s : Int))).card = c)
    (hfirst : ∀ k : Nat, 0 < k → k < c → (walkNat es)^[k] s ≠ s) :
    (∀ a b : Nat, a < c → b < c → (walkNat es)^[a] s = (walkNat es)^[b] s → a = b) ∧
    ∀ e : Nat, e < es.length → sourceAt es (e : Int) = sourceAt es (s : Int) →
      ∃ k : Nat, k < c ∧ (walkNat es)^[k] s = e := by
  have hinj : ∀ a b : Nat, a < c → b < c → (walkNat es)^[a] s = (walkNat es)^[b] s → a = b := by
    have key : ∀ a b : Nat, a < b → b < c → (walkNat es)^[a] s ≠ (walkNat es)^[b] s := by
      intro a b hab hb heq
      obtain ⟨d, rfl⟩ : ∃ d, b = a + d := ⟨b - a, by omega⟩
      exact hfirst d (by omega) (by omega) (walkNat_iterate_inj es hl s hs a d heq)
    intro a b ha hb heq
    rcases Nat.lt_trichotomy a b with h | h | h
    · exact absurd heq (key a b h hb)
    · exact h
    · exact absurd heq.symm (key b a h ha)
  refine ⟨hinj, ?_⟩
  have hsub : (Finset.range c).image (fun k => (walkNat es)^[k] s) ⊆
      leaving es (sourceAt es (s : Int)) := by
    intro e he
    obtain ⟨k, -, rfl⟩ := Finset.mem_image.1 he
    obtain ⟨h1, h2, -⟩ := walkNat_iterate es hl s hs k
    exact Finset.mem_filter.2 ⟨Finset.mem_range.2 h1, h2⟩
  have hcard : ((Finset.range c).image (fun k => (walkNat es)^[k] s)).card = c := by
    rw [Finset.card_image_of_injOn, Finset.card_range]
    intro a ha b hb heq
    exact hinj a b (Finset.mem_range.1 ha) (Finset.mem_range.1 hb) heq
  have heq := Finset.eq_of_subset_of_card_le hsub (by rw [hcard, hc])
  intro e he hsrc
  have hmem : e ∈ leaving es (sourceAt es (s : Int)) :=
    Finset.mem_filter.2 ⟨Finset.mem_range.2 he, hsrc⟩
  rw [← heq] at hmem
  obtain ⟨k, hk, hke⟩ := Finset.mem_image.1 hmem
  exact ⟨k, Finset.mem_range.1 hk, hke⟩

/-- The start of the walk around vertex `v` in a mesh that passes `integrityCheck`: the
half-edge `vertices[v].edge` leaves `v`, and the walk first returns to it after
`edgeCount[v]` steps, the number of half-edges that leave `v`. -/
theorem integrityCheck_start (m : Mesh) (h : m.integrityCheck = true) (v : Nat)
    (hv : v < m.vertices.length) :
    ∃ s : Nat, (vertexAt m.vertices (v : Int)).edge = (s : Int) ∧ s < m.edges.length ∧
      sourceAt m.edges (s : Int) = (v : Int) ∧
      (leaving m.edges (v : Int)).card = edgeCount m.edges (v : Int) ∧
      (walkNat m.edges)^[edgeCount m.edges (v : Int)] s = s ∧
      ∀ k : Nat, 0 < k → k < edgeCount m.edges (v : Int) → (walkNat m.edges)^[k] s ≠ s := by
  have hl := integrityCheck_linked m h
  obtain ⟨-, hr, -, -, hve, hman⟩ := integrityCheck_facts m h (by omega)
  have hmem : vertexAt m.vertices (v : Int) ∈ m.vertices := by
    simp only [vertexAt, Int.toNat_ofNat, List.getD_eq_getElem?_getD, List.getElem?_eq_getElem hv,
      Option.getD_some]
    exact List.getElem_mem _
  obtain ⟨h0, h1⟩ := hr _ hmem
  obtain ⟨s, hs⟩ : ∃ s : Nat, (vertexAt m.vertices (v : Int)).edge = (s : Int) :=
    ⟨(vertexAt m.vertices (v : Int)).edge.toNat, by omega⟩
  have hsn : s < m.edges.length := by omega
  have hsrc : sourceAt m.edges (s : Int) = (v : Int) := by
    have := hve v hv
    simp only [vertexEdgeCheck, decide_eq_true_eq, hs] at this
    exact this
  have hwalk := hman v hv
  simp only [manifoldCheck, decide_eq_true_eq, hs] at hwalk
  obtain ⟨hret, hfirst⟩ := walkCount_spec m.edges (s : Int) (edgeCount m.edges (v : Int))
    (edgeCount m.edges (v : Int) + 1) (s : Int) 0 rfl rfl (fun k h0 hk => by omega) hwalk
  refine ⟨s, hs, hsn, hsrc, (card_leaving m.edges hl _).trans (card_pointingTo m.edges _), ?_, ?_⟩
  · rw [(walkNat_iterate m.edges hl s hsn _).2.2] at hret
    exact_mod_cast hret
  · intro k hk0 hk hcon
    apply hfirst k hk0 hk
    rw [(walkNat_iterate m.edges hl s hsn k).2.2, hcon]

/-- C4: for every mesh on which `integrityCheck` returns true and every vertex `v`, the
walk `e ↦ twin(prev(e))` started at `vertices[v].edge` is back at its start after
`edgeCount[v]` steps, the number of half-edges pointing to `v`, and not before, and every
half-edge leaving `v` is visited at exactly one step `k < edgeCount[v]` of the walk. -/
theorem integrityCheck_vertex_cycle (m : Mesh) (h : m.integrityCheck = true) (v : Nat)
    (hv : v < m.vertices.length) :
    (walkStep m.edges)^[edgeCount m.edges (v : Int)] (vertexAt m.vertices (v : Int)).edge =
      (vertexAt m.vertices (v : Int)).edge ∧
    (∀ k : Nat, 0 < k → k < edgeCount m.edges (v : Int) →
      (walkStep m.edges)^[k] (vertexAt m.vertices (v : Int)).edge ≠
        (vertexAt m.vertices (v : Int)).edge) ∧
    (∀ e : Nat, e < m.edges.length → sourceAt m.edges (e : Int) = (v : Int) →
      ∃! k : Nat, k < edgeCount m.edges (v : Int) ∧
        (walkStep m.edges)^[k] (vertexAt m.vertices (v : Int)).edge = (e : Int)) := by
  have hl := integrityCheck_linked m h
  obtain ⟨s, hs, hsn, hsrc, hcard, hret, hfirst⟩ := integrityCheck_start m h v hv
  have hit := fun k => (walkNat_iterate m.edges hl s hsn k).2.2
  obtain ⟨hinj, hcov⟩ := walk_covers m.edges hl s _ hsn (by rw [hsrc]; exact hcard) hfirst
  rw [hs]
  refine ⟨by rw [hit, hret], ?_, ?_⟩
  · intro k hk0 hk hcon
    rw [hit] at hcon
    exact hfirst k hk0 hk (by exact_mod_cast hcon)
  · intro e he hes
    obtain ⟨k, hk, hke⟩ := hcov e he (by rw [hes, hsrc])
    refine ⟨k, ⟨hk, by rw [hit, hke]⟩, ?_⟩
    rintro k' ⟨hk', hke'⟩
    rw [hit] at hke'
    exact hinj k' k hk' hk (by rw [hke]; exact_mod_cast hke')

/-- C4, instance: vertex 0 of the tetrahedron, with three half-edges around it. -/
theorem integrityCheck_vertex_cycle_witness :
    tetraMesh.integrityCheck = true ∧ 0 < tetraMesh.vertices.length ∧
    ((walkStep tetraMesh.edges)^[edgeCount tetraMesh.edges ((0 : Nat) : Int)]
        (vertexAt tetraMesh.vertices ((0 : Nat) : Int)).edge =
      (vertexAt tetraMesh.vertices ((0 : Nat) : Int)).edge ∧
    (∀ k : Nat, 0 < k → k < edgeCount tetraMesh.edges ((0 : Nat) : Int) →
      (walkStep tetraMesh.edges)^[k] (vertexAt tetraMesh.vertices ((0 : Nat) : Int)).edge ≠
        (vertexAt tetraMesh.vertices ((0 : Nat) : Int)).edge) ∧
    (∀ e : Nat, e < tetraMesh.edges.length →
      sourceAt tetraMesh.edges (e : Int) = ((0 : Nat) : Int) →
      ∃! k : Nat, k < edgeCount tetraMesh.edges ((0 : Nat) : Int) ∧
        (walkStep tetraMesh.edges)^[k] (vertexAt tetraMesh.vertices ((0 : Nat) : Int)).edge =
          (e : Int))) :=
  ⟨by decide, by decide, integrityCheck_vertex_cycle tetraMesh (by decide) 0 (by decide)⟩

/-! ### isConnected -/

theorem idx?_edgeAt (es : List MeshEdge) (i : Nat) (hi : i < es.length) :
    idx? es (i : Int) = some (edgeAt es (i : Int)) := by
  rw [idx?_natCast, edgeAt_natCast es i hi, List.getElem?_eq_getElem hi]

/-- One visit of a vertex that can be reached from vertex 0 keeps the state of
`isConnected` consistent, only appends to `todo`, and leaves the vertex in `todo`. -/
theorem visit_spec (m : Mesh) (st : ConnState) (hI : connInv m st) (b : Int) (hb0 : 0 ≤ b)
    (hb1 : b < (m.vertices.length : Int)) (hr : m.reachable 0 b) :
    ∃ st', visit st b = some st' ∧ connInv m st' ∧ (∃ new, st'.todo = st.todo ++ new) ∧
      b ∈ st'.todo := by
  obtain ⟨h1, h2, h3, h4, h5, h6⟩ := hI
  obtain ⟨v, rfl⟩ : ∃ v : Nat, b = (v : Int) := ⟨b.toNat, by omega⟩
  have hv : v < m.vertices.length := by omega
  have hvr : v < st.reached.length := by omega
  have hidx : idx? st.reached (v : Int) = some st.reached[v] := by
    rw [idx?_natCast, List.getElem?_eq_getElem hvr]
  simp only [visit, hidx]
  by_cases hflag : st.reached[v] = true
  · refine ⟨st, by simp only [hflag, if_true], ⟨h1, h2, h3, h4, h5, h6⟩, ⟨[], by simp⟩, ?_⟩
    exact (h4 v hv).1 (by rw [List.getElem?_eq_getElem hvr, hflag])
  · have hnot : (v : Int) ∉ st.todo := by
      intro hmem
      have := (h4 v hv).2 hmem
      rw [List.getElem?_eq_getElem hvr, Option.some.injEq] at this
      exact hflag this
    refine ⟨{ reached := st.reached.set (v : Int).toNat true, todo := st.todo ++ [(v : Int)],
              reachedCount := st.reachedCount + 1 },
      by simp only [hflag, Bool.false_eq_true, if_false], ⟨?_, ?_, ?_, ?_, ?_, ?_⟩,
      ⟨[(v : Int)], rfl⟩, by simp⟩
    · simpa using h1
    · exact List.Nodup.append h2 (List.nodup_singleton _) (by simpa using hnot)
    · intro x hx
      rcases List.mem_append.1 hx with hx | hx
      · exact h3 x hx
      · have : x = (v : Int) := by simpa using hx
        omega
    · intro w hw
      simp only [Int.toNat_ofNat]
      by_cases hwv : v = w
      · subst hwv
        rw [List.getElem?_set_self hvr]
        simp
      · rw [List.getElem?_set_ne hwv, h4 w hw]
        have : (w : Int) ≠ (v : Int) := by omega
        simp [this]
    · simp [h5]
    · intro x hx
      rcases List.mem_append.1 hx with hx | hx
      · exact h6 x hx
      · have : x = (v : Int) := by simpa using hx
        rw [this]
        exact hr

/-- The inner loop of `isConnected` around a vertex `u` that can be reached from vertex 0,
entered at step `k` of the walk: with fuel for the remaining steps it ends when the walk
is back at its start, keeps the state consistent, only appends to `todo`, and leaves the
target of every half-edge it passed in `todo`. -/
theorem connWalk_spec (m : Mesh) (hl : linked m.edges)
    (hrange : ∀ x ∈ m.edges, 0 ≤ x.vertex ∧ x.vertex < (m.vertices.length : Int))
    (u : Int) (hu : m.reachable 0 u) (s c : Nat) (hs : s < m.edges.length)
    (hsrc : sourceAt m.edges (s : Int) = u) (hret : (walkNat m.edges)^[c] s = s)
    (hfirst : ∀ k : Nat, 0 < k → k < c → (walkNat m.edges)^[k] s ≠ s)
    (fuel k : Nat) (st : ConnState) (hk : k < c) (hfuel : c ≤ fuel + k) (hI : connInv m st) :
    ∃ st', connWalk m.edges (s : Int) fuel (((walkNat m.edges)^[k] s : Nat) : Int) st = some st' ∧
      connInv m st' ∧ (∃ new, st'.todo = st.todo ++ new) ∧
      ∀ j : Nat, k < j → j ≤ c →
        targetAt m.edges (((walkNat m.edges)^[j] s : Nat) : Int) ∈ st'.todo := by
  induction fuel generalizing k st with
  | zero => omega
  | succ f ih =>
    obtain ⟨he, hesrc, -⟩ := walkNat_iterate m.edges hl s hs k
    obtain ⟨he', hesrc', -⟩ := walkNat_iterate m.edges hl s hs (k + 1)
    obtain ⟨e1, l1, -, -⟩ := hl.1 _ he
    obtain ⟨-, -, e2, -⟩ := hl.1 _ l1
    have hnext : (edgeAt m.edges (prevNat m.edges ((walkNat m.edges)^[k] s) : Int)).twin =
        (((walkNat m.edges)^[k + 1] s : Nat) : Int) := by
      rw [e2, Function.iterate_succ_apply']
      rfl
    have hb := hrange _ (edgeAt_mem m.edges _ he')
    have hadj : m.adjacent u (targetAt m.edges (((walkNat m.edges)^[k + 1] s : Nat) : Int)) :=
      ⟨(walkNat m.edges)^[k + 1] s, he', hesrc'.trans hsrc, rfl⟩
    obtain ⟨st1, hv1, hI1, ⟨new1, hnew1⟩, hmem1⟩ := visit_spec m st hI
      (targetAt m.edges (((walkNat m.edges)^[k + 1] s : Nat) : Int)) hb.1 hb.2
      (Relation.ReflTransGen.tail hu hadj)
    have hv1' : visit st (edgeAt m.edges (((walkNat m.edges)^[k + 1] s : Nat) : Int)).vertex =
        some st1 := hv1
    simp only [connWalk, idx?_edgeAt m.edges _ he, e1, idx?_edgeAt m.edges _ l1, hnext,
      idx?_edgeAt m.edges _ he', hv1']
    by_cases hlast : k + 1 = c
    · have hback : (walkNat m.edges)^[k + 1] s = s := by rw [hlast]; exact hret
      refine ⟨st1, by simp only [hback, ne_eq, not_true_eq_false, if_false], hI1,
        ⟨new1, hnew1⟩, ?_⟩
      intro j hj hjc
      have : j = k + 1 := by omega
      rw [this]
      exact hmem1
    · have hne : (((walkNat m.edges)^[k + 1] s : Nat) : Int) ≠ (s : Int) := by
        intro hcon
        exact hfirst (k + 1) (by omega) (by omega) (by exact_mod_cast hcon)
      obtain ⟨st2, hw2, hI2, ⟨new2, hnew2⟩, hmem2⟩ := ih (k + 1) st1 (by omega) (by omega) hI1
      refine ⟨st2, by simp only [hne, ne_eq, not_false_eq_true, if_true, hw2], hI2,
        ⟨new1 ++ new2, by rw [hnew2, hnew1, List.append_assoc]⟩, ?_⟩
      intro j hj hjc
      rcases Nat.eq_or_lt_of_le (Nat.succ_le_of_lt hj) with heq | hlt
      · rw [← heq, hnew2]
        exact List.mem_append_left _ hmem1
      · exact hmem2 j hlt hjc

/-- The vertices in `todo` are among the vertices of the mesh, each listed once. -/
theorem todo_subset (m : Mesh) (st : ConnState) (hI : connInv m st) :
    st.todo.toFinset ⊆ (Finset.range m.vertices.length).image (fun v : Nat => (v : Int)) := by
  intro x hx
  obtain ⟨h0, h1⟩ := hI.2.2.1 x (List.mem_toFinset.1 hx)
  exact Finset.mem_image.2 ⟨x.toNat, Finset.mem_range.2 (by omega), by omega⟩

theorem card_vertex_image (n : Nat) :
    ((Finset.range n).image (fun v : Nat => (v : Int))).card = n := by
  rw [Finset.card_image_of_injective _ (fun a b h => by exact_mod_cast h), Finset.card_range]

theorem todo_length_le (m : Mesh) (st : ConnState) (hI : connInv m st) :
    st.todo.length ≤ m.vertices.length := by
  rw [← List.toFinset_card_of_nodup hI.2.1, ← card_vertex_image m.vertices.length]
  exact Finset.card_le_card (todo_subset m st hI)

/-- `todo` has as many entries as the mesh has vertices exactly when it lists them all. -/
theorem todo_full_iff (m : Mesh) (st : ConnState) (hI : connInv m st) :
    st.todo.length = m.vertices.length ↔
      ∀ v : Nat, v < m.vertices.length → (v : Int) ∈ st.todo := by
  constructor
  · intro hlen v hv
    have heq := Finset.eq_of_subset_of_card_le (todo_subset m st hI)
      (by rw [card_vertex_image, List.toFinset_card_of_nodup hI.2.1, hlen])
    have : (v : Int) ∈ (Finset.range m.vertices.length).image (fun v : Nat => (v : Int)) :=
      Finset.mem_image.2 ⟨v, Finset.mem_range.2 hv, rfl⟩
    rw [← heq] at this
    exact List.mem_toFinset.1 this
  · intro hall
    apply le_antisymm (todo_length_le m st hI)
    rw [← List.toFinset_card_of_nodup hI.2.1, ← card_vertex_image m.vertices.length]
    apply Finset.card_le_card
    intro x hx
    obtain ⟨v, hv, rfl⟩ := Finset.mem_image.1 hx
    exact List.mem_toFinset.2 (hall v (Finset.mem_range.1 hv))

/-- The outer loop of `isConnected` on a mesh that passes `integrityCheck`: with enough
fuel it ends, keeps the state consistent, and afterwards `todo` is closed under going
along a half-edge. -/
theorem connLoop_spec (m : Mesh) (h : m.integrityCheck = true) (inner : Nat)
    (hinner : m.edges.length ≤ inner) (fuel inTodo : Nat) (st : ConnState) (hI : connInv m st)
    (hdone : ∀ (j : Nat) (x b : Int), j < inTodo → st.todo[j]? = some x → m.adjacent x b →
      b ∈ st.todo)
    (hfuel : m.vertices.length + 1 ≤ fuel + inTodo) (hin : inTodo ≤ st.todo.length) :
    ∃ st', connLoop m inner fuel inTodo st = some st' ∧ connInv m st' ∧
      (∃ new, st'.todo = st.todo ++ new) ∧
      ∀ (x b : Int), x ∈ st'.todo → m.adjacent x b → b ∈ st'.todo := by
  induction fuel generalizing inTodo st with
  | zero =>
    have := todo_length_le m st hI
    omega
  | succ f ih =>
    simp only [connLoop]
    by_cases hlt : inTodo < st.todo.length
    · simp only [hlt, if_true, List.getElem?_eq_getElem hlt]
      obtain ⟨hu0, hu1⟩ := hI.2.2.1 _ (List.getElem_mem hlt)
      obtain ⟨u, hu⟩ : ∃ u : Nat, st.todo[inTodo] = (u : Int) := ⟨(st.todo[inTodo]).toNat, by omega⟩
      have huv : u < m.vertices.length := by omega
      have hreach : m.reachable 0 (u : Int) := hu ▸ hI.2.2.2.2.2 _ (List.getElem_mem hlt)
      have hl := integrityCheck_linked m h
      obtain ⟨-, -, hr, -, -, -⟩ := integrityCheck_facts m h (by omega)
      obtain ⟨s, hs, hsn, hsrc, hcard, hret, hfirst⟩ := integrityCheck_start m h u huv
      have hcpos : 0 < edgeCount m.edges (u : Int) := by
        rw [← hcard]
        exact Finset.card_pos.2 ⟨s, Finset.mem_filter.2 ⟨Finset.mem_range.2 hsn, hsrc⟩⟩
      have hcle : edgeCount m.edges (u : Int) ≤ m.edges.length := by
        rw [← hcard]
        exact (Finset.card_filter_le _ _).trans (by rw [Finset.card_range])
      obtain ⟨st1, hw1, hI1, ⟨new1, hnew1⟩, hmem1⟩ := connWalk_spec m hl
        (fun x hx => (hr x hx).1) (u : Int) hreach s _ hsn hsrc hret hfirst inner 0 st hcpos
        (by omega) hI
      have hvtx : idx? m.vertices (st.todo[inTodo]) = some (vertexAt m.vertices (u : Int)) := by
        rw [hu, idx?_natCast]
        simp [vertexAt, List.getD_eq_getElem?_getD, List.getElem?_eq_getElem huv]
      simp only [Function.iterate_zero, id_eq] at hw1
      simp only [hvtx, hs, hw1]
      have hdone1 : ∀ (j : Nat) (x b : Int), j < inTodo + 1 → st1.todo[j]? = some x →
          m.adjacent x b → b ∈ st1.todo := by
        intro j x b hj hx hadj
        have hjl : j < st.todo.length := by omega
        rw [hnew1, List.getElem?_append_left hjl] at hx
        rcases Nat.lt_succ_iff_lt_or_eq.1 hj with hj' | hj'
        · rw [hnew1]
          exact List.mem_append_left _ (hdone j x b hj' hx hadj)
        · subst hj'
          rw [List.getElem?_eq_getElem hlt, Option.some.injEq, hu] at hx
          subst hx
          obtain ⟨i, hi, hisrc, hitgt⟩ := hadj
          obtain ⟨-, hcov⟩ := walk_covers m.edges hl s _ hsn (by rw [hsrc]; exact hcard) hfirst
          obtain ⟨k, hk, hki⟩ := hcov i hi (by rw [hsrc]; exact hisrc)
          rw [← hitgt]
          rcases Nat.eq_zero_or_pos k with hk0 | hk0
          · have : (walkNat m.edges)^[edgeCount m.edges (u : Int)] s = i := by
              rw [hret, ← hki, hk0]
              rfl
            have := hmem1 _ hcpos (le_refl _)
            rwa [‹(walkNat m.edges)^[edgeCount m.edges (u : Int)] s = i›] at this
          · have := hmem1 k hk0 (by omega)
            rwa [hki] at this
      obtain ⟨st2, hc2, hI2, ⟨new2, hnew2⟩, hclosed⟩ := ih (inTodo + 1) st1 hI1 hdone1 (by omega)
        (by rw [hnew1, List.length_append]; omega)
      exact ⟨st2, hc2, hI2, ⟨new1 ++ new2, by rw [hnew2, hnew1, List.append_assoc]⟩, hclosed⟩
    · simp only [hlt, if_false]
      refine ⟨st, rfl, hI, ⟨[], by simp⟩, ?_⟩
      intro x b hx hadj
      obtain ⟨j, hj, hjx⟩ := List.getElem_of_mem hx
      exact hdone j x b (by omega) (by rw [List.getElem?_eq_getElem hj, hjx]) hadj

/-- The state in which `isConnected` enters its outer loop is consistent. -/
theorem connInv_init (m : Mesh) (hv : 0 < m.vertices.length) :
    connInv m { reached := (List.replicate m.vertices.length false).set 0 true,
                todo := [0], reachedCount := 1 } := by
  refine ⟨by simp, List.nodup_singleton _, ?_, ?_, rfl, ?_⟩
  · intro x hx
    have : x = 0 := by simpa using hx
    omega
  · intro v hv'
    by_cases h0 : v = 0
    · subst h0
      simp [List.getElem?_set_self, hv]
    · rw [List.getElem?_set_ne (fun e => h0 e.symm), List.getElem?_replicate]
      have : (v : Int) ≠ 0 := by omega
      simp [hv', this]
  · intro x hx
    have : x = 0 := by simpa using hx
    rw [this]
    exact Relation.ReflTransGen.refl

/-- C5: for every mesh that passes `integrityCheck` and has at least one vertex,
`isConnected` ends (any fuel above the number of vertices plus the number of half-edges
suffices for its loops) and returns true if and only if every vertex can be reached from
vertex 0 along half-edges; for a mesh with no vertices it returns false. -/
theorem isConnected_iff_reachable (m : Mesh) (fuel : Nat) :
    (m.vertices.length = 0 → m.isConnected fuel = some false) ∧
    (m.integrityCheck = true → 0 < m.vertices.length →
      m.vertices.length + m.edges.length < fuel →
      ∃ b, m.isConnected fuel = some b ∧
        (b = true ↔ ∀ v : Nat, v < m.vertices.length → m.reachable 0 (v : Int))) := by
  constructor
  · intro h0
    simp only [Mesh.isConnected, h0, if_true]
  · intro h hv hfuel
    obtain ⟨st, hst, hI, ⟨new, hnew⟩, hclosed⟩ := connLoop_spec m h fuel (by omega) fuel 0 _
      (connInv_init m hv) (fun j x b hj => by omega) (by omega) (Nat.zero_le _)
    refine ⟨decide (st.reachedCount = m.vertices.length), ?_, ?_⟩
    · simp only [Mesh.isConnected, show m.vertices.length ≠ 0 by omega, if_false, hst]
    · rw [decide_eq_true_eq, hI.2.2.2.2.1, todo_full_iff m st hI]
      have hzero : (0 : Int) ∈ st.todo := by
        rw [hnew]
        simp
      constructor
      · intro hall v hv'
        exact hI.2.2.2.2.2 _ (hall v hv')
      · intro hall v hv'
        have hreach := hall v hv'
        have key : ∀ x : Int, m.reachable 0 x → x ∈ st.todo := by
          intro x hx
          induction hx with
          | refl => exact hzero
          | tail _ hadj ih => exact hclosed _ _ ih hadj
        exact key _ hreach

/-- C5, instances: the tetrahedron (connected), two separate tetrahedra (`isConnected`
returns false, so some vertex cannot be reached from vertex 0), and the empty mesh. -/
theorem isConnected_iff_reachable_witness :
    (tetraMesh.integrityCheck = true ∧ 0 < tetraMesh.vertices.length ∧
      tetraMesh.vertices.length + tetraMesh.edges.length < 20 ∧
      ∃ b, tetraMesh.isConnected 20 = some b ∧
        (b = true ↔ ∀ v : Nat, v < tetraMesh.vertices.length → tetraMesh.reachable 0 (v : Int))) ∧
    (twoTetraMesh.integrityCheck = true ∧ twoTetraMesh.isConnected 40 = some false ∧
      ∃ b, twoTetraMesh.isConnected 40 = some b ∧
        (b = true ↔
          ∀ v : Nat, v < twoTetraMesh.vertices.length → twoTetraMesh.reachable 0 (v : Int))) ∧
    Mesh.isConnected 0 {} = some false :=
  ⟨⟨by decide, by decide, by decide,
      (isConnected_iff_reachable tetraMesh 20).2 (by decide) (by decide) (by decide)⟩,
    ⟨by decide, by decide,
      (isConnected_iff_reachable twoTetraMesh 40).2 (by decide) (by decide) (by decide)⟩,
    (isConnected_iff_reachable {} 0).1 rfl⟩

/-! ### Quaternion and Transform -/

/-- Applying a quaternion is linear in the vector. -/
theorem Quaternion.apply_linear (q : Quaternion) (a b : Vector3) (c : ℚ) :
    q.apply ((Vector3.smul c a).add b) = (Vector3.smul c (q.apply a)).add (q.apply b) := by
  simp only [Quaternion.apply, Vector3.add, Vector3.smul, Prod.mk.injEq]
  refine ⟨?_, ?_, ?_⟩ <;> ring

/-- For unit quaternions, applying a product is applying the factors one after the other. -/
theorem Quaternion.rotate_mul (p q : Quaternion) (hp : p.isUnit) (hq : q.isUnit) (a : Vector3) :
    (p.mul q).apply a = p.apply (q.apply a) := by
  obtain ⟨pr, px, py, pz⟩ := p
  obtain ⟨qr, qx, qy, qz⟩ := q
  obtain ⟨a1, a2, a3⟩ := a
  simp only [Quaternion.isUnit, Vector3.dot] at hp hq
  simp only [Quaternion.apply, Quaternion.mul, Vector3.add, Vector3.smul, Vector3.dot,
    Vector3.cross, Prod.mk.injEq]
  refine ⟨?_, ?_, ?_⟩
  · linear_combination (((qr^2 + qx^2 - qy^2 - qz^2) * a1 + 2 * (qx * qy - qr * qz) * a2 + 2 * (qx * qz + qr * qy) * a3) - (2 * (qr^2 + qx^2 + qy^2 + qz^2) - 1) * a1) * hp +
      (((pr^2 + px^2 - py^2 - pz^2) * a1 + 2 * (px * py - pr * pz) * a2 + 2 * (px * pz + pr * py) * a3) - a1) * hq
  · linear_combination ((2 * (qx * qy + qr * qz) * a1 + (qr^2 - qx^2 + qy^2 - qz^2) * a2 + 2 * (qy * qz - qr * qx) * a3) - (2 * (qr^2 + qx^2 + qy^2 + qz^2) - 1) * a2) * hp +
      ((2 * (px * py + pr * pz) * a1 + (pr^2 - px^2 + py^2 - pz^2) * a2 + 2 * (py * pz - pr * px) * a3) - a2) * hq
  · linear_combination ((2 * (qx * qz - qr * qy) * a1 + 2 * (qy * qz + qr * qx) * a2 + (qr^2 - qx^2 - qy^2 + qz^2) * a3) - (2 * (qr^2 + qx^2 + qy^2 + qz^2) - 1) * a3) * hp +
      ((2 * (px * pz - pr * py) * a1 + 2 * (py * pz + pr * px) * a2 + (pr^2 - px^2 - py^2 + pz^2) * a3) - a3) * hq

/-- Composition and application of transforms whose rotations are unit quaternions. -/
theorem Transform.compose_apply (a b : Transform) (v : Vector3) (ha : a.rot.isUnit)
    (hb : b.rot.isUnit) : (a.mul b).apply v = a.apply (b.apply v) := by
  simp only [Transform.apply, Transform.mul]
  rw [Quaternion.rotate_mul _ _ ha hb]
  obtain ⟨⟨ar, ax, ay, az⟩, sa, t1, t2, t3⟩ := a
  obtain ⟨⟨br, bx, b_y, bz⟩, sb, u1, u2, u3⟩ := b
  obtain ⟨v1, v2, v3⟩ := v
  simp only [Quaternion.apply, Vector3.add, Vector3.smul, Prod.mk.injEq]
  refine ⟨?_, ?_, ?_⟩ <;> ring

/-- C19: a transform maps `v` to `rot * (scale * v) + trans`, and for all transforms `A`
and `B` whose rotations are unit quaternions and every vector `v`,
`(A * B) * v = A * (B * v)`. -/
theorem transform_compose_apply (a b : Transform) (v : Vector3) (ha : a.rot.isUnit)
    (hb : b.rot.isUnit) :
    a.apply v = (a.rot.apply (Vector3.smul a.scale v)).add a.trans ∧
    (a.mul b).apply v = a.apply (b.apply v) :=
  ⟨rfl, Transform.compose_apply a b v ha hb⟩

/-- C19, instance: two rational rotations with scales 2 and 1/3. -/
theorem transform_compose_apply_witness :
    sampleTransformA.rot.isUnit ∧ sampleTransformB.rot.isUnit ∧
    sampleTransformA.apply (1, 2, 3) =
      (sampleTransformA.rot.apply (Vector3.smul sampleTransformA.scale (1, 2, 3))).add
        sampleTransformA.trans ∧
    (sampleTransformA.mul sampleTransformB).apply (1, 2, 3) =
      sampleTransformA.apply (sampleTransformB.apply (1, 2, 3)) :=
  have ha : sampleTransformA.rot.isUnit := by
    norm_num [sampleTransformA, Quaternion.isUnit, Vector3.dot]
  have hb : sampleTransformB.rot.isUnit := by
    norm_num [sampleTransformB, Quaternion.isUnit, Vector3.dot]
  ⟨ha, hb, transform_compose_apply sampleTransformA sampleTransformB (1, 2, 3) ha hb⟩

/-! ### Attachment weights -/

theorem storeBone_getElem? (j : Int) (rhs : Nat → ℚ) (i0 : Nat) (nz : List (List (Int × ℚ)))
    (i : Nat) :
    (storeBone j rhs i0 nz)[i]? = nz[i]?.map (clipStore j (rhs (i0 + i))) := by
  induction nz generalizing i0 i with
  | nil => simp [storeBone]
  | cons r rest ih =>
    cases i with
    | zero => simp [storeBone]
    | succ i =>
      simp only [storeBone, List.getElem?_cons_succ, ih]
      rw [show i0 + 1 + i = i0 + (i + 1) by omega]

/-- The loop over the bones handles each vertex on its own. -/
theorem storeBones_getElem? (solved : Nat → Nat → ℚ) (k j : Nat) (nz : List (List (Int × ℚ)))
    (i : Nat) :
    (storeBones solved k j nz)[i]? = nz[i]?.map (storedRow solved i k j) := by
  induction k generalizing j nz with
  | zero =>
    simp only [storeBones, storedRow]
    cases nz[i]? <;> rfl
  | succ k ih =>
    simp only [storeBones, ih, storeBone_getElem?, Nat.zero_add, Option.map_map]
    cases nz[i]? <;> rfl

theorem storeBone_length (j : Int) (rhs : Nat → ℚ) (i0 : Nat) (nz : List (List (Int × ℚ))) :
    (storeBone j rhs i0 nz).length = nz.length := by
  induction nz generalizing i0 with
  | nil => rfl
  | cons r rest ih => simp [storeBone, ih]

theorem storeBones_length (solved : Nat → Nat → ℚ) (k j : Nat) (nz : List (List (Int × ℚ))) :
    (storeBones solved k j nz).length = nz.length := by
  induction k generalizing j nz with
  | zero => rfl
  | succ k ih => simp [storeBones, ih, storeBone_length]

theorem rowOk_mono (j : Nat) (nz : List (Int × ℚ)) (h : rowOk j nz) : rowOk (j + 1) nz := by
  refine ⟨h.1, ?_⟩
  intro p hp
  obtain ⟨a, b, c⟩ := h.2 p hp
  exact ⟨a, by push_cast; omega, c⟩

theorem clipStore_eq (j : Int) (x : ℚ) (nz : List (Int × ℚ)) :
    (clipStore j x nz = nz ∧ ¬ (1 : ℚ) / 100000000 < x) ∨
    (∃ y : ℚ, clipStore j x nz = nz ++ [(j, y)] ∧ (1 : ℚ) / 100000000 < y ∧
      (1 : ℚ) / 100000000 < x) := by
  unfold clipStore
  dsimp only
  by_cases hbig : x > 1
  · right
    refine ⟨1, ?_, by norm_num, by linarith⟩
    rw [if_pos hbig, if_pos (by norm_num)]
  · rw [if_neg hbig]
    by_cases hx : x > 1 / 100000000
    · right
      exact ⟨x, by rw [if_pos hx], hx, hx⟩
    · left
      exact ⟨by rw [if_neg hx], hx⟩

theorem rowOk_clipStore (j : Nat) (x : ℚ) (nz : List (Int × ℚ)) (h : rowOk j nz) :
    rowOk (j + 1) (clipStore (j : Int) x nz) := by
  rcases clipStore_eq (j : Int) x nz with ⟨e, _⟩ | ⟨y, e, hy, _⟩
  · rw [e]
    exact rowOk_mono j nz h
  · rw [e]
    refine ⟨?_, ?_⟩
    · rw [List.map_append, List.pairwise_append]
      refine ⟨h.1, by simp, ?_⟩
      intro a ha b hb
      obtain ⟨p, hp, rfl⟩ := List.mem_map.1 ha
      have : b = (j : Int) := by simpa using hb
      rw [this]
      exact (h.2 p hp).2.1
    · intro p hp
      rcases List.mem_append.1 hp with hp | hp
      · exact (rowOk_mono j nz h).2 p hp
      · have : p = ((j : Int), y) := by simpa using hp
        rw [this]
        exact ⟨by simp, by push_cast; omega, hy⟩

/-- The stored pairs of a vertex after the loop over the bones: well-formed, and empty
exactly when no solver output for this vertex exceeds `1e-8`. -/
theorem storedRow_spec (solved : Nat → Nat → ℚ) (i k j : Nat) (nz : List (Int × ℚ))
    (h : rowOk j nz) :
    rowOk (j + k) (storedRow solved i k j nz) ∧
    (storedRow solved i k j nz = [] ↔
      nz = [] ∧ ∀ j' : Nat, j ≤ j' → j' < j + k → ¬ (1 : ℚ) / 100000000 < solved j' i) := by
  induction k generalizing j nz with
  | zero =>
    simp only [storedRow, Nat.add_zero]
    refine ⟨h, ?_⟩
    constructor
    · intro e
      exact ⟨e, fun j' h1 h2 => by omega⟩
    · intro e
      exact e.1
  | succ k ih =>
    obtain ⟨h1, h2⟩ := ih (j + 1) _ (rowOk_clipStore j (solved j i) nz h)
    simp only [storedRow]
    rw [show j + (k + 1) = j + 1 + k by omega]
    refine ⟨h1, ?_⟩
    rw [h2]
    have hclip : clipStore (j : Int) (solved j i) nz = [] ↔
        nz = [] ∧ ¬ (1 : ℚ) / 100000000 < solved j i := by
      rcases clipStore_eq (j : Int) (solved j i) nz with ⟨e, hx⟩ | ⟨y, e, _, hx⟩
      · rw [e]
        exact ⟨fun h0 => ⟨h0, hx⟩, fun h0 => h0.1⟩
      · rw [e]
        constructor
        · intro h0
          simp at h0
        · intro h0
          exact absurd hx h0.2
    rw [hclip]
    constructor
    · rintro ⟨⟨e, hj⟩, hrest⟩
      refine ⟨e, ?_⟩
      intro j' hj1 hj2
      rcases Nat.eq_or_lt_of_le hj1 with heq | hlt
      · rw [← heq]
        exact hj
      · exact hrest j' hlt hj2
    · rintro ⟨e, hall⟩
      exact ⟨⟨e, hall j (le_refl _) (by omega)⟩, fun j' hj1 hj2 => hall j' (by omega) hj2⟩
theorem sum_set_zero (l : List ℚ) (i : Nat) (a : ℚ) (h : l[i]? = some 0) :
    (l.set i a).sum = l.sum + a := by
  induction l generalizing i with
  | nil => simp at h
  | cons x rest ih =>
    cases i with
    | zero =>
      simp only [List.getElem?_cons_zero, Option.some.injEq] at h
      simp [h, add_comm]
    | succ i =>
      simp only [List.getElem?_cons_succ] at h
      simp only [List.set_cons_succ, List.sum_cons, ih i h]
      ring

theorem weightSum_cons (p : Int × ℚ) (nz : List (Int × ℚ)) :
    weightSum (p :: nz) = p.2 + weightSum nz := by
  simp [weightSum]

theorem weightSum_pos (nz : List (Int × ℚ)) (h : ∀ p ∈ nz, 0 < p.2) (hne : nz ≠ []) :
    0 < weightSum nz := by
  induction nz with
  | nil => exact absurd rfl hne
  | cons p rest ih =>
    rw [weightSum_cons]
    have hp := h p (List.mem_cons_self _ _)
    by_cases hr : rest = []
    · subst hr
      simpa [weightSum] using hp
    · have := ih (fun q hq => h q (List.mem_cons_of_mem _ hq)) hr
      linarith

theorem weightSum_div (nz : List (Int × ℚ)) (sum : ℚ) :
    weightSum (nz.map (fun p => (p.1, p.2 / sum))) = weightSum nz / sum := by
  induction nz with
  | nil => simp [weightSum]
  | cons p rest ih =>
    rw [List.map_cons, weightSum_cons, weightSum_cons, ih]
    ring

/-- The normalisation of one vertex with a positive sum: every stored weight is divided
by the sum and written into the dense weights, which were zero at the stored bones. -/
theorem normalizeRow_spec (sum : ℚ) (hsum : 0 < sum) (nz : List (Int × ℚ)) (w : List ℚ)
    (hkeys : (nz.map (fun p => p.1)).Pairwise (fun a b => a < b))
    (hnz : ∀ p ∈ nz, 0 ≤ p.1 ∧ p.1 < (w.length : Int) ∧ 0 < p.2 ∧ w[p.1.toNat]? = some 0)
    (hw : ∀ x ∈ w, 0 ≤ x) :
    ∃ w', normalizeRow sum nz w = some (nz.map (fun p => (p.1, p.2 / sum)), w') ∧
      w'.length = w.length ∧ (∀ x ∈ w', 0 ≤ x) ∧ w'.sum = w.sum + weightSum nz / sum := by
  induction nz generalizing w with
  | nil => exact ⟨w, rfl, rfl, hw, by simp [weightSum]⟩
  | cons p rest ih =>
    obtain ⟨b, x⟩ := p
    obtain ⟨h0, h1, hx, hz⟩ := hnz (b, x) (List.mem_cons_self _ _)
    have hb : b.toNat < w.length := by omega
    rw [List.map_cons, List.pairwise_cons] at hkeys
    have hw1 : ∀ y ∈ w.set b.toNat (x / sum), 0 ≤ y := by
      intro y hy
      rcases List.mem_or_eq_of_mem_set hy with hy | hy
      · exact hw y hy
      · rw [hy]
        exact le_of_lt (div_pos hx hsum)
    obtain ⟨w', e, hl, hpos, hs⟩ := ih (w.set b.toNat (x / sum)) hkeys.2 (by
      intro q hq
      obtain ⟨q0, q1, qx, qz⟩ := hnz q (List.mem_cons_of_mem _ hq)
      have hlt : b < q.1 := hkeys.1 q.1 (List.mem_map.2 ⟨q, hq, rfl⟩)
      refine ⟨q0, by rw [List.length_set]; exact q1, qx, ?_⟩
      rw [List.getElem?_set_ne (by omega)]
      exact qz) hw1
    refine ⟨w', ?_, by rw [hl, List.length_set], hpos, ?_⟩
    · simp only [normalizeRow, ne_of_gt hsum, if_false, upd?, h0, hb, and_self, if_true, e,
        List.map_cons]
    · rw [hs, sum_set_zero w _ _ hz, weightSum_cons]
      ring

/-- The loop over the vertices normalises each row on its own. -/
theorem normalizeRows_spec (nzs : List (List (Int × ℚ))) (ws : List (List ℚ))
    (hlen : nzs.length = ws.length)
    (hrow : ∀ (i : Nat) (nz : List (Int × ℚ)) (w : List ℚ), nzs[i]? = some nz →
      ws[i]? = some w → ∃ r, normalizeRow (weightSum nz) nz w = some r) :
    ∃ nzs' ws', normalizeRows nzs ws = some (nzs', ws') ∧ nzs'.length = nzs.length ∧
      ws'.length = ws.length ∧
      ∀ (i : Nat) (nz : List (Int × ℚ)) (w : List ℚ), nzs[i]? = some nz → ws[i]? = some w →
        ∃ r, normalizeRow (weightSum nz) nz w = some r ∧ nzs'[i]? = some r.1 ∧
          ws'[i]? = some r.2 := by
  induction nzs generalizing ws with
  | nil =>
    cases ws with
    | nil => exact ⟨[], [], rfl, rfl, rfl, fun i nz w h => by simp at h⟩
    | cons w ws => simp at hlen
  | cons nz nzs ih =>
    cases ws with
    | nil => simp at hlen
    | cons w ws =>
      obtain ⟨r, hr⟩ := hrow 0 nz w (by simp) (by simp)
      obtain ⟨nzs', ws', e, l1, l2, hs⟩ := ih ws (by simpa using hlen)
        (fun i nz w h1 h2 => hrow (i + 1) nz w (by simpa using h1) (by simpa using h2))
      refine ⟨r.1 :: nzs', r.2 :: ws', ?_, by simp [l1], by simp [l2], ?_⟩
      · simp only [normalizeRows, hr, e]
      · intro i nz1 w1 h1 h2
        cases i with
        | zero =>
          simp only [List.getElem?_cons_zero, Option.some.injEq] at h1 h2
          subst h1
          subst h2
          exact ⟨r, hr, by simp, by simp⟩
        | succ i =>
          simp only [List.getElem?_cons_succ] at h1 h2 ⊢
          exact hs i nz1 w1 h1 h2
/-! ### Deformation -/

theorem Vector3.add_assoc3 (a b c : Vector3) : (a.add b).add c = a.add (b.add c) := by
  obtain ⟨a1, a2, a3⟩ := a
  obtain ⟨b1, b2, b3⟩ := b
  obtain ⟨c1, c2, c3⟩ := c
  simp [Vector3.add, add_assoc]

theorem Vector3.add_zero3 (a : Vector3) : a.add (0, 0, 0) = a := by
  obtain ⟨a1, a2, a3⟩ := a
  simp [Vector3.add]

theorem Vector3.zero_add3 (a : Vector3) : Vector3.add (0, 0, 0) a = a := by
  obtain ⟨a1, a2, a3⟩ := a
  simp [Vector3.add]

/-- The accumulation loop of `deform` at one vertex adds the weighted sum to `newPos`. -/
theorem blend_spec (transforms : List Transform) (pos : Vector3) (nz : List (Int × ℚ))
    (newPos : Vector3) (h : ∀ p ∈ nz, 0 ≤ p.1 ∧ p.1 < (transforms.length : Int)) :
    blend transforms pos nz newPos = some (newPos.add (weightedSum transforms pos nz)) := by
  induction nz generalizing newPos with
  | nil => rw [blend, weightedSum, Vector3.add_zero3]
  | cons p rest ih =>
    obtain ⟨b, w⟩ := p
    obtain ⟨h0, h1⟩ := h (b, w) (List.mem_cons_self _ _)
    obtain ⟨t, ht⟩ := idx?_isSome transforms b h0 h1
    simp only [blend, weightedSum, ht]
    rw [ih _ (fun p hp => h p (List.mem_cons_of_mem _ hp)), Vector3.add_assoc3]

/-- The loop of `deform` over the vertices: vertex `i0 + i` gets the weighted sum of its
stored pairs, everything else of the vertex is kept. -/
theorem deformLoop_spec (transforms : List Transform) (nzweights : List (List (Int × ℚ)))
    (i0 : Nat) (vs : List MeshVertex) (hlen : i0 + vs.length ≤ nzweights.length)
    (h : ∀ nz ∈ nzweights, ∀ p ∈ nz, 0 ≤ p.1 ∧ p.1 < (transforms.length : Int)) :
    ∃ vs', deformLoop transforms nzweights i0 vs = some vs' ∧ vs'.length = vs.length ∧
      ∀ (i : Nat) (v : MeshVertex) (nz : List (Int × ℚ)), vs[i]? = some v →
        nzweights[i0 + i]? = some nz →
        vs'[i]? = some { v with pos := weightedSum transforms v.pos nz } := by
  induction vs generalizing i0 with
  | nil => exact ⟨[], rfl, rfl, fun i v nz hv => by simp at hv⟩
  | cons v rest ih =>
    have hi0 : i0 < nzweights.length := by simp at hlen; omega
    obtain ⟨vs', e, hl, hs⟩ := ih (i0 + 1) (by simp at hlen ⊢; omega)
    have hmem : ∀ p ∈ nzweights[i0], 0 ≤ p.1 ∧ p.1 < (transforms.length : Int) :=
      h _ (List.getElem_mem _)
    refine ⟨{ v with pos := weightedSum transforms v.pos nzweights[i0] } :: vs', ?_, by simp [hl], ?_⟩
    · simp only [deformLoop, List.getElem?_eq_getElem hi0, blend_spec transforms v.pos _ _ hmem,
        e, Vector3.zero_add3]
    · intro i w nz hw hnz
      cases i with
      | zero =>
        simp only [List.getElem?_cons_zero, Option.some.injEq] at hw
        rw [Nat.add_zero, List.getElem?_eq_getElem hi0, Option.some.injEq] at hnz
        subst hw
        subst hnz
        simp
      | succ i =>
        simp only [List.getElem?_cons_succ] at hw ⊢
        exact hs i w nz hw (by rw [← hnz]; congr 1; omega)

theorem map_pos_set (vs : List MeshVertex) (j : Nat) (p q : MeshVertex) (hp : vs[j]? = some p)
    (hq : q.pos = p.pos) :
    (vs.set j q).map (fun v => v.pos) = vs.map (fun v => v.pos) := by
  apply List.ext_getElem?
  intro n
  simp only [List.getElem?_map, List.getElem?_set]
  by_cases hn : j = n
  · subst hn
    have hj : j < vs.length := (List.getElem?_eq_some.1 hp).1
    simp [hj, hp, hq]
  · simp [hn]

/-- Adding a normal at a vertex in range succeeds and keeps every position. -/
theorem upd?_normal (vs : List MeshVertex) (j : Int) (n : Vector3 → Vector3)
    (h0 : 0 ≤ j) (h1 : j < (vs.length : Int)) :
    ∃ p vs', idx? vs j = some p ∧ upd? vs j { p with normal := n p.normal } = some vs' ∧
      vs'.map (fun v => v.pos) = vs.map (fun v => v.pos) ∧ vs'.length = vs.length := by
  obtain ⟨p, hp⟩ := idx?_isSome vs j h0 h1
  have hp' := ((idx?_eq_some vs j p).1 hp).2
  have hj : j.toNat < vs.length := by omega
  refine ⟨p, vs.set j.toNat { p with normal := n p.normal }, hp, ?_, ?_, by simp⟩
  · simp [upd?, h0, hj]
  · exact map_pos_set vs j.toNat p _ hp' rfl

/-- The loop over the triangles of `computeVertexNormals` returns and keeps the positions,
when the half-edges come in triples and point to existing vertices. -/
theorem faceNormalLoop_spec (vnormalize : Vector3 → Vector3) (edges : List MeshEdge)
    (k i : Nat) (vs : List MeshVertex) (hk : i + 3 * k ≤ edges.length)
    (h : ∀ e ∈ edges, 0 ≤ e.vertex ∧ e.vertex < (vs.length : Int)) :
    ∃ vs', faceNormalLoop vnormalize edges k i vs = some vs' ∧
      vs'.map (fun v => v.pos) = vs.map (fun v => v.pos) := by
  induction k generalizing i vs with
  | zero => exact ⟨vs, rfl, rfl⟩
  | succ k ih =>
    have hi1 : i < edges.length := by omega
    have hi2 : i + 1 < edges.length := by omega
    have hi3 : i + 2 < edges.length := by omega
    obtain ⟨a1, b1⟩ := h _ (List.getElem_mem hi1)
    obtain ⟨a2, b2⟩ := h _ (List.getElem_mem hi2)
    obtain ⟨a3, b3⟩ := h _ (List.getElem_mem hi3)
    obtain ⟨p2, hp2⟩ := idx?_isSome vs _ a2 b2
    obtain ⟨p3, hp3⟩ := idx?_isSome vs _ a3 b3
    obtain ⟨p1, hp1⟩ := idx?_isSome vs _ a1 b1
    obtain ⟨p1', vs1, hp1', e1, m1, l1⟩ := upd?_normal vs edges[i].vertex
      (fun x => x.add (vnormalize ((p2.pos.sub p1.pos).cross (p3.pos.sub p1.pos)))) a1 b1
    have hpp : p1' = p1 := by rw [hp1] at hp1'; exact (Option.some.inj hp1').symm
    rw [hpp] at e1
    clear hp1' hpp
    have a2' : edges[i + 1].vertex < (vs1.length : Int) := by rw [l1]; exact b2
    obtain ⟨q2, vs2, hq2, e2, m2, l2⟩ := upd?_normal vs1 edges[i + 1].vertex
      (fun x => x.add (vnormalize ((p2.pos.sub p1.pos).cross (p3.pos.sub p1.pos)))) a2 a2'
    have a3' : edges[i + 2].vertex < (vs2.length : Int) := by rw [l2, l1]; exact b3
    obtain ⟨q3, vs3, hq3, e3, m3, l3⟩ := upd?_normal vs2 edges[i + 2].vertex
      (fun x => x.add (vnormalize ((p2.pos.sub p1.pos).cross (p3.pos.sub p1.pos)))) a3 a3'
    obtain ⟨vs', e, m⟩ := ih (i + 3) vs3 (by omega)
      (fun x hx => by rw [l3, l2, l1]; exact h x hx)
    refine ⟨vs', ?_, by rw [m, m3, m2, m1]⟩
    simp only [faceNormalLoop, List.getElem?_eq_getElem hi1, List.getElem?_eq_getElem hi2,
      List.getElem?_eq_getElem hi3, hp1, hp2, hp3, e1, hq2, e2, hq3, e3, e]

/-- Mesh::computeVertexNormals returns and keeps the positions, when the half-edges come in
triples and point to existing vertices. -/
theorem computeVertexNormals_positions (vnormalize : Vector3 → Vector3) (m : Mesh)
    (h3 : m.edges.length % 3 = 0)
    (h : ∀ e ∈ m.edges, 0 ≤ e.vertex ∧ e.vertex < (m.vertices.length : Int)) :
    ∃ out, Mesh.computeVertexNormals vnormalize m = some out ∧
      out.vertices.map (fun v => v.pos) = m.vertices.map (fun v => v.pos) := by
  obtain ⟨vs, e, hm⟩ := faceNormalLoop_spec vnormalize m.edges ((m.edges.length + 2) / 3) 0
    (m.vertices.map (fun v => { v with normal := (0, 0, 0) })) (by omega)
    (fun x hx => by rw [List.length_map]; exact h x hx)
  refine ⟨{ m with vertices := vs.map (fun v => { v with normal := vnormalize v.normal }) },
    by simp only [Mesh.computeVertexNormals, e], ?_⟩
  simp only [List.map_map] at hm ⊢
  exact hm

/-- AttachmentPrivate1::deform on a mesh with as many vertices as the attachment: it
returns, and every vertex gets the weighted sum of its stored pairs as position. -/
theorem deform_spec (vnormalize : Vector3 → Vector3) (a : Attachment) (mesh : Mesh)
    (transforms : List Transform) (hsize : mesh.vertices.length = a.weights.length)
    (hnz : a.nzweights.length = a.weights.length) (hb : bonesInRange a transforms)
    (h3 : mesh.edges.length % 3 = 0) (hv : verticesInRange mesh) :
    ∃ out, Attachment.deform vnormalize a mesh transforms = some out ∧
      out.vertices.length = mesh.vertices.length ∧
      ∀ (i : Nat) (v : MeshVertex) (nz : List (Int × ℚ)), mesh.vertices[i]? = some v →
        a.nzweights[i]? = some nz →
        ∃ v', out.vertices[i]? = some v' ∧ v'.pos = weightedSum transforms v.pos nz := by
  obtain ⟨vs, e, hl, hs⟩ := deformLoop_spec transforms a.nzweights 0 mesh.vertices
    (by omega) hb
  obtain ⟨out, eo, hm⟩ := computeVertexNormals_positions vnormalize
    { mesh with vertices := vs } h3 (fun x hx => by rw [hl]; exact hv x hx)
  have hlen : out.vertices.length = mesh.vertices.length := by
    have := congrArg List.length hm
    simp only [List.length_map] at this
    rw [this, hl]
  refine ⟨out, ?_, hlen, ?_⟩
  · simp only [Attachment.deform, hsize, ne_eq, not_true_eq_false, if_false, e, eo]
  · intro i v nz hvi hnzi
    have h1 := hs i v nz hvi (by rw [Nat.zero_add]; exact hnzi)
    have hi : i < out.vertices.length := by
      rw [hlen]; exact (List.getElem?_eq_some.1 hvi).1
    refine ⟨out.vertices[i], List.getElem?_eq_getElem hi, ?_⟩
    have h2 := congrArg (fun l => l[i]?) hm
    simp only [List.getElem?_map, List.getElem?_eq_getElem hi, h1, Option.map_some'] at h2
    exact Option.some.inj h2
theorem weightedSum_const (transforms : List Transform) (T : Transform) (pos : Vector3)
    (nz : List (Int × ℚ)) (hT : ∀ t ∈ transforms, t = T)
    (h : ∀ p ∈ nz, 0 ≤ p.1 ∧ p.1 < (transforms.length : Int)) :
    weightedSum transforms pos nz = Vector3.smul (weightSum nz) (T.apply pos) := by
  induction nz with
  | nil => simp [weightedSum, weightSum, Vector3.smul]
  | cons p rest ih =>
    obtain ⟨b, w⟩ := p
    obtain ⟨h0, h1⟩ := h (b, w) (List.mem_cons_self _ _)
    obtain ⟨t, ht⟩ := idx?_isSome transforms b h0 h1
    have hmem : t ∈ transforms := by
      obtain ⟨hlt, heq⟩ := List.getElem?_eq_some.1 ((idx?_eq_some transforms b t).1 ht).2
      rw [← heq]
      exact List.getElem_mem _
    rw [hT t hmem] at ht
    simp only [weightedSum, ht, ih (fun p hp => h p (List.mem_cons_of_mem _ hp)),
      weightSum_cons]
    generalize T.apply pos = q
    obtain ⟨q1, q2, q3⟩ := q
    simp only [Vector3.smul, Vector3.add, Prod.mk.injEq]
    refine ⟨by ring, by ring, by ring⟩

theorem Transform.apply_identity (pos : Vector3) : Transform.apply {} pos = pos := by
  obtain ⟨p1, p2, p3⟩ := pos
  simp [Transform.apply, Quaternion.apply, Vector3.smul, Vector3.add]

theorem Vector3.one_smul3 (a : Vector3) : Vector3.smul 1 a = a := by
  obtain ⟨a1, a2, a3⟩ := a
  simp [Vector3.smul]

/-- C16, the claim as written fails: with one bone and a solver output of zero, the only
vertex gets no stored weight, and its weights sum to 0, not to 1. -/
theorem build_zero_outputs_sum_zero :
    Attachment.build 1 1 true zeroOutputs = some { weights := [[0]], nzweights := [[]] } ∧
    ([0] : List ℚ).sum ≠ 1 := by
  constructor
  · decide!
  · norm_num

/-- C16, amended: for an attachment built with at least one bone and a factored matrix,
whatever the solver outputs, all weights of every vertex are non-negative and agree in sum
with its stored pairs; they sum to 1 when some solver output for the vertex exceeds `1e-8`,
and otherwise the vertex has no stored pair and its weights sum to 0. -/
theorem build_weights_normalized (nv bones : Nat) (solved : Nat → Nat → ℚ) (hb : 0 < bones) :
    ∃ a, Attachment.build nv bones true solved = some a ∧ a.weights.length = nv ∧
      a.nzweights.length = nv ∧
      ∀ i : Nat, i < nv → ∃ w nz, a.weights[i]? = some w ∧ a.nzweights[i]? = some nz ∧
        (∀ x ∈ w, 0 ≤ x) ∧ (∀ p ∈ nz, 0 < p.2) ∧ w.sum = weightSum nz ∧
        ((∃ j : Nat, j < bones ∧ (1 : ℚ) / 100000000 < solved j i) → w.sum = 1) ∧
        ((∀ j : Nat, j < bones → ¬ (1 : ℚ) / 100000000 < solved j i) → nz = [] ∧ w.sum = 0) := by
  have hrows : ∀ (i : Nat) (nz : List (Int × ℚ)),
      (storeBones solved bones 0 (List.replicate nv ([] : List (Int × ℚ))))[i]? = some nz →
      i < nv ∧ nz = storedRow solved i bones 0 [] := by
    intro i nz h
    rw [storeBones_getElem?] at h
    by_cases hi : i < nv
    · rw [List.getElem?_replicate, if_pos hi] at h
      exact ⟨hi, (Option.some.inj h).symm⟩
    · rw [List.getElem?_replicate, if_neg hi] at h
      simp at h
  have hok : ∀ i : Nat, rowOk (0 + bones) (storedRow solved i bones 0 []) ∧
      (storedRow solved i bones 0 [] = [] ↔
        ([] : List (Int × ℚ)) = [] ∧
          ∀ j' : Nat, 0 ≤ j' → j' < 0 + bones → ¬ (1 : ℚ) / 100000000 < solved j' i) :=
    fun i => storedRow_spec solved i bones 0 [] ⟨by simp, by simp⟩
  have hrowspec : ∀ (i : Nat) (nz : List (Int × ℚ)) (w : List ℚ),
      (storeBones solved bones 0 (List.replicate nv ([] : List (Int × ℚ))))[i]? = some nz →
      (List.replicate nv (List.replicate bones (0 : ℚ)))[i]? = some w →
      ∃ w', normalizeRow (weightSum nz) nz w =
          some (nz.map (fun p => (p.1, p.2 / weightSum nz)), w') ∧
        (∀ x ∈ w', 0 ≤ x) ∧ w'.sum = (if nz = [] then 0 else 1) ∧
        (∀ p ∈ nz, 0 < p.2) := by
    intro i nz w h1 h2
    obtain ⟨hi, rfl⟩ := hrows i nz h1
    rw [List.getElem?_replicate, if_pos hi] at h2
    have hw : w = List.replicate bones (0 : ℚ) := (Option.some.inj h2).symm
    subst hw
    obtain ⟨⟨hpair, hmem⟩, -⟩ := hok i
    have hpos : ∀ p ∈ storedRow solved i bones 0 [], 0 < p.2 := by
      intro p hp
      have := (hmem p hp).2.2
      have h8 : (0 : ℚ) < 1 / 100000000 := by norm_num
      linarith
    by_cases hnil : storedRow solved i bones 0 [] = []
    · rw [hnil]
      refine ⟨List.replicate bones (0 : ℚ), rfl, ?_, by simp, by simp⟩
      intro x hx
      rw [List.eq_of_mem_replicate hx]
    · have hsum := weightSum_pos _ hpos hnil
      obtain ⟨w', e, -, hge, hs⟩ := normalizeRow_spec _ hsum (storedRow solved i bones 0 [])
        (List.replicate bones (0 : ℚ)) hpair (by
          intro p hp
          obtain ⟨p0, p1, -⟩ := hmem p hp
          have hlt : p.1.toNat < bones := by omega
          refine ⟨p0, by rw [List.length_replicate]; omega, hpos p hp, ?_⟩
          rw [List.getElem?_replicate, if_pos hlt]) (by
          intro x hx
          rw [List.eq_of_mem_replicate hx])
      refine ⟨w', e, hge, ?_, hpos⟩
      rw [hs, if_neg hnil, div_self (ne_of_gt hsum)]
      simp
  obtain ⟨nzs', ws', e, l1, l2, hs⟩ := normalizeRows_spec
    (storeBones solved bones 0 (List.replicate nv ([] : List (Int × ℚ))))
    (List.replicate nv (List.replicate bones (0 : ℚ)))
    (by rw [storeBones_length, List.length_replicate, List.length_replicate])
    (fun i nz w h1 h2 => by
      obtain ⟨w', e, -⟩ := hrowspec i nz w h1 h2
      exact ⟨_, e⟩)
  rw [storeBones_length, List.length_replicate] at l1
  rw [List.length_replicate] at l2
  refine ⟨{ weights := ws', nzweights := nzs' }, ?_, l2, l1, ?_⟩
  · have hne : ¬ (bones = 0 ∧ nv ≠ 0) := by omega
    simp only [Attachment.build, hne, if_false, if_true, e]
  · intro i hi
    have h1 : (storeBones solved bones 0 (List.replicate nv ([] : List (Int × ℚ))))[i]? =
        some (storedRow solved i bones 0 []) := by
      rw [storeBones_getElem?, List.getElem?_replicate, if_pos hi]
      rfl
    have h2 : (List.replicate nv (List.replicate bones (0 : ℚ)))[i]? =
        some (List.replicate bones (0 : ℚ)) := by
      rw [List.getElem?_replicate, if_pos hi]
    obtain ⟨r, hr, hr1, hr2⟩ := hs i _ _ h1 h2
    obtain ⟨w', e', hge, hsum, hpos⟩ := hrowspec i _ _ h1 h2
    rw [hr] at e'
    have er := Option.some.inj e'
    rw [er] at hr1 hr2
    dsimp only at hr1 hr2
    obtain ⟨-, hiff⟩ := hok i
    refine ⟨w', _, hr2, hr1, hge, ?_, ?_, ?_, ?_⟩
    · intro p hp
      obtain ⟨q, hq, rfl⟩ := List.mem_map.1 hp
      have hne : storedRow solved i bones 0 [] ≠ [] := List.ne_nil_of_mem hq
      exact div_pos (hpos q hq) (weightSum_pos _ hpos hne)
    · rw [hsum, weightSum_div]
      by_cases hnil : storedRow solved i bones 0 [] = []
      · rw [if_pos hnil, hnil]
        simp [weightSum]
      · rw [if_neg hnil, div_self (ne_of_gt (weightSum_pos _ hpos hnil))]
    · rintro ⟨j, hj, hbig⟩
      have hnil : storedRow solved i bones 0 [] ≠ [] := by
        intro h0
        exact (hiff.1 h0).2 j (Nat.zero_le _) (by omega) hbig
      rw [hsum, if_neg hnil]
    · intro hall
      have hnil : storedRow solved i bones 0 [] = [] :=
        hiff.2 ⟨rfl, fun j _ hj => hall j (by omega)⟩
      rw [hsum, if_pos hnil, hnil]
      exact ⟨rfl, rfl⟩

/-- Witness for C16: two bones with outputs `1/2` and `3/2` at vertex 0 of three. -/
theorem build_weights_normalized_witness :
    0 < 2 ∧ ∃ a, Attachment.build 3 2 true sampleOutputs = some a ∧ a.weights.length = 3 ∧
      a.nzweights.length = 3 ∧
      ∀ i : Nat, i < 3 → ∃ w nz, a.weights[i]? = some w ∧ a.nzweights[i]? = some nz ∧
        (∀ x ∈ w, 0 ≤ x) ∧ (∀ p ∈ nz, 0 < p.2) ∧ w.sum = weightSum nz ∧
        ((∃ j : Nat, j < 2 ∧ (1 : ℚ) / 100000000 < sampleOutputs j i) → w.sum = 1) ∧
        ((∀ j : Nat, j < 2 → ¬ (1 : ℚ) / 100000000 < sampleOutputs j i) →
          nz = [] ∧ w.sum = 0) :=
  ⟨by decide, build_weights_normalized 3 2 sampleOutputs (by decide)⟩
/-- C17, the claim as written fails: an attachment built without a factor (the constructor
returns early) has no stored weights, and `deform` with the identity transform moves the
vertex at `(1, 0, 0)` of a one-vertex mesh to the origin. -/
theorem deform_identity_moves_unweighted_vertex :
    ∃ a, Attachment.build 1 1 false zeroOutputs = some a ∧
      oneVertexMesh.vertices.length = a.weights.length ∧
      Attachment.deform id a oneVertexMesh [{}] =
        some { vertices := [{ pos := (0, 0, 0) }] } ∧
      oneVertexMesh.positions = [(1, 0, 0)] :=
  ⟨{ weights := [[0]], nzweights := [[]] }, by decide!, by decide, by decide!, by decide!⟩

/-- C17, amended: for a mesh whose half-edges come in triples and point to existing
vertices, and an attachment with the same vertex count whose stored bones have transforms,
`deform` with every transform equal to the identity returns a mesh in which every vertex
has its input position scaled by the sum of its stored weights; a vertex whose stored
weights sum to 1 keeps its position. -/
theorem deform_identity_keeps_positions (vnormalize : Vector3 → Vector3) (a : Attachment)
    (mesh : Mesh) (transforms : List Transform)
    (hsize : mesh.vertices.length = a.weights.length)
    (hnz : a.nzweights.length = a.weights.length) (hb : bonesInRange a transforms)
    (h3 : mesh.edges.length % 3 = 0) (hv : verticesInRange mesh)
    (hid : ∀ t ∈ transforms, t = ({} : Transform)) :
    ∃ out, Attachment.deform vnormalize a mesh transforms = some out ∧
      out.vertices.length = mesh.vertices.length ∧
      ∀ (i : Nat) (v : MeshVertex) (nz : List (Int × ℚ)), mesh.vertices[i]? = some v →
        a.nzweights[i]? = some nz →
        ∃ v', out.vertices[i]? = some v' ∧ v'.pos = Vector3.smul (weightSum nz) v.pos ∧
          (weightSum nz = 1 → v'.pos = v.pos) := by
  obtain ⟨out, e, hl, hs⟩ := deform_spec vnormalize a mesh transforms hsize hnz hb h3 hv
  refine ⟨out, e, hl, ?_⟩
  intro i v nz hvi hnzi
  obtain ⟨v', e', hp⟩ := hs i v nz hvi hnzi
  have hmem : nz ∈ a.nzweights := by
    obtain ⟨hlt, heq⟩ := List.getElem?_eq_some.1 hnzi
    rw [← heq]
    exact List.getElem_mem _
  have hsum := weightedSum_const transforms {} v.pos nz hid (hb nz hmem)
  rw [Transform.apply_identity] at hsum
  refine ⟨v', e', by rw [hp, hsum], ?_⟩
  intro h1
  rw [hp, hsum, h1, Vector3.one_smul3]

/-- Witness for C17: the tetrahedron, two bones, both with the identity transform. -/
theorem deform_identity_keeps_positions_witness :
    (tetraMesh.vertices.length = sampleAttachment.weights.length ∧
      sampleAttachment.nzweights.length = sampleAttachment.weights.length ∧
      bonesInRange sampleAttachment [{}, {}] ∧ tetraMesh.edges.length % 3 = 0 ∧
      verticesInRange tetraMesh ∧ ∀ t ∈ [({} : Transform), {}], t = ({} : Transform)) ∧
    ∃ out, Attachment.deform id sampleAttachment tetraMesh [{}, {}] = some out ∧
      out.vertices.length = tetraMesh.vertices.length ∧
      ∀ (i : Nat) (v : MeshVertex) (nz : List (Int × ℚ)), tetraMesh.vertices[i]? = some v →
        sampleAttachment.nzweights[i]? = some nz →
        ∃ v', out.vertices[i]? = some v' ∧ v'.pos = Vector3.smul (weightSum nz) v.pos ∧
          (weightSum nz = 1 → v'.pos = v.pos) :=
  ⟨⟨by decide, by decide, by decide, by decide, by decide, by decide⟩,
    deform_identity_keeps_positions id sampleAttachment tetraMesh [{}, {}] (by decide)
      (by decide) (by decide) (by decide) (by decide) (by decide)⟩

theorem keptInv_init (edges : List (List Int)) (n : Nat) :
    keptInv edges 0 (List.replicate n (-1)) [] := by
  refine ⟨fun j e c hj => by omega, List.Pairwise.nil, fun f hf => by simp at hf, ?_⟩
  intro j c _ hjc
  rw [List.getElem?_replicate] at hjc
  split at hjc
  · exact (Option.some.inj hjc).symm
  · simp at hjc

/-- The loop of lines 31-37 keeps `keptInv`. -/
theorem keepLoop_kept (edges : List (List Int)) (k i : Nat) (fc cf fc' cf' : List Int)
    (h : keptInv edges i fc cf) (hr : keepLoop edges k i fc cf = some (fc', cf')) :
    keptInv edges (i + k) fc' cf' := by
  induction k generalizing i fc cf with
  | zero =>
    simp only [keepLoop, Option.some.injEq, Prod.mk.injEq] at hr
    obtain ⟨rfl, rfl⟩ := hr
    exact h
  | succ k ih =>
    obtain ⟨h1, h2, h3, h4⟩ := h
    simp only [keepLoop] at hr
    split at hr
    · simp at hr
    · rename_i ei hei
      rw [show i + (k + 1) = i + 1 + k by omega]
      split at hr
      · rename_i hskip
        refine ih (i + 1) fc cf ⟨?_, h2, fun f hf => by have := h3 f hf; omega,
          fun j c hj hjc => h4 j c (by omega) hjc⟩ hr
        intro j e c hj hje hjc
        rcases Nat.lt_or_ge j i with hlt | hge
        · exact h1 j e c hlt hje hjc
        · have hji : j = i := by omega
          subst hji
          rw [hei, Option.some.injEq] at hje
          subst hje
          have := h4 j c (le_refl _) hjc
          constructor
          · intro h0
            omega
          · intro h0
            rcases h0 with h0 | h0
            · exact absurd h0 hskip.2
            · exact absurd hskip.1 h0
      · rename_i hkeep
        split at hr
        · simp at hr
        · rename_i fc1 hfc1
          obtain ⟨⟨-, hlt⟩, rfl⟩ := (upd?_eq_some _ _ _ _).1 hfc1
          simp only [Int.toNat_ofNat] at hlt hr
          refine ih (i + 1) _ _ ⟨?_, ?_, ?_, ?_⟩ hr
          · intro j e c hj hje hjc
            rcases Nat.lt_or_ge j i with hlt' | hge
            · rw [List.getElem?_set_ne (by omega)] at hjc
              exact h1 j e c hlt' hje hjc
            · have hji : j = i := by omega
              subst hji
              rw [hei, Option.some.injEq] at hje
              subst hje
              rw [List.getElem?_set_self hlt, Option.some.injEq] at hjc
              constructor
              · intro _
                by_cases h0 : j = 0
                · exact Or.inl h0
                · exact Or.inr (fun h2 => hkeep ⟨h2, h0⟩)
              · intro _
                rw [← hjc]
                exact Int.ofNat_nonneg _
          · rw [List.pairwise_append]
            refine ⟨h2, by simp, ?_⟩
            intro a ha b hb
            have : b = (i : Int) := by simpa using hb
            rw [this]
            exact h3 a ha
          · intro f hf
            rcases List.mem_append.1 hf with hf | hf
            · have := h3 f hf
              omega
            · have : f = (i : Int) := by simpa using hf
              omega
          · intro j c hj hjc
            rw [List.getElem?_set_ne (by omega)] at hjc
            exact h4 j c (by omega) hjc
/-- The phases of `initCompressed` on a skeleton built by `makeJoint` calls with every
parent before its children: with enough fuel each of the four loops returns, and the call
returns the skeleton that holds their outputs. -/
theorem initCompressed_phases (vlen : Vector3 → ℚ) (fuel : Nat) (calls : List JointCall)
    (s : Skeleton) (hb : buildJoints calls {} = some s) (hf : s.fPrevV.length ≤ fuel)
    (hn : 1 ≤ s.fPrevV.length)
    (hpar : ∀ (j : Nat) (p : Int), 1 ≤ j → s.fPrevV[j]? = some p → 0 ≤ p ∧ p < (j : Int)) :
    ∃ fc cf cverts cedges cSym cPrev cLength fr,
      keepLoop s.fGraphV.edges s.fPrevV.length 0 (List.replicate s.fPrevV.length (-1)) [] =
        some (fc, cf) ∧
      ((s.withMaps fc cf).withReduced cverts cedges cSym cPrev).climbable ∧
      cPrev.length = cf.length ∧ 1 ≤ cf.length ∧
      (∀ i : Nat, 1 ≤ i → i < cf.length →
        ∃ f a c, cf[i]? = some f ∧ nearestKept fc s.fPrevV f a ∧ idx? fc a = some c ∧
          cPrev[i]? = some c) ∧
      lengthLoop vlen ((s.withMaps fc cf).withReduced cverts cedges cSym cPrev) fuel
        (cPrev.length - 1) 1 (List.replicate cPrev.length 0)
        (List.replicate s.fPrevV.length (some (-1))) = some (cLength, fr) ∧
      s.initCompressed vlen fuel =
        some { (s.withMaps fc cf).withReduced cverts cedges cSym cPrev with
          cLengthV := cLength, fcFractionV := fr } := by
  have hs := buildJoints_fresh calls {} s fresh_empty hb
  obtain ⟨⟨fc, cf⟩, hk⟩ := keepLoop_isSome s.fGraphV.edges s.fPrevV.length 0
    (resize s.fcMapV s.fPrevV.length (-1)) s.cfMapV (by rw [hs.2.2.1]; omega)
    (by rw [resize_length]; omega)
  have hcl := withMaps_climbable s hs fc cf hk hpar
  have hc1 : 1 ≤ cf.length := by
    have h0 := climbable_zero _ hcl hn
    rcases hcl.1.2.1 0 0 h0 with e | ⟨-, a, e, ha⟩
    · omega
    · have hlt : a < cf.length := (List.getElem?_eq_some.1 ha).1
      omega
  obtain ⟨cverts, cSym, cPrev, hr, hlen, hkeep, hnear⟩ :=
    reducedLoop_spec (s.withMaps fc cf) hcl fuel hf cf.length 0 s.cGraphV.verts
      (resize s.cSymV cf.length (-1)) (resize s.cPrevV cf.length (-1)) (by simp [Skeleton.withMaps])
      (by rw [resize_length]; rfl)
  have hlen' : cPrev.length = cf.length := hlen
  obtain ⟨cedges, hg⟩ := graphLoop_isSome cPrev cf.length (cPrev.length - 1) 1
    (resize s.cGraphV.edges cf.length []) (le_refl _) (Or.inl (by omega)) (resize_length _ _ _)
    (by
      intro j hj1 hjc
      obtain ⟨f, a, c, -, -, -, h0, h1, h2⟩ := hnear j (by omega) hj1 hjc
      exact ⟨c, h2, h0, h1⟩)
  have hcl2 : ((s.withMaps fc cf).withReduced cverts cedges cSym cPrev).climbable := hcl
  obtain ⟨⟨cLength, fr⟩, hl⟩ := lengthLoop_isSome vlen
    ((s.withMaps fc cf).withReduced cverts cedges cSym cPrev) hcl2 fuel hf (cPrev.length - 1) 1
    (resize s.cLengthV cPrev.length 0)
    ((s.withMaps fc cf).withReduced cverts cedges cSym cPrev).fcFractionV (le_refl _)
    (Or.inl (by show 1 + (cPrev.length - 1) ≤ cf.length; omega))
    (by rw [resize_length]; exact hlen) (by simp [Skeleton.withMaps, Skeleton.withReduced, resize_length])
  refine ⟨fc, cf, cverts, cedges, cSym, cPrev, cLength, fr, ?_, hcl2, hlen, hc1, ?_, ?_,
    by simp only [Skeleton.initCompressed, hk, hr, hg, hl]⟩
  · rw [hs.2.2.2.2.1, hs.2.2.2.2.2.1, resize_nil] at hk
    exact hk
  · intro i hi1 hic
    obtain ⟨f, a, c, g1, g2, g3, -, -, g4⟩ := hnear i (by omega) hi1 hic
    exact ⟨f, a, c, g1, g2, g3, g4⟩
  · have e1 : resize s.cLengthV cPrev.length 0 = List.replicate cPrev.length 0 := by
      rw [hs.2.2.2.2.2.2.2.2.2.1, resize_nil]
    have e2 : ((s.withMaps fc cf).withReduced cverts cedges cSym cPrev).fcFractionV =
        List.replicate s.fPrevV.length (some (-1)) := by
      show resize s.fcFractionV s.fPrevV.length (some (-1)) = _
      rw [hs.2.2.2.2.2.2.2.2.2.2, resize_nil]
    rw [e1, e2] at hl
    exact hl

theorem resize_succ_length {α : Type} (l : List α) (d : α) :
    resize l (l.length + 1) d = l ++ [d] := by
  simp [resize, List.take_of_length_le]

/-- The effect of one `makeJoint` call on the parents and on the sizes of the adjacency
lists, when the new joint is not its own parent. -/
theorem makeJoint_edges (s s' : Skeleton) (name : String) (pos : Vector3) (previous : String)
    (hs : s.fresh) (h : s.makeJoint name pos previous = some s') :
    ∃ p : Int, s'.fPrevV = s.fPrevV ++ [p] ∧
      (p ≠ (s.fPrevV.length : Int) → ∀ (b : Nat) (e' : List Int),
        s'.fGraphV.edges[b]? = some e' →
        e'.length = ((s.fGraphV.edges[b]?).map List.length).getD 0 +
          (if b = s.fPrevV.length ∧ 0 ≤ p then 1 else 0) +
          (if (b : Int) = p then 1 else 0)) := by
  obtain ⟨h1, h2, h3, -⟩ := hs
  unfold Skeleton.makeJoint at h
  dsimp only at h
  rw [h1, ← h3, resize_succ_length] at h
  split at h
  · simp only [Option.some.injEq] at h
    subst h
    refine ⟨-1, rfl, ?_⟩
    intro _ b e' hb
    dsimp only at hb
    have hneg : ¬ ((b : Int) = -1) := by omega
    simp only [hneg, if_false, Nat.add_zero, show ¬ (b = s.fPrevV.length ∧ (0 : Int) ≤ -1) by omega]
    rcases Nat.lt_or_ge b s.fGraphV.edges.length with hlt | hge
    · rw [List.getElem?_append_left hlt] at hb
      rw [hb]
      rfl
    · rw [List.getElem?_append_right hge] at hb
      have : e' = [] := by
        cases hsub : b - s.fGraphV.edges.length with
        | zero => rw [hsub] at hb; simpa using hb.symm
        | succ m => rw [hsub] at hb; simp at hb
      rw [this, List.getElem?_eq_none hge]
      rfl
  · split at h
    · simp at h
    · rename_i e1 he1
      split at h
      · simp at h
      · rename_i e2 he2
        simp only [Option.some.injEq] at h
        subst h
        refine ⟨_, rfl, ?_⟩
        generalize (nameIndex (minsert s.jointNames name (s.fGraphV.edges.length : Int))
          previous).1 = p at he1 he2 ⊢
        intro hpn b e' hb
        dsimp only at hb
        rw [← h3] at hpn ⊢
        -- the first push
        unfold pushAt at he1
        rw [idx?_natCast, List.getElem?_append_right (le_refl _)] at he1
        simp only [Nat.sub_self, List.getElem?_cons_zero, List.nil_append] at he1
        rw [upd?_natCast _ _ _ (by simp)] at he1
        simp only [Option.some.injEq] at he1
        subst he1
        -- the second push
        unfold pushAt at he2
        split at he2
        · simp at he2
        · rename_i l hl
          obtain ⟨hp0, hl'⟩ := (idx?_eq_some _ _ _).1 hl
          obtain ⟨⟨-, hlt⟩, rfl⟩ := (upd?_eq_some _ _ _ _).1 he2
          simp only [List.length_set, List.length_append, List.length_singleton] at hlt
          have hpt : p.toNat ≠ s.fGraphV.edges.length := by omega
          have hpt' : p.toNat < s.fGraphV.edges.length := by omega
          rw [List.getElem?_set_ne (Ne.symm hpt), List.getElem?_append_left hpt'] at hl'
          by_cases hbp : b = p.toNat
          · subst hbp
            rw [List.getElem?_set_self (by simpa using hlt), Option.some.injEq] at hb
            subst hb
            have e1 : ((p.toNat : Nat) : Int) = p := Int.toNat_of_nonneg hp0
            simp only [hl', Option.map_some', Option.getD_some, List.length_append,
              List.length_singleton, e1, if_true, hpt, false_and, if_false]
          · rw [List.getElem?_set_ne (Ne.symm hbp)] at hb
            have hne : ¬ ((b : Int) = p) := by omega
            by_cases hbn : b = s.fGraphV.edges.length
            · subst hbn
              rw [List.getElem?_set_self (by simp), Option.some.injEq] at hb
              subst hb
              simp [hne, hp0]
            · rw [List.getElem?_set_ne (Ne.symm hbn)] at hb
              have hbl : b < s.fGraphV.edges.length := by
                have := (List.getElem?_eq_some.1 hb).1
                simp at this
                omega
              rw [List.getElem?_append_left hbl] at hb
              simp [hb, hne, hbn]
theorem parentsFirst_initial (l l' : List Int) (h : l <+: l') (hp : parentsFirst l') :
    parentsFirst l := by
  obtain ⟨t, rfl⟩ := h
  intro j p hj
  have hlt : j < l.length := (List.getElem?_eq_some.1 hj).1
  exact hp j p (by rw [List.getElem?_append_left hlt]; exact hj)

theorem parentsFirst_count (l : List Int) (hp : parentsFirst l) (b : Nat) (hb : l.length ≤ b) :
    l.count (b : Int) = 0 := by
  rw [List.count_eq_zero]
  intro hmem
  obtain ⟨j, hj, e⟩ := List.getElem_of_mem hmem
  have := hp j _ (List.getElem?_eq_getElem hj)
  omega

theorem buildJoints_extends (calls : List JointCall) (s s' : Skeleton) (hs : s.fresh)
    (h : buildJoints calls s = some s') : s.fPrevV <+: s'.fPrevV := by
  induction calls generalizing s with
  | nil =>
    simp only [buildJoints, Option.some.injEq] at h
    subst h
    exact List.prefix_refl _
  | cons c rest ih =>
    obtain ⟨name, pos, previous⟩ := c
    simp only [buildJoints] at h
    split at h
    · simp at h
    · rename_i s1 hs1
      obtain ⟨p, hp, -⟩ := makeJoint_edges s s1 name pos previous hs hs1
      have := ih s1 (makeJoint_fresh s s1 name pos previous hs hs1) h
      rw [hp] at this
      exact (List.prefix_append _ _).trans this

/-- One `makeJoint` call keeps the count of the adjacency lists, when parents come first. -/
theorem makeJoint_counted (s s' : Skeleton) (name : String) (pos : Vector3) (previous : String)
    (hs : s.fresh) (hc : edgesCounted s) (h : s.makeJoint name pos previous = some s')
    (hp : parentsFirst s'.fPrevV) : edgesCounted s' := by
  obtain ⟨p, e, hl⟩ := makeJoint_edges s s' name pos previous hs h
  have hs' := makeJoint_fresh s s' name pos previous hs h
  have hpn : p < (s.fPrevV.length : Int) := by
    have := hp s.fPrevV.length p (by rw [e]; simp)
    exact this
  have hp0 : parentsFirst s.fPrevV := parentsFirst_initial _ _ (by rw [e]; exact List.prefix_append _ _) hp
  intro b e' q hb hq
  rw [hl (by omega) b e' hb, e, List.count_append]
  rw [e] at hq
  rcases Nat.lt_or_ge b s.fPrevV.length with hlt | hge
  · rw [List.getElem?_append_left hlt] at hq
    have hbe : b < s.fGraphV.edges.length := by rw [hs.2.2.1]; exact hlt
    have h0 := hc b _ q (List.getElem?_eq_getElem hbe) hq
    rw [List.getElem?_eq_getElem hbe, Option.map_some', Option.getD_some, h0]
    have hne : ¬ (b = s.fPrevV.length ∧ 0 ≤ p) := by omega
    simp only [hne, if_false, Nat.add_zero, List.count_singleton, beq_iff_eq]
    by_cases hbp : (b : Int) = p
    · simp [hbp]
      omega
    · have : ¬ (p = (b : Int)) := fun h => hbp h.symm
      simp [hbp, this]
  · have hbl : b < s'.fGraphV.edges.length := (List.getElem?_eq_some.1 hb).1
    have hbn : b = s.fPrevV.length := by
      have := hs'.2.2.1
      rw [this, e] at hbl
      simp at hbl
      omega
    subst hbn
    rw [List.getElem?_append_right (le_refl _)] at hq
    simp only [Nat.sub_self, List.getElem?_cons_zero, Option.some.injEq] at hq
    subst hq
    have hbe : ¬ (s.fPrevV.length < s.fGraphV.edges.length) := by rw [hs.2.2.1]; omega
    rw [List.getElem?_eq_none (by omega), parentsFirst_count _ hp0 _ (le_refl _)]
    have hne : ¬ ((s.fPrevV.length : Int) = p) := by omega
    have hne' : ¬ (p = (s.fPrevV.length : Int)) := by omega
    simp [hne, hne']

/-- The adjacency lists of a skeleton built by `makeJoint` calls count the tree, when
parents come first. -/
theorem buildJoints_counted (calls : List JointCall) (s s' : Skeleton) (hs : s.fresh)
    (hc : edgesCounted s) (h : buildJoints calls s = some s') (hp : parentsFirst s'.fPrevV) :
    edgesCounted s' := by
  induction calls generalizing s with
  | nil =>
    simp only [buildJoints, Option.some.injEq] at h
    subst h
    exact hc
  | cons c rest ih =>
    obtain ⟨name, pos, previous⟩ := c
    simp only [buildJoints] at h
    split at h
    · simp at h
    · rename_i s1 hs1
      have hf1 := makeJoint_fresh s s1 name pos previous hs hs1
      have hpre := buildJoints_extends rest s1 s' hf1 h
      exact ih s1 hf1 (makeJoint_counted s s1 name pos previous hs hc hs1
        (parentsFirst_initial _ _ hpre hp)) h

theorem edgesCounted_empty : edgesCounted {} := by
  intro b e p hb
  simp at hb

/-- A value that occurs at most once in a list occurs at one index only. -/
theorem count_le_one_unique (l : List Int) (x : Int) (h : l.count x ≤ 1) (i j : Nat)
    (hi : l[i]? = some x) (hj : l[j]? = some x) : i = j := by
  induction l generalizing i j with
  | nil => simp at hi
  | cons y rest ih =>
    rw [List.count_cons] at h
    cases i with
    | zero =>
      cases j with
      | zero => rfl
      | succ j =>
        simp only [List.getElem?_cons_zero, Option.some.injEq] at hi
        simp only [List.getElem?_cons_succ] at hj
        subst hi
        have hmem : y ∈ rest := by
          obtain ⟨hlt, heq⟩ := List.getElem?_eq_some.1 hj
          rw [← heq]
          exact List.getElem_mem _
        have := List.count_pos_iff.2 hmem
        simp at h
        omega
    | succ i =>
      cases j with
      | zero =>
        simp only [List.getElem?_cons_zero, Option.some.injEq] at hj
        simp only [List.getElem?_cons_succ] at hi
        subst hj
        have hmem : y ∈ rest := by
          obtain ⟨hlt, heq⟩ := List.getElem?_eq_some.1 hi
          rw [← heq]
          exact List.getElem_mem _
        have := List.count_pos_iff.2 hmem
        simp at h
        omega
      | succ j =>
        simp only [List.getElem?_cons_succ] at hi hj
        have := ih (by omega) i j hi hj
        omega
theorem ancestor_succ_top (fPrev : List Int) (t : Nat) (x : Int) :
    ancestor fPrev (t + 1) x = (ancestor fPrev t x).bind (idx? fPrev) := by
  induction t generalizing x with
  | zero =>
    simp only [ancestor, Option.some_bind]
    cases idx? fPrev x <;> rfl
  | succ t ih =>
    rw [ancestor]
    cases h : idx? fPrev x with
    | none => simp [ancestor, h]
    | some p =>
      dsimp only
      rw [ih p]
      simp only [ancestor, h]

theorem mem_chainOf (fPrev : List Int) (k : Nat) (f b : Int) (h : b ∈ chainOf fPrev k f) :
    ∃ t : Nat, t < k ∧ ancestor fPrev t f = some b := by
  induction k generalizing f with
  | zero => simp [chainOf] at h
  | succ k ih =>
    simp only [chainOf, List.mem_cons] at h
    rcases h with h | h
    · exact ⟨0, by omega, by rw [h]; rfl⟩
    · cases hp : idx? fPrev f with
      | none => rw [hp] at h; simp at h
      | some p =>
        rw [hp] at h
        obtain ⟨t, ht, e⟩ := ih p h
        exact ⟨t + 1, by omega, by simp only [ancestor, hp, e]⟩

/-- The loop of lines 74-78 from a joint other than joint 0 in a climbable skeleton: it
runs `k = chainSteps` passes, up to the first kept proper ancestor, and records the
joints of the chain with their edge lengths. -/
theorem chainLoop_spec (vlen : Vector3 → ℚ) (s : Skeleton) (h : s.climbable) (fuel cur : Nat)
    (lengths : List (Int × ℚ)) (acc : ℚ) (h1 : 1 ≤ cur) (hc : cur < s.fPrevV.length)
    (hf : cur ≤ fuel) :
    1 ≤ chainSteps s.fcMapV s.fPrevV fuel (cur : Int) ∧
    (∃ a c, ancestor s.fPrevV (chainSteps s.fcMapV s.fPrevV fuel (cur : Int)) (cur : Int) = some a ∧
      idx? s.fcMapV a = some c ∧ 0 ≤ c) ∧
    (∀ k' : Nat, 1 ≤ k' → k' < chainSteps s.fcMapV s.fPrevV fuel (cur : Int) →
      ∃ b, ancestor s.fPrevV k' (cur : Int) = some b ∧ idx? s.fcMapV b = some (-1)) ∧
    (∀ b ∈ chainOf s.fPrevV (chainSteps s.fcMapV s.fPrevV fuel (cur : Int)) (cur : Int),
      1 ≤ b ∧ b ≤ (cur : Int)) ∧
    (chainOf s.fPrevV (chainSteps s.fcMapV s.fPrevV fuel (cur : Int)) (cur : Int)).Pairwise
      (fun a b => b < a) ∧
    chainLoop vlen s fuel (cur : Int) lengths acc =
      some (((chainOf s.fPrevV (chainSteps s.fcMapV s.fPrevV fuel (cur : Int)) (cur : Int)).map
          (fun j => (j, edgeLength vlen s j))).reverse ++ lengths,
        acc + chainLength vlen s (chainSteps s.fcMapV s.fPrevV fuel (cur : Int)) (cur : Int)) := by
  induction cur using Nat.strong_induction_on generalizing fuel lengths acc with
  | _ cur ih =>
    obtain ⟨f, rfl⟩ : ∃ f, fuel = f + 1 := ⟨fuel - 1, by omega⟩
    obtain ⟨q, hq, hqc⟩ := climbable_parent s h cur h1 hc
    have hq' : idx? s.fPrevV (cur : Int) = some (q : Int) := by rw [idx?_natCast]; exact hq
    have hcv : cur < s.fGraphV.verts.length := by rw [h.2.2.1]; exact hc
    have hqv : q < s.fGraphV.verts.length := by rw [h.2.2.1]; omega
    have hv1 : idx? s.fGraphV.verts (cur : Int) = some s.fGraphV.verts[cur] := by
      rw [idx?_natCast, List.getElem?_eq_getElem]
    have hv2 : idx? s.fGraphV.verts (q : Int) = some s.fGraphV.verts[q] := by
      rw [idx?_natCast, List.getElem?_eq_getElem]
    have hqf : q < s.fcMapV.length := by rw [h.2.1]; omega
    have hfc : idx? s.fcMapV (q : Int) = some s.fcMapV[q] := by
      rw [idx?_natCast, List.getElem?_eq_getElem hqf]
    have hel : edgeLength vlen s (cur : Int) =
        vlen ((s.fGraphV.verts[cur]).sub (s.fGraphV.verts[q])) := by
      simp only [edgeLength, hq', hv1, hv2]
    by_cases hm : s.fcMapV[q] = -1
    · have hq1 : 1 ≤ q := by
        rcases Nat.eq_zero_or_pos q with e | e
        · subst e
          have := climbable_zero s h (by omega)
          rw [List.getElem?_eq_getElem hqf, Option.some.injEq] at this
          omega
        · exact e
      have hsteps : chainSteps s.fcMapV s.fPrevV (f + 1) (cur : Int) =
          chainSteps s.fcMapV s.fPrevV f (q : Int) + 1 := by
        simp only [chainSteps, hq', hfc, hm, if_true]
      obtain ⟨g1, ⟨a, c, g2, g3, g4⟩, g5, g6, g7, g8⟩ := ih q hqc f
        (minsert lengths (cur : Int) (vlen ((s.fGraphV.verts[cur]).sub (s.fGraphV.verts[q]))))
        (acc + vlen ((s.fGraphV.verts[cur]).sub (s.fGraphV.verts[q]))) hq1 (by omega) (by omega)
      rw [hsteps]
      have hchain : chainOf s.fPrevV (chainSteps s.fcMapV s.fPrevV f (q : Int) + 1) (cur : Int) =
          (cur : Int) :: chainOf s.fPrevV (chainSteps s.fcMapV s.fPrevV f (q : Int)) (q : Int) := by
        simp only [chainOf, hq']
      refine ⟨by omega, ⟨a, c, by simp only [ancestor, hq', g2], g3, g4⟩, ?_, ?_, ?_, ?_⟩
      · intro k' hk1 hk2
        obtain ⟨k'', rfl⟩ : ∃ k'', k' = k'' + 1 := ⟨k' - 1, by omega⟩
        rcases Nat.eq_zero_or_pos k'' with e | e
        · subst e
          exact ⟨(q : Int), by simp only [ancestor, hq'], by rw [hfc, hm]⟩
        · obtain ⟨b, e1, e2⟩ := g5 k'' e (by omega)
          exact ⟨b, by simp only [ancestor, hq', e1], e2⟩
      · rw [hchain]
        intro b hb
        rcases List.mem_cons.1 hb with e | e
        · rw [e]
          omega
        · have := g6 b e
          omega
      · rw [hchain, List.pairwise_cons]
        refine ⟨?_, g7⟩
        intro b hb
        have := g6 b hb
        omega
      · simp only [chainLoop, hq', hv1, hv2, hfc, hm, if_true]
        rw [g8]
        simp only [hchain, chainLength, List.map_cons, List.reverse_cons, List.sum_cons, hel,
          minsert, List.append_assoc, List.singleton_append, add_assoc]
    · have hsteps : chainSteps s.fcMapV s.fPrevV (f + 1) (cur : Int) = 1 := by
        simp only [chainSteps, hq', hfc, hm, if_false]
      rw [hsteps]
      have hchain : chainOf s.fPrevV 1 (cur : Int) = [(cur : Int)] := by
        simp only [chainOf, hq']
      have hc0 : 0 ≤ s.fcMapV[q] := by
        rcases h.1.2.1 q _ (List.getElem?_eq_getElem hqf) with e | ⟨-, a, e, -⟩
        · exact absurd e hm
        · rw [e]
          exact Int.ofNat_nonneg _
      refine ⟨le_refl _, ⟨(q : Int), _, by simp only [ancestor, hq'], hfc, hc0⟩, ?_, ?_, ?_, ?_⟩
      · intro k' hk1 hk2
        omega
      · rw [hchain]
        intro b hb
        have : b = (cur : Int) := by simpa using hb
        omega
      · rw [hchain]
        exact List.pairwise_singleton _ _
      · simp only [chainLoop, hq', hv1, hv2, hfc, hm, if_false, hchain, chainLength,
          List.map_cons, List.map_nil, List.reverse_cons, List.reverse_nil, List.nil_append,
          List.sum_cons, List.sum_nil, hel, minsert, List.singleton_append, add_zero]
theorem idx?_set_ne {α : Type} (l : List α) (j : Nat) (x : Int) (v : α) (h : x ≠ (j : Int)) :
    idx? (l.set j v) x = idx? l x := by
  unfold idx?
  split
  · rw [List.getElem?_set_ne (by omega)]
  · rfl

/-- The loop of lines 80-81 over recorded joints that are pairwise different: each gets
its fraction, every other entry of `fcFractionV` is kept. -/
theorem fractionLoop_spec (total : ℚ) (lengths : List (Int × ℚ)) (fr : List (Option ℚ))
    (hl : ∀ x ∈ lengths, 0 ≤ x.1 ∧ x.1 < (fr.length : Int))
    (hd : (lengths.map (fun x => x.1)).Nodup) :
    ∃ fr', fractionLoop total lengths fr = some fr' ∧ fr'.length = fr.length ∧
      (∀ x ∈ lengths, idx? fr' x.1 = some (if total = 0 then none else some (x.2 / total))) ∧
      (∀ j : Int, j ∉ lengths.map (fun x => x.1) → idx? fr' j = idx? fr j) := by
  induction lengths generalizing fr with
  | nil => exact ⟨fr, rfl, rfl, fun x hx => by simp at hx, fun j _ => rfl⟩
  | cons x rest ih =>
    obtain ⟨j, l⟩ := x
    obtain ⟨h0, h1⟩ := hl (j, l) (List.mem_cons_self _ _)
    have h0' : 0 ≤ j := h0
    have hj : j.toNat < fr.length := by
      have : j < (fr.length : Int) := h1
      omega
    have hu : upd? fr j (if total = 0 then none else some (l / total)) =
        some (fr.set j.toNat (if total = 0 then none else some (l / total))) := by
      simp [upd?, h0', hj]
    rw [List.map_cons, List.nodup_cons] at hd
    obtain ⟨fr', e1, e2, e3, e4⟩ := ih (fr.set j.toNat (if total = 0 then none else some (l / total)))
      (fun x hx => by simpa using hl x (List.mem_cons_of_mem _ hx)) hd.2
    refine ⟨fr', by simp only [fractionLoop, hu, e1], by simpa using e2, ?_, ?_⟩
    · intro x hx
      rcases List.mem_cons.1 hx with e | e
      · subst e
        rw [e4 j hd.1]
        simp [idx?, h0', hj]
      · exact e3 x e
    · intro y hy
      rw [List.map_cons, List.mem_cons, not_or] at hy
      rw [e4 y hy.2]
      exact idx?_set_ne _ _ _ _ (by omega)

/-- A joint that is not kept has at most one child, in a skeleton whose adjacency lists
count the tree. -/
theorem nonKept_count (s : Skeleton) (h : s.climbable) (hc : edgesCounted s)
    (hk : keptInv s.fGraphV.edges s.fPrevV.length s.fcMapV s.cfMapV)
    (he : s.fGraphV.edges.length = s.fPrevV.length) (b : Int)
    (hb : idx? s.fcMapV b = some (-1)) : s.fPrevV.count b ≤ 1 := by
  obtain ⟨hb0, hb1⟩ := (idx?_eq_some _ _ _).1 hb
  have hlt : b.toNat < s.fPrevV.length := by
    rw [← h.2.1]
    exact (List.getElem?_eq_some.1 hb1).1
  have hlte : b.toNat < s.fGraphV.edges.length := by rw [he]; exact hlt
  have h2 := (hk.1 b.toNat _ (-1) hlt (List.getElem?_eq_getElem hlte) hb1)
  have h3 : ¬ (b.toNat = 0 ∨ (s.fGraphV.edges[b.toNat]).length ≠ 2) := by
    intro h4
    have := h2.2 h4
    omega
  rw [not_or, not_not] at h3
  obtain ⟨hp0, -⟩ := h.2.2.2.2.2 b.toNat _ (by omega) (List.getElem?_eq_getElem hlt)
  have h5 := hc b.toNat _ _ (List.getElem?_eq_getElem hlte) (List.getElem?_eq_getElem hlt)
  rw [if_pos hp0, h3.2, Int.toNat_of_nonneg hb0] at h5
  omega

/-- Two chains of joints that are not kept and lead to the same joint: the longer one
passes through the start of the shorter one. -/
theorem chains_meet (s : Skeleton) (h : s.climbable) (hc : edgesCounted s)
    (hk : keptInv s.fGraphV.edges s.fPrevV.length s.fcMapV s.cfMapV)
    (he : s.fGraphV.edges.length = s.fPrevV.length) (t t' : Nat) (x y b : Int) (ht : t ≤ t')
    (hx : ancestor s.fPrevV t x = some b) (hy : ancestor s.fPrevV t' y = some b)
    (hn : ∀ u : Nat, 1 ≤ u → u ≤ t →
      ∃ d, ancestor s.fPrevV u x = some d ∧ idx? s.fcMapV d = some (-1)) :
    ancestor s.fPrevV (t' - t) y = some x := by
  induction t generalizing t' b with
  | zero =>
    simp only [ancestor, Option.some.injEq] at hx
    rw [hx]
    exact hy
  | succ t ih =>
    obtain ⟨t0, rfl⟩ : ∃ t0, t' = t0 + 1 := ⟨t' - 1, by omega⟩
    rw [ancestor_succ_top] at hx hy
    cases hbx : ancestor s.fPrevV t x with
    | none => rw [hbx] at hx; simp at hx
    | some bx =>
      cases hby : ancestor s.fPrevV t0 y with
      | none => rw [hby] at hy; simp at hy
      | some b_y =>
        rw [hbx, Option.some_bind] at hx
        rw [hby, Option.some_bind] at hy
        obtain ⟨d, hd1, hd2⟩ := hn (t + 1) (by omega) (le_refl _)
        rw [ancestor_succ_top, hbx, Option.some_bind, hx, Option.some.injEq] at hd1
        subst hd1
        have hcount := nonKept_count s h hc hk he b hd2
        obtain ⟨hx0, hx1⟩ := (idx?_eq_some _ _ _).1 hx
        obtain ⟨hy0, hy1⟩ := (idx?_eq_some _ _ _).1 hy
        have heq := count_le_one_unique s.fPrevV b hcount _ _ hx1 hy1
        have hbb : bx = b_y := by omega
        subst hbb
        rw [show t0 + 1 - (t + 1) = t0 - t by omega]
        exact ih t0 bx (by omega) hbx hby (fun u hu1 hu2 => hn u hu1 (by omega))
theorem chains_disjoint_aux (s : Skeleton) (h : s.climbable) (hc : edgesCounted s)
    (hk : keptInv s.fGraphV.edges s.fPrevV.length s.fcMapV s.cfMapV)
    (he : s.fGraphV.edges.length = s.fPrevV.length) (fuel : Nat) (hf : s.fPrevV.length ≤ fuel)
    (i1 i2 : Nat) (f1 f2 b : Int) (h1 : 1 ≤ i1) (h2 : 1 ≤ i2) (hne : i1 ≠ i2)
    (hf1 : s.cfMapV[i1]? = some f1) (hf2 : s.cfMapV[i2]? = some f2) (t1 t2 : Nat)
    (ht : t1 ≤ t2) (ht1 : t1 < chainSteps s.fcMapV s.fPrevV fuel f1)
    (ht2 : t2 < chainSteps s.fcMapV s.fPrevV fuel f2)
    (hb1 : ancestor s.fPrevV t1 f1 = some b) (hb2 : ancestor s.fPrevV t2 f2 = some b) :
    False := by
  obtain ⟨j1, e1, hj1, hfc1, hp1⟩ := climbable_cfMap s h i1 f1 hf1
  obtain ⟨j2, e2, hj2, hfc2, hp2⟩ := climbable_cfMap s h i2 f2 hf2
  subst e1
  subst e2
  obtain ⟨-, -, g1, -⟩ := chainLoop_spec (fun _ => 0) s h fuel j1 [] 0 (hp1 h1) hj1 (by omega)
  obtain ⟨-, -, g2, -⟩ := chainLoop_spec (fun _ => 0) s h fuel j2 [] 0 (hp2 h2) hj2 (by omega)
  have hm := chains_meet s h hc hk he t1 t2 (j1 : Int) (j2 : Int) b ht hb1 hb2
    (fun u hu1 hu2 => g1 u hu1 (by omega))
  rcases Nat.eq_zero_or_pos (t2 - t1) with e | e
  · rw [e] at hm
    simp only [ancestor, Option.some.injEq] at hm
    have : j2 = j1 := by omega
    subst this
    rw [hfc1, Option.some.injEq] at hfc2
    omega
  · obtain ⟨d, hd1, hd2⟩ := g2 (t2 - t1) e (by omega)
    rw [hm, Option.some.injEq] at hd1
    subst hd1
    rw [idx?_natCast, hfc1, Option.some.injEq] at hd2
    omega

/-- The chains recorded for two different reduced joints have no joint in common. -/
theorem chains_disjoint (s : Skeleton) (h : s.climbable) (hc : edgesCounted s)
    (hk : keptInv s.fGraphV.edges s.fPrevV.length s.fcMapV s.cfMapV)
    (he : s.fGraphV.edges.length = s.fPrevV.length) (fuel : Nat) (hf : s.fPrevV.length ≤ fuel)
    (i1 i2 : Nat) (f1 f2 b : Int) (h1 : 1 ≤ i1) (h2 : 1 ≤ i2) (hne : i1 ≠ i2)
    (hf1 : s.cfMapV[i1]? = some f1) (hf2 : s.cfMapV[i2]? = some f2)
    (hb1 : b ∈ chainOf s.fPrevV (chainSteps s.fcMapV s.fPrevV fuel f1) f1) :
    b ∉ chainOf s.fPrevV (chainSteps s.fcMapV s.fPrevV fuel f2) f2 := by
  intro hb2
  obtain ⟨t1, ht1, e1⟩ := mem_chainOf _ _ _ _ hb1
  obtain ⟨t2, ht2, e2⟩ := mem_chainOf _ _ _ _ hb2
  rcases Nat.le_total t1 t2 with ht | ht
  · exact chains_disjoint_aux s h hc hk he fuel hf i1 i2 f1 f2 b h1 h2 hne hf1 hf2 t1 t2 ht ht1
      ht2 e1 e2
  · exact chains_disjoint_aux s h hc hk he fuel hf i2 i1 f2 f1 b h2 h1 (Ne.symm hne) hf2 hf1 t2 t1
      ht ht2 ht1 e2 e1

/-- The loop of lines 71-82 on a climbable skeleton whose adjacency lists count the tree:
every reduced joint it handles gets the length of its chain, every joint of that chain
gets its fraction of the length, and nothing else changes. -/
theorem lengthLoop_spec (vlen : Vector3 → ℚ) (s : Skeleton) (h : s.climbable)
    (hc : edgesCounted s)
    (hk : keptInv s.fGraphV.edges s.fPrevV.length s.fcMapV s.cfMapV)
    (he : s.fGraphV.edges.length = s.fPrevV.length) (fuel : Nat)
    (hf : s.fPrevV.length ≤ fuel) (k i : Nat) (cLength : List ℚ) (fr : List (Option ℚ))
    (hi : 1 ≤ i) (hik : i + k ≤ s.cfMapV.length ∨ k = 0)
    (hcl : cLength.length = s.cfMapV.length) (hfr : fr.length = s.fPrevV.length)
    (hz : ∀ i' : Nat, i ≤ i' → i' < cLength.length → cLength[i']? = some 0) :
    ∃ cLength' fr', lengthLoop vlen s fuel k i cLength fr = some (cLength', fr') ∧
      (∀ (i' : Nat) (f : Int), i ≤ i' → i' < i + k → s.cfMapV[i']? = some f →
        cLength'[i']? = some (chainLength vlen s (chainSteps s.fcMapV s.fPrevV fuel f) f) ∧
        ∀ b ∈ chainOf s.fPrevV (chainSteps s.fcMapV s.fPrevV fuel f) f,
          idx? fr' b = some
            (if chainLength vlen s (chainSteps s.fcMapV s.fPrevV fuel f) f = 0 then none
             else some (edgeLength vlen s b /
               chainLength vlen s (chainSteps s.fcMapV s.fPrevV fuel f) f))) ∧
      (∀ x : Int, (∀ (i' : Nat) (f : Int), i ≤ i' → i' < i + k → s.cfMapV[i']? = some f →
        x ∉ chainOf s.fPrevV (chainSteps s.fcMapV s.fPrevV fuel f) f) → idx? fr' x = idx? fr x) ∧
      (∀ i' : Nat, i' < i ∨ i + k ≤ i' → cLength'[i']? = cLength[i']?) := by
  induction k generalizing i cLength fr with
  | zero =>
    exact ⟨cLength, fr, rfl, fun i' f h1 h2 => by omega, fun x _ => rfl, fun i' _ => rfl⟩
  | succ k ih =>
    have hic : i < s.cfMapV.length := by omega
    obtain ⟨j, e, hj, -, hj1⟩ := climbable_cfMap s h i _ (List.getElem?_eq_getElem hic)
    have hcf : s.cfMapV[i]? = some (j : Int) := by rw [List.getElem?_eq_getElem hic, e]
    have hcl0 : cLength[i]? = some 0 := hz i (le_refl _) (by omega)
    obtain ⟨-, -, -, g6, g7, g8⟩ := chainLoop_spec vlen s h fuel j [] 0 (hj1 hi) hj (by omega)
    rw [List.append_nil, zero_add] at g8
    obtain ⟨fr1, e1, e2, e3, e4⟩ := fractionLoop_spec
      (chainLength vlen s (chainSteps s.fcMapV s.fPrevV fuel (j : Int)) (j : Int))
      ((chainOf s.fPrevV (chainSteps s.fcMapV s.fPrevV fuel (j : Int)) (j : Int)).map
        (fun j => (j, edgeLength vlen s j))).reverse fr
      (by
        intro x hx
        rw [List.mem_reverse] at hx
        obtain ⟨b, hb, rfl⟩ := List.mem_map.1 hx
        have := g6 b hb
        dsimp only
        omega)
      (by
        rw [List.map_reverse, List.nodup_reverse, List.map_map]
        have : ((fun x : Int × ℚ => x.1) ∘ fun j => (j, edgeLength vlen s j)) = id := rfl
        rw [this, List.map_id]
        exact g7.imp (fun hab => by omega))
    obtain ⟨cLength', fr', e5, e6, e7, e8⟩ := ih (i + 1)
      (cLength.set i (chainLength vlen s (chainSteps s.fcMapV s.fPrevV fuel (j : Int)) (j : Int)))
      fr1 (by omega) (by omega) (by simpa using hcl) (by omega)
      (by
        intro i' h1 h2
        rw [List.getElem?_set_ne (by omega)]
        exact hz i' (by omega) (by simpa using h2))
    refine ⟨cLength', fr', by simp only [lengthLoop, hcf, hcl0, g8, e1, e5], ?_, ?_, ?_⟩
    · intro i' f h1 h2 hf'
      rcases Nat.eq_or_lt_of_le h1 with heq | hlt
      · subst heq
        rw [hcf, Option.some.injEq] at hf'
        subst hf'
        refine ⟨?_, ?_⟩
        · rw [e8 i (Or.inl (by omega)), List.getElem?_set_self (by omega)]
        · intro b hb
          rw [e7 b (fun i' f' h1' h2' hf'' =>
            chains_disjoint s h hc hk he fuel hf i i' (j : Int) f' b hi (by omega) (by omega)
              hcf hf'' hb)]
          exact e3 (b, edgeLength vlen s b)
            (List.mem_reverse.2 (List.mem_map.2 ⟨b, hb, rfl⟩))
      · exact e6 i' f (by omega) (by omega) hf'
    · intro x hx
      rw [e7 x (fun i' f h1 h2 hf' => hx i' f (by omega) (by omega) hf')]
      apply e4
      rw [List.map_reverse, List.mem_reverse, List.map_map]
      have : ((fun x : Int × ℚ => x.1) ∘ fun j => (j, edgeLength vlen s j)) = id := rfl
      rw [this, List.map_id]
      exact hx i (j : Int) (le_refl _) (by omega) hcf
    · intro i' hi'
      rw [e8 i' (by omega), List.getElem?_set_ne (by omega)]
theorem sum_map_div (l : List Int) (g : Int → ℚ) (t : ℚ) :
    (l.map (fun b => g b / t)).sum = (l.map g).sum / t := by
  induction l with
  | nil => simp
  | cons b rest ih =>
    simp only [List.map_cons, List.sum_cons, ih]
    ring

/-- A tree held by `rnodes` is held by every vector that keeps the nodes from `c` on. -/
theorem treeAt_mono {Rec : Type} (rnodes rnodes' : List (RNode Rec)) (t : BTree) (c : Int)
    (h : treeAt rnodes t c)
    (hm : ∀ (j : Int) (nd : RNode Rec), c ≤ j → idx? rnodes j = some nd →
      idx? rnodes' j = some nd) : treeAt rnodes' t c := by
  induction t generalizing c with
  | leaf k =>
    obtain ⟨nd, h1, h2, h3⟩ := h
    exact ⟨nd, hm c nd (le_refl _) h1, h2, h3⟩
  | node l r ihl ihr =>
    obtain ⟨nd, h1, h2, h3, h4, h5, h6⟩ := h
    exact ⟨nd, hm c nd (le_refl _) h1, h2, h3, h4,
      ihl nd.child1 h5 (fun j n hj => hm j n (by omega)),
      ihr nd.child2 h6 (fun j n hj => hm j n (by omega))⟩

theorem treeAt_depth {Rec : Type} (rnodes : List (RNode Rec)) (t : BTree) (c : Int)
    (h : treeAt rnodes t c) : 0 ≤ c ∧ c + (t.depth : Int) ≤ (rnodes.length : Int) := by
  induction t generalizing c with
  | leaf k =>
    obtain ⟨nd, h1, -⟩ := h
    have := idx?_some_lt _ _ _ h1
    simp only [BTree.depth]
    omega
  | node l r ihl ihr =>
    obtain ⟨nd, h1, h2, h3, h4, h5, h6⟩ := h
    have := idx?_some_lt _ _ _ h1
    have hl := ihl _ h5
    have hr := ihr _ h6
    simp only [BTree.depth]
    omega

/-- The traversal `leavesOf` lists the leaves of the tree at node `c`. -/
theorem leavesOf_treeAt {Rec : Type} (rnodes : List (RNode Rec)) (t : BTree) (c : Int)
    (fuel : Nat) (h : treeAt rnodes t c) (hf : t.depth ≤ fuel) :
    leavesOf rnodes fuel c = t.leaves := by
  induction t generalizing c fuel with
  | leaf k =>
    obtain ⟨nd, h1, h2, h3⟩ := h
    obtain ⟨f, rfl⟩ : ∃ f, fuel = f + 1 := ⟨fuel - 1, by simp only [BTree.depth] at hf; omega⟩
    simp [leavesOf, h1, h2, h3, BTree.leaves]
  | node l r ihl ihr =>
    obtain ⟨nd, h1, h2, h3, h4, h5, h6⟩ := h
    simp only [BTree.depth] at hf
    obtain ⟨f, rfl⟩ : ∃ f, fuel = f + 1 := ⟨fuel - 1, by omega⟩
    simp only [leavesOf, h1, ge_iff_le, h2, if_true, BTree.leaves]
    rw [ihl _ f h5 (by omega), ihr _ f h6 (by omega)]

/-- The first `h` entries of a vector without repetition are the entries that are among
its first `h` entries. -/
theorem filter_mem_take (l : List Int) (h : Nat) (hn : l.Nodup) :
    l.filter (fun x => x ∈ l.take h) = l.take h := by
  conv_lhs => rw [← List.take_append_drop h l]
  rw [List.filter_append]
  have h1 : (l.take h).filter (fun x => x ∈ (l.take h ++ l.drop h).take h) = l.take h := by
    rw [List.take_append_drop, List.filter_eq_self]
    intro a ha
    simpa using ha
  have h2 : (l.drop h).filter (fun x => x ∈ (l.take h ++ l.drop h).take h) = [] := by
    rw [List.take_append_drop, List.filter_eq_nil_iff]
    intro a ha
    have := List.disjoint_take_drop hn (le_refl h)
    simp only [decide_eq_true_eq]
    exact fun h' => this h' ha
  rw [h1, h2, List.append_nil]
/-- ObjectProjector::initHelper on index vectors that are permutations of one another,
without repetition, of valid object indices: it returns, keeps the nodes it found,
and the new nodes hold a tree whose leaves are the indices of `orders[0]`. -/
theorem initHelper_spec {Obj Vec Rec : Type} (g : Geometry Obj Vec Rec) (objs : List Obj)
    (Dim fuel : Nat) (orders : List (List Int)) (curDim : Nat) (rnodes : List (RNode Rec))
    (o0 : List Int) (hD : orders.length = Dim) (hc : curDim < Dim)
    (h0 : orders[0]? = some o0) (hperm : ∀ o ∈ orders, o.Perm o0) (hnd : o0.Nodup)
    (h1 : 1 ≤ o0.length) (hf : o0.length ≤ fuel)
    (hv : ∀ k ∈ o0, 0 ≤ k ∧ k < (objs.length : Int)) :
    ∃ rnodes' t, initHelper g objs Dim fuel orders curDim rnodes =
        some ((rnodes.length : Int), rnodes') ∧
      rnodes.length < rnodes'.length ∧
      (∀ j : Nat, j < rnodes.length → rnodes'[j]? = rnodes[j]?) ∧
      treeAt rnodes' t (rnodes.length : Int) ∧ t.leaves.Perm o0 := by
  induction fuel generalizing orders curDim rnodes o0 with
  | zero => omega
  | succ fuel ih =>
    unfold initHelper
    simp only [h0]
    by_cases hnum : o0.length = 1
    · obtain ⟨k, rfl⟩ := List.length_eq_one.1 hnum
      obtain ⟨hk0, hk1⟩ := hv k (List.mem_singleton_self k)
      obtain ⟨ob, hob⟩ := idx?_isSome objs k hk0 hk1
      refine ⟨(rnodes ++ [(⟨g.rzero, 0, 0⟩ : RNode Rec)]).set rnodes.length ⟨g.boundingRect ob, -1, k⟩,
        BTree.leaf k, ?_, by simp, ?_, ?_, List.Perm.refl _⟩
      · simp [hob]
      · intro j hj
        rw [List.getElem?_set_ne (by omega), List.getElem?_append_left hj]
      · refine ⟨⟨g.boundingRect ob, -1, k⟩, ?_, rfl, rfl⟩
        rw [idx?_natCast, List.getElem?_set_self (by simp)]
    · have hlen : ∀ o ∈ orders, o.length = o0.length := fun o ho => (hperm o ho).length_eq
      have hcd : curDim < orders.length := by omega
      have hoc : orders[curDim]? = some orders[curDim] := List.getElem?_eq_getElem hcd
      have hocm : orders[curDim] ∈ orders := List.getElem_mem _
      have hocp := hperm _ hocm
      have hocn : (orders[curDim]).Nodup := hocp.nodup_iff.2 hnd
      have hguard : ¬ ((orders[curDim]).length < o0.length / 2 ∨
          orders.any (fun o => decide (o.length < o0.length)) = true) := by
        rw [not_or]
        refine ⟨by rw [hlen _ hocm]; omega, ?_⟩
        rw [List.any_eq_true]
        rintro ⟨o, ho, hlt⟩
        have := hlen o ho
        simp only [decide_eq_true_eq] at hlt
        omega
      have hm1 : orders.map (fun o => (o.take o0.length).filter
            (fun x => decide (x ∈ (orders[curDim]).take (o0.length / 2)))) =
          orders.map (fun o => o.filter
            (fun x => decide (x ∈ (orders[curDim]).take (o0.length / 2)))) := by
        apply List.map_congr_left
        intro o ho
        have ht : o.take o0.length = o := List.take_of_length_le (by rw [hlen o ho])
        rw [ht]
      have hm2 : orders.map (fun o => (o.take o0.length).filter
            (fun x => decide (¬ x ∈ (orders[curDim]).take (o0.length / 2)))) =
          orders.map (fun o => o.filter
            (fun x => decide (¬ x ∈ (orders[curDim]).take (o0.length / 2)))) := by
        apply List.map_congr_left
        intro o ho
        have ht : o.take o0.length = o := List.take_of_length_le (by rw [hlen o ho])
        rw [ht]
      simp only [if_neg hnum, hoc, if_neg hguard, hm1, hm2]
      have hD' : 0 < Dim := by omega
      -- the left half
      have hl1 : (o0.filter
          (fun x => decide (x ∈ (orders[curDim]).take (o0.length / 2)))).length =
          o0.length / 2 := by
        rw [(hocp.symm.filter _).length_eq, filter_mem_take _ _ hocn, List.length_take,
          hlen _ hocm]
        omega
      have hl2 : (o0.filter
          (fun x => decide (¬ x ∈ (orders[curDim]).take (o0.length / 2)))).length =
          o0.length - o0.length / 2 := by
        have := List.length_eq_length_filter_add
          (fun x => decide (x ∈ (orders[curDim]).take (o0.length / 2))) (l := o0)
        have e : (fun x => decide (¬ x ∈ (orders[curDim]).take (o0.length / 2))) =
            (fun x => ! decide (x ∈ (orders[curDim]).take (o0.length / 2))) := by
          funext x
          simp
        rw [e]
        omega
      obtain ⟨rn1, t1, e1, l1, p1, a1, q1⟩ := ih
        (orders.map (fun o => o.filter
          (fun x => decide (x ∈ (orders[curDim]).take (o0.length / 2)))))
        ((curDim + 1) % Dim) (rnodes ++ [(⟨g.rzero, 0, 0⟩ : RNode Rec)])
        (o0.filter (fun x => decide (x ∈ (orders[curDim]).take (o0.length / 2))))
        (by simp [hD]) (Nat.mod_lt _ hD') (by simp [h0])
        (by
          intro o ho
          obtain ⟨o', ho', rfl⟩ := List.mem_map.1 ho
          exact (hperm o' ho').filter _)
        (hnd.filter _) (by rw [hl1]; omega) (by rw [hl1]; omega)
        (fun k hk => hv k (List.mem_of_mem_filter hk))
      obtain ⟨rn2, t2, e2, l2, p2, a2, q2⟩ := ih
        (orders.map (fun o => o.filter
          (fun x => decide (¬ x ∈ (orders[curDim]).take (o0.length / 2)))))
        ((curDim + 1) % Dim) rn1
        (o0.filter (fun x => decide (¬ x ∈ (orders[curDim]).take (o0.length / 2))))
        (by simp [hD]) (Nat.mod_lt _ hD') (by simp [h0])
        (by
          intro o ho
          obtain ⟨o', ho', rfl⟩ := List.mem_map.1 ho
          exact (hperm o' ho').filter _)
        (hnd.filter _) (by rw [hl2]; omega) (by rw [hl2]; omega)
        (fun k hk => hv k (List.mem_of_mem_filter hk))
      simp only [List.length_append, List.length_singleton] at e1 l1 a1
      have hc1 : idx? rn2 ((rnodes.length + 1 : Nat) : Int) = some rn1[rnodes.length + 1] := by
        rw [idx?_natCast, p2 _ l1, List.getElem?_eq_getElem l1]
      have hc2 : idx? rn2 (rn1.length : Int) = some rn2[rn1.length] := by
        rw [idx?_natCast, List.getElem?_eq_getElem l2]
      have hout : rnodes.length < rn2.length := by omega
      refine ⟨rn2.set rnodes.length
          ⟨g.union (rn1[rnodes.length + 1]).rect (rn2[rn1.length]).rect,
            ((rnodes.length + 1 : Nat) : Int), (rn1.length : Int)⟩,
        BTree.node t1 t2, ?_, by simpa using hout, ?_, ?_, ?_⟩
      · simp only [e1, e2, hc1, hc2, hout, if_true]
      · intro j hj
        rw [List.getElem?_set_ne (by omega), p2 j (by omega), p1 j (by simp; omega),
          List.getElem?_append_left hj]
      · refine ⟨_, by rw [idx?_natCast, List.getElem?_set_self hout], by dsimp only; omega,
          by dsimp only; omega, by dsimp only; omega, ?_, ?_⟩
        · apply treeAt_mono rn1 _ t1 _ a1
          intro j nd hj hnd'
          obtain ⟨hj0, hj1⟩ := (idx?_eq_some _ _ _).1 hnd'
          have hjl := (List.getElem?_eq_some.1 hj1).1
          rw [idx?_eq_some]
          refine ⟨hj0, ?_⟩
          rw [List.getElem?_set_ne (by simp at hj; omega), p2 _ hjl]
          exact hj1
        · apply treeAt_mono rn2 _ t2 _ a2
          intro j nd hj hnd'
          obtain ⟨hj0, hj1⟩ := (idx?_eq_some _ _ _).1 hnd'
          rw [idx?_eq_some]
          refine ⟨hj0, ?_⟩
          rw [List.getElem?_set_ne (by omega)]
          exact hj1
      · simp only [BTree.leaves]
        have e : (fun x => decide (¬ x ∈ (orders[curDim]).take (o0.length / 2))) =
            (fun x => ! decide (x ∈ (orders[curDim]).take (o0.length / 2))) := by
          funext x
          simp
        rw [e] at q2
        exact (q1.append q2).trans (List.filter_append_perm _ _)
theorem treeAt_idx {Rec : Type} (rnodes : List (RNode Rec)) (t : BTree) (c : Int)
    (h : treeAt rnodes t c) : ∃ nd, idx? rnodes c = some nd := by
  cases t with
  | leaf k =>
    obtain ⟨nd, h1, -⟩ := h
    exact ⟨nd, h1⟩
  | node l r =>
    obtain ⟨nd, h1, -⟩ := h
    exact ⟨nd, h1⟩

theorem size_pos (t : BTree) : 1 ≤ t.size := by
  cases t <;> simp only [BTree.size] <;> omega

theorem swapTop_forall₂ (R : ℚ × Int → BTree → Prop) (todo : List (ℚ × Int)) (ts : List BTree)
    (h : List.Forall₂ R todo ts) :
    ∃ ts', List.Forall₂ R (swapTop todo) ts' ∧ ts'.Perm ts := by
  cases h with
  | nil => exact ⟨[], List.Forall₂.nil, List.Perm.refl _⟩
  | cons ha hrest =>
    cases hrest with
    | nil => exact ⟨_, List.Forall₂.cons ha List.Forall₂.nil, List.Perm.refl _⟩
    | cons hb hrest =>
      rename_i a ta b tb rest trest
      simp only [swapTop]
      split
      · exact ⟨tb :: ta :: trest, List.Forall₂.cons hb (List.Forall₂.cons ha hrest),
          List.Perm.swap _ _ _⟩
      · exact ⟨ta :: tb :: trest, List.Forall₂.cons ha (List.Forall₂.cons hb hrest),
          List.Perm.refl _⟩

theorem push_forall₂ (R : ℚ × Int → BTree → Prop) (todo : List (ℚ × Int)) (ts : List BTree)
    (h : List.Forall₂ R todo ts) (e : ℚ × Int) (t : BTree) (c : Prop) [Decidable c]
    (hR : c → R e t) :
    List.Forall₂ R (if c then e :: todo else todo) (if c then t :: ts else ts) := by
  by_cases hc : c
  · rw [if_pos hc, if_pos hc]
    exact List.Forall₂.cons (hR hc) h
  · rw [if_neg hc, if_neg hc]
    exact h

theorem mem_push (ts : List BTree) (t x : BTree) (c : Prop) [Decidable c]
    (h : x ∈ (if c then t :: ts else ts)) : (x = t ∧ c) ∨ x ∈ ts := by
  by_cases hc : c
  · rw [if_pos hc] at h
    rcases List.mem_cons.1 h with e | e
    · exact Or.inl ⟨e, hc⟩
    · exact Or.inr e
  · rw [if_neg hc] at h
    exact Or.inr h

theorem sum_push (ts : List BTree) (t : BTree) (c : Prop) [Decidable c] :
    ((if c then t :: ts else ts).map BTree.size).sum ≤ t.size + (ts.map BTree.size).sum := by
  by_cases hc : c
  · rw [if_pos hc]
    simp
  · rw [if_neg hc]
    omega

theorem subset_push (ts : List BTree) (t x : BTree) (c : Prop) [Decidable c] (h : x ∈ ts) :
    x ∈ (if c then t :: ts else ts) := by
  by_cases hc : c
  · rw [if_pos hc]
    exact List.mem_cons_of_mem _ h
  · rw [if_neg hc]
    exact h

theorem self_push (ts : List BTree) (t : BTree) (c : Prop) [Decidable c] (hc : c) :
    t ∈ (if c then t :: ts else ts) := by
  rw [if_pos hc]
  exact List.mem_cons_self _ _

/-- The lower bound at a node of the hierarchy that holds a tree. -/
theorem lowerBounds_treeAt {Obj Vec Rec : Type} (g : Geometry Obj Vec Rec) (objs : List Obj)
    (rnodes : List (RNode Rec)) (p : Vec) (hLB : lowerBounds g objs rnodes p) (t : BTree)
    (c : Int) (nd : RNode Rec) (ht : treeAt rnodes t c) (hnd : idx? rnodes c = some nd)
    (k : Int) (hk : k ∈ t.leaves) (ob : Obj) (hob : idx? objs k = some ob) :
    g.distSqTo nd.rect p ≤ g.distSq p (g.projectObj ob p) := by
  obtain ⟨hc0, hd⟩ := treeAt_depth rnodes t c ht
  obtain ⟨-, hnd'⟩ := (idx?_eq_some _ _ _).1 hnd
  have hlt : c.toNat < rnodes.length := (List.getElem?_eq_some.1 hnd').1
  have hl := leavesOf_treeAt rnodes t c rnodes.length ht (by omega)
  have := hLB c.toNat hlt k (by rw [Int.toNat_of_nonneg hc0, hl]; exact hk)
  simp only [boundHolds, hnd', hob, decide_eq_true_eq] at this
  exact this
/-- The loop of `project` from a stack whose entries hold trees with valid lower bounds:
it ends, with a final `minDistSq` that is at most its start value and at most the squared
distance of every object below the stack entries; either nothing was found, or the point
returned is the projection of such an object at that squared distance. -/
theorem projectLoop_spec {Obj Vec Rec : Type} (g : Geometry Obj Vec Rec) (objs : List Obj)
    (rnodes : List (RNode Rec)) (p : Vec) (hLB : lowerBounds g objs rnodes p) (fuel : Nat)
    (todo : List (ℚ × Int)) (ts : List BTree) (minDistSq : ℚ) (closestSoFar : Vec)
    (hR : List.Forall₂ (fun e t => treeAt rnodes t e.2 ∧ ∀ k ∈ t.leaves, ∃ ob,
      idx? objs k = some ob ∧ e.1 ≤ g.distSq p (g.projectObj ob p)) todo ts)
    (hf : (ts.map BTree.size).sum ≤ fuel) :
    ∃ q m, projectLoop g objs rnodes p fuel todo minDistSq closestSoFar = some q ∧
      m ≤ minDistSq ∧
      (∀ t ∈ ts, ∀ k ∈ t.leaves, ∀ ob, idx? objs k = some ob →
        m ≤ g.distSq p (g.projectObj ob p)) ∧
      ((m = minDistSq ∧ q = closestSoFar) ∨
        ∃ t ∈ ts, ∃ k ∈ t.leaves, ∃ ob, idx? objs k = some ob ∧ q = g.projectObj ob p ∧
          m = g.distSq p (g.projectObj ob p)) := by
  induction fuel generalizing todo ts minDistSq closestSoFar with
  | zero =>
    cases hR with
    | nil =>
      exact ⟨closestSoFar, minDistSq, by simp [projectLoop], le_refl _,
        fun t ht => by simp at ht, Or.inl ⟨rfl, rfl⟩⟩
    | cons ha hrest =>
      rename_i a ta rest trest
      have := size_pos ta
      simp only [List.map_cons, List.sum_cons] at hf
      omega
  | succ fuel ih =>
    cases hR with
    | nil =>
      exact ⟨closestSoFar, minDistSq, by simp [projectLoop], le_refl _,
        fun t ht => by simp at ht, Or.inl ⟨rfl, rfl⟩⟩
    | cons ha hrest =>
      rename_i a t rest ts'
      obtain ⟨l, cur⟩ := a
      obtain ⟨hta, hlb⟩ := ha
      simp only [List.map_cons, List.sum_cons] at hf
      have hsz := size_pos t
      simp only [projectLoop]
      by_cases hprune : l > minDistSq
      · rw [if_pos hprune]
        obtain ⟨q, m, e, hm, hall, hor⟩ := ih rest ts' minDistSq closestSoFar hrest (by omega)
        refine ⟨q, m, e, hm, ?_, ?_⟩
        · intro t' ht' k hk ob hob
          rcases List.mem_cons.1 ht' with e' | e'
          · subst e'
            obtain ⟨ob', hob', hle⟩ := hlb k hk
            rw [hob, Option.some.injEq] at hob'
            subst hob'
            exact le_trans hm (le_trans (le_of_lt hprune) hle)
          · exact hall t' e' k hk ob hob
        · rcases hor with h0 | ⟨t', ht', rest'⟩
          · exact Or.inl h0
          · exact Or.inr ⟨t', List.mem_cons_of_mem _ ht', rest'⟩
      · rw [if_neg hprune]
        cases t with
        | leaf k =>
          obtain ⟨nd, h1, h2, h3⟩ := hta
          obtain ⟨ob, hob, hle⟩ := hlb k (by simp [BTree.leaves])
          have hneg : ¬ (nd.child1 ≥ 0) := by rw [h2]; omega
          simp only [h1, if_neg hneg, h3, hob]
          by_cases hbetter : g.distSq p (g.projectObj ob p) ≤ minDistSq
          · rw [if_pos hbetter]
            obtain ⟨q, m, e, hm, hall, hor⟩ := ih rest ts' (g.distSq p (g.projectObj ob p))
              (g.projectObj ob p) hrest (by omega)
            refine ⟨q, m, e, le_trans hm hbetter, ?_, ?_⟩
            · intro t' ht' k' hk' ob' hob'
              rcases List.mem_cons.1 ht' with e' | e'
              · subst e'
                simp only [BTree.leaves, List.mem_singleton] at hk'
                subst hk'
                rw [hob, Option.some.injEq] at hob'
                subst hob'
                exact hm
              · exact hall t' e' k' hk' ob' hob'
            · rcases hor with ⟨h0, h0'⟩ | ⟨t', ht', rest'⟩
              · exact Or.inr ⟨BTree.leaf k, List.mem_cons_self _ _, k, by simp [BTree.leaves],
                  ob, hob, h0', h0⟩
              · exact Or.inr ⟨t', List.mem_cons_of_mem _ ht', rest'⟩
          · rw [if_neg hbetter]
            obtain ⟨q, m, e, hm, hall, hor⟩ := ih rest ts' minDistSq closestSoFar hrest
              (by omega)
            refine ⟨q, m, e, hm, ?_, ?_⟩
            · intro t' ht' k' hk' ob' hob'
              rcases List.mem_cons.1 ht' with e' | e'
              · subst e'
                simp only [BTree.leaves, List.mem_singleton] at hk'
                subst hk'
                rw [hob, Option.some.injEq] at hob'
                subst hob'
                exact le_trans hm (le_of_lt (lt_of_not_le hbetter))
              · exact hall t' e' k' hk' ob' hob'
            · rcases hor with h0 | ⟨t', ht', rest'⟩
              · exact Or.inl h0
              · exact Or.inr ⟨t', List.mem_cons_of_mem _ ht', rest'⟩
        | node tl tr =>
          obtain ⟨nd, h1, h2, -, -, h5, h6⟩ := hta
          obtain ⟨n1, hn1⟩ := treeAt_idx rnodes tl _ h5
          obtain ⟨n2, hn2⟩ := treeAt_idx rnodes tr _ h6
          have hpos : nd.child1 ≥ 0 := h2
          simp only [h1, if_pos hpos, hn1, hn2]
          have hvl : ∀ k ∈ tl.leaves, ∃ ob, idx? objs k = some ob ∧
              g.distSqTo n1.rect p ≤ g.distSq p (g.projectObj ob p) := by
            intro k hk
            obtain ⟨ob, hob, -⟩ := hlb k (by simp [BTree.leaves, hk])
            exact ⟨ob, hob, lowerBounds_treeAt g objs rnodes p hLB tl _ n1 h5 hn1 k hk ob hob⟩
          have hvr : ∀ k ∈ tr.leaves, ∃ ob, idx? objs k = some ob ∧
              g.distSqTo n2.rect p ≤ g.distSq p (g.projectObj ob p) := by
            intro k hk
            obtain ⟨ob, hob, -⟩ := hlb k (by simp [BTree.leaves, hk])
            exact ⟨ob, hob, lowerBounds_treeAt g objs rnodes p hLB tr _ n2 h6 hn2 k hk ob hob⟩
          have hR1 := push_forall₂ _ rest ts' hrest (g.distSqTo n1.rect p, nd.child1) tl
            (g.distSqTo n1.rect p < minDistSq) (fun _ => ⟨h5, hvl⟩)
          have hR2 := push_forall₂ _ _ _ hR1 (g.distSqTo n2.rect p, nd.child2) tr
            (g.distSqTo n2.rect p < minDistSq) (fun _ => ⟨h6, hvr⟩)
          obtain ⟨ts3, hR3, hperm⟩ := swapTop_forall₂ _ _ _ hR2
          have hsum : (ts3.map BTree.size).sum ≤ fuel := by
            rw [(hperm.map _).sum_eq]
            have s2 := sum_push (if g.distSqTo n1.rect p < minDistSq then tl :: ts' else ts') tr
              (g.distSqTo n2.rect p < minDistSq)
            have s1 := sum_push ts' tl (g.distSqTo n1.rect p < minDistSq)
            simp only [BTree.size] at hf
            omega
          obtain ⟨q, m, e, hm, hall, hor⟩ := ih _ ts3 minDistSq closestSoFar hR3 hsum
          refine ⟨q, m, e, hm, ?_, ?_⟩
          · intro t' ht' k hk ob hob
            rcases List.mem_cons.1 ht' with e' | e'
            · subst e'
              simp only [BTree.leaves, List.mem_append] at hk
              rcases hk with hk | hk
              · obtain ⟨ob', hob', hle⟩ := hvl k hk
                rw [hob, Option.some.injEq] at hob'
                subst hob'
                by_cases hc : g.distSqTo n1.rect p < minDistSq
                · exact hall tl (hperm.mem_iff.2 (subset_push _ _ _ _ (self_push _ _ _ hc)))
                    k hk ob hob
                · exact le_trans hm (le_trans (not_lt.1 hc) hle)
              · obtain ⟨ob', hob', hle⟩ := hvr k hk
                rw [hob, Option.some.injEq] at hob'
                subst hob'
                by_cases hc : g.distSqTo n2.rect p < minDistSq
                · exact hall tr (hperm.mem_iff.2 (self_push _ _ _ hc)) k hk ob hob
                · exact le_trans hm (le_trans (not_lt.1 hc) hle)
            · exact hall t' (hperm.mem_iff.2 (subset_push _ _ _ _ (subset_push _ _ _ _ e')))
                k hk ob hob
          · rcases hor with h0 | ⟨t', ht', k, hk, rest'⟩
            · exact Or.inl h0
            · right
              rcases mem_push _ _ _ _ (hperm.mem_iff.1 ht') with ⟨e', -⟩ | e'
              · subst e'
                exact ⟨BTree.node tl t', List.mem_cons_self _ _, k,
                  by simp [BTree.leaves, hk], rest'⟩
              · rcases mem_push _ _ _ _ e' with ⟨e'', -⟩ | e''
                · subst e''
                  exact ⟨BTree.node t' tr, List.mem_cons_self _ _, k,
                    by simp [BTree.leaves, hk], rest'⟩
                · exact ⟨t', List.mem_cons_of_mem _ e'', k, hk, rest'⟩
theorem size_leaves (t : BTree) : t.size + 1 = 2 * t.leaves.length := by
  induction t with
  | leaf k => rfl
  | node l r ihl ihr =>
    simp only [BTree.size, BTree.leaves, List.length_append]
    omega

/-- The system with one hard constraint `x + y = 2` and one soft constraint `y = 0`, with
`x` the variable 0 and `y` the variable 1, factors and solves successfully (both calls
return true), and `getResult` gives `x = 2` and `y = 0`. -/
theorem twoVarSystem_solution :
    (twoVarSystem.factor exactSolver).map (fun r => r.1) = some true ∧
    ((twoVarSystem.factor exactSolver).bind (fun r => r.2.solve exactSolver)).map
      (fun r => (r.1, r.2.getResult 0, r.2.getResult 1)) = some (true, some 2, some 0) := by
  constructor <;> decide!


/-! ### LSQSystem: the hard constraints -/

/-! ### Maps kept as lists of pairs -/

theorem mfind_eq_none {κ β : Type} [DecidableEq κ] (m : List (κ × β)) (k : κ) :
    mfind m k = none ↔ k ∉ mkeys m := by
  induction m with
  | nil => simp [mfind, mkeys]
  | cons e rest ih =>
    obtain ⟨k', v'⟩ := e
    by_cases h : k = k'
    · simp [mfind, mkeys, h]
    · have e : mfind ((k', v') :: rest) k = mfind rest k := by simp [mfind, h]
      rw [e, ih]
      simp [mkeys, h]

theorem mfind_mem {κ β : Type} [DecidableEq κ] (m : List (κ × β)) (k : κ) (v : β)
    (h : mfind m k = some v) : (k, v) ∈ m := by
  induction m with
  | nil => simp [mfind] at h
  | cons e rest ih =>
    obtain ⟨k', v'⟩ := e
    by_cases hk : k = k'
    · simp only [mfind, hk, if_true, Option.some.injEq] at h
      rw [hk, h]
      exact List.mem_cons_self _ _
    · simp only [mfind, hk, if_false] at h
      exact List.mem_cons_of_mem _ (ih h)

theorem mfind_of_mem {κ β : Type} [DecidableEq κ] (m : List (κ × β)) (k : κ) (v : β)
    (hn : (mkeys m).Nodup) (h : (k, v) ∈ m) : mfind m k = some v := by
  induction m with
  | nil => simp at h
  | cons e rest ih =>
    obtain ⟨k', v'⟩ := e
    simp only [mkeys, List.map_cons, List.nodup_cons] at hn
    rcases List.mem_cons.1 h with h' | h'
    · simp only [Prod.mk.injEq] at h'
      simp [mfind, h'.1, h'.2]
    · have hne : k ≠ k' := by
        intro e
        apply hn.1
        rw [← e]
        exact List.mem_map.2 ⟨(k, v), h', rfl⟩
      simp only [mfind, hne, if_false]
      exact ih hn.2 h'

theorem mfind_isSome_iff {κ β : Type} [DecidableEq κ] (m : List (κ × β)) (k : κ) :
    (mfind m k).isSome = true ↔ k ∈ mkeys m := by
  rw [← not_iff_not, ← mfind_eq_none]
  cases mfind m k <;> simp

theorem mfind_mreplace {κ β : Type} [DecidableEq κ] (m : List (κ × β)) (k k' : κ) (v : β)
    (h : k ∈ mkeys m) :
    mfind (mreplace m k v) k' = if k' = k then some v else mfind m k' := by
  induction m with
  | nil => simp [mkeys] at h
  | cons e rest ih =>
    obtain ⟨k0, v0⟩ := e
    by_cases hk : k = k0
    · subst hk
      by_cases hk' : k' = k
      · simp [mreplace, mfind, hk']
      · simp [mreplace, mfind, hk']
    · have hr : k ∈ mkeys rest := by
        simp only [mkeys, List.map_cons, List.mem_cons] at h
        rcases h with h | h
        · exact absurd h hk
        · exact h
      simp only [mreplace, hk, if_false, mfind, ih hr]
      by_cases hk0 : k' = k0
      · have : ¬ (k' = k) := by rw [hk0]; exact fun e => hk e.symm
        rw [if_pos hk0, if_neg this, if_pos hk0]
      · rw [if_neg hk0, if_neg hk0]

theorem mfind_minsertSorted {κ β : Type} [DecidableEq κ] (lt : κ → κ → Bool)
    (m : List (κ × β)) (k k' : κ) (v : β) (h : k ∉ mkeys m) :
    mfind (minsertSorted lt m k v) k' = if k' = k then some v else mfind m k' := by
  induction m with
  | nil => simp [minsertSorted, mfind]
  | cons e rest ih =>
    obtain ⟨k0, v0⟩ := e
    simp only [mkeys, List.map_cons, List.mem_cons, not_or] at h
    simp only [minsertSorted]
    split
    · simp [mfind]
    · simp only [mfind, ih h.2]
      by_cases hk0 : k' = k0
      · have : ¬ (k' = k) := by rw [hk0]; exact fun e => h.1 e.symm
        rw [if_pos hk0, if_neg this, if_pos hk0]
      · rw [if_neg hk0, if_neg hk0]

/-- The lookup after the assignment `m[k] = v`. -/
theorem mfind_mset {κ β : Type} [DecidableEq κ] (lt : κ → κ → Bool) (m : List (κ × β))
    (k k' : κ) (v : β) :
    mfind (mset lt m k v) k' = if k' = k then some v else mfind m k' := by
  unfold mset
  split
  · rename_i h
    exact mfind_mreplace m k k' v ((mfind_isSome_iff m k).1 h)
  · rename_i h
    exact mfind_minsertSorted lt m k k' v (fun hm => h ((mfind_isSome_iff m k).2 hm))

theorem mkeys_mreplace {κ β : Type} [DecidableEq κ] (m : List (κ × β)) (k : κ) (v : β) :
    mkeys (mreplace m k v) = mkeys m := by
  induction m with
  | nil => rfl
  | cons e rest ih =>
    obtain ⟨k0, v0⟩ := e
    by_cases hk : k = k0
    · simp [mreplace, mkeys, hk]
    · simp only [mreplace, hk, if_false, mkeys, List.map_cons] at ih ⊢
      rw [ih]

theorem mkeys_minsertSorted {κ β : Type} (lt : κ → κ → Bool) (m : List (κ × β)) (k : κ)
    (v : β) : (mkeys (minsertSorted lt m k v)).Perm (k :: mkeys m) := by
  induction m with
  | nil => exact List.Perm.refl _
  | cons e rest ih =>
    obtain ⟨k0, v0⟩ := e
    simp only [minsertSorted]
    split
    · exact List.Perm.refl _
    · simp only [mkeys, List.map_cons] at ih ⊢
      exact (List.Perm.cons k0 ih).trans (List.Perm.swap _ _ _)

theorem mem_mkeys_mset {κ β : Type} [DecidableEq κ] (lt : κ → κ → Bool) (m : List (κ × β))
    (k k' : κ) (v : β) : k' ∈ mkeys (mset lt m k v) ↔ k' = k ∨ k' ∈ mkeys m := by
  rw [← mfind_isSome_iff, mfind_mset, ← mfind_isSome_iff]
  by_cases h : k' = k
  · simp [h]
  · simp [h]

theorem nodup_mkeys_mset {κ β : Type} [DecidableEq κ] (lt : κ → κ → Bool) (m : List (κ × β))
    (k : κ) (v : β) (h : (mkeys m).Nodup) : (mkeys (mset lt m k v)).Nodup := by
  unfold mset
  split
  · rw [mkeys_mreplace]
    exact h
  · rename_i hk
    rw [(mkeys_minsertSorted lt m k v).nodup_iff, List.nodup_cons]
    exact ⟨fun hm => hk ((mfind_isSome_iff m k).2 hm), h⟩

theorem length_mset {κ β : Type} [DecidableEq κ] (lt : κ → κ → Bool) (m : List (κ × β))
    (k : κ) (v : β) :
    (mset lt m k v).length = if k ∈ mkeys m then m.length else m.length + 1 := by
  have h1 : (mset lt m k v).length = (mkeys (mset lt m k v)).length := by simp [mkeys]
  have h2 : m.length = (mkeys m).length := by simp [mkeys]
  rw [h1, h2]
  unfold mset
  split
  · rename_i h
    rw [mkeys_mreplace, if_pos ((mfind_isSome_iff m k).1 h)]
  · rename_i h
    rw [(mkeys_minsertSorted lt m k v).length_eq,
      if_neg (fun hm => h ((mfind_isSome_iff m k).2 hm))]
    rfl

theorem mem_mset_iff {κ β : Type} [DecidableEq κ] (lt : κ → κ → Bool) (m : List (κ × β))
    (k : κ) (v : β) (hn : (mkeys m).Nodup) (e : κ × β) :
    e ∈ mset lt m k v ↔ e = (k, v) ∨ (e ∈ m ∧ e.1 ≠ k) := by
  obtain ⟨k', v'⟩ := e
  have hn' := nodup_mkeys_mset lt m k v hn
  constructor
  · intro h
    have := mfind_of_mem _ _ _ hn' h
    rw [mfind_mset] at this
    by_cases hk : k' = k
    · rw [if_pos hk, Option.some.injEq] at this
      exact Or.inl (by rw [hk, this])
    · rw [if_neg hk] at this
      exact Or.inr ⟨mfind_mem _ _ _ this, hk⟩
  · intro h
    apply mfind_mem
    rw [mfind_mset]
    rcases h with h | ⟨h, hk⟩
    · simp only [Prod.mk.injEq] at h
      rw [if_pos h.1, h.2]
    · rw [if_neg hk]
      exact mfind_of_mem _ _ _ hn h

theorem evalMap_cons {κ : Type} (x : κ → ℚ) (e : κ × ℚ) (m : List (κ × ℚ)) :
    evalMap x (e :: m) = e.2 * x e.1 + evalMap x m := by
  simp [evalMap]

theorem evalMap_nil {κ : Type} (x : κ → ℚ) : evalMap x ([] : List (κ × ℚ)) = 0 := rfl

theorem evalMap_append {κ : Type} (x : κ → ℚ) (m m' : List (κ × ℚ)) :
    evalMap x (m ++ m') = evalMap x m + evalMap x m' := by
  simp [evalMap]

theorem evalMap_perm {κ : Type} (x : κ → ℚ) (m m' : List (κ × ℚ)) (h : m.Perm m') :
    evalMap x m = evalMap x m' := by
  unfold evalMap
  exact (h.map _).sum_eq

theorem evalMap_mreplace {κ : Type} [DecidableEq κ] (x : κ → ℚ) (m : List (κ × ℚ)) (k : κ)
    (v : ℚ) (h : k ∈ mkeys m) :
    evalMap x (mreplace m k v) = evalMap x m + (v - (mfind m k).getD 0) * x k := by
  induction m with
  | nil => simp [mkeys] at h
  | cons e rest ih =>
    obtain ⟨k0, v0⟩ := e
    by_cases hk : k = k0
    · subst hk
      simp only [mreplace, if_true, evalMap_cons, mfind, Option.getD_some]
      ring
    · have hr : k ∈ mkeys rest := by
        simp only [mkeys, List.map_cons, List.mem_cons] at h
        rcases h with h | h
        · exact absurd h hk
        · exact h
      simp only [mreplace, hk, if_false, evalMap_cons, mfind, ih hr]
      ring

theorem evalMap_minsertSorted {κ : Type} (lt : κ → κ → Bool) (x : κ → ℚ) (m : List (κ × ℚ))
    (k : κ) (v : ℚ) : evalMap x (minsertSorted lt m k v) = evalMap x m + v * x k := by
  induction m with
  | nil => simp [minsertSorted, evalMap]
  | cons e rest ih =>
    obtain ⟨k0, v0⟩ := e
    simp only [minsertSorted]
    split
    · simp only [evalMap_cons]
      ring
    · simp only [evalMap_cons, ih]
      ring

/-- The value of a linear form after the assignment `m[k] = v`. -/
theorem evalMap_mset {κ : Type} [DecidableEq κ] (lt : κ → κ → Bool) (x : κ → ℚ)
    (m : List (κ × ℚ)) (k : κ) (v : ℚ) :
    evalMap x (mset lt m k v) = evalMap x m + (v - (mfind m k).getD 0) * x k := by
  unfold mset
  split
  · rename_i h
    exact evalMap_mreplace x m k v ((mfind_isSome_iff m k).1 h)
  · rename_i h
    have : mfind m k = none := by
      cases hm : mfind m k with
      | none => rfl
      | some c => rw [hm] at h; simp at h
    rw [evalMap_minsertSorted, this]
    simp

/-- The value of a linear form after `m[k] += c`. -/
theorem evalMap_maddTo {κ : Type} [DecidableEq κ] (lt : κ → κ → Bool) (x : κ → ℚ)
    (m : List (κ × ℚ)) (k : κ) (c : ℚ) :
    evalMap x (maddTo lt m k c) = evalMap x m + c * x k := by
  unfold maddTo
  rw [evalMap_mset]
  ring

/-- The value of a linear form after `m.erase(k)`. -/
theorem evalMap_merase {κ : Type} [DecidableEq κ] (x : κ → ℚ) (m : List (κ × ℚ)) (k : κ) :
    evalMap x (merase m k) = evalMap x m - (mfind m k).getD 0 * x k := by
  induction m with
  | nil => simp [merase, mfind, evalMap]
  | cons e rest ih =>
    obtain ⟨k0, v0⟩ := e
    by_cases hk : k = k0
    · subst hk
      simp only [merase, if_true, evalMap_cons, mfind, Option.getD_some]
      ring
    · simp only [merase, hk, if_false, evalMap_cons, mfind, ih]
      ring

theorem evalMap_addScaled {κ : Type} [DecidableEq κ] (lt : κ → κ → Bool) (x : κ → ℚ)
    (m sub : List (κ × ℚ)) (w : ℚ) :
    evalMap x (addScaled lt m sub w) = evalMap x m + w * evalMap x sub := by
  unfold addScaled
  induction sub generalizing m with
  | nil => simp [evalMap]
  | cons e rest ih =>
    rw [List.foldl_cons, ih, evalMap_maddTo, evalMap_cons]
    ring

theorem evalMap_subScaled {κ : Type} [DecidableEq κ] (lt : κ → κ → Bool) (x : κ → ℚ)
    (m sub : List (κ × ℚ)) (w : ℚ) :
    evalMap x (subScaled lt m sub w) = evalMap x m - w * evalMap x sub := by
  unfold subScaled
  induction sub generalizing m with
  | nil => simp [evalMap]
  | cons e rest ih =>
    rw [List.foldl_cons, ih, evalMap_maddTo, evalMap_cons]
    ring

theorem evalMap_map_scale {κ : Type} (x : κ → ℚ) (m : List (κ × ℚ)) (w : ℚ) :
    evalMap x (m.map (fun e => (e.1, e.2 * w))) = w * evalMap x m := by
  induction m with
  | nil => simp [evalMap]
  | cons e rest ih =>
    rw [List.map_cons, evalMap_cons, evalMap_cons, ih]
    ring

theorem mem_mkeys_maddTo {κ : Type} [DecidableEq κ] (lt : κ → κ → Bool) (m : List (κ × ℚ))
    (k k' : κ) (c : ℚ) : k' ∈ mkeys (maddTo lt m k c) ↔ k' = k ∨ k' ∈ mkeys m :=
  mem_mkeys_mset lt m k k' _

theorem mem_mkeys_addScaled {κ : Type} [DecidableEq κ] (lt : κ → κ → Bool)
    (m sub : List (κ × ℚ)) (w : ℚ) (k : κ) :
    k ∈ mkeys (addScaled lt m sub w) ↔ k ∈ mkeys m ∨ k ∈ mkeys sub := by
  unfold addScaled
  induction sub generalizing m with
  | nil => simp [mkeys]
  | cons e rest ih =>
    rw [List.foldl_cons, ih, mem_mkeys_maddTo]
    simp only [mkeys, List.map_cons, List.mem_cons]
    tauto

theorem mem_mkeys_subScaled {κ : Type} [DecidableEq κ] (lt : κ → κ → Bool)
    (m sub : List (κ × ℚ)) (w : ℚ) (k : κ) :
    k ∈ mkeys (subScaled lt m sub w) ↔ k ∈ mkeys m ∨ k ∈ mkeys sub := by
  unfold subScaled
  induction sub generalizing m with
  | nil => simp [mkeys]
  | cons e rest ih =>
    rw [List.foldl_cons, ih, mem_mkeys_maddTo]
    simp only [mkeys, List.map_cons, List.mem_cons]
    tauto

theorem nodup_mkeys_addScaled {κ : Type} [DecidableEq κ] (lt : κ → κ → Bool)
    (m sub : List (κ × ℚ)) (w : ℚ) (h : (mkeys m).Nodup) :
    (mkeys (addScaled lt m sub w)).Nodup := by
  unfold addScaled
  induction sub generalizing m with
  | nil => exact h
  | cons e rest ih =>
    rw [List.foldl_cons]
    exact ih _ (nodup_mkeys_mset lt m _ _ h)

theorem mkeys_merase_sublist {κ β : Type} [DecidableEq κ] (m : List (κ × β)) (k : κ) :
    (mkeys (merase m k)).Sublist (mkeys m) := by
  induction m with
  | nil => exact List.Sublist.refl _
  | cons e rest ih =>
    obtain ⟨k0, v0⟩ := e
    by_cases hk : k = k0
    · simp only [merase, hk, if_true, mkeys, List.map_cons]
      exact List.sublist_cons_self _ _
    · simp only [merase, hk, if_false, mkeys, List.map_cons]
      exact List.Sublist.cons₂ _ ih

theorem not_mem_mkeys_merase {κ β : Type} [DecidableEq κ] (m : List (κ × β)) (k : κ)
    (h : (mkeys m).Nodup) : k ∉ mkeys (merase m k) := by
  induction m with
  | nil => simp [merase, mkeys]
  | cons e rest ih =>
    obtain ⟨k0, v0⟩ := e
    simp only [mkeys, List.map_cons, List.nodup_cons] at h
    by_cases hk : k = k0
    · simp only [merase, hk, if_true]
      exact h.1
    · have e : merase ((k0, v0) :: rest) k = (k0, v0) :: merase rest k := by
        simp [merase, hk]
      rw [e]
      simp only [mkeys, List.map_cons, List.mem_cons, not_or]
      exact ⟨hk, ih h.2⟩

/-! ### The row reduction of the hard constraints -/

theorem swapPop_concat {α : Type} (init : List α) (x : α) (i : Nat) :
    swapPop (init ++ [x]) i = if i < init.length then init.set i x else init := by
  have hlast : (init ++ [x]).getLast? = some x := by simp
  simp only [swapPop, hlast]
  split
  · rename_i hlt
    rw [List.set_append_left _ _ hlt, List.dropLast_concat]
  · rename_i hge
    rw [List.set_append_right _ _ (by omega)]
    rcases Nat.eq_zero_or_pos (i - init.length) with e | e
    · rw [e]
      simp
    · obtain ⟨m, hm⟩ : ∃ m, i - init.length = m + 1 := ⟨i - init.length - 1, by omega⟩
      rw [hm]
      simp

theorem swapPop_perm {α : Type} (l : List α) (i : Nat) (hi : i < l.length) :
    l.Perm (l[i] :: swapPop l i) := by
  have hne : l ≠ [] := by
    intro h
    rw [h] at hi
    simp at hi
  obtain ⟨init, x, rfl⟩ : ∃ init x, l = init ++ [x] :=
    ⟨l.dropLast, l.getLast hne, (List.dropLast_append_getLast hne).symm⟩
  rw [swapPop_concat]
  rcases Nat.lt_or_ge i init.length with hlt | hge
  · rw [if_pos hlt]
    have e2 : (init ++ [x])[i] = init[i] := by
      rw [List.getElem_append_left hlt]
    rw [e2]
    have h1 : (init ++ [x]).Perm (x :: init) := List.perm_append_singleton x init
    have h2 : (init.set i x).Perm (x :: init.eraseIdx i) := by
      rw [List.set_eq_take_append_cons_drop, if_pos hlt, List.eraseIdx_eq_take_drop_succ]
      exact List.perm_middle
    have h3 : init.Perm (init[i] :: init.eraseIdx i) := by
      rw [List.eraseIdx_eq_take_drop_succ]
      have e : init = init.take i ++ init[i] :: init.drop (i + 1) := by
        conv_lhs => rw [← List.take_append_drop i init, List.drop_eq_getElem_cons hlt]
      conv_lhs => rw [e]
      exact List.perm_middle
    exact h1.trans ((List.Perm.cons x h3).trans ((List.Perm.swap _ _ _).trans
      (List.Perm.cons _ h2.symm)))
  · have hi' : i = init.length := by
      simp at hi
      omega
    subst hi'
    have e2 : (init ++ [x])[init.length] = x := by simp
    rw [if_neg (by omega), e2]
    exact List.perm_append_singleton x init

theorem swapPop_length {α : Type} (l : List α) (i : Nat) (hi : i < l.length) :
    (swapPop l i).length + 1 = l.length := by
  have := (swapPop_perm l i hi).length_eq
  simp at this
  omega

/-- The entries of a vector after `swap(v[i], v.back()); v.pop_back();`. -/
theorem getElem?_swapPop {α : Type} (l : List α) (i j : Nat) (hi : i < l.length) :
    (swapPop l i)[j]? =
      if j + 1 < l.length then (if j = i then l[l.length - 1]? else l[j]?) else none := by
  have hne : l ≠ [] := by
    intro h
    rw [h] at hi
    simp at hi
  obtain ⟨init, x, rfl⟩ : ∃ init x, l = init ++ [x] :=
    ⟨l.dropLast, l.getLast hne, (List.dropLast_append_getLast hne).symm⟩
  rw [swapPop_concat]
  simp only [List.length_append, List.length_singleton, Nat.add_sub_cancel]
  have hx : (init ++ [x])[init.length]? = some x := by simp
  rw [hx]
  by_cases hj : j + 1 < init.length + 1
  · rw [if_pos hj]
    have hj' : j < init.length := by omega
    by_cases hlt : i < init.length
    · rw [if_pos hlt, List.getElem?_set]
      by_cases hji : j = i
      · rw [if_pos hji.symm, if_pos hji, if_pos (by omega)]
      · rw [if_neg (fun e => hji e.symm), if_neg hji, List.getElem?_append_left hj']
    · rw [if_neg hlt]
      have hji : j ≠ i := by omega
      rw [if_neg hji, List.getElem?_append_left hj']
  · rw [if_neg hj]
    have hlen : (if i < init.length then init.set i x else init).length = init.length := by
      split <;> simp
    exact List.getElem?_eq_none (by rw [hlen]; omega)

/-- What the pivot search has found: a hard constraint `bestEq` and an entry for `bestVar`
in it whose weighted absolute value is `bestVal`. -/
theorem pivotRow_spec {V : Type} (i size : Nat) (row : List (V × ℚ)) (best : Pivot V) :
    (pivotRow i size row best).1 = best ∨
      ((pivotRow i size row best).1.bestEq = (i : Int) ∧
        ∃ c, ((pivotRow i size row best).1.bestVar, c) ∈ row ∧
          (pivotRow i size row best).1.bestVal = |c| / ((size : ℚ) - 9 / 10)) := by
  induction row generalizing best with
  | nil => exact Or.inl rfl
  | cons e rest ih =>
    obtain ⟨v, c⟩ := e
    simp only [pivotRow]
    split
    · split
      · exact Or.inr ⟨rfl, c, List.mem_cons_self _ _, rfl⟩
      · rcases ih ⟨v, i, |c| / ((size : ℚ) - 9 / 10)⟩ with h | ⟨h1, c', h2, h3⟩
        · rw [h]
          exact Or.inr ⟨rfl, c, List.mem_cons_self _ _, rfl⟩
        · exact Or.inr ⟨h1, c', List.mem_cons_of_mem _ h2, h3⟩
    · rcases ih best with h | ⟨h1, c', h2, h3⟩
      · exact Or.inl h
      · exact Or.inr ⟨h1, c', List.mem_cons_of_mem _ h2, h3⟩

theorem pivotSearch_spec {V : Type} (i0 : Nat) (H : List (List (V × ℚ))) (best : Pivot V) :
    pivotSearch i0 H best = best ∨
      ∃ (j : Nat) (row : List (V × ℚ)) (c : ℚ), H[j]? = some row ∧
        (pivotSearch i0 H best).bestEq = ((i0 + j : Nat) : Int) ∧
        ((pivotSearch i0 H best).bestVar, c) ∈ row ∧
        (pivotSearch i0 H best).bestVal = |c| / ((row.length : ℚ) - 9 / 10) := by
  induction H generalizing i0 best with
  | nil => exact Or.inl rfl
  | cons h hs ih =>
    simp only [pivotSearch]
    have hrow := pivotRow_spec i0 h.length h best
    rcases hp : pivotRow i0 h.length h best with ⟨b1, brk⟩
    rw [hp] at hrow
    dsimp only at hrow
    cases brk with
    | true =>
      dsimp only
      rcases hrow with e | ⟨e1, c, e2, e3⟩
      · exact Or.inl e
      · exact Or.inr ⟨0, h, c, by simp, by simpa using e1, e2, e3⟩
    | false =>
      dsimp only
      rcases ih (i0 + 1) b1 with e | ⟨j, row, c, e0, e1, e2, e3⟩
      · rw [e]
        rcases hrow with e' | ⟨e1, c, e2, e3⟩
        · exact Or.inl e'
        · exact Or.inr ⟨0, h, c, by simp, by simpa using e1, e2, e3⟩
      · exact Or.inr ⟨j + 1, row, c, by simpa using e0,
          by rw [e1]; congr 1; omega, e2, e3⟩

/-- The substitution `curSub` that the pivot step reads off the hard constraint `back`,
whose keys are pairwise different. -/
theorem curSub_spec {V : Type} [LinearOrder V] (b : V) (f : ℚ) (back cs0 : List (V × ℚ))
    (hn : (mkeys back).Nodup) (hd : ∀ k ∈ mkeys back, k ∉ mkeys cs0)
    (hn0 : (mkeys cs0).Nodup) :
    (∀ x : V → ℚ, evalMap x (back.foldl
        (fun cs e => if e.1 ≠ b then mset varLt cs e.1 (e.2 * f) else cs) cs0) =
      evalMap x cs0 + f * (evalMap x back - (mfind back b).getD 0 * x b)) ∧
    (∀ k, k ∈ mkeys (back.foldl
        (fun cs e => if e.1 ≠ b then mset varLt cs e.1 (e.2 * f) else cs) cs0) ↔
      k ∈ mkeys cs0 ∨ (k ∈ mkeys back ∧ k ≠ b)) ∧
    (mkeys (back.foldl
        (fun cs e => if e.1 ≠ b then mset varLt cs e.1 (e.2 * f) else cs) cs0)).Nodup := by
  induction back generalizing cs0 with
  | nil =>
    refine ⟨fun x => by simp [evalMap, mfind], fun k => by simp [mkeys], hn0⟩
  | cons e rest ih =>
    obtain ⟨k0, c0⟩ := e
    simp only [mkeys, List.map_cons, List.nodup_cons] at hn
    have hk0 : k0 ∉ mkeys cs0 := hd k0 (by simp [mkeys])
    rw [List.foldl_cons]
    by_cases hb : k0 = b
    · subst hb
      have hnone : mfind rest k0 = none := (mfind_eq_none rest k0).2 hn.1
      obtain ⟨i1, i2, i3⟩ := ih cs0 hn.2
        (fun k hk => hd k (by simp only [mkeys, List.map_cons]; exact List.mem_cons_of_mem _ hk))
        hn0
      simp only [ne_eq, not_true_eq_false, if_false]
      refine ⟨?_, ?_, i3⟩
      · intro x
        rw [i1 x, hnone, evalMap_cons]
        simp only [mfind, if_true, Option.getD_some, Option.getD_none]
        ring
      · intro k
        rw [i2 k]
        simp only [mkeys, List.map_cons, List.mem_cons]
        constructor
        · rintro (h | ⟨h1, h2⟩)
          · exact Or.inl h
          · exact Or.inr ⟨Or.inr h1, h2⟩
        · rintro (h | ⟨h1 | h1, h2⟩)
          · exact Or.inl h
          · exact absurd h1 h2
          · exact Or.inr ⟨h1, h2⟩
    · have hne : (k0, c0).1 ≠ b := hb
      rw [if_pos hne]
      obtain ⟨i1, i2, i3⟩ := ih (mset varLt cs0 k0 (c0 * f)) hn.2
        (by
          intro k hk
          rw [mem_mkeys_mset, not_or]
          refine ⟨?_, hd k (by simp only [mkeys, List.map_cons]; exact List.mem_cons_of_mem _ hk)⟩
          intro e
          apply hn.1
          rw [← e]
          exact hk)
        (nodup_mkeys_mset _ _ _ _ hn0)
      refine ⟨?_, ?_, i3⟩
      · intro x
        rw [i1 x, evalMap_mset, (mfind_eq_none cs0 k0).2 hk0, evalMap_cons]
        have : mfind ((k0, c0) :: rest) b = mfind rest b := by
          have hbk : ¬ (b = k0) := fun e => hb e.symm
          simp [mfind, hbk]
        rw [this]
        simp only [Option.getD_none]
        ring
      · intro k
        rw [i2 k, mem_mkeys_mset]
        simp only [mkeys, List.map_cons, List.mem_cons]
        constructor
        · rintro ((h | h) | ⟨h1, h2⟩)
          · exact Or.inr ⟨Or.inl h, by rw [h]; exact hb⟩
          · exact Or.inl h
          · exact Or.inr ⟨Or.inr h1, h2⟩
        · rintro (h | ⟨h1 | h1, h2⟩)
          · exact Or.inl (Or.inr h)
          · exact Or.inl (Or.inl h1)
          · exact Or.inr ⟨h1, h2⟩

theorem evalMap_substLhs {V : Type} [LinearOrder V] (b : V) (cs h : List (V × ℚ))
    (x : V → ℚ) :
    evalMap x (substLhs b cs h) =
      evalMap x h - (mfind h b).getD 0 * (x b - evalMap x cs) := by
  unfold substLhs
  cases hm : mfind h b with
  | none => simp
  | some w =>
    simp only [Option.getD_some]
    rw [evalMap_addScaled, evalMap_merase, hm]
    simp only [Option.getD_some]
    ring

theorem evalMap_substRhs {V C : Type} [LinearOrder V] [LinearOrder C] (b : V)
    (cr : List ((C × Int) × ℚ)) (h : List (V × ℚ)) (r : List ((C × Int) × ℚ))
    (ρ : C × Int → ℚ) :
    evalMap ρ (substRhs b cr h r) = evalMap ρ r - (mfind h b).getD 0 * evalMap ρ cr := by
  unfold substRhs
  cases hm : mfind h b with
  | none => simp
  | some w =>
    simp only [Option.getD_some]
    rw [evalMap_subScaled]

theorem mkeys_substLhs {V : Type} [LinearOrder V] (b : V) (cs h : List (V × ℚ))
    (hn : (mkeys h).Nodup) (hb : b ∉ mkeys cs) :
    (mkeys (substLhs b cs h)).Nodup ∧ b ∉ mkeys (substLhs b cs h) ∧
      ∀ k ∈ mkeys (substLhs b cs h), k ∈ mkeys h ∨ k ∈ mkeys cs := by
  unfold substLhs
  cases hm : mfind h b with
  | none =>
    exact ⟨hn, (mfind_eq_none h b).1 hm, fun k hk => Or.inl hk⟩
  | some w =>
    dsimp only
    refine ⟨nodup_mkeys_addScaled _ _ _ _ ((mkeys_merase_sublist h b).nodup hn), ?_, ?_⟩
    · rw [mem_mkeys_addScaled, not_or]
      exact ⟨not_mem_mkeys_merase h b hn, hb⟩
    · intro k hk
      rw [mem_mkeys_addScaled] at hk
      rcases hk with hk | hk
      · exact Or.inl ((mkeys_merase_sublist h b).subset hk)
      · exact Or.inr hk

theorem mkeys_substRhs {V C : Type} [LinearOrder V] [LinearOrder C] (b : V)
    (cr : List ((C × Int) × ℚ)) (h : List (V × ℚ)) (r : List ((C × Int) × ℚ)) :
    ∀ k ∈ mkeys (substRhs b cr h r), k ∈ mkeys r ∨ k ∈ mkeys cr := by
  unfold substRhs
  cases hm : mfind h b with
  | none => exact fun k hk => Or.inl hk
  | some w =>
    intro k hk
    exact (mem_mkeys_subScaled _ _ _ _ _).1 hk

/-- The substitution into the hard constraints that are left handles each constraint and
its right-hand side on their own. -/
theorem substituteHard_spec {V C : Type} [LinearOrder V] [LinearOrder C] (b : V)
    (cs : List (V × ℚ)) (cr : List ((C × Int) × ℚ)) (H : List (List (V × ℚ)))
    (HR : List (List ((C × Int) × ℚ))) (hlen : H.length = HR.length) :
    ∃ H' HR', substituteHard b cs cr H HR = some (H', HR') ∧ H'.length = H.length ∧
      HR'.length = HR.length ∧
      (∀ j : Nat, H'[j]? = (H[j]?).map (substLhs b cs)) ∧
      (∀ (j : Nat) (h : List (V × ℚ)) (r : List ((C × Int) × ℚ)), H[j]? = some h →
        HR[j]? = some r → HR'[j]? = some (substRhs b cr h r)) := by
  induction H generalizing HR with
  | nil =>
    cases HR with
    | nil => exact ⟨[], [], rfl, rfl, rfl, fun j => by simp, fun j h r hh => by simp at hh⟩
    | cons r rs => simp at hlen
  | cons h hs ih =>
    cases HR with
    | nil => simp at hlen
    | cons r rs =>
      obtain ⟨H', HR', e, l1, l2, g1, g2⟩ := ih rs (by simpa using hlen)
      refine ⟨substLhs b cs h :: H', substRhs b cr h r :: HR', ?_, by simp [l1], by simp [l2],
        ?_, ?_⟩
      · simp only [substituteHard, e, substLhs, substRhs]
        cases mfind h b <;> rfl
      · intro j
        cases j with
        | zero => simp
        | succ j => simpa using g1 j
      · intro j h0 r0 hh hr
        cases j with
        | zero =>
          simp only [List.getElem?_cons_zero, Option.some.injEq] at hh hr
          subst hh
          subst hr
          simp
        | succ j =>
          simp only [List.getElem?_cons_succ] at hh hr ⊢
          exact g2 j h0 r0 hh hr

/-- The substitution into the other substitutions: every expression is rewritten on its
own, and the right-hand side of each expression that had an entry for `bestVar` gets the
scaled right-hand side of the new substitution added. -/
theorem substituteSubs_spec {V C : Type} [LinearOrder V] [LinearOrder C] (b : V)
    (cs : List (V × ℚ)) (cr : List ((C × Int) × ℚ)) (S : List (V × List (V × ℚ)))
    (SR : List (V × List ((C × Int) × ℚ))) (hn : (mkeys S).Nodup)
    (hb : ∀ e ∈ S, e.1 = b → mfind e.2 b = none) (hnr : (mkeys SR).Nodup) :
    ∃ S' SR', substituteSubs b cs cr S SR = some (S', SR') ∧
      S' = S.map (fun e => (e.1, substLhs b cs e.2)) ∧ (mkeys SR').Nodup ∧
      (∀ v, v ∉ mkeys S → mfind SR' v = mfind SR v) ∧
      (∀ e ∈ S, mfind e.2 b = none → mfind SR' e.1 = mfind SR e.1) ∧
      (∀ e ∈ S, ∀ w, mfind e.2 b = some w →
        mfind SR' e.1 = some (addScaled keyLt ((mfind SR e.1).getD []) cr w)) := by
  induction S generalizing SR with
  | nil =>
    exact ⟨[], SR, rfl, rfl, hnr, fun v _ => rfl, fun e he => by simp at he,
      fun e he => by simp at he⟩
  | cons e rest ih =>
    obtain ⟨x, sub⟩ := e
    simp only [mkeys, List.map_cons, List.nodup_cons] at hn
    have hrest : ∀ e ∈ rest, e.1 = b → mfind e.2 b = none :=
      fun e he => hb e (List.mem_cons_of_mem _ he)
    have hxr : ∀ e ∈ rest, e.1 ≠ x := by
      intro e he hx
      apply hn.1
      rw [← hx]
      exact List.mem_map.2 ⟨e, he, rfl⟩
    cases hm : mfind sub b with
    | none =>
      obtain ⟨S', SR', e1, e2, e3, e4, e5, e6⟩ := ih SR hn.2 hrest hnr
      refine ⟨(x, sub) :: S', SR', ?_, ?_, e3, ?_, ?_, ?_⟩
      · simp only [substituteSubs, hm, e1]
      · rw [List.map_cons, ← e2]
        simp [substLhs, hm]
      · intro v hv
        simp only [mkeys, List.map_cons, List.mem_cons, not_or] at hv
        exact e4 v hv.2
      · intro e he hme
        rcases List.mem_cons.1 he with h | h
        · rw [h]
          exact e4 x hn.1
        · exact e5 e h hme
      · intro e he w hme
        rcases List.mem_cons.1 he with h | h
        · rw [h] at hme
          rw [hm] at hme
          simp at hme
        · exact e6 e h w hme
    | some w =>
      have hxb : x ≠ b := by
        intro h
        have := hb (x, sub) (List.mem_cons_self _ _) h
        rw [hm] at this
        simp at this
      obtain ⟨S', SR', e1, e2, e3, e4, e5, e6⟩ := ih
        (mset varLt SR x (addScaled keyLt ((mfind SR x).getD []) cr w)) hn.2 hrest
        (nodup_mkeys_mset _ _ _ _ hnr)
      refine ⟨(x, addScaled varLt (merase sub b) cs w) :: S', SR', ?_, ?_, e3, ?_, ?_, ?_⟩
      · simp only [substituteSubs, hm, hxb, if_false, e1]
      · rw [List.map_cons, ← e2]
        simp [substLhs, hm]
      · intro v hv
        simp only [mkeys, List.map_cons, List.mem_cons, not_or] at hv
        rw [e4 v hv.2, mfind_mset, if_neg hv.1]
      · intro e he hme
        rcases List.mem_cons.1 he with h | h
        · rw [h] at hme
          rw [hm] at hme
          simp at hme
        · rw [e5 e h hme, mfind_mset, if_neg (hxr e h)]
      · intro e he w' hme
        rcases List.mem_cons.1 he with h | h
        · rw [h] at hme ⊢
          rw [hm, Option.some.injEq] at hme
          subst hme
          rw [e4 x hn.1, mfind_mset, if_pos rfl]
        · rw [e6 e h w' hme, mfind_mset, if_neg (hxr e h)]

theorem evalMap_congr {κ : Type} (x y : κ → ℚ) (m : List (κ × ℚ))
    (h : ∀ k ∈ mkeys m, x k = y k) : evalMap x m = evalMap y m := by
  induction m with
  | nil => rfl
  | cons e rest ih =>
    rw [evalMap_cons, evalMap_cons, h e.1 (by simp [mkeys]),
      ih (fun k hk => h k (by simp only [mkeys, List.map_cons]; exact List.mem_cons_of_mem _ hk))]

theorem mkeys_map_scale {κ : Type} (m : List (κ × ℚ)) (w : ℚ) :
    mkeys (m.map (fun e => (e.1, e.2 * w))) = mkeys m := by
  simp [mkeys, Function.comp_def]

theorem mem_mkeys_merase_of_ne {κ β : Type} [DecidableEq κ] (m : List (κ × β)) (k b : κ)
    (h : k ∈ mkeys m) (hne : k ≠ b) : k ∈ mkeys (merase m b) := by
  induction m with
  | nil => simp [mkeys] at h
  | cons e rest ih =>
    obtain ⟨k', v'⟩ := e
    simp only [mkeys, List.map_cons, List.mem_cons] at h
    simp only [merase]
    split
    · rename_i hb
      rcases h with h | h
      · exact absurd (h.trans hb.symm) hne
      · exact h
    · simp only [mkeys, List.map_cons, List.mem_cons]
      rcases h with h | h
      · exact Or.inl h
      · exact Or.inr (ih h)

theorem mem_mkeys_substLhs_of_ne {V : Type} [LinearOrder V] (b : V) (cs h : List (V × ℚ))
    (k : V) (hk : k ∈ mkeys h) (hne : k ≠ b) : k ∈ mkeys (substLhs b cs h) := by
  unfold substLhs
  cases hm : mfind h b with
  | none => exact hk
  | some w =>
    dsimp only
    rw [mem_mkeys_addScaled]
    exact Or.inl (mem_mkeys_merase_of_ne h k b hk hne)

theorem mem_of_getElem? {α : Type} (l : List α) (i : Nat) (a : α) (h : l[i]? = some a) :
    a ∈ l := by
  obtain ⟨hi, e⟩ := List.getElem?_eq_some.1 h
  rw [← e]
  exact List.getElem_mem hi

theorem getElem?_of_mem {α : Type} (l : List α) (a : α) (h : a ∈ l) :
    ∃ i : Nat, l[i]? = some a := by
  obtain ⟨i, hi, e⟩ := List.getElem_of_mem h
  exact ⟨i, by rw [List.getElem?_eq_getElem hi, e]⟩

/-- An entry of a pair of vectors that is not the one taken out is still an entry of both
after `swap(v[i], v.back()); v.pop_back();`, at the same index of both. -/
theorem swapPop_pair {α β : Type} (l : List α) (l2 : List β) (hlen : l2.length = l.length)
    (i : Nat) (hi : i < l.length) (j0 : Nat) (a : α) (b : β) (h1 : l[j0]? = some a)
    (h2 : l2[j0]? = some b) (hne : j0 ≠ i) :
    ∃ j1 : Nat, (swapPop l i)[j1]? = some a ∧ (swapPop l2 i)[j1]? = some b := by
  have hj0 : j0 < l.length := (List.getElem?_eq_some.1 h1).1
  by_cases hlast : j0 + 1 < l.length
  · refine ⟨j0, ?_, ?_⟩
    · rw [getElem?_swapPop l i j0 hi, if_pos hlast, if_neg hne, h1]
    · rw [getElem?_swapPop l2 i j0 (by omega), if_pos (by omega), if_neg hne, h2]
  · have e : j0 = l.length - 1 := by omega
    refine ⟨i, ?_, ?_⟩
    · rw [getElem?_swapPop l i i hi, if_pos (by omega), if_pos rfl, ← e, h1]
    · rw [getElem?_swapPop l2 i i (by omega), if_pos (by omega), if_pos rfl, hlen, ← e, h2]

/-- An entry of a pair of vectors after `swap(v[i], v.back()); v.pop_back();` was an entry
of both before, at an index other than `i`. -/
theorem swapPop_pair_inv {α β : Type} (l : List α) (l2 : List β)
    (hlen : l2.length = l.length) (i : Nat) (hi : i < l.length) (j1 : Nat) (a : α) (b : β)
    (h1 : (swapPop l i)[j1]? = some a) (h2 : (swapPop l2 i)[j1]? = some b) :
    ∃ j0 : Nat, j0 ≠ i ∧ l[j0]? = some a ∧ l2[j0]? = some b := by
  rw [getElem?_swapPop l i j1 hi] at h1
  rw [getElem?_swapPop l2 i j1 (by omega)] at h2
  by_cases hlast : j1 + 1 < l.length
  · rw [if_pos hlast] at h1
    rw [if_pos (by omega)] at h2
    by_cases hji : j1 = i
    · rw [if_pos hji] at h1 h2
      rw [hlen] at h2
      exact ⟨l.length - 1, by omega, h1, h2⟩
    · rw [if_neg hji] at h1 h2
      exact ⟨j1, hji, h1, h2⟩
  · rw [if_neg hlast] at h1
    simp at h1

theorem mem_swapPop {α : Type} (l : List α) (i : Nat) (hi : i < l.length) (a : α)
    (h : a ∈ swapPop l i) : a ∈ l :=
  (swapPop_perm l i hi).symm.subset (List.mem_cons_of_mem _ h)

theorem mkeys_length {κ β : Type} (m : List (κ × β)) : (mkeys m).length = m.length := by
  simp [mkeys]

theorem mem_mkeys_of_mem {κ β : Type} (m : List (κ × β)) (e : κ × β) (h : e ∈ m) :
    e.1 ∈ mkeys m := List.mem_map.2 ⟨e, h, rfl⟩

theorem exists_mem_of_mem_mkeys {κ β : Type} (m : List (κ × β)) (k : κ) (h : k ∈ mkeys m) :
    ∃ v, (k, v) ∈ m := by
  obtain ⟨e, he, rfl⟩ := List.mem_map.1 h
  exact ⟨e.2, he⟩

/-- The invariant holds before the first pass of the loop. -/
theorem redInv_init {V C : Type} [LinearOrder V] [LinearOrder C]
    (hard : List ((C × Int) × Constraint V)) (cm0 : List ((C × Int) × Int)) (softNum : Int)
    (hl : ∀ e ∈ hard, (mkeys e.2.lhs).Nodup) :
    RedInv hard cm0 softNum
      { hardConstraints := hard.map (fun e => e.2.lhs),
        hardConstraintIds := hard.map (fun e => e.1),
        hardRhs := hard.map (fun e => [(e.1, (1 : ℚ))]),
        constraintMap := cm0 } [] [] where
  lenIds := by simp
  lenRhs := by simp
  nodupS := by simp [mkeys]
  nodupSR := by simp [mkeys]
  keysSR := by simp [mkeys]
  permS := by simp [mkeys]
  idxS := by simp
  lenP := rfl
  idxP := by simp
  keepCM := fun _ _ => rfl
  permIds := by simp [mkeys]
  nodupH := by
    intro h hh
    obtain ⟨e, he, rfl⟩ := List.mem_map.1 hh
    exact hl e he
  nodupB := by simp
  freshH := by simp [mkeys]
  freshB := by simp
  rhsH := by
    intro r hr id hid
    obtain ⟨e, he, rfl⟩ := List.mem_map.1 hr
    simp only [mkeys, List.map_cons, List.map_nil, List.mem_singleton] at hid
    rw [hid]
    exact mem_mkeys_of_mem hard e he
  rhsS := by simp
  sound := by
    intro x ρ _ hh e he
    obtain ⟨i, hi⟩ := getElem?_of_mem hard e he
    have := hh i e.2.lhs [(e.1, 1)] (by simp [hi]) (by simp [hi])
    rw [this]
    simp [evalMap]
  complete := by
    intro x ρ hh
    refine ⟨by simp [subsHold], ?_⟩
    intro j h r h1 h2
    simp only [List.getElem?_map] at h1 h2
    cases hj : hard[j]? with
    | none => simp [hj] at h1
    | some e =>
      simp only [hj, Option.map_some', Option.some.injEq] at h1 h2
      rw [← h1, ← h2, hh e (mem_of_getElem? hard j e hj)]
      simp [evalMap]
  cover := by
    intro e he v hv
    exact Or.inr (Or.inl ⟨e.2.lhs, List.mem_map.2 ⟨e, he, rfl⟩, hv⟩)

theorem exists_getElem? {α : Type} (l : List α) (i : Nat) (h : i < l.length) :
    ∃ a, l[i]? = some a := ⟨l[i], List.getElem?_eq_getElem h⟩

/-- A pass of the loop that does not return is a pivot step. -/
theorem reduceStep_shape {V C : Type} [LinearOrder V] [LinearOrder C] [Inhabited V]
    (hard0 : List ((C × Int) × Constraint V)) (cm0 : List ((C × Int) × Int)) (softNum : Int)
    (st st' : Reduction V C) (order : List V) (pivIds : List (C × Int))
    (hinv : RedInv hard0 cm0 softNum st order pivIds)
    (hs : reduceStep softNum st = some (true, st')) :
    ∃ j back backId backRhs b c cs cr,
      PivotStep softNum st st' j back backId backRhs b c cs cr := by
  unfold reduceStep at hs
  by_cases hv : (pivotSearch 0 st.hardConstraints ⟨default, -1, 0⟩).bestVal < 1 / 10000000000
  · rw [if_pos hv] at hs
    simp at hs
  rw [if_neg hv] at hs
  rcases pivotSearch_spec 0 st.hardConstraints ⟨default, -1, 0⟩ with e | ⟨j, back, c, hj, he, hmem, hval⟩
  · rw [e] at hv
    exact absurd (by norm_num) hv
  simp only [Nat.zero_add] at he
  have hjlt : j < st.hardConstraints.length := (List.getElem?_eq_some.1 hj).1
  obtain ⟨backId, hid⟩ := exists_getElem? st.hardConstraintIds j (by rw [hinv.lenIds]; exact hjlt)
  obtain ⟨backRhs, hrhs⟩ := exists_getElem? st.hardRhs j (by rw [hinv.lenRhs]; exact hjlt)
  have hc : c ≠ 0 := by
    intro h0
    apply hv
    rw [hval, h0]
    norm_num
  have hbackH : back ∈ st.hardConstraints := mem_of_getElem? _ _ _ hj
  generalize hbv : (pivotSearch 0 st.hardConstraints ⟨default, -1, 0⟩).bestVar = b at hs hmem
  have hfind : mfind back b = some c := mfind_of_mem back b c (hinv.nodupH back hbackH) hmem
  have hbS : b ∉ mkeys st.substitutions :=
    hinv.freshH back hbackH b (mem_mkeys_of_mem back (b, c) hmem)
  have hS0 : mfind st.substitutions b = none := (mfind_eq_none _ _).2 hbS
  rw [he, idx?_natCast, idx?_natCast, idx?_natCast, hj, hid, hrhs] at hs
  simp only [Int.toNat_ofNat, hS0, Option.getD_none, hfind, Option.getD_some] at hs
  obtain ⟨i1, i2, i3⟩ := curSub_spec b (-1 / c) back [] (hinv.nodupH back hbackH)
    (by simp [mkeys]) (by simp [mkeys])
  generalize hcs : back.foldl
    (fun cs e => if e.1 ≠ b then mset varLt cs e.1 (e.2 * (-1 / c)) else cs) [] = cs
    at hs i1 i2 i3
  generalize hcr : backRhs.map (fun e => (e.1, e.2 * -(-1 / c))) = cr at hs
  have hbcs : b ∉ mkeys cs := by
    rw [i2]
    simp [mkeys]
  obtain ⟨H', HR', e1, l1, l2, g1, g2⟩ := substituteHard_spec b cs cr
    (swapPop st.hardConstraints j) (swapPop st.hardRhs j)
    (by
      have a1 := swapPop_length st.hardConstraints j hjlt
      have a2 := swapPop_length st.hardRhs j (by rw [hinv.lenRhs]; exact hjlt)
      have := hinv.lenRhs
      omega)
  obtain ⟨S', SR', e2, f1, f2, f3, f4, f5⟩ := substituteSubs_spec b cs cr
    (mset varLt st.substitutions b cs) (mset varLt st.substitutionsRhs b cr)
    (nodup_mkeys_mset _ _ _ _ hinv.nodupS)
    (by
      intro e he hb
      rcases (mem_mset_iff _ _ _ _ hinv.nodupS e).1 he with h | ⟨_, h⟩
      · rw [h]
        exact (mfind_eq_none _ _).2 hbcs
      · exact absurd hb h)
    (nodup_mkeys_mset _ _ _ _ hinv.nodupSR)
  rw [e1] at hs
  simp only [e2, Option.some.injEq, Prod.mk.injEq, true_and] at hs
  subst hs
  refine ⟨j, back, backId, backRhs, b, c, cs, cr, ?_⟩
  exact
    { hback := hj, hbackId := hid, hbackRhs := hrhs, hfind := hfind, hc := hc,
      evalCs := by
        intro x
        rw [i1 x, hfind]
        simp [evalMap],
      keysCs := by
        intro k
        rw [i2 k]
        simp [mkeys],
      nodupCs := i3, hcr := hcr.symm, ids := rfl, sci := rfl, cm := rfl, lenH := l1,
      lenR := l2, getH := g1, getR := g2, subs := f1, nodupSR' := f2, srOut := f3,
      srNone := f4, srSome := f5 }

/-- A pivot step keeps the invariant of the loop. -/
theorem pivotStep_inv {V C : Type} [LinearOrder V] [LinearOrder C]
    (hard0 : List ((C × Int) × Constraint V)) (cm0 : List ((C × Int) × Int)) (softNum : Int)
    (st st' : Reduction V C) (order : List V) (pivIds : List (C × Int))
    (j : Nat) (back : List (V × ℚ)) (backId : C × Int) (backRhs : List ((C × Int) × ℚ))
    (b : V) (c : ℚ) (cs : List (V × ℚ)) (cr : List ((C × Int) × ℚ))
    (hn0 : (mkeys hard0).Nodup)
    (hinv : RedInv hard0 cm0 softNum st order pivIds)
    (hp : PivotStep softNum st st' j back backId backRhs b c cs cr) :
    RedInv hard0 cm0 softNum st' (order ++ [b]) (pivIds ++ [backId]) := by
  have hjlt : j < st.hardConstraints.length := (List.getElem?_eq_some.1 hp.hback).1
  have hjlt2 : j < st.hardRhs.length := by rw [hinv.lenRhs]; exact hjlt
  have hjlt3 : j < st.hardConstraintIds.length := by rw [hinv.lenIds]; exact hjlt
  have hbackH : back ∈ st.hardConstraints := mem_of_getElem? _ _ _ hp.hback
  have hbackR : backRhs ∈ st.hardRhs := mem_of_getElem? _ _ _ hp.hbackRhs
  have hbS : b ∉ mkeys st.substitutions :=
    hinv.freshH back hbackH b (by
      have := mfind_mem back b c hp.hfind
      exact mem_mkeys_of_mem back (b, c) this)
  have hbcs : b ∉ mkeys cs := by
    rw [hp.keysCs]
    simp
  have hcsb : mfind cs b = none := (mfind_eq_none _ _).2 hbcs
  have hcscs : substLhs b cs cs = cs := by simp [substLhs, hcsb]
  have hlenS : st.substitutions.length = order.length := by
    rw [← mkeys_length, hinv.permS.length_eq]
  have hl1 := swapPop_length st.hardConstraints j hjlt
  have hl2 := swapPop_length st.hardRhs j hjlt2
  have hl3 := swapPop_length st.hardConstraintIds j hjlt3
  have hlR := hinv.lenRhs
  have hlI := hinv.lenIds
  -- membership in the new substitutions
  have hS1 : ∀ e, e ∈ mset varLt st.substitutions b cs ↔ e = (b, cs) ∨ e ∈ st.substitutions := by
    intro e
    rw [mem_mset_iff _ _ _ _ hinv.nodupS]
    constructor
    · rintro (h | ⟨h, _⟩)
      · exact Or.inl h
      · exact Or.inr h
    · rintro (h | h)
      · exact Or.inl h
      · exact Or.inr ⟨h, fun e' => hbS (e' ▸ mem_mkeys_of_mem _ e h)⟩
  have hkeysS' : ∀ v, v ∈ mkeys st'.substitutions ↔ v = b ∨ v ∈ mkeys st.substitutions := by
    intro v
    rw [hp.subs]
    have : mkeys ((mset varLt st.substitutions b cs).map
        (fun e => (e.1, substLhs b cs e.2))) = mkeys (mset varLt st.substitutions b cs) := by
      simp [mkeys, Function.comp_def]
    rw [this, mem_mkeys_mset]
  have hmemS' : ∀ e', e' ∈ st'.substitutions ↔
      ∃ e, (e = (b, cs) ∨ e ∈ st.substitutions) ∧ e' = (e.1, substLhs b cs e.2) := by
    intro e'
    rw [hp.subs, List.mem_map]
    constructor
    · rintro ⟨e, he, rfl⟩
      exact ⟨e, (hS1 e).1 he, rfl⟩
    · rintro ⟨e, he, rfl⟩
      exact ⟨e, (hS1 e).2 he, rfl⟩
  -- the right-hand sides of the new substitutions
  have hSRb : mfind st'.substitutionsRhs b = some cr := by
    have := hp.srNone (b, cs) ((hS1 _).2 (Or.inl rfl)) hcsb
    rw [this, mfind_mset, if_pos rfl]
  have hSR1 : ∀ e ∈ st.substitutions,
      mfind (mset varLt st.substitutionsRhs b cr) e.1 = mfind st.substitutionsRhs e.1 := by
    intro e he
    rw [mfind_mset, if_neg]
    intro e'
    exact hbS (e' ▸ mem_mkeys_of_mem _ e he)
  have hSRe : ∀ e ∈ st.substitutions, ∀ ρ : C × Int → ℚ,
      evalMap ρ ((mfind st'.substitutionsRhs e.1).getD []) =
        evalMap ρ ((mfind st.substitutionsRhs e.1).getD []) +
          (mfind e.2 b).getD 0 * evalMap ρ cr := by
    intro e he ρ
    cases hm : mfind e.2 b with
    | none =>
      rw [hp.srNone e ((hS1 e).2 (Or.inr he)) hm, hSR1 e he]
      simp
    | some w =>
      rw [hp.srSome e ((hS1 e).2 (Or.inr he)) w hm, hSR1 e he]
      simp only [Option.getD_some]
      rw [evalMap_addScaled]
  have hSRk : ∀ e ∈ st.substitutions, ∀ id ∈ mkeys ((mfind st'.substitutionsRhs e.1).getD []),
      id ∈ mkeys ((mfind st.substitutionsRhs e.1).getD []) ∨ id ∈ mkeys cr := by
    intro e he id hid
    cases hm : mfind e.2 b with
    | none =>
      rw [hp.srNone e ((hS1 e).2 (Or.inr he)) hm, hSR1 e he] at hid
      exact Or.inl hid
    | some w =>
      rw [hp.srSome e ((hS1 e).2 (Or.inr he)) w hm, hSR1 e he] at hid
      simp only [Option.getD_some] at hid
      exact (mem_mkeys_addScaled _ _ _ _ _).1 hid
  have hcrk : ∀ id ∈ mkeys cr, id ∈ mkeys hard0 := by
    intro id hid
    rw [hp.hcr, mkeys_map_scale] at hid
    exact hinv.rhsH backRhs hbackR id hid
  have hcre : ∀ ρ : C × Int → ℚ, evalMap ρ cr = 1 / c * evalMap ρ backRhs := by
    intro ρ
    rw [hp.hcr, evalMap_map_scale]
    ring
  -- the substitution of `b` holds exactly when the constraint `back` does
  have hE0 : ∀ (x : V → ℚ) (ρ : C × Int → ℚ),
      x b = evalMap x cs + evalMap ρ cr ↔ evalMap x back = evalMap ρ backRhs := by
    intro x ρ
    rw [hp.evalCs x, hcre ρ]
    have hc := hp.hc
    constructor
    · intro h
      field_simp at h
      linarith
    · intro h
      field_simp
      linarith
  -- the hard constraints that are left
  have hH' : ∀ h' ∈ st'.hardConstraints, ∃ h ∈ st.hardConstraints, h' = substLhs b cs h := by
    intro h' hh'
    obtain ⟨j', hj'⟩ := getElem?_of_mem _ _ hh'
    rw [hp.getH j'] at hj'
    cases hq : (swapPop st.hardConstraints j)[j']? with
    | none => simp [hq] at hj'
    | some h =>
      simp only [hq, Option.map_some', Option.some.injEq] at hj'
      exact ⟨h, mem_swapPop _ _ hjlt _ (mem_of_getElem? _ _ _ hq), hj'.symm⟩
  have hpair' : ∀ (j' : Nat) (h' : List (V × ℚ)) (r' : List ((C × Int) × ℚ)),
      st'.hardConstraints[j']? = some h' → st'.hardRhs[j']? = some r' →
      ∃ (j0 : Nat) (h : List (V × ℚ)) (r : List ((C × Int) × ℚ)),
        st.hardConstraints[j0]? = some h ∧ st.hardRhs[j0]? = some r ∧
          h' = substLhs b cs h ∧ r' = substRhs b cr h r := by
    intro j' h' r' e1 e2
    rw [hp.getH j'] at e1
    cases hq : (swapPop st.hardConstraints j)[j']? with
    | none => simp [hq] at e1
    | some h =>
      simp only [hq, Option.map_some', Option.some.injEq] at e1
      have hj' : j' < (swapPop st.hardConstraints j).length := (List.getElem?_eq_some.1 hq).1
      obtain ⟨r, hr⟩ := exists_getElem? (swapPop st.hardRhs j) j' (by omega)
      have := hp.getR j' h r hq hr
      rw [this, Option.some.injEq] at e2
      obtain ⟨j0, _, a1, a2⟩ := swapPop_pair_inv st.hardConstraints st.hardRhs hlR j hjlt j'
        h r hq hr
      exact ⟨j0, h, r, a1, a2, e1.symm, e2.symm⟩
  have hpair : ∀ (j0 : Nat) (h : List (V × ℚ)) (r : List ((C × Int) × ℚ)),
      st.hardConstraints[j0]? = some h → st.hardRhs[j0]? = some r → j0 ≠ j →
      ∃ j' : Nat, st'.hardConstraints[j']? = some (substLhs b cs h) ∧
        st'.hardRhs[j']? = some (substRhs b cr h r) := by
    intro j0 h r e1 e2 hne
    obtain ⟨j1, a1, a2⟩ := swapPop_pair st.hardConstraints st.hardRhs hlR j hjlt j0 h r e1 e2
      hne
    exact ⟨j1, by rw [hp.getH j1, a1]; rfl, hp.getR j1 h r a1 a2⟩
  have hnodupIds : (st.hardConstraintIds ++ pivIds).Nodup := hinv.permIds.nodup_iff.2 hn0
  have hbackIdP : backId ∉ pivIds := by
    intro h
    exact (List.disjoint_of_nodup_append hnodupIds) (mem_of_getElem? _ _ _ hp.hbackId) h
  exact
    { lenIds := by rw [hp.ids, hp.lenH]; omega
      lenRhs := by rw [hp.lenR, hp.lenH]; omega
      nodupS := by
        rw [hp.subs]
        have : mkeys ((mset varLt st.substitutions b cs).map
            (fun e => (e.1, substLhs b cs e.2))) = mkeys (mset varLt st.substitutions b cs) := by
          simp [mkeys, Function.comp_def]
        rw [this]
        exact nodup_mkeys_mset _ _ _ _ hinv.nodupS
      nodupSR := hp.nodupSR'
      keysSR := by
        intro v hv
        by_contra hn
        have h1 : v ∉ mkeys (mset varLt st.substitutions b cs) := by
          rw [mem_mkeys_mset]
          rw [hkeysS'] at hn
          exact hn
        have h2 := hp.srOut v h1
        have h3 : (mfind st'.substitutionsRhs v).isSome = true := (mfind_isSome_iff _ _).2 hv
        rw [h2, mfind_isSome_iff, mem_mkeys_mset] at h3
        rw [hkeysS'] at hn
        rcases h3 with h3 | h3
        · exact hn (Or.inl h3)
        · exact hn (Or.inr (hinv.keysSR v h3))
      permS := by
        rw [hp.subs]
        have : mkeys ((mset varLt st.substitutions b cs).map
            (fun e => (e.1, substLhs b cs e.2))) = mkeys (mset varLt st.substitutions b cs) := by
          simp [mkeys, Function.comp_def]
        rw [this]
        have h1 : mset varLt st.substitutions b cs = minsertSorted varLt st.substitutions b cs := by
          unfold mset
          rw [(mfind_eq_none _ _).2 hbS]
          rfl
        rw [h1]
        exact (mkeys_minsertSorted _ _ _ _).trans
          ((List.Perm.cons b hinv.permS).trans (List.perm_append_singleton b order).symm)
      idxS := by
        intro i x hi
        rw [hp.sci, mfind_mset]
        by_cases hlt : i < order.length
        · rw [List.getElem?_append_left hlt] at hi
          have hx : x ∈ mkeys st.substitutions :=
            hinv.permS.symm.subset (mem_of_getElem? _ _ _ hi)
          rw [if_neg (fun e : x = b => hbS (e ▸ hx))]
          exact hinv.idxS i x hi
        · have hi' := (List.getElem?_eq_some.1 hi).1
          simp only [List.length_append, List.length_singleton] at hi'
          have e : i = order.length := by omega
          subst e
          simp only [List.getElem?_concat_length, Option.some.injEq] at hi
          rw [if_pos hi.symm, hlenS]
      lenP := by simp [hinv.lenP]
      idxP := by
        intro i id hi
        rw [hp.cm, mfind_mset]
        by_cases hlt : i < pivIds.length
        · rw [List.getElem?_append_left hlt] at hi
          have hx : id ∈ pivIds := mem_of_getElem? _ _ _ hi
          rw [if_neg (fun e : id = backId => hbackIdP (e ▸ hx))]
          exact hinv.idxP i id hi
        · have hi' := (List.getElem?_eq_some.1 hi).1
          simp only [List.length_append, List.length_singleton] at hi'
          have e : i = pivIds.length := by omega
          subst e
          simp only [List.getElem?_concat_length, Option.some.injEq] at hi
          rw [if_pos hi.symm, hlenS, hinv.lenP]
      keepCM := by
        intro key hkey
        simp only [List.mem_append, List.mem_singleton, not_or] at hkey
        rw [hp.cm, mfind_mset, if_neg hkey.2]
        exact hinv.keepCM key hkey.1
      permIds := by
        rw [hp.ids]
        have h1 := swapPop_perm st.hardConstraintIds j hjlt3
        have h2 : st.hardConstraintIds[j] = backId := by
          have := hp.hbackId
          rw [List.getElem?_eq_getElem hjlt3, Option.some.injEq] at this
          exact this
        rw [h2] at h1
        refine List.Perm.trans ?_ hinv.permIds
        refine List.Perm.trans ?_ (List.Perm.append_right pivIds h1.symm)
        rw [← List.append_assoc]
        exact List.perm_append_singleton _ _
      nodupH := by
        intro h' hh'
        obtain ⟨h, hh, rfl⟩ := hH' h' hh'
        exact (mkeys_substLhs b cs h (hinv.nodupH h hh) hbcs).1
      nodupB := by
        intro e' he'
        obtain ⟨e, he, rfl⟩ := (hmemS' e').1 he'
        rcases he with he | he
        · rw [he]
          exact (mkeys_substLhs b cs cs hp.nodupCs hbcs).1
        · exact (mkeys_substLhs b cs e.2 (hinv.nodupB e he) hbcs).1
      freshH := by
        intro h' hh' v hv
        obtain ⟨h, hh, rfl⟩ := hH' h' hh'
        obtain ⟨_, k2, k3⟩ := mkeys_substLhs b cs h (hinv.nodupH h hh) hbcs
        rw [hkeysS', not_or]
        refine ⟨fun e => k2 (e ▸ hv), ?_⟩
        rcases k3 v hv with k | k
        · exact hinv.freshH h hh v k
        · exact hinv.freshH back hbackH v ((hp.keysCs v).1 k).1
      freshB := by
        intro e' he' v hv
        obtain ⟨e, he, rfl⟩ := (hmemS' e').1 he'
        have hnd : (mkeys e.2).Nodup := by
          rcases he with he | he
          · rw [he]
            exact hp.nodupCs
          · exact hinv.nodupB e he
        obtain ⟨_, k2, k3⟩ := mkeys_substLhs b cs e.2 hnd hbcs
        rw [hkeysS', not_or]
        refine ⟨fun e0 => k2 (e0 ▸ hv), ?_⟩
        rcases k3 v hv with k | k
        · rcases he with he | he
          · rw [he] at k
            exact hinv.freshH back hbackH v ((hp.keysCs v).1 k).1
          · exact hinv.freshB e he v k
        · exact hinv.freshH back hbackH v ((hp.keysCs v).1 k).1
      rhsH := by
        intro r' hr' id hid
        obtain ⟨j', hj'⟩ := getElem?_of_mem _ _ hr'
        have hj'lt := (List.getElem?_eq_some.1 hj').1
        obtain ⟨h', hh'⟩ := exists_getElem? st'.hardConstraints j' (by
          rw [hp.lenH]
          rw [hp.lenR] at hj'lt
          omega)
        obtain ⟨j0, h, r, a1, a2, _, a4⟩ := hpair' j' h' r' hh' hj'
        rw [a4] at hid
        rcases mkeys_substRhs b cr h r id hid with k | k
        · exact hinv.rhsH r (mem_of_getElem? _ _ _ a2) id k
        · exact hcrk id k
      rhsS := by
        intro e' he' id hid
        have hfe : mfind st'.substitutionsRhs e'.1 = some e'.2 :=
          mfind_of_mem _ _ _ hp.nodupSR' he'
        by_cases hb : e'.1 = b
        · rw [hb, hSRb, Option.some.injEq] at hfe
          rw [← hfe] at hid
          exact hcrk id hid
        · have hk : e'.1 ∈ mkeys st.substitutions := by
            by_contra hn
            have h1 : e'.1 ∉ mkeys (mset varLt st.substitutions b cs) := by
              rw [mem_mkeys_mset, not_or]
              exact ⟨hb, hn⟩
            have h2 := hp.srOut e'.1 h1
            rw [hfe, mfind_mset, if_neg hb] at h2
            exact hn (hinv.keysSR _ ((mfind_isSome_iff _ _).1 (by rw [← h2]; rfl)))
          obtain ⟨body, hbody⟩ := exists_mem_of_mem_mkeys _ _ hk
          have := hSRk (e'.1, body) hbody id (by rw [hfe]; exact hid)
          rcases this with k | k
          · dsimp only at k
            cases hq : mfind st.substitutionsRhs e'.1 with
            | none =>
              rw [hq] at k
              simp [mkeys] at k
            | some srhs =>
              rw [hq] at k
              exact hinv.rhsS (e'.1, srhs) (mfind_mem _ _ _ hq) id k
          · exact hcrk id k
      sound := by
        intro x ρ hsub hhard
        have hb0 : x b = evalMap x cs + evalMap ρ cr := by
          have := hsub (b, substLhs b cs cs) ((hmemS' _).2 ⟨(b, cs), Or.inl rfl, rfl⟩)
          rw [hcscs] at this
          dsimp only at this
          rw [this, hSRb]
          rfl
        have hbk := (hE0 x ρ).1 hb0
        apply hinv.sound x ρ
        · intro e he
          have := hsub (e.1, substLhs b cs e.2) ((hmemS' _).2 ⟨e, Or.inr he, rfl⟩)
          dsimp only at this
          rw [this, evalMap_substLhs, hSRe e he ρ]
          linear_combination -(mfind e.2 b).getD 0 * hb0
        · intro j0 h r e1 e2
          by_cases hj0 : j0 = j
          · subst hj0
            rw [hp.hback, Option.some.injEq] at e1
            rw [hp.hbackRhs, Option.some.injEq] at e2
            rw [← e1, ← e2]
            exact hbk
          · obtain ⟨j', a1, a2⟩ := hpair j0 h r e1 e2 hj0
            have := hhard j' _ _ a1 a2
            rw [evalMap_substLhs, evalMap_substRhs] at this
            linear_combination this + (mfind h b).getD 0 * hb0
      complete := by
        intro x ρ horig
        obtain ⟨hsub, hhard⟩ := hinv.complete x ρ horig
        have hbk : evalMap x back = evalMap ρ backRhs := hhard j back backRhs hp.hback hp.hbackRhs
        have hb0 := (hE0 x ρ).2 hbk
        constructor
        · intro e' he'
          obtain ⟨e, he, rfl⟩ := (hmemS' e').1 he'
          dsimp only
          rcases he with he | he
          · rw [he, hcscs]
            dsimp only
            rw [hSRb]
            exact hb0
          · rw [evalMap_substLhs, hSRe e he ρ, hsub e he]
            linear_combination (mfind e.2 b).getD 0 * hb0
        · intro j' h' r' e1 e2
          obtain ⟨j0, h, r, a1, a2, a3, a4⟩ := hpair' j' h' r' e1 e2
          rw [a3, a4, evalMap_substLhs, evalMap_substRhs, hhard j0 h r a1 a2]
          linear_combination -(mfind h b).getD 0 * hb0
      cover := by
        intro e he v hv
        by_cases hvb : v = b
        · exact Or.inl ((hkeysS' v).2 (Or.inl hvb))
        rcases hinv.cover e he v hv with k | ⟨h, hh, k⟩ | ⟨e', he', k⟩
        · exact Or.inl ((hkeysS' v).2 (Or.inr k))
        · obtain ⟨j0, hj0⟩ := getElem?_of_mem _ _ hh
          by_cases hj : j0 = j
          · subst hj
            rw [hp.hback, Option.some.injEq] at hj0
            subst hj0
            refine Or.inr (Or.inr ⟨(b, substLhs b cs cs),
              (hmemS' _).2 ⟨(b, cs), Or.inl rfl, rfl⟩, ?_⟩)
            rw [hcscs]
            exact (hp.keysCs v).2 ⟨k, hvb⟩
          · obtain ⟨r, hr⟩ := exists_getElem? st.hardRhs j0 (by
              have := (List.getElem?_eq_some.1 hj0).1
              omega)
            obtain ⟨j', a1, _⟩ := hpair j0 h r hj0 hr hj
            exact Or.inr (Or.inl ⟨substLhs b cs h, mem_of_getElem? _ _ _ a1,
              mem_mkeys_substLhs_of_ne b cs h v k hvb⟩)
        · exact Or.inr (Or.inr ⟨(e'.1, substLhs b cs e'.2),
            (hmemS' _).2 ⟨e', Or.inr he', rfl⟩, mem_mkeys_substLhs_of_ne b cs e'.2 v k hvb⟩) }

/-- The loop `while(hardConstraints.size())` keeps its invariant, and no hard constraint is
left when it ends without `return false`. -/
theorem reduceLoop_inv {V C : Type} [LinearOrder V] [LinearOrder C] [Inhabited V]
    (hard0 : List ((C × Int) × Constraint V)) (cm0 : List ((C × Int) × Int)) (softNum : Int)
    (hn0 : (mkeys hard0).Nodup) (fuel : Nat) (st st' : Reduction V C) (order : List V)
    (pivIds : List (C × Int)) (hinv : RedInv hard0 cm0 softNum st order pivIds)
    (hs : reduceLoop softNum fuel st = some (true, st')) :
    ∃ order' pivIds', RedInv hard0 cm0 softNum st' order' pivIds' ∧
      st'.hardConstraints = [] := by
  induction fuel generalizing st order pivIds with
  | zero =>
    unfold reduceLoop at hs
    cases hH : st.hardConstraints with
    | nil =>
      rw [hH] at hs
      simp only [Option.some.injEq, Prod.mk.injEq, true_and] at hs
      subst hs
      exact ⟨order, pivIds, hinv, hH⟩
    | cons h hs' =>
      rw [hH] at hs
      simp at hs
  | succ fuel ih =>
    unfold reduceLoop at hs
    cases hH : st.hardConstraints with
    | nil =>
      rw [hH] at hs
      simp only [Option.some.injEq, Prod.mk.injEq, true_and] at hs
      subst hs
      exact ⟨order, pivIds, hinv, hH⟩
    | cons h hs' =>
      rw [hH] at hs
      dsimp only at hs
      cases hstep : reduceStep softNum st with
      | none =>
        rw [hstep] at hs
        simp at hs
      | some r =>
        obtain ⟨flag, st1⟩ := r
        rw [hstep] at hs
        cases flag with
        | false => simp at hs
        | true =>
          dsimp only at hs
          obtain ⟨j, back, backId, backRhs, b, c, cs, cr, hp⟩ :=
            reduceStep_shape hard0 cm0 softNum st st1 order pivIds hinv hstep
          exact ih st1 (order ++ [b]) (pivIds ++ [backId])
            (pivotStep_inv hard0 cm0 softNum st st1 order pivIds j back backId backRhs b c cs
              cr hn0 hinv hp) hs

/-- The indices that the first loop of `factor` gives to the soft constraints. -/
theorem softIndices_spec {V C : Type} [LinearOrder C] (l : List ((C × Int) × Constraint V))
    (cm0 : List ((C × Int) × Int)) (sn0 : Nat) (hn : (mkeys l).Nodup) :
    (softIndices l cm0 (sn0 : Int)).2 =
        ((sn0 + (mkeys (l.filter (fun e => !e.2.hard))).length : Nat) : Int) ∧
      (∀ (i : Nat) (key : C × Int), (mkeys (l.filter (fun e => !e.2.hard)))[i]? = some key →
        mfind (softIndices l cm0 (sn0 : Int)).1 key = some ((sn0 + i : Nat) : Int)) ∧
      ∀ key, key ∉ mkeys (l.filter (fun e => !e.2.hard)) →
        mfind (softIndices l cm0 (sn0 : Int)).1 key = mfind cm0 key := by
  induction l generalizing cm0 sn0 with
  | nil => simp [softIndices, mkeys]
  | cons e rest ih =>
    obtain ⟨key0, c⟩ := e
    simp only [mkeys, List.map_cons, List.nodup_cons] at hn
    cases hh : c.hard with
    | true =>
      have hf : ((key0, c) :: rest).filter (fun e => !e.2.hard) =
          rest.filter (fun e => !e.2.hard) := by simp [List.filter, hh]
      simp only [softIndices, hh, if_true]
      rw [hf]
      exact ih cm0 sn0 hn.2
    | false =>
      have hf : ((key0, c) :: rest).filter (fun e => !e.2.hard) =
          (key0, c) :: rest.filter (fun e => !e.2.hard) := by simp [List.filter, hh]
      simp only [softIndices, hh, Bool.false_eq_true, if_false]
      rw [hf]
      have hcast : ((sn0 : Int) + 1) = ((sn0 + 1 : Nat) : Int) := by push_cast; rfl
      rw [hcast]
      obtain ⟨i1, i2, i3⟩ := ih (mset keyLt cm0 key0 (sn0 : Int)) (sn0 + 1) hn.2
      have hk0 : key0 ∉ mkeys (rest.filter (fun e => !e.2.hard)) := by
        intro h
        apply hn.1
        obtain ⟨e, he, rfl⟩ := List.mem_map.1 h
        exact List.mem_map.2 ⟨e, (List.mem_filter.1 he).1, rfl⟩
      refine ⟨?_, ?_, ?_⟩
      · rw [i1]
        simp only [mkeys, List.map_cons, List.length_cons]
        congr 1
        omega
      · intro i key hi
        cases i with
        | zero =>
          simp only [mkeys, List.map_cons, List.getElem?_cons_zero, Option.some.injEq] at hi
          subst hi
          rw [i3 _ hk0, mfind_mset, if_pos rfl]
          simp
        | succ i =>
          simp only [mkeys, List.map_cons, List.getElem?_cons_succ] at hi
          rw [i2 i key hi]
          congr 2
          omega
      · intro key hkey
        simp only [mkeys, List.map_cons, List.mem_cons, not_or] at hkey
        rw [i3 key hkey.2, mfind_mset, if_neg hkey.1]

/-! ### Vectors and the transform of the right-hand sides -/

theorem vget_of_idx? (l : List ℚ) (i : Int) (x : ℚ) (h : idx? l i = some x) : vget l i = x := by
  simp [vget, h]

theorem vget_upd? (l l' : List ℚ) (i j : Int) (x : ℚ) (h : upd? l i x = some l') :
    vget l' j = if j = i then x else vget l j := by
  obtain ⟨⟨h0, h1⟩, rfl⟩ := (upd?_eq_some l l' i x).1 h
  unfold vget idx?
  by_cases hj : 0 ≤ j
  · rw [if_pos hj, if_pos hj, List.getElem?_set]
    by_cases hji : j = i
    · subst hji
      simp [h1]
    · have : ¬ i.toNat = j.toNat := by omega
      rw [if_neg this, if_neg hji]
  · rw [if_neg hj, if_neg hj]
    have : ¬ j = i := by omega
    rw [if_neg this]

theorem rowCoef_nil (j : Int) : rowCoef [] j = 0 := rfl

theorem rowCoef_cons (e : Int × ℚ) (row : List (Int × ℚ)) (j : Int) :
    rowCoef (e :: row) j = (if e.1 = j then e.2 else 0) + rowCoef row j := by
  unfold rowCoef
  rw [evalMap_cons]
  split <;> simp

theorem rowCoef_maddTo (lt : Int → Int → Bool) (row : List (Int × ℚ)) (j j' : Int) (c : ℚ) :
    rowCoef (maddTo lt row j c) j' = rowCoef row j' + if j' = j then c else 0 := by
  unfold rowCoef
  rw [evalMap_maddTo]
  by_cases h : j' = j
  · rw [if_pos h, if_pos h.symm]
    ring
  · rw [if_neg h, if_neg (fun e => h e.symm)]
    ring

theorem colSum_set (r : Nat → ℚ) (i0 : Nat) (m : List (List (Int × ℚ))) (k : Nat)
    (row row' : List (Int × ℚ)) (j : Int) (h : m[k]? = some row) :
    colSum r i0 (m.set k row') j =
      colSum r i0 m j + r (i0 + k) * (rowCoef row' j - rowCoef row j) := by
  induction m generalizing i0 k with
  | nil => simp at h
  | cons a rest ih =>
    cases k with
    | zero =>
      simp only [List.getElem?_cons_zero, Option.some.injEq] at h
      subst h
      simp only [List.set_cons_zero, colSum, Nat.add_zero]
      ring
    | succ k =>
      simp only [List.getElem?_cons_succ] at h
      simp only [List.set_cons_succ, colSum]
      rw [ih (i0 + 1) k h]
      have : i0 + 1 + k = i0 + (k + 1) := by omega
      rw [this]
      ring

theorem colSum_replicate (r : Nat → ℚ) (i0 n : Nat) (j : Int) :
    colSum r i0 (List.replicate n []) j = 0 := by
  induction n generalizing i0 with
  | zero => rfl
  | succ n ih =>
    simp only [List.replicate_succ, colSum, rowCoef_nil, ih]
    ring

/-- The statement `m[i][j] += c` adds `c` to the coefficient of the column `j` in the
row `i`. -/
theorem addAt_spec (m m' : List (List (Int × ℚ))) (i j : Int) (c : ℚ)
    (h : addAt m i j c = some m') :
    m'.length = m.length ∧ ∀ (r : Nat → ℚ) (j' : Int),
      colSum r 0 m' j' = colSum r 0 m j' + if j' = j then r i.toNat * c else 0 := by
  unfold addAt at h
  cases hrow : idx? m i with
  | none =>
    rw [hrow] at h
    simp at h
  | some row =>
    rw [hrow] at h
    dsimp only at h
    obtain ⟨⟨h0, h1⟩, rfl⟩ := (upd?_eq_some _ _ _ _).1 h
    refine ⟨by simp, ?_⟩
    intro r j'
    rw [colSum_set r 0 m i.toNat row _ j' ((idx?_eq_some _ _ _).1 hrow).2, rowCoef_maddTo]
    split
    · simp
    · simp

theorem transformRow_spec (r0 : ℚ) (row : List (Int × ℚ)) (rhs1 rhs1' : List ℚ)
    (h : transformRow r0 row rhs1 = some rhs1') :
    rhs1'.length = rhs1.length ∧ ∀ j, vget rhs1' j = vget rhs1 j + r0 * rowCoef row j := by
  induction row generalizing rhs1 with
  | nil =>
    simp only [transformRow, Option.some.injEq] at h
    subst h
    simp [rowCoef_nil]
  | cons e rest ih =>
    obtain ⟨j0, c⟩ := e
    simp only [transformRow] at h
    cases hx : idx? rhs1 j0 with
    | none =>
      rw [hx] at h
      simp at h
    | some x =>
      rw [hx] at h
      dsimp only at h
      cases hu : upd? rhs1 j0 (x + c * r0) with
      | none =>
        rw [hu] at h
        simp at h
      | some rhs1a =>
        rw [hu] at h
        dsimp only at h
        obtain ⟨i1, i2⟩ := ih rhs1a h
        refine ⟨by rw [i1, upd?_length _ _ _ _ hu], ?_⟩
        intro j
        rw [i2 j, vget_upd? _ _ _ j _ hu, rowCoef_cons]
        by_cases hj : j = j0
        · subst hj
          rw [if_pos rfl, if_pos rfl, vget_of_idx? _ _ _ hx]
          ring
        · rw [if_neg hj, if_neg (fun e => hj e.symm)]
          ring

/-- The loop of `solve` that transforms the right-hand sides adds to the entry `j` the
sum of the coefficients of the column `j` times the right-hand sides of the hard
constraints. -/
theorem transformRows_spec (rhs0 : List ℚ) (softNum : Int) (i0 : Nat)
    (m : List (List (Int × ℚ))) (rhs1 rhs1' : List ℚ)
    (h : transformRows rhs0 softNum i0 m rhs1 = some rhs1') :
    rhs1'.length = rhs1.length ∧ ∀ j, vget rhs1' j =
      vget rhs1 j + colSum (fun i => vget rhs0 (softNum + (i : Int))) i0 m j := by
  induction m generalizing i0 rhs1 with
  | nil =>
    simp only [transformRows, Option.some.injEq] at h
    subst h
    simp [colSum]
  | cons row rest ih =>
    cases row with
    | nil =>
      simp only [transformRows] at h
      obtain ⟨i1, i2⟩ := ih (i0 + 1) rhs1 h
      refine ⟨i1, fun j => ?_⟩
      rw [i2 j]
      simp [colSum, rowCoef_nil]
    | cons e row =>
      simp only [transformRows] at h
      cases hr : idx? rhs0 (softNum + (i0 : Int)) with
      | none =>
        rw [hr] at h
        simp at h
      | some r0 =>
        rw [hr] at h
        dsimp only at h
        cases ht : transformRow r0 (e :: row) rhs1 with
        | none =>
          rw [ht] at h
          simp at h
        | some rhs1a =>
          rw [ht] at h
          dsimp only at h
          obtain ⟨i1, i2⟩ := ih (i0 + 1) rhs1a h
          obtain ⟨k1, k2⟩ := transformRow_spec r0 (e :: row) rhs1 rhs1a ht
          refine ⟨by rw [i1, k1], fun j => ?_⟩
          rw [i2 j, k2 j]
          simp only [colSum]
          rw [vget_of_idx? _ _ _ hr]
          ring

theorem hardRhsRow_spec {C : Type} [LinearOrder C] (cm : List ((C × Int) × Int))
    (softNum idx : Int) (srhs : List ((C × Int) × ℚ)) (m m' : List (List (Int × ℚ)))
    (h : hardRhsRow cm softNum idx srhs m = some m') :
    m'.length = m.length ∧ ∀ (r : Nat → ℚ) (j' : Int), colSum r 0 m' j' =
      colSum r 0 m j' + if j' = idx then evalMap (rhsAt cm softNum r) srhs else 0 := by
  induction srhs generalizing m with
  | nil =>
    simp only [hardRhsRow, Option.some.injEq] at h
    subst h
    simp [evalMap]
  | cons e rest ih =>
    obtain ⟨key, c⟩ := e
    simp only [hardRhsRow] at h
    cases ha : addAt m ((mfind cm key).getD 0 - softNum) idx c with
    | none =>
      rw [ha] at h
      simp at h
    | some m1 =>
      rw [ha] at h
      dsimp only at h
      obtain ⟨i1, i2⟩ := ih m1 h
      obtain ⟨k1, k2⟩ := addAt_spec _ _ _ _ _ ha
      refine ⟨by rw [i1, k1], fun r j' => ?_⟩
      rw [i2 r j', k2 r j', evalMap_cons]
      by_cases hj : j' = idx
      · simp only [if_pos hj, rhsAt]
        ring
      · simp only [if_neg hj]
        ring

/-- The loop of `factor` that adds the right-hand sides of the substitutions to
`rhsTransformMap`. -/
theorem hardRhsRows_spec {V C : Type} [LinearOrder V] [LinearOrder C]
    (cm : List ((C × Int) × Int)) (si : List (V × Int)) (softNum : Int)
    (sr : List (V × List ((C × Int) × ℚ))) (m m' : List (List (Int × ℚ)))
    (h : hardRhsRows cm si softNum sr m = some m') :
    m'.length = m.length ∧ ∀ (r : Nat → ℚ) (j' : Int), colSum r 0 m' j' =
      colSum r 0 m j' + (sr.map (fun e =>
        if j' = (mfind si e.1).getD 0 + softNum then evalMap (rhsAt cm softNum r) e.2
        else 0)).sum := by
  induction sr generalizing m with
  | nil =>
    simp only [hardRhsRows, Option.some.injEq] at h
    subst h
    simp
  | cons e rest ih =>
    obtain ⟨x, srhs⟩ := e
    simp only [hardRhsRows] at h
    cases ha : hardRhsRow cm softNum ((mfind si x).getD 0 + softNum) srhs m with
    | none =>
      rw [ha] at h
      simp at h
    | some m1 =>
      rw [ha] at h
      dsimp only at h
      obtain ⟨i1, i2⟩ := ih m1 h
      obtain ⟨k1, k2⟩ := hardRhsRow_spec _ _ _ _ _ _ ha
      refine ⟨by rw [i1, k1], fun r j' => ?_⟩
      rw [i2 r j', k2 r j']
      simp only [List.map_cons, List.sum_cons]
      ring

/-- The sum over the entries of a map of the values of the entries whose key has the index
of the key `x0`, when no other key has this index. -/
theorem sum_unique_key {V β : Type} [DecidableEq V] (si : List (V × Int)) (softNum : Int)
    (sr : List (V × β)) (f : β → ℚ) (z : β) (hz : f z = 0) (x0 : V)
    (hn : (mkeys sr).Nodup)
    (hinj : ∀ x ∈ mkeys sr, x ≠ x0 → (mfind si x).getD 0 ≠ (mfind si x0).getD 0) :
    (sr.map (fun e =>
      if (mfind si x0).getD 0 + softNum = (mfind si e.1).getD 0 + softNum then f e.2
      else 0)).sum = f ((mfind sr x0).getD z) := by
  induction sr with
  | nil => simp [mfind, hz]
  | cons e rest ih =>
    obtain ⟨x, v⟩ := e
    simp only [mkeys, List.map_cons, List.nodup_cons] at hn
    simp only [List.map_cons, List.sum_cons]
    by_cases hx : x = x0
    · subst hx
      have hrest : (rest.map (fun e =>
          if (mfind si x).getD 0 + softNum = (mfind si e.1).getD 0 + softNum then f e.2
          else 0)).sum = 0 := by
        apply List.sum_eq_zero
        intro y hy
        obtain ⟨e, he, rfl⟩ := List.mem_map.1 hy
        have hne : e.1 ≠ x := by
          intro e'
          apply hn.1
          rw [← e']
          exact mem_mkeys_of_mem _ e he
        have := hinj e.1 (by
          simp only [mkeys, List.map_cons]
          exact List.mem_cons_of_mem _ (mem_mkeys_of_mem _ e he)) hne
        rw [if_neg]
        omega
      rw [hrest]
      simp [mfind]
    · have h1 := hinj x (by simp [mkeys]) hx
      rw [if_neg (by omega)]
      have : mfind ((x, v) :: rest) x0 = mfind rest x0 := by
        have hx' : ¬ x0 = x := fun e => hx e.symm
        simp only [mfind, if_neg hx']
      rw [this, zero_add]
      exact ih hn.2 (fun y hy => hinj y (by
        simp only [mkeys, List.map_cons]
        exact List.mem_cons_of_mem _ hy))

theorem softRhsRow_spec {C : Type} [LinearOrder C] (cm : List ((C × Int) × Int))
    (softNum idx : Int) (fac : ℚ) (srhs : List ((C × Int) × ℚ)) (m m' : List (List (Int × ℚ)))
    (h : softRhsRow cm softNum idx fac srhs m = some m') :
    m'.length = m.length ∧ ∀ (r : Nat → ℚ) (j' : Int), colSum r 0 m' j' =
      colSum r 0 m j' + if j' = idx then -(fac * evalMap (rhsAt cm softNum r) srhs) else 0 := by
  induction srhs generalizing m with
  | nil =>
    simp only [softRhsRow, Option.some.injEq] at h
    subst h
    simp [evalMap]
  | cons e rest ih =>
    obtain ⟨key, c⟩ := e
    simp only [softRhsRow] at h
    cases ha : addAt m ((mfind cm key).getD 0 - softNum) idx (-(fac * c)) with
    | none =>
      rw [ha] at h
      simp at h
    | some m1 =>
      rw [ha] at h
      dsimp only at h
      obtain ⟨i1, i2⟩ := ih m1 h
      obtain ⟨k1, k2⟩ := addAt_spec _ _ _ _ _ ha
      refine ⟨by rw [i1, k1], fun r j' => ?_⟩
      rw [i2 r j', k2 r j', evalMap_cons]
      by_cases hj : j' = idx
      · simp only [if_pos hj, rhsAt]
        ring
      · simp only [if_neg hj]
        ring

/-- The loop of `factor` that applies the substitutions to the left-hand side of one soft
constraint. -/
theorem softSubstitute_spec {V C : Type} [LinearOrder V] [LinearOrder C]
    (subs : List (V × List (V × ℚ))) (sr : List (V × List ((C × Int) × ℚ)))
    (cm : List ((C × Int) × Int)) (softNum idx : Int) (lhs modLhs modLhs' : List (V × ℚ))
    (m m' : List (List (Int × ℚ)))
    (h : softSubstitute subs sr cm softNum idx lhs modLhs m = some (modLhs', m')) :
    m'.length = m.length ∧
      (∀ (r : Nat → ℚ) (j' : Int), colSum r 0 m' j' = colSum r 0 m j' +
        if j' = idx then -subRhsSum subs sr (rhsAt cm softNum r) lhs else 0) ∧
      (∀ x : V → ℚ, evalMap x modLhs' = evalMap x modLhs + subLhsSum subs x lhs) ∧
      ((mkeys modLhs).Nodup → (mkeys modLhs').Nodup) ∧
      ∀ k, k ∈ mkeys modLhs' ↔ k ∈ mkeys modLhs ∨
        ∃ e ∈ lhs, ∃ sub, mfind subs e.1 = some sub ∧ k ∈ mkeys sub := by
  induction lhs generalizing modLhs m with
  | nil =>
    simp only [softSubstitute, Option.some.injEq, Prod.mk.injEq] at h
    obtain ⟨rfl, rfl⟩ := h
    simp [subRhsSum, subLhsSum]
  | cons e rest ih =>
    obtain ⟨v, fac⟩ := e
    simp only [softSubstitute] at h
    cases hv : mfind subs v with
    | none =>
      rw [hv] at h
      dsimp only at h
      obtain ⟨i1, i2, i3, i4, i5⟩ := ih modLhs m h
      refine ⟨i1, ?_, ?_, i4, ?_⟩
      · intro r j'
        rw [i2 r j']
        simp [subRhsSum, hv]
      · intro x
        rw [i3 x]
        simp [subLhsSum, hv]
      · intro k
        rw [i5 k]
        simp [hv]
    | some curSub =>
      rw [hv] at h
      dsimp only at h
      cases ha : softRhsRow cm softNum idx fac ((mfind sr v).getD []) m with
      | none =>
        rw [ha] at h
        simp at h
      | some m1 =>
        rw [ha] at h
        dsimp only at h
        obtain ⟨i1, i2, i3, i4, i5⟩ := ih _ m1 h
        obtain ⟨k1, k2⟩ := softRhsRow_spec _ _ _ _ _ _ _ ha
        refine ⟨by rw [i1, k1], ?_, ?_, ?_, ?_⟩
        · intro r j'
          rw [i2 r j', k2 r j']
          simp only [subRhsSum, List.map_cons, List.sum_cons, hv]
          by_cases hj : j' = idx
          · simp only [if_pos hj]
            ring
          · simp only [if_neg hj]
            ring
        · intro x
          rw [i3 x, evalMap_addScaled]
          simp only [subLhsSum, List.map_cons, List.sum_cons, hv]
          ring
        · intro hn
          exact i4 (nodup_mkeys_addScaled _ _ _ _ hn)
        · intro k
          rw [i5 k, mem_mkeys_addScaled]
          constructor
          · rintro ((h1 | h1) | ⟨e, he, sub, h2, h3⟩)
            · exact Or.inl h1
            · exact Or.inr ⟨(v, fac), List.mem_cons_self _ _, curSub, hv, h1⟩
            · exact Or.inr ⟨e, List.mem_cons_of_mem _ he, sub, h2, h3⟩
          · rintro (h1 | ⟨e, he, sub, h2, h3⟩)
            · exact Or.inl (Or.inl h1)
            · rcases List.mem_cons.1 he with he | he
              · subst he
                rw [hv, Option.some.injEq] at h2
                subst h2
                exact Or.inl (Or.inr h3)
              · exact Or.inr ⟨e, he, sub, h2, h3⟩

/-- The loop of `factor` over the soft constraints changes `rhsTransformMap` in the column
of each soft constraint only. -/
theorem softRows_colSum {V C : Type} [LinearOrder V] [LinearOrder C]
    (subs : List (V × List (V × ℚ))) (sr : List (V × List ((C × Int) × ℚ)))
    (cm : List ((C × Int) × Int)) (varMap : List (V × Int)) (softNum : Int)
    (l : List ((C × Int) × Constraint V)) (sm sm' m m' : List (List (Int × ℚ)))
    (h : softRows subs sr cm varMap softNum l sm m = some (sm', m')) :
    m'.length = m.length ∧ ∀ (r : Nat → ℚ) (j' : Int), colSum r 0 m' j' =
      colSum r 0 m j' + (l.map (fun e =>
        if e.2.hard = true then 0
        else if j' = (mfind cm e.1).getD 0 then
          -subRhsSum subs sr (rhsAt cm softNum r) e.2.lhs
        else 0)).sum := by
  induction l generalizing sm m with
  | nil =>
    simp only [softRows, Option.some.injEq, Prod.mk.injEq] at h
    obtain ⟨-, rfl⟩ := h
    simp
  | cons e rest ih =>
    obtain ⟨key, c⟩ := e
    simp only [softRows] at h
    by_cases hh : c.hard = true
    · rw [if_pos hh] at h
      obtain ⟨i1, i2⟩ := ih sm m h
      refine ⟨i1, fun r j' => ?_⟩
      rw [i2 r j']
      simp [hh]
    · rw [if_neg hh] at h
      cases ha : softSubstitute subs sr cm softNum ((mfind cm key).getD 0) c.lhs c.lhs m with
      | none =>
        rw [ha] at h
        simp at h
      | some p =>
        obtain ⟨modLhs, m1⟩ := p
        rw [ha] at h
        dsimp only at h
        cases hrow : idx? sm ((mfind cm key).getD 0) with
        | none =>
          rw [hrow] at h
          simp at h
        | some row =>
          rw [hrow] at h
          dsimp only at h
          cases hu : upd? sm ((mfind cm key).getD 0)
              ((row ++ softRow subs varMap modLhs).insertionSort pairLe) with
          | none =>
            rw [hu] at h
            simp at h
          | some sm1 =>
            rw [hu] at h
            dsimp only at h
            obtain ⟨i1, i2⟩ := ih sm1 m1 h
            obtain ⟨k1, k2, -⟩ := softSubstitute_spec _ _ _ _ _ _ _ _ _ _ ha
            refine ⟨by rw [i1, k1], fun r j' => ?_⟩
            rw [i2 r j', k2 r j']
            simp only [List.map_cons, List.sum_cons, hh, Bool.false_eq_true, if_false]
            ring

theorem vget_append_replicate (l : List ℚ) (n : Nat) (i : Int) :
    vget (l ++ List.replicate n 0) i = vget l i := by
  unfold vget idx?
  by_cases hi : 0 ≤ i
  · rw [if_pos hi, if_pos hi]
    by_cases hlt : i.toNat < l.length
    · rw [List.getElem?_append_left hlt]
    · rw [List.getElem?_append_right (by omega), List.getElem?_eq_none (by omega : l.length ≤ i.toNat)]
      rw [List.getElem?_replicate]
      split <;> rfl
  · rw [if_neg hi, if_neg hi]

theorem vget_resize (l : List ℚ) (n : Nat) (i : Int) (h : l.length ≤ n) :
    vget (resize l n 0) i = vget l i := by
  unfold resize
  rw [List.take_of_length_le h, vget_append_replicate]

theorem vget_replicate (n : Nat) (i : Int) : vget (List.replicate n 0) i = 0 := by
  have := vget_append_replicate [] n i
  simp only [List.nil_append] at this
  rw [this]
  simp [vget, idx?]

/-- The loop of `solve` that grabs the right-hand sides: the entry of `rhs0` at the index
of a constraint is the right-hand side of the constraint, when different constraints have
different indices. -/
theorem grabRhs_spec {V C : Type} [LinearOrder C] (cm : List ((C × Int) × Int))
    (l : List ((C × Int) × Constraint V)) (rhs0 rhs0' : List ℚ)
    (h : grabRhs cm l rhs0 = some rhs0') (hn : (mkeys l).Nodup)
    (hinj : ∀ k1 ∈ mkeys l, ∀ k2 ∈ mkeys l,
      (mfind cm k1).getD 0 = (mfind cm k2).getD 0 → k1 = k2) :
    (∀ e ∈ l, vget rhs0' ((mfind cm e.1).getD 0) = e.2.rhs) ∧
      ∀ i, (∀ k ∈ mkeys l, (mfind cm k).getD 0 ≠ i) → vget rhs0' i = vget rhs0 i := by
  induction l generalizing rhs0 with
  | nil =>
    simp only [grabRhs, Option.some.injEq] at h
    subst h
    simp
  | cons e rest ih =>
    obtain ⟨key, c⟩ := e
    simp only [mkeys, List.map_cons, List.nodup_cons] at hn
    simp only [grabRhs] at h
    generalize hra : (if (rhs0.length : Int) ≤ (mfind cm key).getD 0 then
      resize rhs0 ((mfind cm key).getD 0 + 1).toNat 0 else rhs0) = rhs0a at h
    have hva : ∀ i, vget rhs0a i = vget rhs0 i := by
      intro i
      rw [← hra]
      split
      · exact vget_resize _ _ _ (by omega)
      · rfl
    cases hu : upd? rhs0a ((mfind cm key).getD 0) c.rhs with
    | none =>
      rw [hu] at h
      simp at h
    | some rhs0b =>
      rw [hu] at h
      dsimp only at h
      obtain ⟨i1, i2⟩ := ih rhs0b h hn.2 (fun k1 h1 k2 h2 => hinj k1
        (by simp only [mkeys, List.map_cons]; exact List.mem_cons_of_mem _ h1) k2
        (by simp only [mkeys, List.map_cons]; exact List.mem_cons_of_mem _ h2))
      constructor
      · intro e he
        rcases List.mem_cons.1 he with he | he
        · subst he
          dsimp only
          rw [i2, vget_upd? _ _ _ _ _ hu, if_pos rfl]
          intro k hk hkk
          have := hinj k (by simp only [mkeys, List.map_cons]; exact List.mem_cons_of_mem _ hk)
            key (by simp [mkeys]) hkk
          exact hn.1 (this ▸ hk)
        · exact i1 e he
      · intro i hi
        rw [i2 i (fun k hk => hi k
          (by simp only [mkeys, List.map_cons]; exact List.mem_cons_of_mem _ hk)),
          vget_upd? _ _ _ _ _ hu, if_neg, hva]
        intro e
        exact hi key (by simp [mkeys]) e.symm

theorem clearHard_spec (softNum : Int) (rhs rhs1 : List ℚ)
    (h : clearHard softNum rhs = some rhs1) :
    ∀ i, vget rhs1 i = if i < softNum then vget rhs i else 0 := by
  intro i
  unfold clearHard at h
  split at h
  · simp at h
  · rename_i hc
    simp only [Option.some.injEq] at h
    subst h
    rw [vget_append_replicate]
    unfold vget idx?
    by_cases hi : 0 ≤ i
    · rw [if_pos hi, if_pos hi, List.getElem?_take]
      by_cases hlt : i < softNum
      · rw [if_pos hlt, if_pos (by omega)]
      · rw [if_neg hlt, if_neg (by omega)]
        rfl
    · rw [if_neg hi, if_neg hi]
      simp

/-! ### The indices of the variables -/

theorem freeVarsRow_spec {V : Type} [LinearOrder V] (subs : List (V × List (V × ℚ)))
    (row : List (V × ℚ)) (varMap : List (V × Int)) (varIds : List V)
    (hinv : FVInv subs varMap varIds) :
    FVInv subs (freeVarsRow subs row varMap varIds).1 (freeVarsRow subs row varMap varIds).2 ∧
      (∀ v ∈ varIds, v ∈ (freeVarsRow subs row varMap varIds).2) ∧
      ∀ v ∈ mkeys row, v ∈ (freeVarsRow subs row varMap varIds).2 ∨ v ∈ mkeys subs := by
  induction row generalizing varMap varIds with
  | nil => exact ⟨hinv, fun v hv => hv, by simp [mkeys]⟩
  | cons e rest ih =>
    obtain ⟨v0, c0⟩ := e
    simp only [freeVarsRow]
    by_cases hc : (mfind varMap v0).isSome = true ∨ (mfind subs v0).isSome = true
    · rw [if_pos hc]
      obtain ⟨i1, i2, i3⟩ := ih varMap varIds hinv
      refine ⟨i1, i2, ?_⟩
      intro v hv
      simp only [mkeys, List.map_cons, List.mem_cons] at hv
      rcases hv with hv | hv
      · subst hv
        rcases hc with hc | hc
        · obtain ⟨k, hk⟩ := Option.isSome_iff_exists.1 hc
          obtain ⟨i, -, hi⟩ := (hinv.1 v k).1 hk
          exact Or.inl (i2 v (mem_of_getElem? _ _ _ hi))
        · exact Or.inr ((mfind_isSome_iff _ _).1 hc)
      · exact i3 v hv
    · rw [if_neg hc]
      rw [not_or] at hc
      have hvm : mfind varMap v0 = none := by
        cases h : mfind varMap v0 with
        | none => rfl
        | some k => exact absurd (by rw [h]; rfl) hc.1
      have hvs : mfind subs v0 = none := by
        cases h : mfind subs v0 with
        | none => rfl
        | some k => exact absurd (by rw [h]; rfl) hc.2
      have hv0 : v0 ∉ varIds := by
        intro h
        obtain ⟨i, hi⟩ := getElem?_of_mem _ _ h
        have := (hinv.1 v0 i).2 ⟨i, rfl, hi⟩
        rw [hvm] at this
        simp at this
      have hinv' : FVInv subs (mset varLt varMap v0 (varIds.length : Int)) (varIds ++ [v0]) := by
        constructor
        · intro v k
          rw [mfind_mset]
          by_cases hv : v = v0
          · subst hv
            rw [if_pos rfl]
            constructor
            · intro h
              rw [Option.some.injEq] at h
              exact ⟨varIds.length, h.symm, by simp⟩
            · rintro ⟨i, rfl, hi⟩
              have hlt := (List.getElem?_eq_some.1 hi).1
              simp only [List.length_append, List.length_singleton] at hlt
              by_cases hi' : i < varIds.length
              · rw [List.getElem?_append_left hi'] at hi
                exact absurd (mem_of_getElem? _ _ _ hi) hv0
              · have : i = varIds.length := by omega
                rw [this]
          · rw [if_neg hv, hinv.1 v k]
            constructor
            · rintro ⟨i, rfl, hi⟩
              exact ⟨i, rfl, by
                rw [List.getElem?_append_left (List.getElem?_eq_some.1 hi).1]
                exact hi⟩
            · rintro ⟨i, rfl, hi⟩
              have hlt := (List.getElem?_eq_some.1 hi).1
              simp only [List.length_append, List.length_singleton] at hlt
              by_cases hi' : i < varIds.length
              · rw [List.getElem?_append_left hi'] at hi
                exact ⟨i, rfl, hi⟩
              · have : i = varIds.length := by omega
                subst this
                simp only [List.getElem?_concat_length, Option.some.injEq] at hi
                exact absurd hi.symm hv
        · intro v hv
          rcases List.mem_append.1 hv with hv | hv
          · exact hinv.2 v hv
          · simp only [List.mem_singleton] at hv
            rw [hv]
            exact hvs
      obtain ⟨i1, i2, i3⟩ := ih _ _ hinv'
      refine ⟨i1, fun v hv => i2 v (List.mem_append_left _ hv), ?_⟩
      intro v hv
      simp only [mkeys, List.map_cons, List.mem_cons] at hv
      rcases hv with hv | hv
      · subst hv
        exact Or.inl (i2 v (by simp))
      · exact i3 v hv

/-- The loop of `factor` that gives indices to the free variables of the soft
constraints. -/
theorem freeVars_spec {V C : Type} [LinearOrder V] (subs : List (V × List (V × ℚ)))
    (l : List ((C × Int) × Constraint V)) (varMap : List (V × Int)) (varIds : List V)
    (hinv : FVInv subs varMap varIds) :
    FVInv subs (freeVars subs l varMap varIds).1 (freeVars subs l varMap varIds).2 ∧
      (∀ v ∈ varIds, v ∈ (freeVars subs l varMap varIds).2) ∧
      ∀ e ∈ l, e.2.hard = false → ∀ v ∈ mkeys e.2.lhs,
        v ∈ (freeVars subs l varMap varIds).2 ∨ v ∈ mkeys subs := by
  induction l generalizing varMap varIds with
  | nil => exact ⟨hinv, fun v hv => hv, by simp⟩
  | cons e rest ih =>
    obtain ⟨key, c⟩ := e
    simp only [freeVars]
    by_cases hh : c.hard = true
    · rw [if_pos hh]
      obtain ⟨i1, i2, i3⟩ := ih varMap varIds hinv
      refine ⟨i1, i2, ?_⟩
      intro e he hs
      rcases List.mem_cons.1 he with he | he
      · subst he
        rw [hh] at hs
        simp at hs
      · exact i3 e he hs
    · rw [if_neg hh]
      obtain ⟨k1, k2, k3⟩ := freeVarsRow_spec subs c.lhs varMap varIds hinv
      obtain ⟨i1, i2, i3⟩ := ih _ _ k1
      refine ⟨i1, fun v hv => i2 v (k2 v hv), ?_⟩
      intro e he hs
      rcases List.mem_cons.1 he with he | he
      · subst he
        intro v hv
        rcases k3 v hv with k | k
        · exact Or.inl (i2 v k)
        · exact Or.inr k
      · exact i3 e he hs

/-- The loop of `factor` that gives the substituted variables their indices. -/
theorem hardVars_spec {V : Type} [LinearOrder V] (si : List (V × Int)) (softVars : Int)
    (l : List (V × List (V × ℚ))) (varMap varMap' : List (V × Int)) (varIds varIds' : List V)
    (h : hardVars si softVars l varMap varIds = some (varMap', varIds'))
    (hinj : ∀ x ∈ mkeys l, ∀ y ∈ mkeys l,
      (mfind si x).getD 0 = (mfind si y).getD 0 → x = y) :
    varIds'.length = varIds.length ∧
      (∀ i : Int, (∀ x ∈ mkeys l, (mfind si x).getD 0 + softVars ≠ i) →
        idx? varIds' i = idx? varIds i) ∧
      (∀ x ∈ mkeys l, idx? varIds' ((mfind si x).getD 0 + softVars) = some x) ∧
      (∀ v, v ∉ mkeys l → mfind varMap' v = mfind varMap v) ∧
      ∀ x ∈ mkeys l, mfind varMap' x = some ((mfind si x).getD 0 + softVars) := by
  induction l generalizing varMap varIds with
  | nil =>
    simp only [hardVars, Option.some.injEq, Prod.mk.injEq] at h
    obtain ⟨rfl, rfl⟩ := h
    simp [mkeys]
  | cons e rest ih =>
    obtain ⟨x0, sub⟩ := e
    simp only [hardVars] at h
    cases hu : upd? varIds ((mfind si x0).getD 0 + softVars) x0 with
    | none =>
      rw [hu] at h
      simp at h
    | some varIds1 =>
      rw [hu] at h
      dsimp only at h
      have hsub : ∀ x ∈ mkeys rest, x ∈ mkeys ((x0, sub) :: rest) := by
        intro x hx
        simp only [mkeys, List.map_cons]
        exact List.mem_cons_of_mem _ hx
      have h0 : x0 ∈ mkeys ((x0, sub) :: rest) := by simp [mkeys]
      obtain ⟨i1, i2, i3, i4, i5⟩ := ih _ _ h
        (fun x hx y hy => hinj x (hsub x hx) y (hsub y hy))
      obtain ⟨⟨u0, u1⟩, rfl⟩ := (upd?_eq_some _ _ _ _).1 hu
      have hget : ∀ i : Int, idx? (varIds.set ((mfind si x0).getD 0 + softVars).toNat x0) i =
          if i = (mfind si x0).getD 0 + softVars then some x0 else idx? varIds i := by
        intro i
        unfold idx?
        by_cases hi : 0 ≤ i
        · rw [if_pos hi, if_pos hi, List.getElem?_set]
          by_cases hii : i = (mfind si x0).getD 0 + softVars
          · subst hii
            simp [u1]
          · rw [if_neg hii, if_neg (by omega)]
        · rw [if_neg hi, if_neg hi, if_neg (by omega)]
      refine ⟨by rw [i1]; simp, ?_, ?_, ?_, ?_⟩
      · intro i hi
        rw [i2 i (fun x hx => hi x (hsub x hx)), hget, if_neg (fun e => hi x0 h0 e.symm)]
      · intro x hx
        by_cases hxr : x ∈ mkeys rest
        · exact i3 x hxr
        · have hx0 : x = x0 := by
            simp only [mkeys, List.map_cons, List.mem_cons] at hx
            rcases hx with hx | hx
            · exact hx
            · exact absurd hx hxr
          subst hx0
          rw [i2 _ (fun y hy e => hxr (by
            have := hinj y (hsub y hy) x h0 (by omega)
            exact this ▸ hy)), hget, if_pos rfl]
      · intro v hv
        simp only [mkeys, List.map_cons, List.mem_cons, not_or] at hv
        rw [i4 v hv.2, mfind_mset, if_neg hv.1]
      · intro x hx
        by_cases hxr : x ∈ mkeys rest
        · exact i5 x hxr
        · have hx0 : x = x0 := by
            simp only [mkeys, List.map_cons, List.mem_cons] at hx
            rcases hx with hx | hx
            · exact hx
            · exact absurd hx hxr
          subst hx0
          rw [i4 x hxr, mfind_mset, if_pos rfl]

/-! ### The substituted variables in `solve` -/

theorem rget_pushAtPair (m m' : List (List (Int × ℚ))) (i : Int) (x : Int × ℚ)
    (h : pushAtPair m i x = some m') :
    m'.length = m.length ∧ ∀ j, rget m' j = rget m j ++ if j = i then [x] else [] := by
  unfold pushAtPair at h
  cases hrow : idx? m i with
  | none =>
    rw [hrow] at h
    simp at h
  | some row =>
    rw [hrow] at h
    dsimp only at h
    obtain ⟨⟨h0, h1⟩, rfl⟩ := (upd?_eq_some _ _ _ _).1 h
    refine ⟨by simp, fun j => ?_⟩
    unfold rget idx?
    by_cases hj : 0 ≤ j
    · rw [if_pos hj, if_pos hj, List.getElem?_set]
      by_cases hji : j = i
      · subst hji
        have := ((idx?_eq_some _ _ _).1 hrow).2
        simp [h1, this]
      · rw [if_neg hji, if_neg (by omega)]
        simp
    · rw [if_neg hj, if_neg hj, if_neg (by omega)]
      simp

theorem substitutedRow_spec {V : Type} [DecidableEq V] (varMap : List (V × Int)) (idx : Int)
    (sub : List (V × ℚ)) (m m' : List (List (Int × ℚ)))
    (h : substitutedRow varMap idx sub m = some (true, m')) :
    m'.length = m.length ∧ (∀ v ∈ mkeys sub, (mfind varMap v).isSome = true) ∧
      ∀ j, rget m' j = rget m j ++ if j = idx then mapRow varMap sub else [] := by
  induction sub generalizing m with
  | nil =>
    simp only [substitutedRow, Option.some.injEq, Prod.mk.injEq, true_and] at h
    subst h
    simp [mkeys, mapRow]
  | cons e rest ih =>
    obtain ⟨v, c⟩ := e
    simp only [substitutedRow] at h
    cases hv : mfind varMap v with
    | none =>
      rw [hv] at h
      simp at h
    | some k =>
      rw [hv] at h
      dsimp only at h
      cases hp : pushAtPair m idx (k, c) with
      | none =>
        rw [hp] at h
        simp at h
      | some m1 =>
        rw [hp] at h
        dsimp only at h
        obtain ⟨i1, i2, i3⟩ := ih m1 h
        obtain ⟨k1, k2⟩ := rget_pushAtPair _ _ _ _ hp
        refine ⟨by rw [i1, k1], ?_, ?_⟩
        · intro u hu
          simp only [mkeys, List.map_cons, List.mem_cons] at hu
          rcases hu with hu | hu
          · rw [hu, hv]
            rfl
          · exact i2 u hu
        · intro j
          rw [i3 j, k2 j]
          by_cases hj : j = idx
          · simp [hj, mapRow, hv]
          · simp [hj]

/-- The loop of `factor` that computes `substitutedHard`: the row at the index of a
substituted variable is the row of its substitution. -/
theorem substitutedRows_spec {V : Type} [DecidableEq V] (varMap si : List (V × Int))
    (l : List (V × List (V × ℚ))) (m m' : List (List (Int × ℚ)))
    (h : substitutedRows varMap si l m = some (true, m')) (hn : (mkeys l).Nodup)
    (hinj : ∀ x ∈ mkeys l, ∀ y ∈ mkeys l,
      (mfind si x).getD 0 = (mfind si y).getD 0 → x = y) :
    m'.length = m.length ∧ (∀ e ∈ l, ∀ v ∈ mkeys e.2, (mfind varMap v).isSome = true) ∧
      (∀ j, (∀ x ∈ mkeys l, (mfind si x).getD 0 ≠ j) → rget m' j = rget m j) ∧
      ∀ e ∈ l, rget m' ((mfind si e.1).getD 0) =
        rget m ((mfind si e.1).getD 0) ++ mapRow varMap e.2 := by
  induction l generalizing m with
  | nil =>
    simp only [substitutedRows, Option.some.injEq, Prod.mk.injEq, true_and] at h
    subst h
    simp
  | cons e rest ih =>
    obtain ⟨x0, sub⟩ := e
    simp only [mkeys, List.map_cons, List.nodup_cons] at hn
    simp only [substitutedRows] at h
    cases hr : substitutedRow varMap ((mfind si x0).getD 0) sub m with
    | none =>
      rw [hr] at h
      simp at h
    | some p =>
      obtain ⟨flag, m1⟩ := p
      rw [hr] at h
      cases flag with
      | false => simp at h
      | true =>
        dsimp only at h
        have hsub : ∀ x ∈ mkeys rest, x ∈ mkeys ((x0, sub) :: rest) := by
          intro x hx
          simp only [mkeys, List.map_cons]
          exact List.mem_cons_of_mem _ hx
        have h0 : x0 ∈ mkeys ((x0, sub) :: rest) := by simp [mkeys]
        obtain ⟨i1, i2, i3, i4⟩ := ih m1 h hn.2
          (fun x hx y hy => hinj x (hsub x hx) y (hsub y hy))
        obtain ⟨k1, k2, k3⟩ := substitutedRow_spec _ _ _ _ _ hr
        have hne : ∀ x ∈ mkeys rest, (mfind si x).getD 0 ≠ (mfind si x0).getD 0 := by
          intro x hx e
          have := hinj x (hsub x hx) x0 h0 e
          exact hn.1 (this ▸ hx)
        refine ⟨by rw [i1, k1], ?_, ?_, ?_⟩
        · intro e he
          rcases List.mem_cons.1 he with he | he
          · subst he
            exact k2
          · exact i2 e he
        · intro j hj
          rw [i3 j (fun x hx => hj x (hsub x hx)), k3 j, if_neg (fun e => hj x0 h0 e.symm)]
          simp
        · intro e he
          rcases List.mem_cons.1 he with he | he
          · subst he
            dsimp only
            rw [i3 _ hne, k3, if_pos rfl]
          · rw [i4 e he, k3, if_neg (hne e.1 (mem_mkeys_of_mem _ e he))]
            simp

theorem evalMap_mapRow {V : Type} [DecidableEq V] (varMap : List (V × Int))
    (sub : List (V × ℚ)) (z : Int → ℚ) :
    evalMap z (mapRow varMap sub) = evalMap (fun v => z ((mfind varMap v).getD 0)) sub := by
  simp [evalMap, mapRow, Function.comp_def]

/-- The inner loop of the reconstruction of a substituted variable adds the value of the
row at `rhs2` to `cur`. -/
theorem hardValue_spec (rhs2 : List ℚ) (row : List (Int × ℚ)) (cur v : ℚ)
    (h : hardValue rhs2 row cur = some v) : v = cur + evalMap (vget rhs2) row := by
  induction row generalizing cur with
  | nil =>
    simp only [hardValue, Option.some.injEq] at h
    rw [← h]
    simp [evalMap]
  | cons e rest ih =>
    obtain ⟨j, c⟩ := e
    simp only [hardValue] at h
    cases hy : idx? rhs2 j with
    | none =>
      rw [hy] at h
      simp at h
    | some y =>
      rw [hy] at h
      dsimp only at h
      rw [ih _ h, evalMap_cons, vget_of_idx? _ _ _ hy]
      ring

/-- The loop `result[varIds[i]] = rhs2[i]` of `solve`. -/
theorem storeFree_spec {V : Type} [LinearOrder V] (varIds : List V) (i : Nat) (ys : List ℚ)
    (res res' : List (V × ℚ)) (h : storeFree varIds i ys res = some res') :
    (∀ v, (∀ k : Nat, k < ys.length → varIds[i + k]? ≠ some v) → mfind res' v = mfind res v) ∧
      ∀ (k : Nat) (v : V), k < ys.length → varIds[i + k]? = some v →
        (∀ k' : Nat, k' < ys.length → k' ≠ k → varIds[i + k']? ≠ some v) →
        mfind res' v = ys[k]? := by
  induction ys generalizing i res with
  | nil =>
    simp only [storeFree, Option.some.injEq] at h
    subst h
    simp
  | cons y rest ih =>
    simp only [storeFree] at h
    cases hv : varIds[i]? with
    | none =>
      rw [hv] at h
      simp at h
    | some v0 =>
      rw [hv] at h
      dsimp only at h
      obtain ⟨i1, i2⟩ := ih (i + 1) _ h
      constructor
      · intro v hne
        rw [i1 v (fun k hk => by
          have := hne (k + 1) (by simp; omega)
          rwa [show i + (k + 1) = i + 1 + k by omega] at this), mfind_mset, if_neg]
        intro e
        have := hne 0 (by simp)
        rw [Nat.add_zero, hv, e] at this
        exact this rfl
      · intro k v hk hkv huniq
        cases k with
        | zero =>
          rw [Nat.add_zero, hv, Option.some.injEq] at hkv
          subst hkv
          rw [i1 v0 (fun k hk' => by
            have := huniq (k + 1) (by simp; simp at hk; omega) (by omega)
            rwa [show i + (k + 1) = i + 1 + k by omega] at this), mfind_mset, if_pos rfl]
          simp
        | succ k =>
          simp only [List.length_cons] at hk
          rw [show i + (k + 1) = i + 1 + k by omega] at hkv
          rw [i2 k v (by omega) hkv (fun k' hk' hne => by
            have := huniq (k' + 1) (by simp; omega) (by omega)
            rwa [show i + (k' + 1) = i + 1 + k' by omega] at this)]
          simp

/-- The loop of `solve` that reconstructs the substituted variables. -/
theorem storeHard_spec {V : Type} [LinearOrder V] (varIds : List V)
    (sh : List (List (Int × ℚ))) (rhs1 rhs2 : List ℚ) (softNum : Int) (n i : Nat)
    (res res' : List (V × ℚ))
    (h : storeHard varIds sh rhs1 rhs2 softNum n i res = some res') :
    (∀ v, (∀ k : Nat, k < n → varIds[i + k + rhs2.length]? ≠ some v) →
        mfind res' v = mfind res v) ∧
      ∀ (k : Nat) (v : V), k < n → varIds[i + k + rhs2.length]? = some v →
        (∀ k' : Nat, k' < n → k' ≠ k → varIds[i + k' + rhs2.length]? ≠ some v) →
        mfind res' v = some (vget rhs1 (softNum + ((i + k : Nat) : Int)) +
          evalMap (vget rhs2) (rget sh ((i + k : Nat) : Int))) := by
  induction n generalizing i res with
  | zero =>
    simp only [storeHard, Option.some.injEq] at h
    subst h
    simp
  | succ n ih =>
    simp only [storeHard] at h
    cases hc : idx? rhs1 (softNum + (i : Int)) with
    | none =>
      rw [hc] at h
      simp at h
    | some cur =>
      cases hrow : sh[i]? with
      | none =>
        rw [hc, hrow] at h
        simp at h
      | some row =>
        cases hv : varIds[i + rhs2.length]? with
        | none =>
          rw [hc, hrow, hv] at h
          simp at h
        | some v0 =>
          rw [hc, hrow, hv] at h
          dsimp only at h
          cases hval : hardValue rhs2 row cur with
          | none =>
            rw [hval] at h
            simp at h
          | some cur' =>
            rw [hval] at h
            dsimp only at h
            obtain ⟨i1, i2⟩ := ih (i + 1) _ h
            have hcur := hardValue_spec _ _ _ _ hval
            constructor
            · intro v hne
              rw [i1 v (fun k hk => by
                have := hne (k + 1) (by omega)
                rwa [show i + (k + 1) + rhs2.length = i + 1 + k + rhs2.length by omega]
                  at this), mfind_mset, if_neg]
              intro e
              have := hne 0 (by omega)
              rw [Nat.add_zero, hv, e] at this
              exact this rfl
            · intro k v hk hkv huniq
              cases k with
              | zero =>
                rw [Nat.add_zero, hv, Option.some.injEq] at hkv
                subst hkv
                rw [i1 v0 (fun k hk' => by
                  have := huniq (k + 1) (by omega) (by omega)
                  rwa [show i + (k + 1) + rhs2.length = i + 1 + k + rhs2.length by omega]
                    at this), mfind_mset, if_pos rfl, hcur, Nat.add_zero,
                  vget_of_idx? _ _ _ hc]
                have : rget sh (i : Int) = row := by
                  simp [rget, idx?_natCast, hrow]
                rw [this]
              | succ k =>
                rw [show i + (k + 1) + rhs2.length = i + 1 + k + rhs2.length by omega] at hkv
                rw [i2 k v (by omega) hkv (fun k' hk' hne => by
                  have := huniq (k' + 1) (by omega) (by omega)
                  rwa [show i + (k' + 1) + rhs2.length = i + 1 + k' + rhs2.length by omega]
                    at this)]
                rw [show i + 1 + k = i + (k + 1) by omega]

/-! ### The runs of `factor` and `solve` that return true -/

theorem factor_run {V C LLT : Type} [LinearOrder V] [LinearOrder C] [Inhabited V]
    (solver : SPDSolver LLT) (s s1 : LSQSystem V C LLT)
    (hf : s.factor solver = some (true, s1)) :
    ∃ st varMap0 varIds0 varMap rtm spdm fm,
      FactorRun solver s s1 st varMap0 varIds0 varMap rtm spdm fm := by
  unfold LSQSystem.factor at hf
  rcases hsi : softIndices s.constraints [] 0 with ⟨cm0, sn⟩
  rw [hsi] at hf
  dsimp only at hf
  split at hf
  · simp at hf
  · simp at hf
  rename_i st hloop
  rcases hfv : freeVars st.substitutions s.constraints [] [] with ⟨varMap0, varIds0⟩
  rw [hfv] at hf
  dsimp only at hf
  split at hf
  · simp at hf
  rename_i varMap varIds hhv
  split at hf
  · simp at hf
  · simp at hf
  rename_i sh hrows
  split at hf
  · simp at hf
  rename_i sm rtm hsoft
  split at hf
  · simp at hf
  rename_i rt hhr
  split at hf
  · simp at hf
  rename_i spdm hspd
  split at hf
  · simp at hf
  rename_i fm hfac
  split at hf
  · simp at hf
  rename_i hsize
  simp only [Option.some.injEq, Prod.mk.injEq, true_and] at hf
  subst hf
  refine ⟨st, varMap0, varIds0, varMap, rtm, spdm, fm, ?_⟩
  exact
    { loop := by rw [hsi]; exact hloop
      free := hfv
      hardV := hhv
      rows := hrows
      soft := by rw [hsi]; exact hsoft
      hardR := by rw [hsi]; exact hhr
      spd := hspd
      fac := hfac
      size := not_not.1 hsize
      fmEq := rfl
      cmEq := rfl
      snEq := by rw [hsi]
      consEq := rfl }

theorem solve_run {V C LLT : Type} [LinearOrder V] [LinearOrder C]
    (solver : SPDSolver LLT) (s s2 : LSQSystem V C LLT)
    (hs : s.solve solver = some (true, s2)) :
    ∃ fm rhs0 rhs1 rhs2a rhs2, SolveRun solver s s2 fm rhs0 rhs1 rhs2a rhs2 := by
  unfold LSQSystem.solve at hs
  split at hs
  · simp at hs
  rename_i rhs0 hgrab
  split at hs
  · simp at hs
  rename_i rhs1a hclear
  split at hs
  · simp at hs
  rename_i rhs1 htrans
  split at hs
  · simp at hs
  rename_i fm hfm
  split at hs
  · simp at hs
  rename_i rhs2a htp
  split at hs
  · simp at hs
  rename_i rhs2 hsolved
  split at hs
  · simp at hs
  rename_i res0 hfree
  split at hs
  · simp at hs
  rename_i res hhard
  simp only [Option.some.injEq, Prod.mk.injEq, true_and] at hs
  subst hs
  exact ⟨fm, rhs0, rhs1, rhs2a, rhs2,
    { grab := hgrab, transform := ⟨rhs1a, hclear, htrans⟩, fmEq := hfm, transpose := htp,
      solved := hsolved, store := ⟨res0, hfree, hhard⟩ }⟩

theorem transposeRow_length (r1 : ℚ) (row : List (Int × ℚ)) (rhs2 rhs2' : List ℚ)
    (h : transposeRow r1 row rhs2 = some rhs2') : rhs2'.length = rhs2.length := by
  induction row generalizing rhs2 with
  | nil =>
    simp only [transposeRow, Option.some.injEq] at h
    rw [← h]
  | cons e rest ih =>
    obtain ⟨j, c⟩ := e
    simp only [transposeRow] at h
    cases hx : idx? rhs2 j with
    | none =>
      rw [hx] at h
      simp at h
    | some x =>
      rw [hx] at h
      dsimp only at h
      cases hu : upd? rhs2 j (x + c * r1) with
      | none =>
        rw [hu] at h
        simp at h
      | some rhs2a =>
        rw [hu] at h
        dsimp only at h
        rw [ih rhs2a h, upd?_length _ _ _ _ hu]

theorem transposeRows_length (rhs1 : List ℚ) (i : Nat) (m : List (List (Int × ℚ)))
    (rhs2 rhs2' : List ℚ) (h : transposeRows rhs1 i m rhs2 = some rhs2') :
    rhs2'.length = rhs2.length := by
  induction m generalizing i rhs2 with
  | nil =>
    simp only [transposeRows, Option.some.injEq] at h
    rw [← h]
  | cons row rest ih =>
    cases row with
    | nil =>
      simp only [transposeRows] at h
      exact ih _ _ h
    | cons e row =>
      simp only [transposeRows] at h
      cases hr : rhs1[i]? with
      | none =>
        rw [hr] at h
        simp at h
      | some r1 =>
        rw [hr] at h
        dsimp only at h
        cases ht : transposeRow r1 (e :: row) rhs2 with
        | none =>
          rw [ht] at h
          simp at h
        | some rhs2a =>
          rw [ht] at h
          dsimp only at h
          rw [ih _ _ h, transposeRow_length _ _ _ _ ht]

theorem mkeys_filter_nodup {κ β : Type} (m : List (κ × β)) (p : κ × β → Bool)
    (h : (mkeys m).Nodup) : (mkeys (m.filter p)).Nodup := by
  have hs : (mkeys (m.filter p)).Sublist (mkeys m) :=
    List.Sublist.map (fun e : κ × β => e.1) (List.filter_sublist m)
  exact hs.nodup h

/-- The row reduction of a call of `factor` that returns true ends with its invariant and
without hard constraints. -/
theorem factorRun_reduced {V C LLT : Type} [LinearOrder V] [LinearOrder C] [Inhabited V]
    (solver : SPDSolver LLT) (s s1 : LSQSystem V C LLT) (st : Reduction V C)
    (varMap0 : List (V × Int)) (varIds0 : List V) (varMap : List (V × Int))
    (rtm spdm : List (List (Int × ℚ))) (fm : LLT)
    (hk : (mkeys s.constraints).Nodup) (hl : ∀ e ∈ s.constraints, (mkeys e.2.lhs).Nodup)
    (hr : FactorRun solver s s1 st varMap0 varIds0 varMap rtm spdm fm) :
    ∃ order pivIds, RedInv (s.constraints.filter (fun e => e.2.hard))
      (softIndices s.constraints [] 0).1 (softIndices s.constraints [] 0).2 st order pivIds ∧
      st.hardConstraints = [] :=
  reduceLoop_inv _ _ _ (mkeys_filter_nodup _ _ hk) _ _ _ [] []
    (redInv_init _ _ _ (fun e he => hl e (List.mem_filter.1 he).1)) hr.loop

/-- The index of a substituted variable is its place in the order of the substitutions. -/
theorem redInv_index {V C : Type} [LinearOrder V] [LinearOrder C]
    (hard0 : List ((C × Int) × Constraint V)) (cm0 : List ((C × Int) × Int)) (softNum : Int)
    (st : Reduction V C) (order : List V) (pivIds : List (C × Int))
    (hinv : RedInv hard0 cm0 softNum st order pivIds) :
    order.Nodup ∧ ∀ x ∈ mkeys st.substitutions, ∃ i : Nat, i < order.length ∧
      order[i]? = some x ∧ (mfind st.substitutionConstraintIdx x).getD 0 = (i : Int) := by
  refine ⟨hinv.permS.nodup_iff.1 hinv.nodupS, ?_⟩
  intro x hx
  obtain ⟨i, hi⟩ := getElem?_of_mem _ _ (hinv.permS.subset hx)
  exact ⟨i, (List.getElem?_eq_some.1 hi).1, hi, by rw [hinv.idxS i x hi]; rfl⟩

theorem redInv_index_inj {V C : Type} [LinearOrder V] [LinearOrder C]
    (hard0 : List ((C × Int) × Constraint V)) (cm0 : List ((C × Int) × Int)) (softNum : Int)
    (st : Reduction V C) (order : List V) (pivIds : List (C × Int))
    (hinv : RedInv hard0 cm0 softNum st order pivIds) :
    ∀ x ∈ mkeys st.substitutions, ∀ y ∈ mkeys st.substitutions,
      (mfind st.substitutionConstraintIdx x).getD 0 =
        (mfind st.substitutionConstraintIdx y).getD 0 → x = y := by
  intro x hx y hy e
  obtain ⟨i, _, hi, hi'⟩ := (redInv_index _ _ _ _ _ _ hinv).2 x hx
  obtain ⟨j, _, hj, hj'⟩ := (redInv_index _ _ _ _ _ _ hinv).2 y hy
  rw [hi', hj'] at e
  have : i = j := by omega
  subst this
  rw [hi, Option.some.injEq] at hj
  exact hj

/-- The index that `constraintMap` has for a constraint after the row reduction without
hard constraints left: the soft constraints come first, in the order of their keys, the
hard constraints follow in the order of their substitution. -/
theorem redInv_constraintMap {V C : Type} [LinearOrder V] [LinearOrder C]
    (cs : List ((C × Int) × Constraint V)) (st : Reduction V C) (order : List V)
    (pivIds : List (C × Int)) (hk : (mkeys cs).Nodup)
    (hinv : RedInv (cs.filter (fun e => e.2.hard)) (softIndices cs [] 0).1
      (softIndices cs [] 0).2 st order pivIds)
    (hH : st.hardConstraints = []) :
    0 ≤ (softIndices cs [] 0).2 ∧
    (∀ e ∈ cs, e.2.hard = false → 0 ≤ (mfind st.constraintMap e.1).getD 0 ∧
      (mfind st.constraintMap e.1).getD 0 < (softIndices cs [] 0).2) ∧
    (∀ e ∈ cs, e.2.hard = true → (softIndices cs [] 0).2 ≤ (mfind st.constraintMap e.1).getD 0) ∧
    ∀ k1 ∈ mkeys cs, ∀ k2 ∈ mkeys cs,
      (mfind st.constraintMap k1).getD 0 = (mfind st.constraintMap k2).getD 0 → k1 = k2 := by
  obtain ⟨s1, s2, s3⟩ := softIndices_spec cs [] 0 hk
  simp only [Nat.cast_zero] at s1 s2 s3
  have hHI : st.hardConstraintIds = [] := by
    have := hinv.lenIds
    rw [hH] at this
    exact List.length_eq_zero.1 this
  have hperm : pivIds.Perm (mkeys (cs.filter (fun e => e.2.hard))) := by
    have := hinv.permIds
    rw [hHI] at this
    exact this
  have hpn : pivIds.Nodup := hperm.nodup_iff.2 (mkeys_filter_nodup _ _ hk)
  -- a soft key is not the key of a hard constraint
  have hsoftP : ∀ e ∈ cs, e.2.hard = false → e.1 ∉ pivIds := by
    intro e he hs hp
    obtain ⟨e', he', hkey⟩ := List.mem_map.1 (hperm.subset hp)
    obtain ⟨he'c, he'h⟩ := List.mem_filter.1 he'
    have h1 := mfind_of_mem cs e.1 e.2 hk he
    have h2 := mfind_of_mem cs e'.1 e'.2 hk he'c
    rw [hkey, h1, Option.some.injEq] at h2
    rw [← h2, hs] at he'h
    simp at he'h
  have hsoft : ∀ e ∈ cs, e.2.hard = false → ∃ i : Nat,
      (mkeys (cs.filter (fun e => !e.2.hard)))[i]? = some e.1 ∧
        (mfind st.constraintMap e.1).getD 0 = (i : Int) ∧
        (i : Int) < (softIndices cs [] 0).2 := by
    intro e he hs
    have hm : e.1 ∈ mkeys (cs.filter (fun e => !e.2.hard)) :=
      mem_mkeys_of_mem _ e (List.mem_filter.2 ⟨he, by simp [hs]⟩)
    obtain ⟨i, hi⟩ := getElem?_of_mem _ _ hm
    refine ⟨i, hi, ?_, ?_⟩
    · rw [hinv.keepCM e.1 (hsoftP e he hs), s2 i e.1 hi]
      simp
    · rw [s1]
      have := (List.getElem?_eq_some.1 hi).1
      omega
  have hhard : ∀ e ∈ cs, e.2.hard = true → ∃ i : Nat, pivIds[i]? = some e.1 ∧
      (mfind st.constraintMap e.1).getD 0 = (softIndices cs [] 0).2 + (i : Int) := by
    intro e he hs
    have hm : e.1 ∈ pivIds :=
      hperm.symm.subset (mem_mkeys_of_mem _ e (List.mem_filter.2 ⟨he, hs⟩))
    obtain ⟨i, hi⟩ := getElem?_of_mem _ _ hm
    exact ⟨i, hi, by rw [hinv.idxP i e.1 hi]; rfl⟩
  have hsn : 0 ≤ (softIndices cs [] 0).2 := by
    rw [s1]
    omega
  refine ⟨hsn, ?_, ?_, ?_⟩
  · intro e he hs
    obtain ⟨i, _, h2, h3⟩ := hsoft e he hs
    rw [h2]
    exact ⟨by omega, h3⟩
  · intro e he hs
    obtain ⟨i, _, h2⟩ := hhard e he hs
    rw [h2]
    omega
  · intro k1 hk1 k2 hk2 e
    obtain ⟨e1, he1, rfl⟩ := List.mem_map.1 hk1
    obtain ⟨e2, he2, rfl⟩ := List.mem_map.1 hk2
    cases h1 : e1.2.hard with
    | false =>
      obtain ⟨i, a1, a2, a3⟩ := hsoft e1 he1 h1
      cases h2 : e2.2.hard with
      | false =>
        obtain ⟨j, b1, b2, b3⟩ := hsoft e2 he2 h2
        rw [a2, b2] at e
        have : i = j := by omega
        subst this
        rw [a1, Option.some.injEq] at b1
        exact b1
      | true =>
        obtain ⟨j, b1, b2⟩ := hhard e2 he2 h2
        rw [a2, b2] at e
        omega
    | true =>
      obtain ⟨i, a1, a2⟩ := hhard e1 he1 h1
      cases h2 : e2.2.hard with
      | false =>
        obtain ⟨j, b1, b2, b3⟩ := hsoft e2 he2 h2
        rw [a2, b2] at e
        omega
      | true =>
        obtain ⟨j, b1, b2⟩ := hhard e2 he2 h2
        rw [a2, b2] at e
        have : i = j := by omega
        subst this
        rw [a1, Option.some.injEq] at b1
        exact b1

theorem rget_replicate (n : Nat) (j : Int) : rget (List.replicate n []) j = [] := by
  unfold rget idx?
  split
  · rw [List.getElem?_replicate]
    split <;> rfl
  · rfl

theorem getElem?_resize {α : Type} (l : List α) (n i : Nat) (d : α) (h : l.length ≤ n)
    (hi : i < l.length) : (resize l n d)[i]? = l[i]? := by
  unfold resize
  rw [List.take_of_length_le h, List.getElem?_append_left hi]

theorem getElem?_eq_vget (l : List ℚ) (i : Nat) (h : i < l.length) :
    l[i]? = some (vget l (i : Int)) := by
  unfold vget
  rw [idx?_natCast, List.getElem?_eq_getElem h]
  rfl

theorem mkeys_eq_of_shape {V C : Type} (cs cs' : List ((C × Int) × Constraint V))
    (hc : cs'.map (fun e => (e.1, e.2.hard, e.2.lhs)) =
      cs.map (fun e => (e.1, e.2.hard, e.2.lhs))) : mkeys cs' = mkeys cs := by
  have := congrArg (List.map (fun t : (C × Int) × Bool × List (V × ℚ) => t.1)) hc
  simpa [mkeys, Function.comp_def] using this

/-- The entry of `rhs1` for a substituted variable, after the transform of the right-hand
sides in `solve`, is the value of the right-hand side of its substitution at the current
right-hand sides of the constraints. -/
theorem rhs1_hard_value {V C : Type} [LinearOrder V] [LinearOrder C]
    (cs cs' : List ((C × Int) × Constraint V)) (st : Reduction V C) (order : List V)
    (pivIds : List (C × Int)) (varMap : List (V × Int))
    (sm0 sm rtm rt : List (List (Int × ℚ))) (n : Nat) (rhs0 rhs1a rhs1 : List ℚ)
    (hk : (mkeys cs).Nodup)
    (hinv : RedInv (cs.filter (fun e => e.2.hard)) (softIndices cs [] 0).1
      (softIndices cs [] 0).2 st order pivIds)
    (hH : st.hardConstraints = [])
    (hsoft : softRows st.substitutions st.substitutionsRhs st.constraintMap varMap
      (softIndices cs [] 0).2 cs sm0 (List.replicate n []) = some (sm, rtm))
    (hhr : hardRhsRows st.constraintMap st.substitutionConstraintIdx (softIndices cs [] 0).2
      st.substitutionsRhs rtm = some rt)
    (hc : cs'.map (fun e => (e.1, e.2.hard, e.2.lhs)) =
      cs.map (fun e => (e.1, e.2.hard, e.2.lhs)))
    (hgrab : grabRhs st.constraintMap cs' [] = some rhs0)
    (hclear : clearHard (softIndices cs [] 0).2 rhs0 = some rhs1a)
    (htrans : transformRows rhs0 (softIndices cs [] 0).2 0 rt rhs1a = some rhs1) :
    (∀ e ∈ cs', vget rhs0 ((mfind st.constraintMap e.1).getD 0) = e.2.rhs) ∧
      ∀ x ∈ mkeys st.substitutions,
        vget rhs1 ((softIndices cs [] 0).2 +
            (mfind st.substitutionConstraintIdx x).getD 0) =
          evalMap (fun key => vget rhs0 ((mfind st.constraintMap key).getD 0))
            ((mfind st.substitutionsRhs x).getD []) := by
  obtain ⟨c0, c1, c2, c3⟩ := redInv_constraintMap cs st order pivIds hk hinv hH
  have hkeys := mkeys_eq_of_shape cs cs' hc
  obtain ⟨g1, -⟩ := grabRhs_spec st.constraintMap cs' [] rhs0 hgrab (by rw [hkeys]; exact hk)
    (by rw [hkeys]; exact c3)
  refine ⟨g1, ?_⟩
  intro x hx
  obtain ⟨i, _, _, hi⟩ := (redInv_index _ _ _ _ _ _ hinv).2 x hx
  obtain ⟨-, t2⟩ := transformRows_spec _ _ _ _ _ _ htrans
  obtain ⟨-, h2⟩ := hardRhsRows_spec _ _ _ _ _ _ hhr
  obtain ⟨-, s2⟩ := softRows_colSum _ _ _ _ _ _ _ _ _ _ hsoft
  rw [t2, clearHard_spec _ _ _ hclear, if_neg (by omega), zero_add, h2, s2, colSum_replicate,
    zero_add]
  have hzero : (cs.map (fun e =>
      if e.2.hard = true then 0
      else if (softIndices cs [] 0).2 + (mfind st.substitutionConstraintIdx x).getD 0 =
          (mfind st.constraintMap e.1).getD 0 then
        -subRhsSum st.substitutions st.substitutionsRhs
          (rhsAt st.constraintMap (softIndices cs [] 0).2
            (fun i => vget rhs0 ((softIndices cs [] 0).2 + (i : Int)))) e.2.lhs
      else 0)).sum = 0 := by
    apply List.sum_eq_zero
    intro y hy
    obtain ⟨e, he, rfl⟩ := List.mem_map.1 hy
    split
    · rfl
    · rename_i hh
      have := (c1 e he (by simpa using hh)).2
      rw [if_neg (by omega)]
  rw [hzero, zero_add]
  have hcomm : (softIndices cs [] 0).2 + (mfind st.substitutionConstraintIdx x).getD 0 =
      (mfind st.substitutionConstraintIdx x).getD 0 + (softIndices cs [] 0).2 := by ring
  rw [hcomm, sum_unique_key st.substitutionConstraintIdx (softIndices cs [] 0).2
    st.substitutionsRhs _ [] (by simp [evalMap]) x hinv.nodupSR
    (fun y hy hne e => hne (redInv_index_inj _ _ _ _ _ _ hinv y (hinv.keysSR y hy) x hx e))]
  apply evalMap_congr
  intro key hkey
  have hkh : key ∈ mkeys (cs.filter (fun e => e.2.hard)) := by
    cases hq : mfind st.substitutionsRhs x with
    | none =>
      rw [hq] at hkey
      simp [mkeys] at hkey
    | some srhs =>
      rw [hq] at hkey
      exact hinv.rhsS (x, srhs) (mfind_mem _ _ _ hq) key hkey
  obtain ⟨e, he, rfl⟩ := List.mem_map.1 hkh
  obtain ⟨hec, heh⟩ := List.mem_filter.1 he
  have := c2 e hec heh
  unfold rhsAt
  dsimp only
  congr 1
  omega

/-- The values that `solve` stores in `result`: a free variable gets its entry of `rhs2`,
a substituted variable gets its entry of `rhs1` plus the value of its substitution at the
values of the free variables. -/
theorem result_values {V C : Type} [LinearOrder V] [LinearOrder C] [Inhabited V]
    (hard0 : List ((C × Int) × Constraint V)) (cm0 : List ((C × Int) × Int)) (softNum : Int)
    (st : Reduction V C) (order : List V) (pivIds : List (C × Int))
    (varMap0 varMap : List (V × Int)) (varIds0 varIds : List V) (n : Nat)
    (sh : List (List (Int × ℚ))) (rhs1 rhs2 : List ℚ) (res0 res : List (V × ℚ))
    (hinv : RedInv hard0 cm0 softNum st order pivIds)
    (hn : n = order.length)
    (hfv : FVInv st.substitutions varMap0 varIds0)
    (hhv : hardVars st.substitutionConstraintIdx (varIds0.length : Int) st.substitutions
      varMap0 (resize varIds0 (varIds0.length + n) default) = some (varMap, varIds))
    (hrows : substitutedRows varMap st.substitutionConstraintIdx st.substitutions
      (List.replicate st.substitutions.length []) = some (true, sh))
    (hlen : rhs2.length = varIds0.length)
    (hfree : storeFree varIds 0 rhs2 [] = some res0)
    (hhard : storeHard varIds sh rhs1 rhs2 softNum (varIds.length - rhs2.length) 0 res0 =
      some res) :
    (∀ (i : Nat) (v : V), varIds0[i]? = some v → mfind res v = some (vget rhs2 (i : Int))) ∧
      (∀ e ∈ st.substitutions, mfind res e.1 =
        some (vget rhs1 (softNum + (mfind st.substitutionConstraintIdx e.1).getD 0) +
          evalMap (fun v => (mfind res v).getD 0) e.2)) ∧
      ∀ e ∈ st.substitutions, ∀ v ∈ mkeys e.2, v ∈ varIds0 := by
  have hinj := redInv_index_inj _ _ _ _ _ _ hinv
  obtain ⟨hon, hidx⟩ := redInv_index _ _ _ _ _ _ hinv
  obtain ⟨v1, v2, v3, v4, v5⟩ := hardVars_spec _ _ _ _ _ _ _ hhv hinj
  rw [resize_length] at v1
  obtain ⟨-, r2, -, r4⟩ := substitutedRows_spec _ _ _ _ _ hrows hinv.nodupS hinj
  -- the free variables keep their places in `varIds`
  have hfreeIdx : ∀ i : Nat, i < varIds0.length → varIds[i]? = varIds0[i]? := by
    intro i hi
    rw [← idx?_natCast, v2 (i : Int), idx?_natCast, getElem?_resize _ _ _ _ (by omega) hi]
    intro x hx e
    obtain ⟨k, _, _, hk⟩ := hidx x hx
    omega
  -- the substituted variables follow in the order of their substitution
  have hhardIdx : ∀ (k : Nat) (x : V), order[k]? = some x →
      varIds[k + varIds0.length]? = some x ∧
        (mfind st.substitutionConstraintIdx x).getD 0 = (k : Int) := by
    intro k x hkx
    have hx : x ∈ mkeys st.substitutions := hinv.permS.symm.subset (mem_of_getElem? _ _ _ hkx)
    have hs : (mfind st.substitutionConstraintIdx x).getD 0 = (k : Int) := by
      rw [hinv.idxS k x hkx]
      rfl
    refine ⟨?_, hs⟩
    have := v3 x hx
    rw [hs] at this
    rw [← idx?_natCast]
    rw [show ((k + varIds0.length : Nat) : Int) = (k : Int) + (varIds0.length : Int) by
      push_cast; rfl]
    exact this
  have hfreeNot : ∀ v ∈ varIds0, v ∉ mkeys st.substitutions := by
    intro v hv hs
    exact ((mfind_eq_none _ _).1 (hfv.2 v hv)) hs
  have hfreeUniq : ∀ (i i' : Nat) (v : V), varIds0[i]? = some v → varIds0[i']? = some v →
      i' = i := by
    intro i i' v h1 h2
    have a1 := (hfv.1 v i).2 ⟨i, rfl, h1⟩
    have a2 := (hfv.1 v i').2 ⟨i', rfl, h2⟩
    rw [a1, Option.some.injEq] at a2
    omega
  obtain ⟨f1, f2⟩ := storeFree_spec _ _ _ _ _ hfree
  obtain ⟨s1, s2⟩ := storeHard_spec _ _ _ _ _ _ _ _ _ hhard
  have hnn : varIds.length - rhs2.length = order.length := by omega
  rw [hnn] at s1 s2
  -- the values of the free variables
  have hfreeVal : ∀ (i : Nat) (v : V), varIds0[i]? = some v →
      mfind res v = some (vget rhs2 (i : Int)) := by
    intro i v hiv
    have hi : i < varIds0.length := (List.getElem?_eq_some.1 hiv).1
    rw [s1 v, f2 i v (by omega) (by rw [Nat.zero_add, hfreeIdx i hi]; exact hiv),
      getElem?_eq_vget _ _ (by omega)]
    · intro k' hk' hne
      rw [Nat.zero_add, hfreeIdx k' (by omega)]
      intro e
      exact hne (hfreeUniq i k' v hiv e)
    · intro k hk
      rw [Nat.zero_add, hlen]
      obtain ⟨x, hx⟩ := exists_getElem? order k hk
      rw [(hhardIdx k x hx).1]
      intro e
      rw [Option.some.injEq] at e
      exact hfreeNot v (mem_of_getElem? _ _ _ hiv)
        (e ▸ hinv.permS.symm.subset (mem_of_getElem? _ _ _ hx))
  have hbody : ∀ e ∈ st.substitutions, ∀ v ∈ mkeys e.2, ∃ i : Nat,
      varIds0[i]? = some v ∧ (mfind varMap v).getD 0 = (i : Int) := by
    intro e he v hv
    have h1 := hinv.freshB e he v hv
    have h2 := r2 e he v hv
    rw [v4 v h1] at h2 ⊢
    obtain ⟨k, hk⟩ := Option.isSome_iff_exists.1 h2
    obtain ⟨i, rfl, hi⟩ := (hfv.1 v k).1 hk
    exact ⟨i, hi, by rw [hk]; rfl⟩
  refine ⟨hfreeVal, ?_, ?_⟩
  · intro e he
    obtain ⟨k, hk, hkx, hks⟩ := hidx e.1 (mem_mkeys_of_mem _ e he)
    rw [s2 k e.1 hk (by rw [Nat.zero_add, hlen]; exact (hhardIdx k e.1 hkx).1), Nat.zero_add,
      hks]
    · have hrow := r4 e he
      rw [hks, rget_replicate, List.nil_append] at hrow
      rw [hrow, evalMap_mapRow]
      congr 2
      apply evalMap_congr
      intro v hv
      obtain ⟨i, hi, hvm⟩ := hbody e he v hv
      rw [hvm, hfreeVal i v hi]
      rfl
    · intro k' hk' hne
      rw [Nat.zero_add, hlen]
      obtain ⟨x', hx'⟩ := exists_getElem? order k' hk'
      rw [(hhardIdx k' x' hx').1]
      intro e'
      rw [Option.some.injEq] at e'
      subst e'
      have h1 := List.getElem?_eq_some.1 hx'
      have h2 := List.getElem?_eq_some.1 hkx
      obtain ⟨a1, a2⟩ := h1
      obtain ⟨b1, b2⟩ := h2
      exact hne ((List.Nodup.getElem_inj_iff hon).1 (a2.trans b2.symm))
  · intro e he v hv
    obtain ⟨i, hi, _⟩ := hbody e he v hv
    exact mem_of_getElem? _ _ _ hi

theorem eq_some_of_map_fst {α : Type} (o : Option (Bool × α)) (d : Bool × α)
    (h : o.map (fun r => r.1) = some true) : o = some (true, (o.getD d).2) := by
  cases o with
  | none => simp at h
  | some r =>
    obtain ⟨b, a⟩ := r
    simp only [Option.map_some', Option.some.injEq] at h
    subst h
    rfl

theorem eliminate_length (fuel : Nat) (rows : List (List ℚ)) (xs : List ℚ)
    (h : eliminate fuel rows = some xs) : xs.length = rows.length := by
  induction fuel generalizing rows xs with
  | zero =>
    cases rows with
    | nil =>
      simp only [eliminate, Option.some.injEq] at h
      subst h
      rfl
    | cons row rest => simp [eliminate] at h
  | succ fuel ih =>
    cases rows with
    | nil =>
      simp only [eliminate, Option.some.injEq] at h
      subst h
      rfl
    | cons row rest =>
      cases row with
      | nil => simp [eliminate] at h
      | cons pivot tail =>
        simp only [eliminate] at h
        split at h
        · simp at h
        · split at h
          · simp at h
          · rename_i ys hys
            simp only [Option.some.injEq] at h
            rw [← h]
            have := ih _ _ hys
            simp only [List.length_map] at this
            simp [this]

theorem exactSolver_length (fm : List (List (Int × ℚ))) (b z : List ℚ)
    (h : exactSolver.solve fm b = some z) : z.length = b.length := by
  simp only [exactSolver] at h
  split at h
  · rename_i hb
    rw [eliminate_length _ _ _ h, hb]
    simp [augmented]
  · simp at h

/-- C13: in exact arithmetic, with maps whose keys are pairwise different and a solver
whose `solve` gives as many values as it gets (as the exact solution of a square system
has): when `factor` returns true and, with the right-hand sides of the constraints set to
their current values, `solve` returns true, `getResult` has a value for every variable of
every hard constraint, and the sum of coefficient times value over the left-hand side of
the constraint is its current right-hand side. -/
theorem factor_solve_hard_constraints {V C LLT : Type} [LinearOrder V] [LinearOrder C]
    [Inhabited V] (solver : SPDSolver LLT) (s s1 s2 : LSQSystem V C LLT)
    (cs' : List ((C × Int) × Constraint V))
    (hk : (mkeys s.constraints).Nodup) (hl : ∀ e ∈ s.constraints, (mkeys e.2.lhs).Nodup)
    (hlen : ∀ fm b z, solver.solve fm b = some z → z.length = b.length)
    (hf : s.factor solver = some (true, s1))
    (hc : cs'.map (fun e => (e.1, e.2.hard, e.2.lhs)) =
      s.constraints.map (fun e => (e.1, e.2.hard, e.2.lhs)))
    (hs : ({ s1 with constraints := cs' } : LSQSystem V C LLT).solve solver =
      some (true, s2)) :
    ∀ e ∈ cs', e.2.hard = true →
      (∀ v ∈ mkeys e.2.lhs, (s2.getResult v).isSome = true) ∧
        evalMap (fun v => (s2.getResult v).getD 0) e.2.lhs = e.2.rhs := by
  obtain ⟨st, varMap0, varIds0, varMap, rtm, spdm, fm, hr⟩ := factor_run solver s s1 hf
  obtain ⟨fm', rhs0, rhs1, rhs2a, rhs2, hsr⟩ := solve_run solver _ s2 hs
  obtain ⟨order, pivIds, hinv, hH⟩ :=
    factorRun_reduced solver s s1 st varMap0 varIds0 varMap rtm spdm fm hk hl hr
  have hgrab : grabRhs st.constraintMap cs' [] = some rhs0 := by
    have := hsr.grab
    rw [← hr.cmEq]
    exact this
  obtain ⟨rhs1a, hclear, htrans⟩ := hsr.transform
  have hclear' : clearHard (softIndices s.constraints [] 0).2 rhs0 = some rhs1a := by
    rw [← hr.snEq]
    exact hclear
  have htrans' : transformRows rhs0 (softIndices s.constraints [] 0).2 0 s1.rhsTransform
      rhs1a = some rhs1 := by
    rw [← hr.snEq]
    exact htrans
  have hfm : fm' = fm := by
    have h1 : s1.factoredMatrix = some fm' := hsr.fmEq
    rw [hr.fmEq, Option.some.injEq] at h1
    exact h1.symm
  subst hfm
  have hlen2 : rhs2.length = varIds0.length := by
    rw [hlen _ _ _ hsr.solved, transposeRows_length _ _ _ _ _ hsr.transpose,
      List.length_replicate, hr.size]
    simp
  obtain ⟨res0, hfree, hhard⟩ := hsr.store
  have hnum : (s.constraints.filter (fun e => e.2.hard)).length = order.length := by
    have h1 : st.hardConstraintIds = [] := by
      have := hinv.lenIds
      rw [hH] at this
      exact List.length_eq_zero.1 this
    have h2 := hinv.permIds.length_eq
    rw [h1, List.nil_append, mkeys_length] at h2
    rw [← h2, hinv.lenP]
  have hfv0 : FVInv st.substitutions ([] : List (V × Int)) ([] : List V) := by
    constructor
    · intro v k
      simp [mfind]
    · simp
  have hfv : FVInv st.substitutions varMap0 varIds0 := by
    have := (freeVars_spec st.substitutions s.constraints [] [] hfv0).1
    rw [hr.free] at this
    exact this
  obtain ⟨q1, q2⟩ := rhs1_hard_value s.constraints cs' st order pivIds varMap _ _ rtm
    s1.rhsTransform _ rhs0 rhs1a rhs1 hk hinv hH hr.soft hr.hardR hc hgrab hclear' htrans'
  have hhard' : storeHard s1.varIds s1.substitutedHard rhs1 rhs2
      (softIndices s.constraints [] 0).2 (s1.varIds.length - rhs2.length) 0 res0 =
        some s2.result := by
    rw [← hr.snEq]
    exact hhard
  obtain ⟨p1, p2, p3⟩ := result_values _ _ _ st order pivIds varMap0 varMap varIds0 s1.varIds
    _ s1.substitutedHard rhs1 rhs2 res0 s2.result hinv hnum hfv hr.hardV hr.rows hlen2 hfree
    hhard'
  have hX : ∀ v, s2.getResult v = mfind s2.result v := fun v => rfl
  have hsubs : subsHold st.substitutions st.substitutionsRhs
      (fun v => (s2.getResult v).getD 0)
      (fun key => vget rhs0 ((mfind st.constraintMap key).getD 0)) := by
    intro e he
    dsimp only
    rw [hX, p2 e he, q2 e.1 (mem_mkeys_of_mem _ e he)]
    simp only [Option.getD_some]
    rw [add_comm]
    rfl
  have hhold : hardHold st.hardConstraints st.hardRhs
      (fun v => (s2.getResult v).getD 0)
      (fun key => vget rhs0 ((mfind st.constraintMap key).getD 0)) := by
    intro j h r h1
    rw [hH] at h1
    simp at h1
  have hsound := hinv.sound _ _ hsubs hhold
  intro e' he' hh'
  have hm : (e'.1, e'.2.hard, e'.2.lhs) ∈
      s.constraints.map (fun e => (e.1, e.2.hard, e.2.lhs)) := by
    rw [← hc]
    exact List.mem_map.2 ⟨e', he', rfl⟩
  obtain ⟨e, he, heq⟩ := List.mem_map.1 hm
  simp only [Prod.mk.injEq] at heq
  obtain ⟨hk1, hk2, hk3⟩ := heq
  have heh : e ∈ s.constraints.filter (fun e => e.2.hard) :=
    List.mem_filter.2 ⟨he, by rw [hk2]; exact hh'⟩
  constructor
  · intro v hv
    rw [← hk3] at hv
    rw [hX]
    rcases hinv.cover e heh v hv with k | ⟨h, hh, _⟩ | ⟨e2, he2, k⟩
    · obtain ⟨body, hbody⟩ := exists_mem_of_mem_mkeys _ _ k
      rw [p2 (v, body) hbody]
      rfl
    · rw [hH] at hh
      simp at hh
    · obtain ⟨i, hi⟩ := getElem?_of_mem _ _ (p3 e2 he2 v k)
      rw [p1 i v hi]
      rfl
  · rw [← hk3, hsound e heh, hk1]
    exact q1 e' he'

/-- Witness for C13: the hard constraint `x + y = 5` and the soft constraint `y = 3`, the
right-hand sides set after `factor`. -/
theorem factor_solve_hard_constraints_witness :
    ((mkeys idSystem.constraints).Nodup ∧
      (∀ e ∈ idSystem.constraints, (mkeys e.2.lhs).Nodup) ∧
      (∀ fm b z, exactSolver.solve fm b = some z → z.length = b.length) ∧
      idSystem.factor exactSolver = some (true, idFactored) ∧
      idRhs.constraints.map (fun e => (e.1, e.2.hard, e.2.lhs)) =
        idSystem.constraints.map (fun e => (e.1, e.2.hard, e.2.lhs)) ∧
      LSQSystem.solve exactSolver { idFactored with constraints := idRhs.constraints } =
        some (true, idSolved)) ∧
    ∀ e ∈ idRhs.constraints, e.2.hard = true →
      (∀ v ∈ mkeys e.2.lhs, (idSolved.getResult v).isSome = true) ∧
        evalMap (fun v => (idSolved.getResult v).getD 0) e.2.lhs = e.2.rhs :=
  have hk : (mkeys idSystem.constraints).Nodup := by decide
  have hl : ∀ e ∈ idSystem.constraints, (mkeys e.2.lhs).Nodup := by decide
  have hf : idSystem.factor exactSolver = some (true, idFactored) :=
    eq_some_of_map_fst _ _ (by decide!)
  have hc : idRhs.constraints.map (fun e => (e.1, e.2.hard, e.2.lhs)) =
      idSystem.constraints.map (fun e => (e.1, e.2.hard, e.2.lhs)) := by decide!
  have hs : LSQSystem.solve exactSolver { idFactored with constraints := idRhs.constraints } =
      some (true, idSolved) := eq_some_of_map_fst _ _ (by decide!)
  ⟨⟨hk, hl, exactSolver_length, hf, hc, hs⟩,
    factor_solve_hard_constraints exactSolver idSystem idFactored idSolved idRhs.constraints
      hk hl exactSolver_length hf hc hs⟩

theorem idSolved_values : idSolved.getResult 0 = some 2 ∧ idSolved.getResult 1 = some 3 := by
  constructor <;> decide!


/-! ### LSQSystem: the soft constraints -/

/-! ### Least squares -/

/-- A solution of the normal equations minimises the sum of the squared residuals. -/
theorem normal_equations_minimise (m n : Nat) (a : Nat → Nat → ℚ) (b : Nat → ℚ)
    (zs z : Nat → ℚ)
    (hne : ∀ i, i < n → (Finset.range m).sum (fun r =>
      a r i * ((Finset.range n).sum (fun j => a r j * zs j) - b r)) = 0) :
    (Finset.range m).sum (fun r => ((Finset.range n).sum (fun j => a r j * zs j) - b r) ^ 2) ≤
      (Finset.range m).sum (fun r => ((Finset.range n).sum (fun j => a r j * z j) - b r) ^ 2) := by
  have hcross : (Finset.range m).sum (fun r =>
      ((Finset.range n).sum (fun j => a r j * zs j) - b r) *
        (Finset.range n).sum (fun j => a r j * (z j - zs j))) = 0 := by
    have h1 : ∀ r, ((Finset.range n).sum (fun j => a r j * zs j) - b r) *
        (Finset.range n).sum (fun j => a r j * (z j - zs j)) =
        (Finset.range n).sum (fun j => (z j - zs j) *
          (a r j * ((Finset.range n).sum (fun j => a r j * zs j) - b r))) := by
      intro r
      rw [Finset.mul_sum]
      apply Finset.sum_congr rfl
      intro j _
      ring
    simp only [h1]
    rw [Finset.sum_comm]
    apply Finset.sum_eq_zero
    intro j hj
    rw [← Finset.mul_sum, hne j (Finset.mem_range.1 hj), mul_zero]
  have hsplit : ∀ r, ((Finset.range n).sum (fun j => a r j * z j) - b r) ^ 2 =
      ((Finset.range n).sum (fun j => a r j * zs j) - b r) ^ 2 +
        2 * (((Finset.range n).sum (fun j => a r j * zs j) - b r) *
          (Finset.range n).sum (fun j => a r j * (z j - zs j))) +
        ((Finset.range n).sum (fun j => a r j * (z j - zs j))) ^ 2 := by
    intro r
    have : (Finset.range n).sum (fun j => a r j * z j) =
        (Finset.range n).sum (fun j => a r j * zs j) +
          (Finset.range n).sum (fun j => a r j * (z j - zs j)) := by
      rw [← Finset.sum_add_distrib]
      apply Finset.sum_congr rfl
      intro j _
      ring
    rw [this]
    ring
  simp only [hsplit]
  rw [Finset.sum_add_distrib, Finset.sum_add_distrib, ← Finset.mul_sum, hcross]
  have hnn : 0 ≤ (Finset.range m).sum (fun r =>
      ((Finset.range n).sum (fun j => a r j * (z j - zs j))) ^ 2) :=
    Finset.sum_nonneg (fun r _ => sq_nonneg _)
  linarith

theorem rget_natCast (m : List (List (Int × ℚ))) (k : Nat) (row : List (Int × ℚ))
    (h : m[k]? = some row) : rget m (k : Int) = row := by
  simp [rget, idx?_natCast, h]

theorem rget_cons_succ (row : List (Int × ℚ)) (m : List (List (Int × ℚ))) (k : Nat) :
    rget (row :: m) ((k + 1 : Nat) : Int) = rget m (k : Int) := by
  simp only [rget, idx?_natCast, List.getElem?_cons_succ]

theorem rget_cons_zero (row : List (Int × ℚ)) (m : List (List (Int × ℚ))) :
    rget (row :: m) ((0 : Nat) : Int) = row := by
  rw [rget, idx?_natCast]
  simp

/-- The value of a row whose columns are below `n` as a sum over the columns. -/
theorem evalMap_eq_sum (row : List (Int × ℚ)) (n : Nat) (z : Int → ℚ)
    (h : ∀ e ∈ row, 0 ≤ e.1 ∧ e.1 < (n : Int)) :
    evalMap z row = (Finset.range n).sum (fun j => rowCoef row (j : Int) * z (j : Int)) := by
  induction row with
  | nil => simp [evalMap, rowCoef_nil]
  | cons e rest ih =>
    rw [evalMap_cons, ih (fun e' he' => h e' (List.mem_cons_of_mem _ he'))]
    have h0 := h e (List.mem_cons_self _ _)
    have hsum : (Finset.range n).sum (fun j =>
        (if e.1 = (j : Int) then e.2 else 0) * z (j : Int)) = e.2 * z e.1 := by
      rw [Finset.sum_eq_single e.1.toNat]
      · rw [if_pos (by omega)]
        congr 2
        omega
      · intro j _ hj
        rw [if_neg (by omega), zero_mul]
      · intro hn
        exfalso
        apply hn
        rw [Finset.mem_range]
        omega
    simp only [rowCoef_cons, add_mul]
    rw [Finset.sum_add_distrib, hsum]

theorem colSum_eq_sum (r : Nat → ℚ) (i0 : Nat) (m : List (List (Int × ℚ))) (j : Int) :
    colSum r i0 m j =
      (Finset.range m.length).sum (fun k => r (i0 + k) * rowCoef (rget m (k : Int)) j) := by
  induction m generalizing i0 with
  | nil => simp [colSum]
  | cons row rest ih =>
    simp only [colSum, List.length_cons]
    rw [Finset.sum_range_succ', ih (i0 + 1)]
    simp only [rget_cons_succ]
    have h0 : rget (row :: rest) ((0 : Nat) : Int) = row := rget_cons_zero row rest
    rw [h0, Nat.add_zero, add_comm]
    congr 1
    apply Finset.sum_congr rfl
    intro k _
    rw [show i0 + 1 + k = i0 + (k + 1) by omega]

theorem transposeRow_spec (r1 : ℚ) (row : List (Int × ℚ)) (rhs2 rhs2' : List ℚ)
    (h : transposeRow r1 row rhs2 = some rhs2') :
    ∀ j, vget rhs2' j = vget rhs2 j + r1 * rowCoef row j := by
  induction row generalizing rhs2 with
  | nil =>
    simp only [transposeRow, Option.some.injEq] at h
    subst h
    simp [rowCoef_nil]
  | cons e rest ih =>
    obtain ⟨j0, c⟩ := e
    simp only [transposeRow] at h
    cases hx : idx? rhs2 j0 with
    | none =>
      rw [hx] at h
      simp at h
    | some x =>
      rw [hx] at h
      dsimp only at h
      cases hu : upd? rhs2 j0 (x + c * r1) with
      | none =>
        rw [hu] at h
        simp at h
      | some rhs2a =>
        rw [hu] at h
        dsimp only at h
        intro j
        rw [ih rhs2a h j, vget_upd? _ _ _ j _ hu, rowCoef_cons]
        by_cases hj : j = j0
        · subst hj
          rw [if_pos rfl, if_pos rfl, vget_of_idx? _ _ _ hx]
          ring
        · rw [if_neg hj, if_neg (fun e => hj e.symm)]
          ring

/-- The loop of `solve` that multiplies `rhs1` by the transpose of `softMatrix`. -/
theorem transposeRows_spec (rhs1 : List ℚ) (i0 : Nat) (m : List (List (Int × ℚ)))
    (rhs2 rhs2' : List ℚ) (h : transposeRows rhs1 i0 m rhs2 = some rhs2') :
    ∀ j, vget rhs2' j = vget rhs2 j + colSum (fun i => vget rhs1 (i : Int)) i0 m j := by
  induction m generalizing i0 rhs2 with
  | nil =>
    simp only [transposeRows, Option.some.injEq] at h
    subst h
    simp [colSum]
  | cons row rest ih =>
    cases row with
    | nil =>
      simp only [transposeRows] at h
      intro j
      rw [ih (i0 + 1) rhs2 h j]
      simp [colSum, rowCoef_nil]
    | cons e row =>
      simp only [transposeRows] at h
      cases hr : rhs1[i0]? with
      | none =>
        rw [hr] at h
        simp at h
      | some r1 =>
        rw [hr] at h
        dsimp only at h
        cases ht : transposeRow r1 (e :: row) rhs2 with
        | none =>
          rw [ht] at h
          simp at h
        | some rhs2a =>
          rw [ht] at h
          dsimp only at h
          intro j
          rw [ih (i0 + 1) rhs2a h j, transposeRow_spec r1 (e :: row) rhs2 rhs2a ht j]
          simp only [colSum]
          rw [vget_of_idx? rhs1 (i0 : Int) r1 (by rw [idx?_natCast]; exact hr)]
          ring

/-! ### The matrix `spdm` -/

theorem rget_upd? (m m' : List (List (Int × ℚ))) (i j : Int) (row : List (Int × ℚ))
    (h : upd? m i row = some m') : rget m' j = if j = i then row else rget m j := by
  obtain ⟨⟨h0, h1⟩, rfl⟩ := (upd?_eq_some m m' i row).1 h
  unfold rget idx?
  by_cases hj : 0 ≤ j
  · rw [if_pos hj, if_pos hj, List.getElem?_set]
    by_cases hji : j = i
    · subst hji
      simp [h1]
    · have : ¬ i.toNat = j.toNat := by omega
      rw [if_neg this, if_neg hji]
  · rw [if_neg hj, if_neg hj]
    have : ¬ j = i := by omega
    rw [if_neg this]

theorem rget_mem (m : List (List (Int × ℚ))) (i : Int) (h : rget m i ≠ []) : rget m i ∈ m := by
  unfold rget at h ⊢
  cases hq : idx? m i with
  | none =>
    rw [hq] at h
    simp at h
  | some row =>
    simp only [Option.getD_some]
    exact mem_of_getElem? _ _ _ ((idx?_eq_some _ _ _).1 hq).2

theorem rget_nodup (m : List (List (Int × ℚ))) (i : Int)
    (h : ∀ row ∈ m, (mkeys row).Nodup) : (mkeys (rget m i)).Nodup := by
  by_cases hq : rget m i = []
  · rw [hq]
    simp [mkeys]
  · exact h _ (rget_mem m i hq)

theorem rowCoef_eq_mfind (row : List (Int × ℚ)) (j : Int) (h : (mkeys row).Nodup) :
    rowCoef row j = (mfind row j).getD 0 := by
  induction row with
  | nil => rfl
  | cons e rest ih =>
    simp only [mkeys, List.map_cons, List.nodup_cons] at h
    rw [rowCoef_cons, ih h.2]
    simp only [mfind]
    by_cases hj : j = e.1
    · rw [if_pos hj, if_pos hj.symm]
      have : mfind rest j = none := (mfind_eq_none rest j).2 (by rw [hj]; exact h.1)
      rw [this]
      simp
    · rw [if_neg hj, if_neg (fun e' => hj e'.symm), zero_add]

theorem rowCoef_append (row row' : List (Int × ℚ)) (j : Int) :
    rowCoef (row ++ row') j = rowCoef row j + rowCoef row' j := by
  unfold rowCoef
  rw [evalMap_append]

theorem rowCoef_eq_zero (row : List (Int × ℚ)) (j : Int) (h : ∀ e ∈ row, e.1 ≠ j) :
    rowCoef row j = 0 := by
  induction row with
  | nil => rfl
  | cons e rest ih =>
    rw [rowCoef_cons, if_neg (h e (List.mem_cons_self _ _)),
      ih (fun e' he' => h e' (List.mem_cons_of_mem _ he')), zero_add]

theorem nodup_mkeys_maddTo {κ : Type} [DecidableEq κ] (lt : κ → κ → Bool) (m : List (κ × ℚ))
    (k : κ) (c : ℚ) (h : (mkeys m).Nodup) : (mkeys (maddTo lt m k c)).Nodup :=
  nodup_mkeys_mset lt m k _ h

/-- The statement `m[i][j] += c` on the entries of a vector of maps. -/
theorem addAt_entry (m m' : List (List (Int × ℚ))) (i j : Int) (c : ℚ)
    (h : addAt m i j c = some m') :
    m'.length = m.length ∧
      ((∀ row ∈ m, (mkeys row).Nodup) → ∀ row ∈ m', (mkeys row).Nodup) ∧
      ∀ i' j', rowCoef (rget m' i') j' =
        rowCoef (rget m i') j' + if i' = i ∧ j' = j then c else 0 := by
  unfold addAt at h
  cases hrow : idx? m i with
  | none =>
    rw [hrow] at h
    simp at h
  | some row =>
    rw [hrow] at h
    dsimp only at h
    have hr : rget m i = row := by simp [rget, hrow]
    refine ⟨upd?_length _ _ _ _ h, ?_, ?_⟩
    · intro hn row' hrow'
      obtain ⟨-, rfl⟩ := (upd?_eq_some _ _ _ _).1 h
      rcases List.mem_or_eq_of_mem_set hrow' with h1 | h1
      · exact hn row' h1
      · rw [h1]
        exact nodup_mkeys_maddTo _ _ _ _
          (hn row (mem_of_getElem? _ _ _ ((idx?_eq_some _ _ _).1 hrow).2))
    · intro i' j'
      rw [rget_upd? _ _ _ i' _ h]
      by_cases hi : i' = i
      · subst hi
        rw [if_pos rfl, rowCoef_maddTo, hr]
        by_cases hj : j' = j
        · simp [hj]
        · simp [hj]
      · rw [if_neg hi]
        simp [hi]

theorem spdEntry_spec (ej : Int × ℚ) (row : List (Int × ℚ)) (m m' : List (List (Int × ℚ)))
    (h : spdEntry ej row m = some m') :
    m'.length = m.length ∧
      ((∀ row ∈ m, (mkeys row).Nodup) → ∀ row ∈ m', (mkeys row).Nodup) ∧
      ∀ i' j', rowCoef (rget m' i') j' =
        rowCoef (rget m i') j' + if i' = ej.1 then ej.2 * rowCoef row j' else 0 := by
  induction row generalizing m with
  | nil =>
    simp only [spdEntry, Option.some.injEq] at h
    subst h
    simp [rowCoef_nil]
  | cons ek rest ih =>
    simp only [spdEntry] at h
    cases ha : addAt m ej.1 ek.1 (ej.2 * ek.2) with
    | none =>
      rw [ha] at h
      simp at h
    | some m1 =>
      rw [ha] at h
      dsimp only at h
      obtain ⟨i1, i2, i3⟩ := ih m1 h
      obtain ⟨k1, k2, k3⟩ := addAt_entry _ _ _ _ _ ha
      refine ⟨by rw [i1, k1], fun hn => i2 (k2 hn), ?_⟩
      intro i' j'
      rw [i3 i' j', k3 i' j', rowCoef_cons]
      by_cases hi : i' = ej.1
      · by_cases hj : ek.1 = j'
        · simp only [hi, hj, and_self, if_true]
          ring
        · have hj' : ¬ j' = ek.1 := fun e => hj e.symm
          simp only [hi, hj, hj', and_false, if_true, if_false]
          ring
      · simp only [hi, false_and, if_false]
        ring

theorem spdRow_spec (done rest : List (Int × ℚ)) (m m' : List (List (Int × ℚ)))
    (h : spdRow done rest m = some m') :
    m'.length = m.length ∧
      ((∀ row ∈ m, (mkeys row).Nodup) → ∀ row ∈ m', (mkeys row).Nodup) ∧
      ∀ i' j', rowCoef (rget m' i') j' = rowCoef (rget m i') j' + lowerSum i' j' done rest := by
  induction rest generalizing done m with
  | nil =>
    simp only [spdRow, Option.some.injEq] at h
    subst h
    simp [lowerSum]
  | cons ej rest ih =>
    simp only [spdRow] at h
    cases ha : spdEntry ej (done ++ [ej]) m with
    | none =>
      rw [ha] at h
      simp at h
    | some m1 =>
      rw [ha] at h
      dsimp only at h
      obtain ⟨i1, i2, i3⟩ := ih _ m1 h
      obtain ⟨k1, k2, k3⟩ := spdEntry_spec _ _ _ _ ha
      refine ⟨by rw [i1, k1], fun hn => i2 (k2 hn), ?_⟩
      intro i' j'
      rw [i3 i' j', k3 i' j']
      simp only [lowerSum]
      ring

/-- The sum that one row of `softMatrix` with increasing columns adds to the entry
`(i, j)` of `spdm`: the product of its coefficients of `i` and `j` in the lower triangle,
nothing above. -/
theorem lowerSum_sorted (i j : Int) (done rest : List (Int × ℚ))
    (hs : (done ++ rest).Pairwise (fun a b => a.1 < b.1)) :
    lowerSum i j done rest =
      if j ≤ i then rowCoef rest i * rowCoef (done ++ rest) j else 0 := by
  induction rest generalizing done with
  | nil =>
    simp [lowerSum, rowCoef_nil]
  | cons ej rest ih =>
    have hs' : ((done ++ [ej]) ++ rest).Pairwise (fun a b => a.1 < b.1) := by
      rw [List.append_assoc]
      exact hs
    simp only [lowerSum]
    rw [ih _ hs']
    have hsplit : done ++ ej :: rest = (done ++ [ej]) ++ rest := by simp
    have hafter : ∀ e ∈ rest, ej.1 < e.1 := by
      intro e he
      have h1 := (List.pairwise_append.1 hs).2.1
      exact (List.pairwise_cons.1 h1).1 e he
    have hbefore : ∀ e ∈ done, e.1 < ej.1 := by
      intro e he
      exact (List.pairwise_append.1 hs).2.2 e he ej (List.mem_cons_self _ _)
    by_cases hji : j ≤ i
    · rw [if_pos hji, if_pos hji, rowCoef_cons, hsplit]
      by_cases hie : i = ej.1
      · rw [if_pos hie, if_pos hie.symm]
        have hz : rowCoef rest j = 0 :=
          rowCoef_eq_zero rest j (fun e he => by
            have := hafter e he
            omega)
        rw [rowCoef_append (done ++ [ej]) rest j, hz]
        ring
      · rw [if_neg hie, if_neg (fun e => hie e.symm)]
        ring
    · rw [if_neg hji, if_neg hji, add_zero]
      by_cases hie : i = ej.1
      · rw [if_pos hie]
        have hz : rowCoef (done ++ [ej]) j = 0 :=
          rowCoef_eq_zero _ j (fun e he => by
            rcases List.mem_append.1 he with he | he
            · have := hbefore e he
              omega
            · simp only [List.mem_singleton] at he
              rw [he]
              omega)
        rw [hz, mul_zero]
      · rw [if_neg hie]

/-- The loop of `factor` over the rows of `softMatrix`: the entry `(i, j)` of the lower
triangle of `spdm` gets the sum over the rows of the product of their coefficients of `i`
and `j`. -/
theorem spdRows_spec (rows m m' : List (List (Int × ℚ)))
    (h : spdRows rows m = some m')
    (hs : ∀ row ∈ rows, row.Pairwise (fun a b => a.1 < b.1)) :
    m'.length = m.length ∧
      ((∀ row ∈ m, (mkeys row).Nodup) → ∀ row ∈ m', (mkeys row).Nodup) ∧
      ∀ i j, j ≤ i → rowCoef (rget m' i) j =
        rowCoef (rget m i) j + (rows.map (fun row => rowCoef row i * rowCoef row j)).sum := by
  induction rows generalizing m with
  | nil =>
    simp only [spdRows, Option.some.injEq] at h
    subst h
    simp
  | cons row rest ih =>
    simp only [spdRows] at h
    cases ha : spdRow [] row m with
    | none =>
      rw [ha] at h
      simp at h
    | some m1 =>
      rw [ha] at h
      dsimp only at h
      obtain ⟨i1, i2, i3⟩ := ih m1 h (fun r hr => hs r (List.mem_cons_of_mem _ hr))
      obtain ⟨k1, k2, k3⟩ := spdRow_spec _ _ _ _ ha
      refine ⟨by rw [i1, k1], fun hn => i2 (k2 hn), ?_⟩
      intro i j hji
      rw [i3 i j hji, k3 i j, lowerSum_sorted i j [] row
        (by simpa using hs row (List.mem_cons_self _ _)), if_pos hji]
      simp only [List.nil_append, List.map_cons, List.sum_cons]
      ring

/-- The symmetric matrix of `spdm` is the product of the transpose of `softMatrix` with
`softMatrix`. -/
theorem symEntry_spdRows (rows spdm : List (List (Int × ℚ))) (n : Nat)
    (h : spdRows rows (List.replicate n []) = some spdm)
    (hs : ∀ row ∈ rows, row.Pairwise (fun a b => a.1 < b.1)) (i j : Nat) :
    symEntry spdm i j =
      (rows.map (fun row => rowCoef row (i : Int) * rowCoef row (j : Int))).sum := by
  obtain ⟨_, h2, h3⟩ := spdRows_spec rows _ spdm h hs
  have hn : ∀ row ∈ spdm, (mkeys row).Nodup := h2 (by
    intro row hrow
    rw [List.eq_of_mem_replicate hrow]
    simp [mkeys])
  have hget : ∀ k : Nat, spdm.getD k [] = rget spdm (k : Int) := by
    intro k
    simp [rget, idx?_natCast, List.getD_eq_getElem?_getD]
  unfold symEntry
  by_cases hji : j ≤ i
  · rw [if_pos hji, hget, ← rowCoef_eq_mfind _ _ (rget_nodup _ _ hn),
      h3 (i : Int) (j : Int) (by omega), rget_replicate, rowCoef_nil, zero_add]
  · rw [if_neg hji, hget, ← rowCoef_eq_mfind _ _ (rget_nodup _ _ hn),
      h3 (j : Int) (i : Int) (by omega), rget_replicate, rowCoef_nil, zero_add]
    congr 1
    apply List.map_congr_left
    intro row _
    ring

/-! ### The matrix `softMatrix` -/

theorem pairLe_total (a b : Int × ℚ) : pairLe a b ∨ pairLe b a := by
  unfold pairLe
  rcases lt_trichotomy a.1 b.1 with h | h | h
  · exact Or.inl (Or.inl h)
  · rcases le_total a.2 b.2 with h2 | h2
    · exact Or.inl (Or.inr ⟨h, h2⟩)
    · exact Or.inr (Or.inr ⟨h.symm, h2⟩)
  · exact Or.inr (Or.inl h)

theorem pairLe_trans (a b c : Int × ℚ) (h1 : pairLe a b) (h2 : pairLe b c) : pairLe a c := by
  unfold pairLe at *
  rcases h1 with h1 | ⟨h1, h1'⟩
  · rcases h2 with h2 | ⟨h2, _⟩
    · exact Or.inl (lt_trans h1 h2)
    · exact Or.inl (h2 ▸ h1)
  · rcases h2 with h2 | ⟨h2, h2'⟩
    · exact Or.inl (h1 ▸ h2)
    · exact Or.inr ⟨h1.trans h2, le_trans h1' h2'⟩

/-- A row with pairwise different columns has increasing columns after `sort`. -/
theorem insertionSort_columns (row : List (Int × ℚ)) (hn : (mkeys row).Nodup) :
    (row.insertionSort pairLe).Pairwise (fun a b => a.1 < b.1) := by
  have hsorted : (row.insertionSort pairLe).Pairwise pairLe :=
    @List.sorted_insertionSort _ pairLe _ ⟨pairLe_total⟩ ⟨pairLe_trans⟩ row
  have hperm : (row.insertionSort pairLe).Perm row := List.perm_insertionSort pairLe row
  have hnd : (mkeys (row.insertionSort pairLe)).Nodup := by
    have hp : (mkeys (row.insertionSort pairLe)).Perm (mkeys row) :=
      List.Perm.map (fun e : Int × ℚ => e.1) hperm
    exact hp.nodup_iff.2 hn
  have hne : (row.insertionSort pairLe).Pairwise (fun a b => a.1 ≠ b.1) := by
    unfold mkeys at hnd
    exact (List.pairwise_map.1 hnd)
  refine (hsorted.and hne).imp ?_
  rintro a b ⟨h1, h2⟩
  unfold pairLe at h1
  rcases h1 with h1 | ⟨h1, _⟩
  · exact h1
  · exact absurd h1 h2

theorem evalMap_softRow {V : Type} [DecidableEq V] (subs : List (V × List (V × ℚ)))
    (varMap : List (V × Int)) (modLhs : List (V × ℚ)) (z : Int → ℚ) :
    evalMap z (softRow subs varMap modLhs) =
      evalMap (fun v => if (mfind subs v).isSome = true then 0
        else z ((mfind varMap v).getD 0)) modLhs := by
  induction modLhs with
  | nil => rfl
  | cons e rest ih =>
    obtain ⟨v, c⟩ := e
    simp only [softRow]
    split
    · rename_i h
      rw [ih, evalMap_cons]
      simp [h]
    · rename_i h
      rw [evalMap_cons, ih, evalMap_cons]
      simp [h]

theorem mem_softRow {V : Type} [DecidableEq V] (subs : List (V × List (V × ℚ)))
    (varMap : List (V × Int)) (modLhs : List (V × ℚ)) (p : Int × ℚ)
    (h : p ∈ softRow subs varMap modLhs) :
    ∃ e ∈ modLhs, mfind subs e.1 = none ∧ p = ((mfind varMap e.1).getD 0, e.2) := by
  induction modLhs with
  | nil => simp [softRow] at h
  | cons e rest ih =>
    obtain ⟨v, c⟩ := e
    simp only [softRow] at h
    split at h
    · obtain ⟨e', he', h1, h2⟩ := ih h
      exact ⟨e', List.mem_cons_of_mem _ he', h1, h2⟩
    · rename_i hs
      rcases List.mem_cons.1 h with h | h
      · refine ⟨(v, c), List.mem_cons_self _ _, ?_, h⟩
        cases hq : mfind subs v with
        | none => rfl
        | some x =>
          rw [hq] at hs
          simp at hs
      · obtain ⟨e', he', h1, h2⟩ := ih h
        exact ⟨e', List.mem_cons_of_mem _ he', h1, h2⟩

theorem nodup_softRow {V : Type} [DecidableEq V] (subs : List (V × List (V × ℚ)))
    (varMap : List (V × Int)) (modLhs : List (V × ℚ)) (hn : (mkeys modLhs).Nodup)
    (hinj : ∀ v ∈ mkeys modLhs, ∀ w ∈ mkeys modLhs, mfind subs v = none → mfind subs w = none →
      (mfind varMap v).getD 0 = (mfind varMap w).getD 0 → v = w) :
    (mkeys (softRow subs varMap modLhs)).Nodup := by
  induction modLhs with
  | nil => simp [softRow, mkeys]
  | cons e rest ih =>
    obtain ⟨v, c⟩ := e
    simp only [mkeys, List.map_cons, List.nodup_cons] at hn
    have hsub : ∀ w ∈ mkeys rest, w ∈ mkeys ((v, c) :: rest) := by
      intro w hw
      simp only [mkeys, List.map_cons]
      exact List.mem_cons_of_mem _ hw
    have ih' := ih hn.2 (fun a ha b hb => hinj a (hsub a ha) b (hsub b hb))
    simp only [softRow]
    split
    · exact ih'
    · rename_i hs
      simp only [mkeys, List.map_cons, List.nodup_cons]
      refine ⟨?_, ih'⟩
      intro hmem
      obtain ⟨p, hp, hpe⟩ := List.mem_map.1 hmem
      obtain ⟨e', he', h1, h2⟩ := mem_softRow _ _ _ _ hp
      have hvn : mfind subs v = none := by
        cases hq : mfind subs v with
        | none => rfl
        | some x =>
          rw [hq] at hs
          simp at hs
      rw [h2] at hpe
      dsimp only at hpe
      have := hinj e'.1 (hsub _ (mem_mkeys_of_mem _ e' he')) v (by simp [mkeys]) h1 hvn hpe
      apply hn.1
      rw [← this]
      exact mem_mkeys_of_mem _ e' he'

/-- The loop of `factor` over the soft constraints: the row of `softMatrix` at the index of
a soft constraint is the sorted row of its left-hand side after the substitutions. -/
theorem softRows_matrix {V C : Type} [LinearOrder V] [LinearOrder C]
    (subs : List (V × List (V × ℚ))) (sr : List (V × List ((C × Int) × ℚ)))
    (cm : List ((C × Int) × Int)) (varMap : List (V × Int)) (softNum : Int)
    (l : List ((C × Int) × Constraint V)) (sm sm' m m' : List (List (Int × ℚ)))
    (h : softRows subs sr cm varMap softNum l sm m = some (sm', m'))
    (hn : (mkeys l).Nodup)
    (hinj : ∀ k1 ∈ mkeys l, ∀ k2 ∈ mkeys l,
      (mfind cm k1).getD 0 = (mfind cm k2).getD 0 → k1 = k2) :
    sm'.length = sm.length ∧
      (∀ j, (∀ e ∈ l, e.2.hard = false → (mfind cm e.1).getD 0 ≠ j) → rget sm' j = rget sm j) ∧
      ∀ e ∈ l, e.2.hard = false → ∃ modLhs m0 m1,
        softSubstitute subs sr cm softNum ((mfind cm e.1).getD 0) e.2.lhs e.2.lhs m0 =
          some (modLhs, m1) ∧
        rget sm' ((mfind cm e.1).getD 0) =
          (rget sm ((mfind cm e.1).getD 0) ++ softRow subs varMap modLhs).insertionSort
            pairLe := by
  induction l generalizing sm m with
  | nil =>
    simp only [softRows, Option.some.injEq, Prod.mk.injEq] at h
    obtain ⟨rfl, -⟩ := h
    simp
  | cons e rest ih =>
    obtain ⟨key, c⟩ := e
    simp only [mkeys, List.map_cons, List.nodup_cons] at hn
    have hsub : ∀ x ∈ mkeys rest, x ∈ mkeys ((key, c) :: rest) := by
      intro x hx
      simp only [mkeys, List.map_cons]
      exact List.mem_cons_of_mem _ hx
    have h0 : key ∈ mkeys ((key, c) :: rest) := by simp [mkeys]
    have hinj' : ∀ k1 ∈ mkeys rest, ∀ k2 ∈ mkeys rest,
        (mfind cm k1).getD 0 = (mfind cm k2).getD 0 → k1 = k2 :=
      fun a ha b hb => hinj a (hsub a ha) b (hsub b hb)
    simp only [softRows] at h
    by_cases hh : c.hard = true
    · rw [if_pos hh] at h
      obtain ⟨i1, i2, i3⟩ := ih sm m h hn.2 hinj'
      refine ⟨i1, ?_, ?_⟩
      · intro j hj
        exact i2 j (fun e he hs => hj e (List.mem_cons_of_mem _ he) hs)
      · intro e he hs
        rcases List.mem_cons.1 he with he | he
        · subst he
          rw [hh] at hs
          simp at hs
        · exact i3 e he hs
    · rw [if_neg hh] at h
      cases ha : softSubstitute subs sr cm softNum ((mfind cm key).getD 0) c.lhs c.lhs m with
      | none =>
        rw [ha] at h
        simp at h
      | some p =>
        obtain ⟨modLhs, m1⟩ := p
        rw [ha] at h
        dsimp only at h
        cases hrow : idx? sm ((mfind cm key).getD 0) with
        | none =>
          rw [hrow] at h
          simp at h
        | some row =>
          rw [hrow] at h
          dsimp only at h
          cases hu : upd? sm ((mfind cm key).getD 0)
              ((row ++ softRow subs varMap modLhs).insertionSort pairLe) with
          | none =>
            rw [hu] at h
            simp at h
          | some sm1 =>
            rw [hu] at h
            dsimp only at h
            obtain ⟨i1, i2, i3⟩ := ih sm1 m1 h hn.2 hinj'
            have hne : ∀ e ∈ rest, (mfind cm e.1).getD 0 ≠ (mfind cm key).getD 0 := by
              intro e he e'
              have := hinj e.1 (hsub _ (mem_mkeys_of_mem _ e he)) key h0 e'
              exact hn.1 (this ▸ mem_mkeys_of_mem _ e he)
            have hr : rget sm ((mfind cm key).getD 0) = row := by simp [rget, hrow]
            refine ⟨by rw [i1, upd?_length _ _ _ _ hu], ?_, ?_⟩
            · intro j hj
              rw [i2 j (fun e he hs => hj e (List.mem_cons_of_mem _ he) hs),
                rget_upd? _ _ _ j _ hu, if_neg]
              intro e
              exact hj (key, c) (List.mem_cons_self _ _) (by simpa using hh) e.symm
            · intro e he hs
              rcases List.mem_cons.1 he with he | he
              · subst he
                refine ⟨modLhs, m, m1, ha, ?_⟩
                dsimp only
                rw [i2 _ (fun e he _ => hne e he), rget_upd? _ _ _ _ _ hu, if_pos rfl, hr]
              · obtain ⟨ml, a0, a1, a2, a3⟩ := i3 e he hs
                refine ⟨ml, a0, a1, a2, ?_⟩
                rw [a3, rget_upd? _ _ _ _ _ hu, if_neg (hne e he)]

/-! ### The residuals of the soft constraints -/

/-- The index that `constraintMap` keeps for the soft constraints: their place among the
soft constraints in the order of the keys. -/
theorem redInv_softIndex {V C : Type} [LinearOrder V] [LinearOrder C]
    (cs : List ((C × Int) × Constraint V)) (st : Reduction V C) (order : List V)
    (pivIds : List (C × Int)) (hk : (mkeys cs).Nodup)
    (hinv : RedInv (cs.filter (fun e => e.2.hard)) (softIndices cs [] 0).1
      (softIndices cs [] 0).2 st order pivIds)
    (hH : st.hardConstraints = []) :
    (softIndices cs [] 0).2 = ((mkeys (cs.filter (fun e => !e.2.hard))).length : Int) ∧
      ∀ (i : Nat) (key : C × Int), (mkeys (cs.filter (fun e => !e.2.hard)))[i]? = some key →
        (mfind st.constraintMap key).getD 0 = (i : Int) := by
  obtain ⟨s1, s2, s3⟩ := softIndices_spec cs [] 0 hk
  simp only [Nat.cast_zero, Nat.zero_add] at s1 s2 s3
  have hHI : st.hardConstraintIds = [] := by
    have := hinv.lenIds
    rw [hH] at this
    exact List.length_eq_zero.1 this
  have hperm : pivIds.Perm (mkeys (cs.filter (fun e => e.2.hard))) := by
    have := hinv.permIds
    rw [hHI] at this
    exact this
  refine ⟨s1, ?_⟩
  intro i key hi
  have hm := mem_of_getElem? _ _ _ hi
  obtain ⟨e, he, rfl⟩ := List.mem_map.1 hm
  obtain ⟨hec, hes⟩ := List.mem_filter.1 he
  have hnp : e.1 ∉ pivIds := by
    intro hp
    obtain ⟨e', he', hkey⟩ := List.mem_map.1 (hperm.subset hp)
    obtain ⟨he'c, he'h⟩ := List.mem_filter.1 he'
    have h1 := mfind_of_mem cs e.1 e.2 hk hec
    have h2 := mfind_of_mem cs e'.1 e'.2 hk he'c
    rw [hkey, h1, Option.some.injEq] at h2
    rw [← h2] at he'h
    rw [he'h] at hes
    simp at hes
  rw [hinv.keepCM e.1 hnp, s2 i e.1 hi]
  rfl

/-- The value of a left-hand side at an assignment at which the substitutions hold: the
value with the substituted variables set to zero, plus the values of their substitutions
and of the right-hand sides of their substitutions. -/
theorem evalMap_split {V K : Type} [DecidableEq V] (subs : List (V × List (V × ℚ)))
    (sr : List (V × List (K × ℚ))) (y : V → ℚ) (ρ : K → ℚ) (lhs : List (V × ℚ))
    (hs : subsHold subs sr y ρ) :
    evalMap y lhs =
      evalMap (fun v => if (mfind subs v).isSome = true then 0 else y v) lhs +
        subLhsSum subs y lhs + subRhsSum subs sr ρ lhs := by
  induction lhs with
  | nil => simp [evalMap, subLhsSum, subRhsSum]
  | cons e rest ih =>
    obtain ⟨v, c⟩ := e
    rw [evalMap_cons, evalMap_cons, ih]
    simp only [subLhsSum, subRhsSum, List.map_cons, List.sum_cons]
    cases hq : mfind subs v with
    | none =>
      simp only [Option.isSome_none, Bool.false_eq_true, if_false]
      ring
    | some sub =>
      have := hs (v, sub) (mfind_mem _ _ _ hq)
      dsimp only at this
      simp only [Option.isSome_some, if_true]
      rw [this]
      ring

theorem subLhsSum_congr {V : Type} [DecidableEq V] (subs : List (V × List (V × ℚ)))
    (y y' : V → ℚ) (lhs : List (V × ℚ)) (h : ∀ e ∈ subs, ∀ v ∈ mkeys e.2, y v = y' v) :
    subLhsSum subs y lhs = subLhsSum subs y' lhs := by
  unfold subLhsSum
  congr 1
  apply List.map_congr_left
  intro e _
  cases hq : mfind subs e.1 with
  | none => rfl
  | some sub =>
    dsimp only
    rw [evalMap_congr y y' sub (h (e.1, sub) (mfind_mem _ _ _ hq))]

theorem subRhsSum_congr {V K : Type} [DecidableEq V] (subs : List (V × List (V × ℚ)))
    (sr : List (V × List (K × ℚ))) (ρ ρ' : K → ℚ) (lhs : List (V × ℚ))
    (h : ∀ e ∈ sr, ∀ k ∈ mkeys e.2, ρ k = ρ' k) :
    subRhsSum subs sr ρ lhs = subRhsSum subs sr ρ' lhs := by
  unfold subRhsSum
  congr 1
  apply List.map_congr_left
  intro e _
  cases hq : mfind subs e.1 with
  | none => rfl
  | some sub =>
    dsimp only
    congr 1
    cases hr : mfind sr e.1 with
    | none => rfl
    | some srhs =>
      simp only [Option.getD_some]
      exact evalMap_congr ρ ρ' srhs (h (e.1, srhs) (mfind_mem _ _ _ hr))

theorem sum_eq_single_of_mem {α : Type} (l : List α) (f : α → ℚ) (a : α) (hn : l.Nodup)
    (ha : a ∈ l) (hz : ∀ x ∈ l, x ≠ a → f x = 0) : (l.map f).sum = f a := by
  induction l with
  | nil => simp at ha
  | cons x rest ih =>
    rw [List.nodup_cons] at hn
    simp only [List.map_cons, List.sum_cons]
    rcases List.mem_cons.1 ha with h | h
    · subst h
      have : (rest.map f).sum = 0 := by
        apply List.sum_eq_zero
        intro y hy
        obtain ⟨x, hx, rfl⟩ := List.mem_map.1 hy
        exact hz x (List.mem_cons_of_mem _ hx) (fun e => hn.1 (e ▸ hx))
      rw [this, add_zero]
    · rw [hz x (List.mem_cons_self _ _) (fun e => hn.1 (e ▸ h)), zero_add]
      exact ih hn.2 h (fun y hy => hz y (List.mem_cons_of_mem _ hy))

theorem sum_range_map (m : Nat) (g : Nat → ℚ) :
    ((List.range m).map g).sum = (Finset.range m).sum g := by
  induction m with
  | zero => simp
  | succ m ih =>
    rw [List.range_succ, List.map_append, List.sum_append, ih, Finset.sum_range_succ]
    simp

theorem shape_filter {V C : Type} (cs cs' : List ((C × Int) × Constraint V))
    (hc : cs'.map (fun e => (e.1, e.2.hard, e.2.lhs)) =
      cs.map (fun e => (e.1, e.2.hard, e.2.lhs))) :
    mkeys (cs'.filter (fun e => !e.2.hard)) = mkeys (cs.filter (fun e => !e.2.hard)) := by
  induction cs' generalizing cs with
  | nil =>
    cases cs with
    | nil => rfl
    | cons e rest => simp at hc
  | cons e' rest' ih =>
    cases cs with
    | nil => simp at hc
    | cons e rest =>
      simp only [List.map_cons, List.cons.injEq, Prod.mk.injEq] at hc
      obtain ⟨⟨h1, h2, _⟩, h4⟩ := hc
      have := ih rest h4
      simp only [List.filter_cons, h2]
      split
      · simp only [mkeys, List.map_cons, h1]
        unfold mkeys at this
        rw [this]
      · exact this

theorem shape_mem {V C : Type} (cs cs' : List ((C × Int) × Constraint V))
    (hc : cs'.map (fun e => (e.1, e.2.hard, e.2.lhs)) =
      cs.map (fun e => (e.1, e.2.hard, e.2.lhs)))
    (e' : (C × Int) × Constraint V) (he' : e' ∈ cs') :
    ∃ e ∈ cs, e.1 = e'.1 ∧ e.2.hard = e'.2.hard ∧ e.2.lhs = e'.2.lhs := by
  have hm : (e'.1, e'.2.hard, e'.2.lhs) ∈ cs.map (fun e => (e.1, e.2.hard, e.2.lhs)) := by
    rw [← hc]
    exact List.mem_map.2 ⟨e', he', rfl⟩
  obtain ⟨e, he, heq⟩ := List.mem_map.1 hm
  simp only [Prod.mk.injEq] at heq
  exact ⟨e, he, heq⟩

/-- The sum over the soft constraints of a function of their index is the sum over the
indices below `softNum`. -/
theorem sum_soft_reindex {V C : Type} [LinearOrder V] [LinearOrder C]
    (cs cs' : List ((C × Int) × Constraint V)) (st : Reduction V C) (order : List V)
    (pivIds : List (C × Int)) (hk : (mkeys cs).Nodup)
    (hinv : RedInv (cs.filter (fun e => e.2.hard)) (softIndices cs [] 0).1
      (softIndices cs [] 0).2 st order pivIds)
    (hH : st.hardConstraints = [])
    (hc : cs'.map (fun e => (e.1, e.2.hard, e.2.lhs)) =
      cs.map (fun e => (e.1, e.2.hard, e.2.lhs)))
    (g : Int → ℚ) :
    ((cs'.filter (fun e => !e.2.hard)).map
        (fun e => g ((mfind st.constraintMap e.1).getD 0))).sum =
      (Finset.range (softIndices cs [] 0).2.toNat).sum (fun r : Nat => g (r : Int)) := by
  obtain ⟨a1, a2⟩ := redInv_softIndex cs st order pivIds hk hinv hH
  have h1 : (cs'.filter (fun e => !e.2.hard)).map
      (fun e => g ((mfind st.constraintMap e.1).getD 0)) =
      (mkeys (cs.filter (fun e => !e.2.hard))).map
        (fun key => g ((mfind st.constraintMap key).getD 0)) := by
    rw [← shape_filter cs cs' hc]
    simp [mkeys, Function.comp_def]
  have h2 : (mkeys (cs.filter (fun e => !e.2.hard))).map
      (fun key => g ((mfind st.constraintMap key).getD 0)) =
      (List.range (mkeys (cs.filter (fun e => !e.2.hard))).length).map
        (fun r : Nat => g (r : Int)) := by
    apply List.ext_getElem?
    intro i
    simp only [List.getElem?_map]
    by_cases hi : i < (mkeys (cs.filter (fun e => !e.2.hard))).length
    · obtain ⟨key, hkey⟩ := exists_getElem? _ i hi
      rw [hkey, List.getElem?_range hi]
      simp only [Option.map_some']
      rw [a2 i key hkey]
    · rw [List.getElem?_eq_none (by omega), List.getElem?_eq_none (by simp; omega)]
      rfl
  rw [h1, h2, sum_range_map, a1]
  simp

/-- The entry of `rhs1` for a soft constraint, after the transform of the right-hand sides
in `solve`, is its current right-hand side less the right-hand sides of the substitutions
for the substituted variables of its left-hand side. -/
theorem rhs1_soft_value {V C : Type} [LinearOrder V] [LinearOrder C]
    (cs cs' : List ((C × Int) × Constraint V)) (st : Reduction V C) (order : List V)
    (pivIds : List (C × Int)) (varMap : List (V × Int))
    (sm0 sm rtm rt : List (List (Int × ℚ))) (n : Nat) (rhs0 rhs1a rhs1 : List ℚ)
    (hk : (mkeys cs).Nodup)
    (hinv : RedInv (cs.filter (fun e => e.2.hard)) (softIndices cs [] 0).1
      (softIndices cs [] 0).2 st order pivIds)
    (hH : st.hardConstraints = [])
    (hsoft : softRows st.substitutions st.substitutionsRhs st.constraintMap varMap
      (softIndices cs [] 0).2 cs sm0 (List.replicate n []) = some (sm, rtm))
    (hhr : hardRhsRows st.constraintMap st.substitutionConstraintIdx (softIndices cs [] 0).2
      st.substitutionsRhs rtm = some rt)
    (hc : cs'.map (fun e => (e.1, e.2.hard, e.2.lhs)) =
      cs.map (fun e => (e.1, e.2.hard, e.2.lhs)))
    (hgrab : grabRhs st.constraintMap cs' [] = some rhs0)
    (hclear : clearHard (softIndices cs [] 0).2 rhs0 = some rhs1a)
    (htrans : transformRows rhs0 (softIndices cs [] 0).2 0 rt rhs1a = some rhs1) :
    ∀ e ∈ cs', e.2.hard = false →
      vget rhs1 ((mfind st.constraintMap e.1).getD 0) = e.2.rhs -
        subRhsSum st.substitutions st.substitutionsRhs
          (fun key => vget rhs0 ((mfind st.constraintMap key).getD 0)) e.2.lhs := by
  obtain ⟨c0, c1, c2, c3⟩ := redInv_constraintMap cs st order pivIds hk hinv hH
  have hkeys := mkeys_eq_of_shape cs cs' hc
  obtain ⟨g1, -⟩ := grabRhs_spec st.constraintMap cs' [] rhs0 hgrab (by rw [hkeys]; exact hk)
    (by rw [hkeys]; exact c3)
  intro e' he' hs'
  obtain ⟨e, he, hk1, hk2, hk3⟩ := shape_mem cs cs' hc e' he'
  have hes : e.2.hard = false := by rw [hk2]; exact hs'
  obtain ⟨d1, d2⟩ := c1 e he hes
  rw [hk1] at d1 d2
  obtain ⟨-, t2⟩ := transformRows_spec _ _ _ _ _ _ htrans
  obtain ⟨-, h2⟩ := hardRhsRows_spec _ _ _ _ _ _ hhr
  obtain ⟨-, s2⟩ := softRows_colSum _ _ _ _ _ _ _ _ _ _ hsoft
  rw [t2, clearHard_spec _ _ _ hclear, if_pos d2, g1 e' he', h2, s2, colSum_replicate,
    zero_add]
  have hzero : (st.substitutionsRhs.map (fun e =>
      if (mfind st.constraintMap e'.1).getD 0 =
          (mfind st.substitutionConstraintIdx e.1).getD 0 + (softIndices cs [] 0).2 then
        evalMap (rhsAt st.constraintMap (softIndices cs [] 0).2
          (fun i => vget rhs0 ((softIndices cs [] 0).2 + (i : Int)))) e.2
      else 0)).sum = 0 := by
    apply List.sum_eq_zero
    intro y hy
    obtain ⟨x, hx, rfl⟩ := List.mem_map.1 hy
    obtain ⟨i, _, _, hi⟩ := (redInv_index _ _ _ _ _ _ hinv).2 x.1
      (hinv.keysSR _ (mem_mkeys_of_mem _ x hx))
    rw [if_neg (by omega)]
  rw [hzero, add_zero]
  have hcsn : cs.Nodup := List.Nodup.of_map _ hk
  rw [sum_eq_single_of_mem cs _ e hcsn he]
  · rw [hes, hk1]
    simp only [Bool.false_eq_true, if_false, if_true]
    rw [hk3]
    have hcongr := subRhsSum_congr st.substitutions st.substitutionsRhs
      (rhsAt st.constraintMap (softIndices cs [] 0).2
        (fun i => vget rhs0 ((softIndices cs [] 0).2 + (i : Int))))
      (fun key => vget rhs0 ((mfind st.constraintMap key).getD 0)) e'.2.lhs (by
        intro x hx key hkey
        have hkh := hinv.rhsS x hx key hkey
        obtain ⟨eh, heh, rfl⟩ := List.mem_map.1 hkh
        obtain ⟨hec, hehh⟩ := List.mem_filter.1 heh
        have := c2 eh hec hehh
        unfold rhsAt
        dsimp only
        congr 1
        omega)
    rw [hcongr]
    ring
  · intro x hx hne
    by_cases hxh : x.2.hard = true
    · rw [if_pos hxh]
    · rw [if_neg hxh, if_neg]
      intro e1
      apply hne
      have hkeq := c3 x.1 (mem_mkeys_of_mem _ x hx) e.1 (mem_mkeys_of_mem _ e he)
        (by rw [hk1]; exact e1.symm)
      have h1 := mfind_of_mem cs x.1 x.2 hk hx
      have h2 := mfind_of_mem cs e.1 e.2 hk he
      rw [hkeq, h2, Option.some.injEq] at h1
      exact Prod.ext hkeq h1.symm

theorem vget_natCast (l : List ℚ) (j : Nat) : vget l (j : Int) = l.getD j 0 := by
  simp [vget, idx?_natCast, List.getD_eq_getElem?_getD]

theorem rows_sum_eq_sum (l : List (List (Int × ℚ))) (f : List (Int × ℚ) → ℚ) :
    (l.map f).sum = (Finset.range l.length).sum (fun r => f (rget l (r : Int))) := by
  induction l with
  | nil => simp
  | cons row rest ih =>
    simp only [List.map_cons, List.sum_cons, List.length_cons]
    rw [Finset.sum_range_succ', ih]
    simp only [rget_cons_succ]
    have h0 : rget (row :: rest) ((0 : Nat) : Int) = row := rget_cons_zero row rest
    rw [h0, add_comm]

/-- The row of `softMatrix` for a soft constraint: its columns increase and are indices of
free variables, and at an assignment at which the substitutions hold the value of the
left-hand side of the constraint is the value of the row at the free variables plus the
right-hand sides of the substitutions. -/
theorem soft_row_facts {V C : Type} [LinearOrder V] [LinearOrder C]
    (hard0 : List ((C × Int) × Constraint V)) (cm0 : List ((C × Int) × Int)) (softNum : Int)
    (cs : List ((C × Int) × Constraint V)) (st : Reduction V C) (order : List V)
    (pivIds : List (C × Int)) (varMap0 varMap : List (V × Int)) (varIds0 : List V)
    (n : Nat) (sm rtm : List (List (Int × ℚ)))
    (hk : (mkeys cs).Nodup) (hl : ∀ e ∈ cs, (mkeys e.2.lhs).Nodup)
    (hinv : RedInv hard0 cm0 softNum st order pivIds)
    (hinj : ∀ k1 ∈ mkeys cs, ∀ k2 ∈ mkeys cs,
      (mfind st.constraintMap k1).getD 0 = (mfind st.constraintMap k2).getD 0 → k1 = k2)
    (hfv : FVInv st.substitutions varMap0 varIds0)
    (hcov : ∀ e ∈ cs, e.2.hard = false → ∀ v ∈ mkeys e.2.lhs,
      v ∈ varIds0 ∨ v ∈ mkeys st.substitutions)
    (hbody : ∀ e ∈ st.substitutions, ∀ v ∈ mkeys e.2, v ∈ varIds0)
    (hvm : ∀ v, v ∉ mkeys st.substitutions → mfind varMap v = mfind varMap0 v)
    (hsoft : softRows st.substitutions st.substitutionsRhs st.constraintMap varMap softNum cs
      (List.replicate softNum.toNat []) (List.replicate n []) = some (sm, rtm))
    (e : (C × Int) × Constraint V) (he : e ∈ cs) (hes : e.2.hard = false) :
    (rget sm ((mfind st.constraintMap e.1).getD 0)).Pairwise (fun a b => a.1 < b.1) ∧
      (∀ p ∈ rget sm ((mfind st.constraintMap e.1).getD 0),
        0 ≤ p.1 ∧ p.1 < (varIds0.length : Int)) ∧
      ∀ (y : V → ℚ) (ρ : C × Int → ℚ), subsHold st.substitutions st.substitutionsRhs y ρ →
        evalMap y e.2.lhs =
          evalMap (freeValues varIds0 y) (rget sm ((mfind st.constraintMap e.1).getD 0)) +
            subRhsSum st.substitutions st.substitutionsRhs ρ e.2.lhs := by
  obtain ⟨-, -, m3⟩ := softRows_matrix _ _ _ _ _ _ _ _ _ _ hsoft hk hinj
  obtain ⟨modLhs, m0, m1, hsub, hrow⟩ := m3 e he hes
  rw [rget_replicate, List.nil_append] at hrow
  obtain ⟨-, -, t3, t4, t5⟩ := softSubstitute_spec _ _ _ _ _ _ _ _ _ _ hsub
  have hnd : (mkeys modLhs).Nodup := t4 (hl e he)
  -- the variables of `modLhs` that are not substituted are free variables
  have hfree : ∀ v ∈ mkeys modLhs, mfind st.substitutions v = none →
      ∃ i : Nat, varIds0[i]? = some v ∧ (mfind varMap v).getD 0 = (i : Int) := by
    intro v hv hvs
    have hvS : v ∉ mkeys st.substitutions := (mfind_eq_none _ _).1 hvs
    have hin : v ∈ varIds0 := by
      rcases (t5 v).1 hv with h | ⟨e', he', sub, h1, h2⟩
      · rcases hcov e he hes v h with h | h
        · exact h
        · exact absurd h hvS
      · exact hbody (e'.1, sub) (mfind_mem _ _ _ h1) v h2
    obtain ⟨i, hi⟩ := getElem?_of_mem _ _ hin
    refine ⟨i, hi, ?_⟩
    rw [hvm v hvS, (hfv.1 v i).2 ⟨i, rfl, hi⟩]
    rfl
  have hperm : (rget sm ((mfind st.constraintMap e.1).getD 0)).Perm
      (softRow st.substitutions varMap modLhs) := by
    rw [hrow]
    exact List.perm_insertionSort pairLe _
  have hcols : (mkeys (softRow st.substitutions varMap modLhs)).Nodup := by
    apply nodup_softRow _ _ _ hnd
    intro v hv w hw hvs hws hvw
    obtain ⟨i, hi, hi'⟩ := hfree v hv hvs
    obtain ⟨j, hj, hj'⟩ := hfree w hw hws
    rw [hi', hj'] at hvw
    have : i = j := by omega
    subst this
    rw [hi, Option.some.injEq] at hj
    exact hj
  refine ⟨?_, ?_, ?_⟩
  · rw [hrow]
    exact insertionSort_columns _ hcols
  · intro p hp
    obtain ⟨e', he', h1, h2⟩ := mem_softRow _ _ _ _ (hperm.subset hp)
    obtain ⟨i, hi, hi'⟩ := hfree e'.1 (mem_mkeys_of_mem _ e' he') h1
    rw [h2]
    dsimp only
    rw [hi']
    have := (List.getElem?_eq_some.1 hi).1
    omega
  · intro y ρ hy
    have h1 : evalMap (freeValues varIds0 y) (rget sm ((mfind st.constraintMap e.1).getD 0)) =
        evalMap (fun v => if (mfind st.substitutions v).isSome = true then 0 else y v)
          modLhs := by
      rw [evalMap_perm _ _ _ hperm, evalMap_softRow]
      apply evalMap_congr
      intro v hv
      cases hq : mfind st.substitutions v with
      | some sub => simp
      | none =>
        obtain ⟨i, hi, hi'⟩ := hfree v hv hq
        simp only [Option.isSome_none, Bool.false_eq_true, if_false]
        rw [hi']
        simp [freeValues, idx?_natCast, hi]
    have h2 : subLhsSum st.substitutions
        (fun v => if (mfind st.substitutions v).isSome = true then 0 else y v) e.2.lhs =
        subLhsSum st.substitutions y e.2.lhs := by
      apply subLhsSum_congr
      intro e' he' v hv
      have := hinv.freshB e' he' v hv
      rw [(mfind_eq_none _ _).2 this]
      rfl
    rw [h1, t3, h2, evalMap_split _ _ y ρ e.2.lhs hy]

/-- The normal equations of the substituted soft system, from a solver that returns the
exact solution. -/
theorem normal_equations_of_exact (sm spdm : List (List (Int × ℚ))) (n : Nat)
    (rhs1 rhs2a rhs2 : List ℚ) (zs : Nat → ℚ)
    (hspd : spdRows sm (List.replicate n []) = some spdm)
    (hsorted : ∀ row ∈ sm, row.Pairwise (fun a b => a.1 < b.1))
    (htp : transposeRows rhs1 0 sm (List.replicate n 0) = some rhs2a)
    (hzs : ∀ j, j < n → zs j = rhs2.getD j 0)
    (heq : ∀ i, i < n → (Finset.range n).sum (fun j => symEntry spdm i j * rhs2.getD j 0) =
      rhs2a.getD i 0) :
    ∀ i, i < n → (Finset.range sm.length).sum (fun r =>
      rowCoef (rget sm (r : Int)) (i : Int) *
        ((Finset.range n).sum (fun j => rowCoef (rget sm (r : Int)) (j : Int) * zs j) -
          vget rhs1 (r : Int))) = 0 := by
  intro i hi
  have h1 := heq i hi
  have hsym : ∀ j, symEntry spdm i j = (Finset.range sm.length).sum (fun r =>
      rowCoef (rget sm (r : Int)) (i : Int) * rowCoef (rget sm (r : Int)) (j : Int)) := by
    intro j
    rw [symEntry_spdRows sm spdm n hspd hsorted i j, rows_sum_eq_sum]
  have hb : rhs2a.getD i 0 = (Finset.range sm.length).sum (fun r =>
      vget rhs1 (r : Int) * rowCoef (rget sm (r : Int)) (i : Int)) := by
    rw [← vget_natCast, transposeRows_spec _ _ _ _ _ htp, vget_replicate, zero_add,
      colSum_eq_sum]
    apply Finset.sum_congr rfl
    intro r _
    rw [Nat.zero_add]
  have hexp : (Finset.range sm.length).sum (fun r =>
      rowCoef (rget sm (r : Int)) (i : Int) *
        ((Finset.range n).sum (fun j => rowCoef (rget sm (r : Int)) (j : Int) * zs j) -
          vget rhs1 (r : Int))) =
      (Finset.range n).sum (fun j => symEntry spdm i j * rhs2.getD j 0) -
        rhs2a.getD i 0 := by
    rw [hb]
    have : (Finset.range n).sum (fun j => symEntry spdm i j * rhs2.getD j 0) =
        (Finset.range sm.length).sum (fun r => (Finset.range n).sum (fun j =>
          rowCoef (rget sm (r : Int)) (i : Int) *
            (rowCoef (rget sm (r : Int)) (j : Int) * zs j))) := by
      rw [Finset.sum_comm]
      apply Finset.sum_congr rfl
      intro j hj
      rw [hsym j, Finset.sum_mul, hzs j (Finset.mem_range.1 hj)]
      apply Finset.sum_congr rfl
      intro r _
      ring
    rw [this, ← Finset.sum_sub_distrib]
    apply Finset.sum_congr rfl
    intro r _
    rw [mul_sub, Finset.mul_sum]
    ring
  rw [hexp, h1, sub_self]

/-- C14: in exact arithmetic, with maps whose keys are pairwise different and a solver
whose `solve` returns the exact solution of the system with the symmetric matrix that
`factor` was given: when `factor` returns true and, with the right-hand sides of the
constraints set to their current values, `solve` returns true, the values of `getResult`
satisfy the hard constraints, and their sum of squared residuals of the soft constraints
is at most the sum of every assignment `y` that satisfies the hard constraints. -/
theorem solve_minimises_soft_residuals {V C LLT : Type} [LinearOrder V] [LinearOrder C]
    [Inhabited V] (solver : SPDSolver LLT) (s s1 s2 : LSQSystem V C LLT)
    (cs' : List ((C × Int) × Constraint V))
    (hk : (mkeys s.constraints).Nodup) (hl : ∀ e ∈ s.constraints, (mkeys e.2.lhs).Nodup)
    (hexact : ∀ (spdm : List (List (Int × ℚ))) (fm : LLT) (b z : List ℚ),
      solver.factor spdm = some fm → b.length = spdm.length → solver.solve fm b = some z →
      z.length = b.length ∧ ∀ i, i < b.length →
        (Finset.range b.length).sum (fun j => symEntry spdm i j * z.getD j 0) = b.getD i 0)
    (hf : s.factor solver = some (true, s1))
    (hc : cs'.map (fun e => (e.1, e.2.hard, e.2.lhs)) =
      s.constraints.map (fun e => (e.1, e.2.hard, e.2.lhs)))
    (hs : ({ s1 with constraints := cs' } : LSQSystem V C LLT).solve solver =
      some (true, s2)) :
    (∀ e ∈ cs', e.2.hard = true →
      evalMap (fun v => (s2.getResult v).getD 0) e.2.lhs = e.2.rhs) ∧
    ∀ y : V → ℚ, (∀ e ∈ cs', e.2.hard = true → evalMap y e.2.lhs = e.2.rhs) →
      ((cs'.filter (fun e => !e.2.hard)).map (fun e =>
        (evalMap (fun v => (s2.getResult v).getD 0) e.2.lhs - e.2.rhs) ^ 2)).sum ≤
      ((cs'.filter (fun e => !e.2.hard)).map (fun e =>
        (evalMap y e.2.lhs - e.2.rhs) ^ 2)).sum := by
  obtain ⟨st, varMap0, varIds0, varMap, rtm, spdm, fm, hr⟩ := factor_run solver s s1 hf
  obtain ⟨fm', rhs0, rhs1, rhs2a, rhs2, hsr⟩ := solve_run solver _ s2 hs
  obtain ⟨order, pivIds, hinv, hH⟩ :=
    factorRun_reduced solver s s1 st varMap0 varIds0 varMap rtm spdm fm hk hl hr
  have hgrab : grabRhs st.constraintMap cs' [] = some rhs0 := by
    have := hsr.grab
    rw [← hr.cmEq]
    exact this
  obtain ⟨rhs1a, hclear, htrans⟩ := hsr.transform
  have hclear' : clearHard (softIndices s.constraints [] 0).2 rhs0 = some rhs1a := by
    rw [← hr.snEq]
    exact hclear
  have htrans' : transformRows rhs0 (softIndices s.constraints [] 0).2 0 s1.rhsTransform
      rhs1a = some rhs1 := by
    rw [← hr.snEq]
    exact htrans
  have hfm : fm' = fm := by
    have h1 : s1.factoredMatrix = some fm' := hsr.fmEq
    rw [hr.fmEq, Option.some.injEq] at h1
    exact h1.symm
  subst hfm
  obtain ⟨c0, c1, c2, c3⟩ := redInv_constraintMap s.constraints st order pivIds hk hinv hH
  obtain ⟨a1, a2⟩ := redInv_softIndex s.constraints st order pivIds hk hinv hH
  have hnum : (s.constraints.filter (fun e => e.2.hard)).length = order.length := by
    have h1 : st.hardConstraintIds = [] := by
      have := hinv.lenIds
      rw [hH] at this
      exact List.length_eq_zero.1 this
    have h2 := hinv.permIds.length_eq
    rw [h1, List.nil_append, mkeys_length] at h2
    rw [← h2, hinv.lenP]
  have hfv0 : FVInv st.substitutions ([] : List (V × Int)) ([] : List V) := by
    constructor
    · intro v k
      simp [mfind]
    · simp
  obtain ⟨hfv, -, hcov⟩ : FVInv st.substitutions varMap0 varIds0 ∧
      (∀ v ∈ ([] : List V), v ∈ varIds0) ∧
      ∀ e ∈ s.constraints, e.2.hard = false → ∀ v ∈ mkeys e.2.lhs,
        v ∈ varIds0 ∨ v ∈ mkeys st.substitutions := by
    have := freeVars_spec st.substitutions s.constraints [] [] hfv0
    rw [hr.free] at this
    exact this
  obtain ⟨-, -, -, hvm, -⟩ := hardVars_spec _ _ _ _ _ _ _ hr.hardV
    (redInv_index_inj _ _ _ _ _ _ hinv)
  -- the rows of `softMatrix`
  obtain ⟨mlen, -, -⟩ := softRows_matrix _ _ _ _ _ _ _ _ _ _ hr.soft hk c3
  rw [List.length_replicate] at mlen
  have hrowOf : ∀ r : Nat, r < s1.softMatrix.length → ∃ e ∈ s.constraints,
      e.2.hard = false ∧ (mfind st.constraintMap e.1).getD 0 = (r : Int) := by
    intro r hr'
    have hlt : r < (mkeys (s.constraints.filter (fun e => !e.2.hard))).length := by
      rw [mlen, a1] at hr'
      simpa using hr'
    obtain ⟨key, hkey⟩ := exists_getElem? _ r hlt
    obtain ⟨e, he, rfl⟩ := List.mem_map.1 (mem_of_getElem? _ _ _ hkey)
    obtain ⟨hec, hes⟩ := List.mem_filter.1 he
    exact ⟨e, hec, by simpa using hes, a2 r e.1 hkey⟩
  have hbody0 : ∀ e ∈ st.substitutions, ∀ v ∈ mkeys e.2, v ∈ varIds0 := by
    obtain ⟨-, r2, -, -⟩ := substitutedRows_spec _ _ _ _ _ hr.rows hinv.nodupS
      (redInv_index_inj _ _ _ _ _ _ hinv)
    intro e he v hv
    have h1 := hinv.freshB e he v hv
    have h2 := r2 e he v hv
    rw [hvm v h1] at h2
    obtain ⟨k, hk'⟩ := Option.isSome_iff_exists.1 h2
    obtain ⟨i, -, hi⟩ := (hfv.1 v k).1 hk'
    exact mem_of_getElem? _ _ _ hi
  have hrows : ∀ e ∈ s.constraints, e.2.hard = false →
      (rget s1.softMatrix ((mfind st.constraintMap e.1).getD 0)).Pairwise
          (fun a b => a.1 < b.1) ∧
        (∀ p ∈ rget s1.softMatrix ((mfind st.constraintMap e.1).getD 0),
          0 ≤ p.1 ∧ p.1 < (varIds0.length : Int)) ∧
        ∀ (y : V → ℚ) (ρ : C × Int → ℚ),
          subsHold st.substitutions st.substitutionsRhs y ρ →
          evalMap y e.2.lhs =
            evalMap (freeValues varIds0 y)
                (rget s1.softMatrix ((mfind st.constraintMap e.1).getD 0)) +
              subRhsSum st.substitutions st.substitutionsRhs ρ e.2.lhs :=
    fun e he hes => soft_row_facts _ _ _ s.constraints st order pivIds varMap0 varMap varIds0
      _ s1.softMatrix rtm hk hl hinv c3 hfv hcov hbody0 hvm hr.soft e he hes
  have hsorted : ∀ row ∈ s1.softMatrix, row.Pairwise (fun a b => a.1 < b.1) := by
    intro row hrow
    obtain ⟨r, hr'⟩ := getElem?_of_mem _ _ hrow
    obtain ⟨e, he, hes, hidx⟩ := hrowOf r (List.getElem?_eq_some.1 hr').1
    have := (hrows e he hes).1
    rw [hidx, rget_natCast _ _ _ hr'] at this
    exact this
  -- the lengths of the vectors and the solution of the solver
  obtain ⟨hspdlen, -, -⟩ := spdRows_spec _ _ _ hr.spd hsorted
  rw [List.length_replicate] at hspdlen
  have hsz : (solver.size fm').toNat = varIds0.length := by
    rw [hr.size]
    simp
  have htp : transposeRows rhs1 0 s1.softMatrix (List.replicate varIds0.length 0) =
      some rhs2a := by
    rw [← hsz]
    exact hsr.transpose
  have hrhs2a : rhs2a.length = varIds0.length := by
    rw [transposeRows_length _ _ _ _ _ htp, List.length_replicate]
  obtain ⟨hlen2', heq⟩ := hexact spdm fm' rhs2a rhs2 hr.fac (by rw [hrhs2a, hspdlen])
    hsr.solved
  have hlen2 : rhs2.length = varIds0.length := by rw [hlen2', hrhs2a]
  rw [hrhs2a] at heq
  obtain ⟨res0, hfree, hhard⟩ := hsr.store
  obtain ⟨q1, q2⟩ := rhs1_hard_value s.constraints cs' st order pivIds varMap _ _ rtm
    s1.rhsTransform _ rhs0 rhs1a rhs1 hk hinv hH hr.soft hr.hardR hc hgrab hclear' htrans'
  have qs := rhs1_soft_value s.constraints cs' st order pivIds varMap _ _ rtm
    s1.rhsTransform _ rhs0 rhs1a rhs1 hk hinv hH hr.soft hr.hardR hc hgrab hclear' htrans'
  have hhard' : storeHard s1.varIds s1.substitutedHard rhs1 rhs2
      (softIndices s.constraints [] 0).2 (s1.varIds.length - rhs2.length) 0 res0 =
        some s2.result := by
    rw [← hr.snEq]
    exact hhard
  obtain ⟨p1, p2, p3⟩ := result_values _ _ _ st order pivIds varMap0 varMap varIds0 s1.varIds
    _ s1.substitutedHard rhs1 rhs2 res0 s2.result hinv hnum hfv hr.hardV hr.rows hlen2 hfree
    hhard'
  have hX : ∀ v, s2.getResult v = mfind s2.result v := fun v => rfl
  have hsubs : subsHold st.substitutions st.substitutionsRhs
      (fun v => (s2.getResult v).getD 0)
      (fun key => vget rhs0 ((mfind st.constraintMap key).getD 0)) := by
    intro e he
    dsimp only
    rw [hX, p2 e he, q2 e.1 (mem_mkeys_of_mem _ e he)]
    simp only [Option.getD_some]
    rw [add_comm]
    rfl
  have hhold : hardHold st.hardConstraints st.hardRhs
      (fun v => (s2.getResult v).getD 0)
      (fun key => vget rhs0 ((mfind st.constraintMap key).getD 0)) := by
    intro j h r h1
    rw [hH] at h1
    simp at h1
  have hsound := hinv.sound _ _ hsubs hhold
  have hfeas : ∀ e ∈ cs', e.2.hard = true →
      evalMap (fun v => (s2.getResult v).getD 0) e.2.lhs = e.2.rhs := by
    intro e' he' hh'
    obtain ⟨e, he, hk1, hk2, hk3⟩ := shape_mem s.constraints cs' hc e' he'
    have heh : e ∈ s.constraints.filter (fun e => e.2.hard) :=
      List.mem_filter.2 ⟨he, by rw [hk2]; exact hh'⟩
    rw [← hk3, hsound e heh, hk1]
    exact q1 e' he'
  refine ⟨hfeas, ?_⟩
  intro y hy
  -- the substitutions hold at every assignment that satisfies the hard constraints
  have hysubs : subsHold st.substitutions st.substitutionsRhs y
      (fun key => vget rhs0 ((mfind st.constraintMap key).getD 0)) := by
    refine (hinv.complete y _ ?_).1
    intro e he
    obtain ⟨hec, heh⟩ := List.mem_filter.1 he
    obtain ⟨e', he', hk1, hk2, hk3⟩ := shape_mem cs' s.constraints hc.symm e hec
    rw [← hk3, hy e' he' (by rw [hk2]; exact heh), ← hk1]
    exact (q1 e' he').symm
  -- the residual of a soft constraint in terms of the free variables
  have hres : ∀ (x : V → ℚ), subsHold st.substitutions st.substitutionsRhs x
      (fun key => vget rhs0 ((mfind st.constraintMap key).getD 0)) →
      ∀ e ∈ cs', e.2.hard = false → evalMap x e.2.lhs - e.2.rhs =
        (Finset.range varIds0.length).sum (fun j : Nat =>
          rowCoef (rget s1.softMatrix ((mfind st.constraintMap e.1).getD 0)) (j : Int) *
            freeValues varIds0 x (j : Int)) -
          vget rhs1 ((mfind st.constraintMap e.1).getD 0) := by
    intro x hx e' he' hes'
    obtain ⟨e, he, hk1, hk2, hk3⟩ := shape_mem s.constraints cs' hc e' he'
    have hes : e.2.hard = false := by rw [hk2]; exact hes'
    obtain ⟨-, w2, w3⟩ := hrows e he hes
    rw [← hk1, ← evalMap_eq_sum _ _ _ w2, hk1, qs e' he' hes', ← hk3, w3 x _ hx, hk1]
    ring
  have hsum : ∀ (x : V → ℚ), subsHold st.substitutions st.substitutionsRhs x
      (fun key => vget rhs0 ((mfind st.constraintMap key).getD 0)) →
      ((cs'.filter (fun e => !e.2.hard)).map (fun e =>
        (evalMap x e.2.lhs - e.2.rhs) ^ 2)).sum =
      (Finset.range s1.softMatrix.length).sum (fun r : Nat =>
        ((Finset.range varIds0.length).sum (fun j : Nat =>
          rowCoef (rget s1.softMatrix (r : Int)) (j : Int) *
            freeValues varIds0 x (j : Int)) - vget rhs1 (r : Int)) ^ 2) := by
    intro x hx
    have h1 : (cs'.filter (fun e => !e.2.hard)).map (fun e =>
        (evalMap x e.2.lhs - e.2.rhs) ^ 2) =
        (cs'.filter (fun e => !e.2.hard)).map (fun e =>
          (fun r : Int => ((Finset.range varIds0.length).sum (fun j : Nat =>
            rowCoef (rget s1.softMatrix r) (j : Int) * freeValues varIds0 x (j : Int)) -
              vget rhs1 r) ^ 2) ((mfind st.constraintMap e.1).getD 0)) := by
      apply List.map_congr_left
      intro e he
      obtain ⟨hec, hes⟩ := List.mem_filter.1 he
      dsimp only
      rw [hres x hx e hec (by simpa using hes)]
    rw [h1, sum_soft_reindex s.constraints cs' st order pivIds hk hinv hH hc
      (fun r : Int => ((Finset.range varIds0.length).sum (fun j : Nat =>
        rowCoef (rget s1.softMatrix r) (j : Int) * freeValues varIds0 x (j : Int)) -
          vget rhs1 r) ^ 2), mlen]
  rw [hsum _ hsubs, hsum y hysubs]
  apply normal_equations_minimise
  apply normal_equations_of_exact s1.softMatrix spdm varIds0.length rhs1 rhs2a rhs2 _ hr.spd
    hsorted htp _ heq
  intro j hj
  obtain ⟨v, hv⟩ := exists_getElem? varIds0 j hj
  have : freeValues varIds0 (fun v => (s2.getResult v).getD 0) (j : Int) =
      (s2.getResult v).getD 0 := by
    simp [freeValues, idx?_natCast, hv]
  rw [this, hX, p1 j v hv, vget_natCast]
  rfl

/-! ### The exact solver -/

theorem zipWith_sub_mul (c : ℚ) (t tail xs : List ℚ) (h : t.length = tail.length) :
    (List.zipWith (fun a x => a * x) (List.zipWith (fun x y => x - c * y) t tail) xs).sum =
      (List.zipWith (fun a x => a * x) t xs).sum -
        c * (List.zipWith (fun a x => a * x) tail xs).sum := by
  induction t generalizing tail xs with
  | nil =>
    cases tail with
    | nil => simp
    | cons b tail => simp at h
  | cons a t ih =>
    cases tail with
    | nil => simp at h
    | cons b tail =>
      cases xs with
      | nil => simp
      | cons x xs =>
        simp only [List.zipWith_cons_cons, List.sum_cons]
        rw [ih tail xs (by simpa using h)]
        ring

theorem getLastD_zipWith_sub (c : ℚ) (t tail : List ℚ) (h : t.length = tail.length) :
    (List.zipWith (fun x y => x - c * y) t tail).getLastD 0 =
      t.getLastD 0 - c * tail.getLastD 0 := by
  induction t generalizing tail with
  | nil =>
    cases tail with
    | nil => simp
    | cons b tail => simp at h
  | cons a t ih =>
    cases tail with
    | nil => simp at h
    | cons b tail =>
      cases t with
      | nil =>
        cases tail with
        | nil => simp
        | cons b' tail => simp at h
      | cons a' t =>
        cases tail with
        | nil => simp at h
        | cons b' tail =>
          have := ih (b' :: tail) (by simpa using h)
          simpa using this

theorem getLastD_of_ne_nil (l : List ℚ) (d d' : ℚ) (h : l ≠ []) :
    l.getLastD d = l.getLastD d' := by
  cases l with
  | nil => exact absurd rfl h
  | cons a t => simp only [List.getLastD_cons]

/-- The elimination solves its system: every row `[a_0, ..., a_k | b]` holds at the
solution. -/
theorem eliminate_exact (fuel : Nat) (rows : List (List ℚ)) (xs : List ℚ)
    (h : eliminate fuel rows = some xs)
    (hlen : ∀ row ∈ rows, row.length = rows.length + 1) :
    ∀ row ∈ rows, (List.zipWith (fun a x => a * x) row xs).sum = row.getLastD 0 := by
  induction fuel generalizing rows xs with
  | zero =>
    cases rows with
    | nil => simp
    | cons row rest => simp [eliminate] at h
  | succ fuel ih =>
    cases rows with
    | nil => simp
    | cons row0 rest =>
      cases row0 with
      | nil => simp [eliminate] at h
      | cons pivot tail =>
        simp only [eliminate] at h
        split at h
        · simp at h
        · rename_i hpos
          split at h
          · simp at h
          · rename_i ys hys
            simp only [Option.some.injEq] at h
            subst h
            have hp : pivot ≠ 0 := by
              intro e
              apply hpos
              rw [e]
            have htl : tail.length = rest.length + 1 := by
              have := hlen (pivot :: tail) (List.mem_cons_self _ _)
              simpa using this
            have hred := ih _ ys hys (by
              intro r' hr'
              obtain ⟨r, hr, rfl⟩ := List.mem_map.1 hr'
              have := hlen r (List.mem_cons_of_mem _ hr)
              simp only [List.length_cons] at this
              simp only [List.length_zipWith, List.length_tail, List.length_map]
              omega)
            have htne : tail ≠ [] := by
              intro e
              rw [e] at htl
              simp at htl
            intro row hrow
            rcases List.mem_cons.1 hrow with hrow | hrow
            · subst hrow
              simp only [List.zipWith_cons_cons, List.sum_cons]
              rw [List.getLastD_cons, getLastD_of_ne_nil tail pivot 0 htne]
              field_simp
            · have hrl := hlen row (List.mem_cons_of_mem _ hrow)
              cases row with
              | nil => simp at hrl
              | cons hd t =>
                have htl' : t.length = tail.length := by
                  simp only [List.length_cons] at hrl
                  omega
                have htne' : t ≠ [] := by
                  intro e
                  rw [e] at htl'
                  rw [← htl'] at htl
                  simp at htl
                have := hred _ (List.mem_map.2 ⟨hd :: t, hrow, rfl⟩)
                simp only [List.headD_cons, List.tail_cons] at this
                rw [zipWith_sub_mul _ _ _ _ htl', getLastD_zipWith_sub _ _ _ htl'] at this
                simp only [List.zipWith_cons_cons, List.sum_cons]
                have hl : (hd :: t).getLastD 0 = t.getLastD 0 := by
                  cases t with
                  | nil => exact absurd rfl htne'
                  | cons a t => simp
                rw [hl]
                field_simp
                field_simp at this
                linarith

theorem zipWith_range_sum (n : Nat) (f : Nat → ℚ) (c : ℚ) (z : List ℚ) (h : z.length = n) :
    (List.zipWith (fun a x => a * x) ((List.range n).map f ++ [c]) z).sum =
      (Finset.range n).sum (fun j => f j * z.getD j 0) := by
  induction n generalizing f z with
  | zero =>
    have : z = [] := List.length_eq_zero.1 h
    subst this
    simp
  | succ n ih =>
    cases z with
    | nil => simp at h
    | cons x xs =>
      rw [List.range_succ_eq_map, List.map_cons, List.map_map, List.cons_append,
        List.zipWith_cons_cons, List.sum_cons, ih (f ∘ Nat.succ) xs (by simpa using h),
        Finset.sum_range_succ']
      simp only [Function.comp, List.getD_cons_succ, List.getD_cons_zero, Nat.succ_eq_add_one]
      ring

/-- The solver `exactSolver` returns the exact solution of the system with the symmetric
matrix that its `factor` was given. -/
theorem exactSolver_exact (spdm fm : List (List (Int × ℚ))) (b z : List ℚ)
    (hf : exactSolver.factor spdm = some fm) (hb : b.length = spdm.length)
    (hs : exactSolver.solve fm b = some z) :
    z.length = b.length ∧ ∀ i, i < b.length →
      (Finset.range b.length).sum (fun j => symEntry spdm i j * z.getD j 0) = b.getD i 0 := by
  have hfm : fm = spdm := by
    simp only [exactSolver] at hf
    split at hf
    · simp at hf
    · simp only [Option.some.injEq] at hf
      exact hf.symm
  subst hfm
  have hz := exactSolver_length _ _ _ hs
  refine ⟨hz, ?_⟩
  intro i hi
  simp only [exactSolver] at hs
  rw [if_pos hb] at hs
  have hrows : ∀ row ∈ augmented fm b, row.length = (augmented fm b).length + 1 := by
    intro row hrow
    unfold augmented at hrow ⊢
    obtain ⟨k, _, rfl⟩ := List.mem_map.1 hrow
    simp
  have hmem : (List.range fm.length).map (fun j => symEntry fm i j) ++ [b.getD i 0] ∈
      augmented fm b := by
    unfold augmented
    exact List.mem_map.2 ⟨i, List.mem_range.2 (by omega), rfl⟩
  have := eliminate_exact _ _ _ hs hrows _ hmem
  rw [zipWith_range_sum _ _ _ _ (by rw [hz, hb])] at this
  rw [hb, this]
  simp

/-- Witness for C14: the hard constraint `x + y = 2` with the soft constraints `x = 0` and
`y = 0`, solved with the exact elimination. -/
theorem solve_minimises_soft_residuals_witness :
    ((mkeys overSystem.constraints).Nodup ∧
      (∀ e ∈ overSystem.constraints, (mkeys e.2.lhs).Nodup) ∧
      (∀ (spdm fm : List (List (Int × ℚ))) (b z : List ℚ),
        exactSolver.factor spdm = some fm → b.length = spdm.length →
        exactSolver.solve fm b = some z →
        z.length = b.length ∧ ∀ i, i < b.length →
          (Finset.range b.length).sum (fun j => symEntry spdm i j * z.getD j 0) =
            b.getD i 0) ∧
      overSystem.factor exactSolver = some (true, overFactored) ∧
      overSystem.constraints.map (fun e => (e.1, e.2.hard, e.2.lhs)) =
        overSystem.constraints.map (fun e => (e.1, e.2.hard, e.2.lhs)) ∧
      LSQSystem.solve exactSolver { overFactored with constraints := overSystem.constraints } =
        some (true, overSolved)) ∧
    ((∀ e ∈ overSystem.constraints, e.2.hard = true →
      evalMap (fun v => (overSolved.getResult v).getD 0) e.2.lhs = e.2.rhs) ∧
    ∀ y : Int → ℚ, (∀ e ∈ overSystem.constraints, e.2.hard = true →
        evalMap y e.2.lhs = e.2.rhs) →
      ((overSystem.constraints.filter (fun e => !e.2.hard)).map (fun e =>
        (evalMap (fun v => (overSolved.getResult v).getD 0) e.2.lhs - e.2.rhs) ^ 2)).sum ≤
      ((overSystem.constraints.filter (fun e => !e.2.hard)).map (fun e =>
        (evalMap y e.2.lhs - e.2.rhs) ^ 2)).sum) :=
  have hk : (mkeys overSystem.constraints).Nodup := by decide
  have hl : ∀ e ∈ overSystem.constraints, (mkeys e.2.lhs).Nodup := by decide
  have hf : overSystem.factor exactSolver = some (true, overFactored) :=
    eq_some_of_map_fst _ _ (by decide!)
  have hs : LSQSystem.solve exactSolver
      { overFactored with constraints := overSystem.constraints } =
      some (true, overSolved) := eq_some_of_map_fst _ _ (by decide!)
  ⟨⟨hk, hl, exactSolver_exact, hf, rfl, hs⟩,
    solve_minimises_soft_residuals exactSolver overSystem overFactored overSolved
      overSystem.constraints hk hl exactSolver_exact hf rfl hs⟩

theorem overSolved_values :
    overSolved.getResult 0 = some 1 ∧ overSolved.getResult 1 = some 1 := by
  constructor <;> decide!

/-! ### The built-in skeletons -/

/-- The passes of the loop of lines 74-78 do not depend on the length function: with
another one the loop ends after the same joints. -/
theorem chainLoop_shape (vlen vlen' : Vector3 → ℚ) (s : Skeleton) :
    ∀ (fuel : Nat) (cur : Int) (lengths lengths' : List (Int × ℚ)) (acc acc' : ℚ)
      (r' : List (Int × ℚ) × ℚ), mkeys lengths = mkeys lengths' →
      chainLoop vlen' s fuel cur lengths' acc' = some r' →
      ∃ r, chainLoop vlen s fuel cur lengths acc = some r ∧ mkeys r.1 = mkeys r'.1 := by
  intro fuel
  induction fuel with
  | zero => intro cur lengths lengths' acc acc' r' _ h; simp [chainLoop] at h
  | succ fuel ih =>
    intro cur lengths lengths' acc acc' r' hk h
    unfold chainLoop at h ⊢
    cases hp : idx? s.fPrevV cur with
    | none => simp [hp] at h
    | some p =>
      simp only [hp] at h ⊢
      cases ha : idx? s.fGraphV.verts cur with
      | none => simp [ha] at h
      | some a =>
        cases hb : idx? s.fGraphV.verts p with
        | none => simp [ha, hb] at h
        | some b =>
          simp only [ha, hb] at h ⊢
          cases hc : idx? s.fcMapV p with
          | none => simp [hc] at h
          | some c =>
            simp only [hc] at h ⊢
            have hk' : mkeys (minsert lengths cur (vlen (a.sub b))) =
                mkeys (minsert lengths' cur (vlen' (a.sub b))) := by
              simp only [minsert, mkeys, List.map_cons] at hk ⊢
              rw [hk]
            by_cases hc1 : c = -1
            · rw [if_pos hc1] at h ⊢
              exact ih p _ _ _ _ r' hk' h
            · rw [if_neg hc1] at h ⊢
              simp only [Option.some.injEq] at h
              exact ⟨_, rfl, by rw [← h]; exact hk'⟩

/-- The loop of lines 80-81 succeeds for the same joints whatever the lengths are. -/
theorem fractionLoop_shape (total total' : ℚ) :
    ∀ (lengths lengths' : List (Int × ℚ)) (fr fr' fr1' : List (Option ℚ)),
      mkeys lengths = mkeys lengths' → fr.length = fr'.length →
      fractionLoop total' lengths' fr' = some fr1' →
      ∃ fr1, fractionLoop total lengths fr = some fr1 ∧ fr1.length = fr1'.length := by
  intro lengths
  induction lengths with
  | nil =>
    intro lengths' fr fr' fr1' hk hl h
    cases lengths' with
    | nil =>
      simp only [fractionLoop, Option.some.injEq] at h
      exact ⟨fr, rfl, by rw [← h]; exact hl⟩
    | cons e rest => simp [mkeys] at hk
  | cons e rest ih =>
    intro lengths' fr fr' fr1' hk hl h
    cases lengths' with
    | nil => simp [mkeys] at hk
    | cons e' rest' =>
      obtain ⟨j, l⟩ := e
      obtain ⟨j', l'⟩ := e'
      simp only [mkeys, List.map_cons, List.cons.injEq] at hk
      obtain ⟨hj, hk⟩ := hk
      subst hj
      unfold fractionLoop at h ⊢
      cases hu' : upd? fr' j (if total' = 0 then none else some (l' / total')) with
      | none => simp [hu'] at h
      | some fr2' =>
        simp only [hu'] at h
        have hr := (upd?_eq_some _ _ _ _).1 hu'
        have hin : 0 ≤ j ∧ j.toNat < fr.length := by rw [hl]; exact hr.1
        have hu : upd? fr j (if total = 0 then none else some (l / total)) =
            some (fr.set j.toNat (if total = 0 then none else some (l / total))) := by
          unfold upd?
          rw [if_pos hin]
        simp only [hu]
        refine ih rest' _ fr2' fr1' hk ?_ h
        rw [List.length_set, hl, ← upd?_length _ _ _ _ hu']

/-- The loop of lines 71-82 succeeds whatever the length function is. -/
theorem lengthLoop_shape (vlen vlen' : Vector3 → ℚ) (s : Skeleton) (fuel : Nat) :
    ∀ (k i : Nat) (cl cl' : List ℚ) (fr fr' : List (Option ℚ))
      (r' : List ℚ × List (Option ℚ)), cl.length = cl'.length → fr.length = fr'.length →
      lengthLoop vlen' s fuel k i cl' fr' = some r' →
      ∃ r, lengthLoop vlen s fuel k i cl fr = some r := by
  intro k
  induction k with
  | zero => intro i cl cl' fr fr' r' _ _ _; exact ⟨_, rfl⟩
  | succ k ih =>
    intro i cl cl' fr fr' r' hcl hfr h
    unfold lengthLoop at h ⊢
    cases hcur : s.cfMapV[i]? with
    | none => simp [hcur] at h
    | some cur =>
      cases hl0' : cl'[i]? with
      | none => simp [hcur, hl0'] at h
      | some l0' =>
        have hi : i < cl.length := by
          rw [hcl]; exact (List.getElem?_eq_some.1 hl0').1
        have hl0 : cl[i]? = some cl[i] := List.getElem?_eq_getElem hi
        simp only [hcur, hl0', hl0] at h ⊢
        cases hch' : chainLoop vlen' s fuel cur [] l0' with
        | none => simp [hch'] at h
        | some c' =>
          obtain ⟨c, hch, hkeys⟩ := chainLoop_shape vlen vlen' s fuel cur [] [] cl[i] l0' c' rfl hch'
          obtain ⟨lengths', total'⟩ := c'
          obtain ⟨lengths, total⟩ := c
          simp only [hch', hch] at h ⊢
          cases hf' : fractionLoop total' lengths' fr' with
          | none => simp [hf'] at h
          | some fr1' =>
            obtain ⟨fr1, hf, hlen⟩ :=
              fractionLoop_shape total total' lengths lengths' fr fr' fr1' hkeys hfr hf'
            simp only [hf', hf] at h ⊢
            exact ih (i + 1) _ _ _ _ r' (by simp [hcl]) hlen h

/-- The skeleton `s` with other bone lengths and fractions. -/
theorem initCompressed_shape (vlen vlen' : Vector3 → ℚ) (fuel : Nat) (s s' : Skeleton)
    (h : s.initCompressed vlen' fuel = some s') :
    ∃ cl fr, s.initCompressed vlen fuel = some { s' with cLengthV := cl, fcFractionV := fr } := by
  unfold Skeleton.initCompressed at h ⊢
  cases hk : keepLoop s.fGraphV.edges s.fPrevV.length 0 (resize s.fcMapV s.fPrevV.length (-1))
      s.cfMapV with
  | none => simp [hk] at h
  | some km =>
    obtain ⟨fcMap, cfMap⟩ := km
    simp only [hk] at h ⊢
    cases hr : reducedLoop (s.withMaps fcMap cfMap) fuel cfMap.length 0 s.cGraphV.verts
        (resize s.cSymV cfMap.length (-1)) (resize s.cPrevV cfMap.length (-1)) with
    | none => simp [hr] at h
    | some rm =>
      obtain ⟨cverts, cSym, cPrev⟩ := rm
      simp only [hr] at h ⊢
      cases hg : graphLoop cPrev (cPrev.length - 1) 1 (resize s.cGraphV.edges cfMap.length []) with
      | none => simp [hg] at h
      | some cedges =>
        simp only [hg] at h ⊢
        cases hl' : lengthLoop vlen' ((s.withMaps fcMap cfMap).withReduced cverts cedges cSym cPrev)
            fuel (cPrev.length - 1) 1 (resize s.cLengthV cPrev.length 0)
            ((s.withMaps fcMap cfMap).withReduced cverts cedges cSym cPrev).fcFractionV with
        | none => simp [hl'] at h
        | some r' =>
          obtain ⟨r, hl⟩ := lengthLoop_shape vlen vlen' _ fuel _ _ _ _ _ _ r' rfl rfl hl'
          obtain ⟨cl', fr'⟩ := r'
          obtain ⟨cl, fr⟩ := r
          simp only [hl', hl, Option.some.injEq] at h ⊢
          exact ⟨cl, fr, by rw [← h]⟩

theorem setFoot_withLengths (s : Skeleton) (cl : List ℚ) (fr : List (Option ℚ)) (name : String) :
    (s.withLengths cl fr).setFoot name = (s.setFoot name).map (fun t => t.withLengths cl fr) := by
  unfold Skeleton.setFoot Skeleton.withLengths
  dsimp only
  cases idx? s.fcMapV (nameIndex s.jointNames name).1 with
  | none => rfl
  | some c =>
    dsimp only
    cases upd? s.cFeetV c true with
    | none => rfl
    | some f => rfl

theorem setFat_withLengths (s : Skeleton) (cl : List ℚ) (fr : List (Option ℚ)) (name : String) :
    (s.withLengths cl fr).setFat name = (s.setFat name).map (fun t => t.withLengths cl fr) := by
  unfold Skeleton.setFat Skeleton.withLengths
  dsimp only
  cases idx? s.fcMapV (nameIndex s.jointNames name).1 with
  | none => rfl
  | some c =>
    dsimp only
    cases upd? s.cFatV c true with
    | none => rfl
    | some f => rfl

theorem setFeet_withLengths (cl : List ℚ) (fr : List (Option ℚ)) :
    ∀ (names : List String) (s : Skeleton),
      setFeet names (s.withLengths cl fr) = (setFeet names s).map (fun t => t.withLengths cl fr) := by
  intro names
  induction names with
  | nil => intro s; rfl
  | cons name rest ih =>
    intro s
    unfold setFeet
    rw [setFoot_withLengths]
    cases s.setFoot name with
    | none => rfl
    | some s' => exact ih s'

theorem setFats_withLengths (cl : List ℚ) (fr : List (Option ℚ)) :
    ∀ (names : List String) (s : Skeleton),
      setFats names (s.withLengths cl fr) = (setFats names s).map (fun t => t.withLengths cl fr) := by
  intro names
  induction names with
  | nil => intro s; rfl
  | cons name rest ih =>
    intro s
    unfold setFats
    rw [setFat_withLengths]
    cases s.setFat name with
    | none => rfl
    | some s' => exact ih s'

/-- A built-in skeleton is built whatever the length function is, and only the bone
lengths and fractions depend on it. -/
theorem builtinSkeleton_shape (vlen vlen' : Vector3 → ℚ) (joints : List JointCall)
    (symmetric : List (String × String)) (feet fat : List String) (s' : Skeleton)
    (h : builtinSkeleton vlen' joints symmetric feet fat = some s') :
    ∃ cl fr, builtinSkeleton vlen joints symmetric feet fat = some (s'.withLengths cl fr) := by
  unfold builtinSkeleton at h ⊢
  cases hb : buildJoints joints {} with
  | none => simp [hb] at h
  | some s1 =>
    simp only [hb] at h ⊢
    cases hm : makeSymmetrics symmetric s1 with
    | none => simp [hm] at h
    | some s2 =>
      simp only [hm] at h ⊢
      cases hi' : s2.initCompressed vlen' joints.length with
      | none => simp [hi'] at h
      | some s3 =>
        obtain ⟨cl, fr, hi⟩ := initCompressed_shape vlen vlen' joints.length s2 s3 hi'
        simp only [hi', hi] at h ⊢
        refine ⟨cl, fr, ?_⟩
        have e : ({ s3 with cLengthV := cl, fcFractionV := fr } : Skeleton) = s3.withLengths cl fr := rfl
        rw [e, setFeet_withLengths]
        cases hf : setFeet feet s3 with
        | none => simp [hf] at h
        | some s4 =>
          simp only [hf, Option.map_some'] at h ⊢
          rw [setFats_withLengths, h]
          rfl

theorem eq_some_getD {α : Type} (x : Option α) (d : α) (h : x.isSome = true) :
    x = some (x.getD d) := by
  cases x with
  | none => simp at h
  | some a => rfl

/-- The rows of skeleton.out: one per joint, with its index, the coordinates mapped back
and its parent. -/
theorem skeletonOutRows_spec (m : Mesh) (fPrev : List Int) :
    ∀ (embedding : List Vector3) (i : Nat), i + embedding.length ≤ fPrev.length →
      ∃ rows, skeletonOutRows m fPrev i embedding = some rows ∧
        rows.map (fun r => r.1) = List.range' i embedding.length ∧
        rows.map (fun r => r.2.1) = embedding.map (fun e => (e.sub m.toAdd).div? m.scale) ∧
        rows.map (fun r => r.2.2) = (fPrev.drop i).take embedding.length := by
  intro embedding
  induction embedding with
  | nil => intro i _; exact ⟨[], rfl, rfl, rfl, by simp⟩
  | cons e rest ih =>
    intro i hi
    simp only [List.length_cons] at hi
    have hlt : i < fPrev.length := by omega
    obtain ⟨rows, hr, h1, h2, h3⟩ := ih (i + 1) (by omega)
    refine ⟨(i, (e.sub m.toAdd).div? m.scale, fPrev[i]) :: rows, ?_, ?_, ?_, ?_⟩
    · unfold skeletonOutRows
      rw [List.getElem?_eq_getElem hlt]
      simp only [hr]
    · simp only [List.map_cons, List.length_cons, List.range'_succ, h1]
    · simp only [List.map_cons, h2]
    · simp only [List.map_cons, h3, List.length_cons]
      rw [List.drop_eq_getElem_cons hlt, List.take_succ_cons]

theorem humanParents_facts :
    (∀ j : Nat, ([-1, 0, 1, 0, 2, 4, 5, 6, 2, 8, 9, 10, 0, 12, 13, 0, 15, 16] : List Int)[j]? =
        some (-1) ↔ j = 0) ∧
    (∀ (j : Nat) (p : Int), 1 ≤ j →
      ([-1, 0, 1, 0, 2, 4, 5, 6, 2, 8, 9, 10, 0, 12, 13, 0, 15, 16] : List Int)[j]? = some p →
        0 ≤ p ∧ p < (j : Int)) := by
  constructor
  · intro j
    constructor
    · intro h
      have hj : j < 18 := (List.getElem?_eq_some.1 h).1
      interval_cases j <;> simp at h ⊢
    · rintro rfl
      rfl
  · intro j p hj h
    have hj : j < 18 := (List.getElem?_eq_some.1 h).1
    interval_cases j <;> simp at h <;> subst h <;> omega

/-- C29: the built-in human skeleton is built, whatever the length function is; it has 18
full joints; joint 0 is the only joint with parent -1 and every other joint has a parent
with a smaller index; and the parents in the rows of skeleton.out are
`[-1,0,1,0,2,4,5,6,2,8,9,10,0,12,13,0,15,16]`. -/
theorem humanSkeleton_parents (vlen : Vector3 → ℚ) (m : Mesh) :
    ∃ s rows, HumanSkeleton vlen = some s ∧ s.fGraphV.verts.length = 18 ∧
      s.fPrevV = [-1, 0, 1, 0, 2, 4, 5, 6, 2, 8, 9, 10, 0, 12, 13, 0, 15, 16] ∧
      (∀ j : Nat, s.fPrevV[j]? = some (-1) ↔ j = 0) ∧
      (∀ (j : Nat) (p : Int), 1 ≤ j → s.fPrevV[j]? = some p → 0 ≤ p ∧ p < (j : Int)) ∧
      skeletonOutRows m s.fPrevV 0 (nofitEmbedding m s) = some rows ∧
      rows.map (fun r => r.2.2) = [-1, 0, 1, 0, 2, 4, 5, 6, 2, 8, 9, 10, 0, 12, 13, 0, 15, 16] := by
  have h0 : HumanSkeleton absLength = some ((HumanSkeleton absLength).getD {}) :=
    eq_some_getD _ _ (by decide!)
  obtain ⟨cl, fr, hs⟩ := builtinSkeleton_shape vlen absLength _ _ _ _ _ h0
  have hv : (((HumanSkeleton absLength).getD {}).withLengths cl fr).fGraphV.verts.length = 18 :=
    show ((HumanSkeleton absLength).getD {}).fGraphV.verts.length = 18 by decide!
  have hp : (((HumanSkeleton absLength).getD {}).withLengths cl fr).fPrevV =
      [-1, 0, 1, 0, 2, 4, 5, 6, 2, 8, 9, 10, 0, 12, 13, 0, 15, 16] :=
    show ((HumanSkeleton absLength).getD {}).fPrevV = _ by decide!
  clear h0
  generalize ((HumanSkeleton absLength).getD {}).withLengths cl fr = s at hs hv hp
  obtain ⟨rows, hr, -, -, h3⟩ := skeletonOutRows_spec m s.fPrevV (nofitEmbedding m s) 0
    (by simp only [nofitEmbedding, List.length_map, hv, hp]; decide)
  refine ⟨s, rows, hs, hv, hp, ?_, ?_, hr, ?_⟩
  · rw [hp]; exact humanParents_facts.1
  · rw [hp]; exact humanParents_facts.2
  · rw [h3, hp]
    simp only [nofitEmbedding, List.length_map, hv]
    rfl

/-- C39: the centaur skeleton is built, whatever the length function is, and in it
`getJointForName` gives the index 0 for the names "lhheel" and "rhheel", which no
`makeJoint` call of the constructor has: `makeSymmetric("lhheel", "rhheel")` reads
`jointNames` at both names and inserts them. -/
theorem centaur_unmade_joint_has_index (vlen : Vector3 → ℚ) :
    ∃ s, CentaurSkeleton vlen = some s ∧ "lhheel" ∉ jointCallNames centaurJoints ∧
      "rhheel" ∉ jointCallNames centaurJoints ∧
      s.getJointForName "lhheel" = 0 ∧ s.getJointForName "rhheel" = 0 := by
  have h0 : CentaurSkeleton absLength = some ((CentaurSkeleton absLength).getD {}) :=
    eq_some_getD _ _ (by decide!)
  obtain ⟨cl, fr, hs⟩ := builtinSkeleton_shape vlen absLength _ _ _ _ _ h0
  refine ⟨_, hs, by decide, by decide, ?_, ?_⟩
  · show ((CentaurSkeleton absLength).getD {}).getJointForName "lhheel" = 0
    decide!
  · show ((CentaurSkeleton absLength).getD {}).getJointForName "rhheel" = 0
    decide!

theorem div?_sub_affine (t v : Vector3) (c : ℚ) (hc : c ≠ 0) :
    ((t.add (Vector3.smul c v)).sub t).div? c = some v := by
  obtain ⟨x, y, z⟩ := v
  simp only [Vector3.div?, if_neg hc, Vector3.add, Vector3.sub, Vector3.smul, Option.some.injEq,
    Prod.mk.injEq]
  refine ⟨?_, ?_, ?_⟩ <;> field_simp

/-- C30: without fitting every joint is embedded at `toAdd + scale * template position`,
and the coordinates in the rows of skeleton.out are the template positions again, when the
scale of the mesh is not zero. -/
theorem nofit_output_is_template (m : Mesh) (skeleton : Skeleton) (hs : m.scale ≠ 0)
    (hl : skeleton.fPrevV.length = skeleton.fGraphV.verts.length) :
    (∀ (i : Nat) (v : Vector3), skeleton.fGraphV.verts[i]? = some v →
      (nofitEmbedding m skeleton)[i]? = some (m.toAdd.add (Vector3.smul m.scale v))) ∧
    ∃ rows, skeletonOutRows m skeleton.fPrevV 0 (nofitEmbedding m skeleton) = some rows ∧
      rows.map (fun r => r.1) = List.range skeleton.fGraphV.verts.length ∧
      rows.map (fun r => r.2.1) = skeleton.fGraphV.verts.map some := by
  constructor
  · intro i v hv
    simp only [nofitEmbedding, List.getElem?_map, hv, Option.map_some']
  · obtain ⟨rows, hr, h1, h2, -⟩ := skeletonOutRows_spec m skeleton.fPrevV
      (nofitEmbedding m skeleton) 0 (by simp [nofitEmbedding, hl])
    refine ⟨rows, hr, ?_, ?_⟩
    · rw [h1, List.range_eq_range']
      simp [nofitEmbedding]
    · rw [h2]
      simp only [nofitEmbedding, List.map_map]
      apply List.map_congr_left
      intro v _
      exact div?_sub_affine m.toAdd v m.scale hs

theorem nofit_output_is_template_witness :
    scaledTetra.scale ≠ 0 ∧ sampleSkeleton.fPrevV.length = sampleSkeleton.fGraphV.verts.length ∧
    ((∀ (i : Nat) (v : Vector3), sampleSkeleton.fGraphV.verts[i]? = some v →
      (nofitEmbedding scaledTetra sampleSkeleton)[i]? =
        some (scaledTetra.toAdd.add (Vector3.smul scaledTetra.scale v))) ∧
    ∃ rows, skeletonOutRows scaledTetra sampleSkeleton.fPrevV 0
        (nofitEmbedding scaledTetra sampleSkeleton) = some rows ∧
      rows.map (fun r => r.1) = List.range sampleSkeleton.fGraphV.verts.length ∧
      rows.map (fun r => r.2.1) = sampleSkeleton.fGraphV.verts.map some) :=
  ⟨by decide!, by decide, nofit_output_is_template scaledTetra sampleSkeleton (by decide!) (by decide)⟩

/-! ### Transform::inverse -/

/-- The inverse of a unit quaternion undoes its rotation, on both sides. -/
theorem Quaternion.inverse_apply (q : Quaternion) (hq : q.isUnit) (p : Vector3) :
    q.inverse.apply (q.apply p) = p ∧ q.apply (q.inverse.apply p) = p := by
  obtain ⟨r, x, y, z⟩ := q
  obtain ⟨a, b, c⟩ := p
  simp only [Quaternion.isUnit, Vector3.dot] at hq
  simp only [Quaternion.apply, Quaternion.inverse, Vector3.add, Vector3.smul, Prod.mk.injEq]
  refine ⟨⟨?_, ?_, ?_⟩, ⟨?_, ?_, ?_⟩⟩
  · linear_combination (-4 * (x * (x * a + y * b + z * c) - a * (x * x + y * y + z * z))) * hq
  · linear_combination (-4 * (y * (x * a + y * b + z * c) - b * (x * x + y * y + z * z))) * hq
  · linear_combination (-4 * (z * (x * a + y * b + z * c) - c * (x * x + y * y + z * z))) * hq
  · linear_combination (-4 * (x * (x * a + y * b + z * c) - a * (x * x + y * y + z * z))) * hq
  · linear_combination (-4 * (y * (x * a + y * b + z * c) - b * (x * x + y * y + z * z))) * hq
  · linear_combination (-4 * (z * (x * a + y * b + z * c) - c * (x * x + y * y + z * z))) * hq

/-- C40: for a transform whose rotation is a unit quaternion and whose scale is not zero,
`inverse` gives a transform that undoes it on both sides:
`T.inverse() * (T * v) = v` and `T * (T.inverse() * v) = v` for every vector `v`. -/
theorem transform_inverse_apply (t : Transform) (v : Vector3) (hq : t.rot.isUnit)
    (hs : t.scale ≠ 0) :
    ∃ ti, t.inverse = some ti ∧ ti.apply (t.apply v) = v ∧ t.apply (ti.apply v) = v := by
  refine ⟨⟨t.rot.inverse, 1 / t.scale, Vector3.smul (1 / t.scale) (t.rot.inverse.apply t.trans.neg)⟩,
    by simp [Transform.inverse, hs], ?_, ?_⟩
  · have h := (Quaternion.inverse_apply t.rot hq v).1
    have e : Transform.apply ⟨t.rot.inverse, 1 / t.scale,
          Vector3.smul (1 / t.scale) (t.rot.inverse.apply t.trans.neg)⟩ (t.apply v) =
        t.rot.inverse.apply (t.rot.apply v) := by
      obtain ⟨⟨r, x, y, z⟩, s, t1, t2, t3⟩ := t
      obtain ⟨a, b, c⟩ := v
      simp only [Transform.apply, Quaternion.apply, Quaternion.inverse, Vector3.add,
        Vector3.smul, Vector3.neg, Prod.mk.injEq]
      simp only at hs
      refine ⟨?_, ?_, ?_⟩ <;> field_simp <;> ring
    rw [e, h]
  · have h := (Quaternion.inverse_apply t.rot hq v).2
    have e : t.apply (Transform.apply ⟨t.rot.inverse, 1 / t.scale,
          Vector3.smul (1 / t.scale) (t.rot.inverse.apply t.trans.neg)⟩ v) =
        (t.rot.apply (t.rot.inverse.apply v)).add
          (t.trans.sub (t.rot.apply (t.rot.inverse.apply t.trans))) := by
      obtain ⟨⟨r, x, y, z⟩, s, t1, t2, t3⟩ := t
      obtain ⟨a, b, c⟩ := v
      simp only [Transform.apply, Quaternion.apply, Quaternion.inverse, Vector3.add,
        Vector3.smul, Vector3.neg, Vector3.sub, Prod.mk.injEq]
      simp only at hs
      refine ⟨?_, ?_, ?_⟩ <;> field_simp <;> ring
    rw [e, h, (Quaternion.inverse_apply t.rot hq t.trans).2]
    obtain ⟨a, b, c⟩ := v
    simp [Vector3.add, Vector3.sub]

/-- C40, instance: a rotation about the first axis with scale 2 and a translation. -/
theorem transform_inverse_apply_witness :
    sampleTransformA.rot.isUnit ∧ sampleTransformA.scale ≠ 0 ∧
    ∃ ti, sampleTransformA.inverse = some ti ∧
      ti.apply (sampleTransformA.apply (1, 2, 3)) = (1, 2, 3) ∧
      sampleTransformA.apply (ti.apply (1, 2, 3)) = (1, 2, 3) :=
  have ha : sampleTransformA.rot.isUnit := by
    norm_num [sampleTransformA, Quaternion.isUnit, Vector3.dot]
  have hs : sampleTransformA.scale ≠ 0 := by norm_num [sampleTransformA]
  ⟨ha, hs, transform_inverse_apply sampleTransformA (1, 2, 3) ha hs⟩

/-! ### Deformation after a failed factorisation -/

/-- C25, the code against the claim: when `Am.factor()` gives no factor, the constructor
returns with `weights` and `nzweights` resized to the vertex count and no stored pair, and
`deform` on the mesh the attachment was built for does not return the input positions: it
passes the size test and sets every vertex position to the empty sum `(0, 0, 0)`. -/
theorem deform_after_failed_factor_collapses (vnormalize : Vector3 → Vector3) (nv bones : Nat)
    (solved : Nat → Nat → ℚ) (a : Attachment) (mesh : Mesh) (transforms : List Transform)
    (hb : Attachment.build nv bones false solved = some a) (hn : mesh.vertices.length = nv)
    (h3 : mesh.edges.length % 3 = 0) (hv : verticesInRange mesh) :
    ∃ out, Attachment.deform vnormalize a mesh transforms = some out ∧
      out.vertices.length = mesh.vertices.length ∧ ∀ v ∈ out.vertices, v.pos = (0, 0, 0) := by
  subst hn
  have ha : a = { weights := List.replicate mesh.vertices.length (List.replicate bones (0 : ℚ)),
                  nzweights := List.replicate mesh.vertices.length ([] : List (Int × ℚ)) } := by
    unfold Attachment.build at hb
    split at hb
    · simp at hb
    · simpa using hb.symm
  subst ha
  obtain ⟨out, ho, hl, hs⟩ := deform_spec vnormalize
    { weights := List.replicate mesh.vertices.length (List.replicate bones (0 : ℚ)),
      nzweights := List.replicate mesh.vertices.length ([] : List (Int × ℚ)) } mesh transforms
    (by simp) (by simp)
    (by
      intro nz hnz p hp
      rw [List.eq_of_mem_replicate hnz] at hp
      simp at hp) h3 hv
  refine ⟨out, ho, hl, ?_⟩
  intro v hvm
  obtain ⟨i, hi, rfl⟩ := List.getElem_of_mem hvm
  have hi' : i < mesh.vertices.length := by omega
  obtain ⟨v', hv', hp⟩ := hs i mesh.vertices[i] [] (List.getElem?_eq_getElem hi')
    (by simp only [List.getElem?_replicate]; rw [if_pos hi'])
  rw [List.getElem?_eq_getElem hi, Option.some.injEq] at hv'
  rw [hv', hp]
  rfl

/-- C25, failing input: the tetrahedron with an attachment to one bone whose
factorisation failed; the vertices at `(1, 0, 0)`, `(0, 1, 0)` and `(0, 0, 1)` move to the
origin. -/
theorem deform_after_failed_factor_collapses_witness :
    Attachment.build 4 1 false zeroOutputs = some unfactoredAttachment ∧
    tetraMesh.vertices.length = 4 ∧ tetraMesh.edges.length % 3 = 0 ∧ verticesInRange tetraMesh ∧
    tetraMesh.positions = [(0, 0, 0), (1, 0, 0), (0, 1, 0), (0, 0, 1)] ∧
    ∃ out, Attachment.deform id unfactoredAttachment tetraMesh [{}] = some out ∧
      out.vertices.length = tetraMesh.vertices.length ∧ ∀ v ∈ out.vertices, v.pos = (0, 0, 0) :=
  ⟨by decide!, by decide, by decide, by decide, by decide!,
    deform_after_failed_factor_collapses id 4 1 zeroOutputs unfactoredAttachment tetraMesh [{}]
      (by decide!)
      (by decide) (by decide) (by decide)⟩

/-! ### LSQSystem: the pivot search -/

/-- One row of the pivot search: without the early exit the result is at least the best
value before the row and at least the value of every entry of the row; the early exit
happens at an entry of a row with at most two entries whose value exceeds one half and the
best value before the row. -/
theorem pivotRow_max {V : Type} (i size : Nat) (row : List (V × ℚ)) (best : Pivot V) :
    ((pivotRow i size row best).2 = false →
      best.bestVal ≤ (pivotRow i size row best).1.bestVal ∧
        ∀ e ∈ row, pivotVal e.2 size ≤ (pivotRow i size row best).1.bestVal) ∧
    ((pivotRow i size row best).2 = true →
      best.bestVal < (pivotRow i size row best).1.bestVal ∧
        1 / 2 < (pivotRow i size row best).1.bestVal ∧ size ≤ 2 ∧
        (pivotRow i size row best).1.bestEq = (i : Int)) := by
  induction row generalizing best with
  | nil => exact ⟨fun _ => ⟨le_refl _, fun e he => by simp at he⟩, fun h => by simp [pivotRow] at h⟩
  | cons e rest ih =>
    obtain ⟨v, c⟩ := e
    simp only [pivotRow]
    by_cases h1 : |c| / ((size : ℚ) - 9 / 10) > best.bestVal
    · rw [if_pos h1]
      by_cases h2 : |c| / ((size : ℚ) - 9 / 10) > 1 / 2 ∧ size ≤ 2
      · rw [if_pos h2]
        exact ⟨fun h => by simp at h, fun _ => ⟨h1, h2.1, h2.2, rfl⟩⟩
      · rw [if_neg h2]
        obtain ⟨ih1, ih2⟩ := ih ⟨v, i, |c| / ((size : ℚ) - 9 / 10)⟩
        refine ⟨fun h => ?_, fun h => ?_⟩
        · obtain ⟨a1, a2⟩ := ih1 h
          refine ⟨le_trans (le_of_lt h1) a1, ?_⟩
          intro e he
          rcases List.mem_cons.1 he with rfl | he
          · exact a1
          · exact a2 e he
        · obtain ⟨a1, a2⟩ := ih2 h
          exact ⟨lt_trans h1 a1, a2⟩
    · rw [if_neg h1]
      obtain ⟨ih1, ih2⟩ := ih best
      refine ⟨fun h => ?_, ih2⟩
      obtain ⟨a1, a2⟩ := ih1 h
      refine ⟨a1, ?_⟩
      intro e he
      rcases List.mem_cons.1 he with rfl | he
      · exact le_trans (not_lt.1 h1) a1
      · exact a2 e he

/-- The pivot search either scans all hard constraints and ends with the largest value,
or it leaves at a row with at most two entries, with a value above one half that exceeds
the value of every entry of the rows before. -/
theorem pivotSearch_max {V : Type} (i0 : Nat) (H : List (List (V × ℚ))) (best : Pivot V) :
    (best.bestVal ≤ (pivotSearch i0 H best).bestVal ∧
      ∀ row ∈ H, ∀ e ∈ row, pivotVal e.2 row.length ≤ (pivotSearch i0 H best).bestVal) ∨
    (∃ (j : Nat) (row : List (V × ℚ)), H[j]? = some row ∧ row.length ≤ 2 ∧
      (pivotSearch i0 H best).bestEq = ((i0 + j : Nat) : Int) ∧
      1 / 2 < (pivotSearch i0 H best).bestVal ∧ best.bestVal < (pivotSearch i0 H best).bestVal ∧
      ∀ (j' : Nat) (row' : List (V × ℚ)), j' < j → H[j']? = some row' →
        ∀ e ∈ row', pivotVal e.2 row'.length < (pivotSearch i0 H best).bestVal) := by
  induction H generalizing i0 best with
  | nil => exact Or.inl ⟨le_refl _, fun row hr => by simp at hr⟩
  | cons h hs ih =>
    simp only [pivotSearch]
    have hrow := pivotRow_max i0 h.length h best
    rcases hp : pivotRow i0 h.length h best with ⟨b1, brk⟩
    rw [hp] at hrow
    dsimp only at hrow
    cases brk with
    | true =>
      dsimp only
      obtain ⟨a1, a2, a3, a4⟩ := hrow.2 rfl
      exact Or.inr ⟨0, h, by simp, a3, by simpa using a4, a2, a1, fun j' row' hj' => by omega⟩
    | false =>
      dsimp only
      obtain ⟨a1, a2⟩ := hrow.1 rfl
      rcases ih (i0 + 1) b1 with ⟨c1, c2⟩ | ⟨j, row, c1, c2, c6, c3, c4, c5⟩
      · refine Or.inl ⟨le_trans a1 c1, ?_⟩
        intro row hr e he
        rcases List.mem_cons.1 hr with rfl | hr
        · exact le_trans (a2 e he) c1
        · exact c2 row hr e he
      · refine Or.inr ⟨j + 1, row, by simpa using c1, c2, by rw [c6]; congr 1; omega, c3,
          lt_of_le_of_lt a1 c4, ?_⟩
        intro j' row' hj' hr' e he
        cases j' with
        | zero =>
          simp only [List.getElem?_cons_zero, Option.some.injEq] at hr'
          subst hr'
          exact lt_of_le_of_lt (a2 e he) c4
        | succ j' =>
          simp only [List.getElem?_cons_succ] at hr'
          exact c5 j' row' (by omega) hr' e he

/-- C31, the claim as written fails: for the hard constraints `x + y = 0` and `100 z = 1`
the pivot search stops at the first entry of the first constraint, with the value `10/11`,
though the entry of `z` in the second constraint has the value `1000`. -/
theorem pivotSearch_stops_before_maximum :
    earlyExitSystem.reductionStart.hardConstraints = [[(0, 1), (1, 1)], [(2, 100)]] ∧
    (pivotSearch 0 earlyExitSystem.reductionStart.hardConstraints ⟨default, -1, 0⟩).bestVar = 0 ∧
    (pivotSearch 0 earlyExitSystem.reductionStart.hardConstraints ⟨default, -1, 0⟩).bestEq = 0 ∧
    (pivotSearch 0 earlyExitSystem.reductionStart.hardConstraints ⟨default, -1, 0⟩).bestVal =
      10 / 11 ∧
    pivotVal 100 1 = 1000 := by
  refine ⟨by decide!, by decide!, by decide!, by decide!, ?_⟩
  norm_num [pivotVal]

/-- C31, amended: the pivot search of a round either finds nothing (no entry has a
positive value), or it chooses an entry `(bestVar, c)` of the hard constraint `bestEq` with
the value `|c| / (rowLength - 0.9)`; this value is the largest of all entries, unless the
search has left early at a constraint with at most two entries and a value above one
half: then it exceeds the value of every entry of the constraints before `bestEq`. -/
theorem pivotSearch_maximal_or_early {V : Type} [Inhabited V] (H : List (List (V × ℚ))) :
    ((pivotSearch 0 H ⟨default, -1, 0⟩).bestEq = -1 ∧
      (pivotSearch 0 H ⟨default, -1, 0⟩).bestVal = 0 ∧
      ∀ row ∈ H, ∀ e ∈ row, pivotVal e.2 row.length ≤ 0) ∨
    ∃ (j : Nat) (row : List (V × ℚ)) (c : ℚ), H[j]? = some row ∧
      (pivotSearch 0 H ⟨default, -1, 0⟩).bestEq = (j : Int) ∧
      ((pivotSearch 0 H ⟨default, -1, 0⟩).bestVar, c) ∈ row ∧
      (pivotSearch 0 H ⟨default, -1, 0⟩).bestVal = pivotVal c row.length ∧
      ((∀ row' ∈ H, ∀ e ∈ row', pivotVal e.2 row'.length ≤
          (pivotSearch 0 H ⟨default, -1, 0⟩).bestVal) ∨
        (1 / 2 < (pivotSearch 0 H ⟨default, -1, 0⟩).bestVal ∧ row.length ≤ 2 ∧
          ∀ (j' : Nat) (row' : List (V × ℚ)), j' < j → H[j']? = some row' →
            ∀ e ∈ row', pivotVal e.2 row'.length <
              (pivotSearch 0 H ⟨default, -1, 0⟩).bestVal)) := by
  rcases pivotSearch_spec 0 H ⟨default, -1, 0⟩ with e | ⟨j, row, c, hj, he, hmem, hval⟩
  · left
    rcases pivotSearch_max 0 H ⟨default, -1, 0⟩ with ⟨_, c2⟩ | ⟨j, row, _, _, _, _, c4, _⟩
    · rw [e] at c2 ⊢
      exact ⟨rfl, rfl, c2⟩
    · rw [e] at c4
      exact absurd c4 (lt_irrefl _)
  · right
    simp only [Nat.zero_add] at he
    refine ⟨j, row, c, hj, he, hmem, hval, ?_⟩
    rcases pivotSearch_max 0 H ⟨default, -1, 0⟩ with ⟨_, c2⟩ | ⟨j2, row2, d1, d2, d6, d3, d4, d5⟩
    · exact Or.inl c2
    · right
      simp only [Nat.zero_add] at d6
      have hjj : j2 = j := by
        rw [he] at d6
        exact_mod_cast d6.symm
      subst hjj
      rw [hj, Option.some.injEq] at d1
      subst d1
      exact ⟨d3, d2, d5⟩

/-! ### LSQSystem: the rounds of the row reduction -/

theorem substituteHard_length {V C : Type} [LinearOrder V] [LinearOrder C] (b : V)
    (cs : List (V × ℚ)) (cr : List ((C × Int) × ℚ)) :
    ∀ (H : List (List (V × ℚ))) (HR : List (List ((C × Int) × ℚ)))
      (r : List (List (V × ℚ)) × List (List ((C × Int) × ℚ))),
      substituteHard b cs cr H HR = some r → r.1.length = H.length := by
  intro H
  induction H with
  | nil =>
    intro HR r h
    simp only [substituteHard, Option.some.injEq] at h
    rw [← h]
  | cons h0 hs ih =>
    intro HR r h
    cases HR with
    | nil => simp [substituteHard] at h
    | cons r0 rs =>
      simp only [substituteHard] at h
      cases hrec : substituteHard b cs cr hs rs with
      | none => simp [hrec] at h
      | some p =>
        obtain ⟨hs', rs'⟩ := p
        have hl := ih rs (hs', rs') hrec
        simp only [hrec] at h
        cases hm : mfind h0 b with
        | none =>
          simp only [hm, Option.some.injEq] at h
          rw [← h]
          simpa using hl
        | some w =>
          simp only [hm, Option.some.injEq] at h
          rw [← h]
          simpa using hl

/-- A pass of the loop that does not return takes one hard constraint out. -/
theorem reduceStep_length {V C : Type} [LinearOrder V] [LinearOrder C] [Inhabited V]
    (softNum : Int) (st st' : Reduction V C) (hs : reduceStep softNum st = some (true, st')) :
    st'.hardConstraints.length + 1 = st.hardConstraints.length := by
  unfold reduceStep at hs
  dsimp only at hs
  split at hs
  · simp at hs
  · split at hs
    · rename_i back backId backRhs hback hid hrhs
      split at hs
      · simp at hs
      · rename_i hc hr hsub
        split at hs
        · simp at hs
        · simp only [Option.some.injEq, Prod.mk.injEq, true_and] at hs
          rw [← hs]
          dsimp only
          have hl := substituteHard_length _ _ _ _ _ _ hsub
          dsimp only at hl
          rw [hl]
          obtain ⟨h0, h1⟩ := (idx?_eq_some _ _ _).1 hback
          exact swapPop_length _ _ (List.getElem?_eq_some.1 h1).1
    · simp at hs

/-- After `k` passes `k` hard constraints are out. -/
theorem roundState_length {V C : Type} [LinearOrder V] [LinearOrder C] [Inhabited V]
    (softNum : Int) :
    ∀ (k : Nat) (st0 st : Reduction V C), roundState softNum k st0 = some st →
      st.hardConstraints.length + k = st0.hardConstraints.length := by
  intro k
  induction k with
  | zero =>
    intro st0 st h
    simp only [roundState, Option.some.injEq] at h
    rw [h]
    rfl
  | succ k ih =>
    intro st0 st h
    unfold roundState at h
    split at h
    · simp at h
    · split at h
      · rename_i st1 hstep
        have := ih st1 st h
        have := reduceStep_length softNum st0 st1 hstep
        omega
      · simp at h

/-- The loop goes through the states of its rounds. -/
theorem reduceLoop_round {V C : Type} [LinearOrder V] [LinearOrder C] [Inhabited V]
    (softNum : Int) :
    ∀ (k : Nat) (st0 st : Reduction V C), roundState softNum k st0 = some st →
      ∀ fuel : Nat, reduceLoop softNum (fuel + k) st0 = reduceLoop softNum fuel st := by
  intro k
  induction k with
  | zero =>
    intro st0 st h fuel
    simp only [roundState, Option.some.injEq] at h
    rw [h]
    rfl
  | succ k ih =>
    intro st0 st h fuel
    unfold roundState at h
    split at h
    · simp at h
    · rename_i x xs hH
      split at h
      · rename_i st1 hstep
        rw [show fuel + (k + 1) = (fuel + k) + 1 by omega]
        conv_lhs => unfold reduceLoop
        rw [hH]
        simp only [hstep]
        exact ih st1 st h fuel
      · simp at h

/-- A round whose pivot value is below `1e-10` makes the loop return false. -/
theorem reduceLoop_small_pivot {V C : Type} [LinearOrder V] [LinearOrder C] [Inhabited V]
    (softNum : Int) (k : Nat) (st0 st : Reduction V C)
    (hr : roundState softNum k st0 = some st) (hne : st.hardConstraints ≠ [])
    (hv : (pivotSearch 0 st.hardConstraints ⟨default, -1, 0⟩).bestVal < 1 / 10000000000) :
    reduceLoop softNum st0.hardConstraints.length st0 = some (false, st) := by
  have hlen := roundState_length softNum k st0 st hr
  obtain ⟨n, hn⟩ : ∃ n, st.hardConstraints.length = n + 1 := by
    cases h : st.hardConstraints with
    | nil => exact absurd h hne
    | cons x xs => exact ⟨xs.length, rfl⟩
  rw [← hlen, hn, reduceLoop_round softNum k st0 st hr (n + 1)]
  unfold reduceLoop
  cases h : st.hardConstraints with
  | nil => exact absurd h hne
  | cons x xs =>
    dsimp only
    have hstep : reduceStep softNum st = some (false, st) := by
      unfold reduceStep
      dsimp only
      rw [if_pos hv]
    rw [hstep]

/-- C32, the claim as written fails: the hard constraint `c x = 1` with `c = 5e-11` has a
pivot coefficient below `1e-10`, but its pivot value `c / (1 - 0.9) = 5e-10` passes the
test `bestVal < 1e-10`, and `factor` returns true (with the soft constraint `y = 0`). -/
theorem factor_accepts_tiny_coefficient :
    tinyPivotSystem.reductionStart.hardConstraints = [[(0, 1 / 20000000000)]] ∧
    (pivotSearch 0 tinyPivotSystem.reductionStart.hardConstraints ⟨default, -1, 0⟩).bestVar = 0 ∧
    (pivotSearch 0 tinyPivotSystem.reductionStart.hardConstraints ⟨default, -1, 0⟩).bestEq = 0 ∧
    |(1 : ℚ) / 20000000000| < 1 / 10000000000 ∧
    (tinyPivotSystem.factor exactSolver).map (fun r => r.1) = some true := by
  refine ⟨by decide!, by decide!, by decide!, ?_, by decide!⟩
  norm_num [abs_of_pos]

/-- C32, amended: if in some round of the loop `while(hardConstraints.size())` the value
`|coef| / (rowLength - 0.9)` of the chosen pivot is below `1e-10`, then `factor` returns
false. -/
theorem factor_false_on_small_pivot {V C LLT : Type} [LinearOrder V] [LinearOrder C]
    [Inhabited V] (solver : SPDSolver LLT) (s : LSQSystem V C LLT) (k : Nat)
    (st : Reduction V C)
    (hr : roundState (softIndices s.constraints [] 0).2 k s.reductionStart = some st)
    (hne : st.hardConstraints ≠ [])
    (hv : (pivotSearch 0 st.hardConstraints ⟨default, -1, 0⟩).bestVal < 1 / 10000000000) :
    ∃ s', s.factor solver = some (false, s') := by
  have hloop := reduceLoop_small_pivot _ k _ st hr hne hv
  unfold LSQSystem.factor
  rcases hsi : softIndices s.constraints [] 0 with ⟨cm0, sn⟩
  rw [hsi] at hloop
  simp only [LSQSystem.reductionStart, hsi, List.length_map] at hloop
  dsimp only
  rw [hloop]
  exact ⟨_, rfl⟩

/-- C32, instance: the hard constraints `x = 1` and `c y = 1` with `c = 1e-12`; the first
round takes `x`, the second round finds the pivot value `1e-11`. -/
theorem factor_false_on_small_pivot_witness :
    roundState (softIndices smallPivotSystem.constraints [] 0).2 1
        smallPivotSystem.reductionStart =
      some ((roundState (softIndices smallPivotSystem.constraints [] 0).2 1
        smallPivotSystem.reductionStart).getD smallPivotSystem.reductionStart) ∧
    ((roundState (softIndices smallPivotSystem.constraints [] 0).2 1
        smallPivotSystem.reductionStart).getD smallPivotSystem.reductionStart).hardConstraints ≠
      [] ∧
    (pivotSearch 0 ((roundState (softIndices smallPivotSystem.constraints [] 0).2 1
        smallPivotSystem.reductionStart).getD
          smallPivotSystem.reductionStart).hardConstraints ⟨default, -1, 0⟩).bestVal <
      1 / 10000000000 ∧
    ∃ s', smallPivotSystem.factor exactSolver = some (false, s') :=
  have h1 := eq_some_getD (roundState (softIndices smallPivotSystem.constraints [] 0).2 1
    smallPivotSystem.reductionStart) smallPivotSystem.reductionStart (by decide!)
  have h2 : ((roundState (softIndices smallPivotSystem.constraints [] 0).2 1
      smallPivotSystem.reductionStart).getD smallPivotSystem.reductionStart).hardConstraints ≠
      [] := by decide!
  have h3 : (pivotSearch 0 ((roundState (softIndices smallPivotSystem.constraints [] 0).2 1
      smallPivotSystem.reductionStart).getD
        smallPivotSystem.reductionStart).hardConstraints ⟨default, -1, 0⟩).bestVal <
      1 / 10000000000 := by decide!
  ⟨h1, h2, h3, factor_false_on_small_pivot exactSolver smallPivotSystem 1 _ h1 h2 h3⟩

/-! ### LSQSystem: systems on which `factor` does not return true -/

/-- C37, failing input: the hard constraint `x - y = 0` with the soft constraint `x = 1`
determines both variables. When `x` has the smaller identifier the pivot search takes `x`,
the substitution `x = y` leaves `y`, which occurs in no soft constraint and gets no index,
and `factor` returns false at the test `varMap.count(it->first) == 0`; when `y` has the
smaller identifier `factor` returns true and `solve` gives `x = y = 1`. -/
theorem factor_depends_on_variable_order :
    (equalityFirstSystem.factor exactSolver).map (fun r => r.1) = some false ∧
    (equalitySecondSystem.factor exactSolver).map (fun r => r.1) = some true ∧
    ((equalitySecondSystem.factor exactSolver).bind (fun r => r.2.solve exactSolver)).map
      (fun r => (r.1, r.2.result)) = some (true, [(0, 1), (1, 1)]) := by
  refine ⟨by decide!, by decide!, by decide!⟩

/-- C26, failing input: with a factorisation that gives no factor, `factor` has no value:
the source reads `factoredMatrix->size()` through the null pointer instead of returning
false. This happens for the soft constraint `x + y = 1` alone, whose matrix `A^T A` is
singular, and for a system on which `factor` returns true with a working factorisation. -/
theorem factor_reads_missing_factor :
    exactSolver.factor [[(0, 1)], [(0, 1), (1, 1)]] = none ∧
    (rankDeficientSystem.factor exactSolver).map (fun r => r.1) = none ∧
    (twoVarSystem.factor exactSolver).map (fun r => r.1) = some true ∧
    (twoVarSystem.factor nullSolver).map (fun r => r.1) = none := by
  refine ⟨by decide!, by decide!, by decide!, by decide!⟩

/-! ### The OBJ reader -/

theorem scanIndices_length (sc : Scanner) :
    ∀ (args : List String) (a : List Int), scanIndices sc args = some a → a.length = args.length := by
  intro args
  induction args with
  | nil =>
    intro a h
    simp only [scanIndices, Option.some.injEq] at h
    subst h
    rfl
  | cons w rest ih =>
    intro a h
    unfold scanIndices at h
    cases hw : sc.scanInt w with
    | none => simp [hw] at h
    | some x =>
      cases hr : scanIndices sc rest with
      | none => simp [hw, hr] at h
      | some xs =>
        simp only [hw, hr, Option.some.injEq] at h
        rw [← h, List.length_cons, ih xs hr, List.length_cons]

theorem edgesOfTriangles_append (s t : List (Int × Int × Int)) :
    edgesOfTriangles (s ++ t) = edgesOfTriangles s ++ edgesOfTriangles t := by
  induction s with
  | nil => rfl
  | cons x rest ih =>
    obtain ⟨a, b, c⟩ := x
    show _ :: _ :: _ :: edgesOfTriangles (rest ++ t) = _
    rw [ih]
    rfl

/-- The fan loop appends one triangle per pass. -/
theorem fanLoop_spec (a : List Int) (hr : ∀ x ∈ a, -2147483648 < x ∧ x ≤ 2147483647) :
    ∀ (k j : Nat) (edges : List MeshEdge), 1 ≤ j → j + k ≤ a.length →
      fanLoop a k j edges = some (edges ++ edgesOfTriangles ((List.range' (j - 1) k).map
        (fun t => (a.getD 0 0 - 1, a.getD t 0 - 1, a.getD (t + 1) 0 - 1)))) := by
  intro k
  induction k with
  | zero => intro j edges _ _; simp [fanLoop, edgesOfTriangles]
  | succ k ih =>
    intro j edges hj hk
    have h0 : 0 < a.length := by omega
    have h1 : j - 1 < a.length := by omega
    have h2 : j < a.length := by omega
    have p : ∀ i (h : i < a.length), pred32 a[i] = some (a[i] - 1) := by
      intro i h
      unfold pred32
      rw [if_pos (hr _ (List.getElem_mem h))]
    unfold fanLoop
    simp only [List.getElem?_eq_getElem h0, List.getElem?_eq_getElem h1,
      List.getElem?_eq_getElem h2, p]
    rw [ih (j + 1) _ (by omega) (by omega)]
    simp only [List.range'_succ, List.map_cons, edgesOfTriangles, List.append_assoc,
      List.cons_append, List.nil_append, Nat.add_sub_cancel, List.getD_eq_getElem?_getD,
      List.getElem?_eq_getElem h0, List.getElem?_eq_getElem h1, Option.getD_some]
    have e : j - 1 + 1 = j := by omega
    rw [e, List.getElem?_eq_getElem h2]
    rfl

/-- C35: a face line of an OBJ file with `k` vertex indices, `3 ≤ k ≤ 14`, appends exactly
`k - 2` triangles, the `t`-th (from 0) being `(a[0] - 1, a[t + 1] - 1, a[t + 2] - 1)`, in
this order; a face line with fewer than 3 or more than 14 indices clears the mesh and ends
the reading. The indices are the values `sscanf` converts, taken as `int`s above the
smallest one. -/
theorem readObj_face_line (sc : Scanner) (m : Mesh) (args : List String) (a : List Int)
    (hs : scanIndices sc args = some a) (hr : ∀ x ∈ a, -2147483648 < x ∧ x ≤ 2147483647) :
    (3 ≤ args.length → args.length ≤ 14 →
      readObjLine sc m ("f" :: args) =
        some ({ m with edges := m.edges ++ edgesOfTriangles (fanTriangles a) }, false) ∧
      (fanTriangles a).length = args.length - 2 ∧
      ∀ t : Nat, t < args.length - 2 → (fanTriangles a)[t]? =
        some (a.getD 0 0 - 1, a.getD (t + 1) 0 - 1, a.getD (t + 2) 0 - 1)) ∧
    (args.length < 3 ∨ 14 < args.length →
      (∀ rest : List (List String), readObj sc (("f" :: args) :: rest) m =
        some { m with vertices := [], edges := [] })) := by
  have hlen := scanIndices_length sc args a hs
  have hf : ("f" : String).data.head? ≠ some (Char.ofNat 35) := by decide
  have hl : ¬ ("f" : String).length ≠ 1 := by decide
  have hv : ¬ ("f" : String) = "v" := by decide
  constructor
  · intro h3 h14
    refine ⟨?_, by simp [fanTriangles, hlen], ?_⟩
    · unfold readObjLine
      simp only [if_neg hf, if_neg hl, if_neg hv, if_true, List.length_cons, hs]
      rw [if_neg (by omega)]
      have := fanLoop_spec a hr (args.length + 1 - 3) 2 m.edges (by omega) (by omega)
      rw [this]
      have e : (List.range' (2 - 1) (args.length + 1 - 3)).map
          (fun t => (a.getD 0 0 - 1, a.getD t 0 - 1, a.getD (t + 1) 0 - 1)) = fanTriangles a := by
        unfold fanTriangles
        have e1 : args.length + 1 - 3 = args.length - 2 := by omega
        rw [hlen, e1, show 2 - 1 = 1 from rfl, List.range'_eq_map_range, List.map_map]
        apply List.map_congr_left
        intro t _
        simp only [Function.comp_apply, Nat.add_comm 1 t]
      rw [e]
    · intro t ht
      simp only [fanTriangles, List.getElem?_map, hlen]
      rw [List.getElem?_range ht]
      rfl
  · intro hbad rest
    unfold readObj readObjLine
    simp only [if_neg hf, if_neg hl, if_neg hv, if_true, List.length_cons]
    rw [if_pos (by omega)]

/-- C35, instance: the face line `f 1 2 3 4` read by a scanner of decimal integers. -/
theorem readObj_face_line_witness :
    scanIndices decimalScanner ["1", "2", "3", "4"] = some [1, 2, 3, 4] ∧
    (∀ x ∈ ([1, 2, 3, 4] : List Int), -2147483648 < x ∧ x ≤ 2147483647) ∧
    ((3 ≤ ["1", "2", "3", "4"].length → ["1", "2", "3", "4"].length ≤ 14 →
      readObjLine decimalScanner {} ("f" :: ["1", "2", "3", "4"]) =
        some ({ ({} : Mesh) with
          edges := ({} : Mesh).edges ++ edgesOfTriangles (fanTriangles [1, 2, 3, 4]) }, false) ∧
      (fanTriangles [1, 2, 3, 4]).length = ["1", "2", "3", "4"].length - 2 ∧
      ∀ t : Nat, t < ["1", "2", "3", "4"].length - 2 → (fanTriangles [1, 2, 3, 4])[t]? =
        some (([1, 2, 3, 4] : List Int).getD 0 0 - 1, ([1, 2, 3, 4] : List Int).getD (t + 1) 0 - 1,
          ([1, 2, 3, 4] : List Int).getD (t + 2) 0 - 1)) ∧
    (["1", "2", "3", "4"].length < 3 ∨ 14 < ["1", "2", "3", "4"].length →
      (∀ rest : List (List String),
        readObj decimalScanner (("f" :: ["1", "2", "3", "4"]) :: rest) {} =
          some { ({} : Mesh) with vertices := [], edges := [] }))) :=
  ⟨by decide!, by decide, readObj_face_line decimalScanner {} ["1", "2", "3", "4"] [1, 2, 3, 4]
    (by decide!) (by decide)⟩

/-! ### The constructor `Mesh::Mesh(file)` -/

/-- C23, the claim as written fails: a file with the face line `f 1 2 3` and no vertex
line gives a triangle whose indices are not smaller than the number of vertices read
(zero), but the constructor returns at `if(verts == 0) return;` before the index check,
and the mesh keeps its three half-edges. -/
theorem loadObj_keeps_edges_without_vertices :
    readObj decimalScanner [["f", "1", "2", "3"]] {} = some facesOnlyInput ∧
    (∃ e ∈ facesOnlyInput.edges,
      e.vertex < 0 ∨ e.vertex ≥ (facesOnlyInput.vertices.length : Int)) ∧
    Mesh.loadObj decimalScanner absNormalize [["f", "1", "2", "3"]] = some facesOnlyInput ∧
    facesOnlyInput.vertices.length = 0 ∧ facesOnlyInput.edges.length = 3 := by
  refine ⟨by decide!, ⟨{ vertex := 0 }, by decide, by decide⟩, by decide!, by decide, by decide⟩

/-- C23, amended: if at least one vertex was read and a half-edge has a vertex index that
is negative or not smaller than the number of vertices, the constructor clears the mesh;
if no vertex was read it returns the mesh as read, with its half-edges. -/
theorem reconstruct_invalid_index (vnormalize : Vector3 → Vector3) (m : Mesh)
    (h : ∃ e ∈ m.edges, e.vertex < 0 ∨ e.vertex ≥ (m.vertices.length : Int)) :
    (m.vertices ≠ [] → m.reconstruct vnormalize = some { m with vertices := [], edges := [] }) ∧
    (m.vertices = [] → m.reconstruct vnormalize = some m) := by
  constructor
  · intro hne
    unfold Mesh.reconstruct
    rw [if_neg (by simpa using hne), if_pos]
    simp only [List.any_eq_true, decide_eq_true_eq]
    exact h
  · intro he
    unfold Mesh.reconstruct
    rw [if_pos (by simp [he])]

/-- C23, instance: three vertices and a triangle with the index 5. -/
theorem reconstruct_invalid_index_witness :
    (∃ e ∈ badIndexInput.edges, e.vertex < 0 ∨ e.vertex ≥ (badIndexInput.vertices.length : Int)) ∧
    (badIndexInput.vertices ≠ [] →
      badIndexInput.reconstruct absNormalize =
        some { badIndexInput with vertices := [], edges := [] }) ∧
    (badIndexInput.vertices = [] → badIndexInput.reconstruct absNormalize = some badIndexInput) :=
  ⟨⟨{ vertex := 5 }, by decide, by decide⟩,
    reconstruct_invalid_index absNormalize badIndexInput ⟨{ vertex := 5 }, by decide, by decide⟩⟩

/-! ### The first loop of `fixDupFaces` -/

/-- The sorted triple at a position given by a natural number. -/
theorem faceAt_natCast (edges : List MeshEdge) (i : Nat) :
    faceAt edges (i : Int) =
      match edges[i]?, edges[i + 1]?, edges[i + 2]? with
      | some a, some b, some c => some (MFace a.vertex b.vertex c.vertex)
      | _, _, _ => none := by
  unfold faceAt
  have e1 : (i : Int) + 1 = ((i + 1 : Nat) : Int) := by push_cast; rfl
  have e2 : (i : Int) + 2 = ((i + 2 : Nat) : Int) := by push_cast; rfl
  rw [e1, e2, idx?_natCast, idx?_natCast, idx?_natCast]
  cases edges[i]? <;> cases edges[i + 1]? <;> cases edges[i + 2]? <;> rfl

/-- The sorted triple of triangle `q` is entry `q` of `trianglesOf`. -/
theorem faceAt_eq_trianglesOf :
    ∀ (q : Nat) (edges : List MeshEdge),
      faceAt edges ((3 * q : Nat) : Int) = (trianglesOf edges)[q]? := by
  intro q
  induction q with
  | zero =>
    intro edges
    rw [faceAt_natCast]
    match edges with
    | [] => rfl
    | [_] => rfl
    | [_, _] => rfl
    | a :: b :: c :: rest => simp [trianglesOf]
  | succ q ih =>
    intro edges
    match edges with
    | [] => rw [faceAt_natCast]; rfl
    | [_] => rw [faceAt_natCast]; simp [trianglesOf]
    | [_, _] => rw [faceAt_natCast]; simp [trianglesOf]
    | a :: b :: c :: rest =>
      have := ih rest
      rw [faceAt_natCast] at this ⊢
      have e : 3 * (q + 1) = 3 * q + 1 + 1 + 1 := by omega
      simp only [e, List.getElem?_cons_succ, trianglesOf]
      exact this

theorem trianglesOf_length : ∀ (n : Nat) (edges : List MeshEdge), edges.length = 3 * n →
    (trianglesOf edges).length = n := by
  intro n
  induction n with
  | zero =>
    intro edges h
    have : edges = [] := List.length_eq_zero.1 (by omega)
    rw [this]
    rfl
  | succ n ih =>
    intro edges h
    match edges, h with
    | [], h => simp at h
    | [_], h => simp at h; omega
    | [_, _], h => simp at h; omega
    | a :: b :: c :: rest, h =>
      simp only [trianglesOf, List.length_cons]
      rw [ih rest (by simp only [List.length_cons] at h; omega)]

/-- The entries after the three assignments `edges[d + k] = edges[s + k]`, when the
triangle read is the triangle written or apart from it. -/
theorem copyTri_spec (edges : List MeshEdge) (d s : Nat) (hd : d + 2 < edges.length)
    (hs : s + 2 < edges.length) (hds : s = d ∨ s + 3 ≤ d ∨ d + 3 ≤ s) :
    ∃ edges', copyTri edges (d : Int) (s : Int) = some edges' ∧
      edges'.length = edges.length ∧
      ∀ x : Nat, edges'[x]? =
        if d ≤ x ∧ x < d + 3 then edges[s + (x - d)]? else edges[x]? := by
  have e1 : ∀ a : Nat, (a : Int) + 1 = ((a + 1 : Nat) : Int) := fun a => by push_cast; rfl
  have e2 : ∀ a : Nat, (a : Int) + 2 = ((a + 2 : Nat) : Int) := fun a => by push_cast; rfl
  have hs0 : s < edges.length := by omega
  have hs1 : s + 1 < edges.length := by omega
  have hd0 : d < edges.length := by omega
  have hd1 : d + 1 < edges.length := by omega
  have r1 : (edges.set d edges[s])[s + 1]? = some edges[s + 1] := by
    rw [List.getElem?_set_ne (by omega), List.getElem?_eq_getElem hs1]
  have r2 : ((edges.set d edges[s]).set (d + 1) edges[s + 1])[s + 2]? = some edges[s + 2] := by
    rw [List.getElem?_set_ne (by omega), List.getElem?_set_ne (by omega),
      List.getElem?_eq_getElem hs]
  refine ⟨((edges.set d edges[s]).set (d + 1) edges[s + 1]).set (d + 2) edges[s + 2], ?_,
    by simp, ?_⟩
  · unfold copyTri
    rw [e1, e1, e2, e2, idx?_natCast, List.getElem?_eq_getElem hs0]
    simp only [Option.bind_eq_bind, Option.some_bind]
    rw [upd?_natCast _ _ _ hd0]
    simp only [Option.some_bind]
    rw [idx?_natCast, r1]
    simp only [Option.some_bind]
    rw [upd?_natCast _ _ _ (by simpa using hd1)]
    simp only [Option.some_bind]
    rw [idx?_natCast, r2]
    simp only [Option.some_bind]
    rw [upd?_natCast _ _ _ (by simpa using hd)]
  · intro x
    by_cases hx : d ≤ x ∧ x < d + 3
    · rw [if_pos hx]
      obtain ⟨h1, h2⟩ := hx
      have hx3 : x = d ∨ x = d + 1 ∨ x = d + 2 := by omega
      rcases hx3 with rfl | rfl | rfl
      · rw [List.getElem?_set_ne (by omega), List.getElem?_set_ne (by omega),
          List.getElem?_set_self (by omega)]
        simp [List.getElem?_eq_getElem hs0]
      · rw [List.getElem?_set_ne (by omega), List.getElem?_set_self (by simpa using hd1)]
        simp [List.getElem?_eq_getElem hs1]
      · rw [List.getElem?_set_self (by simpa using hd)]
        simp [List.getElem?_eq_getElem hs]
    · rw [if_neg hx]
      rw [List.getElem?_set_ne (by omega), List.getElem?_set_ne (by omega),
        List.getElem?_set_ne (by omega)]

/-- The map `faces` after the loop has entered the triangles `k, ..., k + r - 1`, whose
sorted triples are `T k, ...`, at their positions. -/
theorem fixDupLoop_fresh_run (edges : List MeshEdge) (T : Nat → Int × Int × Int) :
    ∀ (r k : Nat) (faces : List ((Int × Int × Int) × Int)) (fuel : Nat),
      3 * (k + r) ≤ edges.length →
      (∀ q : Nat, k ≤ q → q < k + r → faceAt edges ((3 * q : Nat) : Int) = some (T q)) →
      (∀ q : Nat, k ≤ q → q < k + r → mfind faces (T q) = none) →
      (∀ q q' : Nat, k ≤ q → q < q' → q' < k + r → T q ≠ T q') →
      fixDupLoop (fuel + r) (3 * k) faces edges =
        fixDupLoop fuel (3 * (k + r))
          (((List.range' k r).map (fun q => (T q, ((3 * q : Nat) : Int)))).reverse ++ faces)
          edges := by
  intro r
  induction r with
  | zero => intro k faces fuel _ _ _ _; rfl
  | succ r ih =>
    intro k faces fuel hlen hT hfresh hdist
    have hk : 3 * k < edges.length := by omega
    rw [show fuel + (r + 1) = (fuel + r) + 1 by omega]
    conv_lhs => unfold fixDupLoop
    rw [if_pos hk, hT k (le_refl _) (by omega)]
    simp only [hfresh k (le_refl _) (by omega)]
    rw [show 3 * k + 3 = 3 * (k + 1) by omega]
    rw [ih (k + 1) _ fuel (by omega) (fun q h1 h2 => hT q (by omega) (by omega))
      (fun q h1 h2 => by
        rw [mfind_minsert, if_neg (fun e => hdist k q (le_refl _) (by omega) (by omega) e.symm)]
        exact hfresh q (by omega) (by omega))
      (fun q q' h1 h2 h3 => hdist q q' (by omega) h2 (by omega))]
    rw [show k + 1 + r = k + (r + 1) by omega]
    congr 1
    simp only [List.range'_succ, List.map_cons, List.reverse_cons, List.append_assoc,
      List.singleton_append, minsert]

/-- A triple the loop has entered once is found at its position. -/
theorem mfind_faces_run (T : Nat → Int × Int × Int) (faces : List ((Int × Int × Int) × Int)) :
    ∀ (r k q : Nat), k ≤ q → q < k + r →
      (∀ q' : Nat, k ≤ q' → q' < k + r → T q' = T q → q' = q) →
      mfind (((List.range' k r).map (fun q => (T q, ((3 * q : Nat) : Int)))).reverse ++ faces)
        (T q) = some ((3 * q : Nat) : Int) := by
  intro r
  induction r with
  | zero => intro k q h1 h2; omega
  | succ r ih =>
    intro k q h1 h2 hinj
    rw [List.range'_concat, List.map_append, List.reverse_append]
    simp only [List.map_cons, List.map_nil, List.reverse_cons, List.reverse_nil, List.nil_append,
      List.singleton_append, List.cons_append, Nat.one_mul]
    unfold mfind
    by_cases hq : q = k + r
    · subst hq
      rw [if_pos rfl]
    · have hne : ¬ T q = T (k + r) := fun e => hq (hinj (k + r) (by omega) (by omega) e.symm).symm
      rw [if_neg hne]
      exact ih k q h1 (by omega) (fun q' a b c => hinj q' a (by omega) c)

/-- The keys of the map `faces` after a run. -/
theorem mkeys_faces_run (T : Nat → Int × Int × Int) (faces : List ((Int × Int × Int) × Int))
    (r k : Nat) (t : Int × Int × Int) :
    t ∈ mkeys (((List.range' k r).map (fun q => (T q, ((3 * q : Nat) : Int)))).reverse ++ faces) ↔
      (∃ q : Nat, k ≤ q ∧ q < k + r ∧ T q = t) ∨ t ∈ mkeys faces := by
  simp only [mkeys, List.map_append, List.map_reverse, List.map_map, List.mem_append,
    List.mem_reverse, List.mem_map, List.mem_range'_1, Function.comp_apply]
  constructor
  · rintro (⟨q, ⟨h1, h2⟩, h3⟩ | h)
    · exact Or.inl ⟨q, h1, h2, h3⟩
    · exact Or.inr h
  · rintro (⟨q, h1, h2, h3⟩ | h)
    · exact Or.inl ⟨q, ⟨h1, h2⟩, h3⟩
    · exact Or.inr h

/-- The loop ends when `i` has reached the end of the half-edges. -/
theorem fixDupLoop_end (fuel i : Nat) (faces : List ((Int × Int × Int) × Int))
    (edges : List MeshEdge) (h : edges.length ≤ i) :
    fixDupLoop (fuel + 1) i faces edges = some edges := by
  unfold fixDupLoop
  rw [if_neg (by omega)]

/-- On a triangle list without two triangles on the same vertices the first loop of
`fixDupFaces` changes nothing. -/
theorem fixDupLoop_nodup (edges : List MeshEdge) (n : Nat) (hlen : edges.length = 3 * n)
    (hnd : (trianglesOf edges).Nodup) (fuel : Nat) (hf : n + 1 ≤ fuel) :
    fixDupLoop fuel 0 [] edges = some edges := by
  have hl := trianglesOf_length n edges hlen
  obtain ⟨f, rfl⟩ : ∃ f, fuel = (f + 1) + n := ⟨fuel - n - 1, by omega⟩
  have := fixDupLoop_fresh_run edges (fun q => (trianglesOf edges).getD q default) n 0 []
    (f + 1) (by omega)
    (fun q _ hq => by
      rw [faceAt_eq_trianglesOf]
      simp only [List.getD_eq_getElem?_getD]
      rw [List.getElem?_eq_getElem (by omega)]
      rfl)
    (fun q _ _ => rfl)
    (fun q q' _ h1 h2 e => by
      simp only [List.getD_eq_getElem?_getD] at e
      rw [List.getElem?_eq_getElem (by omega), List.getElem?_eq_getElem (by omega)] at e
      simp only [Option.getD_some] at e
      have := (List.Nodup.getElem_inj_iff hnd).1 e
      omega)
  rw [show 3 * 0 = 0 from rfl] at this
  rw [this]
  exact fixDupLoop_end f _ _ _ (by omega)

theorem faceAt_congr (e1 e2 : List MeshEdge) (i i' : Nat)
    (h : ∀ t : Nat, t < 3 → e1[i + t]? = e2[i' + t]?) :
    faceAt e1 (i : Int) = faceAt e2 (i' : Int) := by
  rw [faceAt_natCast, faceAt_natCast]
  have h0 := h 0 (by omega)
  have h1 := h 1 (by omega)
  have h2 := h 2 (by omega)
  simp only [Nat.add_zero] at h0
  rw [h0, h1, h2]

theorem faceAt_getD (edges : List MeshEdge) (n q : Nat) (hlen : edges.length = 3 * n)
    (hq : q < n) :
    faceAt edges ((3 * q : Nat) : Int) = some ((trianglesOf edges).getD q default) := by
  rw [faceAt_eq_trianglesOf]
  simp only [List.getD_eq_getElem?_getD]
  rw [List.getElem?_eq_getElem (by rw [trianglesOf_length n edges hlen]; exact hq)]
  rfl

/-- The first loop of `fixDupFaces` on a triangle list in which the triangles `p < j` are
on the same vertices and no other two are: it takes six half-edges out. -/
theorem fixDupLoop_one_dup (edges : List MeshEdge) (n p j : Nat) (hlen : edges.length = 3 * n)
    (hpj : p < j) (hjn : j < n)
    (hd : (trianglesOf edges).getD p default = (trianglesOf edges).getD j default)
    (hu : ∀ a b : Nat, a < b → b < n →
      (trianglesOf edges).getD a default = (trianglesOf edges).getD b default → a = p ∧ b = j)
    (fuel : Nat) (hf : n + 1 ≤ fuel) :
    ∃ edges', fixDupLoop fuel 0 [] edges = some edges' ∧ edges'.length + 6 = edges.length := by
  obtain ⟨f2, rfl⟩ : ∃ f2, fuel = (f2 + 1) + j := ⟨fuel - j - 1, by omega⟩
  have hf2 : n ≤ f2 + j + 1 := by omega
  -- the triangles before `j`
  have h1 := fixDupLoop_fresh_run edges (fun q => (trianglesOf edges).getD q default) j 0 []
    (f2 + 1) (by omega) (fun q _ hq => faceAt_getD edges n q hlen (by omega))
    (fun q _ _ => rfl)
    (fun q q' _ a b e => by
      have := hu q q' a (by omega) e
      omega)
  rw [show 3 * 0 = 0 from rfl, Nat.zero_add] at h1
  rw [h1]
  generalize hfaces : ((List.range' 0 j).map
    (fun q => ((trianglesOf edges).getD q default, ((3 * q : Nat) : Int)))).reverse ++ [] = faces1
  have hfind : mfind faces1 ((trianglesOf edges).getD j default) = some ((3 * p : Nat) : Int) := by
    rw [← hfaces, ← hd]
    exact mfind_faces_run (fun q => (trianglesOf edges).getD q default) [] j 0 p (by omega)
      (by omega) (fun q' _ hq' e => by
        rcases Nat.lt_trichotomy q' p with h | h | h
        · have := hu q' p h (by omega) e
          omega
        · exact h
        · have := hu p q' h (by omega) e.symm
          omega)
  have hkeys : ∀ t, t ∈ mkeys faces1 ↔ ∃ q : Nat, q < j ∧ (trianglesOf edges).getD q default = t := by
    intro t
    rw [← hfaces, mkeys_faces_run]
    simp [mkeys]
  -- the pass at the second copy
  have hn2 : 2 ≤ n := by omega
  have eO : (edges.length : Int) - 6 = ((3 * (n - 2) : Nat) : Int) := by
    rw [hlen]; push_cast; omega
  have eC : (edges.length : Int) - 3 = ((3 * (n - 1) : Nat) : Int) := by
    rw [hlen]; push_cast; omega
  obtain ⟨edgesA, hA, lenA, getA⟩ := copyTri_spec edges (3 * p) (3 * (n - 2)) (by omega) (by omega)
    (by omega)
  obtain ⟨edgesB, hB, lenB, getB⟩ := copyTri_spec edgesA (3 * j) (3 * (n - 1)) (by omega)
    (by omega) (by omega)
  have lenB' : edgesB.length = 3 * n := by rw [lenB, lenA, hlen]
  have hOF := faceAt_getD edgesB n (n - 2) lenB' (by omega)
  have lenC : (edgesB.take (3 * n - 6)).length = 3 * (n - 2) := by
    rw [List.length_take, lenB']; omega
  refine ⟨edgesB.take (3 * n - 6), ?_, by rw [lenC, hlen]; omega⟩
  conv_lhs => unfold fixDupLoop
  rw [if_pos (by omega), faceAt_getD edges n j hlen hjn]
  simp only [hfind]
  rw [if_neg (by omega)]
  simp only [eO, eC, hA, hB, hOF]
  rw [lenB']
  generalize hfaces3 : minsert (minsert faces1 ((trianglesOf edges).getD j default) (-1))
    ((trianglesOf edgesB).getD (n - 2) default) ((3 * (n - 2) : Nat) : Int) = faces3
  by_cases hlast : n - 2 ≤ j
  · obtain ⟨g, hg⟩ : ∃ g, f2 = g + 1 := ⟨f2 - 1, by omega⟩
    rw [hg]
    exact fixDupLoop_end g (3 * j) faces3 _ (by rw [lenC]; omega)
  · -- the triangles after `j`
    have hjn2 : j < n - 2 := by omega
    have hT' : ∀ q : Nat, j ≤ q → q < n - 2 →
        (trianglesOf (edgesB.take (3 * n - 6))).getD q default =
          if q = j then (trianglesOf edges).getD (n - 1) default
          else (trianglesOf edges).getD q default := by
      intro q hq1 hq2
      have a1 := faceAt_getD (edgesB.take (3 * n - 6)) (n - 2) q lenC hq2
      have a2 : faceAt (edgesB.take (3 * n - 6)) ((3 * q : Nat) : Int) =
          faceAt edges (((if q = j then 3 * (n - 1) else 3 * q) : Nat) : Int) := by
        apply faceAt_congr
        intro t ht
        rw [List.getElem?_take_of_lt (by omega), getB]
        by_cases hqj : q = j
        · subst hqj
          rw [if_pos (by omega), if_pos rfl, getA, if_neg (by omega)]
          congr 1
          omega
        · rw [if_neg (by omega), if_neg hqj, getA, if_neg (by omega)]
      by_cases hqj : q = j
      · rw [if_pos hqj] at a2 ⊢
        rw [a2, faceAt_getD edges n (n - 1) hlen (by omega), Option.some.injEq] at a1
        exact a1.symm
      · rw [if_neg hqj] at a2 ⊢
        rw [a2, faceAt_getD edges n q hlen (by omega), Option.some.injEq] at a1
        exact a1.symm
    have hO : (trianglesOf edgesB).getD (n - 2) default = (trianglesOf edges).getD (n - 2) default := by
      have a1 := hOF
      have a2 : faceAt edgesB ((3 * (n - 2) : Nat) : Int) = faceAt edges ((3 * (n - 2) : Nat) : Int) := by
        apply faceAt_congr
        intro t ht
        rw [getB, if_neg (by omega), getA, if_neg (by omega)]
      rw [a2, faceAt_getD edges n (n - 2) hlen (by omega), Option.some.injEq] at a1
      exact a1.symm
    obtain ⟨f3, rfl⟩ : ∃ f3, f2 = (f3 + 1) + (n - 2 - j) := ⟨f2 - (n - 2 - j) - 1, by omega⟩
    have hval : ∀ q : Nat, j ≤ q → q < n - 2 → ∃ b : Nat, j < b ∧ b < n ∧
        (b = n - 1 ∨ b = q) ∧ (q = j → b = n - 1) ∧ (q ≠ j → b = q) ∧
        (trianglesOf (edgesB.take (3 * n - 6))).getD q default =
          (trianglesOf edges).getD b default := by
      intro q h1 h2
      by_cases hqj : q = j
      · exact ⟨n - 1, by omega, by omega, Or.inl rfl, fun _ => rfl, fun h => absurd hqj h,
          by rw [hT' q h1 h2, if_pos hqj]⟩
      · exact ⟨q, by omega, by omega, Or.inr rfl, fun h => absurd h hqj, fun _ => rfl,
          by rw [hT' q h1 h2, if_neg hqj]⟩
    have h2 := fixDupLoop_fresh_run (edgesB.take (3 * n - 6))
      (fun q => (trianglesOf (edgesB.take (3 * n - 6))).getD q default) (n - 2 - j) j faces3
      (f3 + 1) (by rw [lenC]; omega)
      (fun q _ hq => faceAt_getD _ (n - 2) q lenC (by omega))
      (fun q hq1 hq2 => by
        obtain ⟨b, hb1, hb2, hb3, hb4, hb5, hb⟩ := hval q hq1 (by omega)
        show mfind faces3 ((trianglesOf (edgesB.take (3 * n - 6))).getD q default) = none
        rw [hb, mfind_eq_none, ← hfaces3]
        simp only [minsert, mkeys, List.map_cons, List.mem_cons, not_or]
        refine ⟨?_, ?_, ?_⟩
        · rw [hO]
          intro e
          rcases Nat.lt_trichotomy b (n - 2) with h | h | h
          · have := hu b (n - 2) h (by omega) e; omega
          · rcases hb3 with h' | h' <;> omega
          · have := hu (n - 2) b h (by omega) e.symm; omega
        · intro e
          have := hu j b hb1 hb2 e.symm
          omega
        · intro hm
          obtain ⟨q', hq', e⟩ := (hkeys _).1 hm
          have := hu q' b (by omega) hb2 e
          omega)
      (fun q q' hq1 hq2 hq3 e => by
        obtain ⟨b, hb1, hb2, hb3, hb4, hb5, hb⟩ := hval q hq1 (by omega)
        obtain ⟨b', hb1', hb2', hb3', hb4', hb5', hb'⟩ := hval q' (by omega) (by omega)
        simp only at e
        rw [hb, hb'] at e
        have hq'j : q' ≠ j := by omega
        have e' := hb5' hq'j
        rcases Nat.lt_trichotomy b b' with h | h | h
        · have := hu b b' h (by omega) e; omega
        · rcases hb3 with h' | h' <;> omega
        · have := hu b' b h (by omega) e.symm; omega)
    rw [h2]
    exact fixDupLoop_end f3 _ _ _ (by rw [lenC]; omega)

theorem compactVerts_edges_length (vertices : List MeshVertex) (edges : List MeshEdge) :
    (compactVerts vertices edges).2.length = edges.length := by
  simp [compactVerts]

theorem faces_length (edges : List MeshEdge) (h3 : edges.length % 3 = 0) :
    (trianglesOf edges).length = edges.length / 3 :=
  trianglesOf_length (edges.length / 3) edges (by omega)

/-- C24, the claim as written fails: the tetrahedron with its first face twice has five
triangles, of which exactly one occurs twice; `fixDupFaces` leaves three triangles, not
four: both copies are taken out. -/
theorem fixDupFaces_drops_two_triangles :
    tetraDupInput.faces = [(0, 1, 2), (0, 2, 3), (0, 1, 3), (1, 2, 3), (0, 1, 2)] ∧
    (tetraDupInput.fixDupFaces).map (fun m => m.faces) =
      some [(1, 2, 3), (0, 2, 3), (0, 1, 3)] := by
  decide

/-- C24, amended: for every triangle list in which exactly one vertex triple occurs twice
(at the triangles `p < j`) and every other one once, `fixDupFaces` returns and leaves
exactly two triangles fewer than the raw count. -/
theorem fixDupFaces_removes_both_copies (m : Mesh) (p j : Nat) (h3 : m.edges.length % 3 = 0)
    (hpj : p < j) (hj : j < m.faces.length) (hd : m.faces[p]? = m.faces[j]?)
    (hu : ∀ a b : Nat, a < b → b < m.faces.length → m.faces[a]? = m.faces[b]? →
      a = p ∧ b = j) :
    ∃ m', m.fixDupFaces = some m' ∧ m'.faces.length + 2 = m.faces.length := by
  have hlen : m.edges.length = 3 * (m.edges.length / 3) := by omega
  have hfl : m.faces.length = m.edges.length / 3 := faces_length m.edges h3
  have hg : ∀ a : Nat, a < m.faces.length →
      (trianglesOf m.edges).getD a default = m.faces[a]?.getD default := by
    intro a _
    simp only [List.getD_eq_getElem?_getD]
    rfl
  obtain ⟨edges', he, hl⟩ := fixDupLoop_one_dup m.edges (m.edges.length / 3) p j hlen hpj
    (by omega)
    (by rw [hg p (by omega), hg j hj, hd])
    (fun a b hab hb e => by
      rw [hg a (by omega), hg b (by omega)] at e
      have ha : a < m.faces.length := by omega
      have hb' : b < m.faces.length := by omega
      apply hu a b hab hb'
      rw [List.getElem?_eq_getElem ha, List.getElem?_eq_getElem hb'] at e ⊢
      simpa using e)
    (m.edges.length + 1) (by omega)
  refine ⟨{ m with vertices := (compactVerts m.vertices edges').1,
                   edges := (compactVerts m.vertices edges').2 }, ?_, ?_⟩
  · unfold Mesh.fixDupFaces
    rw [he]
  · have h3' : (compactVerts m.vertices edges').2.length % 3 = 0 := by
      rw [compactVerts_edges_length]; omega
    show (trianglesOf (compactVerts m.vertices edges').2).length + 2 = _
    rw [faces_length _ h3', compactVerts_edges_length, hfl]
    omega

/-- C24, instance: the tetrahedron with its first face twice, at the triangles 0 and 4. -/
theorem fixDupFaces_removes_both_copies_witness :
    tetraDupInput.edges.length % 3 = 0 ∧ 0 < 4 ∧ 4 < tetraDupInput.faces.length ∧
    tetraDupInput.faces[0]? = tetraDupInput.faces[4]? ∧
    (∀ a b : Nat, a < b → b < tetraDupInput.faces.length →
      tetraDupInput.faces[a]? = tetraDupInput.faces[b]? → a = 0 ∧ b = 4) ∧
    ∃ m', tetraDupInput.fixDupFaces = some m' ∧
      m'.faces.length + 2 = tetraDupInput.faces.length :=
  have hu : ∀ a b : Nat, a < b → b < tetraDupInput.faces.length →
      tetraDupInput.faces[a]? = tetraDupInput.faces[b]? → a = 0 ∧ b = 4 := by
    intro a b hab hb e
    have hb5 : b < 5 := hb
    have hf : tetraDupInput.faces = [(0, 1, 2), (0, 2, 3), (0, 1, 3), (1, 2, 3), (0, 1, 2)] := by
      decide
    rw [hf] at e
    interval_cases b <;> interval_cases a <;> simp at e ⊢
  ⟨by decide, by decide, by decide, by decide, hu,
    fixDupFaces_removes_both_copies tetraDupInput 0 4 (by decide) (by decide) (by decide)
      (by decide) hu⟩

/-! ### What `fixDupFaces` keeps -/

theorem copyTri_mem (edges edges' : List MeshEdge) (d s : Int)
    (h : copyTri edges d s = some edges') :
    edges'.length = edges.length ∧ (∀ e ∈ edges', e ∈ edges) ∧ 0 ≤ s := by
  unfold copyTri at h
  simp only [Option.bind_eq_bind, Option.bind_eq_some] at h
  obtain ⟨e0, h0, l1, h1, e1, h2, l2, h3, e2, h4, h5⟩ := h
  obtain ⟨-, rfl⟩ := (upd?_eq_some _ _ _ _).1 h1
  obtain ⟨-, rfl⟩ := (upd?_eq_some _ _ _ _).1 h3
  obtain ⟨-, rfl⟩ := (upd?_eq_some _ _ _ _).1 h5
  have m0 : e0 ∈ edges := mem_of_getElem? _ _ _ ((idx?_eq_some _ _ _).1 h0).2
  have s0 : ∀ e ∈ edges.set d.toNat e0, e ∈ edges := by
    intro e he
    rcases List.mem_or_eq_of_mem_set he with h | h
    · exact h
    · exact h ▸ m0
  have m1 : e1 ∈ edges := s0 _ (mem_of_getElem? _ _ _ ((idx?_eq_some _ _ _).1 h2).2)
  have s1 : ∀ e ∈ (edges.set d.toNat e0).set (d + 1).toNat e1, e ∈ edges := by
    intro e he
    rcases List.mem_or_eq_of_mem_set he with h | h
    · exact s0 e h
    · exact h ▸ m1
  have m2 : e2 ∈ edges := s1 _ (mem_of_getElem? _ _ _ ((idx?_eq_some _ _ _).1 h4).2)
  refine ⟨by simp, ?_, ((idx?_eq_some _ _ _).1 h0).1⟩
  intro e he
  rcases List.mem_or_eq_of_mem_set he with h | h
  · exact s1 e h
  · exact h ▸ m2

/-- The first loop of `fixDupFaces` returns half-edges of its input, three per triangle
if the input has three per triangle. -/
theorem fixDupLoop_mem : ∀ (fuel i : Nat) (faces : List ((Int × Int × Int) × Int))
    (edges edges' : List MeshEdge), fixDupLoop fuel i faces edges = some edges' →
      (∀ e ∈ edges', e ∈ edges) ∧ edges'.length % 3 = edges.length % 3 := by
  intro fuel
  induction fuel with
  | zero => intro i faces edges edges' h; simp [fixDupLoop] at h
  | succ fuel ih =>
    intro i faces edges edges' h
    unfold fixDupLoop at h
    split at h
    · split at h
      · simp at h
      · rename_i current hcur
        split at h
        · rename_i oth hoth
          split at h
          · exact ih _ _ _ _ h
          · dsimp only at h
            split at h
            · simp at h
            · rename_i edgesA hA
              split at h
              · simp at h
              · rename_i edgesB hB
                split at h
                · simp at h
                · rename_i newOthF hF
                  obtain ⟨a1, a2, a3⟩ := copyTri_mem _ _ _ _ hA
                  obtain ⟨b1, b2, -⟩ := copyTri_mem _ _ _ _ hB
                  obtain ⟨c1, c2⟩ := ih _ _ _ _ h
                  refine ⟨fun e he => a2 e (b2 e (List.mem_of_mem_take (c1 e he))), ?_⟩
                  rw [c2, List.length_take, b1, a1]
                  omega
        · exact ih _ _ _ _ h
    · simp only [Option.some.injEq] at h
      subst h
      exact ⟨fun e he => he, rfl⟩

/-- The array `newIdxs`: the entry of a referenced vertex is the number of referenced
vertices before it, counted from `c`. -/
theorem newIdxsLoop_spec (ref : List Nat) :
    ∀ (l : List Nat) (c : Int), (newIdxsLoop ref l c).length = l.length ∧
      ∀ (k : Nat) (hk : k < l.length), (newIdxsLoop ref l c)[k]? =
        some (if l[k] ∈ ref then c + ((l.take k).countP (fun i => decide (i ∈ ref)) : Nat)
              else -1) := by
  intro l
  induction l with
  | nil => intro c; exact ⟨rfl, fun k hk => by simp at hk⟩
  | cons i rest ih =>
    intro c
    unfold newIdxsLoop
    by_cases hi : i ∈ ref
    · rw [if_pos hi]
      obtain ⟨h1, h2⟩ := ih (c + 1)
      refine ⟨by simp [h1], ?_⟩
      intro k hk
      cases k with
      | zero => simp [hi]
      | succ k =>
        simp only [List.length_cons, Nat.add_lt_add_iff_right] at hk
        simp only [List.getElem?_cons_succ, h2 k hk, List.getElem_cons_succ, List.take_succ_cons,
          List.countP_cons, hi, decide_True, if_true]
        congr 1
        split
        · push_cast; ring
        · rfl
    · rw [if_neg hi]
      obtain ⟨h1, h2⟩ := ih c
      refine ⟨by simp [h1], ?_⟩
      intro k hk
      cases k with
      | zero => simp [hi]
      | succ k =>
        simp only [List.length_cons, Nat.add_lt_add_iff_right] at hk
        simp only [List.getElem?_cons_succ, h2 k hk, List.getElem_cons_succ, List.take_succ_cons,
          List.countP_cons, hi, decide_False]
        simp

theorem moveVerts_length (newIdxs : List Int) :
    ∀ (l : List Nat) (vs : List MeshVertex), (moveVerts newIdxs l vs).length = vs.length := by
  intro l
  induction l with
  | nil => intro vs; rfl
  | cons i rest ih =>
    intro vs
    unfold moveVerts
    dsimp only
    split
    · rw [ih, List.length_set]
    · exact ih vs

theorem mem_referencedVerts (nv : Nat) (edges : List MeshEdge) (v : Nat) :
    v ∈ referencedVerts nv edges ↔ v < nv ∧ ∃ e ∈ edges, e.vertex = (v : Int) := by
  simp [referencedVerts]

theorem referencedVerts_length_le (nv : Nat) (edges : List MeshEdge) :
    (referencedVerts nv edges).length ≤ nv := by
  unfold referencedVerts
  exact le_trans (List.length_filter_le _ _) (by simp)

/-- The new index of a referenced vertex is below the number of referenced vertices. -/
theorem newIdx_lt (nv : Nat) (edges : List MeshEdge) (v : Nat)
    (hv : v ∈ referencedVerts nv edges) :
    ((List.range nv).take v).countP (fun i => decide (i ∈ referencedVerts nv edges)) <
      (referencedVerts nv edges).length := by
  have hvn : v < nv := ((mem_referencedVerts nv edges v).1 hv).1
  have hlen : (referencedVerts nv edges).length =
      (List.range nv).countP (fun i => decide (i ∈ referencedVerts nv edges)) := by
    rw [List.countP_eq_length_filter]
    congr 1
    unfold referencedVerts
    apply List.filter_congr
    intro x hx
    simp only [List.mem_filter, hx, true_and, Bool.decide_eq_true]
  rw [hlen]
  conv_rhs => rw [← List.take_append_drop v (List.range nv)]
  rw [List.countP_append]
  have hd : List.drop v (List.range nv) = v :: List.drop (v + 1) (List.range nv) := by
    rw [List.drop_eq_getElem_cons (by simpa using hvn)]
    simp
  rw [hd, List.countP_cons_of_pos _ _ (by simpa using hv)]
  omega

/-- The second half of `fixDupFaces` on half-edges with valid vertex indices: the
half-edges keep their number, `prev` and `twin`, and point to the vertices that are left. -/
theorem compactVerts_inRange (vertices : List MeshVertex) (edges : List MeshEdge)
    (hr : ∀ e ∈ edges, 0 ≤ e.vertex ∧ e.vertex < (vertices.length : Int)) :
    (compactVerts vertices edges).1.length = (referencedVerts vertices.length edges).length ∧
    (∀ e ∈ (compactVerts vertices edges).2, 0 ≤ e.vertex ∧
      e.vertex < ((compactVerts vertices edges).1.length : Int)) ∧
    (∀ e ∈ (compactVerts vertices edges).2, ∃ e0 ∈ edges, e.twin = e0.twin ∧ e.prev = e0.prev) ∧
    (edges = [] → (compactVerts vertices edges).1 = []) := by
  have hl : (compactVerts vertices edges).1.length =
      (referencedVerts vertices.length edges).length := by
    simp only [compactVerts, List.length_take, moveVerts_length]
    exact Nat.min_eq_left (referencedVerts_length_le _ _)
  refine ⟨hl, ?_, ?_, ?_⟩
  rotate_left 2
  · intro he
    apply List.length_eq_zero.1
    rw [hl, he]
    simp [referencedVerts]
  · intro e he
    rw [hl]
    simp only [compactVerts, List.mem_map] at he
    obtain ⟨e0, he0, rfl⟩ := he
    obtain ⟨h0, h1⟩ := hr e0 he0
    unfold remapEdge
    rw [if_neg (by omega)]
    dsimp only
    have hv : e0.vertex.toNat ∈ referencedVerts vertices.length edges :=
      (mem_referencedVerts _ _ _).2 ⟨by omega, e0, he0, by omega⟩
    have hk : e0.vertex.toNat < (List.range vertices.length).length := by simp; omega
    obtain ⟨-, h2⟩ := newIdxsLoop_spec (referencedVerts vertices.length edges)
      (List.range vertices.length) 0
    have h3 := h2 e0.vertex.toNat hk
    simp only [List.getElem_range, hv, if_true, Int.zero_add] at h3
    rw [List.getD_eq_getElem?_getD, h3, Option.getD_some]
    have := newIdx_lt vertices.length edges e0.vertex.toNat hv
    omega
  · intro e he
    simp only [compactVerts, List.mem_map] at he
    obtain ⟨e0, he0, rfl⟩ := he
    refine ⟨e0, he0, ?_⟩
    unfold remapEdge
    split <;> exact ⟨rfl, rfl⟩

/-- What `fixDupFaces` keeps of a triangle list with valid vertex indices: three
half-edges per triangle, valid vertex indices, and the fields `prev` and `twin` of input
half-edges. -/
theorem fixDupFaces_keeps_form (m m1 : Mesh) (hf : m.fixDupFaces = some m1)
    (hr : verticesInRange m) :
    m1.edges.length % 3 = m.edges.length % 3 ∧ verticesInRange m1 ∧
    (∀ e ∈ m1.edges, ∃ e0 ∈ m.edges, e.twin = e0.twin ∧ e.prev = e0.prev) ∧
    (m1.edges = [] → m1.vertices = []) := by
  unfold Mesh.fixDupFaces at hf
  split at hf
  · simp at hf
  · rename_i edges' hloop
    simp only [Option.some.injEq] at hf
    subst hf
    obtain ⟨a1, a2⟩ := fixDupLoop_mem _ _ _ _ _ hloop
    obtain ⟨b1, b2, b3, b4⟩ := compactVerts_inRange m.vertices edges'
      (fun e he => hr e (a1 e he))
    refine ⟨by rw [← a2]; show (compactVerts m.vertices edges').2.length % 3 = _;
                rw [compactVerts_edges_length], b2, ?_, ?_⟩
    · intro e he
      obtain ⟨e0, he0, h⟩ := b3 e he
      exact ⟨e0, a1 e0 he0, h⟩
    · intro he
      apply b4
      have : (compactVerts m.vertices edges').2.length = 0 := by
        show ({ m with vertices := (compactVerts m.vertices edges').1,
                       edges := (compactVerts m.vertices edges').2 } : Mesh).edges.length = 0
        rw [he]; rfl
      rw [compactVerts_edges_length] at this
      exact List.length_eq_zero.1 this

/-! ### The loaded mesh -/

/-- On a triangle list with a repeated directed pair `computeTopology` clears the mesh. -/
theorem computeTopology_clears (m : Mesh) (h3 : m.edges.length % 3 = 0) (hr : verticesInRange m)
    (ht : ∀ e ∈ m.edges, e.twin = -1) (hdup : ¬ (directedPairs m.edges).Nodup) :
    m.computeTopology = some { m with vertices := [], edges := [] } := by
  obtain ⟨r, hr1, hr2⟩ := topoLoop_spec m.edges m.vertices.length h3 hr m.edges.length 0 []
    m.vertices (setPrevs 0 m.edges) (by omega) rfl (topoInv_init m.edges ht)
  rcases hr2 with ⟨e, -⟩ | ⟨-, hem', hinv⟩
  · simp only [Mesh.computeTopology, hr1, e]
  · exfalso
    apply hdup
    unfold directedPairs
    apply (List.nodup_map_iff_inj_on (List.nodup_range _)).2
    intro j hj j' hj' e
    exact hinv.2.2.2.1 j j' (List.mem_range.1 hj) (List.mem_range.1 hj') e

/-- In a mesh `computeTopology` did not clear no two half-edges have the same directed
pair. -/
theorem topoInv_directedPair_inj (es0 es : List MeshEdge) (hem : List ((Int × Int) × Int))
    (h3 : es0.length % 3 = 0) (hinv : topoInv es0 es0.length hem es) :
    ∀ i j : Nat, i < es.length → j < es.length →
      directedPair es i = directedPair es j → i = j := by
  intro i j hi hj hp
  have hlen := hinv.1
  rw [hlen] at hi hj
  obtain ⟨a1, a2⟩ := topoInv_pairs es0 es _ hem h3 hinv i hi
  obtain ⟨b1, b2⟩ := topoInv_pairs es0 es _ hem h3 hinv j hj
  apply hinv.2.2.2.1 i j hi hj
  simp only [directedPair, Prod.mk.injEq] at hp ⊢
  exact ⟨a2.symm.trans (hp.1.trans b2), a1.symm.trans (hp.2.trans b1)⟩

theorem computeVertexNormals_empty (vnormalize : Vector3 → Vector3) (m : Mesh) :
    Mesh.computeVertexNormals vnormalize { m with vertices := [], edges := [] } =
      some { m with vertices := [], edges := [] } := by
  simp [Mesh.computeVertexNormals, faceNormalLoop]

theorem reconstruct_eq (vnormalize : Vector3 → Vector3) (m : Mesh) (hv : m.vertices ≠ [])
    (hr : verticesInRange m) :
    m.reconstruct vnormalize =
      match m.fixDupFaces with
      | none => none
      | some m1 =>
        match m1.computeTopology with
        | none => none
        | some m2 => m2.computeVertexNormals vnormalize := by
  have hany : ¬ (m.edges.any (fun e =>
      decide (e.vertex < 0 ∨ e.vertex ≥ (m.vertices.length : Int))) = true) := by
    intro h
    obtain ⟨e, he, h⟩ := List.any_eq_true.1 h
    have := hr e he
    have h' := of_decide_eq_true h
    omega
  unfold Mesh.reconstruct
  rw [if_neg (by simpa using hv), if_neg hany]

/-- C21, the claim as written fails: the triangles `(0,1,2)` and `(0,1,3)` both have the
half-edge from 0 to 1; the loader leaves the empty mesh, and `integrityCheck` on it
returns true. -/
theorem integrityCheck_true_after_duplicate_edge :
    directedPair sharedEdgeInput.edges 1 = (0, 1) ∧
    directedPair sharedEdgeInput.edges 4 = (0, 1) ∧
    (sharedEdgeInput.reconstruct absNormalize).map
      (fun m => (m.vertices.length, m.edges.length, m.integrityCheck)) = some (0, 0, true) := by
  refine ⟨by decide, by decide, by decide!⟩

/-- C21, amended: for every triangle list with valid vertex indices in which, after
`fixDupFaces`, two half-edges have the same directed pair, `computeTopology` clears the
mesh: the loader leaves the mesh without vertices and half-edges, and `integrityCheck` on
it returns true. -/
theorem reconstruct_clears_duplicate_edge (vnormalize : Vector3 → Vector3) (m m1 : Mesh)
    (hv : m.vertices ≠ []) (h3 : m.edges.length % 3 = 0) (hr : verticesInRange m)
    (ht : ∀ e ∈ m.edges, e.twin = -1) (hf : m.fixDupFaces = some m1)
    (hdup : ¬ (directedPairs m1.edges).Nodup) :
    ∃ m', m.reconstruct vnormalize = some m' ∧ m'.vertices = [] ∧ m'.edges = [] ∧
      m'.integrityCheck = true := by
  obtain ⟨a1, a2, a3, -⟩ := fixDupFaces_keeps_form m m1 hf hr
  have ht1 : ∀ e ∈ m1.edges, e.twin = -1 := by
    intro e he
    obtain ⟨e0, he0, h, -⟩ := a3 e he
    rw [h]
    exact ht e0 he0
  have hc := computeTopology_clears m1 (by omega) a2 ht1 hdup
  refine ⟨{ m1 with vertices := [], edges := [] }, ?_, rfl, rfl, rfl⟩
  rw [reconstruct_eq vnormalize m hv hr, hf]
  simp only [hc]
  exact computeVertexNormals_empty vnormalize m1

/-- C21, instance: the two triangles `(0,1,2)` and `(0,1,3)`. -/
theorem reconstruct_clears_duplicate_edge_witness :
    sharedEdgeInput.vertices ≠ [] ∧ sharedEdgeInput.edges.length % 3 = 0 ∧
    verticesInRange sharedEdgeInput ∧ (∀ e ∈ sharedEdgeInput.edges, e.twin = -1) ∧
    sharedEdgeInput.fixDupFaces = some sharedEdgeInput ∧
    ¬ (directedPairs sharedEdgeInput.edges).Nodup ∧
    ∃ m', sharedEdgeInput.reconstruct absNormalize = some m' ∧ m'.vertices = [] ∧
      m'.edges = [] ∧ m'.integrityCheck = true :=
  ⟨by decide, by decide, by decide, by decide, by decide!, by decide,
    reconstruct_clears_duplicate_edge absNormalize sharedEdgeInput sharedEdgeInput (by decide)
      (by decide) (by decide) (by decide) (by decide!) (by decide)⟩

/-- C22, the claim as written fails: a single triangle is loaded into a mesh with three
vertices on which `integrityCheck` returns false, and two tetrahedra side by side are
loaded into a mesh on which `integrityCheck` returns true and `isConnected` returns
false. -/
theorem loaded_mesh_not_checked :
    (oneTriangleInput.reconstruct absNormalize).map
      (fun m => (m.vertices.length, m.integrityCheck)) = some (3, false) ∧
    (twoTetraInput.reconstruct absNormalize).map
      (fun m => (m.vertices.length, m.integrityCheck, m.isConnected 100)) =
        some (8, true, some false) := by
  refine ⟨by decide!, by decide!⟩

/-- C22, amended: a mesh the constructor leaves with vertices has half-edges, three per
triangle, that point to existing vertices, and no two of them have the same directed
pair. The results of `integrityCheck` and `isConnected` are not among the guarantees: the
constructor prints the first and does not call the second. -/
theorem reconstruct_nonempty_form (vnormalize : Vector3 → Vector3) (m l : Mesh)
    (h3 : m.edges.length % 3 = 0) (ht : ∀ e ∈ m.edges, e.twin = -1)
    (hl : m.reconstruct vnormalize = some l) (hne : l.vertices ≠ []) :
    l.edges ≠ [] ∧ l.edges.length % 3 = 0 ∧ verticesInRange l ∧
    ∀ i j : Nat, i < l.edges.length → j < l.edges.length →
      directedPair l.edges i = directedPair l.edges j → i = j := by
  have hv : m.vertices ≠ [] := by
    intro h
    unfold Mesh.reconstruct at hl
    rw [if_pos (by simp [h]), Option.some.injEq] at hl
    exact hne (hl ▸ h)
  have hr : verticesInRange m := by
    by_contra hnr
    unfold Mesh.reconstruct at hl
    rw [if_neg (by simpa using hv), if_pos, Option.some.injEq] at hl
    · exact hne (hl ▸ rfl)
    · simp only [verticesInRange, not_forall] at hnr
      obtain ⟨e, he, h⟩ := hnr
      simp only [List.any_eq_true, decide_eq_true_eq]
      exact ⟨e, he, by omega⟩
  rw [reconstruct_eq vnormalize m hv hr] at hl
  cases hf : m.fixDupFaces with
  | none => simp [hf] at hl
  | some m1 =>
    simp only [hf] at hl
    obtain ⟨a1, a2, a3, a4⟩ := fixDupFaces_keeps_form m m1 hf hr
    have ht1 : ∀ e ∈ m1.edges, e.twin = -1 := by
      intro e he
      obtain ⟨e0, he0, h, -⟩ := a3 e he
      rw [h]
      exact ht e0 he0
    have h31 : m1.edges.length % 3 = 0 := by omega
    obtain ⟨m2, hm2, hcase⟩ := computeTopology_spec m1 h31 a2 ht1
    simp only [hm2] at hl
    rcases hcase with ⟨c1, c2, -⟩ | ⟨c1, hem', hinv⟩
    · exfalso
      have : m2 = { m2 with vertices := [], edges := [] } := by
        cases m2
        simp only at c1 c2
        subst c1 c2
        rfl
      rw [this, computeVertexNormals_empty, Option.some.injEq] at hl
      exact hne (hl ▸ rfl)
    · have hlen2 : m2.edges.length = m1.edges.length := hinv.1
      have hr2 : verticesInRange m2 := by
        intro e he
        obtain ⟨j, hj, rfl⟩ := List.getElem_of_mem he
        obtain ⟨e', he', hv', -⟩ := hinv.2.1 j (by omega)
        rw [List.getElem?_eq_getElem hj, Option.some.injEq] at he'
        rw [he', hv', c1]
        exact tgtOf_range m1.edges _ a2 j (by omega)
      obtain ⟨out, ho, hpos⟩ := computeVertexNormals_positions vnormalize m2 (by omega) hr2
      rw [hl, Option.some.injEq] at ho
      subst ho
      have hedges : l.edges = m2.edges := by
        unfold Mesh.computeVertexNormals at hl
        dsimp only at hl
        split at hl
        · simp at hl
        · simp only [Option.some.injEq] at hl
          rw [← hl]
      have hvl : l.vertices.length = m2.vertices.length := by
        have := congrArg List.length hpos
        simpa using this
      have hne2 : m2.edges ≠ [] := by
        intro h
        have h1 : m1.edges = [] := List.length_eq_zero.1 (by rw [← hlen2, h]; rfl)
        have h2 := a4 h1
        apply hne
        apply List.length_eq_zero.1
        rw [hvl, c1, h2]
        rfl
      refine ⟨by rw [hedges]; exact hne2, by rw [hedges]; omega, ?_, ?_⟩
      · intro e he
        rw [hedges] at he
        rw [hvl]
        exact hr2 e he
      · rw [hedges]
        exact topoInv_directedPair_inj m1.edges m2.edges hem' h31 hinv

/-- C22, instance: the tetrahedron. -/
theorem reconstruct_nonempty_form_witness :
    tetraInput.edges.length % 3 = 0 ∧ (∀ e ∈ tetraInput.edges, e.twin = -1) ∧
    tetraInput.reconstruct absNormalize =
      some ((tetraInput.reconstruct absNormalize).getD {}) ∧
    ((tetraInput.reconstruct absNormalize).getD {}).vertices ≠ [] ∧
    (((tetraInput.reconstruct absNormalize).getD {}).edges ≠ [] ∧
      ((tetraInput.reconstruct absNormalize).getD {}).edges.length % 3 = 0 ∧
      verticesInRange ((tetraInput.reconstruct absNormalize).getD {}) ∧
      ∀ i j : Nat, i < ((tetraInput.reconstruct absNormalize).getD {}).edges.length →
        j < ((tetraInput.reconstruct absNormalize).getD {}).edges.length →
        directedPair ((tetraInput.reconstruct absNormalize).getD {}).edges i =
          directedPair ((tetraInput.reconstruct absNormalize).getD {}).edges j → i = j) :=
  have h1 := eq_some_getD (tetraInput.reconstruct absNormalize) {} (by decide!)
  have h2 : ((tetraInput.reconstruct absNormalize).getD {}).vertices ≠ [] := by decide!
  ⟨by decide, by decide, h1, h2,
    reconstruct_nonempty_form absNormalize tetraInput _ (by decide) (by decide) h1 h2⟩

/-! ### canSee -/

theorem div?_hundred (v : Vector3) :
    v.div? 100 = some (v.1 / 100, v.2.1 / 100, v.2.2 / 100) := by
  simp [Vector3.div?]

theorem samplePoint_succ (v1 v2 : Vector3) (k : Nat) :
    (samplePoint v1 v2 k).add ((v2.sub v1).1 / 100, (v2.sub v1).2.1 / 100, (v2.sub v1).2.2 / 100)
      = samplePoint v1 v2 (k + 1) := by
  simp only [samplePoint, Vector3.add, Vector3.sub, Vector3.smul, Nat.cast_add, Nat.cast_one]
  refine Prod.ext ?_ (Prod.ext ?_ ?_) <;> simp only <;> ring

theorem samplePoint_zero (v1 v2 : Vector3) :
    v1.add ((v2.sub v1).1 / 100, (v2.sub v1).2.1 / 100, (v2.sub v1).2.2 / 100)
      = samplePoint v1 v2 0 := by
  simp only [samplePoint, Vector3.add, Vector3.sub, Vector3.smul, Nat.cast_zero]
  refine Prod.ext ?_ (Prod.ext ?_ ?_) <;> simp only <;> ring

/-- What a result of the loop of `canSee` tells: the record holds the sample points in
order, `left` was not negative at any of them, all but the last have a field value of at
most `maxVal`, and the exit fixes the test the last pass took. -/
theorem canSeeLoop_trace (field : Vector3 → ℚ) (vlen : Vector3 → ℚ) (v1 v2 : Vector3) :
    ∀ (fuel k : Nat) (seen : List Vector3) (ex : CanSeeExit) (samples : List Vector3),
      seen.length = k →
      (∀ j : Nat, j < k → seen[j]? = some (samplePoint v1 v2 j)) →
      (∀ j : Nat, j < k → field (samplePoint v1 v2 j) ≤ maxVal ∧ 0 ≤ leftAt vlen v1 v2 j) →
      canSeeLoop field (field v2) (vlen (v2.sub v1) / 100)
        ((v2.sub v1).1 / 100, (v2.sub v1).2.1 / 100, (v2.sub v1).2.2 / 100) fuel
        (samplePoint v1 v2 k) (leftAt vlen v1 v2 k) seen = some (ex, samples) →
      (∀ j : Nat, j < samples.length → samples[j]? = some (samplePoint v1 v2 j)) ∧
      (∀ j : Nat, j < samples.length → 0 ≤ leftAt vlen v1 v2 j) ∧
      (∀ j : Nat, j + 1 < samples.length → field (samplePoint v1 v2 j) ≤ maxVal) ∧
      (ex = .exceeded → 0 < samples.length ∧
        maxVal < field (samplePoint v1 v2 (samples.length - 1))) ∧
      (ex = .earlyOut → 0 < samples.length ∧
        field (samplePoint v1 v2 (samples.length - 1)) ≤ maxVal ∧
        field (samplePoint v1 v2 (samples.length - 1)) + field v2 +
          leftAt vlen v1 v2 (samples.length - 1) ≤ maxVal) ∧
      (ex = .finished → leftAt vlen v1 v2 samples.length < 0 ∧
        ∀ j : Nat, j < samples.length → field (samplePoint v1 v2 j) ≤ maxVal) := by
  intro fuel
  induction fuel with
  | zero =>
    intro k seen ex samples hk hs hf h
    simp only [canSeeLoop] at h
    split at h
    · simp at h
    · rename_i hneg
      simp only [Option.some.injEq, Prod.mk.injEq] at h
      obtain ⟨rfl, rfl⟩ := h
      rw [hk]
      refine ⟨hs, fun j hj => (hf j hj).2, fun j hj => (hf j (by omega)).1, by simp, by simp, ?_⟩
      intro _
      exact ⟨lt_of_not_ge hneg, fun j hj => (hf j hj).1⟩
  | succ fuel ih =>
    intro k seen ex samples hk hs hf h
    have hlen : (seen ++ [samplePoint v1 v2 k]).length = k + 1 := by simp [hk]
    have hs' : ∀ j : Nat, j < k + 1 →
        (seen ++ [samplePoint v1 v2 k])[j]? = some (samplePoint v1 v2 j) := by
      intro j hj
      by_cases hjk : j < k
      · rw [List.getElem?_append_left (by omega)]
        exact hs j hjk
      · have : j = k := by omega
        subst this
        rw [List.getElem?_append_right (by omega)]
        simp [hk]
    simp only [canSeeLoop] at h
    split at h
    · rename_i hpos
      split at h
      · rename_i hex
        simp only [Option.some.injEq, Prod.mk.injEq] at h
        obtain ⟨rfl, rfl⟩ := h
        rw [hlen]
        refine ⟨hs', ?_, fun j hj => (hf j (by omega)).1, ?_, by simp, by simp⟩
        · intro j hj
          by_cases hjk : j < k
          · exact (hf j hjk).2
          · have : j = k := by omega
            subst this
            exact hpos
        · intro _
          exact ⟨by omega, by simpa using hex⟩
      · rename_i hex
        split at h
        · rename_i hearly
          simp only [Option.some.injEq, Prod.mk.injEq] at h
          obtain ⟨rfl, rfl⟩ := h
          rw [hlen]
          refine ⟨hs', ?_, fun j hj => (hf j (by omega)).1, by simp, ?_, by simp⟩
          · intro j hj
            by_cases hjk : j < k
            · exact (hf j hjk).2
            · have : j = k := by omega
              subst this
              exact hpos
          · intro _
            exact ⟨by omega, by simpa using le_of_not_gt hex, by simpa using hearly⟩
        · rw [samplePoint_succ] at h
          have hleft : leftAt vlen v1 v2 k - vlen (v2.sub v1) / 100 = leftAt vlen v1 v2 (k + 1) := by
            simp only [leftAt, Nat.cast_add, Nat.cast_one]
            ring
          rw [hleft] at h
          refine ih (k + 1) _ ex samples hlen hs' ?_ h
          intro j hj
          by_cases hjk : j < k
          · exact hf j hjk
          · have : j = k := by omega
            subst this
            exact ⟨le_of_not_gt hex, hpos⟩
    · rename_i hneg
      simp only [Option.some.injEq, Prod.mk.injEq] at h
      obtain ⟨rfl, rfl⟩ := h
      rw [hk]
      refine ⟨hs, fun j hj => (hf j hj).2, fun j hj => (hf j (by omega)).1, by simp, by simp, ?_⟩
      intro _
      exact ⟨lt_of_not_ge hneg, fun j hj => (hf j hj).1⟩

/-- The loop of `canSee` ends within `fuel` passes when `left` would be negative after
that many decrements. -/
theorem canSeeLoop_isSome (field : Vector3 → ℚ) (atV2 leftInc : ℚ) (diff : Vector3) :
    ∀ (fuel : Nat) (cur : Vector3) (left : ℚ) (seen : List Vector3),
      left < (fuel : ℚ) * leftInc →
      (canSeeLoop field atV2 leftInc diff fuel cur left seen).isSome = true := by
  intro fuel
  induction fuel with
  | zero =>
    intro cur left seen h
    simp only [Nat.cast_zero, zero_mul] at h
    simp only [canSeeLoop]
    rw [if_neg (not_le.2 h)]
    rfl
  | succ fuel ih =>
    intro cur left seen h
    simp only [canSeeLoop]
    split
    · split
      · rfl
      · split
        · rfl
        · apply ih
          push_cast at h
          linarith
    · rfl

/-- C33, failing input: from `(0,0,0)` to `(100,0,0)` in a field with the constant value
0.0015 the loop evaluates the field at 101 points, and the last one, `(101,0,0)`, is not on
the segment: `cur` starts at `v1 + diff` while `left` starts at the whole length, so the
loop `while(left >= 0.)` runs one pass beyond `v2`. -/
theorem canSee_samples_beyond_segment :
    (canSeeTrace flatField absLength 200 (0, 0, 0) (100, 0, 0)).map
      (fun r => (r.1, r.2.length, r.2.getLast?)) =
        some (CanSeeExit.finished, 101, some (101, 0, 0)) ∧
    ¬ onSegment (0, 0, 0) (100, 0, 0) (101, 0, 0) := by
  refine ⟨by decide!, ?_⟩
  rintro ⟨t, -, h1, h⟩
  simp only [Vector3.add, Vector3.sub, Vector3.smul, Prod.mk.injEq] at h
  linarith [h.1]

/-- The samples of `canSee`: when `v1` and `v2` differ in length, `canSee` returns after
evaluating the field at `v2` and at no more than 101 sample points; sample `j` (counted
from 0) is `v1 + (j + 1) * (v2 - v1) / 100`, so the first 100 lie on the segment from `v1`
to `v2` and sample 100 lies beyond `v2`. All samples but the last have a field value of at
most `maxVal`, and `canSee` returns false exactly when the last one exceeds `maxVal`. -/
theorem canSee_samples (field : Vector3 → ℚ) (vlen : Vector3 → ℚ) (v1 v2 : Vector3)
    (fuel : Nat) (hpos : 0 < vlen (v2.sub v1)) (hfuel : 101 ≤ fuel) :
    ∃ ex samples, canSeeTrace field vlen fuel v1 v2 = some (ex, samples) ∧
      canSee field vlen fuel v1 v2 = some ex.value ∧
      0 < samples.length ∧ samples.length ≤ 101 ∧
      (∀ j : Nat, j < samples.length → samples[j]? = some (samplePoint v1 v2 j)) ∧
      (∀ j : Nat, j < 100 → onSegment v1 v2 (samplePoint v1 v2 j)) ∧
      (∀ j : Nat, j + 1 < samples.length → field (samplePoint v1 v2 j) ≤ maxVal) ∧
      (ex.value = false ↔ maxVal < field (samplePoint v1 v2 (samples.length - 1))) := by
  have hsome := canSeeLoop_isSome field (field v2) (vlen (v2.sub v1) / 100)
    ((v2.sub v1).1 / 100, (v2.sub v1).2.1 / 100, (v2.sub v1).2.2 / 100) fuel
    (samplePoint v1 v2 0) (leftAt vlen v1 v2 0) [] (by
      have : (101 : ℚ) ≤ (fuel : ℚ) := by exact_mod_cast hfuel
      simp only [leftAt, Nat.cast_zero, zero_mul, sub_zero]
      nlinarith)
  obtain ⟨⟨ex, samples⟩, hres⟩ := Option.isSome_iff_exists.1 hsome
  obtain ⟨t1, t2, t3, t4, t5, t6⟩ := canSeeLoop_trace field vlen v1 v2 fuel 0 [] ex samples rfl
    (fun j hj => absurd hj (Nat.not_lt_zero j)) (fun j hj => absurd hj (Nat.not_lt_zero j)) hres
  have htr : canSeeTrace field vlen fuel v1 v2 = some (ex, samples) := by
    simp only [canSeeTrace, div?_hundred, samplePoint_zero]
    simpa [leftAt] using hres
  have hlen0 : 0 < samples.length := by
    cases ex with
    | exceeded => exact (t4 rfl).1
    | earlyOut => exact (t5 rfl).1
    | finished =>
      rcases Nat.eq_zero_or_pos samples.length with h0 | h0
      · have := (t6 rfl).1
        rw [h0] at this
        simp only [leftAt, Nat.cast_zero, zero_mul, sub_zero] at this
        linarith
      · exact h0
  have hlen : samples.length ≤ 101 := by
    by_contra hc
    have := t2 101 (by omega)
    simp only [leftAt] at this
    push_cast at this
    linarith
  refine ⟨ex, samples, htr, by simp [canSee, htr], hlen0, hlen, t1, ?_, t3, ?_⟩
  · intro j hj
    refine ⟨((j : ℚ) + 1) / 100, by positivity, ?_, rfl⟩
    have : ((j : ℚ) + 1) ≤ 100 := by exact_mod_cast hj
    linarith
  · cases ex with
    | exceeded => simpa [CanSeeExit.value] using (t4 rfl).2
    | earlyOut => simpa [CanSeeExit.value] using (t5 rfl).2.1
    | finished => simpa [CanSeeExit.value] using (t6 rfl).2 (samples.length - 1) (by omega)

/-- The samples of `canSee` from `(0,0,0)` to `(100,0,0)` in the constant field. -/
theorem canSee_samples_witness :
    0 < absLength (Vector3.sub (100, 0, 0) (0, 0, 0)) ∧ 101 ≤ 200 ∧
    ∃ ex samples, canSeeTrace flatField absLength 200 (0, 0, 0) (100, 0, 0) =
        some (ex, samples) ∧
      canSee flatField absLength 200 (0, 0, 0) (100, 0, 0) = some ex.value ∧
      0 < samples.length ∧ samples.length ≤ 101 ∧
      (∀ j : Nat, j < samples.length →
        samples[j]? = some (samplePoint (0, 0, 0) (100, 0, 0) j)) ∧
      (∀ j : Nat, j < 100 → onSegment (0, 0, 0) (100, 0, 0) (samplePoint (0, 0, 0) (100, 0, 0) j)) ∧
      (∀ j : Nat, j + 1 < samples.length →
        flatField (samplePoint (0, 0, 0) (100, 0, 0) j) ≤ maxVal) ∧
      (ex.value = false ↔
        maxVal < flatField (samplePoint (0, 0, 0) (100, 0, 0) (samples.length - 1))) :=
  ⟨by decide!, by decide,
    canSee_samples flatField absLength (0, 0, 0) (100, 0, 0) 200 (by decide!) (by decide)⟩

theorem canSeeLoop_stuck (field : Vector3 → ℚ) (p : Vector3) (hlo : maxVal < 2 * field p)
    (hhi : field p ≤ maxVal) :
    ∀ (fuel : Nat) (seen : List Vector3),
      canSeeLoop field (field p) 0 (0, 0, 0) fuel p 0 seen = none := by
  intro fuel
  induction fuel with
  | zero =>
    intro seen
    simp [canSeeLoop]
  | succ fuel ih =>
    intro seen
    have hp : p.add (0, 0, 0) = p := by simp [Vector3.add]
    simp only [canSeeLoop, ge_iff_le, le_refl, if_true, gt_iff_lt, not_lt.2 hhi, if_false,
      hp, sub_zero, add_zero]
    rw [if_neg (by linarith)]
    exact ih _

/-- C36, the loop does not end: for `v1 = v2 = p` with `maxVal / 2 < field p <= maxVal`
the length `left` and the decrement `leftInc` are both 0, `left >= 0.` stays true, and
neither test of the loop body fires: no amount of fuel gives a result. -/
theorem canSee_same_point_never_returns (field : Vector3 → ℚ) (vlen : Vector3 → ℚ)
    (p : Vector3) (fuel : Nat) (h0 : vlen (0, 0, 0) = 0) (hlo : maxVal < 2 * field p)
    (hhi : field p ≤ maxVal) :
    canSee field vlen fuel p p = none := by
  have hs : p.sub p = (0, 0, 0) := by simp [Vector3.sub]
  have hp : p.add (0, 0, 0) = p := by simp [Vector3.add]
  simp only [canSee, canSeeTrace, hs, h0, div?_hundred, zero_div, hp, Option.map_eq_none']
  exact canSeeLoop_stuck field p hlo hhi fuel []

/-- C36, instance: the constant field 0.0015 and `v1 = v2 = (0,0,0)`. -/
theorem canSee_same_point_never_returns_witness :
    absLength (0, 0, 0) = 0 ∧ maxVal < 2 * flatField (0, 0, 0) ∧
    flatField (0, 0, 0) ≤ maxVal ∧
    canSee flatField absLength 1000 (0, 0, 0) (0, 0, 0) = none :=
  ⟨by decide!, by decide!, by decide!,
    canSee_same_point_never_returns flatField absLength (0, 0, 0) 1000 (by decide!)
      (by decide!) (by decide!)⟩

theorem bumpField_lipschitz (a b : Vector3) :
    (bumpField a - bumpField b) ^ 2 ≤ (a.sub b).dot (a.sub b) := by
  have h1 : |bumpField a - bumpField b| ≤ |a.1 - b.1| := by
    unfold bumpField
    rw [max_comm 0, max_comm 0]
    refine le_trans (abs_max_sub_max_le_abs _ _ _) ?_
    have : (1 / 2 - |a.1 - 201 / 2|) - (1 / 2 - |b.1 - 201 / 2|) =
        |b.1 - 201 / 2| - |a.1 - 201 / 2| := by ring
    rw [this]
    refine le_trans (abs_abs_sub_abs_le_abs_sub _ _) ?_
    rw [abs_sub_comm]
    apply le_of_eq
    congr 1
    ring
  have h2 : (bumpField a - bumpField b) ^ 2 ≤ (a.1 - b.1) ^ 2 := by
    rw [← sq_abs (bumpField a - bumpField b), ← sq_abs (a.1 - b.1)]
    exact pow_le_pow_left₀ (abs_nonneg _) h1 2
  simp only [Vector3.dot, Vector3.sub]
  nlinarith [sq_nonneg (a.2.1 - b.2.1), sq_nonneg (a.2.2 - b.2.2)]

/-- C34, failing input: the field `bumpField` is 1-Lipschitz, and from `(0,0,0)` to
`v2 = (100,0,0)` the loop leaves through the early-out test in pass 100, the pass beyond
`v2`, at the sample point `c = (101,0,0)`, where `left` is 0 and no bound of the distance
from `c` to `v2`. The point `(100.5,0,0)` between `c` and `v2` has the field value 0.5,
above `maxVal`, although the test passed. -/
theorem canSee_early_out_beyond_endpoint :
    (∀ a b : Vector3, (bumpField a - bumpField b) ^ 2 ≤ (a.sub b).dot (a.sub b)) ∧
    (canSeeTrace bumpField absLength 200 (0, 0, 0) (100, 0, 0)).map
      (fun r => (r.1, r.2.length, r.2.getLast?)) =
        some (CanSeeExit.earlyOut, 101, some (101, 0, 0)) ∧
    onSegment (101, 0, 0) (100, 0, 0) (201 / 2, 0, 0) ∧
    maxVal < bumpField (201 / 2, 0, 0) := by
  refine ⟨bumpField_lipschitz, by decide!, ⟨1 / 2, by norm_num, by norm_num, ?_⟩, by decide!⟩
  simp only [Vector3.add, Vector3.sub, Vector3.smul, Prod.mk.injEq]
  norm_num

/-- The early-out test in the passes up to `v2`: if the field is 1-Lipschitz for the length
`vlen` and `canSee` leaves through the early-out test at one of the first 100 sample points
`c`, then every point of the segment between `c` and `v2` has a field value of at most
`maxVal`. (Sample 100 lies beyond `v2`, and `left` does not bound its distance to `v2`.) -/
theorem canSee_early_out_bound (field : Vector3 → ℚ) (vlen : Vector3 → ℚ) (v1 v2 : Vector3)
    (fuel : Nat) (samples : List Vector3) (c : Vector3)
    (hhom : ∀ (a : ℚ) (v : Vector3), 0 ≤ a → vlen (Vector3.smul a v) = a * vlen v)
    (hlip : ∀ a b : Vector3, |field a - field b| ≤ vlen (a.sub b))
    (hres : canSeeTrace field vlen fuel v1 v2 = some (CanSeeExit.earlyOut, samples))
    (hlen : samples.length ≤ 100) (hc : samples.getLast? = some c) :
    ∀ y : Vector3, onSegment c v2 y → field y ≤ maxVal := by
  have hres' : canSeeLoop field (field v2) (vlen (v2.sub v1) / 100)
      ((v2.sub v1).1 / 100, (v2.sub v1).2.1 / 100, (v2.sub v1).2.2 / 100) fuel
      (samplePoint v1 v2 0) (leftAt vlen v1 v2 0) [] = some (CanSeeExit.earlyOut, samples) := by
    simp only [canSeeTrace, div?_hundred, samplePoint_zero] at hres
    simpa [leftAt] using hres
  obtain ⟨t1, -, -, -, t5, -⟩ := canSeeLoop_trace field vlen v1 v2 fuel 0 [] _ samples rfl
    (fun j hj => absurd hj (Nat.not_lt_zero j)) (fun j hj => absurd hj (Nat.not_lt_zero j)) hres'
  obtain ⟨hpos, -, hearly⟩ := t5 rfl
  have hcs : c = samplePoint v1 v2 (samples.length - 1) := by
    have := t1 (samples.length - 1) (by omega)
    rw [List.getLast?_eq_getElem?, this, Option.some.injEq] at hc
    exact hc.symm
  intro y hy
  obtain ⟨s, hs0, hs1, rfl⟩ := hy
  obtain ⟨n, hn⟩ : ∃ n : Nat, n = samples.length - 1 := ⟨_, rfl⟩
  rw [← hn] at hearly hcs
  have hk : (n : ℚ) + 1 ≤ 100 := by
    have : n + 1 ≤ 100 := by omega
    exact_mod_cast this
  have hk0 : (0 : ℚ) ≤ (n : ℚ) := Nat.cast_nonneg _
  simp only [samplePoint, leftAt] at hearly hcs
  generalize (n : ℚ) = k at hk hk0 hearly hcs
  have hL : 0 ≤ vlen (v2.sub v1) := le_trans (abs_nonneg _) (hlip v2 v1)
  have e1 : (c.add (Vector3.smul s (v2.sub c))).sub c =
      Vector3.smul (s * (1 - (k + 1) / 100)) (v2.sub v1) := by
    rw [hcs]
    simp only [Vector3.add, Vector3.sub, Vector3.smul]
    refine Prod.ext ?_ (Prod.ext ?_ ?_) <;> simp only <;> ring
  have e2 : v2.sub (c.add (Vector3.smul s (v2.sub c))) =
      Vector3.smul ((1 - s) * (1 - (k + 1) / 100)) (v2.sub v1) := by
    rw [hcs]
    simp only [Vector3.add, Vector3.sub, Vector3.smul]
    refine Prod.ext ?_ (Prod.ext ?_ ?_) <;> simp only <;> ring
  have ht : (0 : ℚ) ≤ 1 - (k + 1) / 100 := by linarith
  have l1 := hlip (c.add (Vector3.smul s (v2.sub c))) c
  have l2 := hlip v2 (c.add (Vector3.smul s (v2.sub c)))
  rw [e1, hhom _ _ (mul_nonneg hs0 ht)] at l1
  rw [e2, hhom _ _ (mul_nonneg (by linarith) ht)] at l2
  have l1' := (abs_le.1 l1).2
  have l2' := (abs_le.1 l2).1
  rw [← hcs] at hearly
  have hmax : (0 : ℚ) ≤ maxVal := by norm_num [maxVal]
  nlinarith

/-- The early-out test for the field `x - 1` from `(0,0,0)` to `(0.001,0,0)`: it fires at
the first sample point. -/
theorem canSee_early_out_bound_witness :
    (∀ (a : ℚ) (v : Vector3), 0 ≤ a → absLength (Vector3.smul a v) = a * absLength v) ∧
    (∀ a b : Vector3, |slopeField a - slopeField b| ≤ absLength (a.sub b)) ∧
    canSeeTrace slopeField absLength 200 (0, 0, 0) (1 / 1000, 0, 0) =
      some (CanSeeExit.earlyOut, [(1 / 100000, 0, 0)]) ∧
    [((1 : ℚ) / 100000, (0 : ℚ), (0 : ℚ))].length ≤ 100 ∧
    [((1 : ℚ) / 100000, (0 : ℚ), (0 : ℚ))].getLast? = some (1 / 100000, 0, 0) ∧
    ∀ y : Vector3, onSegment (1 / 100000, 0, 0) (1 / 1000, 0, 0) y → slopeField y ≤ maxVal :=
  have hhom : ∀ (a : ℚ) (v : Vector3), 0 ≤ a →
      absLength (Vector3.smul a v) = a * absLength v := by
    intro a v ha
    simp only [absLength, Vector3.smul, abs_mul, abs_of_nonneg ha]
    ring
  have hlip : ∀ a b : Vector3, |slopeField a - slopeField b| ≤ absLength (a.sub b) := by
    intro a b
    simp only [slopeField, absLength, Vector3.sub]
    have : a.1 - 1 - (b.1 - 1) = a.1 - b.1 := by ring
    rw [this]
    linarith [abs_nonneg (a.2.1 - b.2.1), abs_nonneg (a.2.2 - b.2.2)]
  ⟨hhom, hlip, by decide!, by decide, rfl,
    canSee_early_out_bound slopeField absLength (0, 0, 0) (1 / 1000, 0, 0) 200
      [(1 / 100000, 0, 0)] (1 / 100000, 0, 0) hhom hlip (by decide!) (by decide) rfl⟩

/-! ### The grid of the Intersector -/

theorem getIndex_inside (bounds : Rect2) (pt : Vector2) (hw : bounds.getSize.1 ≠ 0)
    (hlo : bounds.lo.1 ≤ pt.1) (hhi : pt.1 ≤ bounds.hi.1) :
    getIndex bounds pt = some (cellOf bounds pt, cellOf bounds pt) := by
  have hsz : bounds.getSize.1 = bounds.hi.1 - bounds.lo.1 := rfl
  have hpos : 0 < bounds.getSize.1 := by
    rcases lt_or_eq_of_le (show (0 : ℚ) ≤ bounds.getSize.1 by rw [hsz]; linarith) with h | h
    · exact h
    · exact absurd h.symm hw
  have hc0 : 0 ≤ (pt.1 - bounds.lo.1) / bounds.getSize.1 :=
    div_nonneg (by linarith) (le_of_lt hpos)
  have hc1 : (pt.1 - bounds.lo.1) / bounds.getSize.1 ≤ 1 := by
    rw [div_le_one hpos, hsz]
    linarith
  have hd0 : 0 ≤ (pt.1 - bounds.lo.1) / bounds.getSize.1 * 200 := by positivity
  have hd1 : (pt.1 - bounds.lo.1) / bounds.getSize.1 * 200 ≤ 200 := by linarith
  have hf0 : 0 ≤ ⌊(pt.1 - bounds.lo.1) / bounds.getSize.1 * 200⌋ := Int.floor_nonneg.2 hd0
  have hf1 : ⌊(pt.1 - bounds.lo.1) / bounds.getSize.1 * 200⌋ ≤ 200 := by
    have := Int.floor_le_floor hd1
    simpa using this
  have htr : truncToInt ((pt.1 - bounds.lo.1) / bounds.getSize.1 * 200) =
      some ⌊(pt.1 - bounds.lo.1) / bounds.getSize.1 * 200⌋ := by
    simp only [truncToInt, hd0, if_true]
    rw [if_pos ⟨by omega, by omega⟩]
  simp only [getIndex, hw, if_false, htr, cellOf]

theorem cellOf_range (bounds : Rect2) (pt : Vector2) :
    0 ≤ cellOf bounds pt ∧ cellOf bounds pt ≤ 199 := by
  simp only [cellOf, cells]
  omega

theorem cellOf_mono (bounds : Rect2) (p q : Vector2) (hw : 0 < bounds.getSize.1)
    (h : p.1 ≤ q.1) : cellOf bounds p ≤ cellOf bounds q := by
  have hd : (p.1 - bounds.lo.1) / bounds.getSize.1 * 200 ≤
      (q.1 - bounds.lo.1) / bounds.getSize.1 * 200 := by
    apply mul_le_mul_of_nonneg_right _ (by norm_num)
    exact div_le_div_of_nonneg_right (by linarith) (le_of_lt hw)
  have := Int.floor_le_floor hd
  simp only [cellOf, cells]
  omega

theorem union_ofPoint (r : Rect2) (q : Vector2) (hr : r.empty = false) :
    r.union (Rect2.ofPoint q) =
      ⟨false, (min r.lo.1 q.1, min r.lo.2 q.2), (max r.hi.1 q.1, max r.hi.2 q.2)⟩ := by
  simp [Rect2.union, Rect2.ofPoint, hr]

/-- The fold of `Rect2.ofPoints` gives a rectangle that is not empty, lies around the
starting rectangle and holds every point of the list. -/
theorem rectFold_bounds (ps : List Vector2) :
    ∀ r : Rect2, r.empty = false →
      (ps.foldl (fun r q => r.union (Rect2.ofPoint q)) r).empty = false ∧
      (ps.foldl (fun r q => r.union (Rect2.ofPoint q)) r).lo.1 ≤ r.lo.1 ∧
      r.hi.1 ≤ (ps.foldl (fun r q => r.union (Rect2.ofPoint q)) r).hi.1 ∧
      ∀ p ∈ ps, (ps.foldl (fun r q => r.union (Rect2.ofPoint q)) r).lo.1 ≤ p.1 ∧
        p.1 ≤ (ps.foldl (fun r q => r.union (Rect2.ofPoint q)) r).hi.1 := by
  induction ps with
  | nil =>
    intro r hr
    exact ⟨hr, le_refl _, le_refl _, fun p hp => absurd hp (List.not_mem_nil p)⟩
  | cons q ps ih =>
    intro r hr
    simp only [List.foldl_cons]
    obtain ⟨a, b, c, d⟩ := ih (r.union (Rect2.ofPoint q)) (by rw [union_ofPoint r q hr])
    rw [union_ofPoint r q hr] at a b c d ⊢
    simp only at b c
    refine ⟨a, le_trans b (min_le_left _ _), le_trans (le_max_left _ _) c, ?_⟩
    intro p hp
    rcases List.mem_cons.1 hp with rfl | hp
    · exact ⟨le_trans b (min_le_right _ _), le_trans (le_max_right _ _) c⟩
    · exact d p hp

theorem ofPoints_bounds (ps : List Vector2) (b : Rect2) (h : Rect2.ofPoints ps = some b) :
    b.empty = false ∧ ∀ p ∈ ps, b.lo.1 ≤ p.1 ∧ p.1 ≤ b.hi.1 := by
  cases ps with
  | nil => simp [Rect2.ofPoints] at h
  | cons q ps =>
    simp only [Rect2.ofPoints, Option.some.injEq] at h
    obtain ⟨a, b', c, d⟩ := rectFold_bounds ps (Rect2.ofPoint q) rfl
    rw [h] at a b' c d
    refine ⟨a, ?_⟩
    intro p hp
    rcases List.mem_cons.1 hp with rfl | hp
    · exact ⟨b', c⟩
    · exact d p hp

/-- The rectangle of a triangle with valid corners: it is not empty, and the first
coordinates of its corners are first coordinates of points. -/
theorem triRect_spec (points : List Vector2) (edg : List MeshEdge) (i : Nat)
    (hi : i + 2 < edg.length)
    (hv : ∀ e ∈ edg, 0 ≤ e.vertex ∧ e.vertex < (points.length : Int)) :
    ∃ r, triRect points edg i = some r ∧ r.empty = false ∧
      (∃ p ∈ points, r.lo.1 = p.1) ∧ (∃ p ∈ points, r.hi.1 = p.1) := by
  have h0 : edg[i]? = some edg[i] := List.getElem?_eq_getElem (by omega)
  have h1 : edg[i + 1]? = some edg[i + 1] := List.getElem?_eq_getElem (by omega)
  have h2 : edg[i + 2]? = some edg[i + 2] := List.getElem?_eq_getElem (by omega)
  have hp : ∀ e ∈ edg, ∃ p, idx? points e.vertex = some p ∧ p ∈ points := by
    intro e he
    obtain ⟨a, b⟩ := hv e he
    have hlt : e.vertex.toNat < points.length := by omega
    refine ⟨points[e.vertex.toNat], ?_, List.getElem_mem _⟩
    simp only [idx?, a, if_true]
    exact List.getElem?_eq_getElem hlt
  obtain ⟨p0, e0, m0⟩ := hp _ (List.getElem_mem (by omega : i < edg.length))
  obtain ⟨p1, e1, m1⟩ := hp _ (List.getElem_mem (by omega : i + 1 < edg.length))
  obtain ⟨p2, e2, m2⟩ := hp _ (List.getElem_mem (by omega : i + 2 < edg.length))
  have hu0 : ({} : Rect2).union (Rect2.ofPoint p0) = Rect2.ofPoint p0 := by
    simp [Rect2.union, Rect2.ofPoint]
  refine ⟨((({} : Rect2).union (Rect2.ofPoint p0)).union (Rect2.ofPoint p1)).union
    (Rect2.ofPoint p2), by simp only [triRect, h0, h1, h2, e0, e1, e2], ?_, ?_, ?_⟩
  · rw [hu0, union_ofPoint _ p1 rfl, union_ofPoint _ p2 rfl]
  · rw [hu0, union_ofPoint _ p1 rfl, union_ofPoint _ p2 rfl]
    simp only [Rect2.ofPoint]
    rcases min_choice (min p0.1 p1.1) p2.1 with h | h
    · rcases min_choice p0.1 p1.1 with h' | h'
      · exact ⟨p0, m0, by rw [h, h']⟩
      · exact ⟨p1, m1, by rw [h, h']⟩
    · exact ⟨p2, m2, h⟩
  · rw [hu0, union_ofPoint _ p1 rfl, union_ofPoint _ p2 rfl]
    simp only [Rect2.ofPoint]
    rcases max_choice (max p0.1 p1.1) p2.1 with h | h
    · rcases max_choice p0.1 p1.1 with h' | h'
      · exact ⟨p0, m0, by rw [h, h']⟩
      · exact ⟨p1, m1, by rw [h, h']⟩
    · exact ⟨p2, m2, h⟩

theorem mem_cellIndices (fromx tox fromy toy x y : Int) (hx : fromx ≤ x ∧ x ≤ tox)
    (hy : fromy ≤ y ∧ y ≤ toy) : y * cells + x ∈ cellIndices fromx tox fromy toy := by
  have ha : (y - fromy).toNat < (toy + 1 - fromy).toNat := by
    rw [Int.lt_toNat, Int.toNat_of_nonneg (by omega)]
    omega
  have hb : (x - fromx).toNat < (tox + 1 - fromx).toNat := by
    rw [Int.lt_toNat, Int.toNat_of_nonneg (by omega)]
    omega
  refine List.mem_flatMap.2 ⟨(y - fromy).toNat, List.mem_range.2 ha, ?_⟩
  refine List.mem_map.2 ⟨(x - fromx).toNat, List.mem_range.2 hb, ?_⟩
  rw [Int.toNat_of_nonneg (by omega), Int.toNat_of_nonneg (by omega)]
  ring

theorem cellIndices_range (fromx tox fromy toy : Int) (hx : 0 ≤ fromx ∧ tox ≤ 199)
    (hy : 0 ≤ fromy ∧ toy ≤ 199) :
    ∀ n ∈ cellIndices fromx tox fromy toy, 0 ≤ n ∧ n < 40000 := by
  intro n hn
  obtain ⟨a, ha, hn⟩ := List.mem_flatMap.1 hn
  obtain ⟨b, hb, rfl⟩ := List.mem_map.1 hn
  have ha := List.mem_range.1 ha
  have hb := List.mem_range.1 hb
  rw [Int.lt_toNat] at ha hb
  have ha0 : (0 : Int) ≤ (a : Int) := Int.ofNat_nonneg a
  have hb0 : (0 : Int) ≤ (b : Int) := Int.ofNat_nonneg b
  simp only [cells]
  constructor
  · nlinarith
  · nlinarith

theorem pushCell_spec (tr : List (List Int)) (n i : Int) (h0 : 0 ≤ n)
    (hn : n < (tr.length : Int)) :
    ∃ tr', pushCell tr n i = some tr' ∧ tr'.length = tr.length ∧
      (∀ (k : Int) (l : List Int), idx? tr k = some l →
        ∃ l', idx? tr' k = some l' ∧ ∀ a ∈ l, a ∈ l') ∧
      ∃ l', idx? tr' n = some l' ∧ i ∈ l' := by
  have hlt : n.toNat < tr.length := by omega
  have hidx : idx? tr n = some tr[n.toNat] := by
    simp only [idx?, h0, if_true]
    exact List.getElem?_eq_getElem hlt
  refine ⟨tr.set n.toNat (tr[n.toNat] ++ [i]), ?_, by simp, ?_, ?_⟩
  · simp only [pushCell, hidx, upd?, h0, hlt, and_self, if_true]
  · intro k l hk
    simp only [idx?] at hk ⊢
    split at hk
    · rename_i hk0
      rw [if_pos hk0]
      by_cases hkn : n.toNat = k.toNat
      · rw [← hkn] at hk ⊢
        rw [List.getElem?_set_self hlt]
        refine ⟨_, rfl, ?_⟩
        intro a ha
        rw [List.getElem?_eq_getElem hlt, Option.some.injEq] at hk
        rw [hk]
        exact List.mem_append_left _ ha
      · rw [List.getElem?_set_ne hkn]
        exact ⟨l, hk, fun a ha => ha⟩
    · simp at hk
  · refine ⟨tr[n.toNat] ++ [i], ?_, by simp⟩
    simp only [idx?, h0, if_true]
    rw [List.getElem?_set_self hlt]

theorem pushAll_spec (i : Int) :
    ∀ (idxs : List Int) (tr : List (List Int)),
      (∀ n ∈ idxs, 0 ≤ n ∧ n < (tr.length : Int)) →
      ∃ tr', pushAll i idxs tr = some tr' ∧ tr'.length = tr.length ∧
        (∀ (k : Int) (l : List Int), idx? tr k = some l →
          ∃ l', idx? tr' k = some l' ∧ ∀ a ∈ l, a ∈ l') ∧
        ∀ n ∈ idxs, ∃ l', idx? tr' n = some l' ∧ i ∈ l' := by
  intro idxs
  induction idxs with
  | nil =>
    intro tr _
    exact ⟨tr, rfl, rfl, fun k l hk => ⟨l, hk, fun a ha => ha⟩,
      fun n hn => absurd hn (List.not_mem_nil n)⟩
  | cons n rest ih =>
    intro tr h
    obtain ⟨hn0, hn1⟩ := h n (List.mem_cons_self _ _)
    obtain ⟨tr1, p1, p2, p3, p4⟩ := pushCell_spec tr n i hn0 hn1
    obtain ⟨tr2, q1, q2, q3, q4⟩ := ih tr1 (fun k hk => by
      rw [p2]; exact h k (List.mem_cons_of_mem _ hk))
    refine ⟨tr2, by simp only [pushAll, p1, q1], by rw [q2, p2], ?_, ?_⟩
    · intro k l hk
      obtain ⟨l1, a1, b1⟩ := p3 k l hk
      obtain ⟨l2, a2, b2⟩ := q3 k l1 a1
      exact ⟨l2, a2, fun a ha => b2 a (b1 a ha)⟩
    · intro k hk
      rcases List.mem_cons.1 hk with rfl | hk
      · obtain ⟨l1, a1, b1⟩ := p4
        obtain ⟨l2, a2, b2⟩ := q3 k l1 a1
        exact ⟨l2, a2, b2 i b1⟩
      · exact q4 k hk

/-- The grid after the passes for the triangles `0 .. n - 1`: every one of them is in all
cells between the indices of the corners of its rectangle. -/
theorem fill_spec (points : List Vector2) (edg : List MeshEdge) (bounds : Rect2)
    (hb : Rect2.ofPoints points = some bounds) (hw : bounds.getSize.1 ≠ 0)
    (hv : ∀ e ∈ edg, 0 ≤ e.vertex ∧ e.vertex < (points.length : Int)) :
    ∀ n : Nat, 3 * n ≤ edg.length →
      ∃ tr, (List.range n).foldl (fillStep points edg bounds)
          (some (List.replicate (cells * cells).toNat [])) = some tr ∧
        tr.length = 40000 ∧
        ∀ t : Nat, t < n → ∀ r, triRect points edg (3 * t) = some r →
          ∀ x y : Int, cellOf bounds r.lo ≤ x → x ≤ cellOf bounds r.hi →
            cellOf bounds r.lo ≤ y → y ≤ cellOf bounds r.hi →
            ∃ l, idx? tr (y * cells + x) = some l ∧ ((3 * t : Nat) : Int) ∈ l := by
  intro n
  induction n with
  | zero =>
    intro _
    refine ⟨_, rfl, ?_, fun t ht => absurd ht (Nat.not_lt_zero t)⟩
    rw [List.length_replicate]
    rfl
  | succ n ih =>
    intro hn
    obtain ⟨tr, h1, h2, h3⟩ := ih (by omega)
    obtain ⟨r, hr, -, ⟨p, hp, hlo⟩, ⟨q, hq, hhi⟩⟩ := triRect_spec points edg (3 * n) (by omega) hv
    obtain ⟨-, hbd⟩ := ofPoints_bounds points bounds hb
    have glo := getIndex_inside bounds r.lo hw (by rw [hlo]; exact (hbd p hp).1)
      (by rw [hlo]; exact (hbd p hp).2)
    have ghi := getIndex_inside bounds r.hi hw (by rw [hhi]; exact (hbd q hq).1)
      (by rw [hhi]; exact (hbd q hq).2)
    have hrng := cellIndices_range (cellOf bounds r.lo) (cellOf bounds r.hi)
      (cellOf bounds r.lo) (cellOf bounds r.hi)
      ⟨(cellOf_range _ _).1, (cellOf_range _ _).2⟩ ⟨(cellOf_range _ _).1, (cellOf_range _ _).2⟩
    obtain ⟨tr', p1, p2, p3, p4⟩ := pushAll_spec ((3 * n : Nat) : Int) _ tr (fun k hk => by
      have := hrng k hk
      rw [h2]
      exact ⟨this.1, by exact_mod_cast this.2⟩)
    refine ⟨tr', ?_, by rw [p2, h2], ?_⟩
    · rw [List.range_succ, List.foldl_append, h1]
      simp only [List.foldl_cons, List.foldl_nil, fillStep, hr, glo, ghi]
      exact p1
    · intro t ht r' hr' x y hx1 hx2 hy1 hy2
      by_cases htn : t < n
      · obtain ⟨l, a, b⟩ := h3 t htn r' hr' x y hx1 hx2 hy1 hy2
        obtain ⟨l', a', b'⟩ := p3 _ l a
        exact ⟨l', a', b' _ b⟩
      · have : t = n := by omega
        subst this
        rw [hr, Option.some.injEq] at hr'
        subst hr'
        exact p4 _ (mem_cellIndices _ _ _ _ x y ⟨hx1, hx2⟩ ⟨hy1, hy2⟩)

/-- C38: the grid lookup of the Intersector is complete. For a mesh of triangles with valid
vertex indices whose projected points do not all have the same first coordinate, `init`
gives a grid, and for every triangle and every projected point inside the bounds and inside
the bounding rectangle of the triangle, `getIndex` gives a cell and the cell list
`triangles[y * cells + x]` that `intersect` walks through holds the triangle, although
`getIndex` computes both `x` and `y` from the first coordinate. -/
theorem lookup_complete (m : Mesh) (v1 v2 : Vector3) (h3 : m.edges.length % 3 = 0)
    (hr : verticesInRange m)
    (hw : ∃ a ∈ m.vertices, ∃ b ∈ m.vertices, a.pos.dot v1 ≠ b.pos.dot v1) :
    ∃ s, Intersector.init m v1 v2 = some s ∧
      ∀ t : Nat, 3 * t < m.edges.length →
        ∃ r, triRect s.points m.edges (3 * t) = some r ∧
          ∀ pt2 : Vector2, s.bounds.contains pt2 = true → r.contains pt2 = true →
            ∃ x y l, getIndex s.bounds pt2 = some (x, y) ∧
              idx? s.triangles (y * cells + x) = some l ∧ s.lookup pt2 = some l ∧
              ((3 * t : Nat) : Int) ∈ l := by
  obtain ⟨a, ha, b, hb, hab⟩ := hw
  obtain ⟨points, hpts⟩ : ∃ points, points =
    m.vertices.map (fun v => (v.pos.dot v1, v.pos.dot v2)) := ⟨_, rfl⟩
  have hlen : points.length = m.vertices.length := by rw [hpts, List.length_map]
  have hne : points ≠ [] := by
    intro h
    rw [h] at hlen
    have := List.length_pos_of_mem ha
    simp at hlen
    omega
  obtain ⟨bounds, hbounds⟩ : ∃ bounds, Rect2.ofPoints points = some bounds := by
    cases points with
    | nil => exact absurd rfl hne
    | cons p ps => exact ⟨_, rfl⟩
  obtain ⟨-, hbd⟩ := ofPoints_bounds points bounds hbounds
  have hsz : bounds.getSize.1 ≠ 0 := by
    intro h
    have h' : bounds.hi.1 = bounds.lo.1 := by
      have : bounds.getSize.1 = bounds.hi.1 - bounds.lo.1 := rfl
      linarith
    have ma : (a.pos.dot v1, a.pos.dot v2) ∈ points := by
      rw [hpts]; exact List.mem_map.2 ⟨a, ha, rfl⟩
    have mb : (b.pos.dot v1, b.pos.dot v2) ∈ points := by
      rw [hpts]; exact List.mem_map.2 ⟨b, hb, rfl⟩
    have := hbd _ ma
    have := hbd _ mb
    apply hab
    simp only at *
    linarith
  have hv : ∀ e ∈ m.edges, 0 ≤ e.vertex ∧ e.vertex < (points.length : Int) := by
    intro e he
    rw [hlen]
    exact hr e he
  have hdiv : (m.edges.length + 2) / 3 = m.edges.length / 3 := by omega
  obtain ⟨tr, f1, f2, f3⟩ := fill_spec points m.edges bounds hbounds hsz hv
    (m.edges.length / 3) (by omega)
  refine ⟨⟨points, bounds, tr⟩, ?_, ?_⟩
  · simp only [Intersector.init, ← hpts, hbounds, hdiv, f1]
  · intro t ht
    obtain ⟨r, hr1, -, -, -⟩ := triRect_spec points m.edges (3 * t) (by omega) hv
    refine ⟨r, hr1, ?_⟩
    intro pt2 hin hrin
    simp only [Rect2.contains, Bool.and_eq_true, Bool.not_eq_true', decide_eq_true_eq] at hin hrin
    have hpos : 0 < bounds.getSize.1 := by
      have : bounds.getSize.1 = bounds.hi.1 - bounds.lo.1 := rfl
      rcases lt_or_eq_of_le (show (0 : ℚ) ≤ bounds.getSize.1 by linarith [hin.2.1, hin.2.2.1])
        with h | h
      · exact h
      · exact absurd h.symm hsz
    have g := getIndex_inside bounds pt2 hsz hin.2.1 hin.2.2.1
    obtain ⟨l, hl, hmem⟩ := f3 t (by omega) r hr1 (cellOf bounds pt2) (cellOf bounds pt2)
      (cellOf_mono bounds _ _ hpos hrin.2.1) (cellOf_mono bounds _ _ hpos hrin.2.2.1)
      (cellOf_mono bounds _ _ hpos hrin.2.1) (cellOf_mono bounds _ _ hpos hrin.2.2.1)
    refine ⟨_, _, l, g, hl, ?_, hmem⟩
    simp only [Intersector.lookup, Rect2.contains, hin, g, hl, Bool.not_false, decide_True,
      Bool.and_self, if_true, and_self]

/-- C38, instance: the unit square of two triangles, projected along the `z` axis. -/
theorem lookup_complete_witness :
    squareMesh.edges.length % 3 = 0 ∧ verticesInRange squareMesh ∧
    (∃ a ∈ squareMesh.vertices, ∃ b ∈ squareMesh.vertices,
      a.pos.dot (1, 0, 0) ≠ b.pos.dot (1, 0, 0)) ∧
    ∃ s, Intersector.init squareMesh (1, 0, 0) (0, 1, 0) = some s ∧
      ∀ t : Nat, 3 * t < squareMesh.edges.length →
        ∃ r, triRect s.points squareMesh.edges (3 * t) = some r ∧
          ∀ pt2 : Vector2, s.bounds.contains pt2 = true → r.contains pt2 = true →
            ∃ x y l, getIndex s.bounds pt2 = some (x, y) ∧
              idx? s.triangles (y * cells + x) = some l ∧ s.lookup pt2 = some l ∧
              ((3 * t : Nat) : Int) ∈ l :=
  have hw : ∃ a ∈ squareMesh.vertices, ∃ b ∈ squareMesh.vertices,
      a.pos.dot (1, 0, 0) ≠ b.pos.dot (1, 0, 0) :=
    ⟨⟨(0, 0, 0), (0, 0, 0), -1⟩, by decide, ⟨(1, 0, 0), (0, 0, 0), -1⟩, by decide, by decide!⟩
  ⟨by decide, by decide, hw,
    lookup_complete squareMesh (1, 0, 0) (0, 1, 0) (by decide) (by decide) hw⟩

/-! ### The vertex normals as sums -/

/-- The statement `vertices[v].normal += n` changes the normal of vertex `v` and nothing
else. -/
theorem addNormal_step (vs : List MeshVertex) (v : Int) (n : Vector3) (h0 : 0 ≤ v)
    (h1 : v < (vs.length : Int)) :
    ∃ p vs', idx? vs v = some p ∧
      upd? vs v { p with normal := p.normal.add n } = some vs' ∧ vs'.length = vs.length ∧
      ∀ j : Nat, vs'[j]? = (vs[j]?).map
        (fun q => if v = (j : Int) then { q with normal := q.normal.add n } else q) := by
  have hlt : v.toNat < vs.length := by omega
  refine ⟨vs[v.toNat], vs.set v.toNat { vs[v.toNat] with normal := (vs[v.toNat]).normal.add n },
    ?_, ?_, by simp, ?_⟩
  · simp only [idx?, h0, if_true]
    exact List.getElem?_eq_getElem hlt
  · simp only [upd?, h0, hlt, and_self, if_true]
  · intro j
    by_cases hj : v.toNat = j
    · have hv : v = (j : Int) := by omega
      subst hj
      rw [List.getElem?_set_self hlt, List.getElem?_eq_getElem hlt, Option.map_some',
        if_pos hv]
    · have hv : ¬ v = (j : Int) := by omega
      rw [List.getElem?_set_ne hj]
      cases vs[j]? with
      | none => rfl
      | some q => rw [Option.map_some', if_neg hv]

/-- The loop over the triangles of `computeVertexNormals` from triangle `t` on: each vertex
keeps its position and its half-edge, and its normal grows from the sum over the first `t`
triangles to the sum over the first `t + k`. -/
theorem faceNormalLoop_normals (vnormalize : Vector3 → Vector3) (m : Mesh)
    (hr : verticesInRange m) :
    ∀ (k t : Nat) (vs : List MeshVertex), 3 * (t + k) ≤ m.edges.length →
      vs.length = m.vertices.length →
      (∀ j : Nat, j < m.vertices.length → vs[j]? = some
        { pos := (vertexAt m.vertices (j : Int)).pos,
          normal := normalSum vnormalize m (j : Int) t,
          edge := (vertexAt m.vertices (j : Int)).edge }) →
      ∃ vs', faceNormalLoop vnormalize m.edges k (3 * t) vs = some vs' ∧
        vs'.length = m.vertices.length ∧
        ∀ j : Nat, j < m.vertices.length → vs'[j]? = some
          { pos := (vertexAt m.vertices (j : Int)).pos,
            normal := normalSum vnormalize m (j : Int) (t + k),
            edge := (vertexAt m.vertices (j : Int)).edge } := by
  intro k
  induction k with
  | zero =>
    intro t vs _ hl hinv
    exact ⟨vs, rfl, hl, hinv⟩
  | succ k ih =>
    intro t vs hk hl hinv
    have hi1 : 3 * t < m.edges.length := by omega
    have hi2 : 3 * t + 1 < m.edges.length := by omega
    have hi3 : 3 * t + 2 < m.edges.length := by omega
    obtain ⟨a1, b1⟩ := hr _ (List.getElem_mem hi1)
    obtain ⟨a2, b2⟩ := hr _ (List.getElem_mem hi2)
    obtain ⟨a3, b3⟩ := hr _ (List.getElem_mem hi3)
    have hread : ∀ v : Int, 0 ≤ v → v < (m.vertices.length : Int) →
        idx? vs v = some
          { pos := (vertexAt m.vertices v).pos,
            normal := normalSum vnormalize m v t,
            edge := (vertexAt m.vertices v).edge } := by
      intro v h0 h1
      have := hinv v.toNat (by omega)
      rw [Int.toNat_of_nonneg h0] at this
      simp only [idx?, h0, if_true]
      exact this
    have hp1 := hread _ a1 b1
    have hp2 := hread _ a2 b2
    have hp3 := hread _ a3 b3
    obtain ⟨n, hn⟩ : ∃ n, n = triangleNormal vnormalize m (3 * t) := ⟨_, rfl⟩
    have hn' : vnormalize ((((vertexAt m.vertices (m.edges[3 * t + 1]).vertex).pos).sub
        ((vertexAt m.vertices (m.edges[3 * t]).vertex).pos)).cross
        (((vertexAt m.vertices (m.edges[3 * t + 2]).vertex).pos).sub
        ((vertexAt m.vertices (m.edges[3 * t]).vertex).pos))) = n := by
      rw [hn]
      simp only [triangleNormal, edgeAt_natCast m.edges _ hi1, edgeAt_natCast m.edges _ hi2,
        edgeAt_natCast m.edges _ hi3]
    obtain ⟨q1, vs1, e1, u1, l1, s1⟩ := addNormal_step vs (m.edges[3 * t]).vertex n a1
      (by rw [hl]; exact b1)
    obtain ⟨q2, vs2, e2, u2, l2, s2⟩ := addNormal_step vs1 (m.edges[3 * t + 1]).vertex n a2
      (by rw [l1, hl]; exact b2)
    obtain ⟨q3, vs3, e3, u3, l3, s3⟩ := addNormal_step vs2 (m.edges[3 * t + 2]).vertex n a3
      (by rw [l2, l1, hl]; exact b3)
    rw [hp1, Option.some.injEq] at e1
    subst e1
    obtain ⟨vs', r1, r2, r3⟩ := ih (t + 1) vs3 (by omega) (by rw [l3, l2, l1, hl]) (by
      intro j hj
      rw [s3 j, s2 j, s1 j, hinv j hj]
      simp only [Option.map_some', normalSum, ← hn, edgeAt_natCast m.edges _ hi1,
        edgeAt_natCast m.edges _ hi2, edgeAt_natCast m.edges _ hi3]
      by_cases c1 : (m.edges[3 * t]).vertex = (j : Int) <;>
      by_cases c2 : (m.edges[3 * t + 1]).vertex = (j : Int) <;>
      by_cases c3 : (m.edges[3 * t + 2]).vertex = (j : Int) <;>
      simp [c1, c2, c3])
    refine ⟨vs', ?_, r2, ?_⟩
    · have hstep : 3 * t + 3 = 3 * (t + 1) := by ring
      simp only [faceNormalLoop, List.getElem?_eq_getElem hi1, List.getElem?_eq_getElem hi2,
        List.getElem?_eq_getElem hi3, hp1, hp2, hp3, hn', u1, e2, u2, e3, u3, hstep, r1]
    · intro j hj
      rw [r3 j hj]
      have : t + 1 + k = t + (k + 1) := by ring
      rw [this]

/-- Mesh::computeVertexNormals gives every vertex the normalised sum of the unit normals
of the triangles at its corners. -/
theorem computeVertexNormals_normalSum (vnormalize : Vector3 → Vector3) (m : Mesh)
    (h3 : m.edges.length % 3 = 0) (hr : verticesInRange m) :
    ∃ out, Mesh.computeVertexNormals vnormalize m = some out ∧
      out.vertices.length = m.vertices.length ∧
      ∀ j : Nat, j < m.vertices.length → (vertexAt out.vertices (j : Int)).normal =
        vnormalize (normalSum vnormalize m (j : Int) (m.edges.length / 3)) := by
  have hdiv : (m.edges.length + 2) / 3 = m.edges.length / 3 := by omega
  obtain ⟨vs, e, hl, hm⟩ := faceNormalLoop_normals vnormalize m hr (m.edges.length / 3) 0
    (m.vertices.map (fun v => { v with normal := (0, 0, 0) })) (by omega)
    (by rw [List.length_map]) (by
      intro j hj
      simp only [List.getElem?_map, List.getElem?_eq_getElem hj, Option.map_some', normalSum,
        vertexAt, Int.toNat_ofNat, List.getD_eq_getElem?_getD, Option.getD_some])
  rw [Nat.mul_zero] at e
  rw [Nat.zero_add] at hm
  refine ⟨{ m with vertices := vs.map (fun v => { v with normal := vnormalize v.normal }) },
    by simp only [Mesh.computeVertexNormals, hdiv, e], by simp [hl], ?_⟩
  intro j hj
  simp only [vertexAt, Int.toNat_ofNat, List.getD_eq_getElem?_getD, List.getElem?_map,
    hm j hj, Option.map_some', Option.getD_some]

theorem absLength_eq_zero (v : Vector3) (h : absLength v = 0) : v = (0, 0, 0) := by
  simp only [absLength] at h
  have h1 := abs_nonneg v.1
  have h2 := abs_nonneg v.2.1
  have h3 := abs_nonneg v.2.2
  have e1 : v.1 = 0 := abs_eq_zero.1 (by linarith)
  have e2 : v.2.1 = 0 := abs_eq_zero.1 (by linarith)
  have e3 : v.2.2 = 0 := abs_eq_zero.1 (by linarith)
  exact Prod.ext e1 (Prod.ext e2 e3)

theorem absNormalize_unit (v : Vector3) (h : v ≠ (0, 0, 0)) :
    absLength (absNormalize v) = 1 := by
  have hne : absLength v ≠ 0 := fun h0 => h (absLength_eq_zero v h0)
  have hpos : 0 < absLength v := by
    have : 0 ≤ absLength v := by
      simp only [absLength]
      linarith [abs_nonneg v.1, abs_nonneg v.2.1, abs_nonneg v.2.2]
    exact lt_of_le_of_ne this (Ne.symm hne)
  simp only [absNormalize, hne, if_false]
  have hinv : (0 : ℚ) ≤ 1 / absLength v := by positivity
  have key : ∀ c : ℚ, 0 ≤ c → absLength (Vector3.smul c v) = c * absLength v := by
    intro c hc
    simp only [absLength, Vector3.smul, abs_mul, abs_of_nonneg hc]
    ring
  rw [key _ hinv]
  field_simp

/-- C28, failing input: the loader leaves the input `sixTriangleInput` as the mesh of the
triangle `(0,1,2)` and its reverse `(0,2,1)`, which passes `integrityCheck`: the loop of
`fixDupFaces` moves `(0,2,1)` into a slot it has already passed and never compares it with
`(0,1,2)`. `writeObj` writes three vertex lines and the face lines `f 1 2 3` and `f 1 3 2`;
on reading the written file `fixDupFaces` does find the two faces on one vertex set,
removes both, and the loader leaves the empty mesh instead of the mesh that was written. -/
theorem round_trip_loses_mesh :
    (sixTriangleInput.reconstruct absNormalize).map
      (fun l => (l.vertices.map (fun v => v.pos), l.edges.map (fun e => e.vertex),
        l.integrityCheck)) =
      some ([(0, 0, 0), (1, 0, 0), (0, 1, 0)], [0, 1, 2, 0, 2, 1], true) ∧
    (sixTriangleInput.reconstruct absNormalize).bind (fun l => l.writeObj decimalPrinter) =
      some [["v", "0", "0", "0"], ["v", "1", "0", "0"], ["v", "0", "1", "0"],
        ["f", "1", "2", "3"], ["f", "1", "3", "2"]] ∧
    (Mesh.loadObj decimalScanner absNormalize
      [["v", "0", "0", "0"], ["v", "1", "0", "0"], ["v", "0", "1", "0"],
        ["f", "1", "2", "3"], ["f", "1", "3", "2"]]).map
      (fun l => (l.vertices.length, l.edges.length)) = some (0, 0) := by
  refine ⟨by decide!, by decide!, by decide!⟩

/-! ### Writing a mesh and reading it back -/

theorem readObjLine_vertex_line (sc : Scanner) (m : Mesh) (wx wy wz : String) (x y z : ℚ)
    (hx : sc.scanDouble wx = some x) (hy : sc.scanDouble wy = some y)
    (hz : sc.scanDouble wz = some z) :
    readObjLine sc m ["v", wx, wy, wz] =
      some ({ m with vertices := m.vertices ++ [{ pos := (x, y, z) }] }, false) := by
  have hf : ("v" : String).data.head? ≠ some (Char.ofNat 35) := by decide
  have hl : ¬ ("v" : String).length ≠ 1 := by decide
  unfold readObjLine
  simp only [if_neg hf, if_neg hl, if_true, List.length_cons, List.length_nil, hx, hy, hz]
  rfl

/-- The vertex lines `writeObj` writes are read back as vertices with the same positions,
when the scanner reads every printed coordinate as the coordinate. -/
theorem readObj_vertex_lines (sc : Scanner) (pr : Printer) (rest : List (List String)) :
    ∀ (vs : List MeshVertex) (m : Mesh),
      (∀ v ∈ vs, sc.scanDouble (pr.printDouble v.pos.1) = some v.pos.1 ∧
        sc.scanDouble (pr.printDouble v.pos.2.1) = some v.pos.2.1 ∧
        sc.scanDouble (pr.printDouble v.pos.2.2) = some v.pos.2.2) →
      readObj sc (vs.map (fun v =>
        ["v", pr.printDouble v.pos.1, pr.printDouble v.pos.2.1, pr.printDouble v.pos.2.2]) ++
          rest) m =
        readObj sc rest
          { m with vertices := m.vertices ++ vs.map (fun v => { pos := v.pos }) } := by
  intro vs
  induction vs with
  | nil =>
    intro m _
    simp
  | cons v vs ih =>
    intro m h
    obtain ⟨hx, hy, hz⟩ := h v (List.mem_cons_self _ _)
    simp only [List.map_cons, List.cons_append]
    conv_lhs => unfold readObj
    rw [readObjLine_vertex_line sc m _ _ _ _ _ _ hx hy hz]
    simp only
    rw [ih _ (fun w hw => h w (List.mem_cons_of_mem _ hw))]
    simp only [List.append_assoc, List.singleton_append]

theorem readObjLine_triangle_line (sc : Scanner) (m : Mesh) (w0 w1 w2 : String) (v0 v1 v2 : Int)
    (h0 : sc.scanInt w0 = some (v0 + 1)) (h1 : sc.scanInt w1 = some (v1 + 1))
    (h2 : sc.scanInt w2 = some (v2 + 1))
    (r0 : -2147483648 ≤ v0 ∧ v0 < 2147483647) (r1 : -2147483648 ≤ v1 ∧ v1 < 2147483647)
    (r2 : -2147483648 ≤ v2 ∧ v2 < 2147483647) :
    readObjLine sc m ["f", w0, w1, w2] =
      some ({ m with edges := m.edges ++
        [{ vertex := v0 }, { vertex := v1 }, { vertex := v2 }] }, false) := by
  have hf : ("f" : String).data.head? ≠ some (Char.ofNat 35) := by decide
  have hl : ¬ ("f" : String).length ≠ 1 := by decide
  have hv : ¬ ("f" : String) = "v" := by decide
  have p : ∀ v : Int, -2147483648 ≤ v ∧ v < 2147483647 → pred32 (v + 1) = some v := by
    intro v hv
    unfold pred32
    rw [if_pos (by omega)]
    simp
  unfold readObjLine
  simp only [if_neg hf, if_neg hl, if_neg hv, if_true, List.length_cons, List.length_nil,
    scanIndices, h0, h1, h2]
  rw [if_neg (by omega)]
  simp [fanLoop, p v0 r0, p v1 r1, p v2 r2]

/-- The face lines `writeObj` writes are read back as the same triangles, when the scanner
reads every printed index as the index. -/
theorem readObj_face_lines (sc : Scanner) (pr : Printer) :
    ∀ (es : List MeshEdge) (lines : List (List String)) (m : Mesh),
      writeFaces pr es = some lines →
      (∀ e ∈ es, sc.scanInt (pr.printInt (e.vertex + 1)) = some (e.vertex + 1)) →
      readObj sc lines m =
        some { m with edges := m.edges ++ es.map (fun e => { vertex := e.vertex }) }
  | [], lines, m, hw, _ => by
    simp only [writeFaces, Option.some.injEq] at hw
    subst hw
    simp [readObj]
  | [_], lines, m, hw, _ => by simp [writeFaces] at hw
  | [_, _], lines, m, hw, _ => by simp [writeFaces] at hw
  | e0 :: e1 :: e2 :: rest, lines, m, hw, hs => by
    unfold writeFaces at hw
    have s : ∀ v a : Int, succ32 v = some a →
        a = v + 1 ∧ -2147483648 ≤ v ∧ v < 2147483647 := by
      intro v a h
      unfold succ32 at h
      split at h
      · simp only [Option.some.injEq] at h
        exact ⟨h.symm, by assumption⟩
      · simp at h
    cases c0 : succ32 e0.vertex with
    | none => simp [c0] at hw
    | some a0 =>
      cases c1 : succ32 e1.vertex with
      | none => simp [c0, c1] at hw
      | some a1 =>
        cases c2 : succ32 e2.vertex with
        | none => simp [c0, c1, c2] at hw
        | some a2 =>
          cases cr : writeFaces pr rest with
          | none => simp [c0, c1, c2, cr] at hw
          | some ls =>
            simp only [c0, c1, c2, cr, Option.some.injEq] at hw
            subst hw
            obtain ⟨rfl, r0⟩ := s _ _ c0
            obtain ⟨rfl, r1⟩ := s _ _ c1
            obtain ⟨rfl, r2⟩ := s _ _ c2
            conv_lhs => unfold readObj
            rw [readObjLine_triangle_line sc m _ _ _ e0.vertex e1.vertex e2.vertex
              (hs e0 (by simp)) (hs e1 (by simp)) (hs e2 (by simp)) r0 r1 r2]
            simp only
            rw [readObj_face_lines sc pr rest ls _ cr (fun e he => hs e (by simp [he]))]
            simp only [List.append_assoc, List.map_cons, List.cons_append, List.nil_append]

theorem writeFaces_isSome (pr : Printer) :
    ∀ (es : List MeshEdge), es.length % 3 = 0 →
      (∀ e ∈ es, -2147483648 ≤ e.vertex ∧ e.vertex < 2147483647) →
      ∃ lines, writeFaces pr es = some lines
  | [], _, _ => ⟨[], rfl⟩
  | [_], h, _ => by simp at h
  | [_, _], h, _ => by simp at h
  | e0 :: e1 :: e2 :: rest, h, hr => by
    obtain ⟨ls, hls⟩ := writeFaces_isSome pr rest
      (by simp only [List.length_cons] at h; omega) (fun e he => hr e (by simp [he]))
    have s : ∀ e ∈ e0 :: e1 :: e2 :: rest, succ32 e.vertex = some (e.vertex + 1) := by
      intro e he
      unfold succ32
      rw [if_pos (hr e he)]
    refine ⟨["f", pr.printInt (e0.vertex + 1), pr.printInt (e1.vertex + 1),
      pr.printInt (e2.vertex + 1)] :: ls, ?_⟩
    unfold writeFaces
    rw [s e0 (by simp), s e1 (by simp), s e2 (by simp), hls]

/-- The file `writeObj` writes for a mesh is read back by `readObj` as the raw mesh: the
same positions and the same target vertices. -/
theorem readObj_writeObj (sc : Scanner) (pr : Printer) (l : Mesh)
    (h3 : l.edges.length % 3 = 0) (hr : verticesInRange l)
    (hsize : l.vertices.length < 2147483647)
    (hd : ∀ v ∈ l.vertices, sc.scanDouble (pr.printDouble v.pos.1) = some v.pos.1 ∧
      sc.scanDouble (pr.printDouble v.pos.2.1) = some v.pos.2.1 ∧
      sc.scanDouble (pr.printDouble v.pos.2.2) = some v.pos.2.2)
    (hi : ∀ e ∈ l.edges, sc.scanInt (pr.printInt (e.vertex + 1)) = some (e.vertex + 1)) :
    ∃ file, l.writeObj pr = some file ∧ readObj sc file {} = some l.rawOf := by
  obtain ⟨faces, hfaces⟩ := writeFaces_isSome pr l.edges h3 (fun e he => by
    have := hr e he
    omega)
  refine ⟨l.vertices.map (fun v =>
      ["v", pr.printDouble v.pos.1, pr.printDouble v.pos.2.1, pr.printDouble v.pos.2.2]) ++
      faces, by simp only [Mesh.writeObj, hfaces], ?_⟩
  rw [readObj_vertex_lines sc pr faces l.vertices {} hd,
    readObj_face_lines sc pr l.edges faces _ hfaces hi]
  rfl

theorem trianglesOf_map_vertex :
    ∀ es : List MeshEdge,
      trianglesOf (es.map (fun e => ({ vertex := e.vertex } : MeshEdge))) = trianglesOf es
  | [] => rfl
  | [_] => rfl
  | [_, _] => rfl
  | a :: b :: c :: rest => by
    simp only [List.map_cons, trianglesOf]
    rw [trianglesOf_map_vertex rest]

theorem referencedVerts_all (nv : Nat) (edges : List MeshEdge)
    (href : ∀ v : Nat, v < nv → ∃ e ∈ edges, e.vertex = (v : Int)) :
    referencedVerts nv edges = List.range nv := by
  unfold referencedVerts
  apply List.filter_eq_self.2
  intro v hv
  obtain ⟨e, he, hev⟩ := href v (List.mem_range.1 hv)
  exact List.any_eq_true.2 ⟨e, he, by simpa using hev⟩

theorem newIdxs_all (nv v : Nat) (hv : v < nv) :
    (newIdxsLoop (List.range nv) (List.range nv) 0).getD v (-1) = (v : Int) := by
  obtain ⟨-, h⟩ := newIdxsLoop_spec (List.range nv) (List.range nv) 0
  have hk : v < (List.range nv).length := by simpa using hv
  rw [List.getD_eq_getElem?_getD, h v hk]
  have hmem : (List.range nv)[v] ∈ List.range nv := List.getElem_mem _
  rw [if_pos hmem, Option.getD_some, zero_add]
  congr 1
  rw [List.take_range, Nat.min_eq_left (le_of_lt hv)]
  rw [List.countP_eq_length_filter, List.filter_eq_self.2, List.length_range]
  intro a ha
  have := List.mem_range.1 ha
  simp only [List.mem_range, decide_eq_true_eq]
  omega

theorem moveVerts_all (newIdxs : List Int) :
    ∀ (l : List Nat) (vs : List MeshVertex),
      (∀ i ∈ l, newIdxs.getD i (-1) = (i : Int)) → moveVerts newIdxs l vs = vs := by
  intro l
  induction l with
  | nil => intro vs _; rfl
  | cons i rest ih =>
    intro vs h
    unfold moveVerts
    dsimp only
    rw [h i (List.mem_cons_self _ _)]
    split
    · rw [Int.toNat_ofNat]
      have : vs.set i (vs.getD i default) = vs := by
        by_cases hi : i < vs.length
        · rw [List.getD_eq_getElem?_getD, List.getElem?_eq_getElem hi, Option.getD_some]
          apply List.ext_getElem?
          intro n
          by_cases hn : i = n
          · subst hn
            rw [List.getElem?_set_self hi, List.getElem?_eq_getElem hi]
          · rw [List.getElem?_set_ne hn]
        · exact List.set_eq_of_length_le (by omega)
      rw [this]
      exact ih vs (fun j hj => h j (List.mem_cons_of_mem _ hj))
    · exact ih vs (fun j hj => h j (List.mem_cons_of_mem _ hj))

/-- The second half of `fixDupFaces` changes nothing when every vertex is the target of a
half-edge and every half-edge points to an existing vertex. -/
theorem compactVerts_all (vertices : List MeshVertex) (edges : List MeshEdge)
    (hr : ∀ e ∈ edges, 0 ≤ e.vertex ∧ e.vertex < (vertices.length : Int))
    (href : ∀ v : Nat, v < vertices.length → ∃ e ∈ edges, e.vertex = (v : Int)) :
    compactVerts vertices edges = (vertices, edges) := by
  unfold compactVerts
  simp only [referencedVerts_all vertices.length edges href, List.length_range]
  rw [moveVerts_all _ _ _ (fun i hi => newIdxs_all _ i (List.mem_range.1 hi)),
    List.take_length]
  congr 1
  conv_rhs => rw [← List.map_id edges]
  apply List.map_congr_left
  intro e he
  obtain ⟨a, b⟩ := hr e he
  unfold remapEdge
  rw [if_neg (by omega), newIdxs_all _ _ (by omega), Int.toNat_of_nonneg a]
  rfl

/-- Mesh::fixDupFaces changes nothing on a mesh of triangles on pairwise different vertex
sets in which every vertex is the target of a half-edge. -/
theorem fixDupFaces_all (m : Mesh) (h3 : m.edges.length % 3 = 0) (hr : verticesInRange m)
    (href : ∀ v : Nat, v < m.vertices.length → ∃ e ∈ m.edges, e.vertex = (v : Int))
    (hfaces : (trianglesOf m.edges).Nodup) :
    m.fixDupFaces = some m := by
  have hloop := fixDupLoop_nodup m.edges (m.edges.length / 3) (by omega) hfaces
    (m.edges.length + 1) (by omega)
  simp only [Mesh.fixDupFaces, hloop, compactVerts_all m.vertices m.edges hr href]

/-- The loop of `computeTopology` keeps the positions of the vertices, unless it clears the
mesh. -/
theorem topoLoop_positions (nv : Nat) :
    ∀ (k i : Nat) (hem : List ((Int × Int) × Int)) (vs : List MeshVertex) (es : List MeshEdge)
      (r : List MeshVertex × List MeshEdge),
      topoLoop nv k i hem vs es = some r →
      r = ([], []) ∨ r.1.map (fun v => v.pos) = vs.map (fun v => v.pos) := by
  intro k
  induction k with
  | zero =>
    intro i hem vs es r h
    simp only [topoLoop, Option.some.injEq] at h
    subst h
    exact Or.inr rfl
  | succ k ih =>
    intro i hem vs es r h
    unfold topoLoop at h
    dsimp only at h
    split at h
    · simp at h
    · split at h
      · simp at h
      · split at h
        · simp at h
        · rename_i vtx hvtx
          split at h
          · simp at h
          · rename_i vs1 hvs1
            have hpos : vs1.map (fun v => v.pos) = vs.map (fun v => v.pos) := by
              obtain ⟨-, rfl⟩ := (upd?_eq_some _ _ _ _).1 hvs1
              exact map_pos_set vs _ vtx _ ((idx?_eq_some _ _ _).1 hvtx).2 rfl
            split at h
            · simp only [Option.some.injEq] at h
              exact Or.inl h.symm
            · split at h
              · simp at h
              · split at h
                · rcases ih _ _ _ _ _ h with h' | h'
                  · exact Or.inl h'
                  · exact Or.inr (h'.trans hpos)
                · split at h
                  · simp at h
                  · split at h
                    · simp at h
                    · split at h
                      · simp at h
                      · rcases ih _ _ _ _ _ h with h' | h'
                        · exact Or.inl h'
                        · exact Or.inr (h'.trans hpos)

theorem computeTopology_positions (m m' : Mesh) (h : m.computeTopology = some m') :
    (m'.vertices = [] ∧ m'.edges = []) ∨
      m'.vertices.map (fun v => v.pos) = m.vertices.map (fun v => v.pos) := by
  unfold Mesh.computeTopology at h
  split at h
  · simp at h
  · rename_i r hr
    simp only [Option.some.injEq] at h
    subst h
    rcases topoLoop_positions _ _ _ _ _ _ r hr with h' | h'
    · left
      rw [h']
      exact ⟨rfl, rfl⟩
    · exact Or.inr h'

theorem getD_map_vertex (es : List MeshEdge) (i : Nat) :
    ((es.map (fun e => ({ vertex := e.vertex } : MeshEdge))).getD i default).vertex =
      (es.getD i default).vertex := by
  simp only [List.getD_eq_getElem?_getD, List.getElem?_map]
  cases es[i]? with
  | none => rfl
  | some e => rfl

theorem directedPair_map_vertex (es : List MeshEdge) (i : Nat) :
    directedPair (es.map (fun e => ({ vertex := e.vertex } : MeshEdge))) i =
      directedPair es i := by
  simp only [directedPair, srcOf, tgtOf, getD_map_vertex]

/-- The loader on the raw form of a mesh of triangles on pairwise different vertex sets,
without a repeated directed pair and without an unused vertex: the result has the same
target vertices and the same positions. -/
theorem reconstruct_rawOf (vnormalize : Vector3 → Vector3) (l : Mesh)
    (hne : l.vertices ≠ []) (h3 : l.edges.length % 3 = 0) (hr : verticesInRange l)
    (href : ∀ v : Nat, v < l.vertices.length → ∃ e ∈ l.edges, e.vertex = (v : Int))
    (hfaces : (trianglesOf l.edges).Nodup)
    (hpairs : ∀ i j : Nat, i < l.edges.length → j < l.edges.length →
      directedPair l.edges i = directedPair l.edges j → i = j) :
    ∃ l', l.rawOf.reconstruct vnormalize = some l' ∧
      l'.edges.map (fun e => e.vertex) = l.edges.map (fun e => e.vertex) ∧
      l'.vertices.map (fun v => v.pos) = l.vertices.map (fun v => v.pos) := by
  have hvl : l.rawOf.vertices.length = l.vertices.length := by simp [Mesh.rawOf]
  have hel : l.rawOf.edges.length = l.edges.length := by simp [Mesh.rawOf]
  have hne' : l.rawOf.vertices ≠ [] := by
    intro h
    apply hne
    apply List.length_eq_zero.1
    rw [← hvl, h]
    rfl
  have hr' : verticesInRange l.rawOf := by
    intro e he
    simp only [Mesh.rawOf, List.mem_map] at he
    obtain ⟨e0, he0, rfl⟩ := he
    rw [hvl]
    exact hr e0 he0
  have href' : ∀ v : Nat, v < l.rawOf.vertices.length →
      ∃ e ∈ l.rawOf.edges, e.vertex = (v : Int) := by
    intro v hv
    obtain ⟨e, he, hev⟩ := href v (by omega)
    exact ⟨{ vertex := e.vertex }, List.mem_map.2 ⟨e, he, rfl⟩, hev⟩
  have hfaces' : (trianglesOf l.rawOf.edges).Nodup := by
    show (trianglesOf (l.edges.map _)).Nodup
    rw [trianglesOf_map_vertex]
    exact hfaces
  have ht' : ∀ e ∈ l.rawOf.edges, e.twin = -1 := by
    intro e he
    simp only [Mesh.rawOf, List.mem_map] at he
    obtain ⟨e0, -, rfl⟩ := he
    rfl
  have hfix := fixDupFaces_all l.rawOf (by omega) hr' href' hfaces'
  obtain ⟨m2, hm2, hcase⟩ := computeTopology_spec l.rawOf (by omega) hr' ht'
  rcases hcase with ⟨-, -, j, j', hj, hj', hjj, hd⟩ | ⟨c1, hem, hinv⟩
  · exfalso
    apply hjj
    rw [hel] at hj hj'
    apply hpairs j j' hj hj'
    have e1 := directedPair_map_vertex l.edges j
    have e2 := directedPair_map_vertex l.edges j'
    exact e1.symm.trans (hd.trans e2)
  · have hlen2 : m2.edges.length = l.rawOf.edges.length := hinv.1
    have hr2 : verticesInRange m2 := by
      intro e he
      obtain ⟨j, hj, rfl⟩ := List.getElem_of_mem he
      obtain ⟨e', he', hv', -⟩ := hinv.2.1 j (by omega)
      rw [List.getElem?_eq_getElem hj, Option.some.injEq] at he'
      rw [he', hv', c1]
      exact tgtOf_range l.rawOf.edges _ hr' j (by omega)
    obtain ⟨out, ho, hpos⟩ := computeVertexNormals_positions vnormalize m2 (by omega) hr2
    have hedges : out.edges = m2.edges := by
      unfold Mesh.computeVertexNormals at ho
      dsimp only at ho
      split at ho
      · simp at ho
      · simp only [Option.some.injEq] at ho
        rw [← ho]
    refine ⟨out, ?_, ?_, ?_⟩
    · rw [reconstruct_eq vnormalize l.rawOf hne' hr', hfix]
      simp only [hm2]
      exact ho
    · rw [hedges]
      apply List.ext_getElem?
      intro j
      simp only [List.getElem?_map]
      by_cases hj : j < l.edges.length
      · obtain ⟨e', he', hv', -⟩ := hinv.2.1 j (by omega)
        have hraw : (l.rawOf.edges.getD j default).vertex = (l.edges.getD j default).vertex :=
          getD_map_vertex l.edges j
        rw [he', List.getElem?_eq_getElem hj, Option.map_some', Option.map_some', hv', tgtOf,
          hraw, List.getD_eq_getElem?_getD, List.getElem?_eq_getElem hj,
          Option.getD_some]
      · rw [List.getElem?_eq_none (by omega), List.getElem?_eq_none (by omega)]
    · rw [hpos]
      rcases computeTopology_positions _ _ hm2 with ⟨h', -⟩ | h'
      · exfalso
        apply hne'
        apply List.length_eq_zero.1
        rw [← c1, h']
        rfl
      · rw [h']
        simp [Mesh.rawOf, List.map_map]

/-- The round trip where it holds: for every mesh with vertices whose half-edges come in
triples and point to existing vertices, in which every vertex is the target of a half-edge,
no two triangles have the same vertex set and no two half-edges the same directed pair, and
whose coordinates and vertex indices are read back from their printed form as they are:
`writeObj` writes a file, and the loader reads from it a mesh with the same triangle list
and the same vertex positions. -/
theorem writeObj_loadObj_round_trip (sc : Scanner) (pr : Printer)
    (vnormalize : Vector3 → Vector3) (l : Mesh)
    (hne : l.vertices ≠ []) (h3 : l.edges.length % 3 = 0) (hr : verticesInRange l)
    (hsize : l.vertices.length < 2147483647)
    (href : ∀ v : Nat, v < l.vertices.length → ∃ e ∈ l.edges, e.vertex = (v : Int))
    (hfaces : (trianglesOf l.edges).Nodup)
    (hpairs : ∀ i j : Nat, i < l.edges.length → j < l.edges.length →
      directedPair l.edges i = directedPair l.edges j → i = j)
    (hd : ∀ v ∈ l.vertices, sc.scanDouble (pr.printDouble v.pos.1) = some v.pos.1 ∧
      sc.scanDouble (pr.printDouble v.pos.2.1) = some v.pos.2.1 ∧
      sc.scanDouble (pr.printDouble v.pos.2.2) = some v.pos.2.2)
    (hi : ∀ e ∈ l.edges, sc.scanInt (pr.printInt (e.vertex + 1)) = some (e.vertex + 1)) :
    ∃ file l', l.writeObj pr = some file ∧ Mesh.loadObj sc vnormalize file = some l' ∧
      l'.edges.map (fun e => e.vertex) = l.edges.map (fun e => e.vertex) ∧
      l'.vertices.map (fun v => v.pos) = l.vertices.map (fun v => v.pos) := by
  obtain ⟨file, hw, hread⟩ := readObj_writeObj sc pr l h3 hr hsize hd hi
  obtain ⟨l', h1, h2, h3'⟩ := reconstruct_rawOf vnormalize l hne h3 hr href hfaces hpairs
  exact ⟨file, l', hw, by simp only [Mesh.loadObj, hread, h1], h2, h3'⟩

/-- The round trip of the tetrahedron, written and read in decimal. -/
theorem writeObj_loadObj_round_trip_witness :
    tetraMesh.vertices ≠ [] ∧ tetraMesh.edges.length % 3 = 0 ∧ verticesInRange tetraMesh ∧
    tetraMesh.vertices.length < 2147483647 ∧
    (∀ v : Nat, v < tetraMesh.vertices.length →
      ∃ e ∈ tetraMesh.edges, e.vertex = (v : Int)) ∧
    (trianglesOf tetraMesh.edges).Nodup ∧
    (∀ i j : Nat, i < tetraMesh.edges.length → j < tetraMesh.edges.length →
      directedPair tetraMesh.edges i = directedPair tetraMesh.edges j → i = j) ∧
    (∀ v ∈ tetraMesh.vertices,
      decimalScanner.scanDouble (decimalPrinter.printDouble v.pos.1) = some v.pos.1 ∧
      decimalScanner.scanDouble (decimalPrinter.printDouble v.pos.2.1) = some v.pos.2.1 ∧
      decimalScanner.scanDouble (decimalPrinter.printDouble v.pos.2.2) = some v.pos.2.2) ∧
    (∀ e ∈ tetraMesh.edges,
      decimalScanner.scanInt (decimalPrinter.printInt (e.vertex + 1)) = some (e.vertex + 1)) ∧
    ∃ file l', tetraMesh.writeObj decimalPrinter = some file ∧
      Mesh.loadObj decimalScanner absNormalize file = some l' ∧
      l'.edges.map (fun e => e.vertex) = tetraMesh.edges.map (fun e => e.vertex) ∧
      l'.vertices.map (fun v => v.pos) = tetraMesh.vertices.map (fun v => v.pos) :=
  have href : ∀ v : Nat, v < tetraMesh.vertices.length →
      ∃ e ∈ tetraMesh.edges, e.vertex = (v : Int) := by
    intro v hv
    have hv' : v < 4 := hv
    interval_cases v
    · exact ⟨⟨0, 2, 4⟩, by decide, rfl⟩
    · exact ⟨⟨1, 0, 6⟩, by decide, rfl⟩
    · exact ⟨⟨2, 1, 9⟩, by decide, rfl⟩
    · exact ⟨⟨3, 4, 11⟩, by decide, rfl⟩
  have hpairs : ∀ i j : Nat, i < tetraMesh.edges.length → j < tetraMesh.edges.length →
      directedPair tetraMesh.edges i = directedPair tetraMesh.edges j → i = j := by
    intro i j hi hj
    have hi' : i < 12 := hi
    have hj' : j < 12 := hj
    interval_cases i <;> interval_cases j <;> decide
  ⟨by decide, by decide, by decide, by decide, href, by decide, hpairs, by decide!, by decide!,
    writeObj_loadObj_round_trip decimalScanner decimalPrinter absNormalize tetraMesh
      (by decide) (by decide) (by decide) (by decide) href (by decide) hpairs (by decide!)
      (by decide!)⟩

/-- C15, failing input: the system with the hard constraint `x + y = 2` and the soft
constraint `y = 0` is solved as the claim says when `x` has the smaller identifier
(`factor` and `solve` return true, `x = 2`, `y = 0`). When `y` has the smaller identifier
the pivot search takes `y` (the first entry of the row, value 1/1.1 > .5 in a row of size
2), the substitution `y = -x + 2` leaves `x`, which occurs in no soft constraint and gets no
index, and `factor` returns false at the test `varMap.count(it->first) == 0`. -/
theorem twoVarSystem_fails_with_y_first :
    (twoVarSystemSwapped.factor exactSolver).map (fun r => r.1) = some false ∧
    (twoVarSystem.factor exactSolver).map (fun r => r.1) = some true ∧
    ((twoVarSystem.factor exactSolver).bind (fun r => r.2.solve exactSolver)).map
      (fun r => (r.1, r.2.getResult 0, r.2.getResult 1)) = some (true, some 2, some 0) := by
  refine ⟨by decide!, by decide!, by decide!⟩

end Pinocchio
